import Mathlib

/-!
# Red-black tree of `src/core/ngx_rbtree.c` and radix trie of `src/core/ngx_radix_tree.c`

Shallow embedding.  Pointers are natural numbers (addresses); memory is a record of
field maps, one map per structure member, so `m.left p` reads `p->left` and
`setLeft m p v` performs `p->left = v`.  Loops carry a fuel argument and return
`none` when the fuel is used up before the loop leaves.
-/

/-! ## Memory model for `ngx_rbtree_node_t` -/

/-- The null pointer. -/
def NULL : Nat := 0

/-- Node colour (`u_char color` of `ngx_rbtree_node_t`). -/
inductive Color where
  | red
  | black
  deriving DecidableEq, Repr

/-- Memory holding `ngx_rbtree_node_t` records, one map per member:
`key`, `left`, `right`, `parent`, `color`. -/
structure RbHeap where
  key : Nat → Nat
  left : Nat → Nat
  right : Nat → Nat
  parent : Nat → Nat
  color : Nat → Color

/-- Assignment `p->key = v`. -/
def setKey (m : RbHeap) (p v : Nat) : RbHeap := { m with key := Function.update m.key p v }

/-- Assignment `p->left = v`. -/
def setLeft (m : RbHeap) (p v : Nat) : RbHeap := { m with left := Function.update m.left p v }

/-- Assignment `p->right = v`. -/
def setRight (m : RbHeap) (p v : Nat) : RbHeap := { m with right := Function.update m.right p v }

/-- Assignment `p->parent = v`. -/
def setParent (m : RbHeap) (p v : Nat) : RbHeap :=
  { m with parent := Function.update m.parent p v }

/-- Assignment `p->color = c`. -/
def setColor (m : RbHeap) (p : Nat) (c : Color) : RbHeap :=
  { m with color := Function.update m.color p c }

/-- Modelled from the spec: the colour macros of `ngx_rbtree.h` (the header is not part of
the sources at hand); `ngx_rbt_red(node)` paints the node red. -/
def ngx_rbt_red (m : RbHeap) (node : Nat) : RbHeap := setColor m node Color.red

/-- Modelled from the spec: macro `ngx_rbt_black(node)` of `ngx_rbtree.h`, paints the node
black. -/
def ngx_rbt_black (m : RbHeap) (node : Nat) : RbHeap := setColor m node Color.black

/-- Modelled from the spec: macro `ngx_rbt_is_red(node)` of `ngx_rbtree.h`. -/
def ngx_rbt_is_red (m : RbHeap) (node : Nat) : Bool := decide (m.color node = Color.red)

/-- Modelled from the spec: macro `ngx_rbt_is_black(node)` of `ngx_rbtree.h`. -/
def ngx_rbt_is_black (m : RbHeap) (node : Nat) : Bool := !ngx_rbt_is_red m node

/-- Modelled from the spec: macro `ngx_rbt_copy_color(n1, n2)` of `ngx_rbtree.h`,
`n1->color = n2->color`. -/
def ngx_rbt_copy_color (m : RbHeap) (n1 n2 : Nat) : RbHeap := setColor m n1 (m.color n2)

/-- Modelled from the spec: `ngx_rbtree_min` of `ngx_rbtree.h` (header not at hand):
follow left links until the left child is the sentinel. -/
def ngx_rbtree_min : Nat → RbHeap → Nat → Nat → Option Nat
  | 0, _, _, _ => none
  | fuel + 1, m, node, sentinel =>
    if m.left node ≠ sentinel then ngx_rbtree_min fuel m (m.left node) sentinel
    else some node

/-! ## Rotations (`ngx_rbtree_left_rotate`, `ngx_rbtree_right_rotate`) -/

/-- Left rotation about `node`; returns the new memory and the new `*root`. -/
def ngx_rbtree_left_rotate (m : RbHeap) (root sentinel node : Nat) : RbHeap × Nat :=
  let temp := m.right node
  let m1 := setRight m node (m.left temp)
  let m2 := if m1.left temp ≠ sentinel then setParent m1 (m1.left temp) node else m1
  let m3 := setParent m2 temp (m2.parent node)
  let r : RbHeap × Nat :=
    if node = root then (m3, temp)
    else if node = m3.left (m3.parent node) then (setLeft m3 (m3.parent node) temp, root)
    else (setRight m3 (m3.parent node) temp, root)
  let m5 := setLeft r.1 temp node
  (setParent m5 node temp, r.2)

/-- Right rotation about `node`; returns the new memory and the new `*root`. -/
def ngx_rbtree_right_rotate (m : RbHeap) (root sentinel node : Nat) : RbHeap × Nat :=
  let temp := m.left node
  let m1 := setLeft m node (m.right temp)
  let m2 := if m1.right temp ≠ sentinel then setParent m1 (m1.right temp) node else m1
  let m3 := setParent m2 temp (m2.parent node)
  let r : RbHeap × Nat :=
    if node = root then (m3, temp)
    else if node = m3.right (m3.parent node) then (setRight m3 (m3.parent node) temp, root)
    else (setLeft m3 (m3.parent node) temp, root)
  let m5 := setRight r.1 temp node
  (setParent m5 node temp, r.2)

/-! ## Insertion -/

/-- The loop of `ngx_rbtree_insert_value`: descend from `temp` comparing keys, then link
`node` as a red leaf. -/
def ngx_rbtree_insert_value : Nat → RbHeap → Nat → Nat → Nat → Option RbHeap
  | 0, _, _, _, _ => none
  | fuel + 1, m, temp, node, sentinel =>
    let goLeft : Bool := decide (m.key node < m.key temp)
    let p := if goLeft then m.left temp else m.right temp
    if p = sentinel then
      let m1 := if goLeft then setLeft m temp node else setRight m temp node
      let m2 := setParent m1 node temp
      let m3 := setLeft m2 node sentinel
      let m4 := setRight m3 node sentinel
      some (ngx_rbt_red m4 node)
    else ngx_rbtree_insert_value fuel m p node sentinel

/-- Type of the insertion strategy stored in `tree->insert`
(arguments: fuel, memory, `temp`, `node`, `sentinel`). -/
abbrev ngx_rbtree_insert_pt := Nat → RbHeap → Nat → Nat → Nat → Option RbHeap

/-- The tree header `ngx_rbtree_t`: root pointer, sentinel pointer, insertion strategy. -/
structure ngx_rbtree_t where
  root : Nat
  sentinel : Nat
  insert : ngx_rbtree_insert_pt

/-- The re-balancing `while` loop of `ngx_rbtree_insert`; returns memory and `*root`. -/
def ngx_rbtree_insert_fixup : Nat → RbHeap → Nat → Nat → Nat → Option (RbHeap × Nat)
  | 0, _, _, _, _ => none
  | fuel + 1, m, root, sentinel, node =>
    if node ≠ root ∧ m.color (m.parent node) = Color.red then
      if m.parent node = m.left (m.parent (m.parent node)) then
        let temp := m.right (m.parent (m.parent node))
        if m.color temp = Color.red then
          let m1 := ngx_rbt_black m (m.parent node)
          let m2 := ngx_rbt_black m1 temp
          let m3 := ngx_rbt_red m2 (m2.parent (m2.parent node))
          ngx_rbtree_insert_fixup fuel m3 root sentinel (m3.parent (m3.parent node))
        else
          let a : (RbHeap × Nat) × Nat :=
            if node = m.right (m.parent node) then
              (ngx_rbtree_left_rotate m root sentinel (m.parent node), m.parent node)
            else ((m, root), node)
          let m1 := a.1.1
          let node1 := a.2
          let m2 := ngx_rbt_black m1 (m1.parent node1)
          let m3 := ngx_rbt_red m2 (m2.parent (m2.parent node1))
          let r := ngx_rbtree_right_rotate m3 a.1.2 sentinel (m3.parent (m3.parent node1))
          ngx_rbtree_insert_fixup fuel r.1 r.2 sentinel node1
      else
        let temp := m.left (m.parent (m.parent node))
        if m.color temp = Color.red then
          let m1 := ngx_rbt_black m (m.parent node)
          let m2 := ngx_rbt_black m1 temp
          let m3 := ngx_rbt_red m2 (m2.parent (m2.parent node))
          ngx_rbtree_insert_fixup fuel m3 root sentinel (m3.parent (m3.parent node))
        else
          let a : (RbHeap × Nat) × Nat :=
            if node = m.left (m.parent node) then
              (ngx_rbtree_right_rotate m root sentinel (m.parent node), m.parent node)
            else ((m, root), node)
          let m1 := a.1.1
          let node1 := a.2
          let m2 := ngx_rbt_black m1 (m1.parent node1)
          let m3 := ngx_rbt_red m2 (m2.parent (m2.parent node1))
          let r := ngx_rbtree_left_rotate m3 a.1.2 sentinel (m3.parent (m3.parent node1))
          ngx_rbtree_insert_fixup fuel r.1 r.2 sentinel node1
    else some (m, root)

/-- `ngx_rbtree_insert`: an empty tree takes `node` as black root; otherwise the strategy
links the node and the fixup loop re-balances; the root is painted black at the end. -/
def ngx_rbtree_insert (fuel : Nat) (m : RbHeap) (tree : ngx_rbtree_t) (node : Nat) :
    Option (RbHeap × ngx_rbtree_t) :=
  if tree.root = tree.sentinel then
    let m1 := setParent m node NULL
    let m2 := setLeft m1 node tree.sentinel
    let m3 := setRight m2 node tree.sentinel
    let m4 := ngx_rbt_black m3 node
    some (m4, { tree with root := node })
  else
    match tree.insert fuel m tree.root node tree.sentinel with
    | none => none
    | some m1 =>
      match ngx_rbtree_insert_fixup fuel m1 tree.root tree.sentinel node with
      | none => none
      | some (m2, root) => some (ngx_rbt_black m2 root, { tree with root := root })

/-! ## Deletion -/

/-- The "DEBUG stuff" of `ngx_rbtree_delete`: the removed node's links are nulled and its
key is zeroed. -/
def ngx_rbtree_delete_debug (m : RbHeap) (node : Nat) : RbHeap :=
  setKey (setParent (setRight (setLeft m node NULL) node NULL) node NULL) node 0

/-- The delete-fixup `while` loop of `ngx_rbtree_delete`; returns memory, `*root` and the
final `temp`. -/
def ngx_rbtree_delete_fixup : Nat → RbHeap → Nat → Nat → Nat → Option (RbHeap × Nat × Nat)
  | 0, _, _, _, _ => none
  | fuel + 1, m, root, sentinel, temp =>
    if temp ≠ root ∧ ngx_rbt_is_black m temp = true then
      if temp = m.left (m.parent temp) then
        let w := m.right (m.parent temp)
        let a : (RbHeap × Nat) × Nat :=
          if m.color w = Color.red then
            let m1 := ngx_rbt_black m w
            let m2 := ngx_rbt_red m1 (m1.parent temp)
            let r := ngx_rbtree_left_rotate m2 root sentinel (m2.parent temp)
            (r, r.1.right (r.1.parent temp))
          else ((m, root), w)
        let m3 := a.1.1
        let root3 := a.1.2
        let w3 := a.2
        if ngx_rbt_is_black m3 (m3.left w3) = true ∧ ngx_rbt_is_black m3 (m3.right w3) = true then
          let m4 := ngx_rbt_red m3 w3
          ngx_rbtree_delete_fixup fuel m4 root3 sentinel (m4.parent temp)
        else
          let b : (RbHeap × Nat) × Nat :=
            if ngx_rbt_is_black m3 (m3.right w3) = true then
              let m4 := ngx_rbt_black m3 (m3.left w3)
              let m5 := ngx_rbt_red m4 w3
              let r := ngx_rbtree_right_rotate m5 root3 sentinel w3
              (r, r.1.right (r.1.parent temp))
            else ((m3, root3), w3)
          let m6 := b.1.1
          let w6 := b.2
          let m7 := ngx_rbt_copy_color m6 w6 (m6.parent temp)
          let m8 := ngx_rbt_black m7 (m7.parent temp)
          let m9 := ngx_rbt_black m8 (m8.right w6)
          let r := ngx_rbtree_left_rotate m9 b.1.2 sentinel (m9.parent temp)
          ngx_rbtree_delete_fixup fuel r.1 r.2 sentinel r.2
      else
        let w := m.left (m.parent temp)
        let a : (RbHeap × Nat) × Nat :=
          if m.color w = Color.red then
            let m1 := ngx_rbt_black m w
            let m2 := ngx_rbt_red m1 (m1.parent temp)
            let r := ngx_rbtree_right_rotate m2 root sentinel (m2.parent temp)
            (r, r.1.left (r.1.parent temp))
          else ((m, root), w)
        let m3 := a.1.1
        let root3 := a.1.2
        let w3 := a.2
        if ngx_rbt_is_black m3 (m3.left w3) = true ∧ ngx_rbt_is_black m3 (m3.right w3) = true then
          let m4 := ngx_rbt_red m3 w3
          ngx_rbtree_delete_fixup fuel m4 root3 sentinel (m4.parent temp)
        else
          let b : (RbHeap × Nat) × Nat :=
            if ngx_rbt_is_black m3 (m3.left w3) = true then
              let m4 := ngx_rbt_black m3 (m3.right w3)
              let m5 := ngx_rbt_red m4 w3
              let r := ngx_rbtree_left_rotate m5 root3 sentinel w3
              (r, r.1.left (r.1.parent temp))
            else ((m3, root3), w3)
          let m6 := b.1.1
          let w6 := b.2
          let m7 := ngx_rbt_copy_color m6 w6 (m6.parent temp)
          let m8 := ngx_rbt_black m7 (m7.parent temp)
          let m9 := ngx_rbt_black m8 (m8.left w6)
          let r := ngx_rbtree_right_rotate m9 b.1.2 sentinel (m9.parent temp)
          ngx_rbtree_delete_fixup fuel r.1 r.2 sentinel r.2
    else some (m, root, temp)

/-- First part of `ngx_rbtree_delete` ("a binary tree delete"): the choice of the node
`subst` that is spliced out (`node` itself, or the minimum of its right subtree when it has
two children) and of the child `temp` that takes its place.  Returns `(temp, subst)`. -/
def ngx_rbtree_delete_select (fuel : Nat) (m : RbHeap) (sentinel node : Nat) :
    Option (Nat × Nat) :=
  if m.left node = sentinel then some (m.right node, node)
  else if m.right node = sentinel then some (m.left node, node)
  else
    match ngx_rbtree_min fuel m (m.right node) sentinel with
    | none => none
    | some subst =>
      if m.left subst ≠ sentinel then some (m.left subst, subst)
      else some (m.right subst, subst)

/-- Middle part of `ngx_rbtree_delete`, for `subst` different from the root: `temp` is
linked in the place of `subst`, and when `subst` is not `node` it takes over the links and
the colour of `node`.  Returns memory and `*root`. -/
def ngx_rbtree_delete_unlink (m : RbHeap) (root sentinel node subst temp : Nat) :
    RbHeap × Nat :=
  let m1 :=
    if subst = m.left (m.parent subst) then setLeft m (m.parent subst) temp
    else setRight m (m.parent subst) temp
  if subst = node then (setParent m1 temp (m1.parent subst), root)
  else
    let m2 :=
      if m1.parent subst = node then setParent m1 temp subst
      else setParent m1 temp (m1.parent subst)
    let m3 := setLeft m2 subst (m2.left node)
    let m4 := setRight m3 subst (m3.right node)
    let m5 := setParent m4 subst (m4.parent node)
    let m6 := ngx_rbt_copy_color m5 subst node
    let r1 : RbHeap × Nat :=
      if node = root then (m6, subst)
      else if node = m6.left (m6.parent node) then (setLeft m6 (m6.parent node) subst, root)
      else (setRight m6 (m6.parent node) subst, root)
    let m7 := r1.1
    let m8 := if m7.left subst ≠ sentinel then setParent m7 (m7.left subst) subst else m7
    let m9 := if m8.right subst ≠ sentinel then setParent m8 (m8.right subst) subst else m8
    (m9, r1.2)

/-- `ngx_rbtree_delete`: splice out `node` (or its in-order successor `subst`, which then
takes `node`'s place and colour), then run the delete fixup from the patch node `temp`
when the spliced-out node was black. -/
def ngx_rbtree_delete (fuel : Nat) (m : RbHeap) (tree : ngx_rbtree_t) (node : Nat) :
    Option (RbHeap × ngx_rbtree_t) :=
  let root := tree.root
  let sentinel := tree.sentinel
  match ngx_rbtree_delete_select fuel m sentinel node with
  | none => none
  | some (temp, subst) =>
    if subst = root then
      let m1 := ngx_rbt_black m temp
      some (ngx_rbtree_delete_debug m1 node, { tree with root := temp })
    else
      let red : Bool := ngx_rbt_is_red m subst
      let r := ngx_rbtree_delete_unlink m root sentinel node subst temp
      let m10 := ngx_rbtree_delete_debug r.1 node
      if red = true then some (m10, { tree with root := r.2 })
      else
        match ngx_rbtree_delete_fixup fuel m10 r.2 sentinel temp with
        | none => none
        | some (m11, root11, temp11) =>
          some (ngx_rbt_black m11 temp11, { tree with root := root11 })

/-! ## Successor -/

/-- The upward `for (;;)` loop of `ngx_rbtree_next`; `some none` is the `NULL` result. -/
def ngx_rbtree_next_up : Nat → RbHeap → Nat → Nat → Option (Option Nat)
  | 0, _, _, _ => none
  | fuel + 1, m, root, node =>
    let parent := m.parent node
    if node = root then some none
    else if node = m.left parent then some (some parent)
    else ngx_rbtree_next_up fuel m root parent

/-- `ngx_rbtree_next`: minimum of the right subtree when there is one, otherwise the first
ancestor reached from a left child; `some none` stands for the `NULL` result. -/
def ngx_rbtree_next (fuel : Nat) (m : RbHeap) (tree : ngx_rbtree_t) (node : Nat) :
    Option (Option Nat) :=
  if m.right node ≠ tree.sentinel then
    (ngx_rbtree_min fuel m (m.right node) tree.sentinel).map some
  else ngx_rbtree_next_up fuel m tree.root node

/-! ## Abstract trees and the representation relation -/

/-- Abstract binary tree: each node carries its colour, its address `x` and its key `k`. -/
inductive RbTree where
  | nil
  | node (c : Color) (l : RbTree) (x k : Nat) (r : RbTree)
  deriving DecidableEq, Repr

namespace RbTree

/-- Pointer that stands for the tree: the sentinel for `nil`, the node address otherwise. -/
def ptr (s : Nat) : RbTree → Nat
  | nil => s
  | node _ _ x _ _ => x

/-- In-order list of node addresses. -/
def ids : RbTree → List Nat
  | nil => []
  | node _ l x _ r => l.ids ++ x :: r.ids

/-- In-order list of keys. -/
def keys : RbTree → List Nat
  | nil => []
  | node _ l _ k r => l.keys ++ k :: r.keys

/-- Colour of the root; the empty tree (sentinel) counts as black. -/
def rootColor : RbTree → Color
  | nil => Color.black
  | node c _ _ _ _ => c

/-- Number of black nodes on the leftmost path. -/
def bheight : RbTree → Nat
  | nil => 0
  | node c l _ _ _ => l.bheight + (if c = Color.black then 1 else 0)

/-- Every path from a node to a leaf passes the same number of black nodes. -/
def Balanced : RbTree → Prop
  | nil => True
  | node _ l _ _ r => l.Balanced ∧ r.Balanced ∧ l.bheight = r.bheight

/-- No red node has a red child. -/
def NoRedRed : RbTree → Prop
  | nil => True
  | node c l _ _ r =>
    l.NoRedRed ∧ r.NoRedRed ∧ (c = Color.red → l.rootColor = Color.black ∧ r.rootColor = Color.black)

/-- Number of nodes. -/
def size : RbTree → Nat
  | nil => 0
  | node _ l _ _ r => l.size + 1 + r.size

/-- Height (longest path, in nodes). -/
def height : RbTree → Nat
  | nil => 0
  | node _ l _ _ r => max l.height r.height + 1

end RbTree

/-- The three red-black invariants on an abstract tree: black root, no red node with a red
child, equal black height on all paths. -/
def RBInv (t : RbTree) : Prop :=
  t.rootColor = Color.black ∧ t.NoRedRed ∧ t.Balanced

/-- Constraint on a parent field: unconstrained for `none` (the root), otherwise equal. -/
def parOK : Option Nat → Nat → Prop
  | none, _ => True
  | some q, v => v = q

/-- Memory `m` holds the tree `t` with sentinel `s`, the tree's root node having a parent
field allowed by `par`. -/
def RepT (m : RbHeap) (s : Nat) : RbTree → Option Nat → Prop
  | RbTree.nil, _ => True
  | RbTree.node c l x k r, par =>
    x ≠ s ∧ m.color x = c ∧ m.key x = k ∧ parOK par (m.parent x) ∧
    m.left x = l.ptr s ∧ m.right x = r.ptr s ∧ RepT m s l (some x) ∧ RepT m s r (some x)

/-- One step of a path from a hole up to the root: the hole is the left (`L`) or right
(`R`) child of node `x`, whose other subtree is stored in the frame. -/
inductive RbFrame where
  | L (c : Color) (x k : Nat) (r : RbTree)
  | R (c : Color) (l : RbTree) (x k : Nat)
  deriving DecidableEq, Repr

namespace RbFrame

/-- Address of the frame's node. -/
def id : RbFrame → Nat
  | L _ x _ _ => x
  | R _ _ x _ => x

/-- Colour of the frame's node. -/
def color : RbFrame → Color
  | L c _ _ _ => c
  | R c _ _ _ => c

/-- Put a tree into the frame's hole. -/
def fill : RbFrame → RbTree → RbTree
  | L c x k r, t => RbTree.node c t x k r
  | R c l x k, t => RbTree.node c l x k t

/-- Addresses in the frame: its node and its stored subtree. -/
def ids : RbFrame → List Nat
  | L _ x _ r => x :: r.ids
  | R _ l x _ => x :: l.ids

end RbFrame

/-- Fill the hole of a path (innermost frame first). -/
def plug : List RbFrame → RbTree → RbTree
  | [], t => t
  | f :: fs, t => plug fs (f.fill t)

/-- All addresses along a path. -/
def idsC : List RbFrame → List Nat
  | [] => []
  | f :: fs => f.ids ++ idsC fs

/-- In-order addresses to the left of the hole. -/
def ctxL : List RbFrame → List Nat
  | [] => []
  | RbFrame.L _ _ _ _ :: fs => ctxL fs
  | RbFrame.R _ l x _ :: fs => ctxL fs ++ (l.ids ++ [x])

/-- In-order addresses to the right of the hole. -/
def ctxR : List RbFrame → List Nat
  | [] => []
  | RbFrame.L _ x _ r :: fs => (x :: r.ids) ++ ctxR fs
  | RbFrame.R _ _ _ _ :: fs => ctxR fs

/-- In-order keys to the left of the hole. -/
def ctxLK : List RbFrame → List Nat
  | [] => []
  | RbFrame.L _ _ _ _ :: fs => ctxLK fs
  | RbFrame.R _ l _ k :: fs => ctxLK fs ++ (l.keys ++ [k])

/-- In-order keys to the right of the hole. -/
def ctxRK : List RbFrame → List Nat
  | [] => []
  | RbFrame.L _ _ k r :: fs => (k :: r.keys) ++ ctxRK fs
  | RbFrame.R _ _ _ _ :: fs => ctxRK fs

/-- Parent constraint for the hole of a path. -/
def parOf : List RbFrame → Option Nat
  | [] => none
  | f :: _ => some f.id

/-- Address of the topmost node of a path, `p` when the path is empty. -/
def topId : List RbFrame → Nat → Nat
  | [], p => p
  | f :: fs, _ => topId fs f.id

/-- Memory `m` holds the path `fs` whose hole is filled by pointer `p`. -/
def RepC (m : RbHeap) (s : Nat) : List RbFrame → Nat → Prop
  | [], _ => True
  | RbFrame.L c x k r :: fs, p =>
    x ≠ s ∧ m.color x = c ∧ m.key x = k ∧ parOK (parOf fs) (m.parent x) ∧
    m.left x = p ∧ m.right x = r.ptr s ∧ RepT m s r (some x) ∧ RepC m s fs x
  | RbFrame.R c l x k :: fs, p =>
    x ≠ s ∧ m.color x = c ∧ m.key x = k ∧ parOK (parOf fs) (m.parent x) ∧
    m.left x = l.ptr s ∧ m.right x = p ∧ RepT m s l (some x) ∧ RepC m s fs x

/-- The tree `t` is laid out in memory `m` from `root` with sentinel `s`, and no address
occurs twice in it. -/
structure TreeInv (m : RbHeap) (s root : Nat) (t : RbTree) : Prop where
  rep : RepT m s t none
  root_eq : root = t.ptr s
  nodup : t.ids.Nodup

/-- Black-height bookkeeping along a path whose hole has black height `n`. -/
def ctxBal : List RbFrame → Nat → Prop
  | [], _ => True
  | RbFrame.L c _ _ r :: fs, n =>
    r.Balanced ∧ r.bheight = n ∧ ctxBal fs (n + (if c = Color.black then 1 else 0))
  | RbFrame.R c l _ _ :: fs, n =>
    l.Balanced ∧ l.bheight = n ∧ ctxBal fs (n + (if c = Color.black then 1 else 0))

/-- Red-red bookkeeping along a path whose hole is filled by a tree of root colour `c`. -/
def ctxNoRR : List RbFrame → Color → Prop
  | [], _ => True
  | RbFrame.L c' _ _ r :: fs, c =>
    r.NoRedRed ∧ (c' = Color.red → c = Color.black ∧ r.rootColor = Color.black) ∧ ctxNoRR fs c'
  | RbFrame.R c' l _ _ :: fs, c =>
    l.NoRedRed ∧ (c' = Color.red → l.rootColor = Color.black ∧ c = Color.black) ∧ ctxNoRR fs c'

/-- Colour of the topmost node of a path, `c` when the path is empty. -/
def topColor : List RbFrame → Color → Color
  | [], c => c
  | f :: fs, _ => topColor fs f.color

/-! ### Field reads after assignments -/

@[simp] theorem setKey_key (m : RbHeap) (p v : Nat) :
    (setKey m p v).key = Function.update m.key p v := rfl

@[simp] theorem setKey_left (m : RbHeap) (p v : Nat) : (setKey m p v).left = m.left := rfl

@[simp] theorem setKey_right (m : RbHeap) (p v : Nat) : (setKey m p v).right = m.right := rfl

@[simp] theorem setKey_parent (m : RbHeap) (p v : Nat) : (setKey m p v).parent = m.parent := rfl

@[simp] theorem setKey_color (m : RbHeap) (p v : Nat) : (setKey m p v).color = m.color := rfl

@[simp] theorem setLeft_key (m : RbHeap) (p v : Nat) : (setLeft m p v).key = m.key := rfl

@[simp] theorem setLeft_left (m : RbHeap) (p v : Nat) :
    (setLeft m p v).left = Function.update m.left p v := rfl

@[simp] theorem setLeft_right (m : RbHeap) (p v : Nat) : (setLeft m p v).right = m.right := rfl

@[simp] theorem setLeft_parent (m : RbHeap) (p v : Nat) :
    (setLeft m p v).parent = m.parent := rfl

@[simp] theorem setLeft_color (m : RbHeap) (p v : Nat) : (setLeft m p v).color = m.color := rfl

@[simp] theorem setRight_key (m : RbHeap) (p v : Nat) : (setRight m p v).key = m.key := rfl

@[simp] theorem setRight_left (m : RbHeap) (p v : Nat) : (setRight m p v).left = m.left := rfl

@[simp] theorem setRight_right (m : RbHeap) (p v : Nat) :
    (setRight m p v).right = Function.update m.right p v := rfl

@[simp] theorem setRight_parent (m : RbHeap) (p v : Nat) :
    (setRight m p v).parent = m.parent := rfl

@[simp] theorem setRight_color (m : RbHeap) (p v : Nat) :
    (setRight m p v).color = m.color := rfl

@[simp] theorem setParent_key (m : RbHeap) (p v : Nat) : (setParent m p v).key = m.key := rfl

@[simp] theorem setParent_left (m : RbHeap) (p v : Nat) :
    (setParent m p v).left = m.left := rfl

@[simp] theorem setParent_right (m : RbHeap) (p v : Nat) :
    (setParent m p v).right = m.right := rfl

@[simp] theorem setParent_parent (m : RbHeap) (p v : Nat) :
    (setParent m p v).parent = Function.update m.parent p v := rfl

@[simp] theorem setParent_color (m : RbHeap) (p v : Nat) :
    (setParent m p v).color = m.color := rfl

@[simp] theorem setColor_key (m : RbHeap) (p : Nat) (c : Color) :
    (setColor m p c).key = m.key := rfl

@[simp] theorem setColor_left (m : RbHeap) (p : Nat) (c : Color) :
    (setColor m p c).left = m.left := rfl

@[simp] theorem setColor_right (m : RbHeap) (p : Nat) (c : Color) :
    (setColor m p c).right = m.right := rfl

@[simp] theorem setColor_parent (m : RbHeap) (p : Nat) (c : Color) :
    (setColor m p c).parent = m.parent := rfl

@[simp] theorem setColor_color (m : RbHeap) (p : Nat) (c : Color) :
    (setColor m p c).color = Function.update m.color p c := rfl

@[simp] theorem parOK_none (v : Nat) : parOK none v = True := rfl

@[simp] theorem parOK_some (q v : Nat) : parOK (some q) v = (v = q) := rfl

/-! ### RbFrame rules: memory that agrees on a tree's nodes holds the same tree -/

/-- Two memories agree at address `y` in every field. -/
def AgreeAt (m m' : RbHeap) (y : Nat) : Prop :=
  m'.key y = m.key y ∧ m'.left y = m.left y ∧ m'.right y = m.right y ∧
  m'.parent y = m.parent y ∧ m'.color y = m.color y

/-! ### Rewriting rules for the abstract layer -/

@[simp] theorem RbTree.ptr_nil (s : Nat) : RbTree.nil.ptr s = s := rfl

@[simp] theorem RbTree.ptr_node (s : Nat) (c : Color) (l : RbTree) (x k : Nat) (r : RbTree) :
    (RbTree.node c l x k r).ptr s = x := rfl

@[simp] theorem RbTree.ids_nil : RbTree.nil.ids = [] := rfl

@[simp] theorem RbTree.ids_node (c : Color) (l : RbTree) (x k : Nat) (r : RbTree) :
    (RbTree.node c l x k r).ids = l.ids ++ x :: r.ids := rfl

@[simp] theorem RbTree.keys_nil : RbTree.nil.keys = [] := rfl

@[simp] theorem RbTree.keys_node (c : Color) (l : RbTree) (x k : Nat) (r : RbTree) :
    (RbTree.node c l x k r).keys = l.keys ++ k :: r.keys := rfl

@[simp] theorem RbTree.rootColor_nil : RbTree.nil.rootColor = Color.black := rfl

@[simp] theorem RbTree.rootColor_node (c : Color) (l : RbTree) (x k : Nat) (r : RbTree) :
    (RbTree.node c l x k r).rootColor = c := rfl

@[simp] theorem RepT_nil (m : RbHeap) (s : Nat) (par : Option Nat) :
    RepT m s RbTree.nil par = True := rfl

@[simp] theorem RepT_node (m : RbHeap) (s : Nat) (c : Color) (l : RbTree) (x k : Nat)
    (r : RbTree) (par : Option Nat) :
    RepT m s (RbTree.node c l x k r) par =
      (x ≠ s ∧ m.color x = c ∧ m.key x = k ∧ parOK par (m.parent x) ∧
        m.left x = l.ptr s ∧ m.right x = r.ptr s ∧ RepT m s l (some x) ∧ RepT m s r (some x)) :=
  rfl

@[simp] theorem RepC_nil (m : RbHeap) (s p : Nat) : RepC m s [] p = True := rfl

@[simp] theorem RepC_L (m : RbHeap) (s p : Nat) (c : Color) (x k : Nat) (r : RbTree)
    (fs : List RbFrame) :
    RepC m s (RbFrame.L c x k r :: fs) p =
      (x ≠ s ∧ m.color x = c ∧ m.key x = k ∧ parOK (parOf fs) (m.parent x) ∧
        m.left x = p ∧ m.right x = r.ptr s ∧ RepT m s r (some x) ∧ RepC m s fs x) := rfl

@[simp] theorem RepC_R (m : RbHeap) (s p : Nat) (c : Color) (l : RbTree) (x k : Nat)
    (fs : List RbFrame) :
    RepC m s (RbFrame.R c l x k :: fs) p =
      (x ≠ s ∧ m.color x = c ∧ m.key x = k ∧ parOK (parOf fs) (m.parent x) ∧
        m.left x = l.ptr s ∧ m.right x = p ∧ RepT m s l (some x) ∧ RepC m s fs x) := rfl

@[simp] theorem parOf_nil : parOf [] = none := rfl

@[simp] theorem parOf_cons (f : RbFrame) (fs : List RbFrame) : parOf (f :: fs) = some f.id := rfl

@[simp] theorem RbFrame.id_L (c : Color) (x k : Nat) (r : RbTree) :
    (RbFrame.L c x k r).id = x := rfl

@[simp] theorem RbFrame.id_R (c : Color) (l : RbTree) (x k : Nat) :
    (RbFrame.R c l x k).id = x := rfl

@[simp] theorem RbFrame.color_L (c : Color) (x k : Nat) (r : RbTree) :
    (RbFrame.L c x k r).color = c := rfl

@[simp] theorem RbFrame.color_R (c : Color) (l : RbTree) (x k : Nat) :
    (RbFrame.R c l x k).color = c := rfl

@[simp] theorem RbFrame.ids_L (c : Color) (x k : Nat) (r : RbTree) :
    (RbFrame.L c x k r).ids = x :: r.ids := rfl

@[simp] theorem RbFrame.ids_R (c : Color) (l : RbTree) (x k : Nat) :
    (RbFrame.R c l x k).ids = x :: l.ids := rfl

@[simp] theorem RbFrame.fill_L (c : Color) (x k : Nat) (r t : RbTree) :
    (RbFrame.L c x k r).fill t = RbTree.node c t x k r := rfl

@[simp] theorem RbFrame.fill_R (c : Color) (l : RbTree) (x k : Nat) (t : RbTree) :
    (RbFrame.R c l x k).fill t = RbTree.node c l x k t := rfl

@[simp] theorem plug_nil (t : RbTree) : plug [] t = t := rfl

@[simp] theorem plug_cons (f : RbFrame) (fs : List RbFrame) (t : RbTree) :
    plug (f :: fs) t = plug fs (f.fill t) := rfl

@[simp] theorem idsC_nil : idsC [] = [] := rfl

@[simp] theorem idsC_cons (f : RbFrame) (fs : List RbFrame) :
    idsC (f :: fs) = f.ids ++ idsC fs := rfl

@[simp] theorem topId_nil (p : Nat) : topId [] p = p := rfl

@[simp] theorem topId_cons (f : RbFrame) (fs : List RbFrame) (p : Nat) :
    topId (f :: fs) p = topId fs f.id := rfl

section RbDefs
open RbTree

/-! ## Insertion on the abstract tree -/

/-- Path followed by `ngx_rbtree_insert_value` for key `k`: left when `k` is smaller than the
node's key, right otherwise, down to an empty position. -/
def insPath (k : Nat) : RbTree → List RbFrame → List RbFrame
  | nil, fs => fs
  | node c l x kx r, fs =>
    if k < kx then insPath k l (RbFrame.L c x kx r :: fs)
    else insPath k r (RbFrame.R c l x kx :: fs)

/-- Paint the root black. -/
def RbTree.setBlack : RbTree → RbTree
  | nil => nil
  | node _ l x k r => node Color.black l x k r

/-- Paint the root red. -/
def RbTree.setRed : RbTree → RbTree
  | nil => nil
  | node _ l x k r => node Color.red l x k r

@[simp] theorem RbTree.setBlack_nil : RbTree.nil.setBlack = nil := rfl

@[simp] theorem RbTree.setBlack_node (c : Color) (l : RbTree) (x k : Nat) (r : RbTree) :
    (node c l x k r).setBlack = node Color.black l x k r := rfl

/-- Result of the re-balancing loop of `ngx_rbtree_insert` started at the root of `t`, which
sits in the hole of the path `fs`. -/
def insFix : List RbFrame → RbTree → RbTree
  | [], t => t
  | [P], t => plug [P] t
  | P :: G :: rest, t =>
    if P.color = Color.red then
      match G with
      | RbFrame.L _ g kg u =>
        if u.rootColor = Color.red then
          insFix rest (node Color.red (P.fill t).setBlack g kg u.setBlack)
        else
          match P, t with
          | RbFrame.R _ pl p kp, node _ a x k b =>
            plug rest (node Color.black (node Color.red pl p kp a) x k (node Color.red b g kg u))
          | RbFrame.L _ p kp pr, t =>
            plug rest (node Color.black t p kp (node Color.red pr g kg u))
          | _, _ => plug (P :: G :: rest) t
      | RbFrame.R _ u g kg =>
        if u.rootColor = Color.red then
          insFix rest (node Color.red u.setBlack g kg (P.fill t).setBlack)
        else
          match P, t with
          | RbFrame.L _ p kp pr, node _ a x k b =>
            plug rest (node Color.black (node Color.red u g kg a) x k (node Color.red b p kp pr))
          | RbFrame.R _ pl p kp, t =>
            plug rest (node Color.black (node Color.red u g kg pl) p kp t)
          | _, _ => plug (P :: G :: rest) t
    else plug (P :: G :: rest) t

/-! ## Pure facts on the insertion result -/

@[simp] theorem RbTree.ids_setBlack (t : RbTree) : t.setBlack.ids = t.ids := by
  cases t <;> rfl

@[simp] theorem RbTree.keys_setBlack (t : RbTree) : t.setBlack.keys = t.keys := by
  cases t <;> rfl

@[simp] theorem RbTree.bheight_nil : RbTree.nil.bheight = 0 := rfl

@[simp] theorem RbTree.bheight_node (c : Color) (l : RbTree) (x k : Nat) (r : RbTree) :
    (node c l x k r).bheight = l.bheight + (if c = Color.black then 1 else 0) := rfl

@[simp] theorem RbTree.Balanced_nil : RbTree.nil.Balanced = True := rfl

@[simp] theorem RbTree.Balanced_node (c : Color) (l : RbTree) (x k : Nat) (r : RbTree) :
    (node c l x k r).Balanced = (l.Balanced ∧ r.Balanced ∧ l.bheight = r.bheight) := rfl

@[simp] theorem RbTree.NoRedRed_nil : RbTree.nil.NoRedRed = True := rfl

@[simp] theorem RbTree.NoRedRed_node (c : Color) (l : RbTree) (x k : Nat) (r : RbTree) :
    (node c l x k r).NoRedRed = (l.NoRedRed ∧ r.NoRedRed ∧
      (c = Color.red → l.rootColor = Color.black ∧ r.rootColor = Color.black)) := rfl

@[simp] theorem ctxBal_nil (n : Nat) : ctxBal [] n = True := rfl

@[simp] theorem ctxBal_L (c : Color) (x k : Nat) (r : RbTree) (fs : List RbFrame) (n : Nat) :
    ctxBal (RbFrame.L c x k r :: fs) n =
      (r.Balanced ∧ r.bheight = n ∧ ctxBal fs (n + (if c = Color.black then 1 else 0))) := rfl

@[simp] theorem ctxBal_R (c : Color) (l : RbTree) (x k : Nat) (fs : List RbFrame) (n : Nat) :
    ctxBal (RbFrame.R c l x k :: fs) n =
      (l.Balanced ∧ l.bheight = n ∧ ctxBal fs (n + (if c = Color.black then 1 else 0))) := rfl

@[simp] theorem ctxNoRR_nil (c : Color) : ctxNoRR [] c = True := rfl

@[simp] theorem ctxNoRR_L (c' : Color) (x k : Nat) (r : RbTree) (fs : List RbFrame) (c : Color) :
    ctxNoRR (RbFrame.L c' x k r :: fs) c =
      (r.NoRedRed ∧ (c' = Color.red → c = Color.black ∧ r.rootColor = Color.black) ∧
        ctxNoRR fs c') := rfl

@[simp] theorem ctxNoRR_R (c' : Color) (l : RbTree) (x k : Nat) (fs : List RbFrame) (c : Color) :
    ctxNoRR (RbFrame.R c' l x k :: fs) c =
      (l.NoRedRed ∧ (c' = Color.red → l.rootColor = Color.black ∧ c = Color.black) ∧
        ctxNoRR fs c') := rfl

@[simp] theorem topColor_nil (c : Color) : topColor [] c = c := rfl

@[simp] theorem topColor_cons (f : RbFrame) (fs : List RbFrame) (c : Color) :
    topColor (f :: fs) c = topColor fs f.color := rfl

@[simp] theorem RbTree.rootColor_setBlack (t : RbTree) : t.setBlack.rootColor = Color.black := by
  cases t <;> rfl

@[simp] theorem RbTree.Balanced_setBlack (t : RbTree) : t.setBlack.Balanced = t.Balanced := by
  cases t <;> rfl

/-- State of the re-balancing loop: a red subtree `t` (balanced, without red-red inside) in
a path that is balanced and free of red-red, the top of which is black. -/
def InsInv (fs : List RbFrame) (t : RbTree) : Prop :=
  t.rootColor = Color.red ∧ t.NoRedRed ∧ t.Balanced ∧ ctxBal fs t.bheight ∧
    ctxNoRR fs Color.black ∧ (fs ≠ [] → topColor fs Color.black = Color.black)

/-- Result of `ngx_rbtree_insert` with the strategy `ngx_rbtree_insert_value`, on the
abstract tree: `n` is the new node's address and `k` its key. -/
def insTree (t : RbTree) (n k : Nat) : RbTree :=
  match t with
  | nil => node Color.black nil n k nil
  | node c l x kx r =>
    (insFix (insPath k (node c l x kx r) []) (node Color.red nil n k nil)).setBlack

/-! ## Leftmost node -/

/-- Path from the leftmost node of `t` up to the root of `t` (innermost frame first). -/
def minFrames : RbTree → List RbFrame
  | nil => []
  | node _ nil _ _ _ => []
  | node c (node cl ll lx lk lr) x k r => minFrames (node cl ll lx lk lr) ++ [RbFrame.L c x k r]

/-- Subtree rooted at the leftmost node of `t`. -/
def minNode : RbTree → RbTree
  | nil => nil
  | node c nil x k r => node c nil x k r
  | node _ (node cl ll lx lk lr) _ _ _ => minNode (node cl ll lx lk lr)

/-- The unlinking step of `ngx_rbtree_delete`: the parent of `subst` is made to point to
`temp`, and `temp->parent` is set to `v`. -/
def transplantM (m : RbHeap) (subst temp v : Nat) : RbHeap :=
  setParent
    (if subst = m.left (m.parent subst) then setLeft m (m.parent subst) temp
     else setRight m (m.parent subst) temp) temp v

/-- The step of `ngx_rbtree_delete` that puts `subst` in the place of `node`: `subst` takes
over the links and the colour of `node`, and the neighbours are pointed to `subst`. -/
def substM (m : RbHeap) (root sentinel node subst : Nat) : RbHeap × Nat :=
  let m3 := setLeft m subst (m.left node)
  let m4 := setRight m3 subst (m3.right node)
  let m5 := setParent m4 subst (m4.parent node)
  let m6 := ngx_rbt_copy_color m5 subst node
  let r1 : RbHeap × Nat :=
    if node = root then (m6, subst)
    else if node = m6.left (m6.parent node) then (setLeft m6 (m6.parent node) subst, root)
    else (setRight m6 (m6.parent node) subst, root)
  let m7 := r1.1
  let m8 := if m7.left subst ≠ sentinel then setParent m7 (m7.left subst) subst else m7
  let m9 := if m8.right subst ≠ sentinel then setParent m8 (m8.right subst) subst else m8
  (m9, r1.2)

/-- Where the node spliced out by `ngx_rbtree_delete` sits: the path to the hole it leaves,
the subtree `temp` that fills the hole, and the colour of the spliced-out node. -/
def delSplit (fs : List RbFrame) (c : Color) (l : RbTree) (k : Nat) (r : RbTree) :
    List RbFrame × RbTree × Color :=
  match l, r with
  | nil, r => (fs, r, c)
  | node cl ll lx lk lr, nil => (fs, node cl ll lx lk lr, c)
  | node cl ll lx lk lr, node cr rl rx rk rr =>
    match minNode (node cr rl rx rk rr) with
    | node c2 _ y ky r2 =>
      (minFrames (node cr rl rx rk rr) ++ RbFrame.R c (node cl ll lx lk lr) y ky :: fs, r2, c2)
    | nil => (fs, nil, c)

/-- Cases 3 and 4 of the delete fixup for a hole that is a left child of `p`: the sibling
`w` has a red child; the rotation ends the loop, and the root is painted black. -/
def delRotL (cp : Color) (t : RbTree) (p kp : Nat) (w : RbTree) (ctx : List RbFrame) : RbTree :=
  match w with
  | node _ wl wx wk wr =>
    if wr.rootColor = Color.black then
      match wl with
      | node _ wll wlx wlk wlr =>
        (plug ctx (node cp (node Color.black t p kp wll) wlx wlk
          (node Color.black wlr wx wk wr))).setBlack
      | nil => plug ctx (node cp t p kp w)
    else (plug ctx (node cp (node Color.black t p kp wl) wx wk wr.setBlack)).setBlack
  | nil => plug ctx (node cp t p kp nil)

/-- Cases 3 and 4 of the delete fixup for a hole that is a right child of `p`. -/
def delRotR (cp : Color) (t : RbTree) (p kp : Nat) (w : RbTree) (ctx : List RbFrame) : RbTree :=
  match w with
  | node _ wl wx wk wr =>
    if wl.rootColor = Color.black then
      match wr with
      | node _ wrl wrx wrk wrr =>
        (plug ctx (node cp (node Color.black wl wx wk wrl) wrx wrk
          (node Color.black wrr p kp t))).setBlack
      | nil => plug ctx (node cp w p kp t)
    else (plug ctx (node cp wl.setBlack wx wk (node Color.black wr p kp t))).setBlack
  | nil => plug ctx (node cp nil p kp t)

/-- Result of the delete fixup loop of `ngx_rbtree_delete` followed by the final
`ngx_rbt_black(temp)`, started at the hole of the path `fs` filled by `t`. -/
def delFix : List RbFrame → RbTree → RbTree
  | [], t => t.setBlack
  | RbFrame.L cp p kp w :: rest, t =>
    if t.rootColor = Color.red then plug (RbFrame.L cp p kp w :: rest) t.setBlack
    else
      match w with
      | node Color.red wl wx wk wr =>
        match wl with
        | node cw2 wll wlx wlk wlr =>
          if wll.rootColor = Color.black ∧ wlr.rootColor = Color.black then
            plug (RbFrame.L Color.black wx wk wr :: rest)
              (node Color.black t p kp (node Color.red wll wlx wlk wlr))
          else
            delRotL Color.red t p kp (node cw2 wll wlx wlk wlr)
              (RbFrame.L Color.black wx wk wr :: rest)
        | nil => plug (RbFrame.L cp p kp w :: rest) t
      | node Color.black wl wx wk wr =>
        if wl.rootColor = Color.black ∧ wr.rootColor = Color.black then
          delFix rest (node cp t p kp (node Color.red wl wx wk wr))
        else delRotL cp t p kp (node Color.black wl wx wk wr) rest
      | nil => plug (RbFrame.L cp p kp w :: rest) t
  | RbFrame.R cp w p kp :: rest, t =>
    if t.rootColor = Color.red then plug (RbFrame.R cp w p kp :: rest) t.setBlack
    else
      match w with
      | node Color.red wl wx wk wr =>
        match wr with
        | node cw2 wrl wrx wrk wrr =>
          if wrl.rootColor = Color.black ∧ wrr.rootColor = Color.black then
            plug (RbFrame.R Color.black wl wx wk :: rest)
              (node Color.black (node Color.red wrl wrx wrk wrr) p kp t)
          else
            delRotR Color.red t p kp (node cw2 wrl wrx wrk wrr)
              (RbFrame.R Color.black wl wx wk :: rest)
        | nil => plug (RbFrame.R cp w p kp :: rest) t
      | node Color.black wl wx wk wr =>
        if wl.rootColor = Color.black ∧ wr.rootColor = Color.black then
          delFix rest (node cp (node Color.red wl wx wk wr) p kp t)
        else delRotR cp t p kp (node Color.black wl wx wk wr) rest
      | nil => plug (RbFrame.R cp w p kp :: rest) t

/-- Result of `ngx_rbtree_delete` for the node `x` at the hole of `fs`. -/
def delAt (fs : List RbFrame) (c : Color) (l : RbTree) (k : Nat) (r : RbTree) : RbTree :=
  if (delSplit fs c l k r).1 ≠ [] ∧ (delSplit fs c l k r).2.2 = Color.red then
    plug (delSplit fs c l k r).1 (delSplit fs c l k r).2.1
  else delFix (delSplit fs c l k r).1 (delSplit fs c l k r).2.1

/-- Tail of one iteration of the delete fixup for a hole that is a left child, after the
red-sibling case: cases 2, 3 and 4. -/
def delTailL (fuel : Nat) (m3 : RbHeap) (root3 sentinel temp w3 : Nat) :
    Option (RbHeap × Nat × Nat) :=
  if ngx_rbt_is_black m3 (m3.left w3) = true ∧ ngx_rbt_is_black m3 (m3.right w3) = true then
    ngx_rbtree_delete_fixup fuel (ngx_rbt_red m3 w3) root3 sentinel
      ((ngx_rbt_red m3 w3).parent temp)
  else
    let b : (RbHeap × Nat) × Nat :=
      if ngx_rbt_is_black m3 (m3.right w3) = true then
        let m4 := ngx_rbt_black m3 (m3.left w3)
        let m5 := ngx_rbt_red m4 w3
        let r := ngx_rbtree_right_rotate m5 root3 sentinel w3
        (r, r.1.right (r.1.parent temp))
      else ((m3, root3), w3)
    let m6 := b.1.1
    let w6 := b.2
    let m7 := ngx_rbt_copy_color m6 w6 (m6.parent temp)
    let m8 := ngx_rbt_black m7 (m7.parent temp)
    let m9 := ngx_rbt_black m8 (m8.right w6)
    let r := ngx_rbtree_left_rotate m9 b.1.2 sentinel (m9.parent temp)
    ngx_rbtree_delete_fixup fuel r.1 r.2 sentinel r.2

/-- Tail of one iteration of the delete fixup for a hole that is a right child. -/
def delTailR (fuel : Nat) (m3 : RbHeap) (root3 sentinel temp w3 : Nat) :
    Option (RbHeap × Nat × Nat) :=
  if ngx_rbt_is_black m3 (m3.left w3) = true ∧ ngx_rbt_is_black m3 (m3.right w3) = true then
    ngx_rbtree_delete_fixup fuel (ngx_rbt_red m3 w3) root3 sentinel
      ((ngx_rbt_red m3 w3).parent temp)
  else
    let b : (RbHeap × Nat) × Nat :=
      if ngx_rbt_is_black m3 (m3.left w3) = true then
        let m4 := ngx_rbt_black m3 (m3.right w3)
        let m5 := ngx_rbt_red m4 w3
        let r := ngx_rbtree_left_rotate m5 root3 sentinel w3
        (r, r.1.left (r.1.parent temp))
      else ((m3, root3), w3)
    let m6 := b.1.1
    let w6 := b.2
    let m7 := ngx_rbt_copy_color m6 w6 (m6.parent temp)
    let m8 := ngx_rbt_black m7 (m7.parent temp)
    let m9 := ngx_rbt_black m8 (m8.left w6)
    let r := ngx_rbtree_right_rotate m9 b.1.2 sentinel (m9.parent temp)
    ngx_rbtree_delete_fixup fuel r.1 r.2 sentinel r.2

/-! ## Sorted insertion -/

/-- Every frame of the path agrees with the comparisons `ngx_rbtree_insert_value` makes for
key `k`: left turns at larger keys, right turns at keys not larger. -/
def PathOK (k : Nat) : List RbFrame → Prop
  | [] => True
  | RbFrame.L _ _ kx _ :: fs => k < kx ∧ PathOK k fs
  | RbFrame.R _ _ _ kx :: fs => kx ≤ k ∧ PathOK k fs

/-- Insert the nodes of a list one after the other with `ngx_rbtree_insert`. -/
def insertAll (fuel : Nat) : List Nat → RbHeap → ngx_rbtree_t → Option (RbHeap × ngx_rbtree_t)
  | [], m, tree => some (m, tree)
  | n :: ns, m, tree =>
    match ngx_rbtree_insert fuel m tree n with
    | none => none
    | some (m1, tree1) => insertAll fuel ns m1 tree1

/-- Memory with every link pointing to address 1, every key 5 and every colour black. -/
def wHeap : RbHeap :=
  ⟨fun _ => 5, fun _ => 1, fun _ => 1, fun _ => 0, fun _ => Color.black⟩

/-- Tree header with sentinel 1, root 2 and the plain insertion strategy. -/
def wTree : ngx_rbtree_t := ⟨2, 1, ngx_rbtree_insert_value⟩

/-- Empty tree header with sentinel 1. -/
def wEmpty : ngx_rbtree_t := ⟨1, 1, ngx_rbtree_insert_value⟩

/-- Memory whose nodes 2..8 carry the keys 50, 30, 70, 20, 40, 60, 80. -/
def seqHeap : RbHeap :=
  ⟨fun x => [0, 0, 50, 30, 70, 20, 40, 60, 80].getD x 0, fun _ => 0, fun _ => 0, fun _ => 0,
    fun _ => Color.black⟩

/-- Last part of `ngx_rbtree_delete`, after the splice: the removed node is wiped, and the
fixup runs when the spliced-out node was black. -/
def deleteTail (fuel : Nat) (m2 : RbHeap) (tree : ngx_rbtree_t) (root2 node temp : Nat)
    (red : Bool) : Option (RbHeap × ngx_rbtree_t) :=
  if red = true then some (ngx_rbtree_delete_debug m2 node, { tree with root := root2 })
  else
    match ngx_rbtree_delete_fixup fuel (ngx_rbtree_delete_debug m2 node) root2 tree.sentinel
      temp with
    | none => none
    | some (m11, root11, temp11) =>
      some (ngx_rbt_black m11 temp11, { tree with root := root11 })

/-- State of the delete fixup loop: the subtree `t` at the hole is one black node short. -/
def DelInv (fs : List RbFrame) (t : RbTree) : Prop :=
  t.Balanced ∧ t.setBlack.NoRedRed ∧ ctxBal fs (t.bheight + 1) ∧ ctxNoRR fs Color.black ∧
    (fs ≠ [] → topColor fs Color.black = Color.black)

/-- Memory with the three-node tree `3 < 5 < 8`: black root at address 2, red children at
addresses 3 and 4, sentinel at address 1. -/
def w3Heap : RbHeap :=
  ⟨fun x => [0, 0, 5, 3, 8].getD x 0, fun x => if x = 2 then 3 else 1,
    fun x => if x = 2 then 4 else 1, fun x => if x = 3 ∨ x = 4 then 2 else 0,
    fun x => if x = 3 ∨ x = 4 then Color.red else Color.black⟩

/-- The tree held by `w3Heap`. -/
def w3 : RbTree :=
  node Color.black (node Color.red nil 3 3 nil) 2 5 (node Color.red nil 4 8 nil)

/-! ## Trees built by insertions and deletions; the minimum -/

/-- Modelled from the spec: macro `ngx_rbtree_init(tree, s, i)` of `ngx_rbtree.h`; the
sentinel is painted black and is the root of the empty tree. -/
def ngx_rbtree_init (m : RbHeap) (s : Nat) (i : ngx_rbtree_insert_pt) : RbHeap × ngx_rbtree_t :=
  (ngx_rbt_black m s, ⟨s, s, i⟩)

/-- States reached from `ngx_rbtree_init` by calls of `ngx_rbtree_insert` (strategy
`ngx_rbtree_insert_value`) and `ngx_rbtree_delete`, with the list of nodes in the tree.
Before an insertion the caller may fill in the fields of the node to insert; the fuel of
each call exceeds the number of nodes. -/
inductive Built (s : Nat) : RbHeap → ngx_rbtree_t → List Nat → Prop
  | init (m : RbHeap) :
    Built s (ngx_rbtree_init m s ngx_rbtree_insert_value).1
      (ngx_rbtree_init m s ngx_rbtree_insert_value).2 []
  | insert {m : RbHeap} {tree : ngx_rbtree_t} {ns : List Nat} (m1 : RbHeap) (n fuel : Nat)
    (m' : RbHeap) (tree' : ngx_rbtree_t) :
    Built s m tree ns → n ∉ ns → n ≠ s → (∀ q, q ≠ n → AgreeAt m m1 q) →
    ns.length + 1 ≤ fuel → ngx_rbtree_insert fuel m1 tree n = some (m', tree') →
    Built s m' tree' (n :: ns)
  | delete {m : RbHeap} {tree : ngx_rbtree_t} {ns : List Nat} (n fuel : Nat)
    (m' : RbHeap) (tree' : ngx_rbtree_t) :
    Built s m tree ns → n ∈ ns → ns.length + 1 ≤ fuel →
    ngx_rbtree_delete fuel m tree n = some (m', tree') → Built s m' tree' (ns.erase n)

/-- State after `ngx_rbtree_init` and the insertion of node 2 with key 5. -/
def wBuilt : RbHeap × ngx_rbtree_t :=
  (ngx_rbtree_insert 1 (ngx_rbt_black wHeap 1) wEmpty 2).getD (wHeap, wEmpty)

/-! ## In-order successor -/

/-- Walk over the tree as a caller does it: from a node, `ngx_rbtree_next` is applied until
it returns `NULL`; the nodes met are listed.  `steps` bounds the number of calls. -/
def nextWalk (fuel : Nat) (m : RbHeap) (tree : ngx_rbtree_t) : Nat → Nat → Option (List Nat)
  | 0, _ => none
  | steps + 1, x =>
    match ngx_rbtree_next fuel m tree x with
    | none => none
    | some none => some [x]
    | some (some y) => (nextWalk fuel m tree steps y).map (fun ys => x :: ys)

/-- Full in-order walk: start at `ngx_rbtree_min(root, sentinel)` unless the tree is empty,
then follow `ngx_rbtree_next`. -/
def inorderWalk (fuel : Nat) (m : RbHeap) (tree : ngx_rbtree_t) : Option (List Nat) :=
  if tree.root = tree.sentinel then some []
  else
    match ngx_rbtree_min fuel m tree.root tree.sentinel with
    | none => none
    | some x => nextWalk fuel m tree fuel x

/-- Address of the first ancestor reached from a left child, on the way up a path. -/
def firstL : List RbFrame → Option Nat
  | [] => none
  | RbFrame.L _ p _ _ :: _ => some p
  | RbFrame.R _ _ _ _ :: fs => firstL fs

end RbDefs

/-! ## Memory model for `ngx_radix_node_t` and the radix trie of `ngx_radix_tree.c` -/

/-- `NGX_RADIX_NO_VALUE`, `(uintptr_t) -1` with a 64-bit `uintptr_t`. -/
def NGX_RADIX_NO_VALUE : Nat := 2 ^ 64 - 1

/-- `NGX_OK` of `ngx_core.h`. -/
def NGX_OK : Int := 0

/-- `NGX_ERROR` of `ngx_core.h`. -/
def NGX_ERROR : Int := -1

/-- `NGX_BUSY` of `ngx_core.h`. -/
def NGX_BUSY : Int := -3

/-- The global `ngx_pagesize`, taken to be 4096. -/
def ngx_pagesize : Nat := 4096

/-- `sizeof(ngx_radix_node_t)`: four words of 8 bytes. -/
def ngx_radix_node_size : Nat := 32

/-- Memory restricted to `ngx_radix_node_t` objects, one map per member. -/
structure RxHeap where
  right : Nat → Nat
  left : Nat → Nat
  parent : Nat → Nat
  value : Nat → Nat

namespace RxHeap

/-- Assignment `p->right = v`. -/
def setRight (m : RxHeap) (p v : Nat) : RxHeap := { m with right := Function.update m.right p v }

/-- Assignment `p->left = v`. -/
def setLeft (m : RxHeap) (p v : Nat) : RxHeap := { m with left := Function.update m.left p v }

/-- Assignment `p->parent = v`. -/
def setParent (m : RxHeap) (p v : Nat) : RxHeap :=
  { m with parent := Function.update m.parent p v }

/-- Assignment `p->value = v`. -/
def setValue (m : RxHeap) (p v : Nat) : RxHeap := { m with value := Function.update m.value p v }

end RxHeap

/-- Modelled from the spec: the arena `ngx_pool_t` as the trie sees it.  `pallocs` lists the
results of the coming `ngx_palloc` calls and `pages` those of the coming `ngx_pmemalign`
calls (0 is `NULL`, the allocation failed); an exhausted list means failure. -/
structure ngx_pool_t where
  pallocs : List Nat
  pages : List Nat

/-- Modelled from the spec: `ngx_palloc(pool, size)`. -/
def ngx_palloc (pool : ngx_pool_t) : Nat × ngx_pool_t :=
  match pool.pallocs with
  | [] => (NULL, pool)
  | p :: ps => (p, { pool with pallocs := ps })

/-- Modelled from the spec: `ngx_pmemalign(pool, ngx_pagesize, ngx_pagesize)`. -/
def ngx_pmemalign (pool : ngx_pool_t) : Nat × ngx_pool_t :=
  match pool.pages with
  | [] => (NULL, pool)
  | p :: ps => (p, { pool with pages := ps })

/-- The record `ngx_radix_tree_t`. -/
structure ngx_radix_tree_t where
  root : Nat
  pool : ngx_pool_t
  free : Nat
  start : Nat
  size : Nat

/-- Outcome of a run: a result, a read through a null pointer, or fuel used up. -/
inductive RxRes (α : Type) where
  | done : α → RxRes α
  | nullDeref : RxRes α
  | outOfFuel : RxRes α

/-- `ngx_radix_alloc`: a node from the free list, else from the current page, else from a
new page; returns the node (`NULL` on failure) and the updated tree record. -/
def ngx_radix_alloc (m : RxHeap) (tree : ngx_radix_tree_t) : Nat × ngx_radix_tree_t :=
  if tree.free ≠ NULL then (tree.free, { tree with free := m.right tree.free })
  else
    if tree.size < ngx_radix_node_size then
      let r := ngx_pmemalign tree.pool
      if r.1 = NULL then (NULL, { tree with start := NULL, pool := r.2 })
      else
        (r.1, { tree with start := r.1 + ngx_radix_node_size,
                          size := ngx_pagesize - ngx_radix_node_size, pool := r.2 })
    else
      (tree.start, { tree with start := tree.start + ngx_radix_node_size,
                               size := tree.size - ngx_radix_node_size })

/-- First `while (bit & mask)` loop of `ngx_radix32tree_insert`: walk down the existing
nodes; returns `(bit, node, next)` at the loop exit. -/
def ngx_radix32tree_insert_walk :
    Nat → RxHeap → Nat → Nat → Nat → Nat → Nat → Option (Nat × Nat × Nat)
  | 0, _, _, _, _, _, _ => none
  | fuel + 1, m, key, mask, bit, node, next =>
    if bit &&& mask ≠ 0 then
      let next1 := if key &&& bit ≠ 0 then m.right node else m.left node
      if next1 = NULL then some (bit, node, next1)
      else ngx_radix32tree_insert_walk fuel m key mask (bit >>> 1) next1 next1
    else some (bit, node, next)

/-- Second `while (bit & mask)` loop of `ngx_radix32tree_insert`: allocate and link the
missing nodes; returns memory, the tree record and the last node, `none` in its place when
an allocation failed. -/
def ngx_radix32tree_insert_grow :
    Nat → RxHeap → ngx_radix_tree_t → Nat → Nat → Nat → Nat →
      Option (RxHeap × ngx_radix_tree_t × Option Nat)
  | 0, _, _, _, _, _, _ => none
  | fuel + 1, m, tree, key, mask, bit, node =>
    if bit &&& mask ≠ 0 then
      let a := ngx_radix_alloc m tree
      let next := a.1
      if next = NULL then some (m, a.2, none)
      else
        let m1 := m.setRight next NULL
        let m2 := m1.setLeft next NULL
        let m3 := m2.setParent next node
        let m4 := m3.setValue next NGX_RADIX_NO_VALUE
        let m5 := if key &&& bit ≠ 0 then m4.setRight node next else m4.setLeft node next
        ngx_radix32tree_insert_grow fuel m5 a.2 key mask (bit >>> 1) next
    else some (m, tree, some node)

/-- `ngx_radix32tree_insert`; returns memory, the tree record and the return code. -/
def ngx_radix32tree_insert (fuel : Nat) (m : RxHeap) (tree : ngx_radix_tree_t)
    (key mask value : Nat) : Option (RxHeap × ngx_radix_tree_t × Int) :=
  match ngx_radix32tree_insert_walk fuel m key mask 0x80000000 tree.root tree.root with
  | none => none
  | some (bit, node, next) =>
    if next ≠ NULL then
      if m.value node ≠ NGX_RADIX_NO_VALUE then some (m, tree, NGX_BUSY)
      else some (m.setValue node value, tree, NGX_OK)
    else
      match ngx_radix32tree_insert_grow fuel m tree key mask bit node with
      | none => none
      | some (m1, tree1, none) => some (m1, tree1, NGX_ERROR)
      | some (m1, tree1, some node1) => some (m1.setValue node1 value, tree1, NGX_OK)

/-- The `while (node && (bit & mask))` loop of `ngx_radix32tree_delete`; returns `node`. -/
def ngx_radix32tree_delete_walk : Nat → RxHeap → Nat → Nat → Nat → Nat → Option Nat
  | 0, _, _, _, _, _ => none
  | fuel + 1, m, key, mask, bit, node =>
    if node ≠ NULL ∧ bit &&& mask ≠ 0 then
      ngx_radix32tree_delete_walk fuel m key mask (bit >>> 1)
        (if key &&& bit ≠ 0 then m.right node else m.left node)
    else some node

/-- The `for ( ;; )` loop of `ngx_radix32tree_delete`: unlink the childless `node`, push it
on the free list, and go on with its parent while that is childless, without value and not
the root.  Reading `node->parent->right` with `node->parent` null is a null dereference. -/
def ngx_radix32tree_delete_prune :
    Nat → RxHeap → ngx_radix_tree_t → Nat → RxRes (RxHeap × ngx_radix_tree_t)
  | 0, _, _, _ => RxRes.outOfFuel
  | fuel + 1, m, tree, node =>
    if m.parent node = NULL then RxRes.nullDeref
    else
      let m1 :=
        if m.right (m.parent node) = node then m.setRight (m.parent node) NULL
        else m.setLeft (m.parent node) NULL
      let m2 := m1.setRight node tree.free
      let tree1 := { tree with free := node }
      let node1 := m2.parent node
      if m2.right node1 ≠ NULL ∨ m2.left node1 ≠ NULL then RxRes.done (m2, tree1)
      else if m2.value node1 ≠ NGX_RADIX_NO_VALUE then RxRes.done (m2, tree1)
      else if m2.parent node1 = NULL then RxRes.done (m2, tree1)
      else ngx_radix32tree_delete_prune fuel m2 tree1 node1

/-- `ngx_radix32tree_delete`; returns memory, the tree record and the return code. -/
def ngx_radix32tree_delete (fuel : Nat) (m : RxHeap) (tree : ngx_radix_tree_t)
    (key mask : Nat) : RxRes (RxHeap × ngx_radix_tree_t × Int) :=
  match ngx_radix32tree_delete_walk fuel m key mask 0x80000000 tree.root with
  | none => RxRes.outOfFuel
  | some node =>
    if node = NULL then RxRes.done (m, tree, NGX_ERROR)
    else if m.right node ≠ NULL ∨ m.left node ≠ NULL then
      if m.value node ≠ NGX_RADIX_NO_VALUE then
        RxRes.done (m.setValue node NGX_RADIX_NO_VALUE, tree, NGX_OK)
      else RxRes.done (m, tree, NGX_ERROR)
    else
      match ngx_radix32tree_delete_prune fuel m tree node with
      | RxRes.done (m1, tree1) => RxRes.done (m1, tree1, NGX_OK)
      | RxRes.nullDeref => RxRes.nullDeref
      | RxRes.outOfFuel => RxRes.outOfFuel

/-- The `while (node)` loop of `ngx_radix32tree_find`. -/
def ngx_radix32tree_find_loop : Nat → RxHeap → Nat → Nat → Nat → Nat → Option Nat
  | 0, _, _, _, _, _ => none
  | fuel + 1, m, key, bit, value, node =>
    if node ≠ NULL then
      ngx_radix32tree_find_loop fuel m key (bit >>> 1)
        (if m.value node ≠ NGX_RADIX_NO_VALUE then m.value node else value)
        (if key &&& bit ≠ 0 then m.right node else m.left node)
    else some value

/-- `ngx_radix32tree_find`. -/
def ngx_radix32tree_find (fuel : Nat) (m : RxHeap) (tree : ngx_radix_tree_t) (key : Nat) :
    Option Nat :=
  ngx_radix32tree_find_loop fuel m key 0x80000000 NGX_RADIX_NO_VALUE tree.root

/-- The `do … while (key)` loop of the preallocation in `ngx_radix_tree_create`: one level
of the trie; `none` when an insertion did not return `NGX_OK` (or fuel ran out). -/
def ngx_radix_tree_create_level :
    Nat → Nat → RxHeap → ngx_radix_tree_t → Nat → Nat → Nat →
      Option (RxHeap × ngx_radix_tree_t)
  | 0, _, _, _, _, _, _ => none
  | n + 1, fuel, m, tree, key, mask, inc =>
    match ngx_radix32tree_insert fuel m tree key mask NGX_RADIX_NO_VALUE with
    | none => none
    | some (m1, tree1, rc) =>
      if rc ≠ NGX_OK then none
      else
        let key1 := (key + inc) % 2 ^ 32
        if key1 ≠ 0 then ngx_radix_tree_create_level n fuel m1 tree1 key1 mask inc
        else some (m1, tree1)

/-- The `while (preallocate--)` loop of `ngx_radix_tree_create`. -/
def ngx_radix_tree_create_levels :
    Nat → Nat → RxHeap → ngx_radix_tree_t → Nat → Nat → Option (RxHeap × ngx_radix_tree_t)
  | 0, _, m, tree, _, _ => some (m, tree)
  | p + 1, fuel, m, tree, mask, inc =>
    let mask1 := (mask >>> 1) ||| 0x80000000
    match ngx_radix_tree_create_level fuel fuel m tree 0 mask1 inc with
    | none => none
    | some (m1, tree1) => ngx_radix_tree_create_levels p fuel m1 tree1 mask1 (inc >>> 1)

/-- `ngx_radix_tree_create`; `none` is the `NULL` result.  A negative `preallocate` other
than -1 is not modelled (the C loop would run until an allocation fails). -/
def ngx_radix_tree_create (fuel : Nat) (m : RxHeap) (pool : ngx_pool_t) (preallocate : Int) :
    Option (RxHeap × ngx_radix_tree_t) :=
  let a := ngx_palloc pool
  if a.1 = NULL then none
  else
    let tree0 : ngx_radix_tree_t := ⟨NULL, a.2, NULL, NULL, 0⟩
    let r := ngx_radix_alloc m tree0
    if r.1 = NULL then none
    else
      let tree1 := { r.2 with root := r.1 }
      let m1 := m.setRight r.1 NULL
      let m2 := m1.setLeft r.1 NULL
      let m3 := m2.setParent r.1 NULL
      let m4 := m3.setValue r.1 NGX_RADIX_NO_VALUE
      if preallocate = 0 then some (m4, tree1)
      else
        let p : Nat :=
          if preallocate = -1 then
            (if ngx_pagesize / ngx_radix_node_size = 128 then 6
             else if ngx_pagesize / ngx_radix_node_size = 256 then 7 else 8)
          else preallocate.toNat
        ngx_radix_tree_create_levels p fuel m4 tree1 0 0x80000000

/-! ## Abstract view of the radix trie -/

/-- Bit `d` (counted from the most significant of 32) of `key`, as the loops test it with
`key & bit` after `d` right shifts of `bit = 0x80000000`. -/
def kbit (key d : Nat) : Bool := decide (key &&& (0x80000000 >>> d) ≠ 0)

/-- Path of `key` down to depth `d`: the key bits met, the deepest first. -/
def kpath (key : Nat) : Nat → List Bool
  | 0 => []
  | d + 1 => kbit key d :: kpath key d

/-- Number of times the test `bit & mask` of the loops succeeds from `bit = 0x80000000 >> d`
on, at most `n` times. -/
def maskLenFrom (mask : Nat) : Nat → Nat → Nat
  | 0, d => d
  | n + 1, d => if (0x80000000 >>> d) &&& mask ≠ 0 then maskLenFrom mask n (d + 1) else d

/-- Depth addressed by `mask`: the number of its leading one bits. -/
def maskLen (mask : Nat) : Nat := maskLenFrom mask 33 0

/-- The free list `f` of the trie is the chain `F`, linked through `right`. -/
def FreeChain (m : RxHeap) : Nat → List Nat → Prop
  | f, [] => f = NULL
  | f, x :: xs => f = x ∧ x ≠ NULL ∧ FreeChain m (m.right x) xs

/-- Node slots in the unused part of the current page. -/
def slab (start size : Nat) : List Nat :=
  (List.range (size / ngx_radix_node_size)).map (fun i => start + ngx_radix_node_size * i)

/-- Node slots of the pages that the pool will hand out. -/
def pageNodes : List Nat → List Nat
  | [] => []
  | p :: ps => (if p = NULL then [] else slab p ngx_pagesize) ++ pageNodes ps

/-- The nodes that `ngx_radix_alloc` will return, in order: free list, current page, pages
to come. -/
def RxFresh (m : RxHeap) (tree : ngx_radix_tree_t) (L : List Nat) : Prop :=
  ∃ F, FreeChain m tree.free F ∧ L = F ++ (slab tree.start tree.size ++ pageNodes tree.pool.pages)

/-- Memory holds a trie: `A p` is the address of the node at path `p` (0 when there is
none); links follow the paths, addresses are not shared, and no node lies deeper than 32. -/
structure RxRep (m : RxHeap) (root : Nat) (A : List Bool → Nat) : Prop where
  root_eq : A [] = root
  root_ne : root ≠ NULL
  root_parent : m.parent root = NULL
  closed : ∀ b p, A (b :: p) ≠ NULL → A p ≠ NULL
  left_eq : ∀ p, A p ≠ NULL → m.left (A p) = A (false :: p)
  right_eq : ∀ p, A p ≠ NULL → m.right (A p) = A (true :: p)
  parent_eq : ∀ b p, A (b :: p) ≠ NULL → m.parent (A (b :: p)) = A p
  inj : ∀ p q, A p ≠ NULL → A p = A q → p = q
  depth : ∀ p, A p ≠ NULL → p.length ≤ 32

/-- The trie and its allocator: the nodes to come are distinct, non-null and not in the
trie. -/
structure RxInv (m : RxHeap) (tree : ngx_radix_tree_t) (A : List Bool → Nat) (L : List Nat) :
    Prop where
  rep : RxRep m tree.root A
  fresh : RxFresh m tree L
  nodup : L.Nodup
  sep : ∀ x ∈ L, x ≠ NULL ∧ ∀ p, A p ≠ x

/-- Every childless node other than the root holds a value. -/
def LeafVal (m : RxHeap) (A : List Bool → Nat) : Prop :=
  ∀ b p, A (b :: p) ≠ NULL → A (false :: b :: p) = NULL → A (true :: b :: p) = NULL →
    m.value (A (b :: p)) ≠ NGX_RADIX_NO_VALUE

/-- Value stored at path `p`, if any. -/
def content (m : RxHeap) (A : List Bool → Nat) (p : List Bool) : Option Nat :=
  if A p ≠ NULL ∧ m.value (A p) ≠ NGX_RADIX_NO_VALUE then some (m.value (A p)) else none

/-- Longest-match lookup in a table `S` from paths to values: the value at the deepest
path of `key` of depth below `n` that has one, `NGX_RADIX_NO_VALUE` when there is none. -/
def lpmLt (S : List Bool → Option Nat) (key : Nat) : Nat → Nat
  | 0 => NGX_RADIX_NO_VALUE
  | n + 1 =>
    match S (kpath key n) with
    | some v => v
    | none => lpmLt S key n

/-- Longest-prefix-match lookup over all depths 0..32. -/
def lpm (S : List Bool → Option Nat) (key : Nat) : Nat := lpmLt S key 33

/-! ## `ngx_radix32tree_insert` -/

@[simp] theorem RxHeap.rx_setRight_right (m : RxHeap) (p v : Nat) :
    (m.setRight p v).right = Function.update m.right p v := rfl

@[simp] theorem RxHeap.rx_setRight_left (m : RxHeap) (p v : Nat) : (m.setRight p v).left = m.left := rfl

@[simp] theorem RxHeap.rx_setRight_parent (m : RxHeap) (p v : Nat) :
    (m.setRight p v).parent = m.parent := rfl

@[simp] theorem RxHeap.rx_setRight_value (m : RxHeap) (p v : Nat) :
    (m.setRight p v).value = m.value := rfl

@[simp] theorem RxHeap.rx_setLeft_right (m : RxHeap) (p v : Nat) : (m.setLeft p v).right = m.right := rfl

@[simp] theorem RxHeap.rx_setLeft_left (m : RxHeap) (p v : Nat) :
    (m.setLeft p v).left = Function.update m.left p v := rfl

@[simp] theorem RxHeap.rx_setLeft_parent (m : RxHeap) (p v : Nat) :
    (m.setLeft p v).parent = m.parent := rfl

@[simp] theorem RxHeap.rx_setLeft_value (m : RxHeap) (p v : Nat) : (m.setLeft p v).value = m.value := rfl

@[simp] theorem RxHeap.rx_setParent_right (m : RxHeap) (p v : Nat) :
    (m.setParent p v).right = m.right := rfl

@[simp] theorem RxHeap.rx_setParent_left (m : RxHeap) (p v : Nat) :
    (m.setParent p v).left = m.left := rfl

@[simp] theorem RxHeap.rx_setParent_parent (m : RxHeap) (p v : Nat) :
    (m.setParent p v).parent = Function.update m.parent p v := rfl

@[simp] theorem RxHeap.rx_setParent_value (m : RxHeap) (p v : Nat) :
    (m.setParent p v).value = m.value := rfl

@[simp] theorem RxHeap.rx_setValue_right (m : RxHeap) (p v : Nat) :
    (m.setValue p v).right = m.right := rfl

@[simp] theorem RxHeap.rx_setValue_left (m : RxHeap) (p v : Nat) : (m.setValue p v).left = m.left := rfl

@[simp] theorem RxHeap.rx_setValue_parent (m : RxHeap) (p v : Nat) :
    (m.setValue p v).parent = m.parent := rfl

@[simp] theorem RxHeap.rx_setValue_value (m : RxHeap) (p v : Nat) :
    (m.setValue p v).value = Function.update m.value p v := rfl

/-- Memory after one round of the second loop of `ngx_radix32tree_insert`: the new node
`x` is cleared and linked under `y` on the side `b`. -/
def linkChild (m : RxHeap) (y x : Nat) (b : Bool) : RxHeap :=
  if b = true then
    ((((m.setRight x NULL).setLeft x NULL).setParent x y).setValue x NGX_RADIX_NO_VALUE).setRight y x
  else
    ((((m.setRight x NULL).setLeft x NULL).setParent x y).setValue x NGX_RADIX_NO_VALUE).setLeft y x

/-- Memory after one round of the `for` loop of `ngx_radix32tree_delete`: `node` is unlinked
from its parent and pushed on the free list `free`. -/
def unlinkNode (m : RxHeap) (node free : Nat) : RxHeap :=
  (if m.right (m.parent node) = node then m.setRight (m.parent node) NULL
   else m.setLeft (m.parent node) NULL).setRight node free

/-- Facts on the trie `A'` left by the pruning loop started at the childless node `t` of the
trie `A`; `R` lists the nodes that left the trie. -/
structure Pruned (m : RxHeap) (A A' : List Bool → Nat) (t : List Bool) (R : List Nat) :
    Prop where
  sub : ∀ p, A' p ≠ NULL → A' p = A p
  gone : A' t = NULL
  removed : ∀ p, A p ≠ NULL → A' p = NULL → p = t ∨ m.value (A p) = NGX_RADIX_NO_VALUE
  leaf : ∀ c p, A' (c :: p) ≠ NULL → A' (false :: c :: p) = NULL → A' (true :: c :: p) = NULL →
    (A (false :: c :: p) = NULL ∧ A (true :: c :: p) = NULL) ∨
      m.value (A (c :: p)) ≠ NGX_RADIX_NO_VALUE
  mem : ∀ x, x ∈ R ↔ ∃ p, A p = x ∧ x ≠ NULL ∧ A' p = NULL

/-! ## `ngx_radix_tree_create` and runs of operations -/

/-- Assumption on the arena: the pages it hands out do not overlap. -/
def PoolOK (pool : ngx_pool_t) : Prop := (pageNodes pool.pages).Nodup

/-- The trie that holds the root only. -/
def rootOnly (root : Nat) (p : List Bool) : Nat := if p = [] then root else NULL

/-- A call on the trie: `ngx_radix32tree_insert(key, mask, value)` or
`ngx_radix32tree_delete(key, mask)`. -/
inductive RxOp where
  | ins (key mask value : Nat) : RxOp
  | del (key mask : Nat) : RxOp

/-- Run a sequence of calls; returns the final memory and tree record and the return codes
in call order.  A null dereference or fuel running out ends the run. -/
def rxRun (fuel : Nat) :
    List RxOp → RxHeap → ngx_radix_tree_t → RxRes (RxHeap × ngx_radix_tree_t × List Int)
  | [], m, t => RxRes.done (m, t, [])
  | RxOp.ins key mask value :: ops, m, t =>
    match ngx_radix32tree_insert fuel m t key mask value with
    | none => RxRes.outOfFuel
    | some (m1, t1, rc) =>
      match rxRun fuel ops m1 t1 with
      | RxRes.done (m2, t2, rcs) => RxRes.done (m2, t2, rc :: rcs)
      | RxRes.nullDeref => RxRes.nullDeref
      | RxRes.outOfFuel => RxRes.outOfFuel
  | RxOp.del key mask :: ops, m, t =>
    match ngx_radix32tree_delete fuel m t key mask with
    | RxRes.done (m1, t1, rc) =>
      match rxRun fuel ops m1 t1 with
      | RxRes.done (m2, t2, rcs) => RxRes.done (m2, t2, rc :: rcs)
      | RxRes.nullDeref => RxRes.nullDeref
      | RxRes.outOfFuel => RxRes.outOfFuel
    | RxRes.nullDeref => RxRes.nullDeref
    | RxRes.outOfFuel => RxRes.outOfFuel

/-- The table of live entries after a sequence of calls with the given return codes, from
the table `S`: an insert that returned `NGX_OK` adds its value at the path of its
`(key, mask)`, a delete that returned `NGX_OK` removes the entry there. -/
def rxTable : List RxOp → List Int → (List Bool → Option Nat) → List Bool → Option Nat
  | RxOp.ins key mask value :: ops, rc :: rcs, S =>
    rxTable ops rcs
      (if rc = NGX_OK then Function.update S (kpath key (maskLen mask)) (some value) else S)
  | RxOp.del key mask :: ops, rc :: rcs, S =>
    rxTable ops rcs
      (if rc = NGX_OK then Function.update S (kpath key (maskLen mask)) none else S)
  | _, _, S => S

/-- No insert of the run returned `NGX_ERROR` (no allocation failed). -/
def rxNoFail : List RxOp → List Int → Prop
  | RxOp.ins _ _ _ :: ops, rc :: rcs => rc ≠ NGX_ERROR ∧ rxNoFail ops rcs
  | RxOp.del _ _ :: ops, _ :: rcs => rxNoFail ops rcs
  | _, _ => True

/-- Every inserted value differs from `NGX_RADIX_NO_VALUE`. -/
def rxValuesOK : List RxOp → Prop
  | [] => True
  | RxOp.ins _ _ value :: ops => value ≠ NGX_RADIX_NO_VALUE ∧ rxValuesOK ops
  | RxOp.del _ _ :: ops => rxValuesOK ops

/-- Memory holds a trie without valueless leaves whose values are those of the table `S`. -/
def RxGood (m : RxHeap) (t : ngx_radix_tree_t) (S : List Bool → Option Nat) : Prop :=
  ∃ A L, RxInv m t A L ∧ LeafVal m A ∧ ∀ p, content m A p = S p

/-- Memory in which every field of every node reads 0. -/
def rxM0 : RxHeap := ⟨fun _ => 0, fun _ => 0, fun _ => 0, fun _ => 0⟩

/-- A pool that hands out the block at 100 for the tree record and one page at 4096. -/
def rxPool : ngx_pool_t := ⟨[100], [4096]⟩

/-- The trie `ngx_radix_tree_create(rxPool, 0)`. -/
def rxInit : RxHeap × ngx_radix_tree_t :=
  (ngx_radix_tree_create 34 rxM0 rxPool 0).getD (rxM0, ⟨0, rxPool, 0, 0, 0⟩)

/-- Address `a.b.c.d` as a 32-bit key. -/
def ipv4 (a b c d : Nat) : Nat := a * 2 ^ 24 + b * 2 ^ 16 + c * 2 ^ 8 + d

/-- The two inserts of the longest-prefix-match scenario: 192.168.1.0/24 with value 11 and
192.168.1.128/25 with value 22. -/
def rxScenario : List RxOp :=
  [RxOp.ins (ipv4 192 168 1 0) (ipv4 255 255 255 0) 11,
   RxOp.ins (ipv4 192 168 1 128) (ipv4 255 255 255 128) 22]

/-- Outcome of `ngx_radix32tree_insert(0, 0, NGX_RADIX_NO_VALUE)` on the fresh trie. -/
def rxNoVal : RxHeap × ngx_radix_tree_t × Int :=
  (ngx_radix32tree_insert 34 rxInit.1 rxInit.2 0 0 NGX_RADIX_NO_VALUE).getD
    (rxM0, rxInit.2, NGX_ERROR)

/-- Outcome of `ngx_radix32tree_insert(0, 0, 7)` after that. -/
def rxNoVal2 : RxHeap × ngx_radix_tree_t × Int :=
  (ngx_radix32tree_insert 34 rxNoVal.1 rxNoVal.2.1 0 0 7).getD (rxM0, rxInit.2, NGX_ERROR)

/-- Outcome of `ngx_radix32tree_insert(0, 0, 7)` on the fresh trie. -/
def rxSeven : RxHeap × ngx_radix_tree_t × Int :=
  (ngx_radix32tree_insert 34 rxInit.1 rxInit.2 0 0 7).getD (rxM0, rxInit.2, NGX_ERROR)

/-- Four inserts with full masks that use all but one node slot of the only page of
`rxPool`. -/
def rxFill : List RxOp :=
  [RxOp.ins 0 0xffffffff 1, RxOp.ins 0x80000000 0xffffffff 2, RxOp.ins 0x40000000 0xffffffff 3,
   RxOp.ins 0xc0000000 0xffffffff 4]

/-- The trie after `rxFill` on the fresh trie. -/
def rxFull : RxHeap × ngx_radix_tree_t :=
  match rxRun 34 rxFill rxInit.1 rxInit.2 with
  | RxRes.done (m, t, _) => (m, t)
  | _ => rxInit

/-- Outcome of `ngx_radix32tree_insert(0x20000000, 0xf0000000, 5)` on `rxFull`: two nodes
are missing on the path and one slot is left. -/
def rxFail : RxHeap × ngx_radix_tree_t × Int :=
  (ngx_radix32tree_insert 34 rxFull.1 rxFull.2 0x20000000 0xf0000000 5).getD
    (rxM0, rxInit.2, NGX_OK)

/-! ## Exact effect of the pruning loop of `ngx_radix32tree_delete` -/

/-- Nodes unlinked by the pruning loop started at path `t` when it removes `n` nodes, in
free-list order: the node unlinked last comes first. -/
def prunedNodes (A : List Bool → Nat) (t : List Bool) (n : Nat) : List Nat :=
  ((List.range n).map (fun i => A (t.drop i))).reverse

/-- The trie `A'` left by the pruning loop started at the childless node at path `t` of the
trie `A`, when the loop unlinks `n` nodes: the nodes at `t`, its parent, …, up to `n - 1`
levels above `t` are gone and all other nodes are in place; each removed ancestor held no
value and had no other child; the first ancestor kept is the root, holds a value, or has
another child. -/
structure PrunedExact (m : RxHeap) (A A' : List Bool → Nat) (t : List Bool) (n : Nat) :
    Prop where
  pos : 1 ≤ n
  le : n ≤ t.length
  gone : ∀ i, i < n → A' (t.drop i) = NULL
  kept : ∀ p, (∀ i, i < n → p ≠ t.drop i) → A' p = A p
  chain : ∀ i, 1 ≤ i → i < n → m.value (A (t.drop i)) = NGX_RADIX_NO_VALUE ∧
    ∀ c, c :: t.drop i ≠ t.drop (i - 1) → A (c :: t.drop i) = NULL
  stop : n = t.length ∨ m.value (A (t.drop n)) ≠ NGX_RADIX_NO_VALUE ∨
    ∃ c, c :: t.drop n ≠ t.drop (n - 1) ∧ A (c :: t.drop n) ≠ NULL

/-- The trie after `ngx_radix32tree_insert(0, 0xc0000000, 7)` on the fresh trie: the root, a
valueless node at path 0 and a node with value 7 at path 00. -/
def rxChain : RxHeap × ngx_radix_tree_t × Int :=
  (ngx_radix32tree_insert 34 rxInit.1 rxInit.2 0 0xc0000000 7).getD (rxM0, rxInit.2, NGX_ERROR)

/-! ## Claims on `ngx_radix32tree_delete` -/

/-- The result of a finished run, `d` otherwise. -/
def RxRes.getD {α : Type} (r : RxRes α) (d : α) : α :=
  match r with
  | RxRes.done a => a
  | _ => d

/-- Whether the run finished. -/
def RxRes.isDone {α : Type} (r : RxRes α) : Bool :=
  match r with
  | RxRes.done _ => true
  | _ => false

/-- The trie `ngx_radix_tree_create(rxPool, 1)`: the root and its two preallocated
children. -/
def rxPre : RxHeap × ngx_radix_tree_t :=
  (ngx_radix_tree_create 34 rxM0 rxPool 1).getD (rxM0, ⟨0, rxPool, 0, 0, 0⟩)

/-- Outcome of `ngx_radix32tree_delete(0, 0x80000000)` on `rxPre`. -/
def rxPreDel : RxHeap × ngx_radix_tree_t × Int :=
  (ngx_radix32tree_delete 34 rxPre.1 rxPre.2 0 0x80000000).getD (rxM0, rxPre.2, NGX_ERROR)

/-! ## Only the key bits under the mask are used -/

/-- The values that the loop variable `bit` takes: a single bit, or zero once it is shifted
out. -/
def IsBit (bit : Nat) : Prop := bit = 0 ∨ ∃ j, bit = 2 ^ j

/-- Outcome of `ngx_radix32tree_delete(0, 0xc0000000)` on `rxChain`. -/
def rxChainDel : RxHeap × ngx_radix_tree_t × Int :=
  (ngx_radix32tree_delete 34 rxChain.1 rxChain.2.1 0 0xc0000000).getD
    (rxM0, rxInit.2, NGX_ERROR)

/-! ## Preallocation, and runs on any trie -/

/-- Number of levels that `ngx_radix_tree_create` preallocates for a non-zero
`preallocate`: 6, 7 or 8 by the page size for -1, else `preallocate` itself. -/
def preallocDepth (preallocate : Int) : Nat :=
  if preallocate = -1 then
    (if ngx_pagesize / ngx_radix_node_size = 128 then 6
     else if ngx_pagesize / ngx_radix_node_size = 256 then 7 else 8)
  else preallocate.toNat

/-- Memory holds a trie whose stored values are those of the table `S`. -/
def RxCont (m : RxHeap) (t : ngx_radix_tree_t) (S : List Bool → Option Nat) : Prop :=
  ∃ A L, RxInv m t A L ∧ ∀ p, content m A p = S p

/-- The table of stored values after a sequence of calls on a trie with the table `S`,
when no insert fails for lack of memory: an insert adds its value at the path of its
`(key, mask)` unless a value is there (or the value is `NGX_RADIX_NO_VALUE`), a delete
removes the entry there. -/
def rxTableOf : List RxOp → (List Bool → Option Nat) → List Bool → Option Nat
  | [], S => S
  | RxOp.ins key mask value :: ops, S =>
    rxTableOf ops
      (if (S (kpath key (maskLen mask))).isNone = true ∧ value ≠ NGX_RADIX_NO_VALUE then
        Function.update S (kpath key (maskLen mask)) (some value)
       else S)
  | RxOp.del key mask :: ops, S =>
    rxTableOf ops (Function.update S (kpath key (maskLen mask)) none)

section RbDefsx
open RbTree

/-- Outcome of `ngx_rbtree_delete` of the root (address 2, key 5) of the three-node tree. -/
def w3Del : RbHeap × ngx_rbtree_t :=
  (ngx_rbtree_delete 3 w3Heap wTree 2).getD (w3Heap, wTree)

end RbDefsx

/-! ## The timer insertion strategy `ngx_rbtree_insert_timer_value` -/

/-- The cast `(ngx_rbtree_key_int_t) x` of a key of `w` bits: its value as a signed
(two's complement) integer. -/
def keyToInt (w x : Nat) : Int :=
  if x % 2 ^ w < 2 ^ (w - 1) then ((x % 2 ^ w : Nat) : Int) else ((x % 2 ^ w : Nat) : Int) - 2 ^ w

/-- The difference `a - b` of two keys of type `ngx_rbtree_key_t` (unsigned, `w` bits). -/
def keySub (w a b : Nat) : Nat := (a % 2 ^ w + 2 ^ w - b % 2 ^ w) % 2 ^ w

/-- The test `(ngx_rbtree_key_int_t) (node->key - temp->key) < 0` of
`ngx_rbtree_insert_timer_value`, for keys of `w` bits. -/
def timerLess (w a b : Nat) : Bool := decide (keyToInt w (keySub w a b) < 0)

/-- The loop of `ngx_rbtree_insert_timer_value` for keys of `w` bits: descend from `temp`
comparing keys by the sign of their difference, then link `node` as a red leaf. -/
def ngx_rbtree_insert_timer_value (w : Nat) : Nat → RbHeap → Nat → Nat → Nat → Option RbHeap
  | 0, _, _, _, _ => none
  | fuel + 1, m, temp, node, sentinel =>
    let goLeft : Bool := timerLess w (m.key node) (m.key temp)
    let p := if goLeft then m.left temp else m.right temp
    if p = sentinel then
      let m1 := if goLeft then setLeft m temp node else setRight m temp node
      let m2 := setParent m1 node temp
      let m3 := setLeft m2 node sentinel
      let m4 := setRight m3 node sentinel
      some (ngx_rbt_red m4 node)
    else ngx_rbtree_insert_timer_value w fuel m p node sentinel

/-- Memory for keys of 4 bits: the node at address 2 holds key 15, every other key is 0;
all links point to the sentinel at address 1. -/
def wTimer : RbHeap :=
  ⟨fun x => if x = 2 then 15 else 0, fun _ => 1, fun _ => 1, fun _ => 0, fun _ => Color.black⟩

section RbDefsxx
open RbTree

/-! ## Insertion with the timer strategy on the abstract tree -/

/-- Path followed by `ngx_rbtree_insert_timer_value` for key `k` (keys of `w` bits): left
when the signed difference to the node's key is negative, right otherwise. -/
def insPathT (w k : Nat) : RbTree → List RbFrame → List RbFrame
  | nil, fs => fs
  | node c l x kx r, fs =>
    if timerLess w k kx = true then insPathT w k l (RbFrame.L c x kx r :: fs)
    else insPathT w k r (RbFrame.R c l x kx :: fs)

/-- Result of `ngx_rbtree_insert` with the strategy `ngx_rbtree_insert_timer_value`, on the
abstract tree: `n` is the new node's address and `k` its key. -/
def insTreeT (w : Nat) (t : RbTree) (n k : Nat) : RbTree :=
  match t with
  | nil => node Color.black nil n k nil
  | node c l x kx r =>
    (insFix (insPathT w k (node c l x kx r) []) (node Color.red nil n k nil)).setBlack

/-- Offset of the key `k` from `base`, modulo `2 ^ w`: the `d` with
`k = (base + d) mod 2 ^ w`. -/
def timerOff (w base k : Nat) : Nat := keySub w k base

/-- A key of `w` bits whose offset from `base` is below `2 ^ (w - 1)`. -/
def TimerKey (w base k : Nat) : Prop := k < 2 ^ w ∧ timerOff w base k < 2 ^ (w - 1)

/-- Every frame of the path agrees with the order of the offsets: left turns at larger
offsets, right turns at offsets not larger. -/
def PathOKT (f : Nat → Nat) (k : Nat) : List RbFrame → Prop
  | [] => True
  | RbFrame.L _ _ kx _ :: fs => f k < f kx ∧ PathOKT f k fs
  | RbFrame.R _ _ _ kx :: fs => f kx ≤ f k ∧ PathOKT f k fs

/-- States reached from `ngx_rbtree_init` with the strategy
`ngx_rbtree_insert_timer_value` (keys of `w` bits) by calls of `ngx_rbtree_insert` and
`ngx_rbtree_delete`, with the list of nodes in the tree.  The key of every inserted node is
`(base + d) mod 2 ^ w` for some `d < 2 ^ (w - 1)`. -/
inductive BuiltT (w base s : Nat) : RbHeap → ngx_rbtree_t → List Nat → Prop
  | init (m : RbHeap) :
    BuiltT w base s (ngx_rbtree_init m s (ngx_rbtree_insert_timer_value w)).1
      (ngx_rbtree_init m s (ngx_rbtree_insert_timer_value w)).2 []
  | insert {m : RbHeap} {tree : ngx_rbtree_t} {ns : List Nat} (m1 : RbHeap) (n fuel : Nat)
    (m' : RbHeap) (tree' : ngx_rbtree_t) :
    BuiltT w base s m tree ns → n ∉ ns → n ≠ s → (∀ q, q ≠ n → AgreeAt m m1 q) →
    (∃ d, d < 2 ^ (w - 1) ∧ m1.key n = (base + d) % 2 ^ w) →
    ns.length + 1 ≤ fuel → ngx_rbtree_insert fuel m1 tree n = some (m', tree') →
    BuiltT w base s m' tree' (n :: ns)
  | delete {m : RbHeap} {tree : ngx_rbtree_t} {ns : List Nat} (n fuel : Nat)
    (m' : RbHeap) (tree' : ngx_rbtree_t) :
    BuiltT w base s m tree ns → n ∈ ns → ns.length + 1 ≤ fuel →
    ngx_rbtree_delete fuel m tree n = some (m', tree') → BuiltT w base s m' tree' (ns.erase n)

/-- The empty timer tree for keys of 4 bits on the memory `wTimer`, sentinel at address 1. -/
def wT0 : RbHeap × ngx_rbtree_t := ngx_rbtree_init wTimer 1 (ngx_rbtree_insert_timer_value 4)

/-- After the insertion of node 2 (key 15, offset 1 from base 14). -/
def wT1 : RbHeap × ngx_rbtree_t := (ngx_rbtree_insert 1 wT0.1 wT0.2 2).getD wT0

/-- After the insertion of node 3 (key 0, offset 2 from base 14: the key has wrapped). -/
def wT2 : RbHeap × ngx_rbtree_t := (ngx_rbtree_insert 2 wT1.1 wT1.2 3).getD wT1

/-! ## `ngx_event_find_timer` -/

/-- `NGX_TIMER_INFINITE`, that is `(ngx_msec_t) -1`, for a millisecond counter of `w`
bits. -/
def NGX_TIMER_INFINITE (w : Nat) : Nat := 2 ^ w - 1

/-- `ngx_event_find_timer` for a millisecond counter of `w` bits.  The globals it reads
are arguments: the tree `ngx_event_timer_rbtree`, the address of
`ngx_event_timer_sentinel` and the counter `ngx_current_msec`. -/
def ngx_event_find_timer (w fuel : Nat) (m : RbHeap) (ngx_event_timer_rbtree : ngx_rbtree_t)
    (ngx_event_timer_sentinel ngx_current_msec : Nat) : Option Nat :=
  if ngx_event_timer_rbtree.root = ngx_event_timer_sentinel then some (NGX_TIMER_INFINITE w)
  else
    match ngx_rbtree_min fuel m ngx_event_timer_rbtree.root ngx_event_timer_rbtree.sentinel with
    | none => none
    | some p =>
      let timer : Int := keyToInt w (keySub w (m.key p) ngx_current_msec)
      some ((if timer > 0 then timer else 0).toNat % 2 ^ w)

end RbDefsxx

/-! ## `ngx_count_modules` and `ngx_module_ctx_index` of `ngx_module.c` -/

/-- `NGX_MODULE_UNSET_INDEX`, `(ngx_uint_t) -1` with 64-bit `ngx_uint_t`. -/
def NGX_MODULE_UNSET_INDEX : Nat := 2 ^ 64 - 1

/-- The members of `ngx_module_t` that `ngx_count_modules` uses. -/
structure ngx_module_t where
  type : Nat
  ctx_index : Nat

/-- The members of `ngx_cycle_t` that `ngx_count_modules` uses: the modules that
`cycle->modules` points to, in order; those of `cycle->old_cycle->modules` (`none` when
`old_cycle` or its `modules` is null; they are taken to be objects of their own); and
`modules_used`. -/
structure ngx_cycle_t where
  modules : List ngx_module_t
  old_cycle : Option (List ngx_module_t)
  modules_used : Nat

/-- One `for` loop of `ngx_module_ctx_index`: whether a module of the type has
`ctx_index == index`. -/
def ngx_module_ctx_index_scan (type index : Nat) : List ngx_module_t → Bool
  | [] => false
  | md :: ms =>
    if md.type ≠ type then ngx_module_ctx_index_scan type index ms
    else if md.ctx_index = index then true
    else ngx_module_ctx_index_scan type index ms

/-- `ngx_module_ctx_index`: the first index from `index` on that no module of the type
uses, in the cycle or the old cycle; each `goto again` takes one unit of fuel. -/
def ngx_module_ctx_index :
    Nat → List ngx_module_t → Option (List ngx_module_t) → Nat → Nat → Option Nat
  | 0, _, _, _, _ => none
  | fuel + 1, modules, old, type, index =>
    if ngx_module_ctx_index_scan type index modules = true then
      ngx_module_ctx_index fuel modules old type ((index + 1) % 2 ^ 64)
    else
      match old with
      | some oms =>
        if ngx_module_ctx_index_scan type index oms = true then
          ngx_module_ctx_index fuel modules old type ((index + 1) % 2 ^ 64)
        else some index
      | none => some index

/-- First loop of `ngx_count_modules`, with the modules already visited (`seen`) and
those to come; returns the modules, `next` and `max`. -/
def ngx_count_modules_loop (fuel : Nat) (old : Option (List ngx_module_t)) (type : Nat) :
    List ngx_module_t → List ngx_module_t → Nat → Nat → Option (List ngx_module_t × Nat × Nat)
  | seen, [], next, max => some (seen, next, max)
  | seen, md :: todo, next, max =>
    if md.type ≠ type then ngx_count_modules_loop fuel old type (seen ++ [md]) todo next max
    else if md.ctx_index ≠ NGX_MODULE_UNSET_INDEX then
      ngx_count_modules_loop fuel old type (seen ++ [md]) todo
        (if md.ctx_index = next then (next + 1) % 2 ^ 64 else next)
        (if md.ctx_index > max then md.ctx_index else max)
    else
      match ngx_module_ctx_index fuel (seen ++ md :: todo) old type next with
      | none => none
      | some idx =>
        ngx_count_modules_loop fuel old type (seen ++ [{ md with ctx_index := idx }]) todo
          ((idx + 1) % 2 ^ 64) (if idx > max then idx else max)

/-- Second loop of `ngx_count_modules`, over the modules of the old cycle. -/
def ngx_count_modules_old (type : Nat) : List ngx_module_t → Nat → Nat
  | [], max => max
  | md :: ms, max =>
    if md.type ≠ type then ngx_count_modules_old type ms max
    else ngx_count_modules_old type ms (if md.ctx_index > max then md.ctx_index else max)

/-- `ngx_count_modules`: returns the result (an `ngx_int_t`) and the cycle. -/
def ngx_count_modules (fuel : Nat) (cycle : ngx_cycle_t) (type : Nat) :
    Option (Int × ngx_cycle_t) :=
  match ngx_count_modules_loop fuel cycle.old_cycle type [] cycle.modules 0 0 with
  | none => none
  | some (ms, _, max) =>
    let max1 :=
      match cycle.old_cycle with
      | some oms => ngx_count_modules_old type oms max
      | none => max
    some (keyToInt 64 ((max1 + 1) % 2 ^ 64), { cycle with modules := ms, modules_used := 1 })

/-- Number of modules of the given type. -/
def countType (type : Nat) (ms : List ngx_module_t) : Nat :=
  (ms.filter (fun md => decide (md.type = type))).length

/-- The `ctx_index` values of the modules of the given type, in order. -/
def ctxOf (type : Nat) (ms : List ngx_module_t) : List Nat :=
  (ms.filter (fun md => decide (md.type = type))).map (fun md => md.ctx_index)

/-- The modules of the other types, in order. -/
def otherOf (type : Nat) (ms : List ngx_module_t) : List ngx_module_t :=
  ms.filter (fun md => !decide (md.type = type))

/-! ## `ngx_array_push` of `ngx_array.c` -/

/-- The record `ngx_array_t`; its member `pool` is passed along as a value of `ngx_pool_s`. -/
structure ngx_array_t where
  elts : Nat
  nelts : Nat
  size : Nat
  nalloc : Nat

/-- The members `last` and `end` of the data block `d` of a pool. -/
structure ngx_pool_data_t where
  last : Nat
  end_ : Nat

/-- Modelled from the spec: the arena `struct ngx_pool_s` as `ngx_array_push` sees it: the
data block `d`, the results of the coming `ngx_palloc` calls (0 is `NULL`; an exhausted
list means failure), and the sizes requested so far, the latest first. -/
structure ngx_pool_s where
  d : ngx_pool_data_t
  pallocs : List Nat
  requested : List Nat

/-- Modelled from the spec: `ngx_palloc(pool, size)` on `ngx_pool_s`. -/
def ngx_palloc_size (pool : ngx_pool_s) (size : Nat) : Nat × ngx_pool_s :=
  match pool.pallocs with
  | [] => (NULL, { pool with requested := size :: pool.requested })
  | p :: ps => (p, { pool with pallocs := ps, requested := size :: pool.requested })

/-- `ngx_memcpy(dst, src, n)` on a memory of bytes. -/
def ngx_memcpy (mem : Nat → Nat) (dst src n : Nat) : Nat → Nat :=
  fun x => if dst ≤ x ∧ x < dst + n then mem (src + (x - dst)) else mem x

/-- `ngx_array_push`; `none` is the `NULL` result.  Returns the address of the new element,
memory, the array record and the pool.  Values of type `size_t` and `ngx_uint_t` are taken
modulo `2 ^ 64`. -/
def ngx_array_push (mem : Nat → Nat) (a : ngx_array_t) (p : ngx_pool_s) :
    Option (Nat × (Nat → Nat) × ngx_array_t × ngx_pool_s) :=
  let grown : Option ((Nat → Nat) × ngx_array_t × ngx_pool_s) :=
    if a.nelts = a.nalloc then
      let size := (a.size * a.nalloc) % 2 ^ 64
      if a.elts + size = p.d.last ∧ p.d.last + a.size ≤ p.d.end_ then
        some (mem, { a with nalloc := (a.nalloc + 1) % 2 ^ 64 },
          { p with d := { p.d with last := p.d.last + a.size } })
      else
        let r := ngx_palloc_size p ((2 * size) % 2 ^ 64)
        if r.1 = NULL then none
        else
          some (ngx_memcpy mem r.1 a.elts size,
            { a with elts := r.1, nalloc := (a.nalloc * 2) % 2 ^ 64 }, r.2)
    else some (mem, a, p)
  match grown with
  | none => none
  | some (mem1, a1, p1) =>
    some (a1.elts + (a1.size * a1.nelts) % 2 ^ 64, mem1,
      { a1 with nelts := (a1.nelts + 1) % 2 ^ 64 }, p1)

/-- A full array of two 4-byte elements at address 100 that is not the last allocation of
its pool. -/
def arrFull : ngx_array_t := ⟨100, 2, 4, 2⟩

/-- A pool whose next allocation is at address 200. -/
def arrPool : ngx_pool_s := ⟨⟨50, 60⟩, [200], []⟩

/-- A memory whose byte at address `x` is `x % 7`. -/
def arrMem : Nat → Nat := fun x => x % 7

/-! ## The queue of `ngx_queue.h` and `ngx_queue.c` -/

/-- The links of all `ngx_queue_t` records, by address: the members `prev` and `next`. -/
structure QHeap where
  prev : Nat → Nat
  next : Nat → Nat

/-- The loop of `ngx_queue_middle`: one round per unit of fuel. -/
def ngx_queue_middle_loop : Nat → QHeap → Nat → Nat → Nat → Option Nat
  | 0, _, _, _, _ => none
  | fuel + 1, m, queue, middle, next =>
    let middle := m.next middle
    let next := m.next next
    if next = m.prev queue then some middle
    else
      let next := m.next next
      if next = m.prev queue then some middle
      else ngx_queue_middle_loop fuel m queue middle next

/-- `ngx_queue_middle`; `none` when the fuel runs out. -/
def ngx_queue_middle (fuel : Nat) (m : QHeap) (queue : Nat) : Option Nat :=
  let middle := m.next queue
  if middle = m.prev queue then some middle
  else ngx_queue_middle_loop fuel m queue middle (m.next queue)

/-- The records `l` are linked in both directions between `p` and `q`: `p`, the members of
`l` in order, and `q` follow one another by `next`, and back by `prev`. -/
def Links (m : QHeap) : Nat → List Nat → Nat → Prop
  | p, [], q => m.next p = q ∧ m.prev q = p
  | p, x :: xs, q => m.next p = x ∧ m.prev x = p ∧ Links m x xs q

instance instDecidableLinks (m : QHeap) :
    ∀ (p : Nat) (l : List Nat) (q : Nat), Decidable (Links m p l q)
  | p, [], q => inferInstanceAs (Decidable (m.next p = q ∧ m.prev q = p))
  | p, x :: xs, q =>
    have := instDecidableLinks m x xs q
    inferInstanceAs (Decidable (m.next p = x ∧ m.prev x = p ∧ Links m x xs q))

/-- The queue with sentinel `queue` holds the elements `l`, in this order. -/
def QRep (m : QHeap) (queue : Nat) (l : List Nat) : Prop :=
  Links m queue l queue ∧ (queue :: l).Nodup

/-- The last of `p :: l`. -/
def qLast : Nat → List Nat → Nat
  | p, [] => p
  | _, x :: xs => qLast x xs

/-- A queue with sentinel 1 that holds the elements 2, 3, 4, 5. -/
def qFour : QHeap :=
  ⟨fun x => if x = 1 then 5 else x - 1, fun x => if x = 5 then 1 else x + 1⟩

/-! ## `ngx_queue_sort` -/

/-- The macro `ngx_queue_remove(x)`, in both variants: with `NGX_DEBUG` the links of `x` are
set to `NULL` afterwards. -/
def ngx_queue_remove (NGX_DEBUG : Bool) (m : QHeap) (x : Nat) : QHeap :=
  let m1 : QHeap := { m with prev := Function.update m.prev (m.next x) (m.prev x) }
  let m2 : QHeap := { m1 with next := Function.update m1.next (m1.prev x) (m1.next x) }
  if NGX_DEBUG then
    let m3 : QHeap := { m2 with prev := Function.update m2.prev x NULL }
    { m3 with next := Function.update m3.next x NULL }
  else m2

/-- The macro `ngx_queue_insert_head(h, x)`. -/
def ngx_queue_insert_head (m : QHeap) (h x : Nat) : QHeap :=
  let m1 : QHeap := { m with next := Function.update m.next x (m.next h) }
  let m2 : QHeap := { m1 with prev := Function.update m1.prev (m1.next x) x }
  let m3 : QHeap := { m2 with prev := Function.update m2.prev x h }
  { m3 with next := Function.update m3.next h x }

/-- The macro `ngx_queue_insert_after`, another name of `ngx_queue_insert_head`. -/
def ngx_queue_insert_after (m : QHeap) (h x : Nat) : QHeap :=
  ngx_queue_insert_head m h x

/-- The `do ... while` loop of `ngx_queue_sort`: the element after which `q` is put. -/
def ngx_queue_sort_scan : Nat → QHeap → (Nat → Nat → Int) → Nat → Nat → Nat → Option Nat
  | 0, _, _, _, _, _ => none
  | fuel + 1, m, cmp, queue, q, prev =>
    if cmp prev q ≤ 0 then some prev
    else
      let prev := m.prev prev
      if prev ≠ queue then ngx_queue_sort_scan fuel m cmp queue q prev
      else some prev

/-- The `for` loop of `ngx_queue_sort`; `n` is the fuel of each inner loop. -/
def ngx_queue_sort_loop :
    Nat → Nat → Bool → QHeap → (Nat → Nat → Int) → Nat → Nat → Option QHeap
  | 0, _, _, _, _, _, _ => none
  | fuel + 1, n, dbg, m, cmp, queue, q =>
    if q ≠ queue then
      let prev := m.prev q
      let next := m.next q
      let m := ngx_queue_remove dbg m q
      match ngx_queue_sort_scan n m cmp queue q prev with
      | none => none
      | some prev =>
        ngx_queue_sort_loop fuel n dbg (ngx_queue_insert_after m prev q) cmp queue next
    else some m

/-- `ngx_queue_sort`; `none` when the fuel runs out. -/
def ngx_queue_sort (NGX_DEBUG : Bool) (fuel : Nat) (m : QHeap) (cmp : Nat → Nat → Int)
    (queue : Nat) : Option QHeap :=
  let q := m.next queue
  if q = m.prev queue then some m
  else ngx_queue_sort_loop fuel fuel NGX_DEBUG m cmp queue (m.next q)

/-- Putting `x` into a list kept in reverse order: before the first `t` with
`cmp t x ≤ 0`. -/
def qInsertRev (cmp : Nat → Nat → Int) (x : Nat) : List Nat → List Nat
  | [] => [x]
  | t :: T => if cmp t x ≤ 0 then x :: t :: T else t :: qInsertRev cmp x T

/-- The insertion sort that `ngx_queue_sort` performs, on lists. -/
def qSortList (cmp : Nat → Nat → Int) (l : List Nat) : List Nat :=
  (l.foldl (fun T x => qInsertRev cmp x T) []).reverse

/-- A queue with sentinel 1 that holds the elements 4, 2, 3. -/
def qThree : QHeap :=
  ⟨fun x => if x = 1 then 3 else if x = 3 then 2 else if x = 2 then 4 else 1,
   fun x => if x = 1 then 4 else if x = 4 then 2 else if x = 2 then 3 else 1⟩

/-- A comparator under which 2 and 3 compare equal and both are smaller than 4. -/
def qCmp (a b : Nat) : Int := (a : Int) / 2 - (b : Int) / 2

/-! ## The 128-bit operations of `ngx_radix_tree.c` -/

/-- First `while (bit & mask[i])` loop of `ngx_radix128tree_insert`; `key` and `mask` give
the bytes by index; returns `(i, bit, node, next)` at the loop exit. -/
def ngx_radix128tree_insert_walk :
    Nat → RxHeap → (Nat → Nat) → (Nat → Nat) → Nat → Nat → Nat → Nat →
      Option (Nat × Nat × Nat × Nat)
  | 0, _, _, _, _, _, _, _ => none
  | fuel + 1, m, key, mask, i, bit, node, next =>
    if bit &&& mask i ≠ 0 then
      let next1 := if key i &&& bit ≠ 0 then m.right node else m.left node
      if next1 = NULL then some (i, bit, node, next1)
      else
        let bit1 := bit >>> 1
        if bit1 = 0 then
          if i + 1 = 16 then some (i + 1, bit1, next1, next1)
          else ngx_radix128tree_insert_walk fuel m key mask (i + 1) 0x80 next1 next1
        else ngx_radix128tree_insert_walk fuel m key mask i bit1 next1 next1
    else some (i, bit, node, next)

/-- Second `while (bit & mask[i])` loop of `ngx_radix128tree_insert`. -/
def ngx_radix128tree_insert_grow :
    Nat → RxHeap → ngx_radix_tree_t → (Nat → Nat) → (Nat → Nat) → Nat → Nat → Nat →
      Option (RxHeap × ngx_radix_tree_t × Option Nat)
  | 0, _, _, _, _, _, _, _ => none
  | fuel + 1, m, tree, key, mask, i, bit, node =>
    if bit &&& mask i ≠ 0 then
      let a := ngx_radix_alloc m tree
      let next := a.1
      if next = NULL then some (m, a.2, none)
      else
        let m1 := m.setRight next NULL
        let m2 := m1.setLeft next NULL
        let m3 := m2.setParent next node
        let m4 := m3.setValue next NGX_RADIX_NO_VALUE
        let m5 := if key i &&& bit ≠ 0 then m4.setRight node next else m4.setLeft node next
        let bit1 := bit >>> 1
        if bit1 = 0 then
          if i + 1 = 16 then some (m5, a.2, some next)
          else ngx_radix128tree_insert_grow fuel m5 a.2 key mask (i + 1) 0x80 next
        else ngx_radix128tree_insert_grow fuel m5 a.2 key mask i bit1 next
    else some (m, tree, some node)

/-- `ngx_radix128tree_insert`; returns memory, the tree record and the return code. -/
def ngx_radix128tree_insert (fuel : Nat) (m : RxHeap) (tree : ngx_radix_tree_t)
    (key mask : Nat → Nat) (value : Nat) : Option (RxHeap × ngx_radix_tree_t × Int) :=
  match ngx_radix128tree_insert_walk fuel m key mask 0 0x80 tree.root tree.root with
  | none => none
  | some (i, bit, node, next) =>
    if next ≠ NULL then
      if m.value node ≠ NGX_RADIX_NO_VALUE then some (m, tree, NGX_BUSY)
      else some (m.setValue node value, tree, NGX_OK)
    else
      match ngx_radix128tree_insert_grow fuel m tree key mask i bit node with
      | none => none
      | some (m1, tree1, none) => some (m1, tree1, NGX_ERROR)
      | some (m1, tree1, some node1) => some (m1.setValue node1 value, tree1, NGX_OK)

/-- The `while (node && (bit & mask[i]))` loop of `ngx_radix128tree_delete`. -/
def ngx_radix128tree_delete_walk :
    Nat → RxHeap → (Nat → Nat) → (Nat → Nat) → Nat → Nat → Nat → Option Nat
  | 0, _, _, _, _, _, _ => none
  | fuel + 1, m, key, mask, i, bit, node =>
    if node ≠ NULL ∧ bit &&& mask i ≠ 0 then
      let node1 := if key i &&& bit ≠ 0 then m.right node else m.left node
      let bit1 := bit >>> 1
      if bit1 = 0 then
        if i + 1 = 16 then some node1
        else ngx_radix128tree_delete_walk fuel m key mask (i + 1) 0x80 node1
      else ngx_radix128tree_delete_walk fuel m key mask i bit1 node1
    else some node

/-- The `for ( ;; )` loop of `ngx_radix128tree_delete`. -/
def ngx_radix128tree_delete_prune :
    Nat → RxHeap → ngx_radix_tree_t → Nat → RxRes (RxHeap × ngx_radix_tree_t)
  | 0, _, _, _ => RxRes.outOfFuel
  | fuel + 1, m, tree, node =>
    if m.parent node = NULL then RxRes.nullDeref
    else
      let m1 :=
        if m.right (m.parent node) = node then m.setRight (m.parent node) NULL
        else m.setLeft (m.parent node) NULL
      let m2 := m1.setRight node tree.free
      let tree1 := { tree with free := node }
      let node1 := m2.parent node
      if m2.right node1 ≠ NULL ∨ m2.left node1 ≠ NULL then RxRes.done (m2, tree1)
      else if m2.value node1 ≠ NGX_RADIX_NO_VALUE then RxRes.done (m2, tree1)
      else if m2.parent node1 = NULL then RxRes.done (m2, tree1)
      else ngx_radix128tree_delete_prune fuel m2 tree1 node1

/-- `ngx_radix128tree_delete`; returns memory, the tree record and the return code. -/
def ngx_radix128tree_delete (fuel : Nat) (m : RxHeap) (tree : ngx_radix_tree_t)
    (key mask : Nat → Nat) : RxRes (RxHeap × ngx_radix_tree_t × Int) :=
  match ngx_radix128tree_delete_walk fuel m key mask 0 0x80 tree.root with
  | none => RxRes.outOfFuel
  | some node =>
    if node = NULL then RxRes.done (m, tree, NGX_ERROR)
    else if m.right node ≠ NULL ∨ m.left node ≠ NULL then
      if m.value node ≠ NGX_RADIX_NO_VALUE then
        RxRes.done (m.setValue node NGX_RADIX_NO_VALUE, tree, NGX_OK)
      else RxRes.done (m, tree, NGX_ERROR)
    else
      match ngx_radix128tree_delete_prune fuel m tree node with
      | RxRes.done (m1, tree1) => RxRes.done (m1, tree1, NGX_OK)
      | RxRes.nullDeref => RxRes.nullDeref
      | RxRes.outOfFuel => RxRes.outOfFuel

/-- The `while (node)` loop of `ngx_radix128tree_find`. -/
def ngx_radix128tree_find_loop :
    Nat → RxHeap → (Nat → Nat) → Nat → Nat → Nat → Nat → Option Nat
  | 0, _, _, _, _, _, _ => none
  | fuel + 1, m, key, i, bit, value, node =>
    if node ≠ NULL then
      let value1 := if m.value node ≠ NGX_RADIX_NO_VALUE then m.value node else value
      let node1 := if key i &&& bit ≠ 0 then m.right node else m.left node
      let bit1 := bit >>> 1
      if bit1 = 0 then ngx_radix128tree_find_loop fuel m key (i + 1) 0x80 value1 node1
      else ngx_radix128tree_find_loop fuel m key i bit1 value1 node1
    else some value

/-- `ngx_radix128tree_find`. -/
def ngx_radix128tree_find (fuel : Nat) (m : RxHeap) (tree : ngx_radix_tree_t)
    (key : Nat → Nat) : Option Nat :=
  ngx_radix128tree_find_loop fuel m key 0 0x80 NGX_RADIX_NO_VALUE tree.root

/-- The big-endian 32-bit word formed from the bytes 0..3 of `k`. -/
def word32 (k : Nat → Nat) : Nat := ipv4 (k 0) (k 1) (k 2) (k 3)

/-- The 16 bytes of `k` are bytes. -/
def IsBytes (k : Nat → Nat) : Prop := ∀ i, i < 16 → k i < 256

/-- A call on the trie with a 128-bit key: `ngx_radix128tree_insert(key, mask, value)` or
`ngx_radix128tree_delete(key, mask)`. -/
inductive RxOp128 where
  | ins (key mask : Nat → Nat) (value : Nat) : RxOp128
  | del (key mask : Nat → Nat) : RxOp128

/-- The key and the mask of the call are byte strings and the bytes 4..15 of the mask are
zero. -/
def RxOp128.Short : RxOp128 → Prop
  | RxOp128.ins key mask _ => IsBytes key ∧ IsBytes mask ∧ ∀ i, i < 16 → 4 ≤ i → mask i = 0
  | RxOp128.del key mask => IsBytes key ∧ IsBytes mask ∧ ∀ i, i < 16 → 4 ≤ i → mask i = 0

/-- The 32-bit call on the words formed from the bytes 0..3 of key and mask. -/
def RxOp128.word : RxOp128 → RxOp
  | RxOp128.ins key mask value => RxOp.ins (word32 key) (word32 mask) value
  | RxOp128.del key mask => RxOp.del (word32 key) (word32 mask)

/-- Run a sequence of 128-bit calls; returns the final memory and tree record and the
return codes in call order. -/
def rxRun128 (fuel : Nat) :
    List RxOp128 → RxHeap → ngx_radix_tree_t → RxRes (RxHeap × ngx_radix_tree_t × List Int)
  | [], m, t => RxRes.done (m, t, [])
  | RxOp128.ins key mask value :: ops, m, t =>
    match ngx_radix128tree_insert fuel m t key mask value with
    | none => RxRes.outOfFuel
    | some (m1, t1, rc) =>
      match rxRun128 fuel ops m1 t1 with
      | RxRes.done (m2, t2, rcs) => RxRes.done (m2, t2, rc :: rcs)
      | RxRes.nullDeref => RxRes.nullDeref
      | RxRes.outOfFuel => RxRes.outOfFuel
  | RxOp128.del key mask :: ops, m, t =>
    match ngx_radix128tree_delete fuel m t key mask with
    | RxRes.done (m1, t1, rc) =>
      match rxRun128 fuel ops m1 t1 with
      | RxRes.done (m2, t2, rcs) => RxRes.done (m2, t2, rc :: rcs)
      | RxRes.nullDeref => RxRes.nullDeref
      | RxRes.outOfFuel => RxRes.outOfFuel
    | RxRes.nullDeref => RxRes.nullDeref
    | RxRes.outOfFuel => RxRes.outOfFuel

/-- The byte string that starts with the bytes `l` and goes on with zeros. -/
def bytesOf (l : List Nat) : Nat → Nat := fun i => l.getD i 0

/-- Three 128-bit calls with masks of 8 and 16 bits: insert 10.0.0.0/8, insert 10.1.0.0/16,
delete 10.0.0.0/8. -/
def rxOps128 : List RxOp128 :=
  [RxOp128.ins (bytesOf [10]) (bytesOf [255]) 5,
   RxOp128.ins (bytesOf [10, 1]) (bytesOf [255, 255]) 6,
   RxOp128.del (bytesOf [10]) (bytesOf [255])]

/-- The outcome of `rxOps128` on the fresh trie. -/
def rxAfter128 : RxHeap × ngx_radix_tree_t × List Int :=
  (rxRun128 34 rxOps128 rxInit.1 rxInit.2).getD (rxM0, rxInit.2, [])

/-! ## The preallocated trie of `ngx_radix_tree_create` -/

/-- No page that the pool hands out is `NULL`: no page allocation fails. -/
def NoNullPages (pool : ngx_pool_t) : Prop := ∀ y ∈ pool.pages, y ≠ NULL

/-- Index of a path among the paths of its length: the number that its bits spell, the
deepest bit being the lowest. -/
def pathIdx : List Bool → Nat
  | [] => 0
  | b :: q => 2 * pathIdx q + (if b = true then 1 else 0)

/-- The mask of level `k` of the preallocation in `ngx_radix_tree_create`, by the update
`mask >>= 1; mask |= 0x80000000` of its loop. -/
def levelMask : Nat → Nat
  | 0 => 0
  | k + 1 => (levelMask k >>> 1) ||| 0x80000000

/-- All paths of length `n`. -/
def pathsOfLen : Nat → List (List Bool)
  | 0 => [[]]
  | n + 1 => (pathsOfLen n).map (List.cons false) ++ (pathsOfLen n).map (List.cons true)

/-- All paths of length at most `p`. -/
def pathsUpTo : Nat → List (List Bool)
  | 0 => pathsOfLen 0
  | p + 1 => pathsUpTo p ++ pathsOfLen (p + 1)

/-! ## More on the 32-bit trie: masks, failed inserts, depth, leaves -/

/-- The 32-bit mask that keeps only the leading run of one bits of `mask`. -/
def leadMask (mask : Nat) : Nat := 2 ^ 32 - 2 ^ (32 - maskLen mask)

/-- An insert of 10.0.0.0/8, an insert of 10.1.0.0/16 and the delete of 10.1.0.0/16, which
prunes eight nodes. -/
def rxPruneOps : List RxOp :=
  [RxOp.ins (ipv4 10 0 0 0) (ipv4 255 0 0 0) 5, RxOp.ins (ipv4 10 1 0 0) (ipv4 255 255 0 0) 6,
   RxOp.del (ipv4 10 1 0 0) (ipv4 255 255 0 0)]

/-- The outcome of `rxPruneOps` on the fresh trie. -/
@[irreducible] def rxPruned : RxHeap × ngx_radix_tree_t × List Int :=
  (rxRun 34 rxPruneOps rxInit.1 rxInit.2).getD (rxM0, rxInit.2, [])

/-! ## `ngx_array_init`, `ngx_array_push_n` and the bound `nelts ≤ nalloc` -/

/-- `ngx_array_init` of `ngx_array.h`; `none` is the result `NGX_ERROR`. -/
def ngx_array_init (p : ngx_pool_s) (n size : Nat) : Option (ngx_array_t × ngx_pool_s) :=
  let r := ngx_palloc_size p ((n * size) % 2 ^ 64)
  if r.1 = NULL then none
  else some (⟨r.1, 0, size, n⟩, r.2)

/-- `ngx_array_push_n`; `none` is the `NULL` result.  Returns the address of the first new
element, memory, the array record and the pool. -/
def ngx_array_push_n (mem : Nat → Nat) (a : ngx_array_t) (p : ngx_pool_s) (n : Nat) :
    Option (Nat × (Nat → Nat) × ngx_array_t × ngx_pool_s) :=
  let size := (n * a.size) % 2 ^ 64
  let grown : Option ((Nat → Nat) × ngx_array_t × ngx_pool_s) :=
    if (a.nelts + n) % 2 ^ 64 > a.nalloc then
      if a.elts + (a.size * a.nalloc) % 2 ^ 64 = p.d.last ∧ p.d.last + size ≤ p.d.end_ then
        some (mem, { a with nalloc := (a.nalloc + n) % 2 ^ 64 },
          { p with d := { p.d with last := p.d.last + size } })
      else
        let nalloc := (2 * (if n ≥ a.nalloc then n else a.nalloc)) % 2 ^ 64
        let r := ngx_palloc_size p ((nalloc * a.size) % 2 ^ 64)
        if r.1 = NULL then none
        else
          some (ngx_memcpy mem r.1 a.elts ((a.nelts * a.size) % 2 ^ 64),
            { a with elts := r.1, nalloc := nalloc }, r.2)
    else some (mem, a, p)
  match grown with
  | none => none
  | some (mem1, a1, p1) =>
    some (a1.elts + (a1.size * a1.nelts) % 2 ^ 64, mem1,
      { a1 with nelts := (a1.nelts + n) % 2 ^ 64 }, p1)

/-- A pool whose data block is used up to address 50 of 60 and that gives the blocks at 50
(of no bytes, at `d.last`) and 200. -/
def arrPoolBusy : ngx_pool_s := ⟨⟨50, 60⟩, [50, 200], []⟩

/-- The array that `ngx_array_init(&a, pool, 0, 4)` sets up on `arrPoolBusy`. -/
def arrZero : ngx_array_t := ⟨50, 0, 4, 0⟩

/-- The pool after that call and after 8 bytes of its data block went to another user. -/
def arrPoolBusy1 : ngx_pool_s := ⟨⟨58, 60⟩, [200], [0]⟩

/-! ## The key bytes that `ngx_radix128tree_find` reads -/

/-- The `while (node)` loop of `ngx_radix128tree_find`, returning with the value the
indices `i` at which it evaluated `key[i]`, in order. -/
def ngx_radix128tree_find_reads :
    Nat → RxHeap → (Nat → Nat) → Nat → Nat → Nat → Nat → Option (Nat × List Nat)
  | 0, _, _, _, _, _, _ => none
  | fuel + 1, m, key, i, bit, value, node =>
    if node ≠ NULL then
      let value1 := if m.value node ≠ NGX_RADIX_NO_VALUE then m.value node else value
      let node1 := if key i &&& bit ≠ 0 then m.right node else m.left node
      let bit1 := bit >>> 1
      let rest :=
        if bit1 = 0 then ngx_radix128tree_find_reads fuel m key (i + 1) 0x80 value1 node1
        else ngx_radix128tree_find_reads fuel m key i bit1 value1 node1
      match rest with
      | none => none
      | some (v, reads) => some (v, i :: reads)
    else some (value, [])

/-- A pool that hands out the block at 100 for the tree record and pages at 4096 and
8192. -/
def rxPool2 : ngx_pool_t := ⟨[100], [4096, 8192]⟩

/-- The 16 bytes 0xff: the mask of a full 128-bit prefix. -/
def bytesFull : Nat → Nat := fun i => if i < 16 then 255 else 0

/-- The trie `ngx_radix_tree_create(rxPool2, 0)` after
`ngx_radix128tree_insert(key, mask, 7)` with the key `1::` and the full mask. -/
@[irreducible] def rxHost128 : RxHeap × ngx_radix_tree_t × Int :=
  match ngx_radix_tree_create 34 rxM0 rxPool2 0 with
  | none => (rxM0, rxInit.2, NGX_ERROR)
  | some r => (ngx_radix128tree_insert 200 r.1 r.2 (bytesOf [1]) bytesFull 7).getD
      (rxM0, rxInit.2, NGX_ERROR)

section RbDefsxxx
open RbTree

/-- Memory with the tree `w3` (nodes 3, 2, 4 with keys 3, 5, 8) and a node 6 with key 5 that
is not in the tree. -/
def wDupHeap : RbHeap :=
  ⟨fun x => [0, 0, 5, 3, 8, 0, 5].getD x 0, fun x => if x = 2 then 3 else 1,
    fun x => if x = 2 then 4 else 1, fun x => if x = 3 ∨ x = 4 then 2 else 0,
    fun x => if x = 3 ∨ x = 4 then Color.red else Color.black⟩

/-- State after `ngx_rbtree_init`, the insertion of node 2 and the insertion of node 3 (both
with key 5). -/
def wBuilt2 : RbHeap × ngx_rbtree_t :=
  (ngx_rbtree_insert 2 wBuilt.1 wBuilt.2 3).getD (wHeap, wEmpty)

end RbDefsxxx

/-! ## `ngx_event_no_timers_left` -/

/-- `NGX_AGAIN`. -/
def NGX_AGAIN : Int := -2

/-- The `for` loop of `ngx_event_no_timers_left` from `node` on; `cancelable` gives the
flag `ev->cancelable` of the event that owns a timer node.  `steps` bounds the number of
rounds. -/
def ngx_event_no_timers_left_loop (fuel : Nat) (m : RbHeap) (tree : ngx_rbtree_t)
    (cancelable : Nat → Bool) : Nat → Nat → Option Int
  | 0, _ => none
  | steps + 1, node =>
    if cancelable node = false then some NGX_AGAIN
    else
      match ngx_rbtree_next fuel m tree node with
      | none => none
      | some none => some NGX_OK
      | some (some y) => ngx_event_no_timers_left_loop fuel m tree cancelable steps y

/-- `ngx_event_no_timers_left`; the global `ngx_event_timer_rbtree` is an argument. -/
def ngx_event_no_timers_left (fuel : Nat) (m : RbHeap) (ngx_event_timer_rbtree : ngx_rbtree_t)
    (cancelable : Nat → Bool) : Option Int :=
  let sentinel := ngx_event_timer_rbtree.sentinel
  let root := ngx_event_timer_rbtree.root
  if root = sentinel then some NGX_OK
  else
    match ngx_rbtree_min fuel m root sentinel with
    | none => none
    | some node =>
      ngx_event_no_timers_left_loop fuel m ngx_event_timer_rbtree cancelable fuel node

/-! ## `ngx_event_expire_timers` -/

/-- The part of the program state outside the timer tree that `ngx_event_expire_timers`
works on: the flags `timer_set` and `timedout` of each event, by the address of the timer
node embedded in the event (`ev` is found from `node` by a fixed offset), and the state
`data` of everything else the handlers use. -/
structure ngx_event_state (σ : Type) where
  timer_set : Nat → Nat
  timedout : Nat → Nat
  data : σ

/-- The three statements between `ngx_rbtree_delete` and the call of the handler in
`ngx_event_expire_timers`: `ev->timer_set = 0; ev->timedout = 1; ev->handler(ev)`.
`handler node` is the effect of `ev->handler(ev)` for the event that owns `node`; it works
on the event state only, not on the timer tree. -/
def ngx_event_expire_one {σ : Type} (handler : Nat → ngx_event_state σ → ngx_event_state σ)
    (ev : ngx_event_state σ) (node : Nat) : ngx_event_state σ :=
  let ev1 : ngx_event_state σ := { ev with timer_set := Function.update ev.timer_set node 0 }
  let ev2 : ngx_event_state σ := { ev1 with timedout := Function.update ev1.timedout node 1 }
  handler node ev2

/-- The `for` loop of `ngx_event_expire_timers` for a millisecond counter of `w` bits.
The globals `ngx_event_timer_rbtree` and `ngx_current_msec` are arguments; `NGX_DEBUG`
selects the block under `#if (NGX_DEBUG)`; `steps` bounds the number of rounds. -/
def ngx_event_expire_timers_loop {σ : Type} (w : Nat) (NGX_DEBUG : Bool)
    (handler : Nat → ngx_event_state σ → ngx_event_state σ)
    (fuel ngx_current_msec sentinel : Nat) :
    Nat → RbHeap → ngx_rbtree_t → ngx_event_state σ →
      Option (RbHeap × ngx_rbtree_t × ngx_event_state σ)
  | 0, _, _, _ => none
  | steps + 1, m, ngx_event_timer_rbtree, ev =>
    let root := ngx_event_timer_rbtree.root
    if root = sentinel then some (m, ngx_event_timer_rbtree, ev)
    else
      match ngx_rbtree_min fuel m root sentinel with
      | none => none
      | some node =>
        if keyToInt w (keySub w (m.key node) ngx_current_msec) > 0 then
          some (m, ngx_event_timer_rbtree, ev)
        else
          match ngx_rbtree_delete fuel m ngx_event_timer_rbtree node with
          | none => none
          | some (m1, tree1) =>
            let m2 :=
              if NGX_DEBUG then setParent (setRight (setLeft m1 node NULL) node NULL) node NULL
              else m1
            ngx_event_expire_timers_loop w NGX_DEBUG handler fuel ngx_current_msec sentinel
              steps m2 tree1 (ngx_event_expire_one handler ev node)

/-- `ngx_event_expire_timers`: the sentinel is read once, then the loop runs. -/
def ngx_event_expire_timers {σ : Type} (w : Nat) (NGX_DEBUG : Bool)
    (handler : Nat → ngx_event_state σ → ngx_event_state σ)
    (fuel ngx_current_msec steps : Nat) (m : RbHeap) (ngx_event_timer_rbtree : ngx_rbtree_t)
    (ev : ngx_event_state σ) : Option (RbHeap × ngx_rbtree_t × ngx_event_state σ) :=
  let sentinel := ngx_event_timer_rbtree.sentinel
  ngx_event_expire_timers_loop w NGX_DEBUG handler fuel ngx_current_msec sentinel steps m
    ngx_event_timer_rbtree ev

/-- The signed difference `(ngx_msec_int_t) (node->key - ngx_current_msec)` of
`ngx_event_expire_timers`. -/
def timerDiff (w : Nat) (m : RbHeap) (ngx_current_msec node : Nat) : Int :=
  keyToInt w (keySub w (m.key node) ngx_current_msec)

section RbDefsxxxx
open RbTree

/-- Event state of the examples: every timer set, none timed out. -/
def evStart : ngx_event_state Unit := ⟨fun _ => 1, fun _ => 0, ()⟩

/-- Memory for the example of keys on both sides of the current time: node 2 has key 2,
node 3 has key 14. -/
def wFar : RbHeap :=
  ⟨fun x => if x = 2 then 2 else if x = 3 then 14 else 0, fun _ => 1, fun _ => 1, fun _ => 0,
    fun _ => Color.black⟩

/-- The empty timer tree for keys of 4 bits on the memory `wFar`, sentinel at address 1. -/
def wFar0 : RbHeap × ngx_rbtree_t := ngx_rbtree_init wFar 1 (ngx_rbtree_insert_timer_value 4)

/-- After the insertion of node 2 (key 2). -/
def wFar1 : RbHeap × ngx_rbtree_t := (ngx_rbtree_insert 1 wFar0.1 wFar0.2 2).getD wFar0

/-- After the insertion of node 3 (key 14). -/
def wFar2 : RbHeap × ngx_rbtree_t := (ngx_rbtree_insert 2 wFar1.1 wFar1.2 3).getD wFar1

/-! ## `ngx_rbtree_min` on a tree of five inserts and one delete -/

/-- The empty tree on the memory `seqHeap`, sentinel at address 1. -/
def wMin0 : RbHeap × ngx_rbtree_t := ngx_rbtree_init seqHeap 1 ngx_rbtree_insert_value

/-- After the insertion of node 2 (key 50). -/
def wMin1 : RbHeap × ngx_rbtree_t := (ngx_rbtree_insert 6 wMin0.1 wMin0.2 2).getD wMin0

/-- After the insertion of node 3 (key 30). -/
def wMin2 : RbHeap × ngx_rbtree_t := (ngx_rbtree_insert 6 wMin1.1 wMin1.2 3).getD wMin1

/-- After the insertion of node 4 (key 70). -/
def wMin3 : RbHeap × ngx_rbtree_t := (ngx_rbtree_insert 6 wMin2.1 wMin2.2 4).getD wMin2

/-- After the insertion of node 5 (key 20). -/
def wMin4 : RbHeap × ngx_rbtree_t := (ngx_rbtree_insert 6 wMin3.1 wMin3.2 5).getD wMin3

/-- After the insertion of node 6 (key 40). -/
def wMin5 : RbHeap × ngx_rbtree_t := (ngx_rbtree_insert 6 wMin4.1 wMin4.2 6).getD wMin4

/-- After the deletion of node 3 (key 30, two children): the root is node 2 (key 50), its
left child node 6 (key 40), whose left child is node 5 (key 20). -/
def wMin6 : RbHeap × ngx_rbtree_t := (ngx_rbtree_delete 6 wMin5.1 wMin5.2 3).getD wMin5

end RbDefsxxxx

/-! ## Longest-prefix match against the specification's table of live prefixes -/

/-- The table of live prefixes as the specification describes it, after the calls `ops`
from the table `S`: `ngx_radix32tree_insert` of a prefix that is not in the table adds it
with its value, an insert of a prefix that is in the table changes nothing, and
`ngx_radix32tree_delete` removes the prefix.  No return code of the code enters here. -/
def lpmSpecTable : List RxOp → (List Bool → Option Nat) → List Bool → Option Nat
  | [], S => S
  | RxOp.ins key mask value :: ops, S =>
    match S (kpath key (maskLen mask)) with
    | none => lpmSpecTable ops (Function.update S (kpath key (maskLen mask)) (some value))
    | some _ => lpmSpecTable ops S
  | RxOp.del key mask :: ops, S =>
    lpmSpecTable ops (Function.update S (kpath key (maskLen mask)) none)

/-- The return codes that the specification gives the calls `ops` from the table `S`, when
no allocation fails: an insert returns `NGX_OK` for a prefix that is not in the table and
`NGX_BUSY` for one that is, a delete returns `NGX_OK` for a prefix that is in the table and
`NGX_ERROR` for one that is not. -/
def lpmSpecCodes : List RxOp → (List Bool → Option Nat) → List Int
  | [], _ => []
  | RxOp.ins key mask value :: ops, S =>
    match S (kpath key (maskLen mask)) with
    | none =>
      NGX_OK :: lpmSpecCodes ops (Function.update S (kpath key (maskLen mask)) (some value))
    | some _ => NGX_BUSY :: lpmSpecCodes ops S
  | RxOp.del key mask :: ops, S =>
    match S (kpath key (maskLen mask)) with
    | none => NGX_ERROR :: lpmSpecCodes ops (Function.update S (kpath key (maskLen mask)) none)
    | some _ => NGX_OK :: lpmSpecCodes ops (Function.update S (kpath key (maskLen mask)) none)

/-- The outcome of the two inserts `rxScenario` on the fresh trie. -/
@[irreducible] def rxLpm : RxHeap × ngx_radix_tree_t × List Int :=
  (rxRun 34 rxScenario rxInit.1 rxInit.2).getD (rxM0, rxInit.2, [])

/-! ### Basic facts on trees and paths -/

theorem RbTree.ptr_mem (s : Nat) (t : RbTree) : t.ptr s = s ∨ t.ptr s ∈ t.ids := by
  cases t <;> simp [RbTree.ptr, RbTree.ids]

theorem ids_plug (fs : List RbFrame) (t : RbTree) :
    (plug fs t).ids = ctxL fs ++ t.ids ++ ctxR fs := by
  induction fs generalizing t with
  | nil => simp [plug, ctxL, ctxR]
  | cons f fs ih =>
    cases f <;> simp [plug, ctxL, ctxR, RbFrame.fill, RbTree.ids, ih]

theorem keys_plug (fs : List RbFrame) (t : RbTree) :
    (plug fs t).keys = ctxLK fs ++ t.keys ++ ctxRK fs := by
  induction fs generalizing t with
  | nil => simp [plug, ctxLK, ctxRK]
  | cons f fs ih =>
    cases f <;> simp [plug, ctxLK, ctxRK, RbFrame.fill, RbTree.keys, ih]

theorem ctx_perm (fs : List RbFrame) : (ctxL fs ++ ctxR fs).Perm (idsC fs) := by
  induction fs with
  | nil => simp [ctxL, ctxR, idsC]
  | cons f fs ih =>
    cases f with
    | L c x k r =>
      simp only [ctxL, ctxR, idsC, RbFrame.ids]
      exact (List.perm_append_comm.trans (by simpa using List.Perm.append_left _ (List.perm_append_comm.trans ih)))
    | R c l x k =>
      simp only [ctxL, ctxR, idsC, RbFrame.ids]
      have h1 : (ctxL fs ++ (l.ids ++ [x]) ++ ctxR fs).Perm ((l.ids ++ [x]) ++ (ctxL fs ++ ctxR fs)) := by
        rw [List.append_assoc]
        exact (List.perm_append_comm_assoc _ _ _)
      refine h1.trans ?_
      have h2 : (l.ids ++ [x]).Perm (x :: l.ids) := by
        simpa using (List.perm_append_comm : (l.ids ++ [x]).Perm ([x] ++ l.ids))
      exact h2.append ih

theorem ids_plug_perm (fs : List RbFrame) (t : RbTree) :
    (plug fs t).ids.Perm (idsC fs ++ t.ids) := by
  rw [ids_plug]
  have h1 : (ctxL fs ++ t.ids ++ ctxR fs).Perm (t.ids ++ (ctxL fs ++ ctxR fs)) := by
    rw [List.append_assoc]
    exact (List.perm_append_comm_assoc _ _ _)
  exact h1.trans ((List.Perm.append_left _ (ctx_perm fs)).trans List.perm_append_comm)

theorem nodup_plug (fs : List RbFrame) (t : RbTree) :
    (plug fs t).ids.Nodup ↔ (idsC fs).Nodup ∧ t.ids.Nodup ∧ ∀ y ∈ t.ids, y ∉ idsC fs := by
  rw [(ids_plug_perm fs t).nodup_iff, List.nodup_append]
  constructor
  · rintro ⟨h1, h2, h3⟩
    exact ⟨h1, h2, fun y hy hc => h3 hc hy⟩
  · rintro ⟨h1, h2, h3⟩
    exact ⟨h1, h2, fun y hc hy => h3 y hy hc⟩

theorem ptr_plug (s : Nat) (fs : List RbFrame) (t : RbTree) :
    (plug fs t).ptr s = topId fs (t.ptr s) := by
  induction fs generalizing t with
  | nil => rfl
  | cons f fs ih => cases f <;> (simp only [plug, topId, RbFrame.fill, RbFrame.id]; rw [ih]; rfl)

theorem topId_mem (fs : List RbFrame) (p : Nat) : topId fs p = p ∨ topId fs p ∈ idsC fs := by
  induction fs generalizing p with
  | nil => simp [topId]
  | cons f fs ih =>
    rcases ih f.id with h | h
    · right
      cases f <;> simp [topId, idsC, RbFrame.ids, RbFrame.id] at h ⊢ <;> simp [h]
    · right
      simp [topId, idsC, h]

theorem topId_cons_mem (f : RbFrame) (fs : List RbFrame) (p : Nat) :
    topId (f :: fs) p ∈ idsC (f :: fs) := by
  rcases topId_mem fs f.id with h | h
  · cases f <;> simp [topId, idsC, RbFrame.ids, RbFrame.id] at h ⊢ <;> simp [h]
  · simp [topId, idsC, h]

theorem RepT_plug (m : RbHeap) (s : Nat) (fs : List RbFrame) (t : RbTree) :
    RepT m s (plug fs t) none ↔ RepC m s fs (t.ptr s) ∧ RepT m s t (parOf fs) := by
  induction fs generalizing t with
  | nil => cases t <;> simp [plug, RepC, parOf, RepT]
  | cons f fs ih =>
    cases f with
    | L c x k r =>
      simp only [plug, RbFrame.fill, ih, RepC, RepT, RbTree.ptr, parOf, RbFrame.id]
      constructor
      · rintro ⟨h1, h2, h3, h4, h5, h6, h7, h8, h9⟩
        exact ⟨⟨h2, h3, h4, h5, h6, h7, h9, h1⟩, h8⟩
      · rintro ⟨⟨h2, h3, h4, h5, h6, h7, h9, h1⟩, h8⟩
        exact ⟨h1, h2, h3, h4, h5, h6, h7, h8, h9⟩
    | R c l x k =>
      simp only [plug, RbFrame.fill, ih, RepC, RepT, RbTree.ptr, parOf, RbFrame.id]
      constructor
      · rintro ⟨h1, h2, h3, h4, h5, h6, h7, h8, h9⟩
        exact ⟨⟨h2, h3, h4, h5, h6, h7, h8, h1⟩, h9⟩
      · rintro ⟨⟨h2, h3, h4, h5, h6, h7, h8, h1⟩, h9⟩
        exact ⟨h1, h2, h3, h4, h5, h6, h7, h8, h9⟩

theorem RepT_congr {m m' : RbHeap} {s : Nat} {t : RbTree} {par : Option Nat}
    (hag : ∀ y ∈ t.ids, AgreeAt m m' y) (h : RepT m s t par) : RepT m' s t par := by
  induction t generalizing par with
  | nil => trivial
  | node c l x k r ihl ihr =>
    obtain ⟨h1, h2, h3, h4, h5, h6, h7, h8⟩ := h
    obtain ⟨a1, a2, a3, a4, a5⟩ := hag x (by simp [RbTree.ids])
    refine ⟨h1, by rw [a5, h2], by rw [a1, h3], by rw [a4]; exact h4, by rw [a2, h5],
      by rw [a3, h6], ihl (fun y hy => hag y (by simp [RbTree.ids, hy])) h7,
      ihr (fun y hy => hag y (by simp [RbTree.ids, hy])) h8⟩

theorem RepC_congr {m m' : RbHeap} {s : Nat} {fs : List RbFrame} {p : Nat}
    (hag : ∀ y ∈ idsC fs, AgreeAt m m' y) (h : RepC m s fs p) : RepC m' s fs p := by
  induction fs generalizing p with
  | nil => trivial
  | cons f fs ih =>
    cases f with
    | L c x k r =>
      obtain ⟨h1, h2, h3, h4, h5, h6, h7, h8⟩ := h
      obtain ⟨a1, a2, a3, a4, a5⟩ := hag x (by simp [idsC, RbFrame.ids])
      refine ⟨h1, by rw [a5, h2], by rw [a1, h3], by rw [a4]; exact h4, by rw [a2, h5],
        by rw [a3, h6], RepT_congr (fun y hy => hag y (by simp [idsC, RbFrame.ids, hy])) h7,
        ih (fun y hy => hag y (by simp [idsC, hy])) h8⟩
    | R c l x k =>
      obtain ⟨h1, h2, h3, h4, h5, h6, h7, h8⟩ := h
      obtain ⟨a1, a2, a3, a4, a5⟩ := hag x (by simp [idsC, RbFrame.ids])
      refine ⟨h1, by rw [a5, h2], by rw [a1, h3], by rw [a4]; exact h4, by rw [a2, h5],
        by rw [a3, h6], RepT_congr (fun y hy => hag y (by simp [idsC, RbFrame.ids, hy])) h7,
        ih (fun y hy => hag y (by simp [idsC, hy])) h8⟩

/-- Changing the hole pointer of a path only matters at the innermost frame. -/
theorem RepC_hole {m : RbHeap} {s : Nat} {fs : List RbFrame} {p q : Nat}
    (h : RepC m s fs p) (hq : ∀ f fs', fs = f :: fs' →
      (∀ c x k r, f = RbFrame.L c x k r → m.left x = q) ∧
      (∀ c l x k, f = RbFrame.R c l x k → m.right x = q)) : RepC m s fs q := by
  cases fs with
  | nil => trivial
  | cons f fs =>
    cases f with
    | L c x k r =>
      obtain ⟨h1, h2, h3, h4, h5, h6, h7, h8⟩ := h
      exact ⟨h1, h2, h3, h4, (hq _ _ rfl).1 _ _ _ _ rfl, h6, h7, h8⟩
    | R c l x k =>
      obtain ⟨h1, h2, h3, h4, h5, h6, h7, h8⟩ := h
      exact ⟨h1, h2, h3, h4, h5, (hq _ _ rfl).2 _ _ _ _ rfl, h7, h8⟩

/-- Re-parenting the root node of a stored tree. -/
theorem RepT_reparent {m : RbHeap} {s : Nat} {t : RbTree} {par par' : Option Nat}
    (h : RepT m s t par) (hp : ∀ c l x k r, t = RbTree.node c l x k r → parOK par' (m.parent x)) :
    RepT m s t par' := by
  cases t with
  | nil => trivial
  | node c l x k r =>
    obtain ⟨h1, h2, h3, h4, h5, h6, h7, h8⟩ := h
    exact ⟨h1, h2, h3, hp _ _ _ _ _ rfl, h5, h6, h7, h8⟩

/-- Memory that differs from `m` only at addresses in `S` holds every tree that avoids
`S`. -/
theorem RepT_frame {m m' : RbHeap} {s : Nat} {t : RbTree} {par : Option Nat} (S : List Nat)
    (hfoot : ∀ q, q ∉ S → AgreeAt m m' q) (hd : ∀ q ∈ t.ids, q ∉ S)
    (h : RepT m s t par) : RepT m' s t par :=
  RepT_congr (fun y hy => hfoot y (hd y hy)) h

/-- Memory that differs from `m` only at addresses in `S` holds every path that avoids
`S`. -/
theorem RepC_frame {m m' : RbHeap} {s : Nat} {fs : List RbFrame} {p : Nat} (S : List Nat)
    (hfoot : ∀ q, q ∉ S → AgreeAt m m' q) (hd : ∀ q ∈ idsC fs, q ∉ S)
    (h : RepC m s fs p) : RepC m' s fs p :=
  RepC_congr (fun y hy => hfoot y (hd y hy)) h

/-! ### Distinctness of addresses, by blocks of a duplicate-free list -/

theorem blocks_nodup {bs : List (List Nat)} (hnd : bs.flatten.Nodup) (j : Nat) :
    (bs.getD j []).Nodup := by
  rw [List.nodup_flatten] at hnd
  by_cases hj : j < bs.length
  · rw [List.getD_eq_getElem _ _ hj]
    exact hnd.1 _ (List.getElem_mem _)
  · rw [List.getD_eq_default _ _ (by omega)]
    exact List.nodup_nil

theorem blocks_ne {bs : List (List Nat)} (hnd : bs.flatten.Nodup) (i j : Nat) {q q' : Nat}
    (hij : i ≠ j) (hq : q ∈ bs.getD i []) (hq' : q' ∈ bs.getD j []) : q ≠ q' := by
  rw [List.nodup_flatten] at hnd
  have hi : i < bs.length := by
    by_contra hc
    rw [List.getD_eq_default _ _ (by omega)] at hq
    simp at hq
  have hj : j < bs.length := by
    by_contra hc
    rw [List.getD_eq_default _ _ (by omega)] at hq'
    simp at hq'
  rw [List.getD_eq_getElem _ _ hi] at hq
  rw [List.getD_eq_getElem _ _ hj] at hq'
  rintro rfl
  rcases Nat.lt_or_gt_of_ne hij with h | h
  · exact (List.pairwise_iff_getElem.1 hnd.2 i j hi hj h) hq hq'
  · exact (List.pairwise_iff_getElem.1 hnd.2 j i hj hi h) hq' hq

theorem blocks_disj {bs : List (List Nat)} (hnd : bs.flatten.Nodup) (j : Nat) (F : List Nat)
    (hF : j ∉ F) : ∀ q ∈ bs.getD j [], q ∉ (F.map (fun i => bs.getD i [])).flatten := by
  intro q hq hc
  rw [List.mem_flatten] at hc
  obtain ⟨l, hl, hql⟩ := hc
  rw [List.mem_map] at hl
  obtain ⟨i, hi, rfl⟩ := hl
  exact blocks_ne hnd j i (fun e => hF (e ▸ hi)) hq hql rfl

section RbFacts
open RbTree

/-! ## Rotations on the abstract tree -/

theorem left_rotate_spec {m : RbHeap} {s root : Nat} {Γ : List RbFrame} {c1 c2 : Color}
    {a b d : RbTree} {x kx y ky : Nat}
    (h : TreeInv m s root (plug Γ (node c1 a x kx (node c2 b y ky d)))) :
    TreeInv (ngx_rbtree_left_rotate m root s x).1 s (ngx_rbtree_left_rotate m root s x).2
      (plug Γ (node c2 (node c1 a x kx b) y ky d)) ∧
    (ngx_rbtree_left_rotate m root s x).1.color = m.color ∧
    (ngx_rbtree_left_rotate m root s x).1.key = m.key ∧
    AgreeAt m (ngx_rbtree_left_rotate m root s x).1 s := by
  obtain ⟨hrep, hroot, hnd⟩ := h
  have hnd2 : (plug Γ (node c2 (node c1 a x kx b) y ky d)).ids.Nodup := by
    rw [ids_plug] at hnd ⊢
    simpa using hnd
  rw [RepT_plug] at hrep
  rw [ptr_plug] at hroot
  have hnd' := (ids_plug_perm _ _).nodup_iff.1 hnd
  obtain ⟨hC, hT⟩ := hrep
  simp only [RepT_node, ptr_node] at hT hC hroot
  obtain ⟨hxs, hcx, hkx, hpx, hlx, hrx, hRa, hys, hcy, hky, hpy, hly, hry, hRb, hRd⟩ := hT
  simp only [parOK_some] at hpy
  cases b with
  | nil =>
    simp only [ptr_nil] at hly
    cases Γ with
    | nil =>
      have hB : [a.ids, [x], [y], d.ids].flatten.Nodup := by simpa using hnd'
      simp only [topId_nil] at hroot
      have hxy : x ≠ y := blocks_ne hB 1 2 (by decide) (by simp) (by simp)
      have e : ngx_rbtree_left_rotate m root s x =
          (setParent (setLeft (setParent (setRight m x s) y (m.parent x)) y x) x y, y) := by
        simp [ngx_rbtree_left_rotate, hrx, hly, hroot]
      rw [e]
      have hfoot : ∀ q, q ∉ [x, y] → AgreeAt m
          (setParent (setLeft (setParent (setRight m x s) y (m.parent x)) y x) x y) q := by
        intro q hq
        simp only [List.mem_cons, not_or, List.mem_singleton, List.not_mem_nil,
          not_false_eq_true, and_true] at hq
        simp [AgreeAt, Function.update_apply, hq]
      have Fa := RepT_frame _ hfoot (blocks_disj hB 0 [1, 2] (by decide)) hRa
      have Fd := RepT_frame _ hfoot (blocks_disj hB 3 [1, 2] (by decide)) hRd
      refine ⟨⟨?_, ?_, hnd2⟩, rfl, rfl, hfoot s (by simp [Ne.symm hxs, Ne.symm hys])⟩
      · rw [RepT_plug]
        simp only [RepC_nil, RepT_node, parOf_nil, parOK_none, parOK_some, ptr_node, ptr_nil]
        simp [Function.update_apply, *, Ne.symm hxy]
      · rw [ptr_plug]; simp
    | cons f Γ' =>
      cases f with
      | L c z k r =>
        have hB : [[z], r.ids, idsC Γ', a.ids, [x], [y], d.ids].flatten.Nodup := by
          simpa using hnd'
        simp only [RepC_L, parOf_cons, RbFrame.id_L, parOK_some, topId_cons] at hC hpx hroot
        obtain ⟨hzs, hcz, hkz, hpz, hlz, hrz, hRr, hCz⟩ := hC
        have hxr : x ≠ root := by
          rw [hroot]
          rcases topId_mem Γ' z with e | e
          · rw [e]; exact blocks_ne hB 4 0 (by decide) (by simp) (by simp)
          · exact blocks_ne hB 4 2 (by decide) (by simp) e
        have hxy : x ≠ y := blocks_ne hB 4 5 (by decide) (by simp) (by simp)
        have hxz : x ≠ z := blocks_ne hB 4 0 (by decide) (by simp) (by simp)
        have hyz : y ≠ z := blocks_ne hB 5 0 (by decide) (by simp) (by simp)
        have e : ngx_rbtree_left_rotate m root s x =
            (setParent (setLeft (setLeft (setParent (setRight m x s) y z) z y) y x) x y,
              root) := by
          simp [ngx_rbtree_left_rotate, hrx, hly, hxr, Function.update_apply, hpx, hlz, hxy]
        rw [e]
        have hfoot : ∀ q, q ∉ [x, y, z] → AgreeAt m
            (setParent (setLeft (setLeft (setParent (setRight m x s) y z) z y) y x) x y) q := by
          intro q hq
          simp only [List.mem_cons, not_or, List.mem_singleton, List.not_mem_nil,
            not_false_eq_true, and_true] at hq
          simp [AgreeAt, Function.update_apply, hq]
        have Fa := RepT_frame _ hfoot (blocks_disj hB 3 [4, 5, 0] (by decide)) hRa
        have Fd := RepT_frame _ hfoot (blocks_disj hB 6 [4, 5, 0] (by decide)) hRd
        have Fr := RepT_frame _ hfoot (blocks_disj hB 1 [4, 5, 0] (by decide)) hRr
        have Fc := RepC_frame _ hfoot (blocks_disj hB 2 [4, 5, 0] (by decide)) hCz
        refine ⟨⟨?_, ?_, hnd2⟩, rfl, rfl,
          hfoot s (by simp [Ne.symm hxs, Ne.symm hys, Ne.symm hzs])⟩
        · rw [RepT_plug]
          simp only [RepC_L, RepT_node, parOf_cons, RbFrame.id_L, parOK_some, ptr_node, ptr_nil]
          simp [Function.update_apply, *, Ne.symm hxy, Ne.symm hxz, Ne.symm hyz]
        · rw [ptr_plug]; simpa using hroot
      | R c l z k =>
        have hB : [[z], l.ids, idsC Γ', a.ids, [x], [y], d.ids].flatten.Nodup := by
          simpa using hnd'
        simp only [RepC_R, parOf_cons, RbFrame.id_R, parOK_some, topId_cons] at hC hpx hroot
        obtain ⟨hzs, hcz, hkz, hpz, hlz, hrz, hRl, hCz⟩ := hC
        have hxr : x ≠ root := by
          rw [hroot]
          rcases topId_mem Γ' z with e | e
          · rw [e]; exact blocks_ne hB 4 0 (by decide) (by simp) (by simp)
          · exact blocks_ne hB 4 2 (by decide) (by simp) e
        have hxy : x ≠ y := blocks_ne hB 4 5 (by decide) (by simp) (by simp)
        have hxz : x ≠ z := blocks_ne hB 4 0 (by decide) (by simp) (by simp)
        have hyz : y ≠ z := blocks_ne hB 5 0 (by decide) (by simp) (by simp)
        have hxl : x ≠ l.ptr s := by
          rcases l.ptr_mem s with e | e
          · rw [e]; exact hxs
          · exact blocks_ne hB 4 1 (by decide) (by simp) e
        have e : ngx_rbtree_left_rotate m root s x =
            (setParent (setLeft (setRight (setParent (setRight m x s) y z) z y) y x) x y,
              root) := by
          simp [ngx_rbtree_left_rotate, hrx, hly, hxr, Function.update_apply, hpx, hlz, hxy, hxl]
        rw [e]
        have hfoot : ∀ q, q ∉ [x, y, z] → AgreeAt m
            (setParent (setLeft (setRight (setParent (setRight m x s) y z) z y) y x) x y) q := by
          intro q hq
          simp only [List.mem_cons, not_or, List.mem_singleton, List.not_mem_nil,
            not_false_eq_true, and_true] at hq
          simp [AgreeAt, Function.update_apply, hq]
        have Fa := RepT_frame _ hfoot (blocks_disj hB 3 [4, 5, 0] (by decide)) hRa
        have Fd := RepT_frame _ hfoot (blocks_disj hB 6 [4, 5, 0] (by decide)) hRd
        have Fl := RepT_frame _ hfoot (blocks_disj hB 1 [4, 5, 0] (by decide)) hRl
        have Fc := RepC_frame _ hfoot (blocks_disj hB 2 [4, 5, 0] (by decide)) hCz
        refine ⟨⟨?_, ?_, hnd2⟩, rfl, rfl,
          hfoot s (by simp [Ne.symm hxs, Ne.symm hys, Ne.symm hzs])⟩
        · rw [RepT_plug]
          simp only [RepC_R, RepT_node, parOf_cons, RbFrame.id_R, parOK_some, ptr_node, ptr_nil]
          simp [Function.update_apply, *, Ne.symm hxy, Ne.symm hxz, Ne.symm hyz]
        · rw [ptr_plug]; simpa using hroot
  | node cb bl bx kb br =>
    simp only [RepT_node, ptr_node, parOK_some] at hRb hly
    obtain ⟨hbs, hcb, hkb, hpb, hlb, hrb, hRbl, hRbr⟩ := hRb
    cases Γ with
    | nil =>
      have hB : [a.ids, [x], bl.ids, [bx], br.ids, [y], d.ids].flatten.Nodup := by
        simpa using hnd'
      simp only [topId_nil] at hroot
      have hxy : x ≠ y := blocks_ne hB 1 5 (by decide) (by simp) (by simp)
      have hxb : x ≠ bx := blocks_ne hB 1 3 (by decide) (by simp) (by simp)
      have hyb : y ≠ bx := blocks_ne hB 5 3 (by decide) (by simp) (by simp)
      have e : ngx_rbtree_left_rotate m root s x =
          (setParent (setLeft (setParent (setParent (setRight m x bx) bx x) y (m.parent x)) y x)
            x y, y) := by
        simp [ngx_rbtree_left_rotate, hrx, hly, hroot, hbs, Function.update_apply, hxb]
      rw [e]
      have hfoot : ∀ q, q ∉ [x, y, bx] → AgreeAt m
          (setParent (setLeft (setParent (setParent (setRight m x bx) bx x) y (m.parent x)) y x)
            x y) q := by
        intro q hq
        simp only [List.mem_cons, not_or, List.mem_singleton, List.not_mem_nil,
          not_false_eq_true, and_true] at hq
        simp [AgreeAt, Function.update_apply, hq]
      have Fa := RepT_frame _ hfoot (blocks_disj hB 0 [1, 5, 3] (by decide)) hRa
      have Fd := RepT_frame _ hfoot (blocks_disj hB 6 [1, 5, 3] (by decide)) hRd
      have Fbl := RepT_frame _ hfoot (blocks_disj hB 2 [1, 5, 3] (by decide)) hRbl
      have Fbr := RepT_frame _ hfoot (blocks_disj hB 4 [1, 5, 3] (by decide)) hRbr
      refine ⟨⟨?_, ?_, hnd2⟩, rfl, rfl,
        hfoot s (by simp [Ne.symm hxs, Ne.symm hys, Ne.symm hbs])⟩
      · rw [RepT_plug]
        simp only [RepC_nil, RepT_node, parOf_nil, parOK_none, parOK_some, ptr_node, ptr_nil]
        simp [Function.update_apply, *, Ne.symm hxy, Ne.symm hxb, Ne.symm hyb]
      · rw [ptr_plug]; simp
    | cons f Γ' =>
      cases f with
      | L c z k r =>
        have hB : [[z], r.ids, idsC Γ', a.ids, [x], bl.ids, [bx], br.ids, [y],
            d.ids].flatten.Nodup := by
          simpa using hnd'
        simp only [RepC_L, parOf_cons, RbFrame.id_L, parOK_some, topId_cons] at hC hpx hroot
        obtain ⟨hzs, hcz, hkz, hpz, hlz, hrz, hRr, hCz⟩ := hC
        have hxr : x ≠ root := by
          rw [hroot]
          rcases topId_mem Γ' z with e | e
          · rw [e]; exact blocks_ne hB 4 0 (by decide) (by simp) (by simp)
          · exact blocks_ne hB 4 2 (by decide) (by simp) e
        have hxy : x ≠ y := blocks_ne hB 4 8 (by decide) (by simp) (by simp)
        have hxb : x ≠ bx := blocks_ne hB 4 6 (by decide) (by simp) (by simp)
        have hxz : x ≠ z := blocks_ne hB 4 0 (by decide) (by simp) (by simp)
        have hyb : y ≠ bx := blocks_ne hB 8 6 (by decide) (by simp) (by simp)
        have hyz : y ≠ z := blocks_ne hB 8 0 (by decide) (by simp) (by simp)
        have hbz : bx ≠ z := blocks_ne hB 6 0 (by decide) (by simp) (by simp)
        have e : ngx_rbtree_left_rotate m root s x =
            (setParent (setLeft (setLeft (setParent (setParent (setRight m x bx) bx x) y z) z y)
              y x) x y, root) := by
          simp [ngx_rbtree_left_rotate, hrx, hly, hbs, hxr, Function.update_apply, hxb, hpx,
            hlz, hxy]
        rw [e]
        have hfoot : ∀ q, q ∉ [x, y, bx, z] → AgreeAt m
            (setParent (setLeft (setLeft (setParent (setParent (setRight m x bx) bx x) y z) z y)
              y x) x y) q := by
          intro q hq
          simp only [List.mem_cons, not_or, List.mem_singleton, List.not_mem_nil,
            not_false_eq_true, and_true] at hq
          simp [AgreeAt, Function.update_apply, hq]
        have Fa := RepT_frame _ hfoot (blocks_disj hB 3 [4, 8, 6, 0] (by decide)) hRa
        have Fd := RepT_frame _ hfoot (blocks_disj hB 9 [4, 8, 6, 0] (by decide)) hRd
        have Fbl := RepT_frame _ hfoot (blocks_disj hB 5 [4, 8, 6, 0] (by decide)) hRbl
        have Fbr := RepT_frame _ hfoot (blocks_disj hB 7 [4, 8, 6, 0] (by decide)) hRbr
        have Fr := RepT_frame _ hfoot (blocks_disj hB 1 [4, 8, 6, 0] (by decide)) hRr
        have Fc := RepC_frame _ hfoot (blocks_disj hB 2 [4, 8, 6, 0] (by decide)) hCz
        refine ⟨⟨?_, ?_, hnd2⟩, rfl, rfl,
          hfoot s (by simp [Ne.symm hxs, Ne.symm hys, Ne.symm hzs, Ne.symm hbs])⟩
        · rw [RepT_plug]
          simp only [RepC_L, RepT_node, parOf_cons, RbFrame.id_L, parOK_some, ptr_node, ptr_nil]
          simp [Function.update_apply, *, Ne.symm hxy, Ne.symm hxz, Ne.symm hyz, Ne.symm hxb,
            Ne.symm hbz, Ne.symm hyb]
        · rw [ptr_plug]; simpa using hroot
      | R c l z k =>
        have hB : [[z], l.ids, idsC Γ', a.ids, [x], bl.ids, [bx], br.ids, [y],
            d.ids].flatten.Nodup := by
          simpa using hnd'
        simp only [RepC_R, parOf_cons, RbFrame.id_R, parOK_some, topId_cons] at hC hpx hroot
        obtain ⟨hzs, hcz, hkz, hpz, hlz, hrz, hRl, hCz⟩ := hC
        have hxr : x ≠ root := by
          rw [hroot]
          rcases topId_mem Γ' z with e | e
          · rw [e]; exact blocks_ne hB 4 0 (by decide) (by simp) (by simp)
          · exact blocks_ne hB 4 2 (by decide) (by simp) e
        have hxy : x ≠ y := blocks_ne hB 4 8 (by decide) (by simp) (by simp)
        have hxb : x ≠ bx := blocks_ne hB 4 6 (by decide) (by simp) (by simp)
        have hxz : x ≠ z := blocks_ne hB 4 0 (by decide) (by simp) (by simp)
        have hyb : y ≠ bx := blocks_ne hB 8 6 (by decide) (by simp) (by simp)
        have hyz : y ≠ z := blocks_ne hB 8 0 (by decide) (by simp) (by simp)
        have hbz : bx ≠ z := blocks_ne hB 6 0 (by decide) (by simp) (by simp)
        have hxl : x ≠ l.ptr s := by
          rcases l.ptr_mem s with e | e
          · rw [e]; exact hxs
          · exact blocks_ne hB 4 1 (by decide) (by simp) e
        have e : ngx_rbtree_left_rotate m root s x =
            (setParent (setLeft (setRight (setParent (setParent (setRight m x bx) bx x) y z) z y)
              y x) x y, root) := by
          simp [ngx_rbtree_left_rotate, hrx, hly, hbs, hxr, Function.update_apply, hxb, hpx,
            hlz, hxy, hxl]
        rw [e]
        have hfoot : ∀ q, q ∉ [x, y, bx, z] → AgreeAt m
            (setParent (setLeft (setRight (setParent (setParent (setRight m x bx) bx x) y z) z y)
              y x) x y) q := by
          intro q hq
          simp only [List.mem_cons, not_or, List.mem_singleton, List.not_mem_nil,
            not_false_eq_true, and_true] at hq
          simp [AgreeAt, Function.update_apply, hq]
        have Fa := RepT_frame _ hfoot (blocks_disj hB 3 [4, 8, 6, 0] (by decide)) hRa
        have Fd := RepT_frame _ hfoot (blocks_disj hB 9 [4, 8, 6, 0] (by decide)) hRd
        have Fbl := RepT_frame _ hfoot (blocks_disj hB 5 [4, 8, 6, 0] (by decide)) hRbl
        have Fbr := RepT_frame _ hfoot (blocks_disj hB 7 [4, 8, 6, 0] (by decide)) hRbr
        have Fl := RepT_frame _ hfoot (blocks_disj hB 1 [4, 8, 6, 0] (by decide)) hRl
        have Fc := RepC_frame _ hfoot (blocks_disj hB 2 [4, 8, 6, 0] (by decide)) hCz
        refine ⟨⟨?_, ?_, hnd2⟩, rfl, rfl,
          hfoot s (by simp [Ne.symm hxs, Ne.symm hys, Ne.symm hzs, Ne.symm hbs])⟩
        · rw [RepT_plug]
          simp only [RepC_R, RepT_node, parOf_cons, RbFrame.id_R, parOK_some, ptr_node, ptr_nil]
          simp [Function.update_apply, *, Ne.symm hxy, Ne.symm hxz, Ne.symm hyz, Ne.symm hxb,
            Ne.symm hbz, Ne.symm hyb]
        · rw [ptr_plug]; simpa using hroot

theorem right_rotate_spec {m : RbHeap} {s root : Nat} {Γ : List RbFrame} {c1 c2 : Color}
    {a b d : RbTree} {x kx y ky : Nat}
    (h : TreeInv m s root (plug Γ (node c1 (node c2 d y ky b) x kx a))) :
    TreeInv (ngx_rbtree_right_rotate m root s x).1 s (ngx_rbtree_right_rotate m root s x).2
      (plug Γ (node c2 d y ky (node c1 b x kx a))) ∧
    (ngx_rbtree_right_rotate m root s x).1.color = m.color ∧
    (ngx_rbtree_right_rotate m root s x).1.key = m.key ∧
    AgreeAt m (ngx_rbtree_right_rotate m root s x).1 s := by
  obtain ⟨hrep, hroot, hnd⟩ := h
  have hnd2 : (plug Γ (node c2 d y ky (node c1 b x kx a))).ids.Nodup := by
    rw [ids_plug] at hnd ⊢
    simpa using hnd
  rw [RepT_plug] at hrep
  rw [ptr_plug] at hroot
  have hnd' := (ids_plug_perm _ _).nodup_iff.1 hnd
  obtain ⟨hC, hT⟩ := hrep
  simp only [RepT_node, ptr_node] at hT hC hroot
  obtain ⟨hxs, hcx, hkx, hpx, hlx, hrx, ⟨hys, hcy, hky, hpy, hly, hry, hRd, hRb⟩, hRa⟩ := hT
  simp only [parOK_some] at hpy
  cases b with
  | nil =>
    simp only [ptr_nil] at hry
    cases Γ with
    | nil =>
      have hB : [d.ids, [y], [x], a.ids].flatten.Nodup := by simpa using hnd'
      simp only [topId_nil] at hroot
      have hxy : x ≠ y := blocks_ne hB 2 1 (by decide) (by simp) (by simp)
      have e : ngx_rbtree_right_rotate m root s x =
          (setParent (setRight (setParent (setLeft m x s) y (m.parent x)) y x) x y, y) := by
        simp [ngx_rbtree_right_rotate, hlx, hry, hroot]
      rw [e]
      have hfoot : ∀ q, q ∉ [x, y] → AgreeAt m
          (setParent (setRight (setParent (setLeft m x s) y (m.parent x)) y x) x y) q := by
        intro q hq
        simp only [List.mem_cons, not_or, List.mem_singleton, List.not_mem_nil,
          not_false_eq_true, and_true] at hq
        simp [AgreeAt, Function.update_apply, hq]
      have Fa := RepT_frame _ hfoot (blocks_disj hB 3 [2, 1] (by decide)) hRa
      have Fd := RepT_frame _ hfoot (blocks_disj hB 0 [2, 1] (by decide)) hRd
      refine ⟨⟨?_, ?_, hnd2⟩, rfl, rfl, hfoot s (by simp [Ne.symm hxs, Ne.symm hys])⟩
      · rw [RepT_plug]
        simp only [RepC_nil, RepT_node, parOf_nil, parOK_none, parOK_some, ptr_node, ptr_nil]
        simp [Function.update_apply, *, Ne.symm hxy]
      · rw [ptr_plug]; simp
    | cons f Γ' =>
      cases f with
      | R c l z k =>
        have hB : [[z], l.ids, idsC Γ', d.ids, [y], [x], a.ids].flatten.Nodup := by
          simpa using hnd'
        simp only [RepC_R, parOf_cons, RbFrame.id_R, parOK_some, topId_cons] at hC hpx hroot
        obtain ⟨hzs, hcz, hkz, hpz, hlz, hrz, hRl, hCz⟩ := hC
        have hxr : x ≠ root := by
          rw [hroot]
          rcases topId_mem Γ' z with e | e
          · rw [e]; exact blocks_ne hB 5 0 (by decide) (by simp) (by simp)
          · exact blocks_ne hB 5 2 (by decide) (by simp) e
        have hxy : x ≠ y := blocks_ne hB 5 4 (by decide) (by simp) (by simp)
        have hxz : x ≠ z := blocks_ne hB 5 0 (by decide) (by simp) (by simp)
        have hyz : y ≠ z := blocks_ne hB 4 0 (by decide) (by simp) (by simp)
        have e : ngx_rbtree_right_rotate m root s x =
            (setParent (setRight (setRight (setParent (setLeft m x s) y z) z y) y x) x y,
              root) := by
          simp [ngx_rbtree_right_rotate, hlx, hry, hxr, Function.update_apply, hpx, hrz, hxy]
        rw [e]
        have hfoot : ∀ q, q ∉ [x, y, z] → AgreeAt m
            (setParent (setRight (setRight (setParent (setLeft m x s) y z) z y) y x) x y) q := by
          intro q hq
          simp only [List.mem_cons, not_or, List.mem_singleton, List.not_mem_nil,
            not_false_eq_true, and_true] at hq
          simp [AgreeAt, Function.update_apply, hq]
        have Fa := RepT_frame _ hfoot (blocks_disj hB 6 [5, 4, 0] (by decide)) hRa
        have Fd := RepT_frame _ hfoot (blocks_disj hB 3 [5, 4, 0] (by decide)) hRd
        have Fl := RepT_frame _ hfoot (blocks_disj hB 1 [5, 4, 0] (by decide)) hRl
        have Fc := RepC_frame _ hfoot (blocks_disj hB 2 [5, 4, 0] (by decide)) hCz
        refine ⟨⟨?_, ?_, hnd2⟩, rfl, rfl,
          hfoot s (by simp [Ne.symm hxs, Ne.symm hys, Ne.symm hzs])⟩
        · rw [RepT_plug]
          simp only [RepC_R, RepT_node, parOf_cons, RbFrame.id_R, parOK_some, ptr_node, ptr_nil]
          simp [Function.update_apply, *, Ne.symm hxy, Ne.symm hxz, Ne.symm hyz]
        · rw [ptr_plug]; simpa using hroot
      | L c z k r =>
        have hB : [[z], r.ids, idsC Γ', d.ids, [y], [x], a.ids].flatten.Nodup := by
          simpa using hnd'
        simp only [RepC_L, parOf_cons, RbFrame.id_L, parOK_some, topId_cons] at hC hpx hroot
        obtain ⟨hzs, hcz, hkz, hpz, hlz, hrz, hRr, hCz⟩ := hC
        have hxr : x ≠ root := by
          rw [hroot]
          rcases topId_mem Γ' z with e | e
          · rw [e]; exact blocks_ne hB 5 0 (by decide) (by simp) (by simp)
          · exact blocks_ne hB 5 2 (by decide) (by simp) e
        have hxy : x ≠ y := blocks_ne hB 5 4 (by decide) (by simp) (by simp)
        have hxz : x ≠ z := blocks_ne hB 5 0 (by decide) (by simp) (by simp)
        have hyz : y ≠ z := blocks_ne hB 4 0 (by decide) (by simp) (by simp)
        have hxl : x ≠ r.ptr s := by
          rcases r.ptr_mem s with e | e
          · rw [e]; exact hxs
          · exact blocks_ne hB 5 1 (by decide) (by simp) e
        have e : ngx_rbtree_right_rotate m root s x =
            (setParent (setRight (setLeft (setParent (setLeft m x s) y z) z y) y x) x y,
              root) := by
          simp [ngx_rbtree_right_rotate, hlx, hry, hxr, Function.update_apply, hpx, hrz, hxy, hxl]
        rw [e]
        have hfoot : ∀ q, q ∉ [x, y, z] → AgreeAt m
            (setParent (setRight (setLeft (setParent (setLeft m x s) y z) z y) y x) x y) q := by
          intro q hq
          simp only [List.mem_cons, not_or, List.mem_singleton, List.not_mem_nil,
            not_false_eq_true, and_true] at hq
          simp [AgreeAt, Function.update_apply, hq]
        have Fa := RepT_frame _ hfoot (blocks_disj hB 6 [5, 4, 0] (by decide)) hRa
        have Fd := RepT_frame _ hfoot (blocks_disj hB 3 [5, 4, 0] (by decide)) hRd
        have Fr := RepT_frame _ hfoot (blocks_disj hB 1 [5, 4, 0] (by decide)) hRr
        have Fc := RepC_frame _ hfoot (blocks_disj hB 2 [5, 4, 0] (by decide)) hCz
        refine ⟨⟨?_, ?_, hnd2⟩, rfl, rfl,
          hfoot s (by simp [Ne.symm hxs, Ne.symm hys, Ne.symm hzs])⟩
        · rw [RepT_plug]
          simp only [RepC_L, RepT_node, parOf_cons, RbFrame.id_L, parOK_some, ptr_node, ptr_nil]
          simp [Function.update_apply, *, Ne.symm hxy, Ne.symm hxz, Ne.symm hyz]
        · rw [ptr_plug]; simpa using hroot
  | node cb bl bx kb br =>
    simp only [RepT_node, ptr_node, parOK_some] at hRb hry
    obtain ⟨hbs, hcb, hkb, hpb, hlb, hrb, hRbl, hRbr⟩ := hRb
    cases Γ with
    | nil =>
      have hB : [d.ids, [y], bl.ids, [bx], br.ids, [x], a.ids].flatten.Nodup := by
        simpa using hnd'
      simp only [topId_nil] at hroot
      have hxy : x ≠ y := blocks_ne hB 5 1 (by decide) (by simp) (by simp)
      have hxb : x ≠ bx := blocks_ne hB 5 3 (by decide) (by simp) (by simp)
      have hyb : y ≠ bx := blocks_ne hB 1 3 (by decide) (by simp) (by simp)
      have e : ngx_rbtree_right_rotate m root s x =
          (setParent (setRight (setParent (setParent (setLeft m x bx) bx x) y (m.parent x)) y x)
            x y, y) := by
        simp [ngx_rbtree_right_rotate, hlx, hry, hroot, hbs, Function.update_apply, hxb]
      rw [e]
      have hfoot : ∀ q, q ∉ [x, y, bx] → AgreeAt m
          (setParent (setRight (setParent (setParent (setLeft m x bx) bx x) y (m.parent x)) y x)
            x y) q := by
        intro q hq
        simp only [List.mem_cons, not_or, List.mem_singleton, List.not_mem_nil,
          not_false_eq_true, and_true] at hq
        simp [AgreeAt, Function.update_apply, hq]
      have Fa := RepT_frame _ hfoot (blocks_disj hB 6 [5, 1, 3] (by decide)) hRa
      have Fd := RepT_frame _ hfoot (blocks_disj hB 0 [5, 1, 3] (by decide)) hRd
      have Fbl := RepT_frame _ hfoot (blocks_disj hB 2 [5, 1, 3] (by decide)) hRbl
      have Fbr := RepT_frame _ hfoot (blocks_disj hB 4 [5, 1, 3] (by decide)) hRbr
      refine ⟨⟨?_, ?_, hnd2⟩, rfl, rfl,
        hfoot s (by simp [Ne.symm hxs, Ne.symm hys, Ne.symm hbs])⟩
      · rw [RepT_plug]
        simp only [RepC_nil, RepT_node, parOf_nil, parOK_none, parOK_some, ptr_node, ptr_nil]
        simp [Function.update_apply, *, Ne.symm hxy, Ne.symm hxb, Ne.symm hyb]
      · rw [ptr_plug]; simp
    | cons f Γ' =>
      cases f with
      | R c l z k =>
        have hB : [[z], l.ids, idsC Γ', d.ids, [y], bl.ids, [bx], br.ids, [x], a.ids].flatten.Nodup := by
          simpa using hnd'
        simp only [RepC_R, parOf_cons, RbFrame.id_R, parOK_some, topId_cons] at hC hpx hroot
        obtain ⟨hzs, hcz, hkz, hpz, hlz, hrz, hRl, hCz⟩ := hC
        have hxr : x ≠ root := by
          rw [hroot]
          rcases topId_mem Γ' z with e | e
          · rw [e]; exact blocks_ne hB 8 0 (by decide) (by simp) (by simp)
          · exact blocks_ne hB 8 2 (by decide) (by simp) e
        have hxy : x ≠ y := blocks_ne hB 8 4 (by decide) (by simp) (by simp)
        have hxb : x ≠ bx := blocks_ne hB 8 6 (by decide) (by simp) (by simp)
        have hxz : x ≠ z := blocks_ne hB 8 0 (by decide) (by simp) (by simp)
        have hyb : y ≠ bx := blocks_ne hB 4 6 (by decide) (by simp) (by simp)
        have hyz : y ≠ z := blocks_ne hB 4 0 (by decide) (by simp) (by simp)
        have hbz : bx ≠ z := blocks_ne hB 6 0 (by decide) (by simp) (by simp)
        have e : ngx_rbtree_right_rotate m root s x =
            (setParent (setRight (setRight (setParent (setParent (setLeft m x bx) bx x) y z) z y)
              y x) x y, root) := by
          simp [ngx_rbtree_right_rotate, hlx, hry, hbs, hxr, Function.update_apply, hxb, hpx,
            hrz, hxy]
        rw [e]
        have hfoot : ∀ q, q ∉ [x, y, bx, z] → AgreeAt m
            (setParent (setRight (setRight (setParent (setParent (setLeft m x bx) bx x) y z) z y)
              y x) x y) q := by
          intro q hq
          simp only [List.mem_cons, not_or, List.mem_singleton, List.not_mem_nil,
            not_false_eq_true, and_true] at hq
          simp [AgreeAt, Function.update_apply, hq]
        have Fa := RepT_frame _ hfoot (blocks_disj hB 9 [8, 4, 6, 0] (by decide)) hRa
        have Fd := RepT_frame _ hfoot (blocks_disj hB 3 [8, 4, 6, 0] (by decide)) hRd
        have Fbl := RepT_frame _ hfoot (blocks_disj hB 5 [8, 4, 6, 0] (by decide)) hRbl
        have Fbr := RepT_frame _ hfoot (blocks_disj hB 7 [8, 4, 6, 0] (by decide)) hRbr
        have Fl := RepT_frame _ hfoot (blocks_disj hB 1 [8, 4, 6, 0] (by decide)) hRl
        have Fc := RepC_frame _ hfoot (blocks_disj hB 2 [8, 4, 6, 0] (by decide)) hCz
        refine ⟨⟨?_, ?_, hnd2⟩, rfl, rfl,
          hfoot s (by simp [Ne.symm hxs, Ne.symm hys, Ne.symm hzs, Ne.symm hbs])⟩
        · rw [RepT_plug]
          simp only [RepC_R, RepT_node, parOf_cons, RbFrame.id_R, parOK_some, ptr_node, ptr_nil]
          simp [Function.update_apply, *, Ne.symm hxy, Ne.symm hxz, Ne.symm hyz, Ne.symm hxb,
            Ne.symm hbz, Ne.symm hyb]
        · rw [ptr_plug]; simpa using hroot
      | L c z k r =>
        have hB : [[z], r.ids, idsC Γ', d.ids, [y], bl.ids, [bx], br.ids, [x], a.ids].flatten.Nodup := by
          simpa using hnd'
        simp only [RepC_L, parOf_cons, RbFrame.id_L, parOK_some, topId_cons] at hC hpx hroot
        obtain ⟨hzs, hcz, hkz, hpz, hlz, hrz, hRr, hCz⟩ := hC
        have hxr : x ≠ root := by
          rw [hroot]
          rcases topId_mem Γ' z with e | e
          · rw [e]; exact blocks_ne hB 8 0 (by decide) (by simp) (by simp)
          · exact blocks_ne hB 8 2 (by decide) (by simp) e
        have hxy : x ≠ y := blocks_ne hB 8 4 (by decide) (by simp) (by simp)
        have hxb : x ≠ bx := blocks_ne hB 8 6 (by decide) (by simp) (by simp)
        have hxz : x ≠ z := blocks_ne hB 8 0 (by decide) (by simp) (by simp)
        have hyb : y ≠ bx := blocks_ne hB 4 6 (by decide) (by simp) (by simp)
        have hyz : y ≠ z := blocks_ne hB 4 0 (by decide) (by simp) (by simp)
        have hbz : bx ≠ z := blocks_ne hB 6 0 (by decide) (by simp) (by simp)
        have hxl : x ≠ r.ptr s := by
          rcases r.ptr_mem s with e | e
          · rw [e]; exact hxs
          · exact blocks_ne hB 8 1 (by decide) (by simp) e
        have e : ngx_rbtree_right_rotate m root s x =
            (setParent (setRight (setLeft (setParent (setParent (setLeft m x bx) bx x) y z) z y)
              y x) x y, root) := by
          simp [ngx_rbtree_right_rotate, hlx, hry, hbs, hxr, Function.update_apply, hxb, hpx,
            hrz, hxy, hxl]
        rw [e]
        have hfoot : ∀ q, q ∉ [x, y, bx, z] → AgreeAt m
            (setParent (setRight (setLeft (setParent (setParent (setLeft m x bx) bx x) y z) z y)
              y x) x y) q := by
          intro q hq
          simp only [List.mem_cons, not_or, List.mem_singleton, List.not_mem_nil,
            not_false_eq_true, and_true] at hq
          simp [AgreeAt, Function.update_apply, hq]
        have Fa := RepT_frame _ hfoot (blocks_disj hB 9 [8, 4, 6, 0] (by decide)) hRa
        have Fd := RepT_frame _ hfoot (blocks_disj hB 3 [8, 4, 6, 0] (by decide)) hRd
        have Fbl := RepT_frame _ hfoot (blocks_disj hB 5 [8, 4, 6, 0] (by decide)) hRbl
        have Fbr := RepT_frame _ hfoot (blocks_disj hB 7 [8, 4, 6, 0] (by decide)) hRbr
        have Fr := RepT_frame _ hfoot (blocks_disj hB 1 [8, 4, 6, 0] (by decide)) hRr
        have Fc := RepC_frame _ hfoot (blocks_disj hB 2 [8, 4, 6, 0] (by decide)) hCz
        refine ⟨⟨?_, ?_, hnd2⟩, rfl, rfl,
          hfoot s (by simp [Ne.symm hxs, Ne.symm hys, Ne.symm hzs, Ne.symm hbs])⟩
        · rw [RepT_plug]
          simp only [RepC_L, RepT_node, parOf_cons, RbFrame.id_L, parOK_some, ptr_node, ptr_nil]
          simp [Function.update_apply, *, Ne.symm hxy, Ne.symm hxz, Ne.symm hyz, Ne.symm hxb,
            Ne.symm hbz, Ne.symm hyb]
        · rw [ptr_plug]; simpa using hroot

/-! ## Reading and recolouring a node at a known position -/

theorem TreeInv.look {m : RbHeap} {s root : Nat} {Γ : List RbFrame} {c : Color}
    {l r : RbTree} {x k : Nat} (h : TreeInv m s root (plug Γ (node c l x k r))) :
    x ≠ s ∧ m.color x = c ∧ m.key x = k ∧ m.left x = l.ptr s ∧ m.right x = r.ptr s ∧
      parOK (parOf Γ) (m.parent x) ∧ (x = root ↔ Γ = []) := by
  obtain ⟨hrep, hroot, hnd⟩ := h
  rw [RepT_plug] at hrep
  rw [ptr_plug] at hroot
  have hnd' := (ids_plug_perm _ _).nodup_iff.1 hnd
  obtain ⟨hC, hT⟩ := hrep
  simp only [RepT_node, ptr_node] at hT hroot
  obtain ⟨h1, h2, h3, h4, h5, h6, -, -⟩ := hT
  refine ⟨h1, h2, h3, h5, h6, h4, ?_⟩
  cases Γ with
  | nil => simp [hroot]
  | cons f Γ' =>
    have hB : [idsC (f :: Γ'), l.ids, [x], r.ids].flatten.Nodup := by simpa using hnd'
    simp only [reduceCtorEq, iff_false]
    rw [hroot]
    exact blocks_ne hB 2 0 (by decide) (by simp) (topId_cons_mem f Γ' x)

/-- The two children of a node stand for different pointers unless both are empty. -/
theorem TreeInv.children_ne {m : RbHeap} {s root : Nat} {Γ : List RbFrame} {c : Color}
    {l r : RbTree} {x k : Nat} (h : TreeInv m s root (plug Γ (node c l x k r)))
    (hlr : l.ptr s = r.ptr s) : l = nil ∧ r = nil := by
  obtain ⟨hrep, hroot, hnd⟩ := h
  rw [RepT_plug] at hrep
  have hnd' := (ids_plug_perm _ _).nodup_iff.1 hnd
  have hB : [idsC Γ, l.ids, [x], r.ids].flatten.Nodup := by simpa using hnd'
  obtain ⟨hC, hT⟩ := hrep
  simp only [RepT_node] at hT
  obtain ⟨-, -, -, -, -, -, hl, hr⟩ := hT
  cases l with
  | nil =>
    cases r with
    | nil => exact ⟨rfl, rfl⟩
    | node cr rl rx rk rr =>
      simp only [RepT_node] at hr
      simp only [ptr_nil, ptr_node] at hlr
      exact absurd hlr.symm hr.1
  | node cl ll lx lk lr =>
    simp only [RepT_node] at hl
    cases r with
    | nil =>
      simp only [ptr_nil, ptr_node] at hlr
      exact absurd hlr hl.1
    | node cr rl rx rk rr =>
      simp only [ptr_node] at hlr
      exact absurd hlr (blocks_ne hB 1 3 (by decide) (by simp) (by simp))

theorem TreeInv.ptr_ne {m : RbHeap} {s root : Nat} {fs : List RbFrame} {c : Color}
    {l r : RbTree} {x k : Nat} (h : TreeInv m s root (plug fs (node c l x k r))) :
    l.ptr s ≠ x ∧ r.ptr s ≠ x := by
  obtain ⟨hrep, hroot, hnd⟩ := h
  rw [RepT_plug] at hrep
  have hnd' := (ids_plug_perm _ _).nodup_iff.1 hnd
  have hB : [idsC fs, l.ids, [x], r.ids].flatten.Nodup := by simpa using hnd'
  obtain ⟨hC, hT⟩ := hrep
  simp only [RepT_node] at hT
  constructor
  · rcases l.ptr_mem s with e | e
    · rw [e]; exact Ne.symm hT.1
    · exact blocks_ne hB 1 2 (by decide) e (by simp)
  · rcases r.ptr_mem s with e | e
    · rw [e]; exact Ne.symm hT.1
    · exact blocks_ne hB 3 2 (by decide) e (by simp)

theorem recolor_spec {m : RbHeap} {s root : Nat} {Γ : List RbFrame} {c : Color}
    {l r : RbTree} {x k : Nat} (c' : Color)
    (h : TreeInv m s root (plug Γ (node c l x k r))) :
    TreeInv (setColor m x c') s root (plug Γ (node c' l x k r)) := by
  obtain ⟨hrep, hroot, hnd⟩ := h
  have hnd2 : (plug Γ (node c' l x k r)).ids.Nodup := by
    rw [ids_plug] at hnd ⊢
    simpa using hnd
  rw [RepT_plug] at hrep
  rw [ptr_plug] at hroot
  have hnd' := (ids_plug_perm _ _).nodup_iff.1 hnd
  have hB : [idsC Γ, l.ids, [x], r.ids].flatten.Nodup := by simpa using hnd'
  obtain ⟨hC, hT⟩ := hrep
  simp only [RepT_node, ptr_node] at hT hroot
  obtain ⟨h1, h2, h3, h4, h5, h6, hl, hr⟩ := hT
  have hfoot : ∀ q, q ∉ [x] → AgreeAt m (setColor m x c') q := by
    intro q hq
    simp only [List.mem_singleton] at hq
    simp [AgreeAt, Function.update_apply, hq]
  have Fl := RepT_frame _ hfoot (blocks_disj hB 1 [2] (by decide)) hl
  have Fr := RepT_frame _ hfoot (blocks_disj hB 3 [2] (by decide)) hr
  have Fc := RepC_frame _ hfoot (blocks_disj hB 0 [2] (by decide)) hC
  simp only [ptr_node] at Fc
  refine ⟨?_, ?_, hnd2⟩
  · rw [RepT_plug]
    simp only [RepT_node, ptr_node]
    simp [*]
  · rw [ptr_plug]; simpa using hroot

/-- Painting the sentinel keeps every stored tree. -/
theorem recolor_sentinel {m : RbHeap} {s root : Nat} {t : RbTree} (c' : Color)
    (h : TreeInv m s root t) (hs : s ∉ t.ids) : TreeInv (setColor m s c') s root t := by
  obtain ⟨hrep, hroot, hnd⟩ := h
  have hfoot : ∀ q, q ∉ [s] → AgreeAt m (setColor m s c') q := by
    intro q hq
    simp only [List.mem_singleton] at hq
    simp [AgreeAt, Function.update_apply, hq]
  exact ⟨RepT_frame [s] hfoot (fun q hq => by
    simp only [List.mem_singleton]; rintro rfl; exact hs hq) hrep, hroot, hnd⟩

theorem RepT.sentinel_not_mem {m : RbHeap} {s : Nat} {t : RbTree} {par : Option Nat}
    (h : RepT m s t par) : s ∉ t.ids := by
  induction t generalizing par with
  | nil => simp
  | node c l x k r ihl ihr =>
    simp only [RepT_node] at h
    obtain ⟨h1, -, -, -, -, -, hl, hr⟩ := h
    simp only [ids_node, List.mem_append, List.mem_cons, not_or]
    exact ⟨ihl hl, Ne.symm h1, ihr hr⟩

/-- The sentinel and the addresses of a stored tree are pairwise different. -/
theorem TreeInv.blocks {m : RbHeap} {s root : Nat} {fs : List RbFrame} {t : RbTree}
    (h : TreeInv m s root (plug fs t)) : (s :: (idsC fs ++ t.ids)).Nodup := by
  have h1 := (ids_plug_perm fs t).nodup_iff.1 h.nodup
  have h2 : s ∉ idsC fs ++ t.ids := fun hc =>
    RepT.sentinel_not_mem h.rep ((ids_plug_perm fs t).mem_iff.2 hc)
  exact List.nodup_cons.2 ⟨h2, h1⟩

theorem plug_insPath (k : Nat) (t : RbTree) (fs : List RbFrame) :
    plug (insPath k t fs) nil = plug fs t := by
  induction t generalizing fs with
  | nil => rfl
  | node c l x kx r ihl ihr =>
    unfold insPath
    split
    · rw [ihl]; rfl
    · rw [ihr]; rfl

theorem insPath_ne_nil (k : Nat) (t : RbTree) (fs : List RbFrame) (ht : t ≠ nil) :
    insPath k t fs ≠ [] := by
  induction t generalizing fs with
  | nil => exact absurd rfl ht
  | node c l x kx r ihl ihr =>
    unfold insPath
    split
    · cases l with
      | nil => simp [insPath]
      | node _ _ _ _ _ => exact ihl _ (by simp)
    · cases r with
      | nil => simp [insPath]
      | node _ _ _ _ _ => exact ihr _ (by simp)

/-- Linking a fresh node into an empty position of a stored tree. -/
theorem link_spec {m : RbHeap} {s root : Nat} {f : RbFrame} {Γ : List RbFrame} {n : Nat}
    (h : TreeInv m s root (plug (f :: Γ) nil)) (hn : n ∉ (plug (f :: Γ) nil).ids)
    (hns : n ≠ s) :
    TreeInv
      (ngx_rbt_red (setRight (setLeft (setParent
        (match f with
          | RbFrame.L _ x _ _ => setLeft m x n
          | RbFrame.R _ _ x _ => setRight m x n) n f.id) n s) n s) n)
      s root (plug (f :: Γ) (node Color.red nil n (m.key n) nil)) := by
  obtain ⟨hrep, hroot, hnd⟩ := h
  have hnd2 : (plug (f :: Γ) (node Color.red nil n (m.key n) nil)).ids.Nodup := by
    rw [ids_plug] at hnd hn ⊢
    simp only [ids_nil, List.append_nil, ids_node, List.nil_append, List.mem_append,
      not_or] at hnd hn ⊢
    rw [List.append_assoc]
    refine List.Nodup.append ?_ ?_ ?_
    · exact (List.nodup_append.1 hnd).1
    · rw [List.singleton_append, List.nodup_cons]
      exact ⟨hn.2, (List.nodup_append.1 hnd).2.1⟩
    · rw [List.singleton_append, List.disjoint_cons_right]
      exact ⟨hn.1, (List.nodup_append.1 hnd).2.2⟩
  rw [RepT_plug] at hrep
  rw [ptr_plug] at hroot
  have hnd' := (ids_plug_perm _ _).nodup_iff.1 hnd
  have hn' : n ∉ idsC (f :: Γ) ++ nil.ids := fun hc => hn ((ids_plug_perm _ _).mem_iff.2 hc)
  obtain ⟨hC, -⟩ := hrep
  cases f with
  | L c x kx r =>
    have hB : [[x], r.ids, idsC Γ, [n]].flatten.Nodup := by
      simp only [idsC_cons, RbFrame.ids_L, ids_nil, List.append_nil] at hnd' hn'
      have : ((x :: r.ids ++ idsC Γ) ++ [n]).Nodup :=
        List.Nodup.append hnd' (List.nodup_singleton n) (by simpa using hn')
      simpa using this
    simp only [RepC_L, ptr_nil] at hC
    obtain ⟨hxs, hcx, hkx, hpx, hlx, hrx, hRr, hCx⟩ := hC
    have hxn : x ≠ n := blocks_ne hB 0 3 (by decide) (by simp) (by simp)
    have hfoot : ∀ q, q ∉ [x, n] → AgreeAt m
        (ngx_rbt_red (setRight (setLeft (setParent (setLeft m x n) n x) n s) n s) n) q := by
      intro q hq
      simp only [List.mem_cons, not_or, List.mem_singleton, List.not_mem_nil,
        not_false_eq_true, and_true] at hq
      simp [AgreeAt, ngx_rbt_red, Function.update_apply, hq]
    have Fr := RepT_frame _ hfoot (blocks_disj hB 1 [0, 3] (by decide)) hRr
    have Fc := RepC_frame _ hfoot (blocks_disj hB 2 [0, 3] (by decide)) hCx
    refine ⟨?_, ?_, hnd2⟩
    · rw [RepT_plug]
      simp only [RepC_L, RepT_node, RepT_nil, parOf_cons, RbFrame.id_L, parOK_some, ptr_node,
        ptr_nil]
      simp [ngx_rbt_red, Function.update_apply, *, Ne.symm hxn] at Fr Fc ⊢
      exact ⟨Fr, Fc⟩
    · rw [ptr_plug]; simpa using hroot
  | R c l x kx =>
    have hB : [[x], l.ids, idsC Γ, [n]].flatten.Nodup := by
      simp only [idsC_cons, RbFrame.ids_R, ids_nil, List.append_nil] at hnd' hn'
      have : ((x :: l.ids ++ idsC Γ) ++ [n]).Nodup :=
        List.Nodup.append hnd' (List.nodup_singleton n) (by simpa using hn')
      simpa using this
    simp only [RepC_R, ptr_nil] at hC
    obtain ⟨hxs, hcx, hkx, hpx, hlx, hrx, hRl, hCx⟩ := hC
    have hxn : x ≠ n := blocks_ne hB 0 3 (by decide) (by simp) (by simp)
    have hfoot : ∀ q, q ∉ [x, n] → AgreeAt m
        (ngx_rbt_red (setRight (setLeft (setParent (setRight m x n) n x) n s) n s) n) q := by
      intro q hq
      simp only [List.mem_cons, not_or, List.mem_singleton, List.not_mem_nil,
        not_false_eq_true, and_true] at hq
      simp [AgreeAt, ngx_rbt_red, Function.update_apply, hq]
    have Fl := RepT_frame _ hfoot (blocks_disj hB 1 [0, 3] (by decide)) hRl
    have Fc := RepC_frame _ hfoot (blocks_disj hB 2 [0, 3] (by decide)) hCx
    refine ⟨?_, ?_, hnd2⟩
    · rw [RepT_plug]
      simp only [RepC_R, RepT_node, RepT_nil, parOf_cons, RbFrame.id_R, parOK_some, ptr_node,
        ptr_nil]
      simp [ngx_rbt_red, Function.update_apply, *, Ne.symm hxn] at Fl Fc ⊢
      exact ⟨Fl, Fc⟩
    · rw [ptr_plug]; simpa using hroot

theorem link_agree {m : RbHeap} {s x n : Nat} (hxs : x ≠ s) (hns : n ≠ s) (m1 : RbHeap)
    (h1 : m1 = setLeft m x n ∨ m1 = setRight m x n) :
    AgreeAt m (ngx_rbt_red (setRight (setLeft (setParent m1 n x) n s) n s) n) s ∧
    (ngx_rbt_red (setRight (setLeft (setParent m1 n x) n s) n s) n).key = m.key := by
  rcases h1 with rfl | rfl <;>
    simp [AgreeAt, ngx_rbt_red, Function.update_apply, Ne.symm hxs, Ne.symm hns]

theorem insert_value_spec {s root n : Nat} (hns : n ≠ s) (t : RbTree) :
    ∀ (fs : List RbFrame) (m : RbHeap), TreeInv m s root (plug fs t) → t ≠ nil →
      n ∉ (plug fs t).ids → ∀ fuel, t.height ≤ fuel →
      ∃ m', ngx_rbtree_insert_value fuel m (t.ptr s) n s = some m' ∧
        TreeInv m' s root (plug (insPath (m.key n) t fs) (node Color.red nil n (m.key n) nil)) ∧
        m'.key = m.key ∧ AgreeAt m m' s := by
  induction t with
  | nil => intro fs m _ ht; exact absurd rfl ht
  | node c l x kx r ihl ihr =>
    intro fs m h _ hn fuel hfuel
    obtain ⟨hxs, hcx, hkx, hlx, hrx, hpx, hxroot⟩ := h.look
    cases fuel with
    | zero => simp [RbTree.height] at hfuel
    | succ fuel =>
      simp only [RbTree.height, Nat.add_le_add_iff_right] at hfuel
      by_cases hk : m.key n < kx
      · cases l with
        | nil =>
          have hl := link_spec (f := RbFrame.L c x kx r) (Γ := fs) (n := n) h hn hns
          have ha := link_agree (m := m) hxs hns (setLeft m x n) (Or.inl rfl)
          refine ⟨_, ?_, ?_, ha.2, ha.1⟩
          · simp [ngx_rbtree_insert_value, hkx, hk, hlx]
          · simpa [insPath, hk] using hl
        | node cl ll lx lk lr =>
          have hl := ihl (RbFrame.L c x kx r :: fs) m h (by simp) hn fuel
            (le_trans (le_max_left _ _) hfuel)
          obtain ⟨m', e, hT, hkey, hag⟩ := hl
          have hlxs : lx ≠ s := (TreeInv.look (Γ := RbFrame.L c x kx r :: fs) h).1
          refine ⟨m', ?_, ?_, hkey, hag⟩
          · simp only [ptr_node] at e hlx
            simp [ngx_rbtree_insert_value, hkx, hk, hlx, hlxs, e]
          · simpa [insPath, hk] using hT
      · cases r with
        | nil =>
          have hl := link_spec (f := RbFrame.R c l x kx) (Γ := fs) (n := n) h hn hns
          have ha := link_agree (m := m) hxs hns (setRight m x n) (Or.inr rfl)
          refine ⟨_, ?_, ?_, ha.2, ha.1⟩
          · simp [ngx_rbtree_insert_value, hkx, hk, hrx]
          · simpa [insPath, hk] using hl
        | node cr rl rx rk rr =>
          have hl := ihr (RbFrame.R c l x kx :: fs) m h (by simp) hn fuel
            (le_trans (le_max_right _ _) hfuel)
          obtain ⟨m', e, hT, hkey, hag⟩ := hl
          have hrxs : rx ≠ s := (TreeInv.look (Γ := RbFrame.R c l x kx :: fs) h).1
          refine ⟨m', ?_, ?_, hkey, hag⟩
          · simp only [ptr_node] at e hrx
            simp [ngx_rbtree_insert_value, hkx, hk, hrx, hrxs, e]
          · simpa [insPath, hk] using hT

theorem topColor_indep (fs : List RbFrame) (hfs : fs ≠ []) (c c' : Color) :
    topColor fs c = topColor fs c' := by
  cases fs with
  | nil => exact absurd rfl hfs
  | cons f fs => rfl

theorem rootColor_of_color {m : RbHeap} {s : Nat} {u : RbTree} {par : Option Nat}
    (hs : m.color s = Color.black) (h : RepT m s u par) : m.color (u.ptr s) = u.rootColor := by
  cases u with
  | nil => simpa using hs
  | node c l x k r =>
    simp only [RepT_node] at h
    simpa using h.2.1

theorem TreeInv.child_color {m : RbHeap} {s root : Nat} {Γ : List RbFrame} {c : Color}
    {l r : RbTree} {x k : Nat} (h : TreeInv m s root (plug Γ (node c l x k r)))
    (hs : m.color s = Color.black) :
    m.color (l.ptr s) = l.rootColor ∧ m.color (r.ptr s) = r.rootColor := by
  have hrep := h.rep
  rw [RepT_plug] at hrep
  obtain ⟨-, hT⟩ := hrep
  simp only [RepT_node] at hT
  exact ⟨rootColor_of_color hs hT.2.2.2.2.2.2.1, rootColor_of_color hs hT.2.2.2.2.2.2.2⟩

theorem TreeInv.sentinel_ne {m : RbHeap} {s root : Nat} {fs : List RbFrame} {c : Color}
    {l r : RbTree} {x k : Nat} (h : TreeInv m s root (plug fs (node c l x k r))) : x ≠ s :=
  h.look.1

/-- The re-balancing loop of `ngx_rbtree_insert` computes `insFix`. -/
theorem insert_fixup_spec {s : Nat} (n : Nat) :
    ∀ (fs : List RbFrame), fs.length = n → ∀ (ct : Color) (a : RbTree) (x k : Nat) (b : RbTree)
      (m : RbHeap) (root : Nat),
      TreeInv m s root (plug fs (node ct a x k b)) →
      (fs ≠ [] → topColor fs Color.black = Color.black) → m.color s = Color.black →
      ∀ fuel, fs.length + 1 ≤ fuel →
      ∃ m' root', ngx_rbtree_insert_fixup fuel m root s x = some (m', root') ∧
        TreeInv m' s root' (insFix fs (node ct a x k b)) ∧ m'.key = m.key ∧
        m'.color s = Color.black := by
  induction n using Nat.strong_induction_on with
  | _ n ih =>
    intro fs hlen ct a x k b m root h htop hs fuel hfuel
    obtain ⟨hxs, hcx, hkx, hlx, hrx, hpx, hxroot⟩ := h.look
    cases fuel with
    | zero => omega
    | succ fuel =>
      match fs, hlen, h, htop, hfuel, hpx, hxroot with
      | [], _, h, _, _, _, hxroot =>
        refine ⟨m, root, ?_, ?_, rfl, hs⟩
        · simp [ngx_rbtree_insert_fixup, hxroot]
        · simpa [insFix] using h
      | [P], _, h, htop, _, hpx, hxroot =>
        have hP : P.color = Color.black := by simpa [topColor] using htop
        have h2 : TreeInv m s root (plug [] (P.fill (node ct a x k b))) := h
        refine ⟨m, root, ?_, ?_, rfl, hs⟩
        · cases P with
          | L cp p kp pr =>
            have := h2.look
            simp only [RbFrame.fill_L] at this
            simp only [parOf_cons, RbFrame.id_L, parOK_some] at hpx
            simp only [RbFrame.color_L] at hP
            simp [ngx_rbtree_insert_fixup, hpx, this.2.1, hP]
          | R cp pl p kp =>
            have := h2.look
            simp only [RbFrame.fill_R] at this
            simp only [parOf_cons, RbFrame.id_R, parOK_some] at hpx
            simp only [RbFrame.color_R] at hP
            simp [ngx_rbtree_insert_fixup, hpx, this.2.1, hP]
        · simpa [insFix] using h
      | P :: G :: rest, hlen, h, htop, hfuel, hpx, hxroot =>
        have hxr : x ≠ root := fun e => by simpa using hxroot.1 e
        have hP := TreeInv.look (Γ := G :: rest) (c := P.color) (x := P.id) (k := match P with | RbFrame.L _ _ k _ => k | RbFrame.R _ _ _ k => k)
          (l := match P with | RbFrame.L _ _ _ _ => node ct a x k b | RbFrame.R _ l _ _ => l)
          (r := match P with | RbFrame.L _ _ _ r => r | RbFrame.R _ _ _ _ => node ct a x k b)
          (by cases P <;> exact h)
        have hpx' : m.parent x = P.id := by simpa using hpx
        by_cases hPc : P.color = Color.red
        · have htop' : rest ≠ [] → topColor rest Color.black = Color.black := fun hr => by
            rw [topColor_indep rest hr Color.black G.color]
            exact htop (by simp)
          simp only [List.length_cons] at hlen hfuel
          cases G with
          | L cg g kg u =>
            have hG := TreeInv.look (Γ := rest) (c := cg) (x := g) (k := kg) (l := P.fill (node ct a x k b)) (r := u) h
            have hGc := TreeInv.child_color (Γ := rest) (c := cg) (x := g) (k := kg) (l := P.fill (node ct a x k b)) (r := u) h hs
            have hpp : m.parent P.id = g := by simpa using hP.2.2.2.2.2.1
            have hlg : m.left g = P.id := by
              rw [hG.2.2.2.1]; cases P <;> rfl
            by_cases hu : u.rootColor = Color.red
            · cases u with
              | nil => simp at hu
              | node cu ul ux uk ur =>
                simp only [rootColor_node] at hu
                subst hu
                have h1 : TreeInv (setColor m P.id Color.black) s root
                    (plug (RbFrame.L cg g kg (node Color.red ul ux uk ur) :: rest) (P.fill (node ct a x k b)).setBlack) := by
                  cases P <;> exact recolor_spec Color.black h
                have h2 := recolor_spec (Γ := RbFrame.R cg (P.fill (node ct a x k b)).setBlack g kg :: rest) Color.black h1
                have h3 := recolor_spec (Γ := rest) Color.red h2
                have hgs : g ≠ s := hG.1
                have huxs : ux ≠ s := (TreeInv.look (Γ := RbFrame.R cg (P.fill (node ct a x k b)).setBlack g kg :: rest) h1).1
                have hps : P.id ≠ s := hP.1
                obtain ⟨m', root', e, hT, hk, hs'⟩ := ih (n - 2) (by omega) rest (by omega) _ _ _ _ _ _ _ h3 htop'
                  (by simp [Function.update_apply, Ne.symm hgs, Ne.symm huxs, Ne.symm hps, hs]) fuel (by omega)
                have hcu : m.color ux = Color.red := by simpa using hGc.2
                refine ⟨m', root', ?_, ?_, hk, hs'⟩
                · simp only [ptr_node] at hG
                  simp [ngx_rbtree_insert_fixup, hxr, hpx', hP.2.1, hPc, hpp, hlg, hG.2.2.2.2.1, hG.2.1, hcu, ngx_rbt_black, ngx_rbt_red]
                  simpa using e
                · simpa [insFix, hPc] using hT
            · have hcu : ¬ m.color (u.ptr s) = Color.red := by rw [hGc.2]; exact hu
              cases P with
              | R cp pl p kp =>
                simp only [RbFrame.id_R, RbFrame.color_R, RbFrame.fill_R, ptr_node] at *
                subst hPc
                obtain ⟨hT1, hc1, hk1, ha1⟩ := left_rotate_spec (Γ := RbFrame.L cg g kg u :: rest) h
                have hstep : ngx_rbtree_insert_fixup (fuel + 1) m root s x =
                    ngx_rbtree_insert_fixup fuel
                      (ngx_rbtree_right_rotate (setColor (setColor (ngx_rbtree_left_rotate m root s p).1 x Color.black) g Color.red)
                         (ngx_rbtree_left_rotate m root s p).2 s g).1
                      (ngx_rbtree_right_rotate (setColor (setColor (ngx_rbtree_left_rotate m root s p).1 x Color.black) g Color.red)
                         (ngx_rbtree_left_rotate m root s p).2 s g).2 s p := by
                  have l1 := TreeInv.look (Γ := RbFrame.L ct x k b :: RbFrame.L cg g kg u :: rest) hT1
                  have l2 := TreeInv.look (Γ := RbFrame.L cg g kg u :: rest) hT1
                  simp only [parOf_cons, RbFrame.id_L, parOK_some] at l1 l2
                  rw [ngx_rbtree_insert_fixup]
                  simp [hxr, hpx', hP.2.1, hpp, hlg, hG.2.2.2.2.1, hcu, hP.2.2.2.2.1, ngx_rbt_black, ngx_rbt_red, l1.2.2.2.2.2.1, l2.2.2.2.2.2.1]
                rw [hstep]
                generalize ngx_rbtree_left_rotate m root s p = r1 at *
                have h2 := recolor_spec (Γ := RbFrame.L cg g kg u :: rest) Color.black hT1
                have h3 := recolor_spec (Γ := rest) Color.red h2
                obtain ⟨hT4, hc4, hk4, ha4⟩ := right_rotate_spec (Γ := rest) h3
                generalize ngx_rbtree_right_rotate (setColor (setColor r1.1 x Color.black) g Color.red) r1.2 s g = r4 at *
                refine ⟨r4.1, r4.2, ?_, ?_, ?_, ?_⟩
                · have l1 := TreeInv.look (Γ := RbFrame.L Color.black x k (node Color.red b g kg u) :: rest) hT4
                  have l2 := TreeInv.look (Γ := rest) hT4
                  simp only [parOf_cons, RbFrame.id_L, parOK_some] at l1 l2
                  cases fuel with
                  | zero => omega
                  | succ fuel =>
                    simp [ngx_rbtree_insert_fixup, l1.2.2.2.2.2.1, l2.2.1]
                · simpa [insFix, hu] using hT4
                · rw [hk4]; simpa using hk1
                · rw [hc4]
                  simp [Function.update_apply, Ne.symm hG.1, Ne.symm hxs, hc1, hs]
              | L cp p kp pr =>
                simp only [RbFrame.id_L, RbFrame.color_L, RbFrame.fill_L, ptr_node] at *
                subst hPc
                have hxpr : x ≠ pr.ptr s := fun e =>
                  absurd (TreeInv.children_ne (Γ := RbFrame.L cg g kg u :: rest) h e).1 (by simp)
                have h2 := recolor_spec (Γ := RbFrame.L cg g kg u :: rest) Color.black h
                have h3 := recolor_spec (Γ := rest) Color.red h2
                obtain ⟨hT4, hc4, hk4, ha4⟩ := right_rotate_spec (Γ := rest) h3
                have hstep : ngx_rbtree_insert_fixup (fuel + 1) m root s x =
                    ngx_rbtree_insert_fixup fuel
                      (ngx_rbtree_right_rotate (setColor (setColor m p Color.black) g Color.red) root s g).1
                      (ngx_rbtree_right_rotate (setColor (setColor m p Color.black) g Color.red) root s g).2
                      s x := by
                  rw [ngx_rbtree_insert_fixup]
                  simp [hxr, hpx', hP.2.1, hpp, hlg, hG.2.2.2.2.1, hcu, hP.2.2.2.2.1, ngx_rbt_black, ngx_rbt_red, hxpr]
                rw [hstep]
                generalize ngx_rbtree_right_rotate (setColor (setColor m p Color.black) g Color.red) root s g = r4 at *
                refine ⟨r4.1, r4.2, ?_, ?_, ?_, ?_⟩
                · have l1 := TreeInv.look (Γ := RbFrame.L Color.black p kp (node Color.red pr g kg u) :: rest) hT4
                  have l2 := TreeInv.look (Γ := rest) hT4
                  simp only [parOf_cons, RbFrame.id_L, parOK_some] at l1 l2
                  cases fuel with
                  | zero => omega
                  | succ fuel =>
                    simp [ngx_rbtree_insert_fixup, l1.2.2.2.2.2.1, l2.2.1]
                · simpa [insFix, hu] using hT4
                · rw [hk4]; rfl
                · rw [hc4]
                  simp [Function.update_apply, Ne.symm hG.1, Ne.symm hP.1, hs]
          | R cg u g kg =>
            have hG := TreeInv.look (Γ := rest) (c := cg) (x := g) (k := kg) (l := u) (r := P.fill (node ct a x k b)) h
            have hGc := TreeInv.child_color (Γ := rest) (c := cg) (x := g) (k := kg) (l := u) (r := P.fill (node ct a x k b)) h hs
            have hpp : m.parent P.id = g := by simpa using hP.2.2.2.2.2.1
            have hrg : m.right g = P.id := by
              rw [hG.2.2.2.2.1]; cases P <;> rfl
            have hpu : ¬ P.id = u.ptr s := fun e => by
              have := (TreeInv.children_ne (Γ := rest) (c := cg) (x := g) (k := kg) (l := u) (r := P.fill (node ct a x k b)) h
                (by rw [← e]; cases P <;> rfl)).2
              cases P <;> simp at this
            by_cases hu : u.rootColor = Color.red
            · cases u with
              | nil => simp at hu
              | node cu ul ux uk ur =>
                simp only [rootColor_node] at hu
                subst hu
                have h1 : TreeInv (setColor m P.id Color.black) s root
                    (plug (RbFrame.R cg (node Color.red ul ux uk ur) g kg :: rest) (P.fill (node ct a x k b)).setBlack) := by
                  cases P <;> exact recolor_spec Color.black h
                have h2 := recolor_spec (Γ := RbFrame.L cg g kg (P.fill (node ct a x k b)).setBlack :: rest) Color.black h1
                have h3 := recolor_spec (Γ := rest) Color.red h2
                have hgs : g ≠ s := hG.1
                have huxs : ux ≠ s := (TreeInv.look (Γ := RbFrame.L cg g kg (P.fill (node ct a x k b)).setBlack :: rest) h1).1
                have hps : P.id ≠ s := hP.1
                obtain ⟨m', root', e, hT, hk, hs'⟩ := ih (n - 2) (by omega) rest (by omega) _ _ _ _ _ _ _ h3 htop'
                  (by simp [Function.update_apply, Ne.symm hgs, Ne.symm huxs, Ne.symm hps, hs]) fuel (by omega)
                have hcu : m.color ux = Color.red := by simpa using hGc.1
                refine ⟨m', root', ?_, ?_, hk, hs'⟩
                · simp only [ptr_node] at hG hpu
                  simp [ngx_rbtree_insert_fixup, hxr, hpx', hP.2.1, hPc, hpp, hrg, hG.2.2.2.1, hG.2.1, hcu, ngx_rbt_black, ngx_rbt_red, hpu]
                  simpa using e
                · simpa [insFix, hPc] using hT
            · have hcu : ¬ m.color (u.ptr s) = Color.red := by rw [hGc.1]; exact hu
              cases P with
              | L cp p kp pr =>
                simp only [RbFrame.id_L, RbFrame.color_L, RbFrame.fill_L, ptr_node] at *
                subst hPc
                obtain ⟨hT1, hc1, hk1, ha1⟩ := right_rotate_spec (Γ := RbFrame.R cg u g kg :: rest) h
                have hstep : ngx_rbtree_insert_fixup (fuel + 1) m root s x =
                    ngx_rbtree_insert_fixup fuel
                      (ngx_rbtree_left_rotate (setColor (setColor (ngx_rbtree_right_rotate m root s p).1 x Color.black) g Color.red)
                         (ngx_rbtree_right_rotate m root s p).2 s g).1
                      (ngx_rbtree_left_rotate (setColor (setColor (ngx_rbtree_right_rotate m root s p).1 x Color.black) g Color.red)
                         (ngx_rbtree_right_rotate m root s p).2 s g).2 s p := by
                  have l1 := TreeInv.look (Γ := RbFrame.R ct a x k :: RbFrame.R cg u g kg :: rest) hT1
                  have l2 := TreeInv.look (Γ := RbFrame.R cg u g kg :: rest) hT1
                  simp only [parOf_cons, RbFrame.id_R, parOK_some] at l1 l2
                  rw [ngx_rbtree_insert_fixup]
                  simp [hxr, hpx', hP.2.1, hpp, hrg, hG.2.2.2.1, hcu, hP.2.2.2.1, ngx_rbt_black, ngx_rbt_red, l1.2.2.2.2.2.1, l2.2.2.2.2.2.1, hpu]
                rw [hstep]
                generalize ngx_rbtree_right_rotate m root s p = r1 at *
                have h2 := recolor_spec (Γ := RbFrame.R cg u g kg :: rest) Color.black hT1
                have h3 := recolor_spec (Γ := rest) Color.red h2
                obtain ⟨hT4, hc4, hk4, ha4⟩ := left_rotate_spec (Γ := rest) h3
                generalize ngx_rbtree_left_rotate (setColor (setColor r1.1 x Color.black) g Color.red) r1.2 s g = r4 at *
                refine ⟨r4.1, r4.2, ?_, ?_, ?_, ?_⟩
                · have l1 := TreeInv.look (Γ := RbFrame.R Color.black (node Color.red u g kg a) x k :: rest) hT4
                  have l2 := TreeInv.look (Γ := rest) hT4
                  simp only [parOf_cons, RbFrame.id_R, parOK_some] at l1 l2
                  cases fuel with
                  | zero => omega
                  | succ fuel =>
                    simp [ngx_rbtree_insert_fixup, l1.2.2.2.2.2.1, l2.2.1]
                · simpa [insFix, hu] using hT4
                · rw [hk4]; simpa using hk1
                · rw [hc4]
                  simp [Function.update_apply, Ne.symm hG.1, Ne.symm hxs, hc1, hs]
              | R cp pl p kp =>
                simp only [RbFrame.id_R, RbFrame.color_R, RbFrame.fill_R, ptr_node] at *
                subst hPc
                have hxpl : x ≠ pl.ptr s := fun e =>
                  absurd (TreeInv.children_ne (Γ := RbFrame.R cg u g kg :: rest) h e.symm).2 (by simp)
                have h2 := recolor_spec (Γ := RbFrame.R cg u g kg :: rest) Color.black h
                have h3 := recolor_spec (Γ := rest) Color.red h2
                obtain ⟨hT4, hc4, hk4, ha4⟩ := left_rotate_spec (Γ := rest) h3
                have hstep : ngx_rbtree_insert_fixup (fuel + 1) m root s x =
                    ngx_rbtree_insert_fixup fuel
                      (ngx_rbtree_left_rotate (setColor (setColor m p Color.black) g Color.red) root s g).1
                      (ngx_rbtree_left_rotate (setColor (setColor m p Color.black) g Color.red) root s g).2
                      s x := by
                  rw [ngx_rbtree_insert_fixup]
                  simp [hxr, hpx', hP.2.1, hpp, hrg, hG.2.2.2.1, hcu, hP.2.2.2.1, ngx_rbt_black, ngx_rbt_red, hxpl, hpu]
                rw [hstep]
                generalize ngx_rbtree_left_rotate (setColor (setColor m p Color.black) g Color.red) root s g = r4 at *
                refine ⟨r4.1, r4.2, ?_, ?_, ?_, ?_⟩
                · have l1 := TreeInv.look (Γ := RbFrame.R Color.black (node Color.red u g kg pl) p kp :: rest) hT4
                  have l2 := TreeInv.look (Γ := rest) hT4
                  simp only [parOf_cons, RbFrame.id_R, parOK_some] at l1 l2
                  cases fuel with
                  | zero => omega
                  | succ fuel =>
                    simp [ngx_rbtree_insert_fixup, l1.2.2.2.2.2.1, l2.2.1]
                · simpa [insFix, hu] using hT4
                · rw [hk4]; rfl
                · rw [hc4]
                  simp [Function.update_apply, Ne.symm hG.1, Ne.symm hP.1, hs]
        · refine ⟨m, root, ?_, ?_, rfl, hs⟩
          · simp [ngx_rbtree_insert_fixup, hpx', hP.2.1, hPc]
          · simpa [insFix, hPc] using h

theorem insFix_ids (fs : List RbFrame) (t : RbTree) :
    (insFix fs t).ids = (plug fs t).ids := by
  induction fs, t using insFix.induct <;>
    simp_all [insFix, ids_plug, RbFrame.fill, ctxL, ctxR]

theorem insFix_keys (fs : List RbFrame) (t : RbTree) :
    (insFix fs t).keys = (plug fs t).keys := by
  induction fs, t using insFix.induct <;>
    simp_all [insFix, keys_plug, RbFrame.fill, ctxLK, ctxRK]

theorem Color.ne_red_iff (c : Color) : ¬ c = Color.red ↔ c = Color.black := by
  cases c <;> simp

theorem Color.ne_black_iff (c : Color) : ¬ c = Color.black ↔ c = Color.red := by
  cases c <;> simp

theorem bheight_plug_congr (fs : List RbFrame) (t t' : RbTree) (h : t.bheight = t'.bheight) :
    (plug fs t).bheight = (plug fs t').bheight := by
  induction fs generalizing t t' with
  | nil => simpa using h
  | cons f fs ih =>
    cases f <;> simp only [plug_cons, RbFrame.fill_L, RbFrame.fill_R] <;> apply ih <;> simp [h]

theorem Balanced_plug (fs : List RbFrame) (t : RbTree) :
    (plug fs t).Balanced ↔ ctxBal fs t.bheight ∧ t.Balanced := by
  induction fs generalizing t with
  | nil => simp
  | cons f fs ih =>
    cases f with
    | L c x k r =>
      simp only [plug_cons, RbFrame.fill_L, ih, ctxBal_L, Balanced_node, bheight_node]
      constructor
      · rintro ⟨h1, h2, h3, h4⟩; exact ⟨⟨h3, h4.symm, h1⟩, h2⟩
      · rintro ⟨⟨h3, h4, h1⟩, h2⟩; exact ⟨h1, h2, h3, h4.symm⟩
    | R c l x k =>
      simp only [plug_cons, RbFrame.fill_R, ih, ctxBal_R, Balanced_node, bheight_node]
      constructor
      · rintro ⟨h1, h2, h3, h4⟩; exact ⟨⟨h2, h4, by rw [← h4]; exact h1⟩, h3⟩
      · rintro ⟨⟨h2, h4, h1⟩, h3⟩; exact ⟨by rw [h4]; exact h1, h2, h3, h4⟩

theorem NoRedRed_plug (fs : List RbFrame) (t : RbTree) :
    (plug fs t).NoRedRed ↔ ctxNoRR fs t.rootColor ∧ t.NoRedRed := by
  induction fs generalizing t with
  | nil => simp
  | cons f fs ih =>
    cases f with
    | L c x k r =>
      simp only [plug_cons, RbFrame.fill_L, ih, ctxNoRR_L, NoRedRed_node, rootColor_node]
      tauto
    | R c l x k =>
      simp only [plug_cons, RbFrame.fill_R, ih, ctxNoRR_R, NoRedRed_node, rootColor_node]
      tauto

theorem rootColor_plug (fs : List RbFrame) (t : RbTree) :
    (plug fs t).rootColor = topColor fs t.rootColor := by
  induction fs generalizing t with
  | nil => rfl
  | cons f fs ih => cases f <;> simp [ih]

theorem RbTree.NoRedRed_setBlack {t : RbTree} (h : t.NoRedRed) : t.setBlack.NoRedRed := by
  cases t with
  | nil => trivial
  | node c l x k r => simp only [NoRedRed_node, setBlack_node] at h ⊢; simp [h.1, h.2.1]

theorem ctxNoRR_weaken (fs : List RbFrame) (c : Color) (h : ctxNoRR fs c) :
    ctxNoRR fs Color.black := by
  cases fs with
  | nil => trivial
  | cons f fs => cases f <;> simp only [ctxNoRR_L, ctxNoRR_R] at h ⊢ <;> tauto

theorem insFix_rb (fs : List RbFrame) (t : RbTree) (h : InsInv fs t) :
    (insFix fs t).Balanced ∧ (insFix fs t).setBlack.NoRedRed := by
  induction fs, t using insFix.induct with
  | case1 t =>
    obtain ⟨h1, h2, h3, h4, h5, h6⟩ := h
    simp only [insFix]
    exact ⟨h3, RbTree.NoRedRed_setBlack h2⟩
  | case2 P t =>
    obtain ⟨h1, h2, h3, h4, h5, h6⟩ := h
    have hP : P.color = Color.black := by simpa using h6
    simp only [insFix]
    refine ⟨(Balanced_plug _ _).2 ⟨h4, h3⟩, RbTree.NoRedRed_setBlack ((NoRedRed_plug _ _).2 ⟨?_, h2⟩)⟩
    cases P <;> simp_all
  | case3 P rest t hP c g kg u hu ih =>
    obtain ⟨h1, h2, h3, h4, h5, h6⟩ := h
    simp only [insFix, hP, hu, if_true]
    apply ih
    have hc : c = Color.black := by
      cases P <;> simp only [RbFrame.color_L, RbFrame.color_R] at hP <;> subst hP <;>
        simp only [ctxNoRR_L, ctxNoRR_R] at h5 <;> cases c <;> simp_all
    subst hc
    have h7 : rest ≠ [] → topColor rest Color.black = Color.black := fun hr => by
      simpa using h6 (by simp)
    cases u with
    | nil => simp at hu
    | node cu ul ux uk ur =>
      simp only [rootColor_node] at hu
      subst hu
      cases P with
      | L cp p kp pr =>
        simp only [RbFrame.color_L] at hP
        subst hP
        simp only [InsInv, ctxBal_L, ctxNoRR_L, topColor_cons, RbFrame.color_L, RbFrame.fill_L,
          setBlack_node, rootColor_node, NoRedRed_node, Balanced_node, bheight_node] at *
        simp_all
        omega
      | R cp pl p kp =>
        simp only [RbFrame.color_R] at hP
        subst hP
        simp only [InsInv, ctxBal_L, ctxBal_R, ctxNoRR_L, ctxNoRR_R, topColor_cons, RbFrame.color_L, RbFrame.color_R, RbFrame.fill_R,
          setBlack_node, rootColor_node, NoRedRed_node, Balanced_node, bheight_node] at *
        simp_all
        omega
  | case4 rest c g kg u hu cp pl p kp ct a x k b hP =>
    obtain ⟨h1, h2, h3, h4, h5, h6⟩ := h
    simp only [RbFrame.color_R] at hP
    subst hP
    have hc : c = Color.black := by
      simp only [ctxNoRR_L, ctxNoRR_R] at h5; cases c <;> simp_all
    subst hc
    have h7 : rest ≠ [] → topColor rest Color.black = Color.black := fun hr => by
      simpa using h6 (by simp)
    have hu' := (Color.ne_red_iff _).1 hu
    simp only [insFix, hu, if_false, RbFrame.color_R, if_true]
    refine ⟨(Balanced_plug _ _).2 ?_, RbTree.NoRedRed_setBlack ((NoRedRed_plug _ _).2 ?_)⟩
    · simp only [InsInv, ctxBal_L, ctxBal_R, ctxNoRR_L, ctxNoRR_R, topColor_cons, RbFrame.color_L, RbFrame.color_R, RbFrame.fill_R,
          setBlack_node, rootColor_node, NoRedRed_node, Balanced_node, bheight_node] at *
      subst h1
      simp_all
    · simp only [InsInv, ctxBal_L, ctxBal_R, ctxNoRR_L, ctxNoRR_R, topColor_cons, RbFrame.color_L, RbFrame.color_R, RbFrame.fill_R,
          setBlack_node, rootColor_node, NoRedRed_node, Balanced_node, bheight_node] at *
      subst h1
      simp_all
  | case5 rest c g kg u hu cp p kp pr t hP =>
    obtain ⟨h1, h2, h3, h4, h5, h6⟩ := h
    simp only [RbFrame.color_L] at hP
    subst hP
    have hc : c = Color.black := by
      simp only [ctxNoRR_L, ctxNoRR_R] at h5; cases c <;> simp_all
    subst hc
    have h7 : rest ≠ [] → topColor rest Color.black = Color.black := fun hr => by
      simpa using h6 (by simp)
    have hu' := (Color.ne_red_iff _).1 hu
    simp only [insFix, hu, if_false, RbFrame.color_L, if_true]
    refine ⟨(Balanced_plug _ _).2 ?_, RbTree.NoRedRed_setBlack ((NoRedRed_plug _ _).2 ?_)⟩
    · simp only [InsInv, ctxBal_L, ctxBal_R, ctxNoRR_L, ctxNoRR_R, topColor_cons, RbFrame.color_L, RbFrame.color_R, RbFrame.fill_R,
          setBlack_node, rootColor_node, NoRedRed_node, Balanced_node, bheight_node] at *
      simp_all
    · simp only [InsInv, ctxBal_L, ctxBal_R, ctxNoRR_L, ctxNoRR_R, topColor_cons, RbFrame.color_L, RbFrame.color_R, RbFrame.fill_R,
          setBlack_node, rootColor_node, NoRedRed_node, Balanced_node, bheight_node] at *
      simp_all
  | case6 P rest t hP c g kg u hu hnL hnR =>
    exfalso
    obtain ⟨h1, h2, h3, h4, h5, h6⟩ := h
    cases P with
    | L cp p kp pr => exact hnL _ _ _ _ rfl
    | R cp pl p kp =>
      cases t with
      | nil => simp at h1
      | node ct a x k b => exact hnR _ _ _ _ _ _ _ _ _ rfl rfl
  | case7 P rest t hP c u g kg hu ih =>
    obtain ⟨h1, h2, h3, h4, h5, h6⟩ := h
    simp only [insFix, hP, hu, if_true]
    apply ih
    have hc : c = Color.black := by
      cases P <;> simp only [RbFrame.color_L, RbFrame.color_R] at hP <;> subst hP <;>
        simp only [ctxNoRR_L, ctxNoRR_R] at h5 <;> cases c <;> simp_all
    subst hc
    have h7 : rest ≠ [] → topColor rest Color.black = Color.black := fun hr => by
      simpa using h6 (by simp)
    cases u with
    | nil => simp at hu
    | node cu ul ux uk ur =>
      simp only [rootColor_node] at hu
      subst hu
      cases P with
      | L cp p kp pr =>
        simp only [RbFrame.color_L] at hP
        subst hP
        simp only [InsInv, ctxBal_L, ctxBal_R, ctxNoRR_L, ctxNoRR_R, topColor_cons, RbFrame.color_L, RbFrame.color_R, RbFrame.fill_L,
          setBlack_node, rootColor_node, NoRedRed_node, Balanced_node, bheight_node] at *
        simp_all
        obtain ⟨-, -, ⟨-, -, e1⟩, e2, hcb⟩ := h4
        have e3 : ur.bheight = t.bheight := by omega
        rw [e3]
        exact ⟨rfl, hcb⟩
      | R cp pl p kp =>
        simp only [RbFrame.color_R] at hP
        subst hP
        simp only [InsInv, ctxBal_L, ctxBal_R, ctxNoRR_L, ctxNoRR_R, topColor_cons, RbFrame.color_L, RbFrame.color_R, RbFrame.fill_R,
          setBlack_node, rootColor_node, NoRedRed_node, Balanced_node, bheight_node] at *
        simp_all
        obtain ⟨-, -, ⟨-, -, e1⟩, e2, hcb⟩ := h4
        have e3 : ur.bheight = t.bheight := by omega
        rw [e3]
        exact ⟨rfl, hcb⟩
  | case8 rest c u g kg hu cp p kp pr ct a x k b hP =>
    obtain ⟨h1, h2, h3, h4, h5, h6⟩ := h
    simp only [RbFrame.color_L] at hP
    subst hP
    have hc : c = Color.black := by
      simp only [ctxNoRR_L, ctxNoRR_R] at h5; cases c <;> simp_all
    subst hc
    have h7 : rest ≠ [] → topColor rest Color.black = Color.black := fun hr => by
      simpa using h6 (by simp)
    have hu' := (Color.ne_red_iff _).1 hu
    simp only [insFix, hu, if_false, RbFrame.color_L, if_true]
    refine ⟨(Balanced_plug _ _).2 ?_, RbTree.NoRedRed_setBlack ((NoRedRed_plug _ _).2 ?_)⟩
    · simp only [InsInv, ctxBal_L, ctxBal_R, ctxNoRR_L, ctxNoRR_R, topColor_cons, RbFrame.color_L, RbFrame.color_R, RbFrame.fill_R,
          setBlack_node, rootColor_node, NoRedRed_node, Balanced_node, bheight_node] at *
      subst h1
      simp_all
    · simp only [InsInv, ctxBal_L, ctxBal_R, ctxNoRR_L, ctxNoRR_R, topColor_cons, RbFrame.color_L, RbFrame.color_R, RbFrame.fill_R,
          setBlack_node, rootColor_node, NoRedRed_node, Balanced_node, bheight_node] at *
      subst h1
      simp_all
  | case9 rest c u g kg hu cp pl p kp t hP =>
    obtain ⟨h1, h2, h3, h4, h5, h6⟩ := h
    simp only [RbFrame.color_R] at hP
    subst hP
    have hc : c = Color.black := by
      simp only [ctxNoRR_L, ctxNoRR_R] at h5; cases c <;> simp_all
    subst hc
    have h7 : rest ≠ [] → topColor rest Color.black = Color.black := fun hr => by
      simpa using h6 (by simp)
    have hu' := (Color.ne_red_iff _).1 hu
    simp only [insFix, hu, if_false, RbFrame.color_R, if_true]
    refine ⟨(Balanced_plug _ _).2 ?_, RbTree.NoRedRed_setBlack ((NoRedRed_plug _ _).2 ?_)⟩
    · simp only [InsInv, ctxBal_L, ctxBal_R, ctxNoRR_L, ctxNoRR_R, topColor_cons, RbFrame.color_L, RbFrame.color_R, RbFrame.fill_R,
          setBlack_node, rootColor_node, NoRedRed_node, Balanced_node, bheight_node] at *
      simp_all
    · simp only [InsInv, ctxBal_L, ctxBal_R, ctxNoRR_L, ctxNoRR_R, topColor_cons, RbFrame.color_L, RbFrame.color_R, RbFrame.fill_R,
          setBlack_node, rootColor_node, NoRedRed_node, Balanced_node, bheight_node] at *
      simp_all
  | case10 P rest t hP c u g kg hu hnR hnL =>
    exfalso
    obtain ⟨h1, h2, h3, h4, h5, h6⟩ := h
    cases P with
    | R cp pl p kp => exact hnR _ _ _ _ rfl
    | L cp p kp pr =>
      cases t with
      | nil => simp at h1
      | node ct a x k b => exact hnL _ _ _ _ _ _ _ _ _ rfl rfl
  | case11 P G rest t hP =>
    obtain ⟨h1, h2, h3, h4, h5, h6⟩ := h
    have hP' := (Color.ne_red_iff _).1 hP
    simp only [insFix, hP, if_false]
    refine ⟨(Balanced_plug _ _).2 ⟨h4, h3⟩, RbTree.NoRedRed_setBlack ((NoRedRed_plug _ _).2 ⟨?_, h2⟩)⟩
    cases P <;> simp_all

theorem insPath_length (k : Nat) (t : RbTree) (fs : List RbFrame) :
    (insPath k t fs).length ≤ t.height + fs.length := by
  induction t generalizing fs with
  | nil => simp [insPath, RbTree.height]
  | node c l x kx r ihl ihr =>
    unfold insPath
    split
    · have := ihl (RbFrame.L c x kx r :: fs)
      simp only [List.length_cons, RbTree.height] at this ⊢
      have := le_max_left l.height r.height
      omega
    · have := ihr (RbFrame.R c l x kx :: fs)
      simp only [List.length_cons, RbTree.height] at this ⊢
      have := le_max_right l.height r.height
      omega

theorem insInv_init (k n : Nat) (t : RbTree) (h : RBInv t) :
    InsInv (insPath k t []) (node Color.red nil n k nil) := by
  obtain ⟨h1, h2, h3⟩ := h
  have e := plug_insPath k t []
  simp only [plug_nil] at e
  rw [← e] at h1 h2 h3
  rw [rootColor_plug] at h1
  rw [NoRedRed_plug] at h2
  rw [Balanced_plug] at h3
  exact ⟨rfl, by simp, by simp, by simpa using h3.1, by simpa using h2.1, fun _ => by simpa using h1⟩

theorem insTree_rb (t : RbTree) (n k : Nat) (h : RBInv t) : RBInv (insTree t n k) := by
  cases t with
  | nil => simp [insTree, RBInv]
  | node c l x kx r =>
    have := insFix_rb _ _ (insInv_init k n _ h)
    exact ⟨by simp [insTree], this.2, by simpa [insTree] using this.1⟩

theorem insTree_ids (t : RbTree) (n k : Nat) :
    (insTree t n k).ids = ctxL (insPath k t []) ++ n :: ctxR (insPath k t []) := by
  cases t with
  | nil => simp [insTree, insPath, ctxL, ctxR]
  | node c l x kx r => simp [insTree, insFix_ids, ids_plug]

theorem insTree_keys (t : RbTree) (n k : Nat) :
    (insTree t n k).keys = ctxLK (insPath k t []) ++ k :: ctxRK (insPath k t []) := by
  cases t with
  | nil => simp [insTree, insPath, ctxLK, ctxRK]
  | node c l x kx r => simp [insTree, insFix_keys, keys_plug]

theorem ids_insPath (k : Nat) (t : RbTree) :
    t.ids = ctxL (insPath k t []) ++ ctxR (insPath k t []) := by
  have := congrArg RbTree.ids (plug_insPath k t [])
  rw [ids_plug] at this
  simpa using this.symm

theorem keys_insPath (k : Nat) (t : RbTree) :
    t.keys = ctxLK (insPath k t []) ++ ctxRK (insPath k t []) := by
  have := congrArg RbTree.keys (plug_insPath k t [])
  rw [keys_plug] at this
  simpa using this.symm

/-- Painting the root black, as the last statement of `ngx_rbtree_insert` does. -/
theorem setBlack_spec {m : RbHeap} {s root : Nat} {t : RbTree} (h : TreeInv m s root t) :
    TreeInv (ngx_rbt_black m root) s root t.setBlack := by
  cases t with
  | nil =>
    have e : root = s := by simpa using h.root_eq
    subst e
    exact recolor_sentinel _ h (by simp)
  | node c l x k r =>
    have e : root = x := by simpa using h.root_eq
    subst e
    exact recolor_spec (Γ := []) Color.black h

/-- `ngx_rbtree_insert` with `ngx_rbtree_insert_value`, on a stored tree whose root is black,
returns and leaves the tree `insTree` in memory; keys are not written and the sentinel
stays black. -/
theorem ngx_rbtree_insert_spec {m : RbHeap} {tree : ngx_rbtree_t} {t : RbTree} {n : Nat}
    (h : TreeInv m tree.sentinel tree.root t)
    (hins : tree.insert = ngx_rbtree_insert_value)
    (hroot : t.rootColor = Color.black) (hs : m.color tree.sentinel = Color.black)
    (hn : n ∉ t.ids) (hns : n ≠ tree.sentinel) (fuel : Nat) (hfuel : t.height + 1 ≤ fuel) :
    ∃ m' root', ngx_rbtree_insert fuel m tree n = some (m', { tree with root := root' }) ∧
      TreeInv m' tree.sentinel root' (insTree t n (m.key n)) ∧ m'.key = m.key ∧
      m'.color tree.sentinel = Color.black := by
  obtain ⟨root, s, ins⟩ := tree
  simp only at h hins hs hns ⊢
  subst hins
  cases t with
  | nil =>
    have e : root = s := by simpa using h.root_eq
    subst e
    refine ⟨ngx_rbt_black (setRight (setLeft (setParent m n NULL) n root) n root) n, n,
      by simp [ngx_rbtree_insert], ⟨?_, rfl, by simp [insTree]⟩, rfl, ?_⟩
    · simp [insTree, ngx_rbt_black, hns]
    · simp [ngx_rbt_black, Function.update_apply, Ne.symm hns, hs]
  | node c l x kx r =>
    have e : root = x := by simpa using h.root_eq
    subst e
    have hxs : root ≠ s := (TreeInv.look (Γ := []) h).1
    obtain ⟨m1, e1, hT1, hk1, ha1⟩ := insert_value_spec hns (node c l root kx r) [] m h (by simp)
      hn fuel (by simp only [RbTree.height] at hfuel ⊢; omega)
    have hlen := insPath_length (m.key n) (node c l root kx r) []
    simp only [List.length_nil, Nat.add_zero] at hlen
    have htop : insPath (m.key n) (node c l root kx r) [] ≠ [] →
        topColor (insPath (m.key n) (node c l root kx r) []) Color.black = Color.black := by
      intro _
      have := rootColor_plug (insPath (m.key n) (node c l root kx r) []) nil
      rw [plug_insPath] at this
      simpa [hroot] using this.symm
    obtain ⟨m2, root2, e2, hT2, hk2, hs2⟩ := insert_fixup_spec _ _ rfl _ _ _ _ _ m1 root hT1 htop
      (by rw [ha1.2.2.2.2]; exact hs) fuel (by omega)
    refine ⟨ngx_rbt_black m2 root2, root2, ?_, ?_, ?_, ?_⟩
    · simp only [ptr_node] at e1
      simp [ngx_rbtree_insert, hxs, e1, e2]
    · simpa [insTree] using setBlack_spec hT2
    · simp [ngx_rbt_black, hk2, hk1]
    · simp [ngx_rbt_black, Function.update_apply, hs2]

theorem plug_append (a b : List RbFrame) (t : RbTree) :
    plug (a ++ b) t = plug b (plug a t) := by
  induction a generalizing t with
  | nil => rfl
  | cons f a ih => simp [ih]

theorem plug_minFrames (t : RbTree) : plug (minFrames t) (minNode t) = t := by
  induction t with
  | nil => rfl
  | node c l x k r ihl _ =>
    cases l with
    | nil => rfl
    | node cl ll lx lk lr =>
      simp only [minFrames, minNode, plug_append, ihl]
      rfl

theorem minNode_shape (t : RbTree) (ht : t ≠ nil) :
    ∃ c y ky r2, minNode t = node c nil y ky r2 := by
  induction t with
  | nil => exact absurd rfl ht
  | node c l x k r ihl _ =>
    cases l with
    | nil => exact ⟨c, x, k, r, rfl⟩
    | node cl ll lx lk lr => simpa [minNode] using ihl (by simp)

theorem minFrames_length (t : RbTree) : (minFrames t).length + 1 ≤ t.height + 1 := by
  induction t with
  | nil => simp [minFrames]
  | node c l x k r ihl _ =>
    cases l with
    | nil => simp [minFrames]
    | node cl ll lx lk lr =>
      simp only [minFrames, List.length_append, List.length_singleton, RbTree.height] at ihl ⊢
      have := le_max_left (max ll.height lr.height + 1) r.height
      omega

/-- `ngx_rbtree_min` returns the leftmost node of a stored non-empty subtree. -/
theorem ngx_rbtree_min_spec {s root : Nat} (t : RbTree) :
    ∀ (fs : List RbFrame) (m : RbHeap), TreeInv m s root (plug fs t) → t ≠ nil →
      ∀ fuel, t.height ≤ fuel →
      ngx_rbtree_min fuel m (t.ptr s) s = some ((minNode t).ptr s) := by
  induction t with
  | nil => intro fs m _ ht; exact absurd rfl ht
  | node c l x k r ihl _ =>
    intro fs m h _ fuel hfuel
    obtain ⟨hxs, hcx, hkx, hlx, hrx, hpx, hxroot⟩ := h.look
    cases fuel with
    | zero => simp [RbTree.height] at hfuel
    | succ fuel =>
      simp only [RbTree.height, Nat.add_le_add_iff_right] at hfuel
      cases l with
      | nil => simp [ngx_rbtree_min, hlx, minNode]
      | node cl ll lx lk lr =>
        have hl := ihl (RbFrame.L c x k r :: fs) m h (by simp) fuel
          (le_trans (le_max_left _ _) hfuel)
        have hlxs : lx ≠ s := (TreeInv.look (Γ := RbFrame.L c x k r :: fs) h).1
        simp only [ptr_node] at hl hlx
        simp [ngx_rbtree_min, hlx, hlxs, hl, minNode]

theorem transplant_spec {m : RbHeap} {s root : Nat} {F : RbFrame} {gs : List RbFrame}
    {c2 : Color} {A B T : RbTree} {y ky : Nat} (v : Nat)
    (h : TreeInv m s root (plug (F :: gs) (node c2 A y ky B)))
    (hT : (T = A ∧ B = nil) ∨ (T = B ∧ A = nil)) :
    RepC (transplantM m y (T.ptr s) v) s (F :: gs) (T.ptr s) ∧
    RepT (transplantM m y (T.ptr s) v) s T (some v) ∧
    (transplantM m y (T.ptr s) v).parent (T.ptr s) = v ∧
    (∀ q, q ∉ [F.id, T.ptr s] → AgreeAt m (transplantM m y (T.ptr s) v) q) ∧
    (transplantM m y (T.ptr s) v).key = m.key ∧
    (transplantM m y (T.ptr s) v).color = m.color := by
  have hbl := h.blocks
  obtain ⟨hrep, hroot, hnd⟩ := h
  rw [RepT_plug] at hrep
  obtain ⟨hC, hN⟩ := hrep
  simp only [RepT_node, ptr_node, parOf_cons, parOK_some] at hN hC
  obtain ⟨hys, hcy, hky, hpy, hly, hry, hRA, hRB⟩ := hN
  have hRT : RepT m s T (some y) := by
    rcases hT with ⟨rfl, -⟩ | ⟨rfl, -⟩
    · exact hRA
    · exact hRB
  have hB : [[s], F.ids, idsC gs, T.ids, [y]].flatten.Nodup := by
    rcases hT with ⟨rfl, rfl⟩ | ⟨rfl, rfl⟩
    · simpa using hbl
    · have hB' : [[s], F.ids, idsC gs, [y], T.ids].flatten.Nodup := by simpa using hbl
      exact (List.Perm.flatten (List.Perm.cons _ (List.Perm.cons _ (List.Perm.cons _
        (List.Perm.swap _ _ _))))).nodup_iff.1 hB'
  clear hbl hRA hRB hly hry hT
  have hfootG : ∀ z, m.parent y = z →
      ∀ q, q ∉ [z, T.ptr s] → AgreeAt m (transplantM m y (T.ptr s) v) q := by
    intro z hz q hq
    simp only [List.mem_cons, not_or, List.mem_singleton, List.not_mem_nil,
      not_false_eq_true, and_true] at hq
    unfold transplantM
    split <;> simp [AgreeAt, Function.update_apply, hq, hz]
  have hkc : (transplantM m y (T.ptr s) v).key = m.key ∧
      (transplantM m y (T.ptr s) v).color = m.color := by
    unfold transplantM
    split <;> exact ⟨rfl, rfl⟩
  have hpar : (transplantM m y (T.ptr s) v).parent (T.ptr s) = v := by
    unfold transplantM
    split <;> simp
  cases F with
  | L cz z kz w =>
    simp only [RepC_L, RbFrame.id_L] at hC hpy ⊢
    obtain ⟨hzs, hcz, hkz, hpz, hlz, hrz, hRw, hCz⟩ := hC
    have hfoot := hfootG z hpy
    have e : transplantM m y (T.ptr s) v = setParent (setLeft m z (T.ptr s)) (T.ptr s) v := by
      simp [transplantM, hpy, hlz]
    refine ⟨?_, ?_, hpar, hfoot, hkc.1, hkc.2⟩
    · cases T with
      | nil =>
        have hB2 : [[s], [z], w.ids, idsC gs, [y]].flatten.Nodup := by simpa using hB
        have Fw := RepT_frame _ hfoot (blocks_disj hB2 2 [1, 0] (by decide)) hRw
        have Fc := RepC_frame _ hfoot (blocks_disj hB2 3 [1, 0] (by decide)) hCz
        simp only [ptr_nil] at e Fw Fc ⊢
        rw [e] at Fw Fc ⊢
        simp [Function.update_apply, *, Ne.symm hzs] at Fw Fc ⊢
      | node ct tl tx tk tr =>
        have hB2 : [[s], [z], w.ids, idsC gs, tl.ids, [tx], tr.ids, [y]].flatten.Nodup := by
          simpa using hB
        have Fw := RepT_frame _ hfoot (blocks_disj hB2 2 [1, 5] (by decide)) hRw
        have Fc := RepC_frame _ hfoot (blocks_disj hB2 3 [1, 5] (by decide)) hCz
        have hzt : z ≠ tx := blocks_ne hB2 1 5 (by decide) (by simp) (by simp)
        simp only [ptr_node] at e Fw Fc ⊢
        rw [e] at Fw Fc ⊢
        simp [Function.update_apply, *, Ne.symm hzt] at Fw Fc ⊢
    · cases T with
      | nil => simp
      | node ct tl tx tk tr =>
        have hB2 : [[s], [z], w.ids, idsC gs, tl.ids, [tx], tr.ids, [y]].flatten.Nodup := by
          simpa using hB
        simp only [RepT_node] at hRT
        obtain ⟨h1, h2, h3, h4, h5, h6, h7, h8⟩ := hRT
        have Fl := RepT_frame _ hfoot (blocks_disj hB2 4 [1, 5] (by decide)) h7
        have Fr := RepT_frame _ hfoot (blocks_disj hB2 6 [1, 5] (by decide)) h8
        have hzt : z ≠ tx := blocks_ne hB2 1 5 (by decide) (by simp) (by simp)
        simp only [ptr_node] at e Fl Fr ⊢
        rw [e] at Fl Fr ⊢
        simp [Function.update_apply, *, Ne.symm hzt] at Fl Fr ⊢
  | R cz w z kz =>
    simp only [RepC_R, RbFrame.id_R] at hC hpy ⊢
    obtain ⟨hzs, hcz, hkz, hpz, hlz, hrz, hRw, hCz⟩ := hC
    have hfoot := hfootG z hpy
    have hyw : y ≠ w.ptr s := by
      rcases w.ptr_mem s with e | e
      · rw [e]; exact hys
      · exact blocks_ne hB 4 1 (by decide) (by simp) (by simp [e])
    have e : transplantM m y (T.ptr s) v = setParent (setRight m z (T.ptr s)) (T.ptr s) v := by
      simp [transplantM, hpy, hlz, hyw]
    refine ⟨?_, ?_, hpar, hfoot, hkc.1, hkc.2⟩
    · cases T with
      | nil =>
        have hB2 : [[s], [z], w.ids, idsC gs, [y]].flatten.Nodup := by simpa using hB
        have Fw := RepT_frame _ hfoot (blocks_disj hB2 2 [1, 0] (by decide)) hRw
        have Fc := RepC_frame _ hfoot (blocks_disj hB2 3 [1, 0] (by decide)) hCz
        simp only [ptr_nil] at e Fw Fc ⊢
        rw [e] at Fw Fc ⊢
        simp [Function.update_apply, *, Ne.symm hzs] at Fw Fc ⊢
      | node ct tl tx tk tr =>
        have hB2 : [[s], [z], w.ids, idsC gs, tl.ids, [tx], tr.ids, [y]].flatten.Nodup := by
          simpa using hB
        have Fw := RepT_frame _ hfoot (blocks_disj hB2 2 [1, 5] (by decide)) hRw
        have Fc := RepC_frame _ hfoot (blocks_disj hB2 3 [1, 5] (by decide)) hCz
        have hzt : z ≠ tx := blocks_ne hB2 1 5 (by decide) (by simp) (by simp)
        simp only [ptr_node] at e Fw Fc ⊢
        rw [e] at Fw Fc ⊢
        simp [Function.update_apply, *, Ne.symm hzt] at Fw Fc ⊢
    · cases T with
      | nil => simp
      | node ct tl tx tk tr =>
        have hB2 : [[s], [z], w.ids, idsC gs, tl.ids, [tx], tr.ids, [y]].flatten.Nodup := by
          simpa using hB
        simp only [RepT_node] at hRT
        obtain ⟨h1, h2, h3, h4, h5, h6, h7, h8⟩ := hRT
        have Fl := RepT_frame _ hfoot (blocks_disj hB2 4 [1, 5] (by decide)) h7
        have Fr := RepT_frame _ hfoot (blocks_disj hB2 6 [1, 5] (by decide)) h8
        have hzt : z ≠ tx := blocks_ne hB2 1 5 (by decide) (by simp) (by simp)
        simp only [ptr_node] at e Fl Fr ⊢
        rw [e] at Fl Fr ⊢
        simp [Function.update_apply, *, Ne.symm hzt] at Fl Fr ⊢

theorem subst_spec {m : RbHeap} {s root : Nat} {fs : List RbFrame} {c : Color}
    {l r' : RbTree} {x y : Nat} {par' : Option Nat}
    (hC : RepC m s fs x) (hroot : root = topId fs x) (hxs : x ≠ s) (hcx : m.color x = c)
    (hpx : parOK (parOf fs) (m.parent x)) (hlx : m.left x = l.ptr s)
    (hrx : m.right x = r'.ptr s) (hl : RepT m s l (some x)) (hr : RepT m s r' par')
    (hB : [[s], idsC fs, l.ids, [x], r'.ids, [y]].flatten.Nodup) :
    TreeInv (substM m root s x y).1 s (substM m root s x y).2
      (plug fs (node c l y (m.key y) r')) ∧
    (substM m root s x y).1.key = m.key ∧
    AgreeAt m (substM m root s x y).1 s ∧ AgreeAt m (substM m root s x y).1 x := by
  have hys : y ≠ s := blocks_ne hB 5 0 (by decide) (by simp) (by simp)
  have hxy : x ≠ y := blocks_ne hB 3 5 (by decide) (by simp) (by simp)
  have hnd2 : (plug fs (node c l y (m.key y) r')).ids.Nodup := by
    rw [(ids_plug_perm _ _).nodup_iff]
    have h1 : [idsC fs, l.ids, r'.ids, [y]].flatten.Nodup := by
      have := hB
      simp only [List.flatten_cons, List.flatten_nil, List.append_nil, List.singleton_append,
        List.nodup_cons, List.nodup_append, List.mem_append, List.mem_cons, not_or,
        List.disjoint_append_right, List.disjoint_append_left, List.disjoint_cons_right,
        List.disjoint_cons_left, List.mem_singleton, List.disjoint_singleton,
        List.nodup_nil, List.not_mem_nil, not_false_eq_true, and_true, true_and] at this ⊢
      tauto
    have h2 : [idsC fs, l.ids, [y], r'.ids].flatten.Nodup :=
      (List.Perm.flatten (List.Perm.cons _ (List.Perm.cons _
        (List.Perm.swap _ _ _)))).nodup_iff.1 h1
    simpa using h2
  cases fs with
  | nil =>
    simp only [topId_nil, parOf_nil, idsC_nil] at hroot hpx hB
    cases l with
    | nil =>
      simp only [ptr_nil, ids_nil] at hlx hB
      cases r' with
      | nil =>
        simp only [ptr_nil, ids_nil] at hrx hB
        have hB2 : [[s], [x], [y]].flatten.Nodup := by
          simpa using hB
        have hn_x_y : x ≠ y := blocks_ne hB2 1 2 (by decide) (by simp) (by simp)
        have e : substM m root s x y = (setColor (setParent (setRight (setLeft m y s) y s) y (m.parent x)) y c, y) := by
          simp [substM, ngx_rbt_copy_color, hlx, hrx, hcx, Function.update_apply, hroot, hn_x_y, Ne.symm hn_x_y]
        rw [e]
        have hfoot : ∀ q, q ∉ [y] → AgreeAt m (setColor (setParent (setRight (setLeft m y s) y s) y (m.parent x)) y c) q := by
          intro q hq
          simp only [List.mem_cons, not_or, List.mem_singleton, List.not_mem_nil,
            not_false_eq_true, and_true] at hq
          simp [AgreeAt, Function.update_apply, hq]
        refine ⟨⟨?_, ?_, hnd2⟩, rfl, hfoot s (by simp [Ne.symm hys]), hfoot x (by simp [hn_x_y, Ne.symm hn_x_y])⟩
        · rw [RepT_plug]
          simp only [RepC_nil, RepC_L, RepC_R, RepT_node, RepT_nil, parOf_nil, parOf_cons, RbFrame.id_L, RbFrame.id_R, parOK_none, parOK_some, ptr_node, ptr_nil]
          simp [Function.update_apply, *, hn_x_y, Ne.symm hn_x_y]
        · rw [ptr_plug]; simp [hroot]
      | node cr rl rx rk rr =>
        simp only [ptr_node, ids_node, RepT_node] at hrx hB hr
        obtain ⟨hrxs, hcrx, hkrx, hprx, hlrx, hrrx, hRrl, hRrr⟩ := hr
        have hB2 : [[s], [x], rl.ids, [rx], rr.ids, [y]].flatten.Nodup := by
          simpa using hB
        have hn_x_y : x ≠ y := blocks_ne hB2 1 5 (by decide) (by simp) (by simp)
        have hn_x_rx : x ≠ rx := blocks_ne hB2 1 3 (by decide) (by simp) (by simp)
        have hn_y_rx : y ≠ rx := blocks_ne hB2 5 3 (by decide) (by simp) (by simp)
        have e : substM m root s x y = (setParent (setColor (setParent (setRight (setLeft m y s) y rx) y (m.parent x)) y c) rx y, y) := by
          simp [substM, ngx_rbt_copy_color, hlx, hrx, hcx, Function.update_apply, hroot, hrxs, hn_x_y, hn_x_rx, hn_y_rx, Ne.symm hn_x_y, Ne.symm hn_x_rx, Ne.symm hn_y_rx]
        rw [e]
        have hfoot : ∀ q, q ∉ [y, rx] → AgreeAt m (setParent (setColor (setParent (setRight (setLeft m y s) y rx) y (m.parent x)) y c) rx y) q := by
          intro q hq
          simp only [List.mem_cons, not_or, List.mem_singleton, List.not_mem_nil,
            not_false_eq_true, and_true] at hq
          simp [AgreeAt, Function.update_apply, hq]
        have Frl := RepT_frame _ hfoot (blocks_disj hB2 2 [5, 3] (by decide)) hRrl
        have Frr := RepT_frame _ hfoot (blocks_disj hB2 4 [5, 3] (by decide)) hRrr
        refine ⟨⟨?_, ?_, hnd2⟩, rfl, hfoot s (by simp [Ne.symm hys, Ne.symm hrxs]), hfoot x (by simp [hn_x_y, hn_x_rx, hn_y_rx, Ne.symm hn_x_y, Ne.symm hn_x_rx, Ne.symm hn_y_rx])⟩
        · rw [RepT_plug]
          simp only [RepC_nil, RepC_L, RepC_R, RepT_node, RepT_nil, parOf_nil, parOf_cons, RbFrame.id_L, RbFrame.id_R, parOK_none, parOK_some, ptr_node, ptr_nil]
          simp [Function.update_apply, *, hn_x_y, hn_x_rx, hn_y_rx, Ne.symm hn_x_y, Ne.symm hn_x_rx, Ne.symm hn_y_rx]
        · rw [ptr_plug]; simp [hroot]
    | node cl ll lx lk lr =>
      simp only [ptr_node, ids_node, RepT_node, parOK_some] at hlx hB hl
      obtain ⟨hlxs, hclx, hklx, hplx, hllx, hrlx, hRll, hRlr⟩ := hl
      cases r' with
      | nil =>
        simp only [ptr_nil, ids_nil] at hrx hB
        have hB2 : [[s], ll.ids, [lx], lr.ids, [x], [y]].flatten.Nodup := by
          simpa using hB
        have hn_x_y : x ≠ y := blocks_ne hB2 4 5 (by decide) (by simp) (by simp)
        have hn_x_lx : x ≠ lx := blocks_ne hB2 4 2 (by decide) (by simp) (by simp)
        have hn_y_lx : y ≠ lx := blocks_ne hB2 5 2 (by decide) (by simp) (by simp)
        have e : substM m root s x y = (setParent (setColor (setParent (setRight (setLeft m y lx) y s) y (m.parent x)) y c) lx y, y) := by
          simp [substM, ngx_rbt_copy_color, hlx, hrx, hcx, Function.update_apply, hroot, hlxs, hn_x_y, hn_x_lx, hn_y_lx, Ne.symm hn_x_y, Ne.symm hn_x_lx, Ne.symm hn_y_lx]
        rw [e]
        have hfoot : ∀ q, q ∉ [y, lx] → AgreeAt m (setParent (setColor (setParent (setRight (setLeft m y lx) y s) y (m.parent x)) y c) lx y) q := by
          intro q hq
          simp only [List.mem_cons, not_or, List.mem_singleton, List.not_mem_nil,
            not_false_eq_true, and_true] at hq
          simp [AgreeAt, Function.update_apply, hq]
        have Fll := RepT_frame _ hfoot (blocks_disj hB2 1 [5, 2] (by decide)) hRll
        have Flr := RepT_frame _ hfoot (blocks_disj hB2 3 [5, 2] (by decide)) hRlr
        refine ⟨⟨?_, ?_, hnd2⟩, rfl, hfoot s (by simp [Ne.symm hys, Ne.symm hlxs]), hfoot x (by simp [hn_x_y, hn_x_lx, hn_y_lx, Ne.symm hn_x_y, Ne.symm hn_x_lx, Ne.symm hn_y_lx])⟩
        · rw [RepT_plug]
          simp only [RepC_nil, RepC_L, RepC_R, RepT_node, RepT_nil, parOf_nil, parOf_cons, RbFrame.id_L, RbFrame.id_R, parOK_none, parOK_some, ptr_node, ptr_nil]
          simp [Function.update_apply, *, hn_x_y, hn_x_lx, hn_y_lx, Ne.symm hn_x_y, Ne.symm hn_x_lx, Ne.symm hn_y_lx]
        · rw [ptr_plug]; simp [hroot]
      | node cr rl rx rk rr =>
        simp only [ptr_node, ids_node, RepT_node] at hrx hB hr
        obtain ⟨hrxs, hcrx, hkrx, hprx, hlrx, hrrx, hRrl, hRrr⟩ := hr
        have hB2 : [[s], ll.ids, [lx], lr.ids, [x], rl.ids, [rx], rr.ids, [y]].flatten.Nodup := by
          simpa using hB
        have hn_x_y : x ≠ y := blocks_ne hB2 4 8 (by decide) (by simp) (by simp)
        have hn_x_lx : x ≠ lx := blocks_ne hB2 4 2 (by decide) (by simp) (by simp)
        have hn_x_rx : x ≠ rx := blocks_ne hB2 4 6 (by decide) (by simp) (by simp)
        have hn_y_lx : y ≠ lx := blocks_ne hB2 8 2 (by decide) (by simp) (by simp)
        have hn_y_rx : y ≠ rx := blocks_ne hB2 8 6 (by decide) (by simp) (by simp)
        have hn_lx_rx : lx ≠ rx := blocks_ne hB2 2 6 (by decide) (by simp) (by simp)
        have e : substM m root s x y = (setParent (setParent (setColor (setParent (setRight (setLeft m y lx) y rx) y (m.parent x)) y c) lx y) rx y, y) := by
          simp [substM, ngx_rbt_copy_color, hlx, hrx, hcx, Function.update_apply, hroot, hlxs, hrxs, hn_x_y, hn_x_lx, hn_x_rx, hn_y_lx, hn_y_rx, hn_lx_rx, Ne.symm hn_x_y, Ne.symm hn_x_lx, Ne.symm hn_x_rx, Ne.symm hn_y_lx, Ne.symm hn_y_rx, Ne.symm hn_lx_rx]
        rw [e]
        have hfoot : ∀ q, q ∉ [y, lx, rx] → AgreeAt m (setParent (setParent (setColor (setParent (setRight (setLeft m y lx) y rx) y (m.parent x)) y c) lx y) rx y) q := by
          intro q hq
          simp only [List.mem_cons, not_or, List.mem_singleton, List.not_mem_nil,
            not_false_eq_true, and_true] at hq
          simp [AgreeAt, Function.update_apply, hq]
        have Fll := RepT_frame _ hfoot (blocks_disj hB2 1 [8, 2, 6] (by decide)) hRll
        have Flr := RepT_frame _ hfoot (blocks_disj hB2 3 [8, 2, 6] (by decide)) hRlr
        have Frl := RepT_frame _ hfoot (blocks_disj hB2 5 [8, 2, 6] (by decide)) hRrl
        have Frr := RepT_frame _ hfoot (blocks_disj hB2 7 [8, 2, 6] (by decide)) hRrr
        refine ⟨⟨?_, ?_, hnd2⟩, rfl, hfoot s (by simp [Ne.symm hys, Ne.symm hlxs, Ne.symm hrxs]), hfoot x (by simp [hn_x_y, hn_x_lx, hn_x_rx, hn_y_lx, hn_y_rx, hn_lx_rx, Ne.symm hn_x_y, Ne.symm hn_x_lx, Ne.symm hn_x_rx, Ne.symm hn_y_lx, Ne.symm hn_y_rx, Ne.symm hn_lx_rx])⟩
        · rw [RepT_plug]
          simp only [RepC_nil, RepC_L, RepC_R, RepT_node, RepT_nil, parOf_nil, parOf_cons, RbFrame.id_L, RbFrame.id_R, parOK_none, parOK_some, ptr_node, ptr_nil]
          simp [Function.update_apply, *, hn_x_y, hn_x_lx, hn_x_rx, hn_y_lx, hn_y_rx, hn_lx_rx, Ne.symm hn_x_y, Ne.symm hn_x_lx, Ne.symm hn_x_rx, Ne.symm hn_y_lx, Ne.symm hn_y_rx, Ne.symm hn_lx_rx]
        · rw [ptr_plug]; simp [hroot]
  | cons f gs =>
    cases f with
    | L cz z kz w =>
      simp only [RepC_L, parOf_cons, RbFrame.id_L, parOK_some, topId_cons, idsC_cons, RbFrame.ids_L] at hC hpx hroot hB
      obtain ⟨hzs, hcz, hkz, hpz, hlz, hrz, hRw, hCz⟩ := hC
      cases l with
      | nil =>
        simp only [ptr_nil, ids_nil] at hlx hB
        cases r' with
        | nil =>
          simp only [ptr_nil, ids_nil] at hrx hB
          have hB2 : [[s], [z], w.ids, idsC gs, [x], [y]].flatten.Nodup := by
            simpa using hB
          have hn_x_y : x ≠ y := blocks_ne hB2 4 5 (by decide) (by simp) (by simp)
          have hn_x_z : x ≠ z := blocks_ne hB2 4 1 (by decide) (by simp) (by simp)
          have hn_y_z : y ≠ z := blocks_ne hB2 5 1 (by decide) (by simp) (by simp)
          have hxr : x ≠ root := by
            rw [hroot]
            rcases topId_mem gs z with e | e
            · rw [e]; exact hn_x_z
            · exact blocks_ne hB2 4 3 (by decide) (by simp) e
          have e : substM m root s x y = (setLeft (setColor (setParent (setRight (setLeft m y s) y s) y z) y c) z y, root) := by
            simp [substM, ngx_rbt_copy_color, hlx, hrx, hcx, Function.update_apply, hxr, hpx, hlz, hn_x_y, hn_x_z, hn_y_z, Ne.symm hn_x_y, Ne.symm hn_x_z, Ne.symm hn_y_z]
          rw [e]
          have hfoot : ∀ q, q ∉ [y, z] → AgreeAt m (setLeft (setColor (setParent (setRight (setLeft m y s) y s) y z) y c) z y) q := by
            intro q hq
            simp only [List.mem_cons, not_or, List.mem_singleton, List.not_mem_nil,
              not_false_eq_true, and_true] at hq
            simp [AgreeAt, Function.update_apply, hq]
          have Fw := RepT_frame _ hfoot (blocks_disj hB2 2 [5, 1] (by decide)) hRw
          have Fc := RepC_frame _ hfoot (blocks_disj hB2 3 [5, 1] (by decide)) hCz
          refine ⟨⟨?_, ?_, hnd2⟩, rfl, hfoot s (by simp [Ne.symm hys, Ne.symm hzs]), hfoot x (by simp [hn_x_y, hn_x_z, hn_y_z, Ne.symm hn_x_y, Ne.symm hn_x_z, Ne.symm hn_y_z])⟩
          · rw [RepT_plug]
            simp only [RepC_nil, RepC_L, RepC_R, RepT_node, RepT_nil, parOf_nil, parOf_cons, RbFrame.id_L, RbFrame.id_R, parOK_none, parOK_some, ptr_node, ptr_nil]
            simp [Function.update_apply, *, hn_x_y, hn_x_z, hn_y_z, Ne.symm hn_x_y, Ne.symm hn_x_z, Ne.symm hn_y_z]
          · rw [ptr_plug]; simpa using hroot
        | node cr rl rx rk rr =>
          simp only [ptr_node, ids_node, RepT_node] at hrx hB hr
          obtain ⟨hrxs, hcrx, hkrx, hprx, hlrx, hrrx, hRrl, hRrr⟩ := hr
          have hB2 : [[s], [z], w.ids, idsC gs, [x], rl.ids, [rx], rr.ids, [y]].flatten.Nodup := by
            simpa using hB
          have hn_x_y : x ≠ y := blocks_ne hB2 4 8 (by decide) (by simp) (by simp)
          have hn_x_z : x ≠ z := blocks_ne hB2 4 1 (by decide) (by simp) (by simp)
          have hn_x_rx : x ≠ rx := blocks_ne hB2 4 6 (by decide) (by simp) (by simp)
          have hn_y_z : y ≠ z := blocks_ne hB2 8 1 (by decide) (by simp) (by simp)
          have hn_y_rx : y ≠ rx := blocks_ne hB2 8 6 (by decide) (by simp) (by simp)
          have hn_z_rx : z ≠ rx := blocks_ne hB2 1 6 (by decide) (by simp) (by simp)
          have hxr : x ≠ root := by
            rw [hroot]
            rcases topId_mem gs z with e | e
            · rw [e]; exact hn_x_z
            · exact blocks_ne hB2 4 3 (by decide) (by simp) e
          have e : substM m root s x y = (setParent (setLeft (setColor (setParent (setRight (setLeft m y s) y rx) y z) y c) z y) rx y, root) := by
            simp [substM, ngx_rbt_copy_color, hlx, hrx, hcx, Function.update_apply, hxr, hpx, hlz, hrxs, hn_x_y, hn_x_z, hn_x_rx, hn_y_z, hn_y_rx, hn_z_rx, Ne.symm hn_x_y, Ne.symm hn_x_z, Ne.symm hn_x_rx, Ne.symm hn_y_z, Ne.symm hn_y_rx, Ne.symm hn_z_rx]
          rw [e]
          have hfoot : ∀ q, q ∉ [y, z, rx] → AgreeAt m (setParent (setLeft (setColor (setParent (setRight (setLeft m y s) y rx) y z) y c) z y) rx y) q := by
            intro q hq
            simp only [List.mem_cons, not_or, List.mem_singleton, List.not_mem_nil,
              not_false_eq_true, and_true] at hq
            simp [AgreeAt, Function.update_apply, hq]
          have Fw := RepT_frame _ hfoot (blocks_disj hB2 2 [8, 1, 6] (by decide)) hRw
          have Fc := RepC_frame _ hfoot (blocks_disj hB2 3 [8, 1, 6] (by decide)) hCz
          have Frl := RepT_frame _ hfoot (blocks_disj hB2 5 [8, 1, 6] (by decide)) hRrl
          have Frr := RepT_frame _ hfoot (blocks_disj hB2 7 [8, 1, 6] (by decide)) hRrr
          refine ⟨⟨?_, ?_, hnd2⟩, rfl, hfoot s (by simp [Ne.symm hys, Ne.symm hzs, Ne.symm hrxs]), hfoot x (by simp [hn_x_y, hn_x_z, hn_x_rx, hn_y_z, hn_y_rx, hn_z_rx, Ne.symm hn_x_y, Ne.symm hn_x_z, Ne.symm hn_x_rx, Ne.symm hn_y_z, Ne.symm hn_y_rx, Ne.symm hn_z_rx])⟩
          · rw [RepT_plug]
            simp only [RepC_nil, RepC_L, RepC_R, RepT_node, RepT_nil, parOf_nil, parOf_cons, RbFrame.id_L, RbFrame.id_R, parOK_none, parOK_some, ptr_node, ptr_nil]
            simp [Function.update_apply, *, hn_x_y, hn_x_z, hn_x_rx, hn_y_z, hn_y_rx, hn_z_rx, Ne.symm hn_x_y, Ne.symm hn_x_z, Ne.symm hn_x_rx, Ne.symm hn_y_z, Ne.symm hn_y_rx, Ne.symm hn_z_rx]
          · rw [ptr_plug]; simpa using hroot
      | node cl ll lx lk lr =>
        simp only [ptr_node, ids_node, RepT_node, parOK_some] at hlx hB hl
        obtain ⟨hlxs, hclx, hklx, hplx, hllx, hrlx, hRll, hRlr⟩ := hl
        cases r' with
        | nil =>
          simp only [ptr_nil, ids_nil] at hrx hB
          have hB2 : [[s], [z], w.ids, idsC gs, ll.ids, [lx], lr.ids, [x], [y]].flatten.Nodup := by
            simpa using hB
          have hn_x_y : x ≠ y := blocks_ne hB2 7 8 (by decide) (by simp) (by simp)
          have hn_x_z : x ≠ z := blocks_ne hB2 7 1 (by decide) (by simp) (by simp)
          have hn_x_lx : x ≠ lx := blocks_ne hB2 7 5 (by decide) (by simp) (by simp)
          have hn_y_z : y ≠ z := blocks_ne hB2 8 1 (by decide) (by simp) (by simp)
          have hn_y_lx : y ≠ lx := blocks_ne hB2 8 5 (by decide) (by simp) (by simp)
          have hn_z_lx : z ≠ lx := blocks_ne hB2 1 5 (by decide) (by simp) (by simp)
          have hxr : x ≠ root := by
            rw [hroot]
            rcases topId_mem gs z with e | e
            · rw [e]; exact hn_x_z
            · exact blocks_ne hB2 7 3 (by decide) (by simp) e
          have e : substM m root s x y = (setParent (setLeft (setColor (setParent (setRight (setLeft m y lx) y s) y z) y c) z y) lx y, root) := by
            simp [substM, ngx_rbt_copy_color, hlx, hrx, hcx, Function.update_apply, hxr, hpx, hlz, hlxs, hn_x_y, hn_x_z, hn_x_lx, hn_y_z, hn_y_lx, hn_z_lx, Ne.symm hn_x_y, Ne.symm hn_x_z, Ne.symm hn_x_lx, Ne.symm hn_y_z, Ne.symm hn_y_lx, Ne.symm hn_z_lx]
          rw [e]
          have hfoot : ∀ q, q ∉ [y, z, lx] → AgreeAt m (setParent (setLeft (setColor (setParent (setRight (setLeft m y lx) y s) y z) y c) z y) lx y) q := by
            intro q hq
            simp only [List.mem_cons, not_or, List.mem_singleton, List.not_mem_nil,
              not_false_eq_true, and_true] at hq
            simp [AgreeAt, Function.update_apply, hq]
          have Fw := RepT_frame _ hfoot (blocks_disj hB2 2 [8, 1, 5] (by decide)) hRw
          have Fc := RepC_frame _ hfoot (blocks_disj hB2 3 [8, 1, 5] (by decide)) hCz
          have Fll := RepT_frame _ hfoot (blocks_disj hB2 4 [8, 1, 5] (by decide)) hRll
          have Flr := RepT_frame _ hfoot (blocks_disj hB2 6 [8, 1, 5] (by decide)) hRlr
          refine ⟨⟨?_, ?_, hnd2⟩, rfl, hfoot s (by simp [Ne.symm hys, Ne.symm hzs, Ne.symm hlxs]), hfoot x (by simp [hn_x_y, hn_x_z, hn_x_lx, hn_y_z, hn_y_lx, hn_z_lx, Ne.symm hn_x_y, Ne.symm hn_x_z, Ne.symm hn_x_lx, Ne.symm hn_y_z, Ne.symm hn_y_lx, Ne.symm hn_z_lx])⟩
          · rw [RepT_plug]
            simp only [RepC_nil, RepC_L, RepC_R, RepT_node, RepT_nil, parOf_nil, parOf_cons, RbFrame.id_L, RbFrame.id_R, parOK_none, parOK_some, ptr_node, ptr_nil]
            simp [Function.update_apply, *, hn_x_y, hn_x_z, hn_x_lx, hn_y_z, hn_y_lx, hn_z_lx, Ne.symm hn_x_y, Ne.symm hn_x_z, Ne.symm hn_x_lx, Ne.symm hn_y_z, Ne.symm hn_y_lx, Ne.symm hn_z_lx]
          · rw [ptr_plug]; simpa using hroot
        | node cr rl rx rk rr =>
          simp only [ptr_node, ids_node, RepT_node] at hrx hB hr
          obtain ⟨hrxs, hcrx, hkrx, hprx, hlrx, hrrx, hRrl, hRrr⟩ := hr
          have hB2 : [[s], [z], w.ids, idsC gs, ll.ids, [lx], lr.ids, [x], rl.ids, [rx], rr.ids, [y]].flatten.Nodup := by
            simpa using hB
          have hn_x_y : x ≠ y := blocks_ne hB2 7 11 (by decide) (by simp) (by simp)
          have hn_x_z : x ≠ z := blocks_ne hB2 7 1 (by decide) (by simp) (by simp)
          have hn_x_lx : x ≠ lx := blocks_ne hB2 7 5 (by decide) (by simp) (by simp)
          have hn_x_rx : x ≠ rx := blocks_ne hB2 7 9 (by decide) (by simp) (by simp)
          have hn_y_z : y ≠ z := blocks_ne hB2 11 1 (by decide) (by simp) (by simp)
          have hn_y_lx : y ≠ lx := blocks_ne hB2 11 5 (by decide) (by simp) (by simp)
          have hn_y_rx : y ≠ rx := blocks_ne hB2 11 9 (by decide) (by simp) (by simp)
          have hn_z_lx : z ≠ lx := blocks_ne hB2 1 5 (by decide) (by simp) (by simp)
          have hn_z_rx : z ≠ rx := blocks_ne hB2 1 9 (by decide) (by simp) (by simp)
          have hn_lx_rx : lx ≠ rx := blocks_ne hB2 5 9 (by decide) (by simp) (by simp)
          have hxr : x ≠ root := by
            rw [hroot]
            rcases topId_mem gs z with e | e
            · rw [e]; exact hn_x_z
            · exact blocks_ne hB2 7 3 (by decide) (by simp) e
          have e : substM m root s x y = (setParent (setParent (setLeft (setColor (setParent (setRight (setLeft m y lx) y rx) y z) y c) z y) lx y) rx y, root) := by
            simp [substM, ngx_rbt_copy_color, hlx, hrx, hcx, Function.update_apply, hxr, hpx, hlz, hlxs, hrxs, hn_x_y, hn_x_z, hn_x_lx, hn_x_rx, hn_y_z, hn_y_lx, hn_y_rx, hn_z_lx, hn_z_rx, hn_lx_rx, Ne.symm hn_x_y, Ne.symm hn_x_z, Ne.symm hn_x_lx, Ne.symm hn_x_rx, Ne.symm hn_y_z, Ne.symm hn_y_lx, Ne.symm hn_y_rx, Ne.symm hn_z_lx, Ne.symm hn_z_rx, Ne.symm hn_lx_rx]
          rw [e]
          have hfoot : ∀ q, q ∉ [y, z, lx, rx] → AgreeAt m (setParent (setParent (setLeft (setColor (setParent (setRight (setLeft m y lx) y rx) y z) y c) z y) lx y) rx y) q := by
            intro q hq
            simp only [List.mem_cons, not_or, List.mem_singleton, List.not_mem_nil,
              not_false_eq_true, and_true] at hq
            simp [AgreeAt, Function.update_apply, hq]
          have Fw := RepT_frame _ hfoot (blocks_disj hB2 2 [11, 1, 5, 9] (by decide)) hRw
          have Fc := RepC_frame _ hfoot (blocks_disj hB2 3 [11, 1, 5, 9] (by decide)) hCz
          have Fll := RepT_frame _ hfoot (blocks_disj hB2 4 [11, 1, 5, 9] (by decide)) hRll
          have Flr := RepT_frame _ hfoot (blocks_disj hB2 6 [11, 1, 5, 9] (by decide)) hRlr
          have Frl := RepT_frame _ hfoot (blocks_disj hB2 8 [11, 1, 5, 9] (by decide)) hRrl
          have Frr := RepT_frame _ hfoot (blocks_disj hB2 10 [11, 1, 5, 9] (by decide)) hRrr
          refine ⟨⟨?_, ?_, hnd2⟩, rfl, hfoot s (by simp [Ne.symm hys, Ne.symm hzs, Ne.symm hlxs, Ne.symm hrxs]), hfoot x (by simp [hn_x_y, hn_x_z, hn_x_lx, hn_x_rx, hn_y_z, hn_y_lx, hn_y_rx, hn_z_lx, hn_z_rx, hn_lx_rx, Ne.symm hn_x_y, Ne.symm hn_x_z, Ne.symm hn_x_lx, Ne.symm hn_x_rx, Ne.symm hn_y_z, Ne.symm hn_y_lx, Ne.symm hn_y_rx, Ne.symm hn_z_lx, Ne.symm hn_z_rx, Ne.symm hn_lx_rx])⟩
          · rw [RepT_plug]
            simp only [RepC_nil, RepC_L, RepC_R, RepT_node, RepT_nil, parOf_nil, parOf_cons, RbFrame.id_L, RbFrame.id_R, parOK_none, parOK_some, ptr_node, ptr_nil]
            simp [Function.update_apply, *, hn_x_y, hn_x_z, hn_x_lx, hn_x_rx, hn_y_z, hn_y_lx, hn_y_rx, hn_z_lx, hn_z_rx, hn_lx_rx, Ne.symm hn_x_y, Ne.symm hn_x_z, Ne.symm hn_x_lx, Ne.symm hn_x_rx, Ne.symm hn_y_z, Ne.symm hn_y_lx, Ne.symm hn_y_rx, Ne.symm hn_z_lx, Ne.symm hn_z_rx, Ne.symm hn_lx_rx]
          · rw [ptr_plug]; simpa using hroot
    | R cz w z kz =>
      simp only [RepC_R, parOf_cons, RbFrame.id_R, parOK_some, topId_cons, idsC_cons, RbFrame.ids_R] at hC hpx hroot hB
      obtain ⟨hzs, hcz, hkz, hpz, hlz, hrz, hRw, hCz⟩ := hC
      cases l with
      | nil =>
        simp only [ptr_nil, ids_nil] at hlx hB
        cases r' with
        | nil =>
          simp only [ptr_nil, ids_nil] at hrx hB
          have hB2 : [[s], [z], w.ids, idsC gs, [x], [y]].flatten.Nodup := by
            simpa using hB
          have hn_x_y : x ≠ y := blocks_ne hB2 4 5 (by decide) (by simp) (by simp)
          have hn_x_z : x ≠ z := blocks_ne hB2 4 1 (by decide) (by simp) (by simp)
          have hn_y_z : y ≠ z := blocks_ne hB2 5 1 (by decide) (by simp) (by simp)
          have hxr : x ≠ root := by
            rw [hroot]
            rcases topId_mem gs z with e | e
            · rw [e]; exact hn_x_z
            · exact blocks_ne hB2 4 3 (by decide) (by simp) e
          have hxw : x ≠ w.ptr s := by
            rcases w.ptr_mem s with e | e
            · rw [e]; exact hxs
            · exact blocks_ne hB2 4 2 (by decide) (by simp) e
          have e : substM m root s x y = (setRight (setColor (setParent (setRight (setLeft m y s) y s) y z) y c) z y, root) := by
            simp [substM, ngx_rbt_copy_color, hlx, hrx, hcx, Function.update_apply, hxr, hpx, hlz, hxw, hn_x_y, hn_x_z, hn_y_z, Ne.symm hn_x_y, Ne.symm hn_x_z, Ne.symm hn_y_z]
          rw [e]
          have hfoot : ∀ q, q ∉ [y, z] → AgreeAt m (setRight (setColor (setParent (setRight (setLeft m y s) y s) y z) y c) z y) q := by
            intro q hq
            simp only [List.mem_cons, not_or, List.mem_singleton, List.not_mem_nil,
              not_false_eq_true, and_true] at hq
            simp [AgreeAt, Function.update_apply, hq]
          have Fw := RepT_frame _ hfoot (blocks_disj hB2 2 [5, 1] (by decide)) hRw
          have Fc := RepC_frame _ hfoot (blocks_disj hB2 3 [5, 1] (by decide)) hCz
          refine ⟨⟨?_, ?_, hnd2⟩, rfl, hfoot s (by simp [Ne.symm hys, Ne.symm hzs]), hfoot x (by simp [hn_x_y, hn_x_z, hn_y_z, Ne.symm hn_x_y, Ne.symm hn_x_z, Ne.symm hn_y_z])⟩
          · rw [RepT_plug]
            simp only [RepC_nil, RepC_L, RepC_R, RepT_node, RepT_nil, parOf_nil, parOf_cons, RbFrame.id_L, RbFrame.id_R, parOK_none, parOK_some, ptr_node, ptr_nil]
            simp [Function.update_apply, *, hn_x_y, hn_x_z, hn_y_z, Ne.symm hn_x_y, Ne.symm hn_x_z, Ne.symm hn_y_z]
          · rw [ptr_plug]; simpa using hroot
        | node cr rl rx rk rr =>
          simp only [ptr_node, ids_node, RepT_node] at hrx hB hr
          obtain ⟨hrxs, hcrx, hkrx, hprx, hlrx, hrrx, hRrl, hRrr⟩ := hr
          have hB2 : [[s], [z], w.ids, idsC gs, [x], rl.ids, [rx], rr.ids, [y]].flatten.Nodup := by
            simpa using hB
          have hn_x_y : x ≠ y := blocks_ne hB2 4 8 (by decide) (by simp) (by simp)
          have hn_x_z : x ≠ z := blocks_ne hB2 4 1 (by decide) (by simp) (by simp)
          have hn_x_rx : x ≠ rx := blocks_ne hB2 4 6 (by decide) (by simp) (by simp)
          have hn_y_z : y ≠ z := blocks_ne hB2 8 1 (by decide) (by simp) (by simp)
          have hn_y_rx : y ≠ rx := blocks_ne hB2 8 6 (by decide) (by simp) (by simp)
          have hn_z_rx : z ≠ rx := blocks_ne hB2 1 6 (by decide) (by simp) (by simp)
          have hxr : x ≠ root := by
            rw [hroot]
            rcases topId_mem gs z with e | e
            · rw [e]; exact hn_x_z
            · exact blocks_ne hB2 4 3 (by decide) (by simp) e
          have hxw : x ≠ w.ptr s := by
            rcases w.ptr_mem s with e | e
            · rw [e]; exact hxs
            · exact blocks_ne hB2 4 2 (by decide) (by simp) e
          have e : substM m root s x y = (setParent (setRight (setColor (setParent (setRight (setLeft m y s) y rx) y z) y c) z y) rx y, root) := by
            simp [substM, ngx_rbt_copy_color, hlx, hrx, hcx, Function.update_apply, hxr, hpx, hlz, hxw, hrxs, hn_x_y, hn_x_z, hn_x_rx, hn_y_z, hn_y_rx, hn_z_rx, Ne.symm hn_x_y, Ne.symm hn_x_z, Ne.symm hn_x_rx, Ne.symm hn_y_z, Ne.symm hn_y_rx, Ne.symm hn_z_rx]
          rw [e]
          have hfoot : ∀ q, q ∉ [y, z, rx] → AgreeAt m (setParent (setRight (setColor (setParent (setRight (setLeft m y s) y rx) y z) y c) z y) rx y) q := by
            intro q hq
            simp only [List.mem_cons, not_or, List.mem_singleton, List.not_mem_nil,
              not_false_eq_true, and_true] at hq
            simp [AgreeAt, Function.update_apply, hq]
          have Fw := RepT_frame _ hfoot (blocks_disj hB2 2 [8, 1, 6] (by decide)) hRw
          have Fc := RepC_frame _ hfoot (blocks_disj hB2 3 [8, 1, 6] (by decide)) hCz
          have Frl := RepT_frame _ hfoot (blocks_disj hB2 5 [8, 1, 6] (by decide)) hRrl
          have Frr := RepT_frame _ hfoot (blocks_disj hB2 7 [8, 1, 6] (by decide)) hRrr
          refine ⟨⟨?_, ?_, hnd2⟩, rfl, hfoot s (by simp [Ne.symm hys, Ne.symm hzs, Ne.symm hrxs]), hfoot x (by simp [hn_x_y, hn_x_z, hn_x_rx, hn_y_z, hn_y_rx, hn_z_rx, Ne.symm hn_x_y, Ne.symm hn_x_z, Ne.symm hn_x_rx, Ne.symm hn_y_z, Ne.symm hn_y_rx, Ne.symm hn_z_rx])⟩
          · rw [RepT_plug]
            simp only [RepC_nil, RepC_L, RepC_R, RepT_node, RepT_nil, parOf_nil, parOf_cons, RbFrame.id_L, RbFrame.id_R, parOK_none, parOK_some, ptr_node, ptr_nil]
            simp [Function.update_apply, *, hn_x_y, hn_x_z, hn_x_rx, hn_y_z, hn_y_rx, hn_z_rx, Ne.symm hn_x_y, Ne.symm hn_x_z, Ne.symm hn_x_rx, Ne.symm hn_y_z, Ne.symm hn_y_rx, Ne.symm hn_z_rx]
          · rw [ptr_plug]; simpa using hroot
      | node cl ll lx lk lr =>
        simp only [ptr_node, ids_node, RepT_node, parOK_some] at hlx hB hl
        obtain ⟨hlxs, hclx, hklx, hplx, hllx, hrlx, hRll, hRlr⟩ := hl
        cases r' with
        | nil =>
          simp only [ptr_nil, ids_nil] at hrx hB
          have hB2 : [[s], [z], w.ids, idsC gs, ll.ids, [lx], lr.ids, [x], [y]].flatten.Nodup := by
            simpa using hB
          have hn_x_y : x ≠ y := blocks_ne hB2 7 8 (by decide) (by simp) (by simp)
          have hn_x_z : x ≠ z := blocks_ne hB2 7 1 (by decide) (by simp) (by simp)
          have hn_x_lx : x ≠ lx := blocks_ne hB2 7 5 (by decide) (by simp) (by simp)
          have hn_y_z : y ≠ z := blocks_ne hB2 8 1 (by decide) (by simp) (by simp)
          have hn_y_lx : y ≠ lx := blocks_ne hB2 8 5 (by decide) (by simp) (by simp)
          have hn_z_lx : z ≠ lx := blocks_ne hB2 1 5 (by decide) (by simp) (by simp)
          have hxr : x ≠ root := by
            rw [hroot]
            rcases topId_mem gs z with e | e
            · rw [e]; exact hn_x_z
            · exact blocks_ne hB2 7 3 (by decide) (by simp) e
          have hxw : x ≠ w.ptr s := by
            rcases w.ptr_mem s with e | e
            · rw [e]; exact hxs
            · exact blocks_ne hB2 7 2 (by decide) (by simp) e
          have e : substM m root s x y = (setParent (setRight (setColor (setParent (setRight (setLeft m y lx) y s) y z) y c) z y) lx y, root) := by
            simp [substM, ngx_rbt_copy_color, hlx, hrx, hcx, Function.update_apply, hxr, hpx, hlz, hxw, hlxs, hn_x_y, hn_x_z, hn_x_lx, hn_y_z, hn_y_lx, hn_z_lx, Ne.symm hn_x_y, Ne.symm hn_x_z, Ne.symm hn_x_lx, Ne.symm hn_y_z, Ne.symm hn_y_lx, Ne.symm hn_z_lx]
          rw [e]
          have hfoot : ∀ q, q ∉ [y, z, lx] → AgreeAt m (setParent (setRight (setColor (setParent (setRight (setLeft m y lx) y s) y z) y c) z y) lx y) q := by
            intro q hq
            simp only [List.mem_cons, not_or, List.mem_singleton, List.not_mem_nil,
              not_false_eq_true, and_true] at hq
            simp [AgreeAt, Function.update_apply, hq]
          have Fw := RepT_frame _ hfoot (blocks_disj hB2 2 [8, 1, 5] (by decide)) hRw
          have Fc := RepC_frame _ hfoot (blocks_disj hB2 3 [8, 1, 5] (by decide)) hCz
          have Fll := RepT_frame _ hfoot (blocks_disj hB2 4 [8, 1, 5] (by decide)) hRll
          have Flr := RepT_frame _ hfoot (blocks_disj hB2 6 [8, 1, 5] (by decide)) hRlr
          refine ⟨⟨?_, ?_, hnd2⟩, rfl, hfoot s (by simp [Ne.symm hys, Ne.symm hzs, Ne.symm hlxs]), hfoot x (by simp [hn_x_y, hn_x_z, hn_x_lx, hn_y_z, hn_y_lx, hn_z_lx, Ne.symm hn_x_y, Ne.symm hn_x_z, Ne.symm hn_x_lx, Ne.symm hn_y_z, Ne.symm hn_y_lx, Ne.symm hn_z_lx])⟩
          · rw [RepT_plug]
            simp only [RepC_nil, RepC_L, RepC_R, RepT_node, RepT_nil, parOf_nil, parOf_cons, RbFrame.id_L, RbFrame.id_R, parOK_none, parOK_some, ptr_node, ptr_nil]
            simp [Function.update_apply, *, hn_x_y, hn_x_z, hn_x_lx, hn_y_z, hn_y_lx, hn_z_lx, Ne.symm hn_x_y, Ne.symm hn_x_z, Ne.symm hn_x_lx, Ne.symm hn_y_z, Ne.symm hn_y_lx, Ne.symm hn_z_lx]
          · rw [ptr_plug]; simpa using hroot
        | node cr rl rx rk rr =>
          simp only [ptr_node, ids_node, RepT_node] at hrx hB hr
          obtain ⟨hrxs, hcrx, hkrx, hprx, hlrx, hrrx, hRrl, hRrr⟩ := hr
          have hB2 : [[s], [z], w.ids, idsC gs, ll.ids, [lx], lr.ids, [x], rl.ids, [rx], rr.ids, [y]].flatten.Nodup := by
            simpa using hB
          have hn_x_y : x ≠ y := blocks_ne hB2 7 11 (by decide) (by simp) (by simp)
          have hn_x_z : x ≠ z := blocks_ne hB2 7 1 (by decide) (by simp) (by simp)
          have hn_x_lx : x ≠ lx := blocks_ne hB2 7 5 (by decide) (by simp) (by simp)
          have hn_x_rx : x ≠ rx := blocks_ne hB2 7 9 (by decide) (by simp) (by simp)
          have hn_y_z : y ≠ z := blocks_ne hB2 11 1 (by decide) (by simp) (by simp)
          have hn_y_lx : y ≠ lx := blocks_ne hB2 11 5 (by decide) (by simp) (by simp)
          have hn_y_rx : y ≠ rx := blocks_ne hB2 11 9 (by decide) (by simp) (by simp)
          have hn_z_lx : z ≠ lx := blocks_ne hB2 1 5 (by decide) (by simp) (by simp)
          have hn_z_rx : z ≠ rx := blocks_ne hB2 1 9 (by decide) (by simp) (by simp)
          have hn_lx_rx : lx ≠ rx := blocks_ne hB2 5 9 (by decide) (by simp) (by simp)
          have hxr : x ≠ root := by
            rw [hroot]
            rcases topId_mem gs z with e | e
            · rw [e]; exact hn_x_z
            · exact blocks_ne hB2 7 3 (by decide) (by simp) e
          have hxw : x ≠ w.ptr s := by
            rcases w.ptr_mem s with e | e
            · rw [e]; exact hxs
            · exact blocks_ne hB2 7 2 (by decide) (by simp) e
          have e : substM m root s x y = (setParent (setParent (setRight (setColor (setParent (setRight (setLeft m y lx) y rx) y z) y c) z y) lx y) rx y, root) := by
            simp [substM, ngx_rbt_copy_color, hlx, hrx, hcx, Function.update_apply, hxr, hpx, hlz, hxw, hlxs, hrxs, hn_x_y, hn_x_z, hn_x_lx, hn_x_rx, hn_y_z, hn_y_lx, hn_y_rx, hn_z_lx, hn_z_rx, hn_lx_rx, Ne.symm hn_x_y, Ne.symm hn_x_z, Ne.symm hn_x_lx, Ne.symm hn_x_rx, Ne.symm hn_y_z, Ne.symm hn_y_lx, Ne.symm hn_y_rx, Ne.symm hn_z_lx, Ne.symm hn_z_rx, Ne.symm hn_lx_rx]
          rw [e]
          have hfoot : ∀ q, q ∉ [y, z, lx, rx] → AgreeAt m (setParent (setParent (setRight (setColor (setParent (setRight (setLeft m y lx) y rx) y z) y c) z y) lx y) rx y) q := by
            intro q hq
            simp only [List.mem_cons, not_or, List.mem_singleton, List.not_mem_nil,
              not_false_eq_true, and_true] at hq
            simp [AgreeAt, Function.update_apply, hq]
          have Fw := RepT_frame _ hfoot (blocks_disj hB2 2 [11, 1, 5, 9] (by decide)) hRw
          have Fc := RepC_frame _ hfoot (blocks_disj hB2 3 [11, 1, 5, 9] (by decide)) hCz
          have Fll := RepT_frame _ hfoot (blocks_disj hB2 4 [11, 1, 5, 9] (by decide)) hRll
          have Flr := RepT_frame _ hfoot (blocks_disj hB2 6 [11, 1, 5, 9] (by decide)) hRlr
          have Frl := RepT_frame _ hfoot (blocks_disj hB2 8 [11, 1, 5, 9] (by decide)) hRrl
          have Frr := RepT_frame _ hfoot (blocks_disj hB2 10 [11, 1, 5, 9] (by decide)) hRrr
          refine ⟨⟨?_, ?_, hnd2⟩, rfl, hfoot s (by simp [Ne.symm hys, Ne.symm hzs, Ne.symm hlxs, Ne.symm hrxs]), hfoot x (by simp [hn_x_y, hn_x_z, hn_x_lx, hn_x_rx, hn_y_z, hn_y_lx, hn_y_rx, hn_z_lx, hn_z_rx, hn_lx_rx, Ne.symm hn_x_y, Ne.symm hn_x_z, Ne.symm hn_x_lx, Ne.symm hn_x_rx, Ne.symm hn_y_z, Ne.symm hn_y_lx, Ne.symm hn_y_rx, Ne.symm hn_z_lx, Ne.symm hn_z_rx, Ne.symm hn_lx_rx])⟩
          · rw [RepT_plug]
            simp only [RepC_nil, RepC_L, RepC_R, RepT_node, RepT_nil, parOf_nil, parOf_cons, RbFrame.id_L, RbFrame.id_R, parOK_none, parOK_some, ptr_node, ptr_nil]
            simp [Function.update_apply, *, hn_x_y, hn_x_z, hn_x_lx, hn_x_rx, hn_y_z, hn_y_lx, hn_y_rx, hn_z_lx, hn_z_rx, hn_lx_rx, Ne.symm hn_x_y, Ne.symm hn_x_z, Ne.symm hn_x_lx, Ne.symm hn_x_rx, Ne.symm hn_y_z, Ne.symm hn_y_lx, Ne.symm hn_y_rx, Ne.symm hn_z_lx, Ne.symm hn_z_rx, Ne.symm hn_lx_rx]
          · rw [ptr_plug]; simpa using hroot

/-! ## Deletion on the abstract tree -/

/-- Writing the fields of a node that is not in the tree keeps the tree. -/
theorem debug_spec {m : RbHeap} {s root x : Nat} {t : RbTree} (h : TreeInv m s root t)
    (hx : x ∉ t.ids) (hxs : x ≠ s) :
    TreeInv (ngx_rbtree_delete_debug m x) s root t ∧
    (∀ q, q ≠ x → AgreeAt m (ngx_rbtree_delete_debug m x) q) ∧
    (ngx_rbtree_delete_debug m x).color = m.color := by
  have hfoot : ∀ q, q ∉ [x] → AgreeAt m (ngx_rbtree_delete_debug m x) q := by
    intro q hq
    simp only [List.mem_singleton] at hq
    simp [AgreeAt, ngx_rbtree_delete_debug, Function.update_apply, hq]
  refine ⟨⟨RepT_frame [x] hfoot (fun q hq => ?_) h.rep, h.root_eq, h.nodup⟩,
    fun q hq => hfoot q (by simpa using hq), rfl⟩
  simp only [List.mem_singleton]
  rintro rfl
  exact hx hq

theorem delete_fixup_unfold (fuel : Nat) (m : RbHeap) (root s temp : Nat) :
    ngx_rbtree_delete_fixup (fuel + 1) m root s temp =
      if temp ≠ root ∧ ngx_rbt_is_black m temp = true then
        if temp = m.left (m.parent temp) then
          if m.color (m.right (m.parent temp)) = Color.red then
            delTailL fuel
              (ngx_rbtree_left_rotate
                (ngx_rbt_red (ngx_rbt_black m (m.right (m.parent temp))) (m.parent temp)) root s
                (m.parent temp)).1
              (ngx_rbtree_left_rotate
                (ngx_rbt_red (ngx_rbt_black m (m.right (m.parent temp))) (m.parent temp)) root s
                (m.parent temp)).2 s temp
              ((ngx_rbtree_left_rotate
                (ngx_rbt_red (ngx_rbt_black m (m.right (m.parent temp))) (m.parent temp)) root s
                (m.parent temp)).1.right
                ((ngx_rbtree_left_rotate
                  (ngx_rbt_red (ngx_rbt_black m (m.right (m.parent temp))) (m.parent temp)) root s
                  (m.parent temp)).1.parent temp))
          else delTailL fuel m root s temp (m.right (m.parent temp))
        else
          if m.color (m.left (m.parent temp)) = Color.red then
            delTailR fuel
              (ngx_rbtree_right_rotate
                (ngx_rbt_red (ngx_rbt_black m (m.left (m.parent temp))) (m.parent temp)) root s
                (m.parent temp)).1
              (ngx_rbtree_right_rotate
                (ngx_rbt_red (ngx_rbt_black m (m.left (m.parent temp))) (m.parent temp)) root s
                (m.parent temp)).2 s temp
              ((ngx_rbtree_right_rotate
                (ngx_rbt_red (ngx_rbt_black m (m.left (m.parent temp))) (m.parent temp)) root s
                (m.parent temp)).1.left
                ((ngx_rbtree_right_rotate
                  (ngx_rbt_red (ngx_rbt_black m (m.left (m.parent temp))) (m.parent temp)) root s
                  (m.parent temp)).1.parent temp))
          else delTailR fuel m root s temp (m.left (m.parent temp))
      else some (m, root, temp) := by
  rw [ngx_rbtree_delete_fixup]
  by_cases h1 : temp ≠ root ∧ ngx_rbt_is_black m temp = true
  · rw [if_pos h1, if_pos h1]
    by_cases h2 : temp = m.left (m.parent temp)
    · rw [if_pos h2, if_pos h2]
      by_cases h3 : m.color (m.right (m.parent temp)) = Color.red
      · rw [if_pos h3]
        simp only [h3, if_true]
        rfl
      · rw [if_neg h3]
        simp only [h3, if_false]
        rfl
    · rw [if_neg h2, if_neg h2]
      by_cases h3 : m.color (m.left (m.parent temp)) = Color.red
      · rw [if_pos h3]
        simp only [h3, if_true]
        rfl
      · rw [if_neg h3]
        simp only [h3, if_false]
        rfl
  · rw [if_neg h1, if_neg h1]

/-! ## The delete fixup loop -/

theorem hole_parent {m : RbHeap} {s root : Nat} {F : RbFrame} {fs : List RbFrame} {t : RbTree}
    (h : TreeInv m s root (plug (F :: fs) t)) (hps : t = nil → m.parent s = F.id) :
    m.parent (t.ptr s) = F.id := by
  cases t with
  | nil => simpa using hps rfl
  | node c l x k r => simpa using (TreeInv.look (Γ := F :: fs) h).2.2.2.2.2.1

theorem is_black_iff (m : RbHeap) (n : Nat) :
    ngx_rbt_is_black m n = true ↔ m.color n = Color.black := by
  unfold ngx_rbt_is_black ngx_rbt_is_red
  cases m.color n <;> simp

theorem delete_fixup_root (fuel : Nat) (m : RbHeap) (root s : Nat) :
    ngx_rbtree_delete_fixup (fuel + 1) m root s root = some (m, root, root) := by
  rw [ngx_rbtree_delete_fixup]
  simp

theorem case4L {m : RbHeap} {s root : Nat} {Γ : List RbFrame} {cp cw cwr : Color}
    {t wl wrl wrr : RbTree} {p kp wx wk wrx wrk : Nat}
    (h : TreeInv m s root
      (plug (RbFrame.L cp p kp (node cw wl wx wk (node cwr wrl wrx wrk wrr)) :: Γ) t))
    (hs : m.color s = Color.black) (fuel : Nat) (r : RbHeap × Nat)
    (hr : r = ngx_rbtree_left_rotate
      (setColor (setColor (setColor m wx cp) p Color.black) wrx Color.black) root s p) :
    ngx_rbtree_delete_fixup (fuel + 1) r.1 r.2 s r.2 = some (r.1, r.2, r.2) ∧
    TreeInv (ngx_rbt_black r.1 r.2) s r.2
      (plug Γ (node cp (node Color.black t p kp wl) wx wk
        (node Color.black wrl wrx wrk wrr))).setBlack ∧
    r.1.key = m.key ∧ r.1.color s = Color.black := by
  subst hr
  have hw := TreeInv.look (Γ := RbFrame.R cp t p kp :: Γ) h
  have hp := TreeInv.look (Γ := Γ) (c := cp) (l := t) (x := p) (k := kp)
    (r := node cw wl wx wk (node cwr wrl wrx wrk wrr)) h
  have hr := TreeInv.look (Γ := RbFrame.R cw wl wx wk :: RbFrame.R cp t p kp :: Γ) h
  simp only [ptr_node] at hp hw
  have h1 := recolor_spec (Γ := RbFrame.R cp t p kp :: Γ) cp h
  have h2 := recolor_spec (Γ := Γ) Color.black h1
  have h3 := recolor_spec (Γ := RbFrame.R cp wl wx wk :: RbFrame.R Color.black t p kp :: Γ)
    Color.black h2
  obtain ⟨h4, hc4, hk4, ha4⟩ := left_rotate_spec (Γ := Γ) h3
  refine ⟨delete_fixup_root _ _ _ _, setBlack_spec h4, ?_, ?_⟩
  · rw [hk4]; rfl
  · rw [hc4]
    simp [Function.update_apply, Ne.symm hw.1, Ne.symm hp.1, Ne.symm hr.1, hs]

theorem delTailL_rot {m : RbHeap} {s root : Nat} {ctx : List RbFrame} {cp cw : Color}
    {t wl wr : RbTree} {p kp wx wk : Nat}
    (h : TreeInv m s root (plug (RbFrame.L cp p kp (node cw wl wx wk wr) :: ctx) t))
    (hps : t = nil → m.parent s = p) (hs : m.color s = Color.black)
    (hnb : ¬ (wl.rootColor = Color.black ∧ wr.rootColor = Color.black))
    (fuel : Nat) (hfuel : 1 ≤ fuel) :
    ∃ m' root', delTailL fuel m root s (t.ptr s) wx = some (m', root', root') ∧
      TreeInv (ngx_rbt_black m' root') s root'
        (delRotL cp t p kp (node cw wl wx wk wr) ctx) ∧
      m'.key = m.key ∧ m'.color s = Color.black := by
  obtain ⟨fuel, rfl⟩ : ∃ f, fuel = f + 1 := ⟨fuel - 1, by omega⟩
  have hpt := hole_parent h hps
  simp only [RbFrame.id_L] at hpt
  have hw := TreeInv.look (Γ := RbFrame.R cp t p kp :: ctx) h
  have hwc := TreeInv.child_color (Γ := RbFrame.R cp t p kp :: ctx) h hs
  have hp := TreeInv.look (Γ := ctx) (c := cp) (l := t) (x := p) (k := kp) (r := node cw wl wx wk wr) h
  simp only [ptr_node] at hp
  by_cases hwr : wr.rootColor = Color.black
  · have hwl : wl.rootColor = Color.red := by
      cases hc : wl.rootColor
      · rfl
      · exact absurd ⟨hc, hwr⟩ hnb
    cases wl with
    | nil => simp at hwl
    | node cwl wll wlx wlk wlr =>
      simp only [rootColor_node] at hwl
      subst hwl
      simp only [ptr_node, rootColor_node] at hw hwc
      have hwlxs : wlx ≠ s :=
        (TreeInv.look (Γ := RbFrame.L cw wx wk wr :: RbFrame.R cp t p kp :: ctx) h).1
      have h1 := recolor_spec (Γ := RbFrame.L cw wx wk wr :: RbFrame.R cp t p kp :: ctx)
        Color.black h
      have h2 := recolor_spec (Γ := RbFrame.R cp t p kp :: ctx) Color.red h1
      obtain ⟨h3, hc3, hk3, ha3⟩ := right_rotate_spec (Γ := RbFrame.R cp t p kp :: ctx) h2
      have hpt3 : (ngx_rbtree_right_rotate (setColor (setColor m wlx Color.black) wx
          Color.red) root s wx).1.parent (t.ptr s) = p := by
        have := hole_parent (F := RbFrame.L cp p kp _) h3 (fun e => by
          rw [ha3.2.2.2.1]; simpa using hps e)
        simpa using this
      have hp3 := TreeInv.look (Γ := ctx) (c := cp) (l := t) (x := p) (k := kp) h3
      have hw3 := TreeInv.look (Γ := RbFrame.R cp t p kp :: ctx) h3
      simp only [ptr_node] at hp3 hw3
      have hstep : delTailL (fuel + 1) m root s (t.ptr s) wx =
          ngx_rbtree_delete_fixup (fuel + 1)
            (ngx_rbtree_left_rotate (setColor (setColor (setColor
              (ngx_rbtree_right_rotate (setColor (setColor m wlx Color.black) wx Color.red)
                root s wx).1 wlx cp) p Color.black) wx Color.black)
              (ngx_rbtree_right_rotate (setColor (setColor m wlx Color.black) wx Color.red)
                root s wx).2 s p).1
            (ngx_rbtree_left_rotate (setColor (setColor (setColor
              (ngx_rbtree_right_rotate (setColor (setColor m wlx Color.black) wx Color.red)
                root s wx).1 wlx cp) p Color.black) wx Color.black)
              (ngx_rbtree_right_rotate (setColor (setColor m wlx Color.black) wx Color.red)
                root s wx).2 s p).2 s
            (ngx_rbtree_left_rotate (setColor (setColor (setColor
              (ngx_rbtree_right_rotate (setColor (setColor m wlx Color.black) wx Color.red)
                root s wx).1 wlx cp) p Color.black) wx Color.black)
              (ngx_rbtree_right_rotate (setColor (setColor m wlx Color.black) wx Color.red)
                root s wx).2 s p).2 := by
        unfold delTailL
        simp only [is_black_iff, hw.2.2.2.1, hw.2.2.2.2.1, hwc.1, hwc.2, hwr, reduceCtorEq,
          false_and, if_false, if_true, ngx_rbt_black, ngx_rbt_red, ngx_rbt_copy_color,
          setColor_parent, setColor_left, setColor_right, hpt3, hp3.2.2.2.2.1, hp3.2.1,
          hw3.2.2.2.2.1]
      rw [hstep]
      generalize ngx_rbtree_right_rotate (setColor (setColor m wlx Color.black) wx Color.red)
        root s wx = r3 at *
      have hs3 : r3.1.color s = Color.black := by
        rw [hc3]
        simp [Function.update_apply, Ne.symm hw.1, Ne.symm hwlxs, hs]
      obtain ⟨e, hT, hk, hc⟩ := case4L (Γ := ctx) h3 hs3 fuel _ rfl
      refine ⟨_, _, e, ?_, ?_, hc⟩
      · simpa [delRotL, hwr] using hT
      · rw [hk, hk3]; rfl
  · have hwr' : wr.rootColor = Color.red := (Color.ne_black_iff _).1 hwr
    cases wr with
    | nil => simp at hwr'
    | node cwr wrl wrx wrk wrr =>
      simp only [rootColor_node] at hwr'
      subst hwr'
      simp only [ptr_node, rootColor_node] at hw hwc
      have hstep : delTailL (fuel + 1) m root s (t.ptr s) wx =
          ngx_rbtree_delete_fixup (fuel + 1)
            (ngx_rbtree_left_rotate
              (setColor (setColor (setColor m wx cp) p Color.black) wrx Color.black) root s p).1
            (ngx_rbtree_left_rotate
              (setColor (setColor (setColor m wx cp) p Color.black) wrx Color.black) root s p).2 s
            (ngx_rbtree_left_rotate
              (setColor (setColor (setColor m wx cp) p Color.black) wrx Color.black) root s p).2
          := by
        unfold delTailL
        simp only [is_black_iff, hw.2.2.2.1, hw.2.2.2.2.1, hwc.1, hwc.2, reduceCtorEq,
          and_false, if_false, hpt, ngx_rbt_black, ngx_rbt_red, ngx_rbt_copy_color,
          setColor_parent, setColor_left, setColor_right, hp.2.1]
      rw [hstep]
      obtain ⟨e, hT, hk, hc⟩ := case4L (Γ := ctx) h hs fuel _ rfl
      refine ⟨_, _, e, ?_, hk, hc⟩
      simpa [delRotL] using hT

theorem case4R {m : RbHeap} {s root : Nat} {Γ : List RbFrame} {cp cw cwl : Color}
    {t wr wlr wll : RbTree} {p kp wx wk wlx wlk : Nat}
    (h : TreeInv m s root
      (plug (RbFrame.R cp (node cw (node cwl wll wlx wlk wlr) wx wk wr) p kp :: Γ) t))
    (hs : m.color s = Color.black) (fuel : Nat) (r : RbHeap × Nat)
    (hr : r = ngx_rbtree_right_rotate
      (setColor (setColor (setColor m wx cp) p Color.black) wlx Color.black) root s p) :
    ngx_rbtree_delete_fixup (fuel + 1) r.1 r.2 s r.2 = some (r.1, r.2, r.2) ∧
    TreeInv (ngx_rbt_black r.1 r.2) s r.2
      (plug Γ (node cp (node Color.black wll wlx wlk wlr) wx wk
        (node Color.black wr p kp t))).setBlack ∧
    r.1.key = m.key ∧ r.1.color s = Color.black := by
  subst hr
  have hw := TreeInv.look (Γ := RbFrame.L cp p kp t :: Γ) h
  have hp := TreeInv.look (Γ := Γ) (c := cp) (r := t) (x := p) (k := kp)
    (l := node cw (node cwl wll wlx wlk wlr) wx wk wr) h
  have hr := TreeInv.look (Γ := RbFrame.L cw wx wk wr :: RbFrame.L cp p kp t :: Γ) h
  simp only [ptr_node] at hp hw
  have h1 := recolor_spec (Γ := RbFrame.L cp p kp t :: Γ) cp h
  have h2 := recolor_spec (Γ := Γ) Color.black h1
  have h3 := recolor_spec (Γ := RbFrame.L cp wx wk wr :: RbFrame.L Color.black p kp t :: Γ)
    Color.black h2
  obtain ⟨h4, hc4, hk4, ha4⟩ := right_rotate_spec (Γ := Γ) h3
  refine ⟨delete_fixup_root _ _ _ _, setBlack_spec h4, ?_, ?_⟩
  · rw [hk4]; rfl
  · rw [hc4]
    simp [Function.update_apply, Ne.symm hw.1, Ne.symm hp.1, Ne.symm hr.1, hs]

theorem delTailR_rot {m : RbHeap} {s root : Nat} {ctx : List RbFrame} {cp cw : Color}
    {t wr wl : RbTree} {p kp wx wk : Nat}
    (h : TreeInv m s root (plug (RbFrame.R cp (node cw wl wx wk wr) p kp :: ctx) t))
    (hps : t = nil → m.parent s = p) (hs : m.color s = Color.black)
    (hnb : ¬ (wr.rootColor = Color.black ∧ wl.rootColor = Color.black))
    (fuel : Nat) (hfuel : 1 ≤ fuel) :
    ∃ m' root', delTailR fuel m root s (t.ptr s) wx = some (m', root', root') ∧
      TreeInv (ngx_rbt_black m' root') s root'
        (delRotR cp t p kp (node cw wl wx wk wr) ctx) ∧
      m'.key = m.key ∧ m'.color s = Color.black := by
  obtain ⟨fuel, rfl⟩ : ∃ f, fuel = f + 1 := ⟨fuel - 1, by omega⟩
  have hpt := hole_parent h hps
  simp only [RbFrame.id_R] at hpt
  have hw := TreeInv.look (Γ := RbFrame.L cp p kp t :: ctx) h
  have hwc := TreeInv.child_color (Γ := RbFrame.L cp p kp t :: ctx) h hs
  have hp := TreeInv.look (Γ := ctx) (c := cp) (r := t) (x := p) (k := kp) (l := node cw wl wx wk wr) h
  simp only [ptr_node] at hp
  by_cases hwl : wl.rootColor = Color.black
  · have hwr : wr.rootColor = Color.red := by
      cases hc : wr.rootColor
      · rfl
      · exact absurd ⟨hc, hwl⟩ hnb
    cases wr with
    | nil => simp at hwr
    | node cwr wrl wrx wrk wrr =>
      simp only [rootColor_node] at hwr
      subst hwr
      simp only [ptr_node, rootColor_node] at hw hwc
      have hwrxs : wrx ≠ s :=
        (TreeInv.look (Γ := RbFrame.R cw wl wx wk :: RbFrame.L cp p kp t :: ctx) h).1
      have h1 := recolor_spec (Γ := RbFrame.R cw wl wx wk :: RbFrame.L cp p kp t :: ctx)
        Color.black h
      have h2 := recolor_spec (Γ := RbFrame.L cp p kp t :: ctx) Color.red h1
      obtain ⟨h3, hc3, hk3, ha3⟩ := left_rotate_spec (Γ := RbFrame.L cp p kp t :: ctx) h2
      have hpt3 : (ngx_rbtree_left_rotate (setColor (setColor m wrx Color.black) wx
          Color.red) root s wx).1.parent (t.ptr s) = p := by
        have := hole_parent (F := RbFrame.R cp _ p kp) h3 (fun e => by
          rw [ha3.2.2.2.1]; simpa using hps e)
        simpa using this
      have hp3 := TreeInv.look (Γ := ctx) (c := cp) (r := t) (x := p) (k := kp) h3
      have hw3 := TreeInv.look (Γ := RbFrame.L cp p kp t :: ctx) h3
      simp only [ptr_node] at hp3 hw3
      have hstep : delTailR (fuel + 1) m root s (t.ptr s) wx =
          ngx_rbtree_delete_fixup (fuel + 1)
            (ngx_rbtree_right_rotate (setColor (setColor (setColor
              (ngx_rbtree_left_rotate (setColor (setColor m wrx Color.black) wx Color.red)
                root s wx).1 wrx cp) p Color.black) wx Color.black)
              (ngx_rbtree_left_rotate (setColor (setColor m wrx Color.black) wx Color.red)
                root s wx).2 s p).1
            (ngx_rbtree_right_rotate (setColor (setColor (setColor
              (ngx_rbtree_left_rotate (setColor (setColor m wrx Color.black) wx Color.red)
                root s wx).1 wrx cp) p Color.black) wx Color.black)
              (ngx_rbtree_left_rotate (setColor (setColor m wrx Color.black) wx Color.red)
                root s wx).2 s p).2 s
            (ngx_rbtree_right_rotate (setColor (setColor (setColor
              (ngx_rbtree_left_rotate (setColor (setColor m wrx Color.black) wx Color.red)
                root s wx).1 wrx cp) p Color.black) wx Color.black)
              (ngx_rbtree_left_rotate (setColor (setColor m wrx Color.black) wx Color.red)
                root s wx).2 s p).2 := by
        unfold delTailR
        simp only [is_black_iff, hw.2.2.2.2.1, hw.2.2.2.1, hwc.2, hwc.1, hwl, reduceCtorEq,
          and_false, if_false, if_true, ngx_rbt_black, ngx_rbt_red, ngx_rbt_copy_color,
          setColor_parent, setColor_right, setColor_left, hpt3, hp3.2.2.2.1, hp3.2.1,
          hw3.2.2.2.1]
      rw [hstep]
      generalize ngx_rbtree_left_rotate (setColor (setColor m wrx Color.black) wx Color.red)
        root s wx = r3 at *
      have hs3 : r3.1.color s = Color.black := by
        rw [hc3]
        simp [Function.update_apply, Ne.symm hw.1, Ne.symm hwrxs, hs]
      obtain ⟨e, hT, hk, hc⟩ := case4R (Γ := ctx) h3 hs3 fuel _ rfl
      refine ⟨_, _, e, ?_, ?_, hc⟩
      · simpa [delRotR, hwl] using hT
      · rw [hk, hk3]; rfl
  · have hwl' : wl.rootColor = Color.red := (Color.ne_black_iff _).1 hwl
    cases wl with
    | nil => simp at hwl'
    | node cwl wll wlx wlk wlr =>
      simp only [rootColor_node] at hwl'
      subst hwl'
      simp only [ptr_node, rootColor_node] at hw hwc
      have hstep : delTailR (fuel + 1) m root s (t.ptr s) wx =
          ngx_rbtree_delete_fixup (fuel + 1)
            (ngx_rbtree_right_rotate
              (setColor (setColor (setColor m wx cp) p Color.black) wlx Color.black) root s p).1
            (ngx_rbtree_right_rotate
              (setColor (setColor (setColor m wx cp) p Color.black) wlx Color.black) root s p).2 s
            (ngx_rbtree_right_rotate
              (setColor (setColor (setColor m wx cp) p Color.black) wlx Color.black) root s p).2
          := by
        unfold delTailR
        simp only [is_black_iff, hw.2.2.2.2.1, hw.2.2.2.1, hwc.2, hwc.1, reduceCtorEq,
          false_and, if_false, hpt, ngx_rbt_black, ngx_rbt_red, ngx_rbt_copy_color,
          setColor_parent, setColor_right, setColor_left, hp.2.1]
      rw [hstep]
      obtain ⟨e, hT, hk, hc⟩ := case4R (Γ := ctx) h hs fuel _ rfl
      refine ⟨_, _, e, ?_, hk, hc⟩
      simpa [delRotR] using hT

theorem hole_ne_root {m : RbHeap} {s root : Nat} {F : RbFrame} {Γ : List RbFrame} {t : RbTree}
    (h : TreeInv m s root (plug (F :: Γ) t)) : t.ptr s ≠ root := by
  have hb := h.blocks
  have hr : root ∈ idsC (F :: Γ) := by
    have := h.root_eq
    rw [ptr_plug] at this
    rw [this]
    exact topId_cons_mem F Γ _
  have hB : [[s], idsC (F :: Γ), t.ids].flatten.Nodup := by simpa using hb
  rcases t.ptr_mem s with e | e
  · rw [e]; exact blocks_ne hB 0 1 (by decide) (by simp) hr
  · exact blocks_ne hB 2 1 (by decide) e hr

theorem hole_color {m : RbHeap} {s root : Nat} {fs : List RbFrame} {t : RbTree}
    (h : TreeInv m s root (plug fs t)) (hs : m.color s = Color.black) :
    m.color (t.ptr s) = t.rootColor := by
  have := h.rep
  rw [RepT_plug] at this
  exact rootColor_of_color hs this.2

theorem bheight_pos_node {t : RbTree} {n : Nat} (h : t.bheight = n + 1) :
    ∃ c l x k r, t = node c l x k r := by
  cases t with
  | nil => simp at h
  | node c l x k r => exact ⟨c, l, x, k, r, rfl⟩

/-- The delete fixup loop of `ngx_rbtree_delete`, followed by the final
`ngx_rbt_black(temp)`, computes `delFix`. -/
theorem delete_fixup_spec {s : Nat} (fs : List RbFrame) :
    ∀ (t : RbTree) (m : RbHeap) (root : Nat), TreeInv m s root (plug fs t) →
      (∀ F rest, fs = F :: rest → t = nil → m.parent s = F.id) →
      m.color s = Color.black → ctxBal fs (t.bheight + 1) →
      ∀ fuel, fs.length + 1 ≤ fuel →
      ∃ m' root' temp', ngx_rbtree_delete_fixup fuel m root s (t.ptr s) = some (m', root', temp') ∧
        TreeInv (ngx_rbt_black m' temp') s root' (delFix fs t) ∧ m'.key = m.key ∧
        (ngx_rbt_black m' temp').color s = Color.black := by
  induction fs with
  | nil =>
    intro t m root h _ hs _ fuel hfuel
    obtain ⟨fuel, rfl⟩ : ∃ f, fuel = f + 1 := ⟨fuel - 1, by simp at hfuel; omega⟩
    have hr : t.ptr s = root := by simpa using h.root_eq.symm
    refine ⟨m, root, root, by rw [hr]; exact delete_fixup_root _ _ _ _, ?_, rfl, ?_⟩
    · simpa [delFix] using setBlack_spec h
    · simp [ngx_rbt_black, Function.update_apply, hs]
  | cons F rest ih =>
    intro t m root h hps hs hbal fuel hfuel
    obtain ⟨fuel, rfl⟩ : ∃ f, fuel = f + 1 := ⟨fuel - 1, by simp at hfuel; omega⟩
    simp only [List.length_cons, Nat.add_le_add_iff_right] at hfuel
    have hne := hole_ne_root h
    have hcol := hole_color h hs
    have hpt := hole_parent h (hps F rest rfl)
    by_cases hred : t.rootColor = Color.red
    · cases t with
      | nil => simp at hred
      | node ct a x k b =>
        simp only [rootColor_node] at hred
        subst hred
        simp only [ptr_node, rootColor_node] at hcol hne ⊢
        have hxs : x ≠ s := (TreeInv.look (Γ := F :: rest) h).1
        refine ⟨m, root, x, ?_, ?_, rfl, ?_⟩
        · rw [delete_fixup_unfold]
          simp [is_black_iff, hcol]
        · have := recolor_spec (Γ := F :: rest) Color.black h
          cases F <;> simpa [delFix, ngx_rbt_black] using this
        · simp [ngx_rbt_black, Function.update_apply, Ne.symm hxs, hs]
    · have hblk : m.color (t.ptr s) = Color.black := by
        rw [hcol]; exact (Color.ne_red_iff _).1 hred
      cases F with
      | L cp p kp w =>
        simp only [RbFrame.id_L] at hpt
        simp only [ctxBal_L] at hbal
        obtain ⟨hwb, hwh, hbal'⟩ := hbal
        obtain ⟨cw, wl, wx, wk, wr, rfl⟩ := bheight_pos_node hwh
        have hp := TreeInv.look (Γ := rest) (c := cp) (l := t) (x := p) (k := kp)
          (r := node cw wl wx wk wr) h
        have hpc := TreeInv.child_color (Γ := rest) (c := cp) (l := t) (x := p) (k := kp)
          (r := node cw wl wx wk wr) h hs
        have hw := TreeInv.look (Γ := RbFrame.R cp t p kp :: rest) h
        have hwc := TreeInv.child_color (Γ := RbFrame.R cp t p kp :: rest) h hs
        simp only [ptr_node, rootColor_node] at hp hpc
        have hside : t.ptr s = m.left (m.parent (t.ptr s)) := by rw [hpt, hp.2.2.2.1]
        rw [delete_fixup_unfold]
        simp only [hne, ne_eq, not_false_eq_true, is_black_iff, hblk, and_self, if_true]
        rw [if_pos hside]
        simp only [hpt, hp.2.2.2.2.1, hpc.2]
        cases cw with
        | red =>
          simp only [if_true]
          have hwlh : wl.bheight = t.bheight + 1 := by simpa using hwh
          obtain ⟨cw2, wll, wlx, wlk, wlr, rfl⟩ := bheight_pos_node hwlh
          have h1 := recolor_spec (Γ := RbFrame.R cp t p kp :: rest) Color.black h
          have h2 := recolor_spec (Γ := rest) Color.red h1
          obtain ⟨h3, hc3, hk3, ha3⟩ := left_rotate_spec (Γ := rest) h2
          have h3' : TreeInv
              (ngx_rbtree_left_rotate (setColor (setColor m wx Color.black) p Color.red) root s p).1 s
              (ngx_rbtree_left_rotate (setColor (setColor m wx Color.black) p Color.red) root s p).2
              (plug (RbFrame.L Color.red p kp (node cw2 wll wlx wlk wlr) ::
                RbFrame.L Color.black wx wk wr :: rest) t) := h3
          have hps3 : t = nil → (ngx_rbtree_left_rotate (setColor (setColor m wx Color.black) p
              Color.red) root s p).1.parent s = p := fun e => by
            rw [ha3.2.2.2.1]; simpa using hps _ _ rfl e
          have hpt3 := hole_parent h3' hps3
          have hp3 := TreeInv.look (Γ := RbFrame.L Color.black wx wk wr :: rest) h3'
          have hw3 := TreeInv.look (Γ := RbFrame.R Color.red t p kp ::
            RbFrame.L Color.black wx wk wr :: rest) h3'
          have hs3 : (ngx_rbtree_left_rotate (setColor (setColor m wx Color.black) p
              Color.red) root s p).1.color s = Color.black := by
            rw [hc3]
            simp [Function.update_apply, Ne.symm hw.1, Ne.symm hp.1, hs]
          have hwc3 := TreeInv.child_color (Γ := RbFrame.R Color.red t p kp ::
            RbFrame.L Color.black wx wk wr :: rest) h3' hs3
          simp only [ngx_rbt_black, ngx_rbt_red, setColor_parent, hpt]
          simp only [RbFrame.id_L, ptr_node] at hpt3 hp3
          simp only [hpt3, hp3.2.2.2.2.1]
          generalize ngx_rbtree_left_rotate (setColor (setColor m wx Color.black) p Color.red)
            root s p = r3 at *
          by_cases hbb : wll.rootColor = Color.black ∧ wlr.rootColor = Color.black
          · have h4 := recolor_spec (Γ := RbFrame.R Color.red t p kp ::
              RbFrame.L Color.black wx wk wr :: rest) Color.red h3'
            have h5 := recolor_spec (Γ := RbFrame.L Color.black wx wk wr :: rest) Color.black h4
            have hne4 := hole_ne_root (F := RbFrame.L Color.black wx wk wr) (Γ := rest)
              (t := node Color.red t p kp (node Color.red wll wlx wlk wlr)) h4
            have hp4 := TreeInv.look (Γ := RbFrame.L Color.black wx wk wr :: rest) h4
            obtain ⟨fuel, rfl⟩ : ∃ f, fuel = f + 1 := ⟨fuel - 1, by omega⟩
            refine ⟨setColor r3.1 wlx Color.red, r3.2, p, ?_, ?_, ?_, ?_⟩
            · unfold delTailL
              simp only [is_black_iff, hw3.2.2.2.1, hw3.2.2.2.2.1, hwc3.1, hwc3.2, hbb, and_self,
                if_true, ngx_rbt_red, setColor_parent, hpt3]
              rw [delete_fixup_unfold]
              simp only [ptr_node] at hne4
              simp [is_black_iff, hp4.2.1]
            · simpa [delFix, hred, hbb, ngx_rbt_black] using h5
            · simpa using hk3
            · simp [ngx_rbt_black, Function.update_apply, hs3, Ne.symm hw3.1]
          · obtain ⟨m', root', e, hT, hk, hc⟩ := delTailL_rot h3' hps3 hs3 hbb fuel (by omega)
            refine ⟨m', root', root', e, ?_, ?_, ?_⟩
            · simpa [delFix, hred, hbb] using hT
            · rw [hk]; simpa using hk3
            · simp [ngx_rbt_black, Function.update_apply, hc]
        | black =>
          simp only [reduceCtorEq, if_false]
          by_cases hbb : wl.rootColor = Color.black ∧ wr.rootColor = Color.black
          · -- case 2
            have h1 := recolor_spec (Γ := RbFrame.R cp t p kp :: rest) Color.red h
            have hbal2 : ctxBal rest ((node cp t p kp (node Color.red wl wx wk wr)).bheight + 1) := by
              simp only [bheight_node]
              rw [Nat.add_right_comm]
              exact hbal'
            obtain ⟨m', root', temp', e, hT, hk, hc⟩ := ih (node cp t p kp (node Color.red wl wx wk wr))
              (setColor m wx Color.red) root h1 (fun _ _ _ hn => by simp at hn)
              (by simp [Function.update_apply, Ne.symm hw.1, hs]) hbal2 fuel hfuel
            refine ⟨m', root', temp', ?_, ?_, hk, hc⟩
            · unfold delTailL
              simp only [is_black_iff, hw.2.2.2.1, hw.2.2.2.2.1, hwc.1, hwc.2, hbb, and_self,
                if_true, ngx_rbt_red, setColor_parent, hpt]
              simpa using e
            · simpa [delFix, hred, hbb] using hT
          · obtain ⟨m', root', e, hT, hk, hc⟩ := delTailL_rot h (hps _ _ rfl) hs hbb fuel
              (by omega)
            refine ⟨m', root', root', e, ?_, hk, ?_⟩
            · simpa [delFix, hred, hbb] using hT
            · simp [ngx_rbt_black, Function.update_apply, hc]
      | R cp w p kp =>
        simp only [RbFrame.id_R] at hpt
        simp only [ctxBal_R] at hbal
        obtain ⟨hwb, hwh, hbal'⟩ := hbal
        obtain ⟨cw, wl, wx, wk, wr, rfl⟩ := bheight_pos_node hwh
        have hp := TreeInv.look (Γ := rest) (c := cp) (r := t) (x := p) (k := kp)
          (l := node cw wl wx wk wr) h
        have hpc := TreeInv.child_color (Γ := rest) (c := cp) (r := t) (x := p) (k := kp)
          (l := node cw wl wx wk wr) h hs
        have hw := TreeInv.look (Γ := RbFrame.L cp p kp t :: rest) h
        have hwc := TreeInv.child_color (Γ := RbFrame.L cp p kp t :: rest) h hs
        simp only [ptr_node, rootColor_node] at hp hpc
        have hside : ¬ t.ptr s = m.left (m.parent (t.ptr s)) := by
          rw [hpt, hp.2.2.2.1]
          intro e
          have := (TreeInv.children_ne (Γ := rest) (c := cp) (x := p) (k := kp)
            (l := node cw wl wx wk wr) (r := t) h (by simpa using e.symm)).1
          simp at this
        rw [delete_fixup_unfold]
        simp only [hne, ne_eq, not_false_eq_true, is_black_iff, hblk, and_self, if_true]
        rw [if_neg hside]
        simp only [hpt, hp.2.2.2.1, hpc.1]
        cases cw with
        | red =>
          simp only [if_true]
          have hwrh : wr.bheight = t.bheight + 1 := by
            simp only [Balanced_node, bheight_node, reduceCtorEq, if_false] at hwh hwb
            omega
          obtain ⟨cw2, wrl, wrx, wrk, wrr, rfl⟩ := bheight_pos_node hwrh
          have h1 := recolor_spec (Γ := RbFrame.L cp p kp t :: rest) Color.black h
          have h2 := recolor_spec (Γ := rest) Color.red h1
          obtain ⟨h3, hc3, hk3, ha3⟩ := right_rotate_spec (Γ := rest) h2
          have h3' : TreeInv
              (ngx_rbtree_right_rotate (setColor (setColor m wx Color.black) p Color.red) root s p).1 s
              (ngx_rbtree_right_rotate (setColor (setColor m wx Color.black) p Color.red) root s p).2
              (plug (RbFrame.R Color.red (node cw2 wrl wrx wrk wrr) p kp ::
                RbFrame.R Color.black wl wx wk :: rest) t) := h3
          have hps3 : t = nil → (ngx_rbtree_right_rotate (setColor (setColor m wx Color.black) p
              Color.red) root s p).1.parent s = p := fun e => by
            rw [ha3.2.2.2.1]; simpa using hps _ _ rfl e
          have hpt3 := hole_parent h3' hps3
          have hp3 := TreeInv.look (Γ := RbFrame.R Color.black wl wx wk :: rest) h3'
          have hw3 := TreeInv.look (Γ := RbFrame.L Color.red p kp t ::
            RbFrame.R Color.black wl wx wk :: rest) h3'
          have hs3 : (ngx_rbtree_right_rotate (setColor (setColor m wx Color.black) p
              Color.red) root s p).1.color s = Color.black := by
            rw [hc3]
            simp [Function.update_apply, Ne.symm hw.1, Ne.symm hp.1, hs]
          have hwc3 := TreeInv.child_color (Γ := RbFrame.L Color.red p kp t ::
            RbFrame.R Color.black wl wx wk :: rest) h3' hs3
          simp only [ngx_rbt_black, ngx_rbt_red, setColor_parent, hpt]
          simp only [RbFrame.id_R, ptr_node] at hpt3 hp3
          simp only [hpt3, hp3.2.2.2.1]
          generalize ngx_rbtree_right_rotate (setColor (setColor m wx Color.black) p Color.red)
            root s p = r3 at *
          by_cases hbb : wrl.rootColor = Color.black ∧ wrr.rootColor = Color.black
          · have h4 := recolor_spec (Γ := RbFrame.L Color.red p kp t ::
              RbFrame.R Color.black wl wx wk :: rest) Color.red h3'
            have h5 := recolor_spec (Γ := RbFrame.R Color.black wl wx wk :: rest) Color.black h4
            have hne4 := hole_ne_root (F := RbFrame.R Color.black wl wx wk) (Γ := rest)
              (t := node Color.red (node Color.red wrl wrx wrk wrr) p kp t) h4
            have hp4 := TreeInv.look (Γ := RbFrame.R Color.black wl wx wk :: rest) h4
            obtain ⟨fuel, rfl⟩ : ∃ f, fuel = f + 1 := ⟨fuel - 1, by omega⟩
            refine ⟨setColor r3.1 wrx Color.red, r3.2, p, ?_, ?_, ?_, ?_⟩
            · unfold delTailR
              simp only [is_black_iff, hw3.2.2.2.2.1, hw3.2.2.2.1, hwc3.2, hwc3.1, hbb, and_self,
                if_true, ngx_rbt_red, setColor_parent, hpt3]
              rw [delete_fixup_unfold]
              simp only [ptr_node] at hne4
              simp [is_black_iff, hp4.2.1]
            · simpa [delFix, hred, hbb, ngx_rbt_black] using h5
            · simpa using hk3
            · simp [ngx_rbt_black, Function.update_apply, hs3, Ne.symm hw3.1]
          · obtain ⟨m', root', e, hT, hk, hc⟩ := delTailR_rot h3' hps3 hs3 (fun hh => hbb ⟨hh.2, hh.1⟩) fuel (by omega)
            refine ⟨m', root', root', e, ?_, ?_, ?_⟩
            · simpa [delFix, hred, hbb] using hT
            · rw [hk]; simpa using hk3
            · simp [ngx_rbt_black, Function.update_apply, hc]
        | black =>
          simp only [reduceCtorEq, if_false]
          by_cases hbb : wl.rootColor = Color.black ∧ wr.rootColor = Color.black
          · -- case 2
            have h1 := recolor_spec (Γ := RbFrame.L cp p kp t :: rest) Color.red h
            have hbal2 : ctxBal rest ((node cp (node Color.red wl wx wk wr) p kp t).bheight + 1) := by
              simp only [bheight_node, reduceCtorEq, if_false, if_true] at hwh ⊢
              have e1 : wl.bheight = t.bheight := by omega
              rw [e1, Nat.add_zero, Nat.add_right_comm]
              exact hbal'
            obtain ⟨m', root', temp', e, hT, hk, hc⟩ := ih (node cp (node Color.red wl wx wk wr) p kp t)
              (setColor m wx Color.red) root h1 (fun _ _ _ hn => by simp at hn)
              (by simp [Function.update_apply, Ne.symm hw.1, hs]) hbal2 fuel hfuel
            refine ⟨m', root', temp', ?_, ?_, hk, hc⟩
            · unfold delTailR
              simp only [is_black_iff, hw.2.2.2.2.1, hw.2.2.2.1, hwc.2, hwc.1, hbb, and_self,
                if_true, ngx_rbt_red, setColor_parent, hpt]
              simpa using e
            · simpa [delFix, hred, hbb] using hT
          · obtain ⟨m', root', e, hT, hk, hc⟩ := delTailR_rot h (hps _ _ rfl) hs (fun hh => hbb ⟨hh.2, hh.1⟩) fuel
              (by omega)
            refine ⟨m', root', root', e, ?_, hk, ?_⟩
            · simpa [delFix, hred, hbb] using hT
            · simp [ngx_rbt_black, Function.update_apply, hc]

theorem pathOK_insPath (k : Nat) (t : RbTree) (fs : List RbFrame) (h : PathOK k fs) :
    PathOK k (insPath k t fs) := by
  induction t generalizing fs with
  | nil => exact h
  | node c l x kx r ihl ihr =>
    unfold insPath
    split
    · exact ihl _ ⟨by assumption, h⟩
    · exact ihr _ ⟨by omega, h⟩

theorem ctxLK_le (k : Nat) (fs : List RbFrame) (h : PathOK k fs)
    (hs : (ctxLK fs ++ ctxRK fs).Pairwise (· ≤ ·)) : ∀ a ∈ ctxLK fs, a ≤ k := by
  induction fs with
  | nil => simp [ctxLK]
  | cons f fs ih =>
    cases f with
    | L c x kx r =>
      simp only [ctxLK, ctxRK] at hs ⊢
      refine ih h.2 ?_
      refine hs.sublist ?_
      exact List.Sublist.append_left (List.sublist_append_right _ _) _
    | R c l x kx =>
      simp only [ctxLK, ctxRK] at hs ⊢
      intro a ha
      have hkx : kx ≤ k := h.1
      have h1 : (ctxLK fs ++ (l.keys ++ [kx])).Pairwise (· ≤ ·) :=
        hs.sublist (List.sublist_append_left _ _)
      rw [← List.append_assoc] at h1 ha
      rcases List.mem_append.1 ha with ha' | ha'
      · have := (List.pairwise_append.1 h1).2.2 a ha' kx (by simp)
        omega
      · have : a = kx := by simpa using ha'
        omega

theorem ctxRK_gt (k : Nat) (fs : List RbFrame) (h : PathOK k fs)
    (hs : (ctxLK fs ++ ctxRK fs).Pairwise (· ≤ ·)) : ∀ b ∈ ctxRK fs, k < b := by
  induction fs with
  | nil => simp [ctxRK]
  | cons f fs ih =>
    cases f with
    | R c l x kx =>
      simp only [ctxLK, ctxRK] at hs ⊢
      refine ih h.2 ?_
      refine hs.sublist ?_
      exact List.Sublist.append_right (List.sublist_append_left _ _) _
    | L c x kx r =>
      simp only [ctxLK, ctxRK] at hs ⊢
      intro b hb
      have hkx : k < kx := h.1
      have h1 : ((kx :: r.keys) ++ ctxRK fs).Pairwise (· ≤ ·) :=
        hs.sublist (List.sublist_append_right _ _)
      rw [List.cons_append] at h1 hb
      rcases List.mem_cons.1 hb with hb' | hb'
      · omega
      · have := (List.pairwise_cons.1 h1).1 b hb'
        omega

/-- Inserting into a tree whose in-order keys are sorted leaves them sorted. -/
theorem insTree_sorted (t : RbTree) (n k : Nat) (h : t.keys.Pairwise (· ≤ ·)) :
    (insTree t n k).keys.Pairwise (· ≤ ·) := by
  rw [insTree_keys]
  rw [keys_insPath k t] at h
  have hp := pathOK_insPath k t [] trivial
  have h1 := ctxLK_le k _ hp h
  have h2 := ctxRK_gt k _ hp h
  rw [List.pairwise_append] at h ⊢
  refine ⟨h.1, ?_, ?_⟩
  · rw [List.pairwise_cons]
    exact ⟨fun b hb => le_of_lt (h2 b hb), h.2.1⟩
  · intro a ha b hb
    rcases List.mem_cons.1 hb with rfl | hb'
    · exact h1 a ha
    · exact h.2.2 a ha b hb'

theorem insTree_ids_perm (t : RbTree) (n k : Nat) : (insTree t n k).ids.Perm (n :: t.ids) := by
  rw [insTree_ids, ids_insPath k t]
  exact List.perm_middle

theorem insTree_keys_perm (t : RbTree) (n k : Nat) :
    (insTree t n k).keys.Perm (k :: t.keys) := by
  rw [insTree_keys, keys_insPath k t]
  exact List.perm_middle

theorem RbTree.height_le_length (t : RbTree) : t.height ≤ t.ids.length := by
  induction t with
  | nil => simp [RbTree.height]
  | node c l x k r ihl ihr =>
    simp only [RbTree.height, ids_node, List.length_append, List.length_cons]
    have := max_le_iff.2 ⟨le_trans ihl (Nat.le_add_right _ r.ids.length),
      le_trans ihr (Nat.le_add_left _ l.ids.length)⟩
    omega

theorem wTree_inv : TreeInv wHeap wTree.sentinel wTree.root (node Color.black nil 2 5 nil) :=
  ⟨by simp [wHeap, wTree], rfl, by simp⟩

theorem wTree_rb : RBInv (node Color.black nil 2 5 nil) := by
  simp [RBInv]

/-! ## Claims on insertion -/

theorem insertAll_spec (fuel : Nat) (s : Nat) (ins : ngx_rbtree_insert_pt)
    (hins : ins = ngx_rbtree_insert_value) (ns : List Nat) :
    ∀ (m : RbHeap) (root : Nat) (t : RbTree), TreeInv m s root t → RBInv t →
      t.keys.Pairwise (· ≤ ·) → m.color s = Color.black → ns.Nodup →
      (∀ n ∈ ns, n ∉ t.ids ∧ n ≠ s) → t.ids.length + ns.length + 1 ≤ fuel →
      ∃ m' root' t', insertAll fuel ns m ⟨root, s, ins⟩ = some (m', ⟨root', s, ins⟩) ∧
        TreeInv m' s root' t' ∧ RBInv t' ∧ t'.keys.Pairwise (· ≤ ·) ∧
        t'.ids.Perm (ns ++ t.ids) ∧ t'.keys.Perm (ns.map m.key ++ t.keys) ∧
        m'.key = m.key ∧ m'.color s = Color.black := by
  induction ns with
  | nil =>
    intro m root t h hrb hso hs _ _ _
    exact ⟨m, root, t, rfl, h, hrb, hso, by simp, by simp, rfl, hs⟩
  | cons n ns ih =>
    intro m root t h hrb hso hs hnd hfresh hfuel
    have hn := hfresh n (by simp)
    simp only [List.length_cons] at hfuel
    obtain ⟨m1, root1, e1, hT1, hk1, hs1⟩ :=
      @ngx_rbtree_insert_spec m ⟨root, s, ins⟩ t n h hins hrb.1 hs hn.1 hn.2 fuel
        (by have := t.height_le_length; omega)
    have hp1 := insTree_ids_perm t n (m.key n)
    have hnd' := List.nodup_cons.1 hnd
    obtain ⟨m', root', t', e, hT, hrb', hso', hp, hpk, hk, hs'⟩ :=
      ih m1 root1 (insTree t n (m.key n)) hT1 (insTree_rb _ _ _ hrb)
        (insTree_sorted _ _ _ hso) hs1 hnd'.2
        (fun q hq => ⟨fun hc => by
          rcases List.mem_cons.1 (hp1.mem_iff.1 hc) with rfl | hc'
          · exact hnd'.1 hq
          · exact (hfresh q (by simp [hq])).1 hc', (hfresh q (by simp [hq])).2⟩)
        (by rw [hp1.length_eq]; simp only [List.length_cons]; omega)
    refine ⟨m', root', t', ?_, hT, hrb', hso', ?_, ?_, by rw [hk, hk1], hs'⟩
    · simp only [insertAll, e1]
      exact e
    · refine hp.trans ?_
      refine (List.Perm.append_left ns hp1).trans ?_
      simpa using (@List.perm_middle _ n ns t.ids)
    · refine hpk.trans ?_
      rw [hk1]
      refine (List.Perm.append_left _ (insTree_keys_perm t n (m.key n))).trans ?_
      simpa using (@List.perm_middle _ (m.key n) (ns.map m.key) t.keys)

/-- C1: when memory holds a tree that satisfies the three red-black invariants (black root,
no red node with a red child, equal black height on all paths), with a black sentinel, and
`node` is not in the tree, `ngx_rbtree_insert` with the strategy `ngx_rbtree_insert_value`
returns (for fuel above the tree height) and the tree it leaves satisfies the three
invariants again. -/
theorem ngx_rbtree_insert_preserves_rb (m : RbHeap) (tree : ngx_rbtree_t) (t : RbTree)
    (node fuel : Nat) (h : TreeInv m tree.sentinel tree.root t)
    (hins : tree.insert = ngx_rbtree_insert_value)
    (hs : m.color tree.sentinel = Color.black) (hrb : RBInv t) (hn : node ∉ t.ids)
    (hns : node ≠ tree.sentinel) (hfuel : t.height + 1 ≤ fuel) :
    ∃ m' tree' t', ngx_rbtree_insert fuel m tree node = some (m', tree') ∧
      tree'.sentinel = tree.sentinel ∧ TreeInv m' tree'.sentinel tree'.root t' ∧
      t'.rootColor = Color.black ∧ t'.NoRedRed ∧ t'.Balanced := by
  obtain ⟨m', root', e, hT, -, -⟩ := ngx_rbtree_insert_spec h hins hrb.1 hs hn hns fuel hfuel
  exact ⟨m', _, _, e, rfl, hT, insTree_rb _ _ _ hrb⟩

theorem ngx_rbtree_insert_preserves_rb_witness :
    ∃ m' tree' t', ngx_rbtree_insert 2 wHeap wTree 3 = some (m', tree') ∧
      tree'.sentinel = wTree.sentinel ∧ TreeInv m' tree'.sentinel tree'.root t' ∧
      t'.rootColor = Color.black ∧ t'.NoRedRed ∧ t'.Balanced :=
  ngx_rbtree_insert_preserves_rb wHeap wTree (node Color.black nil 2 5 nil) 3 2 wTree_inv rfl
    rfl wTree_rb (by simp) (by decide) (by simp [RbTree.height])

/-- C3: inserting the nodes of a duplicate-free list one by one with `ngx_rbtree_insert`
(strategy `ngx_rbtree_insert_value`) into an empty tree returns, and the in-order key list
of the resulting tree is a rearrangement of the inserted keys in non-decreasing order. -/
theorem ngx_rbtree_insert_seq_sorted (m : RbHeap) (tree : ngx_rbtree_t) (ns : List Nat)
    (fuel : Nat) (hempty : tree.root = tree.sentinel)
    (hins : tree.insert = ngx_rbtree_insert_value)
    (hs : m.color tree.sentinel = Color.black) (hnd : ns.Nodup)
    (hns : tree.sentinel ∉ ns) (hfuel : ns.length + 1 ≤ fuel) :
    ∃ m' tree' t', insertAll fuel ns m tree = some (m', tree') ∧
      TreeInv m' tree.sentinel tree'.root t' ∧ t'.keys.Pairwise (· ≤ ·) ∧
      t'.keys.Perm (ns.map m.key) ∧ t'.ids.Perm ns := by
  obtain ⟨root, s, ins⟩ := tree
  simp only at hempty hins hs hns ⊢
  subst hempty
  obtain ⟨m', root', t', e, hT, -, hso, hp, hpk, -, -⟩ :=
    insertAll_spec fuel root ins hins ns m root nil ⟨trivial, rfl, by simp⟩ (by simp [RBInv])
      (by simp) hs hnd (fun n hn => ⟨by simp, fun e => hns (e ▸ hn)⟩) (by simpa using hfuel)
  exact ⟨m', _, t', e, hT, hso, by simpa using hpk, by simpa using hp⟩

theorem ngx_rbtree_insert_seq_sorted_witness :
    ∃ m' tree' t', insertAll 8 [2, 3, 4, 5, 6, 7, 8] seqHeap wEmpty = some (m', tree') ∧
      TreeInv m' wEmpty.sentinel tree'.root t' ∧ t'.keys.Pairwise (· ≤ ·) ∧
      t'.keys.Perm ([2, 3, 4, 5, 6, 7, 8].map seqHeap.key) ∧ t'.ids.Perm [2, 3, 4, 5, 6, 7, 8] :=
  ngx_rbtree_insert_seq_sorted seqHeap wEmpty [2, 3, 4, 5, 6, 7, 8] 8 rfl rfl rfl (by decide)
    (by decide) (by decide)

/-- C5: on a stored tree with black root and black sentinel, `ngx_rbtree_insert` of a node
that is not in the tree returns (it never fails), and the nodes of the tree afterwards are
the previous nodes plus the new node, none twice; inserting into the empty tree makes the
node the black root with both children the sentinel. -/
theorem ngx_rbtree_insert_nodes (m : RbHeap) (tree : ngx_rbtree_t) (t : RbTree)
    (node fuel : Nat) (h : TreeInv m tree.sentinel tree.root t)
    (hins : tree.insert = ngx_rbtree_insert_value)
    (hs : m.color tree.sentinel = Color.black) (hroot : t.rootColor = Color.black)
    (hn : node ∉ t.ids) (hns : node ≠ tree.sentinel) (hfuel : t.height + 1 ≤ fuel) :
    ∃ m' tree' t', ngx_rbtree_insert fuel m tree node = some (m', tree') ∧
      tree'.sentinel = tree.sentinel ∧ TreeInv m' tree'.sentinel tree'.root t' ∧
      t'.ids.Perm (node :: t.ids) ∧ t'.ids.Nodup ∧
      (t = nil → tree'.root = node ∧ m'.color node = Color.black ∧
        m'.left node = tree.sentinel ∧ m'.right node = tree.sentinel) := by
  obtain ⟨m', root', e, hT, -, -⟩ := ngx_rbtree_insert_spec h hins hroot hs hn hns fuel hfuel
  refine ⟨m', _, _, e, rfl, hT, insTree_ids_perm _ _ _, hT.nodup, ?_⟩
  rintro rfl
  have h1 : TreeInv m' tree.sentinel root' (RbTree.node Color.black nil node (m.key node) nil) := hT
  have h2 := TreeInv.look (Γ := []) h1
  exact ⟨(h2.2.2.2.2.2.2.2 rfl).symm, h2.2.1, h2.2.2.2.1, h2.2.2.2.2.1⟩

theorem ngx_rbtree_insert_nodes_witness :
    ∃ m' tree' t', ngx_rbtree_insert 2 wHeap wTree 3 = some (m', tree') ∧
      tree'.sentinel = wTree.sentinel ∧ TreeInv m' tree'.sentinel tree'.root t' ∧
      t'.ids.Perm (3 :: (node Color.black nil 2 5 nil).ids) ∧ t'.ids.Nodup ∧
      (node Color.black nil 2 5 nil = nil → tree'.root = 3 ∧ m'.color 3 = Color.black ∧
        m'.left 3 = wTree.sentinel ∧ m'.right 3 = wTree.sentinel) :=
  ngx_rbtree_insert_nodes wHeap wTree (node Color.black nil 2 5 nil) 3 2 wTree_inv rfl
    rfl rfl (by simp) (by decide) (by simp [RbTree.height])

/-! ## Deletion: from the code to the abstract tree -/

theorem unlink_eq (m : RbHeap) (root s node subst temp : Nat) :
    ngx_rbtree_delete_unlink m root s node subst temp =
      if subst = node then (transplantM m subst temp (m.parent subst), root)
      else
        substM (transplantM m subst temp (if m.parent subst = node then subst else m.parent subst))
          root s node subst := by
  unfold ngx_rbtree_delete_unlink transplantM substM
  have hp : (if subst = m.left (m.parent subst) then setLeft m (m.parent subst) temp
      else setRight m (m.parent subst) temp).parent = m.parent := by
    split <;> rfl
  generalize (if subst = m.left (m.parent subst) then setLeft m (m.parent subst) temp
      else setRight m (m.parent subst) temp) = m1 at hp ⊢
  simp only [hp]
  by_cases h1 : subst = node
  · rw [if_pos h1, if_pos h1]
  · rw [if_neg h1, if_neg h1]
    by_cases h3 : m.parent subst = node
    · rw [if_pos h3, if_pos h3]
    · rw [if_neg h3, if_neg h3]

theorem ngx_rbtree_delete_unfold (fuel : Nat) (m : RbHeap) (tree : ngx_rbtree_t)
    (node temp subst : Nat)
    (hsel : ngx_rbtree_delete_select fuel m tree.sentinel node = some (temp, subst))
    (hne : subst ≠ tree.root) :
    ngx_rbtree_delete fuel m tree node =
      deleteTail fuel (ngx_rbtree_delete_unlink m tree.root tree.sentinel node subst temp).1 tree
        (ngx_rbtree_delete_unlink m tree.root tree.sentinel node subst temp).2 node temp
        (ngx_rbt_is_red m subst) := by
  unfold ngx_rbtree_delete deleteTail
  simp only [hsel, if_neg hne] <;> rfl

theorem deleteTail_spec {m2 : RbHeap} {tree : ngx_rbtree_t} {root2 x : Nat}
    {gs : List RbFrame} {T : RbTree} (red : Bool)
    (h : TreeInv m2 tree.sentinel root2 (plug gs T)) (hx : x ∉ (plug gs T).ids)
    (hxs : x ≠ tree.sentinel)
    (hpar : ∀ F rest, gs = F :: rest → T = nil → m2.parent tree.sentinel = F.id)
    (hs : m2.color tree.sentinel = Color.black)
    (hbal : red = false → ctxBal gs (T.bheight + 1))
    (fuel : Nat) (hfuel : gs.length + 1 ≤ fuel) :
    ∃ m' root', deleteTail fuel m2 tree root2 x (T.ptr tree.sentinel) red =
        some (m', { tree with root := root' }) ∧
      TreeInv m' tree.sentinel root' (if red = true then plug gs T else delFix gs T) ∧
      (∀ q, q ≠ x → m'.key q = m2.key q) ∧ m'.color tree.sentinel = Color.black := by
  obtain ⟨hT, hag, hc⟩ := debug_spec h hx hxs
  cases red with
  | true =>
    refine ⟨_, root2, by simp [deleteTail], by simpa using hT, fun q hq => (hag q hq).1, ?_⟩
    rw [hc]; exact hs
  | false =>
    obtain ⟨m', root', temp', e, hT', hk, hs'⟩ :=
      delete_fixup_spec gs T (ngx_rbtree_delete_debug m2 x) root2 hT
        (fun F rest e1 e2 => by
          rw [(hag tree.sentinel (Ne.symm hxs)).2.2.2.1]; exact hpar F rest e1 e2)
        (by rw [hc]; exact hs) (hbal rfl) fuel hfuel
    refine ⟨_, root', by simp [deleteTail, e], by simpa using hT', fun q hq => ?_, hs'⟩
    show m'.key q = _
    rw [hk]
    exact (hag q hq).1

theorem RepT.ptr_eq_sentinel {m : RbHeap} {s : Nat} {t : RbTree} {par : Option Nat}
    (h : RepT m s t par) : t.ptr s = s ↔ t = nil := by
  cases t with
  | nil => simp
  | node c l x k r =>
    simp only [RepT_node] at h
    simp [h.1]

theorem TreeInv.children_rep {m : RbHeap} {s root : Nat} {Γ : List RbFrame} {c : Color}
    {l r : RbTree} {x k : Nat} (h : TreeInv m s root (plug Γ (node c l x k r))) :
    RepT m s l (some x) ∧ RepT m s r (some x) := by
  have := h.rep
  rw [RepT_plug] at this
  simp only [RepT_node] at this
  exact ⟨this.2.2.2.2.2.2.2.1, this.2.2.2.2.2.2.2.2⟩

theorem select_one {m : RbHeap} {s root : Nat} {fs : List RbFrame} {c : Color}
    {l r T : RbTree} {x k : Nat} (h : TreeInv m s root (plug fs (node c l x k r)))
    (hT : (T = l ∧ r = nil) ∨ (T = r ∧ l = nil)) (fuel : Nat) :
    ngx_rbtree_delete_select fuel m s x = some (T.ptr s, x) := by
  obtain ⟨-, -, -, hl, hr, -, -⟩ := h.look
  obtain ⟨hRl, hRr⟩ := h.children_rep
  unfold ngx_rbtree_delete_select
  rw [hl, hr]
  by_cases e1 : l.ptr s = s
  · rw [if_pos e1]
    rcases hT with ⟨rfl, rfl⟩ | ⟨rfl, -⟩
    · simp [e1]
    · rfl
  · rw [if_neg e1]
    have hl' : l ≠ nil := fun e => e1 (hRl.ptr_eq_sentinel.2 e)
    rcases hT with ⟨rfl, rfl⟩ | ⟨rfl, e⟩
    · simp
    · exact absurd e hl'

theorem delSplit_one {fs : List RbFrame} {c : Color} {l r T : RbTree} (k : Nat)
    (hT : (T = l ∧ r = nil) ∨ (T = r ∧ l = nil)) : delSplit fs c l k r = (fs, T, c) := by
  rcases hT with ⟨rfl, rfl⟩ | ⟨rfl, rfl⟩
  · cases T <;> rfl
  · rfl

/-- `ngx_rbtree_delete` of a root with at most one child. -/
theorem delete_root_spec {m : RbHeap} {tree : ngx_rbtree_t} {c : Color}
    {l r T : RbTree} {x k : Nat}
    (h : TreeInv m tree.sentinel tree.root (node c l x k r))
    (hT : (T = l ∧ r = nil) ∨ (T = r ∧ l = nil))
    (hs : m.color tree.sentinel = Color.black) (fuel : Nat) :
    ∃ m' root', ngx_rbtree_delete fuel m tree x = some (m', { tree with root := root' }) ∧
      TreeInv m' tree.sentinel root' (delAt [] c l k r) ∧
      (∀ q, q ≠ x → m'.key q = m.key q) ∧ m'.color tree.sentinel = Color.black := by
  have hsel := @select_one m tree.sentinel tree.root [] c l r T x k h hT fuel
  obtain ⟨hxs, -, -, -, -, -, hroot⟩ := TreeInv.look (Γ := []) h
  have hxr : x = tree.root := hroot.2 rfl
  obtain ⟨hRl, hRr⟩ := TreeInv.children_rep (Γ := []) h
  have hRT : RepT m tree.sentinel T (some x) := by
    rcases hT with ⟨rfl, -⟩ | ⟨rfl, -⟩
    · exact hRl
    · exact hRr
  have hnd : T.ids.Nodup ∧ x ∉ T.ids := by
    have := h.nodup
    simp only [ids_node, List.nodup_append, List.nodup_cons] at this
    rcases hT with ⟨rfl, rfl⟩ | ⟨rfl, rfl⟩
    · refine ⟨this.1, fun hc => this.2.2 hc (by simp)⟩
    · exact ⟨this.2.1.2, this.2.1.1⟩
  have h1 : TreeInv m tree.sentinel (T.ptr tree.sentinel) T :=
    ⟨RepT_reparent hRT (fun _ _ _ _ _ _ => trivial), rfl, hnd.1⟩
  have h2 := setBlack_spec h1
  obtain ⟨h3, hag, hc⟩ := debug_spec h2 (by simpa using hnd.2) hxs
  refine ⟨ngx_rbtree_delete_debug (ngx_rbt_black m (T.ptr tree.sentinel)) x,
    T.ptr tree.sentinel, ?_, ?_, fun q hq => ?_, ?_⟩
  · unfold ngx_rbtree_delete
    simp only [hsel]
    rw [if_pos hxr]
  · have e : delAt [] c l k r = T.setBlack := by
      simp [delAt, delSplit_one k hT, delFix]
    rw [e]; exact h3
  · exact (hag q hq).1
  · rw [hc]
    by_cases e : T.ptr tree.sentinel = tree.sentinel
    · rw [e]; simp [ngx_rbt_black]
    · simp [ngx_rbt_black, Function.update_apply, Ne.symm e, hs]

theorem mem_ids_one {c : Color} {l r T : RbTree} {x k : Nat}
    (hT : (T = l ∧ r = nil) ∨ (T = r ∧ l = nil)) :
    (node c l x k r).ids.Perm (x :: T.ids) := by
  rcases hT with ⟨rfl, rfl⟩ | ⟨rfl, rfl⟩
  · simpa using List.perm_append_comm
  · simp

/-- `ngx_rbtree_delete` of a node with at most one child that is not the root. -/
theorem delete_one_spec {m : RbHeap} {tree : ngx_rbtree_t} {F : RbFrame} {gs : List RbFrame}
    {c : Color} {l r T : RbTree} {x k : Nat}
    (h : TreeInv m tree.sentinel tree.root (plug (F :: gs) (node c l x k r)))
    (hT : (T = l ∧ r = nil) ∨ (T = r ∧ l = nil))
    (hs : m.color tree.sentinel = Color.black)
    (hbal : (plug (F :: gs) (node c l x k r)).Balanced)
    (fuel : Nat) (hfuel : (F :: gs).length + 1 ≤ fuel) :
    ∃ m' root', ngx_rbtree_delete fuel m tree x = some (m', { tree with root := root' }) ∧
      TreeInv m' tree.sentinel root' (delAt (F :: gs) c l k r) ∧
      (∀ q, q ≠ x → m'.key q = m.key q) ∧ m'.color tree.sentinel = Color.black := by
  have hsel := select_one h hT fuel
  obtain ⟨hxs, hcx, -, -, -, hpx, hroot⟩ := h.look
  have hne : x ≠ tree.root := fun e => by simpa using hroot.1 e
  have hv : m.parent x = F.id := by simpa using hpx
  obtain ⟨hC, hRT, hpar, -, hkey, hcol⟩ := transplant_spec (m.parent x) h hT
  have hbl := h.blocks
  have hperm : (tree.sentinel :: (idsC (F :: gs) ++ (node c l x k r).ids)).Perm
      (x :: tree.sentinel :: (idsC (F :: gs) ++ T.ids)) := by
    refine (List.Perm.cons _ ((List.Perm.append_left _ (mem_ids_one hT)).trans
      List.perm_middle)).trans (List.Perm.swap _ _ _)
  have hnd2 := List.nodup_cons.1 (hperm.nodup_iff.1 hbl)
  have h2 : TreeInv (transplantM m x (T.ptr tree.sentinel) (m.parent x)) tree.sentinel
      tree.root (plug (F :: gs) T) := by
    refine ⟨(RepT_plug _ _ _ _).2 ⟨hC, by simpa [hv] using hRT⟩, ?_, ?_⟩
    · have := h.root_eq
      rw [ptr_plug] at this ⊢
      simpa using this
    · rw [(ids_plug_perm _ _).nodup_iff]
      exact (List.nodup_cons.1 hnd2.2).2
  have hx2 : x ∉ (plug (F :: gs) T).ids := fun hc =>
    hnd2.1 (List.mem_cons_of_mem _ ((ids_plug_perm _ _).mem_iff.1 hc))
  obtain ⟨m', root', e, hT', hk, hs'⟩ := deleteTail_spec (ngx_rbt_is_red m x) h2 hx2 hxs
    (fun F' rest e1 e2 => by
      subst e2
      simp only [ptr_nil] at hpar ⊢
      rw [hpar, hv]
      simp only [List.cons.injEq] at e1
      rw [e1.1])
    (by rw [hcol]; exact hs)
    (fun hred => by
      have hcb : c = Color.black := by
        simp only [ngx_rbt_is_red, hcx, decide_eq_false_iff_not] at hred
        exact (Color.ne_red_iff _).1 hred
      have hb := (Balanced_plug _ _).1 hbal
      subst hcb
      have e3 : T.bheight = l.bheight := by
        have := hb.2
        rcases hT with ⟨rfl, rfl⟩ | ⟨rfl, rfl⟩
        · rfl
        · simp only [Balanced_node] at this
          exact this.2.2.symm
      rw [e3]
      simpa using hb.1)
    fuel hfuel
  refine ⟨m', root', ?_, ?_, fun q hq => ?_, hs'⟩
  · rw [ngx_rbtree_delete_unfold fuel m tree x _ x hsel hne, unlink_eq, if_pos rfl]
    exact e
  · have e4 : delAt (F :: gs) c l k r =
        if ngx_rbt_is_red m x = true then plug (F :: gs) T else delFix (F :: gs) T := by
      simp [delAt, delSplit_one k hT, ngx_rbt_is_red, hcx]
    rw [e4]; exact hT'
  · rw [hk q hq, hkey]

theorem idsC_append (a b : List RbFrame) : idsC (a ++ b) = idsC a ++ idsC b := by
  induction a with
  | nil => rfl
  | cons f a ih => simp [ih]

/-- State after the first step of a two-children delete: the minimum `y` of the right
subtree is unlinked; the facts needed to put `y` in the place of `x` hold. -/
theorem two_transplant {m : RbHeap} {s root : Nat} {fs mf : List RbFrame} {c c2 : Color}
    {l r2 : RbTree} {x k y ky : Nat}
    (h0 : TreeInv m s root (plug (mf ++ RbFrame.R c l x k :: fs) (node c2 nil y ky r2))) :
    ∃ par', RepC (transplantM m y (r2.ptr s) (if m.parent y = x then y else m.parent y)) s fs x ∧
      (transplantM m y (r2.ptr s) (if m.parent y = x then y else m.parent y)).color x = c ∧
      parOK (parOf fs)
        ((transplantM m y (r2.ptr s) (if m.parent y = x then y else m.parent y)).parent x) ∧
      (transplantM m y (r2.ptr s) (if m.parent y = x then y else m.parent y)).left x = l.ptr s ∧
      (transplantM m y (r2.ptr s) (if m.parent y = x then y else m.parent y)).right x =
        (plug mf r2).ptr s ∧
      RepT (transplantM m y (r2.ptr s) (if m.parent y = x then y else m.parent y)) s l (some x) ∧
      RepT (transplantM m y (r2.ptr s) (if m.parent y = x then y else m.parent y)) s
        (plug mf r2) par' ∧
      (∀ F' rest, mf ++ RbFrame.R c l y ky :: fs = F' :: rest →
        (transplantM m y (r2.ptr s) (if m.parent y = x then y else m.parent y)).parent
          (r2.ptr s) = F'.id) ∧
      (transplantM m y (r2.ptr s) (if m.parent y = x then y else m.parent y)).key = m.key ∧
      (transplantM m y (r2.ptr s) (if m.parent y = x then y else m.parent y)).color = m.color := by
  have hpy := h0.look.2.2.2.2.2.1
  cases mf with
  | nil =>
    simp only [List.nil_append] at h0 hpy ⊢
    have e : m.parent y = x := by simpa using hpy
    rw [if_pos e]
    obtain ⟨hC, hRT, hpar, -, hkey, hcol⟩ := transplant_spec y h0 (Or.inr ⟨rfl, rfl⟩)
    simp only [RepC_R] at hC
    obtain ⟨-, h2, -, h4, h5, h6, h7, h8⟩ := hC
    refine ⟨some y, h8, h2, h4, h5, by simpa using h6, h7, by simpa using hRT, ?_, hkey, hcol⟩
    intro F' rest e1
    simp only [List.cons.injEq] at e1
    rw [hpar, ← e1.1]
    rfl
  | cons F0 g0 =>
    simp only [List.cons_append] at h0 hpy ⊢
    have e : m.parent y = F0.id := by simpa using hpy
    have hne : F0.id ≠ x := by
      have hb := h0.blocks
      simp only [idsC_cons, idsC_append, RbFrame.ids_R] at hb
      have hB : [[s], F0.ids, idsC g0, [x], l.ids ++ idsC fs ++ (node c2 nil y ky r2).ids].flatten.Nodup := by
        simpa using hb
      exact blocks_ne hB 1 3 (by decide) (by cases F0 <;> simp) (by simp)
    rw [if_neg (by rw [e]; exact hne), e]
    obtain ⟨hC, hRT, hpar, -, hkey, hcol⟩ := transplant_spec F0.id h0 (Or.inr ⟨rfl, rfl⟩)
    have h1 : RepT (transplantM m y (r2.ptr s) F0.id) s
        (plug (F0 :: (g0 ++ RbFrame.R c l x k :: fs)) r2) none :=
      (RepT_plug _ _ _ _).2 ⟨hC, by simpa using hRT⟩
    rw [← List.cons_append, plug_append, plug_cons, RbFrame.fill_R, RepT_plug] at h1
    obtain ⟨hC', hN⟩ := h1
    simp only [RepT_node, ptr_node] at hN hC'
    obtain ⟨-, h2, -, h4, h5, h6, h7, h8⟩ := hN
    refine ⟨some x, hC', h2, h4, h5, h6, h7, h8, ?_, hkey, hcol⟩
    intro F' rest e1
    simp only [List.cons.injEq] at e1
    rw [hpar, ← e1.1]

theorem ctxBal_append_R (mf fs : List RbFrame) (c : Color) (l : RbTree) (x k y ky n : Nat) :
    ctxBal (mf ++ RbFrame.R c l x k :: fs) n ↔ ctxBal (mf ++ RbFrame.R c l y ky :: fs) n := by
  induction mf generalizing n with
  | nil => simp
  | cons f mf ih => cases f <;> simp [ih]

theorem height_plug (fs : List RbFrame) (t : RbTree) :
    fs.length + t.height ≤ (plug fs t).height := by
  induction fs generalizing t with
  | nil => simp
  | cons f fs ih =>
    cases f with
    | L c x k r =>
      have := ih (node c t x k r)
      simp only [plug_cons, RbFrame.fill_L, List.length_cons, RbTree.height] at this ⊢
      omega
    | R c l x k =>
      have := ih (node c l x k t)
      simp only [plug_cons, RbFrame.fill_R, List.length_cons, RbTree.height] at this ⊢
      omega

theorem delSplit_two {fs : List RbFrame} {c c2 : Color} {l r r2 : RbTree} {k y ky : Nat}
    (hl : l ≠ nil) (hr : r ≠ nil) (hmin : minNode r = node c2 nil y ky r2) :
    delSplit fs c l k r = (minFrames r ++ RbFrame.R c l y ky :: fs, r2, c2) := by
  cases l with
  | nil => exact absurd rfl hl
  | node cl ll lx lk lr =>
    cases r with
    | nil => exact absurd rfl hr
    | node cr rl rx rk rr =>
      simp only [delSplit]
      rw [hmin]

theorem select_two {m : RbHeap} {s root : Nat} {fs : List RbFrame} {c c2 : Color}
    {l r r2 : RbTree} {x k y ky : Nat} (h : TreeInv m s root (plug fs (node c l x k r)))
    (hl : l ≠ nil) (hr : r ≠ nil) (hmin : minNode r = node c2 nil y ky r2)
    (fuel : Nat) (hfuel : r.height ≤ fuel) :
    ngx_rbtree_delete_select fuel m s x = some (r2.ptr s, y) := by
  obtain ⟨-, -, -, hlx, hrx, -, -⟩ := h.look
  obtain ⟨hRl, hRr⟩ := h.children_rep
  have h1 : plug fs (node c l x k r) = plug (RbFrame.R c l x k :: fs) r := rfl
  have hm := ngx_rbtree_min_spec r (RbFrame.R c l x k :: fs) m (h1 ▸ h) hr fuel hfuel
  have h2 : plug fs (node c l x k r) =
      plug (minFrames r ++ RbFrame.R c l x k :: fs) (node c2 nil y ky r2) := by
    rw [plug_append, ← hmin, plug_minFrames]
    rfl
  obtain ⟨-, -, -, hly, hry, -, -⟩ := (h2 ▸ h).look
  unfold ngx_rbtree_delete_select
  rw [hlx, hrx, if_neg (fun e => hl (hRl.ptr_eq_sentinel.1 e)),
    if_neg (fun e => hr (hRr.ptr_eq_sentinel.1 e)), hm, hmin]
  simp only [ptr_node, ptr_nil] at hly ⊢
  simp [hly, hry]

/-- `ngx_rbtree_delete` of a node with two children. -/
theorem delete_two_spec {m : RbHeap} {tree : ngx_rbtree_t} {fs : List RbFrame}
    {c : Color} {l r : RbTree} {x k : Nat}
    (h : TreeInv m tree.sentinel tree.root (plug fs (node c l x k r)))
    (hl : l ≠ nil) (hr : r ≠ nil)
    (hs : m.color tree.sentinel = Color.black)
    (hbal : (plug fs (node c l x k r)).Balanced)
    (fuel : Nat) (hfuel : (plug fs (node c l x k r)).height + 1 ≤ fuel) :
    ∃ m' root', ngx_rbtree_delete fuel m tree x = some (m', { tree with root := root' }) ∧
      TreeInv m' tree.sentinel root' (delAt fs c l k r) ∧
      (∀ q, q ≠ x → m'.key q = m.key q) ∧ m'.color tree.sentinel = Color.black := by
  obtain ⟨c2, y, ky, r2, hmin⟩ := minNode_shape r hr
  have hht := height_plug fs (node c l x k r)
  have hmfl := minFrames_length r
  simp only [RbTree.height] at hht
  have hsel := select_two h hl hr hmin fuel (by omega)
  have e0 : plug fs (node c l x k r) =
      plug (minFrames r ++ RbFrame.R c l x k :: fs) (node c2 nil y ky r2) := by
    rw [plug_append, ← hmin, plug_minFrames]
    rfl
  have h0 := h
  rw [e0] at h0 hbal
  obtain ⟨hys, hcy, hky, -, -, -, hyroot⟩ := h0.look
  obtain ⟨hxs, -, -, -, -, -, -⟩ := h.look
  have hyne : y ≠ tree.root := fun e => by simpa using hyroot.1 e
  have hrp : r.ids.Perm ((plug (minFrames r) r2).ids ++ [y]) := by
    have e1 : r.ids = (plug (minFrames r) (node c2 nil y ky r2)).ids := by
      rw [← hmin, plug_minFrames]
    rw [e1]
    refine (ids_plug_perm _ _).trans (List.Perm.trans ?_
      (List.Perm.append_right _ (ids_plug_perm _ _).symm))
    simp only [ids_node, ids_nil, List.nil_append]
    exact List.perm_middle.trans (@List.perm_append_comm _ [y] _)
  have hB : [[tree.sentinel], idsC fs, l.ids, [x], (plug (minFrames r) r2).ids,
      [y]].flatten.Nodup := by
    have hb := h.blocks
    refine (List.Perm.nodup_iff ?_).1 hb
    simp only [ids_node, List.flatten_cons, List.flatten_nil, List.append_nil,
      List.singleton_append]
    exact List.Perm.cons _ (List.Perm.append_left _ (List.Perm.append_left _
      (List.Perm.cons _ hrp)))
  have hyx : y ≠ x := blocks_ne hB 5 3 (by decide) (by simp) (by simp)
  obtain ⟨par', hC, hcx, hpx, hlx, hrx, hRl, hRr, hpar, hkey, hcol⟩ := two_transplant h0
  have hroot : tree.root = topId fs x := by
    have := h.root_eq
    rw [ptr_plug] at this
    simpa using this
  obtain ⟨h3, hk3, hags, -⟩ := subst_spec hC hroot hxs hcx hpx hlx hrx hRl hRr hB
  rw [hkey, hky] at h3
  have e3 : plug fs (node c l y ky (plug (minFrames r) r2)) =
      plug (minFrames r ++ RbFrame.R c l y ky :: fs) r2 := by
    rw [plug_append]
    rfl
  have hx2 : x ∉ (plug fs (node c l y ky (plug (minFrames r) r2))).ids := by
    intro hc
    have hc' := (ids_plug_perm _ _).mem_iff.1 hc
    simp only [ids_node, List.mem_append, List.mem_cons] at hc'
    rcases hc' with hc' | hc' | hc' | hc'
    · exact blocks_ne hB 3 1 (by decide) (by simp) hc' rfl
    · exact blocks_ne hB 3 2 (by decide) (by simp) hc' rfl
    · exact hyx hc'.symm
    · exact blocks_ne hB 3 4 (by decide) (by simp) hc' rfl
  rw [e3] at h3 hx2
  obtain ⟨m', root', e, hT', hk, hs'⟩ := deleteTail_spec (ngx_rbt_is_red m y) h3 hx2 hxs
    (fun F' rest e1 e2 => by
      have := hpar F' rest e1
      rw [e2] at this
      simp only [ptr_nil] at this
      rw [hags.2.2.2.1, ← this, e2]
      rfl)
    (by rw [hags.2.2.2.2, hcol]; exact hs)
    (fun hred => by
      have hcb : c2 = Color.black := by
        simp only [ngx_rbt_is_red, hcy, decide_eq_false_iff_not] at hred
        exact (Color.ne_red_iff _).1 hred
      have hb := (Balanced_plug _ _).1 hbal
      subst hcb
      have e4 : r2.bheight = 0 := by
        have := hb.2
        simp only [Balanced_node, bheight_nil] at this
        exact this.2.2.symm
      rw [e4, ← ctxBal_append_R _ _ _ _ x k]
      simpa using hb.1)
    fuel (by simp only [List.length_append, List.length_cons]; omega)
  refine ⟨m', root', ?_, ?_, fun q hq => ?_, hs'⟩
  · rw [ngx_rbtree_delete_unfold fuel m tree x _ y hsel hyne, unlink_eq, if_neg hyx]
    exact e
  · have e4 : delAt fs c l k r =
        if ngx_rbt_is_red m y = true then plug (minFrames r ++ RbFrame.R c l y ky :: fs) r2
        else delFix (minFrames r ++ RbFrame.R c l y ky :: fs) r2 := by
      simp [delAt, delSplit_two hl hr hmin, ngx_rbt_is_red, hcy]
    rw [e4]; exact hT'
  · rw [hk q hq, hk3, hkey]

/-! ## Pure facts on the deletion result -/

theorem delRotL_ids (cp : Color) (t : RbTree) (p kp : Nat) (w : RbTree) (ctx : List RbFrame) :
    (delRotL cp t p kp w ctx).ids = (plug ctx (node cp t p kp w)).ids := by
  unfold delRotL
  cases w with
  | nil => rfl
  | node cw wl wx wk wr =>
    simp only
    split
    · cases wl with
      | nil => rfl
      | node c2 wll wlx wlk wlr => simp [ids_plug]
    · simp [ids_plug]

theorem delRotR_ids (cp : Color) (t : RbTree) (p kp : Nat) (w : RbTree) (ctx : List RbFrame) :
    (delRotR cp t p kp w ctx).ids = (plug ctx (node cp w p kp t)).ids := by
  unfold delRotR
  cases w with
  | nil => rfl
  | node cw wl wx wk wr =>
    simp only
    split
    · cases wr with
      | nil => rfl
      | node c2 wrl wrx wrk wrr => simp [ids_plug]
    · simp [ids_plug]

theorem delRotL_keys (cp : Color) (t : RbTree) (p kp : Nat) (w : RbTree) (ctx : List RbFrame) :
    (delRotL cp t p kp w ctx).keys = (plug ctx (node cp t p kp w)).keys := by
  unfold delRotL
  cases w with
  | nil => rfl
  | node cw wl wx wk wr =>
    simp only
    split
    · cases wl with
      | nil => rfl
      | node c2 wll wlx wlk wlr => simp [keys_plug]
    · simp [keys_plug]

theorem delRotR_keys (cp : Color) (t : RbTree) (p kp : Nat) (w : RbTree) (ctx : List RbFrame) :
    (delRotR cp t p kp w ctx).keys = (plug ctx (node cp w p kp t)).keys := by
  unfold delRotR
  cases w with
  | nil => rfl
  | node cw wl wx wk wr =>
    simp only
    split
    · cases wr with
      | nil => rfl
      | node c2 wrl wrx wrk wrr => simp [keys_plug]
    · simp [keys_plug]

theorem delFix_ids (fs : List RbFrame) : ∀ t : RbTree, (delFix fs t).ids = (plug fs t).ids := by
  induction fs with
  | nil => intro t; simp [delFix]
  | cons F rest ih =>
    intro t
    cases F with
    | L cp p kp w =>
      simp only [delFix]
      split
      · simp [ids_plug]
      · split
        · split
          · split
            · simp [ids_plug, ctxL, ctxR]
            · rw [delRotL_ids]; simp [ids_plug, ctxL, ctxR]
          · rfl
        · split
          · rw [ih]; simp [ids_plug, ctxL, ctxR]
          · rw [delRotL_ids]; simp [ids_plug, ctxL, ctxR]
        · rfl
    | R cp w p kp =>
      simp only [delFix]
      split
      · simp [ids_plug]
      · split
        · split
          · split
            · simp [ids_plug, ctxL, ctxR]
            · rw [delRotR_ids]; simp [ids_plug, ctxL, ctxR]
          · rfl
        · split
          · rw [ih]; simp [ids_plug, ctxL, ctxR]
          · rw [delRotR_ids]; simp [ids_plug, ctxL, ctxR]
        · rfl

theorem delFix_keys (fs : List RbFrame) :
    ∀ t : RbTree, (delFix fs t).keys = (plug fs t).keys := by
  induction fs with
  | nil => intro t; simp [delFix]
  | cons F rest ih =>
    intro t
    cases F with
    | L cp p kp w =>
      simp only [delFix]
      split
      · simp [keys_plug]
      · split
        · split
          · split
            · simp [keys_plug, ctxLK, ctxRK]
            · rw [delRotL_keys]; simp [keys_plug, ctxLK, ctxRK]
          · rfl
        · split
          · rw [ih]; simp [keys_plug, ctxLK, ctxRK]
          · rw [delRotL_keys]; simp [keys_plug, ctxLK, ctxRK]
        · rfl
    | R cp w p kp =>
      simp only [delFix]
      split
      · simp [keys_plug]
      · split
        · split
          · split
            · simp [keys_plug, ctxLK, ctxRK]
            · rw [delRotR_keys]; simp [keys_plug, ctxLK, ctxRK]
          · rfl
        · split
          · rw [ih]; simp [keys_plug, ctxLK, ctxRK]
          · rw [delRotR_keys]; simp [keys_plug, ctxLK, ctxRK]
        · rfl

theorem ctxL_append (a b : List RbFrame) : ctxL (a ++ b) = ctxL b ++ ctxL a := by
  induction a with
  | nil => simp [ctxL]
  | cons f a ih => cases f <;> simp [ctxL, ih]

theorem ctxR_append (a b : List RbFrame) : ctxR (a ++ b) = ctxR a ++ ctxR b := by
  induction a with
  | nil => simp [ctxR]
  | cons f a ih => cases f <;> simp [ctxR, ih]

theorem ctxLK_append (a b : List RbFrame) : ctxLK (a ++ b) = ctxLK b ++ ctxLK a := by
  induction a with
  | nil => simp [ctxLK]
  | cons f a ih => cases f <;> simp [ctxLK, ih]

theorem ctxRK_append (a b : List RbFrame) : ctxRK (a ++ b) = ctxRK a ++ ctxRK b := by
  induction a with
  | nil => simp [ctxRK]
  | cons f a ih => cases f <;> simp [ctxRK, ih]

theorem ctxL_minFrames (t : RbTree) : ctxL (minFrames t) = [] := by
  induction t with
  | nil => rfl
  | node c l x k r ihl _ =>
    cases l with
    | nil => rfl
    | node cl ll lx lk lr =>
      simp only [minFrames, ctxL_append, ihl]
      rfl

theorem ctxLK_minFrames (t : RbTree) : ctxLK (minFrames t) = [] := by
  induction t with
  | nil => rfl
  | node c l x k r ihl _ =>
    cases l with
    | nil => rfl
    | node cl ll lx lk lr =>
      simp only [minFrames, ctxLK_append, ihl]
      rfl

theorem ids_min_split {r r2 : RbTree} {c2 : Color} {y ky : Nat}
    (hmin : minNode r = node c2 nil y ky r2) :
    r.ids = y :: (plug (minFrames r) r2).ids ∧ r.keys = ky :: (plug (minFrames r) r2).keys := by
  have e : r = plug (minFrames r) (node c2 nil y ky r2) := by rw [← hmin, plug_minFrames]
  constructor
  · conv_lhs => rw [e]
    simp [ids_plug, ctxL_minFrames]
  · conv_lhs => rw [e]
    simp [keys_plug, ctxLK_minFrames]

/-- In-order addresses after `ngx_rbtree_delete`: those before, without the removed node. -/
theorem delAt_ids (fs : List RbFrame) (c : Color) (l : RbTree) (k : Nat) (r : RbTree) :
    (delAt fs c l k r).ids = ctxL fs ++ (l.ids ++ r.ids) ++ ctxR fs := by
  have h1 : (delAt fs c l k r).ids =
      (plug (delSplit fs c l k r).1 (delSplit fs c l k r).2.1).ids := by
    unfold delAt
    split
    · rfl
    · rw [delFix_ids]
  rw [h1]
  cases l with
  | nil => simp [delSplit, ids_plug]
  | node cl ll lx lk lr =>
    cases r with
    | nil => simp [delSplit, ids_plug]
    | node cr rl rx rk rr =>
      obtain ⟨c2, y, ky, r2, hmin⟩ := minNode_shape (node cr rl rx rk rr) (by simp)
      rw [delSplit_two (by simp) (by simp) hmin]
      simp only [plug_append, plug_cons, RbFrame.fill_R]
      rw [(ids_min_split hmin).1]
      simp [ids_plug]

/-- In-order keys after `ngx_rbtree_delete`: those before, without the key of the removed
node. -/
theorem delAt_keys (fs : List RbFrame) (c : Color) (l : RbTree) (k : Nat) (r : RbTree) :
    (delAt fs c l k r).keys = ctxLK fs ++ (l.keys ++ r.keys) ++ ctxRK fs := by
  have h1 : (delAt fs c l k r).keys =
      (plug (delSplit fs c l k r).1 (delSplit fs c l k r).2.1).keys := by
    unfold delAt
    split
    · rfl
    · rw [delFix_keys]
  rw [h1]
  cases l with
  | nil => simp [delSplit, keys_plug]
  | node cl ll lx lk lr =>
    cases r with
    | nil => simp [delSplit, keys_plug]
    | node cr rl rx rk rr =>
      obtain ⟨c2, y, ky, r2, hmin⟩ := minNode_shape (node cr rl rx rk rr) (by simp)
      rw [delSplit_two (by simp) (by simp) hmin]
      simp only [plug_append, plug_cons, RbFrame.fill_R]
      rw [(ids_min_split hmin).2]
      simp [keys_plug]

theorem RbTree.bheight_setBlack_red {t : RbTree} (h : t.rootColor = Color.red) :
    t.setBlack.bheight = t.bheight + 1 := by
  cases t with
  | nil => simp at h
  | node c l x k r =>
    simp only [rootColor_node] at h
    subst h
    simp

theorem RbTree.setBlack_of_black {t : RbTree} (h : t.rootColor = Color.black) :
    t.setBlack = t := by
  cases t with
  | nil => rfl
  | node c l x k r =>
    simp only [rootColor_node] at h
    subst h
    rfl

theorem RbTree.rootColor_node_of_red {t : RbTree} (h : ¬ t.rootColor = Color.black) :
    ∃ l x k r, t = node Color.red l x k r := by
  cases t with
  | nil => simp at h
  | node c l x k r =>
    simp only [rootColor_node] at h
    exact ⟨l, x, k, r, by rw [(Color.ne_black_iff _).1 h]⟩

theorem delRotL_rb (cp : Color) (t : RbTree) (p kp : Nat) (wl : RbTree) (wx wk : Nat)
    (wr : RbTree) (ctx : List RbFrame)
    (hnb : ¬ (wl.rootColor = Color.black ∧ wr.rootColor = Color.black))
    (ht : t.Balanced ∧ t.NoRedRed) (hw : (node Color.black wl wx wk wr).Balanced)
    (hwn : (node Color.black wl wx wk wr).NoRedRed)
    (hh : wl.bheight = t.bheight)
    (hcb : ctxBal ctx (t.bheight + 1 + (if cp = Color.black then 1 else 0)))
    (hcn : ctxNoRR ctx cp) :
    (delRotL cp t p kp (node Color.black wl wx wk wr) ctx).Balanced ∧
    (delRotL cp t p kp (node Color.black wl wx wk wr) ctx).NoRedRed ∧
    (delRotL cp t p kp (node Color.black wl wx wk wr) ctx).rootColor = Color.black := by
  simp only [Balanced_node, NoRedRed_node] at hw hwn
  unfold delRotL
  simp only
  by_cases hwr : wr.rootColor = Color.black
  · rw [if_pos hwr]
    have hwl : ¬ wl.rootColor = Color.black := fun e => hnb ⟨e, hwr⟩
    obtain ⟨wll, wlx, wlk, wlr, rfl⟩ := RbTree.rootColor_node_of_red hwl
    simp only [Balanced_node, NoRedRed_node, bheight_node] at hw hwn hh
    simp only [RbTree.Balanced_setBlack, RbTree.rootColor_setBlack, and_true]
    refine ⟨(Balanced_plug _ _).2 ⟨?_, ?_⟩,
      RbTree.NoRedRed_setBlack ((NoRedRed_plug _ _).2 ⟨by simpa using hcn, ?_⟩)⟩
    · simp only [bheight_node]
      have : wll.bheight = t.bheight := by simpa using hh
      simpa [this] using hcb
    · simp only [Balanced_node, bheight_node]
      simp_all
    · simp only [NoRedRed_node]
      simp_all
  · rw [if_neg hwr]
    obtain ⟨wrl, wrx, wrk, wrr, rfl⟩ := RbTree.rootColor_node_of_red hwr
    simp only [Balanced_node, NoRedRed_node, bheight_node] at hw hwn hh
    simp only [RbTree.Balanced_setBlack, RbTree.rootColor_setBlack, and_true]
    refine ⟨(Balanced_plug _ _).2 ⟨?_, ?_⟩,
      RbTree.NoRedRed_setBlack ((NoRedRed_plug _ _).2 ⟨by simpa using hcn, ?_⟩)⟩
    · simp only [bheight_node]
      simpa [hh] using hcb
    · simp only [Balanced_node, bheight_node, setBlack_node]
      simp_all
    · simp only [NoRedRed_node, setBlack_node]
      simp_all

theorem delRotR_rb (cp : Color) (t : RbTree) (p kp : Nat) (wl : RbTree) (wx wk : Nat)
    (wr : RbTree) (ctx : List RbFrame)
    (hnb : ¬ (wl.rootColor = Color.black ∧ wr.rootColor = Color.black))
    (ht : t.Balanced ∧ t.NoRedRed) (hw : (node Color.black wl wx wk wr).Balanced)
    (hwn : (node Color.black wl wx wk wr).NoRedRed)
    (hh : wr.bheight = t.bheight)
    (hcb : ctxBal ctx (t.bheight + 1 + (if cp = Color.black then 1 else 0)))
    (hcn : ctxNoRR ctx cp) :
    (delRotR cp t p kp (node Color.black wl wx wk wr) ctx).Balanced ∧
    (delRotR cp t p kp (node Color.black wl wx wk wr) ctx).NoRedRed ∧
    (delRotR cp t p kp (node Color.black wl wx wk wr) ctx).rootColor = Color.black := by
  simp only [Balanced_node, NoRedRed_node] at hw hwn
  unfold delRotR
  simp only
  by_cases hwl : wl.rootColor = Color.black
  · rw [if_pos hwl]
    have hwr : ¬ wr.rootColor = Color.black := fun e => hnb ⟨hwl, e⟩
    obtain ⟨wrl, wrx, wrk, wrr, rfl⟩ := RbTree.rootColor_node_of_red hwr
    simp only [Balanced_node, NoRedRed_node, bheight_node] at hw hwn hh
    simp only [RbTree.Balanced_setBlack, RbTree.rootColor_setBlack, and_true]
    refine ⟨(Balanced_plug _ _).2 ⟨?_, ?_⟩,
      RbTree.NoRedRed_setBlack ((NoRedRed_plug _ _).2 ⟨by simpa using hcn, ?_⟩)⟩
    · simp only [bheight_node]
      have e : wl.bheight = t.bheight := by simp_all
      simpa [e] using hcb
    · simp only [Balanced_node, bheight_node]
      simp_all
    · simp only [NoRedRed_node]
      simp_all
  · rw [if_neg hwl]
    obtain ⟨wll, wlx, wlk, wlr, rfl⟩ := RbTree.rootColor_node_of_red hwl
    simp only [Balanced_node, NoRedRed_node, bheight_node] at hw hwn hh
    simp only [RbTree.Balanced_setBlack, RbTree.rootColor_setBlack, and_true]
    obtain ⟨⟨a1, a2, a3⟩, a4, a5⟩ := hw
    simp only [if_neg (by decide : ¬ Color.red = Color.black), Nat.add_zero] at a5
    refine ⟨(Balanced_plug _ _).2 ⟨?_, ?_⟩,
      RbTree.NoRedRed_setBlack ((NoRedRed_plug _ _).2 ⟨by simpa using hcn, ?_⟩)⟩
    · simp only [bheight_node, setBlack_node]
      have e : wll.bheight = t.bheight := by omega
      simpa [e] using hcb
    · simp only [Balanced_node, bheight_node, setBlack_node]
      refine ⟨⟨a1, a2, a3⟩, ⟨a4, ht.1, by omega⟩, ?_⟩
      simp
      omega
    · simp only [NoRedRed_node, setBlack_node]
      simp_all

theorem delFix_rb (fs : List RbFrame) : ∀ (t : RbTree), DelInv fs t →
    (delFix fs t).Balanced ∧ (delFix fs t).NoRedRed ∧ (delFix fs t).rootColor = Color.black := by
  induction fs with
  | nil =>
    intro t h
    obtain ⟨h1, h2, -, -, -⟩ := h
    simp only [delFix]
    exact ⟨by simpa using h1, h2, by simp⟩
  | cons F rest ih =>
    intro t h
    obtain ⟨h1, h2, h3, h4, h5⟩ := h
    have h5' := h5 (by simp)
    cases F with
    | L cp p kp w =>
      simp only [ctxBal_L, ctxNoRR_L, topColor_cons, RbFrame.color_L] at h3 h4 h5'
      obtain ⟨hwb, hwh, hcb⟩ := h3
      obtain ⟨hwn, hcw, hcn⟩ := h4
      simp only [delFix]
      by_cases hred : t.rootColor = Color.red
      · rw [if_pos hred]
        refine ⟨(Balanced_plug _ _).2 ⟨?_, by simpa using h1⟩, (NoRedRed_plug _ _).2 ⟨?_, h2⟩, ?_⟩
        · rw [RbTree.bheight_setBlack_red hred]
          simp only [ctxBal_L]
          exact ⟨hwb, hwh, hcb⟩
        · simp only [RbTree.rootColor_setBlack, ctxNoRR_L]
          exact ⟨hwn, hcw, hcn⟩
        · rw [rootColor_plug]
          simpa using h5'
      · rw [if_neg hred]
        have htb : t.rootColor = Color.black := (Color.ne_red_iff _).1 hred
        rw [RbTree.setBlack_of_black htb] at h2
        cases w with
        | nil => simp at hwh
        | node cw wl wx wk wr =>
          simp only [Balanced_node, NoRedRed_node, bheight_node, rootColor_node] at hwb hwh hwn hcw
          obtain ⟨b1, b2, b3⟩ := hwb
          obtain ⟨n1, n2, n3⟩ := hwn
          cases cw with
          | red =>
            have hcp : cp = Color.black := by
              cases cp with
              | red => simp at hcw
              | black => rfl
            subst hcp
            simp only [if_neg (by decide : ¬ Color.red = Color.black), Nat.add_zero,
              if_true] at hwh hcb
            obtain ⟨n4, n5⟩ := n3 rfl
            cases wl with
            | nil => simp at hwh
            | node cw2 wll wlx wlk wlr =>
              simp only [rootColor_node] at n4
              subst n4
              simp only [Balanced_node, NoRedRed_node, bheight_node, if_true] at b1 b3 n1 hwh
              simp only
              split
              · rename_i hbb
                refine ⟨(Balanced_plug _ _).2 ⟨?_, ?_⟩, (NoRedRed_plug _ _).2 ⟨?_, ?_⟩, ?_⟩
                · simp only [ctxBal_L, bheight_node, if_true]
                  exact ⟨b2, by omega, hcb⟩
                · simp only [Balanced_node, bheight_node]
                  refine ⟨h1, b1, ?_⟩
                  simp
                  omega
                · simp only [ctxNoRR_L, rootColor_node]
                  exact ⟨n2, by simp, hcn⟩
                · simp only [NoRedRed_node]
                  exact ⟨h2, ⟨n1.1, n1.2.1, fun _ => hbb⟩, by simp⟩
                · rw [rootColor_plug]
                  simpa using h5'
              · rename_i hbb
                exact delRotL_rb Color.red t p kp wll wlx wlk wlr _ hbb ⟨h1, h2⟩
                  (by simpa using b1) (by simpa using n1) (by omega)
                  (by
                    simp only [ctxBal_L, if_true, if_neg (by decide : ¬ Color.red = Color.black),
                      Nat.add_zero]
                    exact ⟨b2, by omega, hcb⟩)
                  (by
                    simp only [ctxNoRR_L]
                    exact ⟨n2, by simp, hcn⟩)
          | black =>
            simp only [if_true] at hwh
            simp only
            split
            · rename_i hbb
              apply ih
              refine ⟨?_, ?_, ?_, ctxNoRR_weaken _ _ hcn, fun hr => ?_⟩
              · simp only [Balanced_node, bheight_node]
                refine ⟨h1, ⟨b1, b2, b3⟩, ?_⟩
                simp
                omega
              · simp only [setBlack_node, NoRedRed_node]
                exact ⟨h2, ⟨n1, n2, fun _ => hbb⟩, by simp⟩
              · simp only [bheight_node]
                have : t.bheight + (if cp = Color.black then 1 else 0) + 1 =
                    t.bheight + 1 + (if cp = Color.black then 1 else 0) := by omega
                rw [this]; exact hcb
              · rw [topColor_indep rest hr Color.black cp]
                exact h5'
            · rename_i hbb
              exact delRotL_rb cp t p kp wl wx wk wr rest hbb ⟨h1, h2⟩
                (by simp only [Balanced_node]; exact ⟨b1, b2, b3⟩)
                (by simp only [NoRedRed_node]; exact ⟨n1, n2, by simp⟩) (by omega) hcb hcn
    | R cp w p kp =>
      simp only [ctxBal_R, ctxNoRR_R, topColor_cons, RbFrame.color_R] at h3 h4 h5'
      obtain ⟨hwb, hwh, hcb⟩ := h3
      obtain ⟨hwn, hcw, hcn⟩ := h4
      simp only [delFix]
      by_cases hred : t.rootColor = Color.red
      · rw [if_pos hred]
        refine ⟨(Balanced_plug _ _).2 ⟨?_, by simpa using h1⟩, (NoRedRed_plug _ _).2 ⟨?_, h2⟩, ?_⟩
        · rw [RbTree.bheight_setBlack_red hred]
          simp only [ctxBal_R]
          exact ⟨hwb, hwh, hcb⟩
        · simp only [RbTree.rootColor_setBlack, ctxNoRR_R]
          exact ⟨hwn, hcw, hcn⟩
        · rw [rootColor_plug]
          simpa using h5'
      · rw [if_neg hred]
        have htb : t.rootColor = Color.black := (Color.ne_red_iff _).1 hred
        rw [RbTree.setBlack_of_black htb] at h2
        cases w with
        | nil => simp at hwh
        | node cw wl wx wk wr =>
          simp only [Balanced_node, NoRedRed_node, bheight_node, rootColor_node] at hwb hwh hwn hcw
          obtain ⟨b1, b2, b3⟩ := hwb
          obtain ⟨n1, n2, n3⟩ := hwn
          cases cw with
          | red =>
            have hcp : cp = Color.black := by
              cases cp with
              | red => simp at hcw
              | black => rfl
            subst hcp
            simp only [if_neg (by decide : ¬ Color.red = Color.black), Nat.add_zero,
              if_true] at hwh hcb
            obtain ⟨n4, n5⟩ := n3 rfl
            cases wr with
            | nil => simp at b3; omega
            | node cw2 wrl wrx wrk wrr =>
              simp only [rootColor_node] at n5
              subst n5
              simp only [Balanced_node, NoRedRed_node, bheight_node, if_true] at b2 b3 n2 hwh
              simp only
              split
              · rename_i hbb
                refine ⟨(Balanced_plug _ _).2 ⟨?_, ?_⟩, (NoRedRed_plug _ _).2 ⟨?_, ?_⟩, ?_⟩
                · simp only [ctxBal_R, bheight_node, if_true]
                  refine ⟨b1, ?_, ?_⟩
                  · simp
                    omega
                  · simp only [if_neg (by decide : ¬ Color.red = Color.black), Nat.add_zero]
                    have : wrl.bheight + 1 = t.bheight + 1 := by omega
                    rw [this]; exact hcb
                · simp only [Balanced_node, bheight_node]
                  refine ⟨b2, h1, ?_⟩
                  simp
                  omega
                · simp only [ctxNoRR_R, rootColor_node]
                  exact ⟨n1, by simp, hcn⟩
                · simp only [NoRedRed_node]
                  exact ⟨⟨n2.1, n2.2.1, fun _ => hbb⟩, h2, by simp⟩
                · rw [rootColor_plug]
                  simpa using h5'
              · rename_i hbb
                exact delRotR_rb Color.red t p kp wrl wrx wrk wrr _ hbb ⟨h1, h2⟩
                  (by simpa using b2) (by simpa using n2) (by omega)
                  (by
                    simp only [ctxBal_R, if_true, if_neg (by decide : ¬ Color.red = Color.black),
                      Nat.add_zero]
                    exact ⟨b1, by omega, hcb⟩)
                  (by
                    simp only [ctxNoRR_R]
                    exact ⟨n1, by simp, hcn⟩)
          | black =>
            simp only [if_true] at hwh
            simp only
            split
            · rename_i hbb
              apply ih
              refine ⟨?_, ?_, ?_, ctxNoRR_weaken _ _ hcn, fun hr => ?_⟩
              · simp only [Balanced_node, bheight_node]
                refine ⟨⟨b1, b2, b3⟩, h1, ?_⟩
                simp
                omega
              · simp only [setBlack_node, NoRedRed_node]
                exact ⟨⟨n1, n2, fun _ => hbb⟩, h2, by simp⟩
              · simp only [bheight_node]
                have : wl.bheight + (if Color.red = Color.black then 1 else 0) +
                    (if cp = Color.black then 1 else 0) + 1 =
                    t.bheight + 1 + (if cp = Color.black then 1 else 0) := by
                  simp
                  omega
                rw [this]; exact hcb
              · rw [topColor_indep rest hr Color.black cp]
                exact h5'
            · rename_i hbb
              exact delRotR_rb cp t p kp wl wx wk wr rest hbb ⟨h1, h2⟩
                (by simp only [Balanced_node]; exact ⟨b1, b2, b3⟩)
                (by simp only [NoRedRed_node]; exact ⟨n1, n2, by simp⟩) (by omega) hcb hcn

theorem RBInv_relabel (fs : List RbFrame) (c : Color) (l : RbTree) (x k y ky : Nat)
    (u : RbTree) (h : RBInv (plug fs (node c l x k u))) : RBInv (plug fs (node c l y ky u)) := by
  obtain ⟨h1, h2, h3⟩ := h
  rw [rootColor_plug] at h1
  rw [NoRedRed_plug] at h2
  rw [Balanced_plug] at h3
  refine ⟨?_, ?_, ?_⟩
  · rw [rootColor_plug]; exact h1
  · rw [NoRedRed_plug]; exact h2
  · rw [Balanced_plug]; exact h3

theorem delOne_rb {fs : List RbFrame} {c : Color} {l r T : RbTree} {x k : Nat}
    (hT : (T = l ∧ r = nil) ∨ (T = r ∧ l = nil))
    (hrb : RBInv (plug fs (node c l x k r))) :
    RBInv (if fs ≠ [] ∧ c = Color.red then plug fs T else delFix fs T) := by
  obtain ⟨h1, h2, h3⟩ := hrb
  rw [rootColor_plug] at h1
  rw [NoRedRed_plug] at h2
  rw [Balanced_plug] at h3
  simp only [rootColor_node, NoRedRed_node, Balanced_node, bheight_node] at h1 h2 h3
  obtain ⟨hcn, hln, hrn, hcc⟩ := h2
  obtain ⟨hcb, hlb, hrb, hlr⟩ := h3
  have hTb : T.Balanced := by
    rcases hT with ⟨rfl, -⟩ | ⟨rfl, -⟩
    · exact hlb
    · exact hrb
  have hTn : T.NoRedRed := by
    rcases hT with ⟨rfl, -⟩ | ⟨rfl, -⟩
    · exact hln
    · exact hrn
  have hTh : T.bheight = l.bheight := by
    rcases hT with ⟨rfl, -⟩ | ⟨rfl, -⟩
    · rfl
    · exact hlr.symm
  split
  · rename_i hc
    obtain ⟨hfs, hc⟩ := hc
    subst hc
    have hTc : T.rootColor = Color.black := by
      rcases hT with ⟨rfl, -⟩ | ⟨rfl, -⟩
      · exact (hcc rfl).1
      · exact (hcc rfl).2
    refine ⟨?_, (NoRedRed_plug _ _).2 ⟨?_, hTn⟩, (Balanced_plug _ _).2 ⟨?_, hTb⟩⟩
    · rw [rootColor_plug, topColor_indep fs hfs _ Color.red]; exact h1
    · rw [hTc]; exact ctxNoRR_weaken _ _ hcn
    · rw [hTh]; simpa using hcb
  · rename_i hc
    have := delFix_rb fs T ⟨hTb, RbTree.NoRedRed_setBlack hTn, ?_, ctxNoRR_weaken _ _ hcn, ?_⟩
    · exact ⟨this.2.2, this.2.1, this.1⟩
    · cases fs with
      | nil => trivial
      | cons F rest =>
        have hcb' : c = Color.black := by
          cases c with
          | red => exact absurd ⟨by simp, rfl⟩ hc
          | black => rfl
        subst hcb'
        rw [hTh]
        simpa using hcb
    · intro hfs
      rw [topColor_indep fs hfs _ c]; exact h1

/-- The tree left by `ngx_rbtree_delete` satisfies the three red-black invariants when the
tree before did. -/
theorem delAt_rb (fs : List RbFrame) (c : Color) (l : RbTree) (x k : Nat) (r : RbTree)
    (hrb : RBInv (plug fs (node c l x k r))) : RBInv (delAt fs c l k r) := by
  unfold delAt
  cases l with
  | nil =>
    have e : delSplit fs c nil k r = (fs, r, c) := delSplit_one k (Or.inr ⟨rfl, rfl⟩)
    rw [e]
    exact delOne_rb (Or.inr ⟨rfl, rfl⟩) hrb
  | node cl ll lx lk lr =>
    cases r with
    | nil =>
      exact delOne_rb (Or.inl ⟨rfl, rfl⟩) hrb
    | node cr rl rx rk rr =>
      obtain ⟨c2, y, ky, r2, hmin⟩ := minNode_shape (node cr rl rx rk rr) (by simp)
      rw [delSplit_two (by simp) (by simp) hmin]
      have e0 : plug fs (node c (node cl ll lx lk lr) y ky (node cr rl rx rk rr)) =
          plug (minFrames (node cr rl rx rk rr) ++
            RbFrame.R c (node cl ll lx lk lr) y ky :: fs) (node c2 nil y ky r2) := by
        rw [plug_append, ← hmin, plug_minFrames]
        rfl
      have h2 := RBInv_relabel fs c _ x k y ky _ hrb
      rw [e0] at h2
      have h3 := delOne_rb (T := r2) (Or.inr ⟨rfl, rfl⟩) h2
      simp only [ne_eq, List.append_eq_nil, reduceCtorEq, and_false, not_false_eq_true,
        true_and] at h3 ⊢
      exact h3

/-! ## Claims on deletion -/

theorem exists_plug_of_mem {t : RbTree} {x : Nat} (hx : x ∈ t.ids) :
    ∃ fs c l k r, t = plug fs (node c l x k r) := by
  induction t with
  | nil => simp at hx
  | node c l x' k r ihl ihr =>
    simp only [ids_node, List.mem_append, List.mem_cons] at hx
    rcases hx with hx | hx | hx
    · obtain ⟨fs, c1, l1, k1, r1, e⟩ := ihl hx
      refine ⟨fs ++ [RbFrame.L c x' k r], c1, l1, k1, r1, ?_⟩
      rw [plug_append, ← e]
      rfl
    · subst hx
      exact ⟨[], c, l, k, r, rfl⟩
    · obtain ⟨fs, c1, l1, k1, r1, e⟩ := ihr hx
      refine ⟨fs ++ [RbFrame.R c l x' k], c1, l1, k1, r1, ?_⟩
      rw [plug_append, ← e]
      rfl

/-- `ngx_rbtree_delete` on a stored balanced tree returns, and leaves the tree `delAt`. -/
theorem ngx_rbtree_delete_spec {m : RbHeap} {tree : ngx_rbtree_t} {fs : List RbFrame}
    {c : Color} {l r : RbTree} {x k : Nat}
    (h : TreeInv m tree.sentinel tree.root (plug fs (node c l x k r)))
    (hs : m.color tree.sentinel = Color.black)
    (hbal : (plug fs (node c l x k r)).Balanced)
    (fuel : Nat) (hfuel : (plug fs (node c l x k r)).height + 1 ≤ fuel) :
    ∃ m' root', ngx_rbtree_delete fuel m tree x = some (m', { tree with root := root' }) ∧
      TreeInv m' tree.sentinel root' (delAt fs c l k r) ∧
      (∀ q, q ≠ x → m'.key q = m.key q) ∧ m'.color tree.sentinel = Color.black := by
  have hone : ∀ T, ((T = l ∧ r = nil) ∨ (T = r ∧ l = nil)) →
      ∃ m' root', ngx_rbtree_delete fuel m tree x = some (m', { tree with root := root' }) ∧
        TreeInv m' tree.sentinel root' (delAt fs c l k r) ∧
        (∀ q, q ≠ x → m'.key q = m.key q) ∧ m'.color tree.sentinel = Color.black := by
    intro T hT
    cases fs with
    | nil => exact delete_root_spec h hT hs fuel
    | cons F gs =>
      have := height_plug (F :: gs) (node c l x k r)
      simp only [RbTree.height] at this
      exact delete_one_spec h hT hs hbal fuel (by omega)
  by_cases hl : l = nil
  · exact hone r (Or.inr ⟨rfl, hl⟩)
  · by_cases hr : r = nil
    · exact hone l (Or.inl ⟨rfl, hr⟩)
    · exact delete_two_spec h hl hr hs hbal fuel hfuel

theorem w3_inv : TreeInv w3Heap wTree.sentinel wTree.root w3 := by
  refine ⟨?_, rfl, by decide⟩
  simp [w3, w3Heap, wTree]

theorem w3_rb : RBInv w3 := by
  simp [RBInv, w3]

/-- C2: when memory holds a tree that satisfies the three red-black invariants (black root,
no red node with a red child, equal black height on all paths), with a black sentinel, and
`node` is in the tree, `ngx_rbtree_delete` returns (for fuel above the tree height) and the
tree it leaves satisfies the three invariants again. -/
theorem ngx_rbtree_delete_preserves_rb (m : RbHeap) (tree : ngx_rbtree_t) (t : RbTree)
    (node fuel : Nat) (h : TreeInv m tree.sentinel tree.root t)
    (hs : m.color tree.sentinel = Color.black) (hrb : RBInv t) (hn : node ∈ t.ids)
    (hfuel : t.height + 1 ≤ fuel) :
    ∃ m' tree' t', ngx_rbtree_delete fuel m tree node = some (m', tree') ∧
      tree'.sentinel = tree.sentinel ∧ TreeInv m' tree'.sentinel tree'.root t' ∧
      t'.rootColor = Color.black ∧ t'.NoRedRed ∧ t'.Balanced := by
  obtain ⟨fs, c, l, k, r, rfl⟩ := exists_plug_of_mem hn
  obtain ⟨m', root', e, hT, -, -⟩ := ngx_rbtree_delete_spec h hs hrb.2.2 fuel hfuel
  exact ⟨m', _, _, e, rfl, hT, delAt_rb fs c l node k r hrb⟩

theorem ngx_rbtree_delete_preserves_rb_witness :
    ∃ m' tree' t', ngx_rbtree_delete 3 w3Heap wTree 2 = some (m', tree') ∧
      tree'.sentinel = wTree.sentinel ∧ TreeInv m' tree'.sentinel tree'.root t' ∧
      t'.rootColor = Color.black ∧ t'.NoRedRed ∧ t'.Balanced :=
  ngx_rbtree_delete_preserves_rb w3Heap wTree w3 2 3 w3_inv rfl w3_rb (by decide) (by decide)

/-- C4: when memory holds a balanced tree with a black sentinel and `node` is in it,
`ngx_rbtree_delete` returns, and the in-order sequence of nodes afterwards is the previous
one with exactly `node` taken out; the key field of every other node is unchanged, and a
tree whose in-order keys were non-decreasing stays so. -/
theorem ngx_rbtree_delete_inorder (m : RbHeap) (tree : ngx_rbtree_t) (t : RbTree)
    (node fuel : Nat) (h : TreeInv m tree.sentinel tree.root t)
    (hs : m.color tree.sentinel = Color.black) (hbal : t.Balanced) (hn : node ∈ t.ids)
    (hfuel : t.height + 1 ≤ fuel) :
    ∃ m' tree' t' a b, ngx_rbtree_delete fuel m tree node = some (m', tree') ∧
      TreeInv m' tree.sentinel tree'.root t' ∧
      t.ids = a ++ node :: b ∧ t'.ids = a ++ b ∧ node ∉ t'.ids ∧
      (∀ q, q ≠ node → m'.key q = m.key q) ∧
      (t.keys.Pairwise (· ≤ ·) → t'.keys.Pairwise (· ≤ ·)) := by
  obtain ⟨fs, c, l, k, r, rfl⟩ := exists_plug_of_mem hn
  obtain ⟨m', root', e, hT, hk, -⟩ := ngx_rbtree_delete_spec h hs hbal fuel hfuel
  refine ⟨m', _, _, ctxL fs ++ l.ids, r.ids ++ ctxR fs, e, hT, ?_, ?_, ?_, hk, ?_⟩
  · simp [ids_plug]
  · simp [delAt_ids]
  · have hnd := h.nodup
    rw [ids_plug] at hnd
    rw [delAt_ids]
    have hB : [ctxL fs, l.ids, [node], r.ids, ctxR fs].flatten.Nodup := by simpa using hnd
    simp only [List.mem_append, not_or]
    exact ⟨⟨fun hc => blocks_ne hB 2 0 (by decide) (by simp) hc rfl,
      fun hc => blocks_ne hB 2 1 (by decide) (by simp) hc rfl,
      fun hc => blocks_ne hB 2 3 (by decide) (by simp) hc rfl⟩,
      fun hc => blocks_ne hB 2 4 (by decide) (by simp) hc rfl⟩
  · intro hso
    rw [keys_plug] at hso
    rw [delAt_keys]
    refine List.Pairwise.sublist ?_ hso
    simp only [keys_node, List.append_assoc]
    exact List.Sublist.append_left (List.Sublist.append_left
      (List.Sublist.append_right (List.sublist_cons_self _ _) _) _) _

theorem ngx_rbtree_delete_inorder_witness :
    ∃ m' tree' t' a b, ngx_rbtree_delete 3 w3Heap wTree 2 = some (m', tree') ∧
      TreeInv m' wTree.sentinel tree'.root t' ∧
      w3.ids = a ++ 2 :: b ∧ t'.ids = a ++ b ∧ 2 ∉ t'.ids ∧
      (∀ q, q ≠ 2 → m'.key q = w3Heap.key q) ∧
      (w3.keys.Pairwise (· ≤ ·) → t'.keys.Pairwise (· ≤ ·)) :=
  ngx_rbtree_delete_inorder w3Heap wTree w3 2 3 w3_inv rfl (by simp [w3]) (by decide)
    (by decide)

theorem RepT.keys_eq {m : RbHeap} {s : Nat} {t : RbTree} {par : Option Nat}
    (h : RepT m s t par) : t.keys = t.ids.map m.key := by
  induction t generalizing par with
  | nil => rfl
  | node c l x k r ihl ihr =>
    simp only [RepT_node] at h
    obtain ⟨-, -, h3, -, -, -, h7, h8⟩ := h
    simp [ihl h7, ihr h8, h3]

/-- A tree built by insertions and deletions is stored in memory, satisfies the red-black
invariants, and its in-order keys are non-decreasing. -/
theorem Built.inv {s : Nat} {m : RbHeap} {tree : ngx_rbtree_t} {ns : List Nat}
    (hb : Built s m tree ns) :
    tree.sentinel = s ∧ tree.insert = ngx_rbtree_insert_value ∧ m.color s = Color.black ∧
    ∃ t, TreeInv m s tree.root t ∧ RBInv t ∧ t.keys.Pairwise (· ≤ ·) ∧ t.ids.Perm ns := by
  induction hb with
  | init m =>
    refine ⟨rfl, rfl, by simp [ngx_rbtree_init, ngx_rbt_black], nil, ⟨trivial, rfl, by simp⟩,
      by simp [RBInv], by simp, by simp⟩
  | @insert m tree ns m1 n fuel m' tree' _ hn hns hag hfuel e ih =>
    obtain ⟨h1, h2, h3, t, hT, hrb, hso, hp⟩ := ih
    subst h1
    have hnt : n ∉ t.ids := fun hc => hn (hp.mem_iff.1 hc)
    have hT1 : TreeInv m1 tree.sentinel tree.root t :=
      ⟨RepT_congr (fun y hy => hag y (fun e => hnt (e ▸ hy))) hT.rep, hT.root_eq, hT.nodup⟩
    have hs1 : m1.color tree.sentinel = Color.black := by
      rw [(hag tree.sentinel (Ne.symm hns)).2.2.2.2]; exact h3
    obtain ⟨m2, root2, e2, hT2, -, hs2⟩ := ngx_rbtree_insert_spec hT1 h2 hrb.1 hs1 hnt hns fuel
      (by have := t.height_le_length; have := hp.length_eq; omega)
    rw [e] at e2
    simp only [Option.some.injEq, Prod.mk.injEq] at e2
    obtain ⟨rfl, rfl⟩ := e2
    exact ⟨rfl, h2, hs2, _, hT2, insTree_rb _ _ _ hrb, insTree_sorted _ _ _ hso,
      (insTree_ids_perm _ _ _).trans (List.Perm.cons _ hp)⟩
  | @delete m tree ns n fuel m' tree' _ hn hfuel e ih =>
    obtain ⟨h1, h2, h3, t, hT, hrb, hso, hp⟩ := ih
    subst h1
    have hnt : n ∈ t.ids := hp.mem_iff.2 hn
    obtain ⟨fs, c, l, k, r, rfl⟩ := exists_plug_of_mem hnt
    obtain ⟨m2, root2, e2, hT2, -, hs2⟩ := ngx_rbtree_delete_spec hT h3 hrb.2.2 fuel
      (by have := (plug fs (node c l n k r)).height_le_length; have := hp.length_eq; omega)
    rw [e] at e2
    simp only [Option.some.injEq, Prod.mk.injEq] at e2
    obtain ⟨rfl, rfl⟩ := e2
    refine ⟨rfl, h2, hs2, _, hT2, delAt_rb _ _ _ n _ _ hrb, ?_, ?_⟩
    · rw [keys_plug] at hso
      rw [delAt_keys]
      refine List.Pairwise.sublist ?_ hso
      simp only [keys_node, List.append_assoc]
      exact List.Sublist.append_left (List.Sublist.append_left
        (List.Sublist.append_right (List.sublist_cons_self _ _) _) _) _
    · have hnd := hT.nodup
      rw [ids_plug] at hnd hp
      rw [delAt_ids]
      have hB : [ctxL fs, l.ids, [n], r.ids, ctxR fs].flatten.Nodup := by simpa using hnd
      have h4 : n ∉ ctxL fs ++ l.ids := by
        simp only [List.mem_append, not_or]
        exact ⟨fun hc => blocks_ne hB 2 0 (by decide) (by simp) hc rfl,
          fun hc => blocks_ne hB 2 1 (by decide) (by simp) hc rfl⟩
      have h5 := hp.erase n
      have h6 : (ctxL fs ++ (node c l n k r).ids ++ ctxR fs).erase n =
          ctxL fs ++ (l.ids ++ r.ids) ++ ctxR fs := by
        have : ctxL fs ++ (node c l n k r).ids ++ ctxR fs =
            (ctxL fs ++ l.ids) ++ n :: (r.ids ++ ctxR fs) := by simp
        rw [this, List.erase_append_right _ h4]
        simp
      rw [h6] at h5
      exact h5

theorem minNode_key_le {t : RbTree} {c2 : Color} {y ky : Nat} {r2 : RbTree}
    (hmin : minNode t = node c2 nil y ky r2) (hso : t.keys.Pairwise (· ≤ ·)) :
    ∀ k ∈ t.keys, ky ≤ k := by
  rw [(ids_min_split hmin).2] at hso ⊢
  intro k hk
  rcases List.mem_cons.1 hk with rfl | hk
  · exact le_refl _
  · exact (List.pairwise_cons.1 hso).1 k hk

theorem wBuilt_built : Built 1 wBuilt.1 wBuilt.2 [2] :=
  Built.insert (ngx_rbt_black wHeap 1) 2 1 wBuilt.1 wBuilt.2 (Built.init wHeap) (by simp)
    (by decide) (fun _ _ => ⟨rfl, rfl, rfl, rfl, rfl⟩) (by decide) rfl

/-- C6: for a non-empty tree built from `ngx_rbtree_init` by calls of `ngx_rbtree_insert`
(strategy `ngx_rbtree_insert_value`) and `ngx_rbtree_delete`, `ngx_rbtree_min(root,
sentinel)` returns a node of the tree whose key is less than or equal to the key of every
node in the tree. -/
theorem ngx_rbtree_min_least (s : Nat) (m : RbHeap) (tree : ngx_rbtree_t) (ns : List Nat)
    (fuel : Nat) (hb : Built s m tree ns) (hne : ns ≠ []) (hfuel : ns.length ≤ fuel) :
    ∃ p, ngx_rbtree_min fuel m tree.root tree.sentinel = some p ∧ p ∈ ns ∧
      ∀ q ∈ ns, m.key p ≤ m.key q := by
  obtain ⟨h1, -, -, t, hT, -, hso, hp⟩ := hb.inv
  subst h1
  have htn : t ≠ nil := by
    rintro rfl
    exact hne (List.Perm.nil_eq (by simpa using hp)).symm
  obtain ⟨c2, y, ky, r2, hmin⟩ := minNode_shape t htn
  have hm := ngx_rbtree_min_spec t [] m hT htn fuel
    (by have := t.height_le_length; have := hp.length_eq; omega)
  rw [← hT.root_eq, hmin] at hm
  have e0 : t = plug (minFrames t) (node c2 nil y ky r2) := by rw [← hmin, plug_minFrames]
  have hT' := hT
  rw [e0] at hT'
  have hky := hT'.look.2.2.1
  have hyt : y ∈ t.ids := by
    rw [(ids_min_split hmin).1]
    simp
  refine ⟨y, hm, hp.mem_iff.1 hyt, fun q hq => ?_⟩
  rw [hky]
  apply minNode_key_le hmin hso
  rw [hT.rep.keys_eq]
  exact List.mem_map_of_mem _ (hp.mem_iff.2 hq)

theorem firstL_eq (fs : List RbFrame) : firstL fs = (ctxR fs).head? := by
  induction fs with
  | nil => rfl
  | cons f fs ih => cases f <;> simp [firstL, ctxR, ih]

theorem next_up_spec {s root : Nat} (fs : List RbFrame) :
    ∀ (m : RbHeap) (c : Color) (l : RbTree) (x k : Nat) (r : RbTree),
      TreeInv m s root (plug fs (node c l x k r)) → ∀ fuel, fs.length + 1 ≤ fuel →
      ngx_rbtree_next_up fuel m root x = some (firstL fs) := by
  induction fs with
  | nil =>
    intro m c l x k r h fuel hfuel
    obtain ⟨fuel, rfl⟩ : ∃ f, fuel = f + 1 := ⟨fuel - 1, by omega⟩
    have hx : x = root := h.look.2.2.2.2.2.2.2 rfl
    simp [ngx_rbtree_next_up, hx, firstL]
  | cons F rest ih =>
    intro m c l x k r h fuel hfuel
    obtain ⟨fuel, rfl⟩ : ∃ f, fuel = f + 1 := ⟨fuel - 1, by omega⟩
    simp only [List.length_cons] at hfuel
    obtain ⟨-, -, -, -, -, hpx, hroot⟩ := h.look
    have hne : x ≠ root := fun e => by simpa using hroot.1 e
    have hpx' : m.parent x = F.id := by simpa using hpx
    rw [ngx_rbtree_next_up]
    simp only [if_neg hne, hpx']
    cases F with
    | L cp p kp pr =>
      have h2 : TreeInv m s root (plug rest (node cp (node c l x k r) p kp pr)) := h
      have hl := h2.look.2.2.2.1
      simp only [RbFrame.id_L, ptr_node] at hl ⊢
      simp [hl, firstL]
    | R cp pl p kp =>
      have h2 : TreeInv m s root (plug rest (node cp pl p kp (node c l x k r))) := h
      have hl := h2.look.2.2.2.1
      have hne2 : x ≠ m.left p := by
        rw [hl]
        intro e
        have := (h2.children_ne (by simpa using e.symm)).2
        simp at this
      simp only [RbFrame.id_R]
      rw [if_neg hne2]
      simpa [firstL] using ih m cp pl p kp _ h2 fuel (by omega)

/-- `ngx_rbtree_next` returns the node that follows `x` in the in-order sequence of the
stored tree, and `NULL` when there is none. -/
theorem ngx_rbtree_next_spec {m : RbHeap} {tree : ngx_rbtree_t} {fs : List RbFrame}
    {c : Color} {l r : RbTree} {x k : Nat}
    (h : TreeInv m tree.sentinel tree.root (plug fs (node c l x k r)))
    (fuel : Nat) (hfuel : (plug fs (node c l x k r)).height + 1 ≤ fuel) :
    ngx_rbtree_next fuel m tree x = some (r.ids ++ ctxR fs).head? := by
  have hht := height_plug fs (node c l x k r)
  simp only [RbTree.height] at hht
  obtain ⟨-, -, -, -, hrx, -, -⟩ := h.look
  obtain ⟨-, hRr⟩ := h.children_rep
  unfold ngx_rbtree_next
  rw [hrx]
  by_cases hr : r = nil
  · subst hr
    simp only [ptr_nil, ne_eq, not_true_eq_false, if_false, ids_nil, List.nil_append]
    rw [← firstL_eq]
    exact next_up_spec fs m c l x k nil h fuel (by omega)
  · rw [if_pos (fun e => hr (hRr.ptr_eq_sentinel.1 e))]
    obtain ⟨c2, y, ky, r2, hmin⟩ := minNode_shape r hr
    have h1 : plug fs (node c l x k r) = plug (RbFrame.R c l x k :: fs) r := rfl
    rw [ngx_rbtree_min_spec r (RbFrame.R c l x k :: fs) m (h1 ▸ h) hr fuel (by omega), hmin,
      (ids_min_split hmin).1]
    rfl

theorem split_unique {a a' b b' : List Nat} {x : Nat} (hnd : (a ++ x :: b).Nodup)
    (e : a ++ x :: b = a' ++ x :: b') : a = a' ∧ b = b' := by
  induction a generalizing a' with
  | nil =>
    cases a' with
    | nil => simpa using e
    | cons z a'' =>
      simp only [List.nil_append, List.cons_append, List.cons.injEq] at e hnd
      obtain ⟨rfl, rfl⟩ := e
      simp at hnd
  | cons z a1 ih =>
    cases a' with
    | nil =>
      simp only [List.nil_append, List.cons_append, List.cons.injEq] at e hnd
      obtain ⟨rfl, -⟩ := e
      simp at hnd
    | cons z' a'' =>
      simp only [List.cons_append, List.cons.injEq] at e hnd
      obtain ⟨rfl, e⟩ := e
      obtain ⟨h1, h2⟩ := ih (List.nodup_cons.1 hnd).2 e
      exact ⟨by rw [h1], h2⟩

theorem next_of_split {m : RbHeap} {tree : ngx_rbtree_t} {t : RbTree} {a b : List Nat}
    {x : Nat} (h : TreeInv m tree.sentinel tree.root t) (hsplit : t.ids = a ++ x :: b)
    (fuel : Nat) (hfuel : t.ids.length + 1 ≤ fuel) :
    ngx_rbtree_next fuel m tree x = some b.head? := by
  have hx : x ∈ t.ids := by rw [hsplit]; simp
  obtain ⟨fs, c, l, k, r, rfl⟩ := exists_plug_of_mem hx
  have hnd := h.nodup
  rw [hsplit] at hnd
  have e : a ++ x :: b = (ctxL fs ++ l.ids) ++ x :: (r.ids ++ ctxR fs) := by
    rw [← hsplit, ids_plug]
    simp
  rw [(split_unique hnd e).2]
  exact ngx_rbtree_next_spec h fuel
    (by have := (plug fs (node c l x k r)).height_le_length; omega)

theorem nextWalk_spec {m : RbHeap} {tree : ngx_rbtree_t} {t : RbTree}
    (h : TreeInv m tree.sentinel tree.root t) (fuel : Nat) (hfuel : t.ids.length + 1 ≤ fuel)
    (b : List Nat) : ∀ (a : List Nat) (x steps : Nat), t.ids = a ++ x :: b →
      b.length + 1 ≤ steps → nextWalk fuel m tree steps x = some (x :: b) := by
  induction b with
  | nil =>
    intro a x steps hsplit hsteps
    obtain ⟨steps, rfl⟩ : ∃ f, steps = f + 1 := ⟨steps - 1, by omega⟩
    simp [nextWalk, next_of_split h hsplit fuel hfuel]
  | cons y b ih =>
    intro a x steps hsplit hsteps
    obtain ⟨steps, rfl⟩ : ∃ f, steps = f + 1 := ⟨steps - 1, by omega⟩
    simp only [List.length_cons] at hsteps
    have h2 := ih (a ++ [x]) y steps (by rw [hsplit]; simp) (by omega)
    simp [nextWalk, next_of_split h hsplit fuel hfuel, h2]

theorem inorderWalk_spec {m : RbHeap} {tree : ngx_rbtree_t} {t : RbTree}
    (h : TreeInv m tree.sentinel tree.root t) (fuel : Nat) (hfuel : t.ids.length + 1 ≤ fuel) :
    inorderWalk fuel m tree = some t.ids := by
  unfold inorderWalk
  by_cases ht : t = nil
  · subst ht
    have := h.root_eq
    simp only [ptr_nil] at this
    simp [this]
  · have hr : tree.root ≠ tree.sentinel := by
      rw [h.root_eq]
      exact fun e => ht (h.rep.ptr_eq_sentinel.1 e)
    rw [if_neg hr]
    obtain ⟨c2, y, ky, r2, hmin⟩ := minNode_shape t ht
    have hm := ngx_rbtree_min_spec t [] m h ht fuel (by have := t.height_le_length; omega)
    rw [← h.root_eq, hmin] at hm
    simp only [ptr_node] at hm
    rw [hm]
    have e := (ids_min_split hmin).1
    simp only
    rw [e]
    exact nextWalk_spec h fuel hfuel _ [] y fuel (by rw [e]; rfl)
      (by rw [e] at hfuel; simp only [List.length_cons] at hfuel; omega)

/-- C7: on a stored tree, `ngx_rbtree_next` of a node returns the node that follows it in
the in-order sequence, and `NULL` exactly when the node is the last one; the walk that
starts at `ngx_rbtree_min` and applies `ngx_rbtree_next` until `NULL` lists every node once,
in in-order. -/
theorem ngx_rbtree_next_successor (m : RbHeap) (tree : ngx_rbtree_t) (t : RbTree)
    (a b : List Nat) (x fuel : Nat) (h : TreeInv m tree.sentinel tree.root t)
    (hsplit : t.ids = a ++ x :: b) (hfuel : t.ids.length + 1 ≤ fuel) :
    ngx_rbtree_next fuel m tree x = some b.head? ∧
    (ngx_rbtree_next fuel m tree x = some none ↔ b = []) ∧
    inorderWalk fuel m tree = some t.ids := by
  have h1 := next_of_split h hsplit fuel hfuel
  refine ⟨h1, ?_, inorderWalk_spec h fuel hfuel⟩
  rw [h1]
  cases b <;> simp

theorem ngx_rbtree_next_successor_witness :
    ngx_rbtree_next 4 w3Heap wTree 2 = some [4].head? ∧
    (ngx_rbtree_next 4 w3Heap wTree 2 = some none ↔ [4] = []) ∧
    inorderWalk 4 w3Heap wTree = some w3.ids :=
  ngx_rbtree_next_successor w3Heap wTree w3 [3] [4] 2 4 w3_inv rfl (by decide)

end RbFacts

theorem kpath_length (key d : Nat) : (kpath key d).length = d := by
  induction d with
  | zero => rfl
  | succ d ih => simp [kpath, ih]

theorem shift_bit (d : Nat) : (0x80000000 >>> d) >>> 1 = 0x80000000 >>> (d + 1) := by
  rw [Nat.shiftRight_add]

theorem bit_32 : (0x80000000 : Nat) >>> 32 = 0 := by decide

theorem maskLenFrom_le (mask : Nat) : ∀ n d, d ≤ maskLenFrom mask n d ∧
    maskLenFrom mask n d ≤ d + n := by
  intro n
  induction n with
  | zero => intro d; simp [maskLenFrom]
  | succ n ih =>
    intro d
    simp only [maskLenFrom]
    split
    · have := ih (d + 1); omega
    · omega

theorem maskLenFrom_true (mask : Nat) : ∀ n d j, d ≤ j → j < maskLenFrom mask n d →
    (0x80000000 >>> j) &&& mask ≠ 0 := by
  intro n
  induction n with
  | zero => intro d j h1 h2; simp only [maskLenFrom] at h2; omega
  | succ n ih =>
    intro d j h1 h2
    simp only [maskLenFrom] at h2
    split at h2
    · rename_i hb
      by_cases e : j = d
      · subst e; exact hb
      · exact ih (d + 1) j (by omega) h2
    · omega

theorem maskLenFrom_false (mask : Nat) : ∀ n d, d + n = 33 → d ≤ 32 →
    ¬ ((0x80000000 >>> maskLenFrom mask n d) &&& mask ≠ 0) := by
  intro n
  induction n with
  | zero => intro d h1 h2; omega
  | succ n ih =>
    intro d h1 h2
    simp only [maskLenFrom]
    split
    · rename_i hb
      have hd : d ≠ 32 := by
        rintro rfl
        rw [bit_32] at hb
        simp at hb
      exact ih (d + 1) (by omega) (by omega)
    · rename_i hb; exact hb

theorem maskLen_le (mask : Nat) : maskLen mask ≤ 32 := by
  by_contra hc
  have h3 : 32 < maskLenFrom mask 33 0 := by
    unfold maskLen at hc
    omega
  have := maskLenFrom_true mask 33 0 32 (by omega) h3
  rw [bit_32] at this
  simp at this

theorem maskLen_true (mask j : Nat) (h : j < maskLen mask) : (0x80000000 >>> j) &&& mask ≠ 0 :=
  maskLenFrom_true mask 33 0 j (by omega) h

theorem maskLen_false (mask : Nat) : ¬ ((0x80000000 >>> maskLen mask) &&& mask ≠ 0) :=
  maskLenFrom_false mask 33 0 rfl (by omega)

/-! ## `ngx_radix32tree_find` -/

theorem RxRep.closed_path {m : RxHeap} {root : Nat} {A : List Bool → Nat}
    (h : RxRep m root A) (key : Nat) {d : Nat} (hd : A (kpath key d) = NULL) :
    ∀ j, d ≤ j → A (kpath key j) = NULL := by
  intro j hj
  induction j with
  | zero =>
    have : d = 0 := by omega
    subst this; exact hd
  | succ j ih =>
    by_cases e : d = j + 1
    · subst e; exact hd
    · by_contra hc
      exact h.closed _ _ hc (ih (by omega))

theorem RxRep.child {m : RxHeap} {root : Nat} {A : List Bool → Nat}
    (h : RxRep m root A) (key d : Nat) (hd : A (kpath key d) ≠ NULL) :
    (if key &&& (0x80000000 >>> d) ≠ 0 then m.right (A (kpath key d))
      else m.left (A (kpath key d))) = A (kpath key (d + 1)) := by
  simp only [kpath, kbit]
  by_cases hb : key &&& (0x80000000 >>> d) ≠ 0
  · rw [if_pos hb, h.right_eq _ hd]
    simp [hb]
  · rw [if_neg hb, h.left_eq _ hd]
    simp [hb]

theorem lpmLt_of_null {m : RxHeap} {root : Nat} {A : List Bool → Nat}
    (h : RxRep m root A) (key : Nat) {d : Nat} (hd : A (kpath key d) = NULL) :
    ∀ n, d ≤ n → lpmLt (content m A) key n = lpmLt (content m A) key d := by
  intro n hn
  induction n with
  | zero =>
    have : d = 0 := by omega
    subst this; rfl
  | succ n ih =>
    by_cases e : d = n + 1
    · subst e; rfl
    · have h0 := h.closed_path key hd n (by omega)
      simp only [lpmLt, content, h0, ne_eq, not_true_eq_false, false_and, if_false]
      exact ih (by omega)

theorem find_loop_spec {m : RxHeap} {root : Nat} {A : List Bool → Nat}
    (h : RxRep m root A) (key : Nat) : ∀ fuel d, d ≤ 33 → 34 ≤ fuel + d →
      ngx_radix32tree_find_loop fuel m key (0x80000000 >>> d) (lpmLt (content m A) key d)
        (A (kpath key d)) = some (lpm (content m A) key) := by
  intro fuel
  induction fuel with
  | zero => intro d h1 h2; omega
  | succ fuel ih =>
    intro d h1 h2
    rw [ngx_radix32tree_find_loop]
    by_cases hn : A (kpath key d) ≠ NULL
    · rw [if_pos hn]
      have hd : d ≤ 32 := by
        have := h.depth _ hn
        rwa [kpath_length] at this
      rw [shift_bit, h.child key d hn]
      have e : (if m.value (A (kpath key d)) ≠ NGX_RADIX_NO_VALUE then m.value (A (kpath key d))
          else lpmLt (content m A) key d) = lpmLt (content m A) key (d + 1) := by
        simp only [lpmLt, content]
        by_cases hv : m.value (A (kpath key d)) ≠ NGX_RADIX_NO_VALUE
        · simp [hn, hv]
        · simp [hv]
      rw [e]
      exact ih (d + 1) (by omega) (by omega)
    · rw [if_neg hn]
      simp only [ne_eq, not_not] at hn
      unfold lpm
      rw [lpmLt_of_null h key hn 33 h1]

/-- `ngx_radix32tree_find` returns the value at the deepest node on the path of `key` that
holds one, and `NGX_RADIX_NO_VALUE` when there is none. -/
theorem ngx_radix32tree_find_spec {m : RxHeap} {tree : ngx_radix_tree_t}
    {A : List Bool → Nat} (h : RxRep m tree.root A) (key fuel : Nat) (hfuel : 34 ≤ fuel) :
    ngx_radix32tree_find fuel m tree key = some (lpm (content m A) key) := by
  have := find_loop_spec h key fuel 0 (by omega) (by omega)
  simp only [kpath, h.root_eq] at this
  exact this

/-! ## `ngx_radix_alloc` -/

theorem slab_cons (start size : Nat) (h : ngx_radix_node_size ≤ size) :
    slab start size = start :: slab (start + ngx_radix_node_size) (size - ngx_radix_node_size) := by
  unfold slab
  have e : size / ngx_radix_node_size = (size - ngx_radix_node_size) / ngx_radix_node_size + 1 := by
    unfold ngx_radix_node_size at *
    omega
  rw [e, List.range_succ_eq_map]
  simp only [List.map_cons, List.map_map, Nat.mul_zero, Nat.add_zero, List.cons.injEq, true_and]
  apply List.map_congr_left
  intro i _
  simp only [Function.comp]
  unfold ngx_radix_node_size
  omega

theorem slab_nil (start size : Nat) (h : size < ngx_radix_node_size) : slab start size = [] := by
  unfold slab
  have e : size / ngx_radix_node_size = 0 := by
    unfold ngx_radix_node_size at *
    omega
  rw [e]
  rfl

theorem pageNodes_cons (p : Nat) (ps : List Nat) :
    pageNodes (p :: ps) = (if p = NULL then [] else slab p ngx_pagesize) ++ pageNodes ps := rfl

theorem node_size_le_pagesize : ngx_radix_node_size ≤ ngx_pagesize := by
  unfold ngx_radix_node_size ngx_pagesize
  omega

theorem RxFresh_nil_free {m : RxHeap} {tree : ngx_radix_tree_t} {F : List Nat}
    (hF : FreeChain m tree.free F) (hf : tree.free = NULL) : F = [] := by
  cases F with
  | nil => rfl
  | cons x xs => exact absurd (hF.1 ▸ hf) hF.2.1

/-- `ngx_radix_alloc` returns the first of the nodes to come, or `NULL` when the free list
and the page are used up and the pool fails. -/
theorem alloc_spec {m : RxHeap} {tree : ngx_radix_tree_t} {L : List Nat}
    (h : RxFresh m tree L) :
    (ngx_radix_alloc m tree).2.root = tree.root ∧
    (((ngx_radix_alloc m tree).1 = NULL ∧ RxFresh m (ngx_radix_alloc m tree).2 L ∧
        (ngx_radix_alloc m tree).2.free = tree.free) ∨
      ∃ L', L = (ngx_radix_alloc m tree).1 :: L' ∧ RxFresh m (ngx_radix_alloc m tree).2 L') := by
  obtain ⟨F, hF, hL⟩ := h
  by_cases hf : tree.free ≠ NULL
  · have e : ngx_radix_alloc m tree = (tree.free, { tree with free := m.right tree.free }) := by
      unfold ngx_radix_alloc
      rw [if_pos hf]
    rw [e]
    refine ⟨rfl, Or.inr ?_⟩
    cases F with
    | nil => exact absurd hF hf
    | cons x xs =>
      obtain ⟨h1, h2, h3⟩ := hF
      refine ⟨xs ++ (slab tree.start tree.size ++ pageNodes tree.pool.pages), ?_, xs, ?_, rfl⟩
      · rw [hL, h1]
        exact List.cons_append _ _ _
      · rw [h1]
        exact h3
  · have hf' : tree.free = NULL := not_not.1 hf
    have hFn := RxFresh_nil_free hF hf'
    subst hFn
    rw [List.nil_append] at hL
    by_cases hs : tree.size < ngx_radix_node_size
    · rw [slab_nil _ _ hs, List.nil_append] at hL
      cases hp : tree.pool.pages with
      | nil =>
        have e : ngx_radix_alloc m tree = (NULL, { tree with start := NULL, pool := tree.pool }) := by
          unfold ngx_radix_alloc
          rw [if_neg hf, if_pos hs]
          have e1 : ngx_pmemalign tree.pool = (NULL, tree.pool) := by
            unfold ngx_pmemalign
            rw [hp]
          rw [e1]
          exact if_pos rfl
        rw [e]
        refine ⟨rfl, Or.inl ⟨rfl, ⟨[], hF, ?_⟩, rfl⟩⟩
        rw [hL, List.nil_append]
        show pageNodes tree.pool.pages = slab NULL tree.size ++ pageNodes tree.pool.pages
        rw [slab_nil _ _ hs, List.nil_append]
      | cons p ps =>
        have e1 : ngx_pmemalign tree.pool = (p, { tree.pool with pages := ps }) := by
          unfold ngx_pmemalign
          rw [hp]
        by_cases hp0 : p = NULL
        · have e : ngx_radix_alloc m tree =
              (NULL, { tree with start := NULL, pool := { tree.pool with pages := ps } }) := by
            unfold ngx_radix_alloc
            rw [if_neg hf, if_pos hs, e1]
            exact if_pos hp0
          rw [e]
          refine ⟨rfl, Or.inl ⟨rfl, ⟨[], hF, ?_⟩, rfl⟩⟩
          rw [hL, hp, List.nil_append]
          show pageNodes (p :: ps) = slab NULL tree.size ++ pageNodes ps
          rw [slab_nil _ _ hs, List.nil_append]
          rw [pageNodes_cons, if_pos hp0, List.nil_append]
        · have e : ngx_radix_alloc m tree =
              (p, { tree with start := p + ngx_radix_node_size,
                              size := ngx_pagesize - ngx_radix_node_size,
                              pool := { tree.pool with pages := ps } }) := by
            unfold ngx_radix_alloc
            rw [if_neg hf, if_pos hs, e1]
            exact if_neg hp0
          rw [e]
          refine ⟨rfl, Or.inr ⟨slab (p + ngx_radix_node_size) (ngx_pagesize - ngx_radix_node_size)
            ++ pageNodes ps, ?_, [], hF, ?_⟩⟩
          · rw [hL, hp]
            show pageNodes (p :: ps) = _
            rw [pageNodes_cons, if_neg hp0, slab_cons p ngx_pagesize node_size_le_pagesize]
            exact List.cons_append _ _ _
          · rw [List.nil_append]
    · have e : ngx_radix_alloc m tree =
          (tree.start, { tree with start := tree.start + ngx_radix_node_size,
                                   size := tree.size - ngx_radix_node_size }) := by
        unfold ngx_radix_alloc
        rw [if_neg hf, if_neg hs]
      rw [e]
      refine ⟨rfl, Or.inr ⟨slab (tree.start + ngx_radix_node_size)
        (tree.size - ngx_radix_node_size) ++ pageNodes tree.pool.pages, ?_, [], hF, ?_⟩⟩
      · rw [hL, slab_cons _ _ (by omega)]
        exact List.cons_append _ _ _
      · rw [List.nil_append]

theorem FreeChain_congr {m m' : RxHeap} {f : Nat} {F : List Nat}
    (hag : ∀ x ∈ F, m'.right x = m.right x) (h : FreeChain m f F) : FreeChain m' f F := by
  induction F generalizing f with
  | nil => exact h
  | cons x xs ih =>
    obtain ⟨h1, h2, h3⟩ := h
    refine ⟨h1, h2, ?_⟩
    rw [hag x (by simp)]
    exact ih (fun y hy => hag y (by simp [hy])) h3

/-- The nodes to come stay the same when memory changes elsewhere. -/
theorem RxFresh_congr {m m' : RxHeap} {tree : ngx_radix_tree_t} {L : List Nat}
    (hag : ∀ x ∈ L, m'.right x = m.right x) (h : RxFresh m tree L) : RxFresh m' tree L := by
  obtain ⟨F, hF, rfl⟩ := h
  exact ⟨F, FreeChain_congr (fun x hx => hag x (by simp [hx])) hF, rfl⟩

theorem linkChild_value (m : RxHeap) (y x : Nat) (b : Bool) :
    (linkChild m y x b).value = Function.update m.value x NGX_RADIX_NO_VALUE := by
  unfold linkChild
  split <;> rfl

theorem linkChild_parent (m : RxHeap) (y x : Nat) (b : Bool) :
    (linkChild m y x b).parent = Function.update m.parent x y := by
  unfold linkChild
  split <;> rfl

theorem linkChild_right (m : RxHeap) (y x : Nat) (b : Bool) (hxy : x ≠ y) (z : Nat) :
    (linkChild m y x b).right z =
      if z = y then (if b = true then x else m.right y) else if z = x then NULL else m.right z := by
  unfold linkChild
  by_cases hzy : z = y <;> by_cases hzx : z = x <;> cases b <;>
    simp [Function.update_apply, hzy, hzx, hxy, Ne.symm hxy]

theorem linkChild_left (m : RxHeap) (y x : Nat) (b : Bool) (hxy : x ≠ y) (z : Nat) :
    (linkChild m y x b).left z =
      if z = y then (if b = true then m.left y else x) else if z = x then NULL else m.left z := by
  unfold linkChild
  by_cases hzy : z = y <;> by_cases hzx : z = x <;> cases b <;>
    simp [Function.update_apply, hzy, hzx, hxy, Ne.symm hxy]

/-- Linking a fresh node `x` under the node at path `q`, on the side `b` where that node
has no child, gives a trie again. -/
theorem rep_add_child {m : RxHeap} {root : Nat} {A : List Bool → Nat} (h : RxRep m root A)
    (q : List Bool) (b : Bool) (x : Nat) (hq : A q ≠ NULL) (hc : A (b :: q) = NULL)
    (hlen : q.length < 32) (hx0 : x ≠ NULL) (hx : ∀ p, A p ≠ x) :
    RxRep (linkChild m (A q) x b) root (Function.update A (b :: q) x) := by
  have hxy : x ≠ A q := fun e => hx q e.symm
  have hbelow : ∀ c, A (c :: b :: q) = NULL := fun c => by
    by_contra hn
    exact h.closed _ _ hn hc
  have hA : ∀ p, Function.update A (b :: q) x p = if p = b :: q then x else A p := fun p => by
    rw [Function.update_apply]
  refine ⟨?_, h.root_ne, ?_, ?_, ?_, ?_, ?_, ?_, ?_⟩
  · rw [hA, if_neg (by simp)]
    exact h.root_eq
  · rw [linkChild_parent, Function.update_apply, if_neg]
    · exact h.root_parent
    · rw [← h.root_eq]
      exact fun e => hx [] e
  · intro c p hp
    rw [hA] at hp ⊢
    by_cases e1 : c :: p = b :: q
    · simp only [List.cons.injEq] at e1
      obtain ⟨rfl, rfl⟩ := e1
      rw [if_neg (by simp)]
      exact hq
    · rw [if_neg e1] at hp
      split
      · exact hx0
      · exact h.closed _ _ hp
  · intro p hp
    rw [hA] at hp
    rw [hA, hA, linkChild_left _ _ _ _ hxy]
    by_cases e1 : p = b :: q
    · subst e1
      rw [if_pos rfl, if_neg hxy, if_pos rfl, if_neg (by simp)]
      exact (hbelow false).symm
    · rw [if_neg e1] at hp
      rw [if_neg e1, if_neg (fun e => hx p e)]
      by_cases e2 : A p = A q
      · have := h.inj p q hp e2
        subst this
        rw [if_pos rfl]
        cases b
        · simp
        · simp [h.left_eq _ hq]
      · rw [if_neg e2, if_neg, h.left_eq _ hp]
        simp only [List.cons.injEq, not_and]
        intro _ e3
        exact e2 (e3 ▸ rfl)
  · intro p hp
    rw [hA] at hp
    rw [hA, hA, linkChild_right _ _ _ _ hxy]
    by_cases e1 : p = b :: q
    · subst e1
      rw [if_pos rfl, if_neg hxy, if_pos rfl, if_neg (by simp)]
      exact (hbelow true).symm
    · rw [if_neg e1] at hp
      rw [if_neg e1, if_neg (fun e => hx p e)]
      by_cases e2 : A p = A q
      · have := h.inj p q hp e2
        subst this
        rw [if_pos rfl]
        cases b
        · simp [h.right_eq _ hq]
        · simp
      · rw [if_neg e2, if_neg, h.right_eq _ hp]
        simp only [List.cons.injEq, not_and]
        intro _ e3
        exact e2 (e3 ▸ rfl)
  · intro c p hp
    rw [hA] at hp
    rw [hA, hA, linkChild_parent, Function.update_apply]
    by_cases e1 : c :: p = b :: q
    · rw [if_pos e1, if_pos rfl]
      simp only [List.cons.injEq] at e1
      obtain ⟨rfl, rfl⟩ := e1
      rw [if_neg (by simp)]
    · rw [if_neg e1] at hp
      rw [if_neg e1, if_neg (fun e => hx _ e), h.parent_eq _ _ hp]
      by_cases e2 : p = b :: q
      · subst e2
        exact absurd (hbelow c) hp
      · rw [if_neg e2]
  · intro p p' hp e
    rw [hA] at hp e
    rw [hA] at e
    by_cases e1 : p = b :: q
    · rw [if_pos e1] at e
      by_cases e2 : p' = b :: q
      · rw [e1, e2]
      · rw [if_neg e2] at e
        exact absurd e.symm (hx p')
    · rw [if_neg e1] at hp e
      by_cases e2 : p' = b :: q
      · rw [if_pos e2] at e
        exact absurd e (hx p)
      · rw [if_neg e2] at e
        exact h.inj p p' hp e
  · intro p hp
    rw [hA] at hp
    by_cases e1 : p = b :: q
    · subst e1
      simp only [List.length_cons]
      omega
    · rw [if_neg e1] at hp
      exact h.depth p hp

theorem insert_walk_spec {m : RxHeap} {root : Nat} {A : List Bool → Nat} (h : RxRep m root A)
    (key mask : Nat) : ∀ fuel d, d ≤ maskLen mask → maskLen mask + 1 ≤ fuel + d →
      A (kpath key d) ≠ NULL →
      ∃ d', d ≤ d' ∧ d' ≤ maskLen mask ∧ A (kpath key d') ≠ NULL ∧
        ((d' = maskLen mask ∧
          ngx_radix32tree_insert_walk fuel m key mask (0x80000000 >>> d) (A (kpath key d))
            (A (kpath key d)) = some (0x80000000 >>> d', A (kpath key d'), A (kpath key d'))) ∨
         (d' < maskLen mask ∧ A (kpath key (d' + 1)) = NULL ∧
          ngx_radix32tree_insert_walk fuel m key mask (0x80000000 >>> d) (A (kpath key d))
            (A (kpath key d)) = some (0x80000000 >>> d', A (kpath key d'), NULL))) := by
  intro fuel
  induction fuel with
  | zero => intro d h1 h2; omega
  | succ fuel ih =>
    intro d h1 h2 hn
    rw [ngx_radix32tree_insert_walk]
    by_cases hd : d = maskLen mask
    · subst hd
      rw [if_neg (maskLen_false mask)]
      exact ⟨maskLen mask, le_refl _, le_refl _, hn, Or.inl ⟨rfl, rfl⟩⟩
    · have hlt : d < maskLen mask := by omega
      rw [if_pos (maskLen_true mask d hlt)]
      simp only
      rw [h.child key d hn]
      by_cases hc : A (kpath key (d + 1)) = NULL
      · rw [if_pos hc]
        exact ⟨d, le_refl _, h1, hn, Or.inr ⟨hlt, hc, by rw [hc]⟩⟩
      · rw [if_neg hc, shift_bit]
        obtain ⟨d', a1, a2, a3, a4⟩ := ih (d + 1) (by omega) (by omega) hc
        exact ⟨d', by omega, a2, a3, a4⟩

theorem linkChild_eq (m : RxHeap) (key d node next : Nat) :
    (if key &&& (0x80000000 >>> d) ≠ 0 then
      ((((m.setRight next NULL).setLeft next NULL).setParent next node).setValue next
        NGX_RADIX_NO_VALUE).setRight node next
    else
      ((((m.setRight next NULL).setLeft next NULL).setParent next node).setValue next
        NGX_RADIX_NO_VALUE).setLeft node next) = linkChild m node next (kbit key d) := by
  unfold linkChild kbit
  by_cases hb : key &&& (0x80000000 >>> d) ≠ 0
  · rw [if_pos hb, if_pos (by simpa using hb)]
  · rw [if_neg hb, if_neg (by simpa using hb)]

theorem RxInv.of_root {m : RxHeap} {tree tree' : ngx_radix_tree_t} {A : List Bool → Nat}
    {L L' : List Nat} (h : RxInv m tree A L) (hr : tree'.root = tree.root)
    (hf : RxFresh m tree' L') (hsub : ∀ x ∈ L', x ∈ L) (hnd : L'.Nodup) : RxInv m tree' A L' :=
  ⟨by rw [hr]; exact h.rep, hf, hnd, fun x hx => h.sep x (hsub x hx)⟩

/-- One round of the second loop of `ngx_radix32tree_insert` with a successful allocation
keeps the trie and allocator invariant. -/
theorem inv_add_child {m : RxHeap} {tree tree' : ngx_radix_tree_t} {A : List Bool → Nat}
    {L' : List Nat} {x : Nat} (h : RxInv m tree A (x :: L')) (hr : tree'.root = tree.root)
    (hf : RxFresh m tree' L') (q : List Bool) (b : Bool) (hq : A q ≠ NULL)
    (hc : A (b :: q) = NULL) (hlen : q.length < 32) :
    RxInv (linkChild m (A q) x b) tree' (Function.update A (b :: q) x) L' := by
  obtain ⟨hx0, hxA⟩ := h.sep x (by simp)
  have hnd := List.nodup_cons.1 h.nodup
  refine ⟨?_, ?_, hnd.2, ?_⟩
  · rw [hr]
    exact rep_add_child h.rep q b x hq hc hlen hx0 hxA
  · refine RxFresh_congr (fun y hy => ?_) hf
    have hyx : y ≠ x := fun e => hnd.1 (e ▸ hy)
    have hyq : y ≠ A q := fun e => (h.sep y (by simp [hy])).2 q e.symm
    rw [linkChild_right _ _ _ _ (fun e => hxA q e.symm), if_neg hyq, if_neg hyx]
  · intro y hy
    refine ⟨(h.sep y (by simp [hy])).1, fun p => ?_⟩
    rw [Function.update_apply]
    split
    · exact fun e => hnd.1 (e ▸ hy)
    · exact (h.sep y (by simp [hy])).2 p

/-- The second loop of `ngx_radix32tree_insert`, started at depth `d` below an existing
node whose child on the path is missing: it links new valueless nodes down the path of
`key`, as far as the allocations succeed, and changes no old node's value. -/
theorem insert_grow_spec (key mask : Nat) : ∀ (n fuel d : Nat) (m : RxHeap)
    (tree : ngx_radix_tree_t) (A : List Bool → Nat) (Lf : List Nat),
    d + n = maskLen mask → n + 1 ≤ fuel → RxInv m tree A Lf → A (kpath key d) ≠ NULL →
    (n ≠ 0 → A (kpath key (d + 1)) = NULL) →
    ∃ m' tree' res A' Lf' used,
      ngx_radix32tree_insert_grow fuel m tree key mask (0x80000000 >>> d) (A (kpath key d)) =
        some (m', tree', res) ∧
      RxInv m' tree' A' Lf' ∧ tree'.root = tree.root ∧ Lf = used ++ Lf' ∧
      (∀ p, A p ≠ NULL → A' p = A p) ∧
      (∀ p, A p ≠ NULL → m'.value (A p) = m.value (A p)) ∧
      (∀ p, A p = NULL → A' p ≠ NULL →
        m'.value (A' p) = NGX_RADIX_NO_VALUE ∧ ∃ j, d < j ∧ j ≤ maskLen mask ∧ p = kpath key j) ∧
      (∀ node', res = some node' → node' = A' (kpath key (maskLen mask)) ∧ node' ≠ NULL ∧
        used.length = n ∧ ∀ j, d ≤ j → j < maskLen mask → A' (kpath key (j + 1)) ≠ NULL) ∧
      (res = none → used.length < n) := by
  intro n
  induction n with
  | zero =>
    intro fuel d m tree A Lf hd hfuel h hn _
    obtain ⟨fuel, rfl⟩ : ∃ f, fuel = f + 1 := ⟨fuel - 1, by omega⟩
    have hd' : d = maskLen mask := by omega
    subst hd'
    refine ⟨m, tree, some (A (kpath key (maskLen mask))), A, Lf, [], ?_, h, rfl, rfl,
      fun _ _ => rfl, fun _ _ => rfl, fun p h1 h2 => absurd h1 h2, ?_, fun hc => by simp at hc⟩
    · rw [ngx_radix32tree_insert_grow, if_neg (maskLen_false mask)]
    · intro node' e
      simp only [Option.some.injEq] at e
      subst e
      exact ⟨rfl, hn, rfl, fun j h1 h2 => by omega⟩
  | succ n ih =>
    intro fuel d m tree A Lf hd hfuel h hn hc
    obtain ⟨fuel, rfl⟩ : ∃ f, fuel = f + 1 := ⟨fuel - 1, by omega⟩
    have hlt : d < maskLen mask := by omega
    have hc' := hc (by omega)
    rw [ngx_radix32tree_insert_grow, if_pos (maskLen_true mask d hlt)]
    simp only
    obtain ⟨hroot, hal⟩ := alloc_spec h.fresh
    rcases hal with ⟨h0, hfr, hfree⟩ | ⟨L', hL, hfr⟩
    · rw [if_pos h0]
      refine ⟨m, _, none, A, Lf, [], rfl, h.of_root hroot hfr (fun _ hx => hx) h.nodup, hroot,
        rfl, fun _ _ => rfl, fun _ _ => rfl, fun p h1 h2 => absurd h1 h2,
        fun _ e => by simp at e, fun _ => by simp⟩
    · subst hL
      have hx0 := (h.sep (ngx_radix_alloc m tree).1 (by simp)).1
      rw [if_neg hx0, linkChild_eq, shift_bit]
      have hlen : (kpath key d).length < 32 := by
        rw [kpath_length]
        have := maskLen_le mask
        omega
      have h1 := inv_add_child h hroot hfr (kpath key d) (kbit key d) hn hc' hlen
      have hkp : kpath key (d + 1) = kbit key d :: kpath key d := rfl
      rw [← hkp] at h1
      have hA1 : Function.update A (kpath key (d + 1)) (ngx_radix_alloc m tree).1
          (kpath key (d + 1)) = (ngx_radix_alloc m tree).1 := by
        rw [Function.update_same]
      have hne1 : ∀ p, A p ≠ NULL → p ≠ kpath key (d + 1) := fun p hp e => hp (e ▸ hc')
      have hA1o : ∀ p, A p ≠ NULL →
          Function.update A (kpath key (d + 1)) (ngx_radix_alloc m tree).1 p = A p := fun p hp => by
        rw [Function.update_noteq (hne1 p hp)]
      obtain ⟨m', tree', res, A', Lf', used, e, hI, hr', hu, c1, c2, c3, c4, c5⟩ :=
        ih fuel (d + 1) _ _ _ L' (by omega) (by omega) h1 (by rw [hA1]; exact hx0)
          (fun _ => by
            rw [Function.update_noteq]
            · by_contra hcc
              exact h.rep.closed _ _ hcc hc'
            · intro e
              have := congrArg List.length e
              simp [kpath_length] at this)
      rw [hA1] at e
      refine ⟨m', tree', res, A', Lf', (ngx_radix_alloc m tree).1 :: used, e, hI,
        hr'.trans hroot, by rw [hu]; rfl, ?_, ?_, ?_, ?_, ?_⟩
      · intro p hp
        rw [← hA1o p hp]
        exact c1 p (by rw [hA1o p hp]; exact hp)
      · intro p hp
        have := c2 p (by rw [hA1o p hp]; exact hp)
        rw [hA1o p hp] at this
        rw [this, linkChild_value, Function.update_noteq]
        exact fun e => (h.sep (ngx_radix_alloc m tree).1 (by simp)).2 p e
      · intro p hp hp'
        by_cases e1 : p = kpath key (d + 1)
        · subst e1
          have h2 := c1 (kpath key (d + 1)) (by rw [hA1]; exact hx0)
          have h3 := c2 (kpath key (d + 1)) (by rw [hA1]; exact hx0)
          rw [hA1] at h2 h3
          rw [h2, h3, linkChild_value, Function.update_same]
          exact ⟨rfl, d + 1, by omega, by omega, rfl⟩
        · obtain ⟨v1, j, j1, j2, j3⟩ := c3 p (by rw [Function.update_noteq e1]; exact hp) hp'
          exact ⟨v1, j, by omega, j2, j3⟩
      · intro node' e2
        obtain ⟨a1, a2, a3, a4⟩ := c4 node' e2
        refine ⟨a1, a2, by simp [a3], fun j j1 j2 => ?_⟩
        by_cases e3 : j = d
        · subst e3
          rw [c1 _ (by rw [hA1]; exact hx0), hA1]
          exact hx0
        · exact a4 j (by omega) j2
      · intro e2
        have a1 := c5 e2
        simp only [List.length_cons]
        omega

theorem RxInv.setValue {m : RxHeap} {tree : ngx_radix_tree_t} {A : List Bool → Nat}
    {L : List Nat} (h : RxInv m tree A L) (x v : Nat) : RxInv (m.setValue x v) tree A L :=
  ⟨⟨h.rep.root_eq, h.rep.root_ne, h.rep.root_parent, h.rep.closed, h.rep.left_eq,
    h.rep.right_eq, h.rep.parent_eq, h.rep.inj, h.rep.depth⟩,
    @RxFresh_congr m (m.setValue x v) tree L (fun _ _ => rfl) h.fresh, h.nodup, h.sep⟩

/-- `ngx_radix32tree_insert` on a trie: it returns `NGX_BUSY` and changes nothing when the
node of the prefix holds a value, stores the value in that node (creating the path to it
when needed) and returns `NGX_OK`, or returns `NGX_ERROR` when an allocation failed, the
values of all old nodes kept and every new node valueless. -/
theorem ngx_radix32tree_insert_spec {m : RxHeap} {tree : ngx_radix_tree_t}
    {A : List Bool → Nat} {Lf : List Nat} (h : RxInv m tree A Lf) (key mask value fuel : Nat)
    (hfuel : 34 ≤ fuel) :
    ∃ m' tree' rc A' Lf', ngx_radix32tree_insert fuel m tree key mask value =
        some (m', tree', rc) ∧
      RxInv m' tree' A' Lf' ∧ tree'.root = tree.root ∧ (∀ p, A p ≠ NULL → A' p = A p) ∧
      (∀ p, A p = NULL → A' p ≠ NULL → ∃ j, j ≤ maskLen mask ∧ p = kpath key j) ∧
      ((rc = NGX_BUSY ∧ m' = m ∧ tree' = tree ∧ A' = A ∧ Lf' = Lf ∧
          A (kpath key (maskLen mask)) ≠ NULL ∧
          m.value (A (kpath key (maskLen mask))) ≠ NGX_RADIX_NO_VALUE) ∨
       (rc = NGX_OK ∧ content m A (kpath key (maskLen mask)) = none ∧
          A' (kpath key (maskLen mask)) ≠ NULL ∧
          m'.value (A' (kpath key (maskLen mask))) = value ∧
          (∀ p, p ≠ kpath key (maskLen mask) → A' p ≠ NULL →
            m'.value (A' p) = if A p ≠ NULL then m.value (A p) else NGX_RADIX_NO_VALUE) ∧
          (∀ j, j < maskLen mask → A' (kpath key (j + 1)) ≠ NULL)) ∨
       (rc = NGX_ERROR ∧ A (kpath key (maskLen mask)) = NULL ∧
          (∀ p, A p ≠ NULL → m'.value (A p) = m.value (A p)) ∧
          (∀ p, A p = NULL → A' p ≠ NULL → m'.value (A' p) = NGX_RADIX_NO_VALUE))) := by
  have hroot : A (kpath key 0) ≠ NULL := by
    show A [] ≠ NULL
    rw [h.rep.root_eq]; exact h.rep.root_ne
  obtain ⟨d, -, hdL, hnd, hw⟩ := insert_walk_spec h.rep key mask fuel 0 (Nat.zero_le _)
    (by have := maskLen_le mask; omega) hroot
  have hr0 : A (kpath key 0) = tree.root := h.rep.root_eq
  rw [hr0] at hw
  have hup : ∀ j, j ≤ d → A (kpath key j) ≠ NULL := fun j hj hc =>
    hnd (h.rep.closed_path key hc d hj)
  unfold ngx_radix32tree_insert
  rcases hw with ⟨rfl, e⟩ | ⟨hlt, hcn, e⟩
  · have e' : ngx_radix32tree_insert_walk fuel m key mask 0x80000000 tree.root tree.root =
        some (0x80000000 >>> maskLen mask, A (kpath key (maskLen mask)),
          A (kpath key (maskLen mask))) := e
    rw [e']
    simp only
    rw [if_pos hnd]
    by_cases hv : m.value (A (kpath key (maskLen mask))) ≠ NGX_RADIX_NO_VALUE
    · rw [if_pos hv]
      exact ⟨m, tree, NGX_BUSY, A, Lf, rfl, h, rfl, fun _ _ => rfl,
        fun p h1 h2 => absurd h1 h2, Or.inl ⟨rfl, rfl, rfl, rfl, rfl, hnd, hv⟩⟩
    · rw [if_neg hv]
      refine ⟨_, tree, NGX_OK, A, Lf, rfl, h.setValue _ _, rfl, fun _ _ => rfl,
        fun p h1 h2 => absurd h1 h2, Or.inr (Or.inl ⟨rfl, ?_, hnd, ?_, ?_, ?_⟩)⟩
      · simp [content, hv]
      · simp
      · intro p hp hpn
        rw [if_pos hpn]
        simp only [RxHeap.rx_setValue_value]
        rw [Function.update_noteq]
        exact fun e1 => hp (h.rep.inj _ _ hpn e1)
      · intro j hj
        exact hup (j + 1) (by omega)
  · have e' : ngx_radix32tree_insert_walk fuel m key mask 0x80000000 tree.root tree.root =
        some (0x80000000 >>> d, A (kpath key d), NULL) := e
    rw [e']
    simp only
    rw [if_neg (by simp)]
    have htn : A (kpath key (maskLen mask)) = NULL :=
      h.rep.closed_path key hcn _ (by omega)
    obtain ⟨m', tree', res, A', Lf', used, e2, hI, hr', -, c1, c2, c3, c4, c5⟩ :=
      insert_grow_spec key mask (maskLen mask - d) fuel d m tree A Lf (by omega)
        (by have := maskLen_le mask; omega) h hnd (fun _ => hcn)
    rw [e2]
    have hnew : ∀ p, A p = NULL → A' p ≠ NULL → ∃ j, j ≤ maskLen mask ∧ p = kpath key j :=
      fun p h1 h2 => by
        obtain ⟨-, j, -, j2, j3⟩ := c3 p h1 h2
        exact ⟨j, j2, j3⟩
    cases res with
    | none =>
      exact ⟨m', tree', NGX_ERROR, A', Lf', rfl, hI, hr', c1, hnew,
        Or.inr (Or.inr ⟨rfl, htn, c2, fun p h1 h2 => (c3 p h1 h2).1⟩)⟩
    | some node' =>
      obtain ⟨a1, a2, -, a4⟩ := c4 node' rfl
      refine ⟨_, tree', NGX_OK, A', Lf', rfl, hI.setValue _ _, hr', c1, hnew,
        Or.inr (Or.inl ⟨rfl, ?_, a1 ▸ a2, ?_, ?_, ?_⟩)⟩
      · simp [content, htn]
      · rw [a1]; simp
      · intro p hp hpn
        simp only [RxHeap.rx_setValue_value]
        rw [Function.update_noteq]
        · by_cases hpA : A p ≠ NULL
          · rw [if_pos hpA, c1 p hpA, c2 p hpA]
          · rw [if_neg hpA]
            exact (c3 p (not_not.1 hpA) hpn).1
        · rw [a1]
          exact fun e1 => hp (hI.rep.inj _ _ hpn e1)
      · intro j hj
        by_cases hjd : j < d
        · rw [c1 _ (hup (j + 1) (by omega))]
          exact hup (j + 1) (by omega)
        · exact a4 j (by omega) hj

/-! ## `ngx_radix32tree_delete` -/

theorem delete_walk_spec {m : RxHeap} {root : Nat} {A : List Bool → Nat} (h : RxRep m root A)
    (key mask : Nat) : ∀ fuel d, d ≤ maskLen mask → maskLen mask + 1 ≤ fuel + d →
      ngx_radix32tree_delete_walk fuel m key mask (0x80000000 >>> d) (A (kpath key d)) =
        some (A (kpath key (maskLen mask))) := by
  intro fuel
  induction fuel with
  | zero => intro d h1 h2; omega
  | succ fuel ih =>
    intro d h1 h2
    rw [ngx_radix32tree_delete_walk]
    by_cases hn : A (kpath key d) = NULL
    · rw [if_neg (fun hc => hc.1 hn), hn, h.closed_path key hn _ h1]
    · by_cases hd : d = maskLen mask
      · subst hd
        rw [if_neg (fun hc => maskLen_false mask hc.2)]
      · have hlt : d < maskLen mask := by omega
        rw [if_pos ⟨hn, maskLen_true mask d hlt⟩, h.child key d hn, shift_bit]
        exact ih (d + 1) (by omega) (by omega)

theorem unlinkNode_value (m : RxHeap) (node free : Nat) :
    (unlinkNode m node free).value = m.value := by
  unfold unlinkNode
  split <;> rfl

theorem unlinkNode_parent (m : RxHeap) (node free : Nat) :
    (unlinkNode m node free).parent = m.parent := by
  unfold unlinkNode
  split <;> rfl

theorem unlinkNode_fields {m : RxHeap} {root : Nat} {A : List Bool → Nat} (h : RxRep m root A)
    (b : Bool) (q : List Bool) (free : Nat) (hn : A (b :: q) ≠ NULL) (z : Nat) :
    (unlinkNode m (A (b :: q)) free).right z =
      (if z = A (b :: q) then free else if z = A q ∧ b = true then NULL else m.right z) ∧
    (unlinkNode m (A (b :: q)) free).left z =
      (if z = A q ∧ b = false then NULL else m.left z) := by
  have hq : A q ≠ NULL := h.closed _ _ hn
  have hne : A (b :: q) ≠ A q := fun e => by
    have := h.inj _ _ hn e
    simpa using congrArg List.length this
  unfold unlinkNode
  rw [h.parent_eq _ _ hn, h.right_eq _ hq]
  cases b with
  | true =>
    rw [if_pos rfl]
    constructor
    · simp only [RxHeap.rx_setRight_right, Function.update_apply, and_true]
    · simp
  | false =>
    have hne2 : A (true :: q) ≠ A (false :: q) := fun e => by
      have := h.inj _ _ hn e.symm
      simp at this
    rw [if_neg hne2]
    constructor
    · simp only [RxHeap.rx_setRight_right, RxHeap.rx_setLeft_right, Function.update_apply]
      simp
    · simp only [RxHeap.rx_setRight_left, RxHeap.rx_setLeft_left, Function.update_apply, and_true]

/-- Unlinking a childless node other than the root keeps the trie and allocator invariant:
the node leaves the trie and heads the free list. -/
theorem inv_unlink {m : RxHeap} {tree : ngx_radix_tree_t} {A : List Bool → Nat}
    {Lf : List Nat} (h : RxInv m tree A Lf) (b : Bool) (q : List Bool)
    (hn : A (b :: q) ≠ NULL) (hl : A (false :: b :: q) = NULL)
    (hr : A (true :: b :: q) = NULL) :
    RxInv (unlinkNode m (A (b :: q)) tree.free) { tree with free := A (b :: q) }
      (Function.update A (b :: q) NULL) (A (b :: q) :: Lf) := by
  have hq : A q ≠ NULL := h.rep.closed _ _ hn
  have hA : ∀ p, Function.update A (b :: q) NULL p = if p = b :: q then NULL else A p :=
    fun p => by rw [Function.update_apply]
  have hsub : ∀ p, Function.update A (b :: q) NULL p ≠ NULL → p ≠ b :: q ∧ A p ≠ NULL := by
    intro p hp
    rw [hA] at hp
    by_cases e : p = b :: q
    · rw [if_pos e] at hp; exact absurd rfl hp
    · rw [if_neg e] at hp; exact ⟨e, hp⟩
  have hbelow : ∀ c, A (c :: b :: q) = NULL := fun c => by cases c <;> assumption
  have hF := fun z => unlinkNode_fields h.rep b q tree.free hn z
  have hnotin : A (b :: q) ∉ Lf := fun hc => (h.sep _ hc).2 (b :: q) rfl
  refine ⟨⟨?_, h.rep.root_ne, ?_, ?_, ?_, ?_, ?_, ?_, ?_⟩, ?_, List.nodup_cons.2 ⟨hnotin, h.nodup⟩,
    ?_⟩
  · rw [hA, if_neg (by simp)]
    exact h.rep.root_eq
  · rw [unlinkNode_parent]
    exact h.rep.root_parent
  · intro c p hp
    obtain ⟨e1, hp'⟩ := hsub _ hp
    rw [hA]
    by_cases e2 : p = b :: q
    · subst e2
      exact absurd (hbelow c) hp'
    · rw [if_neg e2]
      exact h.rep.closed _ _ hp'
  · intro p hp
    obtain ⟨e1, hp'⟩ := hsub _ hp
    rw [hA, if_neg e1, (hF _).2, hA]
    by_cases e2 : A p = A q ∧ b = false
    · obtain ⟨e3, rfl⟩ := e2
      have := h.rep.inj _ _ hp' e3
      subst this
      rw [if_pos ⟨rfl, rfl⟩, if_pos rfl]
    · rw [if_neg e2, if_neg, h.rep.left_eq _ hp']
      simp only [List.cons.injEq, not_and]
      intro e3 e4
      exact e2 ⟨by rw [e4], e3.symm⟩
  · intro p hp
    obtain ⟨e1, hp'⟩ := hsub _ hp
    rw [hA, if_neg e1, (hF _).1, hA]
    rw [if_neg (fun e => e1 (h.rep.inj _ _ hp' e))]
    by_cases e2 : A p = A q ∧ b = true
    · obtain ⟨e3, rfl⟩ := e2
      have := h.rep.inj _ _ hp' e3
      subst this
      rw [if_pos ⟨rfl, rfl⟩, if_pos rfl]
    · rw [if_neg e2, if_neg, h.rep.right_eq _ hp']
      simp only [List.cons.injEq, not_and]
      intro e3 e4
      exact e2 ⟨by rw [e4], e3.symm⟩
  · intro c p hp
    obtain ⟨e1, hp'⟩ := hsub _ hp
    rw [hA, if_neg e1, unlinkNode_parent, h.rep.parent_eq _ _ hp', hA]
    by_cases e2 : p = b :: q
    · subst e2
      exact absurd (hbelow c) hp'
    · rw [if_neg e2]
  · intro p p' hp e
    obtain ⟨e1, hp'⟩ := hsub _ hp
    rw [hA, if_neg e1] at e
    rw [hA] at e
    by_cases e2 : p' = b :: q
    · rw [if_pos e2] at e
      exact absurd e hp'
    · rw [if_neg e2] at e
      exact h.rep.inj _ _ hp' e
  · intro p hp
    exact h.rep.depth p (hsub _ hp).2
  · obtain ⟨F, hF', hL⟩ := h.fresh
    refine ⟨A (b :: q) :: F, ⟨rfl, hn, ?_⟩, by rw [hL]; rfl⟩
    rw [(hF _).1, if_pos rfl]
    refine FreeChain_congr (fun y hy => ?_) hF'
    have hyL : y ∈ Lf := by rw [hL]; simp [hy]
    have hy := (h.sep y hyL).2
    rw [(hF _).1, if_neg (fun e => hy _ e.symm), if_neg (fun e => hy _ e.1.symm)]
  · intro x hx
    rcases List.mem_cons.1 hx with rfl | hx
    · refine ⟨hn, fun p e => ?_⟩
      rw [hA] at e
      by_cases e2 : p = b :: q
      · rw [if_pos e2] at e
        exact hn e.symm
      · rw [if_neg e2] at e
        exact e2 (h.rep.inj _ _ (e ▸ hn) e)
    · refine ⟨(h.sep x hx).1, fun p e => ?_⟩
      rw [hA] at e
      by_cases e2 : p = b :: q
      · rw [if_pos e2] at e
        exact (h.sep x hx).1 e.symm
      · rw [if_neg e2] at e
        exact (h.sep x hx).2 p e

theorem prune_unfold (fuel : Nat) (m : RxHeap) (tree : ngx_radix_tree_t) (node : Nat)
    (hp : m.parent node ≠ NULL) :
    ngx_radix32tree_delete_prune (fuel + 1) m tree node =
      if (unlinkNode m node tree.free).right (m.parent node) ≠ NULL ∨
          (unlinkNode m node tree.free).left (m.parent node) ≠ NULL then
        RxRes.done (unlinkNode m node tree.free, { tree with free := node })
      else if m.value (m.parent node) ≠ NGX_RADIX_NO_VALUE then
        RxRes.done (unlinkNode m node tree.free, { tree with free := node })
      else if m.parent (m.parent node) = NULL then
        RxRes.done (unlinkNode m node tree.free, { tree with free := node })
      else
        ngx_radix32tree_delete_prune fuel (unlinkNode m node tree.free)
          { tree with free := node } (m.parent node) := by
  rw [ngx_radix32tree_delete_prune, if_neg hp]
  have e : (if m.right (m.parent node) = node then m.setRight (m.parent node) NULL
      else m.setLeft (m.parent node) NULL).setRight node tree.free =
      unlinkNode m node tree.free := rfl
  simp only [e, unlinkNode_parent, unlinkNode_value]

theorem pruned_one {m : RxHeap} {root : Nat} {A : List Bool → Nat} (h : RxRep m root A)
    (b : Bool) (q : List Bool) (hn : A (b :: q) ≠ NULL)
    (hstop : (Function.update A (b :: q) NULL (true :: q) ≠ NULL ∨
        Function.update A (b :: q) NULL (false :: q) ≠ NULL) ∨
      m.value (A q) ≠ NGX_RADIX_NO_VALUE ∨ q = []) :
    Pruned m A (Function.update A (b :: q) NULL) (b :: q) [A (b :: q)] := by
  have hA : ∀ p, Function.update A (b :: q) NULL p = if p = b :: q then NULL else A p :=
    fun p => by rw [Function.update_apply]
  refine ⟨?_, by rw [Function.update_same], ?_, ?_, ?_⟩
  · intro p hp
    rw [hA] at hp ⊢
    split
    · rename_i e; rw [if_pos e] at hp; exact absurd rfl hp
    · rfl
  · intro p hp hp'
    rw [hA] at hp'
    by_cases e : p = b :: q
    · exact Or.inl e
    · rw [if_neg e] at hp'; exact absurd hp' hp
  · intro c p hp h1 h2
    rw [hA] at hp h1 h2
    by_cases e1 : false :: c :: p = b :: q
    · simp only [List.cons.injEq] at e1
      obtain ⟨rfl, rfl⟩ := e1
      rcases hstop with hs | hs | hs
      · rw [hA, hA] at hs
        rcases hs with hs | hs
        · exact absurd h2 hs
        · exact absurd h1 hs
      · exact Or.inr hs
      · simp at hs
    · by_cases e2 : true :: c :: p = b :: q
      · simp only [List.cons.injEq] at e2
        obtain ⟨rfl, rfl⟩ := e2
        rcases hstop with hs | hs | hs
        · rw [hA, hA] at hs
          rcases hs with hs | hs
          · exact absurd h2 hs
          · exact absurd h1 hs
        · exact Or.inr hs
        · simp at hs
      · rw [if_neg e1] at h1
        rw [if_neg e2] at h2
        exact Or.inl ⟨h1, h2⟩
  · intro x
    simp only [List.mem_singleton]
    constructor
    · rintro rfl
      exact ⟨b :: q, rfl, hn, by rw [Function.update_same]⟩
    · rintro ⟨p, e1, e2, e3⟩
      rw [hA] at e3
      by_cases e : p = b :: q
      · rw [← e1, e]
      · rw [if_neg e] at e3
        rw [e1] at e3
        exact absurd e3 e2

theorem pruned_step {m : RxHeap} {root : Nat} {A A' : List Bool → Nat} {R : List Nat}
    (h : RxRep m root A) (b c : Bool) (q : List Bool) (hn : A (b :: c :: q) ≠ NULL)
    (hv : m.value (A (c :: q)) = NGX_RADIX_NO_VALUE)
    (hP : Pruned m (Function.update A (b :: c :: q) NULL) A' (c :: q) R) :
    Pruned m A A' (b :: c :: q) (R ++ [A (b :: c :: q)]) := by
  have hA : ∀ p, Function.update A (b :: c :: q) NULL p =
      if p = b :: c :: q then NULL else A p := fun p => by rw [Function.update_apply]
  have hsub : ∀ p, A' p ≠ NULL → p ≠ b :: c :: q ∧ A' p = A p := by
    intro p hp
    have h1 := hP.sub p hp
    rw [hA] at h1
    by_cases e : p = b :: c :: q
    · rw [if_pos e] at h1; exact absurd h1 hp
    · rw [if_neg e] at h1; exact ⟨e, h1⟩
  have hgone : A' (b :: c :: q) = NULL := by
    by_contra hc
    exact (hsub _ hc).1 rfl
  have hqn : A (c :: q) ≠ NULL := h.closed _ _ hn
  have hcq : c :: q ≠ b :: c :: q := fun e => by simpa using congrArg List.length e
  refine ⟨fun p hp => (hsub p hp).2, hgone, ?_, ?_, ?_⟩
  · intro p hp hp'
    by_cases e : p = b :: c :: q
    · exact Or.inl e
    · rcases hP.removed p (by rw [hA, if_neg e]; exact hp) hp' with e1 | e1
      · subst e1
        exact Or.inr hv
      · rw [hA, if_neg e] at e1
        exact Or.inr e1
  · intro c' p hp h1 h2
    obtain ⟨e0, e0'⟩ := hsub _ hp
    have hne : c' :: p ≠ c :: q := fun e => by
      rw [e, hP.gone] at hp
      exact hp rfl
    rcases hP.leaf c' p hp h1 h2 with ⟨e1, e2⟩ | e1
    · rw [hA] at e1 e2
      left
      constructor
      · by_cases e3 : false :: c' :: p = b :: c :: q
        · simp only [List.cons.injEq] at e3
          exact absurd (by rw [e3.2.1, e3.2.2]) hne
        · rw [if_neg e3] at e1; exact e1
      · by_cases e3 : true :: c' :: p = b :: c :: q
        · simp only [List.cons.injEq] at e3
          exact absurd (by rw [e3.2.1, e3.2.2]) hne
        · rw [if_neg e3] at e2; exact e2
    · rw [hA, if_neg e0] at e1
      exact Or.inr e1
  · intro x
    rw [List.mem_append, hP.mem, List.mem_singleton]
    constructor
    · rintro (⟨p, e1, e2, e3⟩ | rfl)
      · rw [hA] at e1
        by_cases e : p = b :: c :: q
        · rw [if_pos e] at e1
          exact absurd e1.symm e2
        · rw [if_neg e] at e1
          exact ⟨p, e1, e2, e3⟩
      · exact ⟨_, rfl, hn, hgone⟩
    · rintro ⟨p, e1, e2, e3⟩
      by_cases e : p = b :: c :: q
      · right; rw [← e1, e]
      · left
        exact ⟨p, by rw [hA, if_neg e]; exact e1, e2, e3⟩

/-- The `for` loop of `ngx_radix32tree_delete`, started at a childless node other than the
root, ends without a null dereference; the nodes it removes are pushed on the free list and
no value is changed. -/
theorem delete_prune_spec : ∀ (q : List Bool) (b : Bool) (m : RxHeap)
    (tree : ngx_radix_tree_t) (A : List Bool → Nat) (Lf : List Nat),
    RxInv m tree A Lf → A (b :: q) ≠ NULL → A (false :: b :: q) = NULL →
    A (true :: b :: q) = NULL → ∀ fuel, q.length + 1 ≤ fuel →
    ∃ m' tree' A' R, ngx_radix32tree_delete_prune fuel m tree (A (b :: q)) =
        RxRes.done (m', tree') ∧
      RxInv m' tree' A' (R ++ Lf) ∧ tree'.root = tree.root ∧ m'.value = m.value ∧
      Pruned m A A' (b :: q) R := by
  intro q
  induction q with
  | nil =>
    intro b m tree A Lf h hn hl hr fuel hfuel
    obtain ⟨fuel, rfl⟩ : ∃ f, fuel = f + 1 := ⟨fuel - 1, by omega⟩
    have hq : A [] ≠ NULL := h.rep.closed _ _ hn
    have hpar : m.parent (A [b]) = A [] := h.rep.parent_eq _ _ hn
    have h1 := inv_unlink h b [] hn hl hr
    have hpp : m.parent (A []) = NULL := by rw [h.rep.root_eq]; exact h.rep.root_parent
    refine ⟨_, _, _, [A [b]], ?_, h1, rfl, unlinkNode_value _ _ _,
      pruned_one h.rep b [] hn (Or.inr (Or.inr rfl))⟩
    rw [prune_unfold _ _ _ _ (by rw [hpar]; exact hq), hpar, hpp]
    split
    · rfl
    · split
      · rfl
      · rw [if_pos rfl]
  | cons c q ih =>
    intro b m tree A Lf h hn hl hr fuel hfuel
    obtain ⟨fuel, rfl⟩ : ∃ f, fuel = f + 1 := ⟨fuel - 1, by omega⟩
    simp only [List.length_cons] at hfuel
    have hq : A (c :: q) ≠ NULL := h.rep.closed _ _ hn
    have hpar : m.parent (A (b :: c :: q)) = A (c :: q) := h.rep.parent_eq _ _ hn
    have h1 := inv_unlink h b (c :: q) hn hl hr
    have hcq : c :: q ≠ b :: c :: q := fun e => by simpa using congrArg List.length e
    have hA1q : Function.update A (b :: c :: q) NULL (c :: q) = A (c :: q) :=
      Function.update_noteq hcq _ _
    have hR := h1.rep.right_eq (c :: q) (by rw [hA1q]; exact hq)
    have hL := h1.rep.left_eq (c :: q) (by rw [hA1q]; exact hq)
    rw [hA1q] at hR hL
    rw [prune_unfold _ _ _ _ (by rw [hpar]; exact hq), hpar, hR, hL]
    by_cases hch : Function.update A (b :: c :: q) NULL (true :: c :: q) ≠ NULL ∨
        Function.update A (b :: c :: q) NULL (false :: c :: q) ≠ NULL
    · rw [if_pos hch]
      exact ⟨_, _, _, [A (b :: c :: q)], rfl, h1, rfl, unlinkNode_value _ _ _,
        pruned_one h.rep b (c :: q) hn (Or.inl hch)⟩
    · rw [if_neg hch]
      by_cases hv : m.value (A (c :: q)) ≠ NGX_RADIX_NO_VALUE
      · rw [if_pos hv]
        exact ⟨_, _, _, [A (b :: c :: q)], rfl, h1, rfl, unlinkNode_value _ _ _,
          pruned_one h.rep b (c :: q) hn (Or.inr (Or.inl hv))⟩
      · rw [if_neg hv, if_neg (by rw [h.rep.parent_eq _ _ hq]; exact h.rep.closed _ _ hq)]
        simp only [not_or, not_not] at hch hv
        have ih' := ih c _ _ _ _ h1 (by rw [hA1q]; exact hq) hch.2 hch.1 fuel (by omega)
        rw [hA1q] at ih'
        obtain ⟨m', tree', A', R, e, hI, hr', hval, hP⟩ := ih'
        refine ⟨m', tree', A', R ++ [A (b :: c :: q)], e, ?_, hr', ?_, ?_⟩
        · rw [List.append_assoc]
          exact hI
        · rw [hval, unlinkNode_value]
        · refine pruned_step h.rep b c q hn hv ?_
          exact ⟨hP.sub, hP.gone, fun p h2 h3 => by
            have := hP.removed p h2 h3
            rwa [unlinkNode_value] at this, fun c' p h2 h3 h4 => by
            have := hP.leaf c' p h2 h3 h4
            rwa [unlinkNode_value] at this, hP.mem⟩

theorem delete_node_eq {m : RxHeap} {tree : ngx_radix_tree_t} {A : List Bool → Nat}
    (h : RxRep m tree.root A) (key mask fuel : Nat) (hfuel : 34 ≤ fuel) :
    ngx_radix32tree_delete_walk fuel m key mask 0x80000000 tree.root =
      some (A (kpath key (maskLen mask))) := by
  have := delete_walk_spec h key mask fuel 0 (Nat.zero_le _) (by have := maskLen_le mask; omega)
  have e : A (kpath key 0) = tree.root := h.root_eq
  rw [e] at this
  exact this

/-- `ngx_radix32tree_delete` on a trie, by the node `t` that the mask's leading one bits of
`key` lead to: `NGX_ERROR` when there is no such node or it has a child and no value; the
value is cleared when it has a child and a value; a childless root is a null dereference;
any other childless node is removed with its valueless, childless ancestors. -/
theorem ngx_radix32tree_delete_spec {m : RxHeap} {tree : ngx_radix_tree_t}
    {A : List Bool → Nat} {Lf : List Nat} (h : RxInv m tree A Lf) (key mask fuel : Nat)
    (hfuel : 34 ≤ fuel) :
    (A (kpath key (maskLen mask)) = NULL →
      ngx_radix32tree_delete fuel m tree key mask = RxRes.done (m, tree, NGX_ERROR)) ∧
    (A (kpath key (maskLen mask)) ≠ NULL →
      (A (true :: kpath key (maskLen mask)) ≠ NULL ∨
        A (false :: kpath key (maskLen mask)) ≠ NULL) →
      (m.value (A (kpath key (maskLen mask))) ≠ NGX_RADIX_NO_VALUE →
        ngx_radix32tree_delete fuel m tree key mask =
          RxRes.done (m.setValue (A (kpath key (maskLen mask))) NGX_RADIX_NO_VALUE, tree,
            NGX_OK)) ∧
      (m.value (A (kpath key (maskLen mask))) = NGX_RADIX_NO_VALUE →
        ngx_radix32tree_delete fuel m tree key mask = RxRes.done (m, tree, NGX_ERROR))) ∧
    (A (true :: kpath key (maskLen mask)) = NULL →
      A (false :: kpath key (maskLen mask)) = NULL →
      (maskLen mask = 0 → ngx_radix32tree_delete fuel m tree key mask = RxRes.nullDeref) ∧
      (A (kpath key (maskLen mask)) ≠ NULL → maskLen mask ≠ 0 →
        ∃ m' tree' A' R, ngx_radix32tree_delete fuel m tree key mask =
            RxRes.done (m', tree', NGX_OK) ∧
          RxInv m' tree' A' (R ++ Lf) ∧ tree'.root = tree.root ∧ m'.value = m.value ∧
          Pruned m A A' (kpath key (maskLen mask)) R)) := by
  have hw := delete_node_eq h.rep key mask fuel hfuel
  have hR := h.rep.right_eq (kpath key (maskLen mask))
  have hL := h.rep.left_eq (kpath key (maskLen mask))
  refine ⟨fun h0 => ?_, fun hn hch => ⟨fun hv => ?_, fun hv => ?_⟩, fun h1 h2 => ⟨fun hz => ?_,
    fun hn hz => ?_⟩⟩
  · unfold ngx_radix32tree_delete
    rw [hw]
    simp only
    rw [if_pos h0]
  · unfold ngx_radix32tree_delete
    rw [hw]
    simp only
    rw [if_neg hn, hR hn, hL hn, if_pos hch, if_pos hv]
  · unfold ngx_radix32tree_delete
    rw [hw]
    simp only
    rw [if_neg hn, hR hn, hL hn, if_pos hch, if_neg (not_not.2 hv)]
  · unfold ngx_radix32tree_delete
    rw [hw, hz]
    have hroot : A (kpath key 0) = tree.root := h.rep.root_eq
    have hrn : A (kpath key 0) ≠ NULL := by rw [hroot]; exact h.rep.root_ne
    rw [hz] at hR hL h1 h2
    simp only
    rw [if_neg hrn, hR hrn, hL hrn, h1, h2, if_neg (by simp)]
    obtain ⟨f, rfl⟩ : ∃ f, fuel = f + 1 := ⟨fuel - 1, by omega⟩
    rw [ngx_radix32tree_delete_prune, hroot, if_pos h.rep.root_parent]
  · obtain ⟨d, hd⟩ : ∃ d, maskLen mask = d + 1 := ⟨maskLen mask - 1, by omega⟩
    have hk : kpath key (maskLen mask) = kbit key d :: kpath key d := by rw [hd]; rfl
    rw [hk] at hn h1 h2 hR hL hw ⊢
    obtain ⟨m', tree', A', R, e, hI, hr, hv, hP⟩ :=
      delete_prune_spec (kpath key d) (kbit key d) m tree A Lf h hn h2 h1 fuel
        (by rw [kpath_length]; have := maskLen_le mask; omega)
    refine ⟨m', tree', A', R, ?_, hI, hr, hv, hP⟩
    unfold ngx_radix32tree_delete
    rw [hw]
    simp only
    rw [if_neg hn, hR hn, hL hn, h1, h2, if_neg (by simp), e]

theorem slab_ne_null (p size : Nat) (hp : p ≠ NULL) : ∀ x ∈ slab p size, x ≠ NULL := by
  intro x hx
  unfold slab at hx
  rw [List.mem_map] at hx
  obtain ⟨i, -, rfl⟩ := hx
  unfold NULL at *
  omega

theorem pageNodes_ne_null (ps : List Nat) : ∀ x ∈ pageNodes ps, x ≠ NULL := by
  induction ps with
  | nil => intro x hx; simp [pageNodes] at hx
  | cons p ps ih =>
    intro x hx
    rw [pageNodes_cons, List.mem_append] at hx
    rcases hx with hx | hx
    · by_cases hp : p = NULL
      · rw [if_pos hp] at hx; simp at hx
      · rw [if_neg hp] at hx; exact slab_ne_null p _ hp x hx
    · exact ih x hx

/-- `ngx_radix_tree_create(pool, 0)`, when it does not return `NULL`, returns a trie that
holds a valueless root only. -/
theorem ngx_radix_tree_create_spec (fuel : Nat) (m : RxHeap) (pool : ngx_pool_t)
    (hok : PoolOK pool) (r : RxHeap × ngx_radix_tree_t)
    (hc : ngx_radix_tree_create fuel m pool 0 = some r) :
    ∃ L, RxInv r.1 r.2 (rootOnly r.2.root) L ∧ r.1.value r.2.root = NGX_RADIX_NO_VALUE := by
  unfold ngx_radix_tree_create at hc
  simp only at hc
  split at hc
  · exact absurd hc (by simp)
  · have hfr : RxFresh m (⟨NULL, (ngx_palloc pool).2, NULL, NULL, 0⟩ : ngx_radix_tree_t)
        (pageNodes pool.pages) := by
      refine ⟨[], rfl, ?_⟩
      have e : (ngx_palloc pool).2.pages = pool.pages := by
        unfold ngx_palloc
        split <;> rfl
      rw [List.nil_append]
      show _ = slab NULL 0 ++ pageNodes (ngx_palloc pool).2.pages
      rw [slab_nil _ _ (by unfold ngx_radix_node_size; omega), e, List.nil_append]
    have hsp := alloc_spec hfr
    generalize ngx_radix_alloc m ⟨NULL, (ngx_palloc pool).2, NULL, NULL, 0⟩ = a at hc hsp
    obtain ⟨hroot, hal⟩ := hsp
    split at hc
    · exact absurd hc (by simp)
    · rename_i hx
      rcases hal with ⟨h0, -⟩ | ⟨L', hL, hfr'⟩
      · exact absurd h0 hx
      · rw [if_pos trivial] at hc
        simp only [Option.some.injEq] at hc
        subst hc
        have hnd : (pageNodes pool.pages).Nodup := hok
        rw [hL] at hnd
        have hnd' := List.nodup_cons.1 hnd
        have hne : ∀ x ∈ L', x ≠ NULL := fun x hx =>
          pageNodes_ne_null pool.pages x (by rw [hL]; simp [hx])
        have hro : ∀ p, rootOnly a.1 p ≠ NULL → p = [] := fun p hp => by
          by_contra hc
          simp [rootOnly, hc] at hp
        refine ⟨L', ⟨⟨rfl, hx, ?_, ?_, ?_, ?_, ?_, ?_, ?_⟩, ?_, hnd'.2, ?_⟩, ?_⟩
        · simp
        · intro b p hp
          simp [rootOnly] at hp
        · intro p hp
          have := hro p hp
          subst this
          simp [rootOnly]
        · intro p hp
          have := hro p hp
          subst this
          simp [rootOnly]
        · intro b p hp
          simp [rootOnly] at hp
        · intro p q hp e
          have hp' := hro p hp
          subst hp'
          exact (hro q (e ▸ hp)).symm
        · intro p hp
          have hp' := hro p hp
          subst hp'
          simp
        · refine RxFresh_congr (fun y hy => ?_) (?_ : RxFresh m _ L')
          · have hyx : y ≠ a.1 := fun e => hnd'.1 (e ▸ hy)
            simp [Function.update_apply, hyx]
          · obtain ⟨F, hF, hF2⟩ := hfr'
            exact ⟨F, hF, hF2⟩
        · intro x hx'
          refine ⟨hne x hx', fun p e => ?_⟩
          by_cases hp : p = []
          · subst hp
            simp only [rootOnly, if_true] at e
            exact hnd'.1 (e ▸ hx')
          · simp only [rootOnly, if_neg hp] at e
            exact hne x hx' e.symm
        · simp

theorem insert_good {m : RxHeap} {t : ngx_radix_tree_t} {S : List Bool → Option Nat}
    (h : RxGood m t S) (key mask value fuel : Nat) (hfuel : 34 ≤ fuel)
    (hv : value ≠ NGX_RADIX_NO_VALUE) :
    ∃ m' t' rc, ngx_radix32tree_insert fuel m t key mask value = some (m', t', rc) ∧
      (rc ≠ NGX_ERROR → RxGood m' t'
        (if rc = NGX_OK then Function.update S (kpath key (maskLen mask)) (some value) else S)) := by
  obtain ⟨A, L, hI, hlv, hS⟩ := h
  obtain ⟨m', t', rc, A', L', e, hI', -, hsub, hnew, hcase⟩ :=
    ngx_radix32tree_insert_spec hI key mask value fuel hfuel
  refine ⟨m', t', rc, e, fun hrc => ?_⟩
  rcases hcase with ⟨rfl, rfl, rfl, rfl, rfl, -, -⟩ | ⟨rfl, c1, c2, c3, c4, c5⟩ | ⟨rfl, -⟩
  · rw [if_neg (by decide)]
    exact ⟨_, _, hI', hlv, hS⟩
  · rw [if_pos rfl]
    refine ⟨A', L', hI', ?_, fun p => ?_⟩
    · intro c p hp h1 h2
      by_cases e1 : c :: p = kpath key (maskLen mask)
      · rw [e1, c3]; exact hv
      · rw [c4 _ e1 hp]
        by_cases hA : A (c :: p) ≠ NULL
        · rw [if_pos hA]
          refine hlv c p hA ?_ ?_
          · by_contra hc
            exact (hsub _ hc ▸ hc) h1
          · by_contra hc
            exact (hsub _ hc ▸ hc) h2
        · exfalso
          obtain ⟨j, j1, j2⟩ := hnew _ (not_not.1 hA) hp
          have hj : j < maskLen mask := by
            rcases Nat.lt_or_ge j (maskLen mask) with h3 | h3
            · exact h3
            · have : j = maskLen mask := by omega
              rw [this] at j2
              exact absurd j2 e1
          have h4 := c5 j hj
          have h5 : kpath key (j + 1) = kbit key j :: kpath key j := rfl
          rw [h5, ← j2] at h4
          cases hb : kbit key j
          · rw [hb] at h4; exact h4 h1
          · rw [hb] at h4; exact h4 h2
    · rw [Function.update_apply]
      by_cases e1 : p = kpath key (maskLen mask)
      · rw [if_pos e1, e1]
        unfold content
        rw [if_pos ⟨c2, by rw [c3]; exact hv⟩, c3]
      · rw [if_neg e1, ← hS p]
        unfold content
        by_cases hp : A' p ≠ NULL
        · rw [c4 p e1 hp]
          by_cases hA : A p ≠ NULL
          · rw [if_pos hA]
            simp [hp, hA]
          · rw [if_neg hA]
            simp [hA]
        · have hA : ¬ A p ≠ NULL := fun hA => hp (by rw [hsub p hA]; exact hA)
          simp [hp, hA]
  · exact absurd rfl hrc

theorem delete_good {m : RxHeap} {t : ngx_radix_tree_t} {S : List Bool → Option Nat}
    (h : RxGood m t S) (key mask fuel : Nat) (hfuel : 34 ≤ fuel) :
    ngx_radix32tree_delete fuel m t key mask = RxRes.nullDeref ∨
    ∃ m' t' rc, ngx_radix32tree_delete fuel m t key mask = RxRes.done (m', t', rc) ∧
      RxGood m' t'
        (if rc = NGX_OK then Function.update S (kpath key (maskLen mask)) none else S) := by
  obtain ⟨A, L, hI, hlv, hS⟩ := h
  obtain ⟨d1, d2, d3⟩ := ngx_radix32tree_delete_spec hI key mask fuel hfuel
  by_cases hn : A (kpath key (maskLen mask)) = NULL
  · exact Or.inr ⟨m, t, NGX_ERROR, d1 hn, by rw [if_neg (by decide)]; exact ⟨A, L, hI, hlv, hS⟩⟩
  · by_cases hch : A (true :: kpath key (maskLen mask)) ≠ NULL ∨
        A (false :: kpath key (maskLen mask)) ≠ NULL
    · by_cases hv : m.value (A (kpath key (maskLen mask))) ≠ NGX_RADIX_NO_VALUE
      · refine Or.inr ⟨_, t, NGX_OK, (d2 hn hch).1 hv, ?_⟩
        rw [if_pos rfl]
        refine ⟨A, L, hI.setValue _ _, ?_, fun p => ?_⟩
        · intro c p hp h1 h2
          simp only [RxHeap.rx_setValue_value]
          rw [Function.update_noteq]
          · exact hlv c p hp h1 h2
          · intro e
            have := hI.rep.inj _ _ hp e
            rw [← this] at hch
            rcases hch with hc | hc
            · exact hc h2
            · exact hc h1
        · rw [Function.update_apply, ← hS p]
          unfold content
          simp only [RxHeap.rx_setValue_value]
          by_cases e1 : p = kpath key (maskLen mask)
          · rw [if_pos e1, e1]
            simp
          · rw [if_neg e1]
            by_cases hp : A p ≠ NULL
            · rw [Function.update_noteq (fun e => e1 (hI.rep.inj _ _ hp e))]
            · simp [hp]
      · exact Or.inr ⟨m, t, NGX_ERROR, (d2 hn hch).2 (not_not.1 hv),
          by rw [if_neg (by decide)]; exact ⟨A, L, hI, hlv, hS⟩⟩
    · simp only [not_or, not_not] at hch
      obtain ⟨d4, d5⟩ := d3 hch.1 hch.2
      by_cases hz : maskLen mask = 0
      · exact Or.inl (d4 hz)
      · obtain ⟨m', t', A', R, e, hI', -, hval, hP⟩ := d5 hn hz
        refine Or.inr ⟨m', t', NGX_OK, e, ?_⟩
        rw [if_pos rfl]
        refine ⟨A', _, hI', ?_, fun p => ?_⟩
        · intro c p hp h1 h2
          rw [hval, hP.sub _ hp]
          rcases hP.leaf c p hp h1 h2 with ⟨e1, e2⟩ | e1
          · exact hlv c p (hP.sub _ hp ▸ hp) e1 e2
          · exact e1
        · rw [Function.update_apply, ← hS p]
          unfold content
          rw [hval]
          by_cases e1 : p = kpath key (maskLen mask)
          · rw [if_pos e1, e1, hP.gone]
            simp
          · rw [if_neg e1]
            by_cases hp : A' p ≠ NULL
            · have := hP.sub p hp
              rw [this] at hp ⊢
            · by_cases hA : A p ≠ NULL
              · rcases hP.removed p hA (not_not.1 hp) with e2 | e2
                · exact absurd e2 e1
                · simp [hp, e2]
              · simp [hp, hA]

theorem delete_total {m : RxHeap} {t : ngx_radix_tree_t} {A : List Bool → Nat} {L : List Nat}
    (h : RxInv m t A L) (key mask fuel : Nat) (hfuel : 34 ≤ fuel) :
    ngx_radix32tree_delete fuel m t key mask = RxRes.nullDeref ∨
    ∃ m' t' rc A' L', ngx_radix32tree_delete fuel m t key mask = RxRes.done (m', t', rc) ∧
      RxInv m' t' A' L' := by
  obtain ⟨d1, d2, d3⟩ := ngx_radix32tree_delete_spec h key mask fuel hfuel
  by_cases hn : A (kpath key (maskLen mask)) = NULL
  · exact Or.inr ⟨m, t, NGX_ERROR, A, L, d1 hn, h⟩
  · by_cases hch : A (true :: kpath key (maskLen mask)) ≠ NULL ∨
        A (false :: kpath key (maskLen mask)) ≠ NULL
    · by_cases hv : m.value (A (kpath key (maskLen mask))) ≠ NGX_RADIX_NO_VALUE
      · exact Or.inr ⟨_, t, NGX_OK, A, L, (d2 hn hch).1 hv, h.setValue _ _⟩
      · exact Or.inr ⟨m, t, NGX_ERROR, A, L, (d2 hn hch).2 (not_not.1 hv), h⟩
    · simp only [not_or, not_not] at hch
      obtain ⟨d4, d5⟩ := d3 hch.1 hch.2
      by_cases hz : maskLen mask = 0
      · exact Or.inl (d4 hz)
      · obtain ⟨m', t', A', R, e, hI', -, -, -⟩ := d5 hn hz
        exact Or.inr ⟨m', t', NGX_OK, A', _, e, hI'⟩

/-- With fuel 34 or more no call of a run stops for lack of fuel. -/
theorem run_total (fuel : Nat) (hfuel : 34 ≤ fuel) (ops : List RxOp) :
    ∀ (m : RxHeap) (t : ngx_radix_tree_t) (A : List Bool → Nat) (L : List Nat),
      RxInv m t A L → rxRun fuel ops m t ≠ RxRes.outOfFuel := by
  induction ops with
  | nil => intro m t A L _; simp [rxRun]
  | cons op ops ih =>
    intro m t A L h
    cases op with
    | ins key mask value =>
      obtain ⟨m1, t1, rc, A1, L1, e, hI, -⟩ :=
        ngx_radix32tree_insert_spec h key mask value fuel hfuel
      simp only [rxRun, e]
      cases hr : rxRun fuel ops m1 t1 with
      | done r => simp
      | nullDeref => simp
      | outOfFuel => exact absurd hr (ih m1 t1 A1 L1 hI)
    | del key mask =>
      rcases delete_total h key mask fuel hfuel with e | ⟨m1, t1, rc, A1, L1, e, hI⟩
      · simp [rxRun, e]
      · simp only [rxRun, e]
        cases hr : rxRun fuel ops m1 t1 with
        | done r => simp
        | nullDeref => simp
        | outOfFuel => exact absurd hr (ih m1 t1 A1 L1 hI)

/-- A run without allocation failure keeps the trie in step with the table of live
entries. -/
theorem run_good (fuel : Nat) (hfuel : 34 ≤ fuel) (ops : List RxOp) :
    ∀ (m : RxHeap) (t : ngx_radix_tree_t) (S : List Bool → Option Nat), RxGood m t S →
      rxValuesOK ops →
      ∀ m' t' rcs, rxRun fuel ops m t = RxRes.done (m', t', rcs) → rxNoFail ops rcs →
        RxGood m' t' (rxTable ops rcs S) := by
  induction ops with
  | nil =>
    intro m t S h _ m' t' rcs e _
    simp only [rxRun, RxRes.done.injEq, Prod.mk.injEq] at e
    obtain ⟨rfl, rfl, rfl⟩ := e
    exact h
  | cons op ops ih =>
    intro m t S h hv m' t' rcs e2 hnf
    cases op with
    | ins key mask value =>
      obtain ⟨hv1, hv2⟩ := hv
      obtain ⟨m1, t1, rc, e, hg⟩ := insert_good h key mask value fuel hfuel hv1
      simp only [rxRun, e] at e2
      cases hr : rxRun fuel ops m1 t1 with
      | done r =>
        obtain ⟨m2, t2, rcs2⟩ := r
        rw [hr] at e2
        simp only [RxRes.done.injEq, Prod.mk.injEq] at e2
        obtain ⟨rfl, rfl, rfl⟩ := e2
        exact ih m1 t1 _ (hg hnf.1) hv2 _ _ _ hr hnf.2
      | nullDeref => rw [hr] at e2; simp at e2
      | outOfFuel => rw [hr] at e2; simp at e2
    | del key mask =>
      rcases delete_good h key mask fuel hfuel with e | ⟨m1, t1, rc, e, hg⟩
      · simp [rxRun, e] at e2
      · simp only [rxRun, e] at e2
        cases hr : rxRun fuel ops m1 t1 with
        | done r =>
          obtain ⟨m2, t2, rcs2⟩ := r
          rw [hr] at e2
          simp only [RxRes.done.injEq, Prod.mk.injEq] at e2
          obtain ⟨rfl, rfl, rfl⟩ := e2
          exact ih m1 t1 _ hg hv _ _ _ hr hnf
        | nullDeref => rw [hr] at e2; simp at e2
        | outOfFuel => rw [hr] at e2; simp at e2

theorem slab_nodup (p size : Nat) : (slab p size).Nodup := by
  unfold slab
  refine (List.nodup_range _).map ?_
  intro i j e
  simp only at e
  unfold ngx_radix_node_size at e
  omega

theorem create_good (fuel : Nat) (m : RxHeap) (pool : ngx_pool_t) (hok : PoolOK pool)
    (r : RxHeap × ngx_radix_tree_t) (hc : ngx_radix_tree_create fuel m pool 0 = some r) :
    RxGood r.1 r.2 (fun _ => none) := by
  obtain ⟨L, hI, hv⟩ := ngx_radix_tree_create_spec fuel m pool hok r hc
  refine ⟨_, L, hI, ?_, fun p => ?_⟩
  · intro c p hp
    simp [rootOnly] at hp
  · unfold content rootOnly
    by_cases hp : p = []
    · subst hp
      simp [hv]
    · simp [hp]

theorem rxPool_ok : PoolOK rxPool := by
  unfold PoolOK rxPool
  simp only [pageNodes_cons, pageNodes, List.append_nil]
  rw [if_neg (by decide)]
  exact slab_nodup _ _

theorem rxInit_eq : ngx_radix_tree_create 34 rxM0 rxPool 0 = some rxInit := rfl

/-! ## Claims on `ngx_radix32tree_insert` -/

theorem some_getD_of_isSome {α : Type} (o : Option α) (d : α) (h : o.isSome = true) :
    o = some (o.getD d) := by
  cases o with
  | none => simp at h
  | some x => rfl

/-- A run keeps the trie and allocator invariant. -/
theorem run_inv (fuel : Nat) (hfuel : 34 ≤ fuel) (ops : List RxOp) :
    ∀ (m : RxHeap) (t : ngx_radix_tree_t) (A : List Bool → Nat) (L : List Nat),
      RxInv m t A L → ∀ m' t' rcs, rxRun fuel ops m t = RxRes.done (m', t', rcs) →
      ∃ A' L', RxInv m' t' A' L' := by
  induction ops with
  | nil =>
    intro m t A L h m' t' rcs e
    simp only [rxRun, RxRes.done.injEq, Prod.mk.injEq] at e
    obtain ⟨rfl, rfl, rfl⟩ := e
    exact ⟨A, L, h⟩
  | cons op ops ih =>
    intro m t A L h m' t' rcs e2
    cases op with
    | ins key mask value =>
      obtain ⟨m1, t1, rc, A1, L1, e, hI, -⟩ :=
        ngx_radix32tree_insert_spec h key mask value fuel hfuel
      simp only [rxRun, e] at e2
      cases hr : rxRun fuel ops m1 t1 with
      | done r =>
        obtain ⟨m2, t2, rcs2⟩ := r
        rw [hr] at e2
        simp only [RxRes.done.injEq, Prod.mk.injEq] at e2
        obtain ⟨rfl, rfl, rfl⟩ := e2
        exact ih m1 t1 A1 L1 hI _ _ _ hr
      | nullDeref => rw [hr] at e2; simp at e2
      | outOfFuel => rw [hr] at e2; simp at e2
    | del key mask =>
      rcases delete_total h key mask fuel hfuel with e | ⟨m1, t1, rc, A1, L1, e, hI⟩
      · simp [rxRun, e] at e2
      · simp only [rxRun, e] at e2
        cases hr : rxRun fuel ops m1 t1 with
        | done r =>
          obtain ⟨m2, t2, rcs2⟩ := r
          rw [hr] at e2
          simp only [RxRes.done.injEq, Prod.mk.injEq] at e2
          obtain ⟨rfl, rfl, rfl⟩ := e2
          exact ih m1 t1 A1 L1 hI _ _ _ hr
        | nullDeref => rw [hr] at e2; simp at e2
        | outOfFuel => rw [hr] at e2; simp at e2

theorem rxInit_inv : ∃ A L, RxInv rxInit.1 rxInit.2 A L := by
  obtain ⟨L, h, -⟩ := ngx_radix_tree_create_spec 34 rxM0 rxPool rxPool_ok rxInit rxInit_eq
  exact ⟨_, L, h⟩

/-- C9, counterexample: on the fresh trie `ngx_radix32tree_insert(0, 0, NGX_RADIX_NO_VALUE)`
returns `NGX_OK`, and the next `ngx_radix32tree_insert(0, 0, 7)` returns `NGX_OK`, not
`NGX_BUSY`, and stores 7 in the root. -/
theorem ngx_radix32tree_insert_twice_counterexample :
    ngx_radix32tree_insert 34 rxInit.1 rxInit.2 0 0 NGX_RADIX_NO_VALUE = some rxNoVal ∧
    rxNoVal.2.2 = NGX_OK ∧
    ngx_radix32tree_insert 34 rxNoVal.1 rxNoVal.2.1 0 0 7 = some rxNoVal2 ∧
    rxNoVal2.2.2 ≠ NGX_BUSY ∧ rxNoVal2.1.value rxNoVal2.2.1.root = 7 ∧
    rxNoVal.1.value rxNoVal.2.1.root ≠ 7 :=
  ⟨some_getD_of_isSome _ _ (by decide), by decide, some_getD_of_isSome _ _ (by decide),
    by decide, by decide, by decide⟩

/-- C9, amended: on a trie, when `ngx_radix32tree_insert(key, mask, v1)` with `v1` other
than `NGX_RADIX_NO_VALUE` returns `NGX_OK`, an immediately following
`ngx_radix32tree_insert(key, mask, v2)` returns `NGX_BUSY` and leaves memory and the tree
record as they are; the node of the prefix still holds `v1`. -/
theorem ngx_radix32tree_insert_twice_busy (m : RxHeap) (t : ngx_radix_tree_t)
    (A : List Bool → Nat) (L : List Nat) (key mask v1 v2 fuel : Nat)
    (r : RxHeap × ngx_radix_tree_t × Int) (h : RxInv m t A L) (hfuel : 34 ≤ fuel)
    (hv : v1 ≠ NGX_RADIX_NO_VALUE)
    (h1 : ngx_radix32tree_insert fuel m t key mask v1 = some r) (hok : r.2.2 = NGX_OK) :
    ngx_radix32tree_insert fuel r.1 r.2.1 key mask v2 = some (r.1, r.2.1, NGX_BUSY) ∧
    ∃ A' L', RxInv r.1 r.2.1 A' L' ∧ A' (kpath key (maskLen mask)) ≠ NULL ∧
      r.1.value (A' (kpath key (maskLen mask))) = v1 := by
  obtain ⟨m1, t1, rc, A1, L1, e, hI, -, -, -, hcase⟩ :=
    ngx_radix32tree_insert_spec h key mask v1 fuel hfuel
  rw [h1] at e
  simp only [Option.some.injEq] at e
  subst e
  simp only at hok
  rcases hcase with ⟨e1, -⟩ | ⟨-, -, c2, c3, -, -⟩ | ⟨e1, -⟩
  · rw [hok] at e1; exact absurd e1 (by decide)
  · obtain ⟨m2, t2, rc2, A2, L2, e2, -, -, -, -, hcase2⟩ :=
      ngx_radix32tree_insert_spec hI key mask v2 fuel hfuel
    refine ⟨?_, A1, L1, hI, c2, c3⟩
    rcases hcase2 with ⟨rfl, rfl, rfl, -⟩ | ⟨-, d1, -⟩ | ⟨-, d1, -⟩
    · exact e2
    · exfalso
      unfold content at d1
      rw [if_pos ⟨c2, by rw [c3]; exact hv⟩] at d1
      exact absurd d1 (by simp)
    · exact absurd d1 c2
  · rw [hok] at e1; exact absurd e1 (by decide)

theorem ngx_radix32tree_insert_twice_busy_witness :
    ∃ A L, RxInv rxInit.1 rxInit.2 A L ∧
      ngx_radix32tree_insert 34 rxSeven.1 rxSeven.2.1 0 0 9 =
        some (rxSeven.1, rxSeven.2.1, NGX_BUSY) ∧
      ∃ A' L', RxInv rxSeven.1 rxSeven.2.1 A' L' ∧ A' (kpath 0 (maskLen 0)) ≠ NULL ∧
        rxSeven.1.value (A' (kpath 0 (maskLen 0))) = 7 := by
  obtain ⟨A, L, h⟩ := rxInit_inv
  exact ⟨A, L, h, ngx_radix32tree_insert_twice_busy rxInit.1 rxInit.2 A L 0 0 7 9 34 rxSeven h
    (by decide) (by decide) (some_getD_of_isSome _ _ (by decide)) (by decide)⟩

set_option maxRecDepth 100000 in
theorem rxFull_run : rxRun 34 rxFill rxInit.1 rxInit.2 =
    RxRes.done (rxFull.1, rxFull.2, [NGX_OK, NGX_OK, NGX_OK, NGX_OK]) := by rfl

set_option maxRecDepth 100000 in
theorem rxFail_eq :
    ngx_radix32tree_insert 34 rxFull.1 rxFull.2 0x20000000 0xf0000000 5 = some rxFail := by
  unfold rxFail
  exact some_getD_of_isSome _ _ (by decide!)

set_option maxRecDepth 100000 in
theorem rxFail_rc : rxFail.2.2 = NGX_ERROR := by decide!

theorem rxFull_inv : ∃ A L, RxInv rxFull.1 rxFull.2 A L := by
  obtain ⟨A, L, h⟩ := rxInit_inv
  exact run_inv 34 (by decide) rxFill _ _ A L h _ _ _ rxFull_run

set_option maxRecDepth 100000 in
/-- C10, counterexample: the trie `rxFull` is reached from `ngx_radix_tree_create` by four
inserts; on it `ngx_radix32tree_insert(0x20000000, 0xf0000000, 5)` returns `NGX_ERROR`
(the second allocation fails), yet the node at path 00, which had no right child, has one
afterwards: the first new node stays linked into the trie. -/
theorem ngx_radix32tree_insert_error_counterexample :
    rxRun 34 rxFill rxInit.1 rxInit.2 =
      RxRes.done (rxFull.1, rxFull.2, [NGX_OK, NGX_OK, NGX_OK, NGX_OK]) ∧
    ngx_radix32tree_insert 34 rxFull.1 rxFull.2 0x20000000 0xf0000000 5 = some rxFail ∧
    rxFail.2.2 = NGX_ERROR ∧ rxFail.2.1.root = rxFull.2.root ∧
    rxFull.1.right (rxFull.1.left (rxFull.1.left rxFull.2.root)) = NULL ∧
    rxFail.1.right (rxFail.1.left (rxFail.1.left rxFail.2.1.root)) ≠ NULL :=
  ⟨rxFull_run, rxFail_eq, rxFail_rc, by decide!, by decide!, by decide!⟩

/-- C10, amended: when `ngx_radix32tree_insert` on a trie returns `NGX_ERROR`, every node
that was in the trie is still there, at its place, with its value, its parent and the
children it had; the nodes added are valueless and lie on the path of `(key, mask)` (the
part of the path built before the allocation failed stays linked). -/
theorem ngx_radix32tree_insert_error_keeps (m : RxHeap) (t : ngx_radix_tree_t)
    (A : List Bool → Nat) (L : List Nat) (key mask value fuel : Nat)
    (r : RxHeap × ngx_radix_tree_t × Int) (h : RxInv m t A L) (hfuel : 34 ≤ fuel)
    (h1 : ngx_radix32tree_insert fuel m t key mask value = some r)
    (herr : r.2.2 = NGX_ERROR) :
    ∃ A' L', RxInv r.1 r.2.1 A' L' ∧ r.2.1.root = t.root ∧
      (∀ p, A p ≠ NULL → A' p = A p ∧ r.1.value (A p) = m.value (A p) ∧
        r.1.parent (A p) = m.parent (A p) ∧
        (m.left (A p) ≠ NULL → r.1.left (A p) = m.left (A p)) ∧
        (m.right (A p) ≠ NULL → r.1.right (A p) = m.right (A p))) ∧
      (∀ p, A p = NULL → A' p ≠ NULL →
        r.1.value (A' p) = NGX_RADIX_NO_VALUE ∧ ∃ j, j ≤ maskLen mask ∧ p = kpath key j) := by
  obtain ⟨m1, t1, rc, A1, L1, e, hI, hr, hsub, hnew, hcase⟩ :=
    ngx_radix32tree_insert_spec h key mask value fuel hfuel
  rw [h1] at e
  simp only [Option.some.injEq] at e
  subst e
  simp only at herr
  rcases hcase with ⟨e1, -⟩ | ⟨e1, -⟩ | ⟨-, -, c2, c3⟩
  · rw [herr] at e1; exact absurd e1 (by decide)
  · rw [herr] at e1; exact absurd e1 (by decide)
  · refine ⟨A1, L1, hI, hr, fun p hp => ⟨hsub p hp, c2 p hp, ?_, ?_, ?_⟩,
      fun p hp hp' => ⟨c3 p hp hp', hnew p hp hp'⟩⟩
    · have hp1 : A1 p ≠ NULL := by rw [hsub p hp]; exact hp
      cases p with
      | nil =>
        have e1 : A [] = t.root := h.rep.root_eq
        rw [e1, h.rep.root_parent, ← hr]
        exact hI.rep.root_parent
      | cons b q =>
        have := hI.rep.parent_eq b q hp1
        rw [hsub _ hp, hsub _ (h.rep.closed _ _ hp)] at this
        rw [this, h.rep.parent_eq b q hp]
    · intro hl
      have hp1 : A1 p ≠ NULL := by rw [hsub p hp]; exact hp
      have := hI.rep.left_eq p hp1
      rw [hsub p hp] at this
      rw [h.rep.left_eq p hp] at hl ⊢
      rw [this, hsub _ hl]
    · intro hl
      have hp1 : A1 p ≠ NULL := by rw [hsub p hp]; exact hp
      have := hI.rep.right_eq p hp1
      rw [hsub p hp] at this
      rw [h.rep.right_eq p hp] at hl ⊢
      rw [this, hsub _ hl]

theorem ngx_radix32tree_insert_error_keeps_witness :
    ∃ A L, RxInv rxFull.1 rxFull.2 A L ∧
    ∃ A' L', RxInv rxFail.1 rxFail.2.1 A' L' ∧ rxFail.2.1.root = rxFull.2.root ∧
      (∀ p, A p ≠ NULL → A' p = A p ∧ rxFail.1.value (A p) = rxFull.1.value (A p) ∧
        rxFail.1.parent (A p) = rxFull.1.parent (A p) ∧
        (rxFull.1.left (A p) ≠ NULL → rxFail.1.left (A p) = rxFull.1.left (A p)) ∧
        (rxFull.1.right (A p) ≠ NULL → rxFail.1.right (A p) = rxFull.1.right (A p))) ∧
      (∀ p, A p = NULL → A' p ≠ NULL →
        rxFail.1.value (A' p) = NGX_RADIX_NO_VALUE ∧
          ∃ j, j ≤ maskLen 0xf0000000 ∧ p = kpath 0x20000000 j) := by
  obtain ⟨A, L, h⟩ := rxFull_inv
  exact ⟨A, L, h, ngx_radix32tree_insert_error_keeps rxFull.1 rxFull.2 A L 0x20000000
    0xf0000000 5 34 rxFail h (by decide) rxFail_eq rxFail_rc⟩

theorem prunedNodes_succ (A : List Bool → Nat) (b : Bool) (q : List Bool) (n : Nat) :
    prunedNodes A (b :: q) (n + 1) = prunedNodes A q n ++ [A (b :: q)] := by
  unfold prunedNodes
  rw [List.range_succ_eq_map, List.map_cons, List.reverse_cons, List.map_map]
  rfl

theorem prunedNodes_one (A : List Bool → Nat) (t : List Bool) : prunedNodes A t 1 = [A t] := rfl

theorem prunedNodes_length (A : List Bool → Nat) (t : List Bool) (n : Nat) :
    (prunedNodes A t n).length = n := by
  simp [prunedNodes]

theorem prunedExact_one {m : RxHeap} {A : List Bool → Nat} (b : Bool) (q : List Bool)
    (hstop : (Function.update A (b :: q) NULL (true :: q) ≠ NULL ∨
        Function.update A (b :: q) NULL (false :: q) ≠ NULL) ∨
      m.value (A q) ≠ NGX_RADIX_NO_VALUE ∨ q = []) :
    PrunedExact m A (Function.update A (b :: q) NULL) (b :: q) 1 := by
  have hA : ∀ p, Function.update A (b :: q) NULL p = if p = b :: q then NULL else A p :=
    fun p => by rw [Function.update_apply]
  refine ⟨le_refl _, by simp, ?_, ?_, ?_, ?_⟩
  · intro i hi
    have : i = 0 := by omega
    subst this
    simp
  · intro p hp
    have := hp 0 (by omega)
    simp only [List.drop_zero] at this
    rw [hA, if_neg this]
  · intro i h1 h2
    omega
  · simp only [List.drop_succ_cons, List.drop_zero, Nat.sub_self, List.length_cons]
    rcases hstop with hs | hs | hs
    · right; right
      rw [hA, hA] at hs
      rcases hs with hs | hs
      · refine ⟨true, ?_, ?_⟩
        · intro e
          rw [if_pos e] at hs
          exact hs rfl
        · intro e
          by_cases e1 : true :: q = b :: q
          · rw [if_pos e1] at hs; exact hs rfl
          · rw [if_neg e1] at hs; exact hs e
      · refine ⟨false, ?_, ?_⟩
        · intro e
          rw [if_pos e] at hs
          exact hs rfl
        · intro e
          by_cases e1 : false :: q = b :: q
          · rw [if_pos e1] at hs; exact hs rfl
          · rw [if_neg e1] at hs; exact hs e
    · exact Or.inr (Or.inl hs)
    · left
      rw [hs]
      rfl

theorem drop_ne_of_length {α : Type} (t : List α) (p : List α) (i : Nat)
    (h : t.length < p.length + i) (hi : i ≤ t.length) : p ≠ t.drop i := by
  intro e
  have := congrArg List.length e
  rw [List.length_drop] at this
  omega

theorem prunedExact_step {m : RxHeap} {A A' : List Bool → Nat} {n : Nat} (b c : Bool)
    (q : List Bool) (hv : m.value (A (c :: q)) = NGX_RADIX_NO_VALUE)
    (hch : Function.update A (b :: c :: q) NULL (true :: c :: q) = NULL ∧
      Function.update A (b :: c :: q) NULL (false :: c :: q) = NULL)
    (hP : PrunedExact m (Function.update A (b :: c :: q) NULL) A' (c :: q) n) :
    PrunedExact m A A' (b :: c :: q) (n + 1) := by
  have hA : ∀ p, Function.update A (b :: c :: q) NULL p =
      if p = b :: c :: q then NULL else A p := fun p => by rw [Function.update_apply]
  have hle := hP.le
  have hpos := hP.pos
  simp only [List.length_cons] at hle
  have hdne : ∀ i, i ≤ q.length + 1 → (c :: q).drop i ≠ b :: c :: q := by
    intro i hi e
    have := congrArg List.length e
    rw [List.length_drop] at this
    simp only [List.length_cons] at this
    omega
  have hA1 : ∀ i, i ≤ q.length + 1 →
      Function.update A (b :: c :: q) NULL ((c :: q).drop i) = A ((c :: q).drop i) :=
    fun i hi => by rw [hA, if_neg (hdne i hi)]
  have hcne : ∀ c' i, 1 ≤ i → i ≤ q.length + 1 → c' :: (c :: q).drop i ≠ b :: c :: q := by
    intro c' i h1 hi e
    have := congrArg List.length e
    simp only [List.length_cons, List.length_drop] at this
    omega
  refine ⟨by omega, by simp only [List.length_cons]; omega, ?_, ?_, ?_, ?_⟩
  · intro i hi
    cases i with
    | zero =>
      simp only [List.drop_zero]
      rw [hP.kept _ (fun j hj e => hdne j (by omega) e.symm), hA, if_pos rfl]
    | succ j =>
      rw [List.drop_succ_cons]
      exact hP.gone j (by omega)
  · intro p hp
    have h0 := hp 0 (by omega)
    simp only [List.drop_zero] at h0
    rw [hP.kept p (fun j hj => by
      have := hp (j + 1) (by omega)
      rwa [List.drop_succ_cons] at this), hA, if_neg h0]
  · intro i h1 h2
    obtain ⟨j, rfl⟩ : ∃ j, i = j + 1 := ⟨i - 1, by omega⟩
    rw [List.drop_succ_cons]
    simp only [Nat.add_sub_cancel]
    cases j with
    | zero =>
      simp only [List.drop_zero]
      refine ⟨hv, fun c' hc' => ?_⟩
      have h3 : Function.update A (b :: c :: q) NULL (c' :: c :: q) = NULL := by
        cases c'
        · exact hch.2
        · exact hch.1
      rw [hA, if_neg hc'] at h3
      exact h3
    | succ j =>
      obtain ⟨a1, a2⟩ := hP.chain (j + 1) (by omega) (by omega)
      rw [hA1 _ (by omega)] at a1
      refine ⟨a1, fun c' hc' => ?_⟩
      rw [List.drop_succ_cons] at hc'
      have := a2 c' (by simpa using hc')
      rw [hA, if_neg (hcne c' (j + 1) (by omega) (by omega))] at this
      exact this
  · rw [List.drop_succ_cons]
    simp only [Nat.add_sub_cancel, List.length_cons]
    obtain ⟨n', rfl⟩ : ∃ n', n = n' + 1 := ⟨n - 1, by omega⟩
    rw [List.drop_succ_cons]
    rcases hP.stop with hs | hs | ⟨c', hs1, hs2⟩
    · left
      simp only [List.length_cons] at hs
      omega
    · right; left
      rw [hA1 _ (by omega)] at hs
      exact hs
    · right; right
      refine ⟨c', by simpa using hs1, ?_⟩
      rw [hA] at hs2
      by_cases e : c' :: (c :: q).drop (n' + 1) = b :: c :: q
      · rw [if_pos e] at hs2; exact absurd rfl hs2
      · rw [if_neg e] at hs2; exact hs2

/-- The `for` loop of `ngx_radix32tree_delete`, started at a childless node other than the
root: it ends without a null dereference, unlinks the node and the chain of valueless
ancestors without other children above it, pushes them on the free list, and changes
nothing else of the tree record and no value. -/
theorem delete_prune_exact : ∀ (q : List Bool) (b : Bool) (m : RxHeap)
    (tree : ngx_radix_tree_t) (A : List Bool → Nat) (Lf : List Nat),
    RxInv m tree A Lf → A (b :: q) ≠ NULL → A (false :: b :: q) = NULL →
    A (true :: b :: q) = NULL → ∀ fuel, q.length + 1 ≤ fuel →
    ∃ n m' free' A', ngx_radix32tree_delete_prune fuel m tree (A (b :: q)) =
        RxRes.done (m', { tree with free := free' }) ∧
      RxInv m' { tree with free := free' } A' (prunedNodes A (b :: q) n ++ Lf) ∧
      m'.value = m.value ∧ PrunedExact m A A' (b :: q) n := by
  intro q
  induction q with
  | nil =>
    intro b m tree A Lf h hn hl hr fuel hfuel
    obtain ⟨fuel, rfl⟩ : ∃ f, fuel = f + 1 := ⟨fuel - 1, by omega⟩
    have hq : A [] ≠ NULL := h.rep.closed _ _ hn
    have hpar : m.parent (A [b]) = A [] := h.rep.parent_eq _ _ hn
    have h1 := inv_unlink h b [] hn hl hr
    have hpp : m.parent (A []) = NULL := by rw [h.rep.root_eq]; exact h.rep.root_parent
    refine ⟨1, _, A [b], _, ?_, h1, unlinkNode_value _ _ _,
      prunedExact_one b [] (Or.inr (Or.inr rfl))⟩
    rw [prune_unfold _ _ _ _ (by rw [hpar]; exact hq), hpar, hpp]
    split
    · rfl
    · split
      · rfl
      · rw [if_pos rfl]
  | cons c q ih =>
    intro b m tree A Lf h hn hl hr fuel hfuel
    obtain ⟨fuel, rfl⟩ : ∃ f, fuel = f + 1 := ⟨fuel - 1, by omega⟩
    simp only [List.length_cons] at hfuel
    have hq : A (c :: q) ≠ NULL := h.rep.closed _ _ hn
    have hpar : m.parent (A (b :: c :: q)) = A (c :: q) := h.rep.parent_eq _ _ hn
    have h1 := inv_unlink h b (c :: q) hn hl hr
    have hcq : c :: q ≠ b :: c :: q := fun e => by simpa using congrArg List.length e
    have hA1q : Function.update A (b :: c :: q) NULL (c :: q) = A (c :: q) :=
      Function.update_noteq hcq _ _
    have hR := h1.rep.right_eq (c :: q) (by rw [hA1q]; exact hq)
    have hL := h1.rep.left_eq (c :: q) (by rw [hA1q]; exact hq)
    rw [hA1q] at hR hL
    rw [prune_unfold _ _ _ _ (by rw [hpar]; exact hq), hpar, hR, hL]
    by_cases hch : Function.update A (b :: c :: q) NULL (true :: c :: q) ≠ NULL ∨
        Function.update A (b :: c :: q) NULL (false :: c :: q) ≠ NULL
    · rw [if_pos hch]
      exact ⟨1, _, A (b :: c :: q), _, rfl, h1, unlinkNode_value _ _ _,
        prunedExact_one b (c :: q) (Or.inl hch)⟩
    · rw [if_neg hch]
      by_cases hv : m.value (A (c :: q)) ≠ NGX_RADIX_NO_VALUE
      · rw [if_pos hv]
        exact ⟨1, _, A (b :: c :: q), _, rfl, h1, unlinkNode_value _ _ _,
          prunedExact_one b (c :: q) (Or.inr (Or.inl hv))⟩
      · rw [if_neg hv, if_neg (by rw [h.rep.parent_eq _ _ hq]; exact h.rep.closed _ _ hq)]
        simp only [not_or, not_not] at hch hv
        have ih' := ih c _ _ _ _ h1 (by rw [hA1q]; exact hq) hch.2 hch.1 fuel (by omega)
        rw [hA1q] at ih'
        obtain ⟨n, m', free', A', e, hI, hval, hP⟩ := ih'
        have hpn : prunedNodes (Function.update A (b :: c :: q) NULL) (c :: q) n =
            prunedNodes A (c :: q) n := by
          unfold prunedNodes
          congr 1
          apply List.map_congr_left
          intro i hi
          rw [Function.update_noteq]
          have hle := hP.le
          simp only [List.length_cons] at hle
          have hi' := List.mem_range.1 hi
          intro e
          have := congrArg List.length e
          simp only [List.length_drop, List.length_cons] at this
          omega
        refine ⟨n + 1, m', free', A', e, ?_, ?_, ?_⟩
        · rw [prunedNodes_succ, List.append_assoc, ← hpn]
          exact hI
        · rw [hval, unlinkNode_value]
        · refine prunedExact_step b c q hv hch ?_
          exact ⟨hP.pos, hP.le, hP.gone, hP.kept, fun i h2 h3 => by
            have := hP.chain i h2 h3
            rwa [unlinkNode_value] at this, by
            have := hP.stop
            rwa [unlinkNode_value] at this⟩

/-- `ngx_radix32tree_delete` of a childless node other than the root: the exact trie and
free list it leaves. -/
theorem delete_leaf_exact {m : RxHeap} {tree : ngx_radix_tree_t} {A : List Bool → Nat}
    {Lf : List Nat} (h : RxInv m tree A Lf) (key mask fuel : Nat) (hfuel : 34 ≤ fuel)
    (hz : maskLen mask ≠ 0) (hn : A (kpath key (maskLen mask)) ≠ NULL)
    (h1 : A (true :: kpath key (maskLen mask)) = NULL)
    (h2 : A (false :: kpath key (maskLen mask)) = NULL) :
    ∃ n m' free' A', ngx_radix32tree_delete fuel m tree key mask =
        RxRes.done (m', { tree with free := free' }, NGX_OK) ∧
      RxInv m' { tree with free := free' } A'
        (prunedNodes A (kpath key (maskLen mask)) n ++ Lf) ∧
      m'.value = m.value ∧ PrunedExact m A A' (kpath key (maskLen mask)) n := by
  have hw := delete_node_eq h.rep key mask fuel hfuel
  have hR := h.rep.right_eq (kpath key (maskLen mask))
  have hL := h.rep.left_eq (kpath key (maskLen mask))
  obtain ⟨d, hd⟩ : ∃ d, maskLen mask = d + 1 := ⟨maskLen mask - 1, by omega⟩
  have hk : kpath key (maskLen mask) = kbit key d :: kpath key d := by rw [hd]; rfl
  rw [hk] at hn h1 h2 hR hL hw ⊢
  obtain ⟨n, m', free', A', e, hI, hv, hP⟩ :=
    delete_prune_exact (kpath key d) (kbit key d) m tree A Lf h hn h2 h1 fuel
      (by rw [kpath_length]; have := maskLen_le mask; omega)
  refine ⟨n, m', free', A', ?_, hI, hv, hP⟩
  unfold ngx_radix32tree_delete
  rw [hw]
  simp only
  rw [if_neg hn, hR hn, hL hn, h1, h2, if_neg (by simp), e]

theorem rxChain_eq :
    ngx_radix32tree_insert 34 rxInit.1 rxInit.2 0 0xc0000000 7 = some rxChain :=
  some_getD_of_isSome _ _ (by decide)

theorem rxChain_inv : ∃ A L, RxInv rxChain.1 rxChain.2.1 A L := by
  obtain ⟨A, L, h⟩ := rxInit_inv
  obtain ⟨m1, t1, rc, A1, L1, e, hI, -⟩ :=
    ngx_radix32tree_insert_spec h 0 0xc0000000 7 34 (by decide)
  rw [rxChain_eq] at e
  simp only [Option.some.injEq] at e
  rw [e]
  exact ⟨A1, L1, hI⟩

theorem done_getD_of_isDone {α : Type} (r : RxRes α) (d : α) (h : r.isDone = true) :
    r = RxRes.done (r.getD d) := by
  cases r with
  | done a => rfl
  | nullDeref => simp [RxRes.isDone] at h
  | outOfFuel => simp [RxRes.isDone] at h

theorem maskLen_eq_zero (mask : Nat) (h : mask &&& 0x80000000 = 0) : maskLen mask = 0 := by
  unfold maskLen
  rw [maskLenFrom, if_neg]
  rw [Nat.shiftRight_zero, Nat.and_comm, h]
  simp

theorem maskLen_ne_zero (mask : Nat) (h : mask &&& 0x80000000 ≠ 0) : maskLen mask ≠ 0 := by
  unfold maskLen
  rw [maskLenFrom, if_pos]
  · intro e
    have := (maskLenFrom_le mask 32 (0 + 1)).1
    rw [e] at this
    omega
  · rw [Nat.shiftRight_zero, Nat.and_comm]
    exact h

/-- C12: on a trie, for a `(key, mask)` whose target node is not a childless root,
`ngx_radix32tree_delete` returns; its code is `NGX_ERROR` exactly when the walk over the
leading one bits of the mask falls off the trie (there is no node at the path) or the node
reached has a child and holds `NGX_RADIX_NO_VALUE`; and when it is `NGX_ERROR`, memory and
the tree record (with its free list) are unchanged. -/
theorem ngx_radix32tree_delete_error (m : RxHeap) (tree : ngx_radix_tree_t)
    (A : List Bool → Nat) (L : List Nat) (key mask fuel : Nat) (h : RxInv m tree A L)
    (hfuel : 34 ≤ fuel)
    (hnr : maskLen mask = 0 → m.right tree.root ≠ NULL ∨ m.left tree.root ≠ NULL) :
    ∃ m' tree' rc, ngx_radix32tree_delete fuel m tree key mask = RxRes.done (m', tree', rc) ∧
      (rc = NGX_ERROR ↔
        (A (kpath key (maskLen mask)) = NULL ∨
          ((m.right (A (kpath key (maskLen mask))) ≠ NULL ∨
              m.left (A (kpath key (maskLen mask))) ≠ NULL) ∧
            m.value (A (kpath key (maskLen mask))) = NGX_RADIX_NO_VALUE))) ∧
      (rc = NGX_ERROR → m' = m ∧ tree' = tree) := by
  obtain ⟨d1, d2, d3⟩ := ngx_radix32tree_delete_spec h key mask fuel hfuel
  by_cases hn : A (kpath key (maskLen mask)) = NULL
  · exact ⟨m, tree, NGX_ERROR, d1 hn, ⟨fun _ => Or.inl hn, fun _ => rfl⟩, fun _ => ⟨rfl, rfl⟩⟩
  · have hR := h.rep.right_eq _ hn
    have hL := h.rep.left_eq _ hn
    rw [hR, hL]
    by_cases hch : A (true :: kpath key (maskLen mask)) ≠ NULL ∨
        A (false :: kpath key (maskLen mask)) ≠ NULL
    · by_cases hv : m.value (A (kpath key (maskLen mask))) ≠ NGX_RADIX_NO_VALUE
      · refine ⟨_, tree, NGX_OK, (d2 hn hch).1 hv, ⟨fun e => absurd e (by decide), ?_⟩,
          fun e => absurd e (by decide)⟩
        rintro (e | ⟨-, e⟩)
        · exact absurd e hn
        · exact absurd e hv
      · exact ⟨m, tree, NGX_ERROR, (d2 hn hch).2 (not_not.1 hv),
          ⟨fun _ => Or.inr ⟨hch, not_not.1 hv⟩, fun _ => rfl⟩, fun _ => ⟨rfl, rfl⟩⟩
    · simp only [not_or, not_not] at hch
      by_cases hz : maskLen mask = 0
      · exfalso
        have hroot : A (kpath key (maskLen mask)) = tree.root := by
          rw [hz]; exact h.rep.root_eq
        rw [hroot] at hR hL
        rcases hnr hz with e | e
        · rw [hR] at e; exact e hch.1
        · rw [hL] at e; exact e hch.2
      · obtain ⟨m', tree', A', R, e, -⟩ := (d3 hch.1 hch.2).2 hn hz
        refine ⟨m', tree', NGX_OK, e, ⟨fun e => absurd e (by decide), ?_⟩,
          fun e => absurd e (by decide)⟩
        rintro (e | ⟨e, -⟩)
        · exact absurd e hn
        · rcases e with e | e
          · exact absurd hch.1 e
          · exact absurd hch.2 e

theorem ngx_radix32tree_delete_error_witness :
    ∃ A L, RxInv rxChain.1 rxChain.2.1 A L ∧
    ∃ m' tree' rc, ngx_radix32tree_delete 34 rxChain.1 rxChain.2.1 0 0x80000000 =
        RxRes.done (m', tree', rc) ∧
      (rc = NGX_ERROR ↔
        (A (kpath 0 (maskLen 0x80000000)) = NULL ∨
          ((rxChain.1.right (A (kpath 0 (maskLen 0x80000000))) ≠ NULL ∨
              rxChain.1.left (A (kpath 0 (maskLen 0x80000000))) ≠ NULL) ∧
            rxChain.1.value (A (kpath 0 (maskLen 0x80000000))) = NGX_RADIX_NO_VALUE))) ∧
      (rc = NGX_ERROR → m' = rxChain.1 ∧ tree' = rxChain.2.1) := by
  obtain ⟨A, L, h⟩ := rxChain_inv
  exact ⟨A, L, h, ngx_radix32tree_delete_error rxChain.1 rxChain.2.1 A L 0 0x80000000 34 h
    (by decide) (fun e => absurd e (by decide))⟩

/-- C13: when `ngx_radix32tree_delete` is called for a childless node other than the root
(the walk for `(key, mask)` ends at `node`, which has no child), it returns `NGX_OK`
without a null dereference and removes `n ≥ 1` nodes: the node at the path `t` of
`(key, mask)` and the `n - 1` ancestors next above it, each of which held no value and had
no other child; the ancestor `n` levels up is kept and is the root, holds a value, or has
another child; all other nodes stay in place, no value is changed, and the removed nodes
head the list of nodes that `ngx_radix_alloc` hands out next. -/
theorem ngx_radix32tree_delete_prunes (m : RxHeap) (tree : ngx_radix_tree_t)
    (A : List Bool → Nat) (L : List Nat) (key mask fuel node : Nat) (h : RxInv m tree A L)
    (hfuel : 34 ≤ fuel) (hmask : mask &&& 0x80000000 ≠ 0)
    (hw : ngx_radix32tree_delete_walk fuel m key mask 0x80000000 tree.root = some node)
    (hnode : node ≠ NULL) (hr : m.right node = NULL) (hl : m.left node = NULL) :
    node = A (kpath key (maskLen mask)) ∧
    ∃ n m' free' A', ngx_radix32tree_delete fuel m tree key mask =
        RxRes.done (m', { tree with free := free' }, NGX_OK) ∧
      RxInv m' { tree with free := free' } A'
        (prunedNodes A (kpath key (maskLen mask)) n ++ L) ∧
      m'.value = m.value ∧ PrunedExact m A A' (kpath key (maskLen mask)) n := by
  have hw' := delete_node_eq h.rep key mask fuel hfuel
  rw [hw] at hw'
  simp only [Option.some.injEq] at hw'
  subst hw'
  have hR := h.rep.right_eq _ hnode
  have hL := h.rep.left_eq _ hnode
  exact ⟨rfl, delete_leaf_exact h key mask fuel hfuel (maskLen_ne_zero mask hmask) hnode
    (by rw [← hR]; exact hr) (by rw [← hL]; exact hl)⟩

theorem ngx_radix32tree_delete_prunes_witness :
    ∃ A L, RxInv rxChain.1 rxChain.2.1 A L ∧
    4160 = A (kpath 0 (maskLen 0xc0000000)) ∧
    ∃ n m' free' A', ngx_radix32tree_delete 34 rxChain.1 rxChain.2.1 0 0xc0000000 =
        RxRes.done (m', { rxChain.2.1 with free := free' }, NGX_OK) ∧
      RxInv m' { rxChain.2.1 with free := free' } A'
        (prunedNodes A (kpath 0 (maskLen 0xc0000000)) n ++ L) ∧
      m'.value = rxChain.1.value ∧
      PrunedExact rxChain.1 A A' (kpath 0 (maskLen 0xc0000000)) n := by
  obtain ⟨A, L, h⟩ := rxChain_inv
  exact ⟨A, L, h, ngx_radix32tree_delete_prunes rxChain.1 rxChain.2.1 A L 0 0xc0000000 34 4160
    h (by decide) (by decide) (by decide) (by decide) (by decide) (by decide)⟩

/-- C22: on every trie fresh from `ngx_radix_tree_create(pool, 0)` and for every
`(key, mask)` whose mask has its top bit clear, the walk of `ngx_radix32tree_delete` ends
at the root, which has no child and no parent, so the childless-node loop is entered with
`node` the root and its first read, `node->parent->right`, goes through a null pointer. -/
theorem ngx_radix32tree_delete_root_null (fuel : Nat) (m0 : RxHeap) (pool : ngx_pool_t)
    (key mask : Nat) (r : RxHeap × ngx_radix_tree_t) (hfuel : 34 ≤ fuel) (hok : PoolOK pool)
    (hc : ngx_radix_tree_create fuel m0 pool 0 = some r) (hmask : mask &&& 0x80000000 = 0) :
    ngx_radix32tree_delete_walk fuel r.1 key mask 0x80000000 r.2.root = some r.2.root ∧
    r.2.root ≠ NULL ∧ r.1.right r.2.root = NULL ∧ r.1.left r.2.root = NULL ∧
    r.1.parent r.2.root = NULL ∧
    ngx_radix32tree_delete fuel r.1 r.2 key mask = RxRes.nullDeref := by
  obtain ⟨L, hI, -⟩ := ngx_radix_tree_create_spec fuel m0 pool hok r hc
  have hz := maskLen_eq_zero mask hmask
  have hw := delete_node_eq hI.rep key mask fuel hfuel
  rw [hz] at hw
  have hroot : rootOnly r.2.root (kpath key 0) = r.2.root := hI.rep.root_eq
  rw [hroot] at hw
  have hR := hI.rep.right_eq [] (by rw [hI.rep.root_eq]; exact hI.rep.root_ne)
  have hL := hI.rep.left_eq [] (by rw [hI.rep.root_eq]; exact hI.rep.root_ne)
  rw [hI.rep.root_eq] at hR hL
  have h1 : rootOnly r.2.root [true] = NULL := by simp [rootOnly]
  have h2 : rootOnly r.2.root [false] = NULL := by simp [rootOnly]
  refine ⟨hw, hI.rep.root_ne, hR.trans h1, hL.trans h2, hI.rep.root_parent, ?_⟩
  have := ((ngx_radix32tree_delete_spec hI key mask fuel hfuel).2.2 (by rw [hz]; exact h1)
    (by rw [hz]; exact h2)).1 hz
  exact this

theorem ngx_radix32tree_delete_root_null_witness :
    ngx_radix32tree_delete_walk 34 rxInit.1 0 0 0x80000000 rxInit.2.root = some rxInit.2.root ∧
    rxInit.2.root ≠ NULL ∧ rxInit.1.right rxInit.2.root = NULL ∧
    rxInit.1.left rxInit.2.root = NULL ∧ rxInit.1.parent rxInit.2.root = NULL ∧
    ngx_radix32tree_delete 34 rxInit.1 rxInit.2 0 0 = RxRes.nullDeref :=
  ngx_radix32tree_delete_root_null 34 rxM0 rxPool 0 0 rxInit (by decide) rxPool_ok rxInit_eq
    (by decide)

/-- C11, the code at the failing input: on the trie from `ngx_radix_tree_create(pool, 1)`,
where no value was ever inserted (the node at path 0 holds `NGX_RADIX_NO_VALUE`),
`ngx_radix32tree_delete(0, 0x80000000)` returns `NGX_OK`, not `NGX_ERROR`, and unlinks the
preallocated node. -/
theorem ngx_radix32tree_delete_absent_ok :
    ngx_radix_tree_create 34 rxM0 rxPool 1 = some rxPre ∧
    rxPre.1.left rxPre.2.root ≠ NULL ∧
    rxPre.1.value (rxPre.1.left rxPre.2.root) = NGX_RADIX_NO_VALUE ∧
    ngx_radix32tree_delete 34 rxPre.1 rxPre.2 0 0x80000000 = RxRes.done rxPreDel ∧
    rxPreDel.2.2 = NGX_OK ∧ rxPreDel.2.2 ≠ NGX_ERROR ∧
    rxPreDel.1.left rxPreDel.2.1.root = NULL :=
  ⟨some_getD_of_isSome _ _ (by decide), by decide, by decide,
    done_getD_of_isDone _ _ (by decide), by decide, by decide, by decide⟩

theorem IsBit.shift {bit : Nat} (h : IsBit bit) : IsBit (bit >>> 1) := by
  rcases h with rfl | ⟨j, rfl⟩
  · left; rfl
  · cases j with
    | zero => left; rfl
    | succ j =>
      right
      refine ⟨j, ?_⟩
      rw [Nat.shiftRight_eq_div_pow, Nat.pow_succ]
      simp

theorem isBit_top : IsBit 0x80000000 := Or.inr ⟨31, by norm_num⟩

theorem and_two_pow_ne_zero (x j : Nat) : x &&& 2 ^ j ≠ 0 ↔ x.testBit j = true := by
  constructor
  · intro h
    by_contra hc
    apply h
    apply Nat.eq_of_testBit_eq
    intro i
    rw [Nat.testBit_and, Nat.testBit_two_pow, Nat.zero_testBit]
    by_cases e : j = i
    · subst e
      simp [hc]
    · simp [e]
  · intro h e
    have := congrArg (fun y => Nat.testBit y j) e
    simp only [Nat.testBit_and, Nat.testBit_two_pow_self, Nat.zero_testBit, h] at this
    exact absurd this (by decide)

theorem masked_bit {bit : Nat} (hb : IsBit bit) (key mask : Nat) (h : bit &&& mask ≠ 0) :
    ((key &&& mask) &&& bit ≠ 0) = (key &&& bit ≠ 0) := by
  rcases hb with rfl | ⟨j, rfl⟩
  · simp at h
  · rw [Nat.and_comm] at h
    apply propext
    rw [and_two_pow_ne_zero, and_two_pow_ne_zero] at *
    rw [Nat.testBit_and, h]
    simp

theorem insert_walk_masked (m : RxHeap) (key mask : Nat) : ∀ fuel bit node next, IsBit bit →
    ngx_radix32tree_insert_walk fuel m (key &&& mask) mask bit node next =
      ngx_radix32tree_insert_walk fuel m key mask bit node next := by
  intro fuel
  induction fuel with
  | zero => intro bit node next _; rfl
  | succ fuel ih =>
    intro bit node next hb
    rw [ngx_radix32tree_insert_walk, ngx_radix32tree_insert_walk]
    by_cases h : bit &&& mask ≠ 0
    · rw [if_pos h, if_pos h]
      simp only [masked_bit hb key mask h, fun b c => ih _ b c hb.shift]
    · rw [if_neg h, if_neg h]

theorem insert_walk_isBit (m : RxHeap) (key mask : Nat) : ∀ fuel bit node next r, IsBit bit →
    ngx_radix32tree_insert_walk fuel m key mask bit node next = some r → IsBit r.1 := by
  intro fuel
  induction fuel with
  | zero => intro bit node next r _ e; simp [ngx_radix32tree_insert_walk] at e
  | succ fuel ih =>
    intro bit node next r hb e
    rw [ngx_radix32tree_insert_walk] at e
    by_cases h : bit &&& mask ≠ 0
    · rw [if_pos h] at e
      simp only at e
      generalize (if key &&& bit ≠ 0 then m.right node else m.left node) = n1 at e
      by_cases h1 : n1 = NULL
      · rw [if_pos h1] at e
        simp only [Option.some.injEq] at e
        rw [← e]
        exact hb
      · rw [if_neg h1] at e
        exact ih _ _ _ _ hb.shift e
    · rw [if_neg h] at e
      simp only [Option.some.injEq] at e
      rw [← e]
      exact hb

theorem insert_grow_masked (key mask : Nat) : ∀ fuel m tree bit node, IsBit bit →
    ngx_radix32tree_insert_grow fuel m tree (key &&& mask) mask bit node =
      ngx_radix32tree_insert_grow fuel m tree key mask bit node := by
  intro fuel
  induction fuel with
  | zero => intro m tree bit node _; rfl
  | succ fuel ih =>
    intro m tree bit node hb
    rw [ngx_radix32tree_insert_grow, ngx_radix32tree_insert_grow]
    by_cases h : bit &&& mask ≠ 0
    · rw [if_pos h, if_pos h]
      simp only [masked_bit hb key mask h, fun a b d => ih a b _ d hb.shift]
    · rw [if_neg h, if_neg h]

theorem delete_walk_masked (m : RxHeap) (key mask : Nat) : ∀ fuel bit node, IsBit bit →
    ngx_radix32tree_delete_walk fuel m (key &&& mask) mask bit node =
      ngx_radix32tree_delete_walk fuel m key mask bit node := by
  intro fuel
  induction fuel with
  | zero => intro bit node _; rfl
  | succ fuel ih =>
    intro bit node hb
    rw [ngx_radix32tree_delete_walk, ngx_radix32tree_delete_walk]
    by_cases h : node ≠ NULL ∧ bit &&& mask ≠ 0
    · rw [if_pos h, if_pos h]
      simp only [masked_bit hb key mask h.2, fun b => ih _ b hb.shift]
    · rw [if_neg h, if_neg h]

/-- C21: for every memory, tree record, key, mask and value,
`ngx_radix32tree_insert(key, mask, v)` gives the same result (memory, tree record and return
code) as `ngx_radix32tree_insert(key & mask, mask, v)`, and
`ngx_radix32tree_delete(key, mask)` the same as `ngx_radix32tree_delete(key & mask, mask)`:
the key bits outside the mask are never looked at. -/
theorem ngx_radix32tree_key_masked (fuel : Nat) (m : RxHeap) (tree : ngx_radix_tree_t)
    (key mask value : Nat) :
    ngx_radix32tree_insert fuel m tree (key &&& mask) mask value =
      ngx_radix32tree_insert fuel m tree key mask value ∧
    ngx_radix32tree_delete fuel m tree (key &&& mask) mask =
      ngx_radix32tree_delete fuel m tree key mask := by
  constructor
  · unfold ngx_radix32tree_insert
    rw [insert_walk_masked m key mask fuel _ _ _ isBit_top]
    cases hw : ngx_radix32tree_insert_walk fuel m key mask 0x80000000 tree.root tree.root with
    | none => rfl
    | some r =>
      have hb := insert_walk_isBit m key mask fuel _ _ _ r isBit_top hw
      obtain ⟨bit, node, next⟩ := r
      simp only [insert_grow_masked key mask fuel _ _ _ _ hb]
  · unfold ngx_radix32tree_delete
    rw [delete_walk_masked m key mask fuel _ _ isBit_top]

/-! ## Reuse of freed nodes -/

theorem FreeChain_unique {m : RxHeap} : ∀ {F1 F2 : List Nat} {f : Nat},
    FreeChain m f F1 → FreeChain m f F2 → F1 = F2 := by
  intro F1
  induction F1 with
  | nil =>
    intro F2 f h1 h2
    cases F2 with
    | nil => rfl
    | cons y ys =>
      have e1 : f = NULL := h1
      obtain ⟨e2, e3, -⟩ := h2
      exact absurd (e2.symm.trans e1) e3
  | cons x xs ih =>
    intro F2 f h1 h2
    obtain ⟨a1, a2, a3⟩ := h1
    cases F2 with
    | nil =>
      have e1 : f = NULL := h2
      exact absurd (a1.symm.trans e1) a2
    | cons y ys =>
      obtain ⟨b1, b2, b3⟩ := h2
      have e : x = y := a1.symm.trans b1
      subst e
      rw [ih a3 b3]

theorem FreeChain_head {m : RxHeap} {F : List Nat} {f g : Nat} (h1 : FreeChain m f F)
    {m' : RxHeap} (h2 : FreeChain m' g F) : f = g := by
  cases F with
  | nil =>
    have e1 : f = NULL := h1
    have e2 : g = NULL := h2
    rw [e1, e2]
  | cons x xs => exact h1.1.trans h2.1.symm

theorem alloc_free (m : RxHeap) (tree : ngx_radix_tree_t) (h : tree.free ≠ NULL) :
    ngx_radix_alloc m tree = (tree.free, { tree with free := m.right tree.free }) := by
  unfold ngx_radix_alloc
  rw [if_pos h]

theorem kpath_drop (key : Nat) : ∀ d i, (kpath key d).drop i = kpath key (d - i) := by
  intro d
  induction d with
  | zero => intro i; simp [kpath]
  | succ d ih =>
    intro i
    cases i with
    | zero => rfl
    | succ i =>
      rw [kpath, List.drop_succ_cons, ih]
      congr 1
      omega

/-- The second loop of `ngx_radix32tree_insert` when the free list holds at least the
nodes it needs: every node comes from the free list, no allocation fails, and of the tree
record only `free` changes, to the rest of the list. -/
theorem insert_grow_free (key mask : Nat) : ∀ (n fuel d : Nat) (m : RxHeap)
    (tree : ngx_radix_tree_t) (A : List Bool → Nat) (Lf : List Nat),
    d + n = maskLen mask → n + 1 ≤ fuel → RxInv m tree A Lf → A (kpath key d) ≠ NULL →
    (n ≠ 0 → A (kpath key (d + 1)) = NULL) →
    ∀ G F, FreeChain m tree.free (G ++ F) → G.length = n →
    ∃ m' free' node',
      ngx_radix32tree_insert_grow fuel m tree key mask (0x80000000 >>> d) (A (kpath key d)) =
        some (m', { tree with free := free' }, some node') ∧
      FreeChain m' free' F := by
  intro n
  induction n with
  | zero =>
    intro fuel d m tree A Lf hd hfuel h hn _ G F hG hlen
    obtain ⟨fuel, rfl⟩ : ∃ f, fuel = f + 1 := ⟨fuel - 1, by omega⟩
    have hd' : d = maskLen mask := by omega
    subst hd'
    have hG0 : G = [] := List.length_eq_zero.1 hlen
    subst hG0
    refine ⟨m, tree.free, A (kpath key (maskLen mask)), ?_, hG⟩
    rw [ngx_radix32tree_insert_grow, if_neg (maskLen_false mask)]
  | succ n ih =>
    intro fuel d m tree A Lf hd hfuel h hn hc G F hG hlen
    obtain ⟨fuel, rfl⟩ : ∃ f, fuel = f + 1 := ⟨fuel - 1, by omega⟩
    have hlt : d < maskLen mask := by omega
    have hc' := hc (by omega)
    obtain ⟨g, G', rfl⟩ : ∃ g G', G = g :: G' := by
      cases G with
      | nil => simp at hlen
      | cons g G' => exact ⟨g, G', rfl⟩
    obtain ⟨hg1, hg2, hg3⟩ := hG
    have hfree : tree.free ≠ NULL := by rw [hg1]; exact hg2
    have hal := alloc_free m tree hfree
    obtain ⟨F0, hF0, hL⟩ := h.fresh
    have hF0' : F0 = g :: (G' ++ F) := FreeChain_unique hF0 ⟨hg1, hg2, hg3⟩
    subst hF0'
    have hL' : Lf = g :: (G' ++ F ++ (slab tree.start tree.size ++ pageNodes tree.pool.pages)) := by
      rw [hL]; simp
    subst hL'
    have hfr : RxFresh m { tree with free := m.right tree.free }
        (G' ++ F ++ (slab tree.start tree.size ++ pageNodes tree.pool.pages)) := by
      refine ⟨G' ++ F, ?_, rfl⟩
      rw [hg1]
      exact hg3
    rw [ngx_radix32tree_insert_grow, if_pos (maskLen_true mask d hlt)]
    simp only
    rw [hal]
    simp only
    rw [if_neg hfree, linkChild_eq, shift_bit, hg1]
    have hlen' : (kpath key d).length < 32 := by
      rw [kpath_length]
      have := maskLen_le mask
      omega
    have h1 := @inv_add_child m tree { tree with free := m.right tree.free } A _ g h rfl hfr
      (kpath key d) (kbit key d) hn hc' hlen'
    have hkp : kpath key (d + 1) = kbit key d :: kpath key d := rfl
    rw [← hkp] at h1
    have hx0 : g ≠ NULL := hg2
    have hA1 : Function.update A (kpath key (d + 1)) g (kpath key (d + 1)) = g := by
      rw [Function.update_same]
    have hnd := List.nodup_cons.1 h.nodup
    have hch : FreeChain (linkChild m (A (kpath key d)) g (kbit key d)) (m.right g) (G' ++ F) := by
      refine @FreeChain_congr m _ _ _ (fun y hy => ?_) hg3
      · have hyL : y ∈ G' ++ F ++ (slab tree.start tree.size ++ pageNodes tree.pool.pages) := by
          simp only [List.mem_append] at hy ⊢
          exact Or.inl hy
        have hyx : y ≠ g := fun e => hnd.1 (e ▸ hyL)
        have hyq : y ≠ A (kpath key d) := fun e =>
          (h.sep y (List.mem_cons_of_mem _ hyL)).2 _ e.symm
        rw [linkChild_right _ _ _ _ (fun e => (h.sep g (by simp)).2 _ e.symm), if_neg hyq,
          if_neg hyx]
    obtain ⟨m', free', node', e, hF'⟩ :=
      ih fuel (d + 1) _ _ _ _ (by omega) (by omega) h1 (by rw [hA1]; exact hx0)
        (fun _ => by
          rw [Function.update_noteq]
          · by_contra hcc
            exact h.rep.closed _ _ hcc hc'
          · intro e
            have := congrArg List.length e
            simp [kpath_length] at this) G' F
        (by show FreeChain _ (m.right tree.free) _; rw [hg1]; exact hch)
        (by simpa using hlen)
    rw [hA1] at e
    rw [hg1] at e
    exact ⟨m', free', node', e, hF'⟩

/-- `ngx_radix32tree_insert` when the node of the prefix exists: no allocation, the tree
record stays as it is. -/
theorem insert_existing {m : RxHeap} {tree : ngx_radix_tree_t} {A : List Bool → Nat}
    (h : RxRep m tree.root A) (key mask value fuel : Nat) (hfuel : 34 ≤ fuel)
    (hn : A (kpath key (maskLen mask)) ≠ NULL) :
    ngx_radix32tree_insert fuel m tree key mask value =
      if m.value (A (kpath key (maskLen mask))) ≠ NGX_RADIX_NO_VALUE then
        some (m, tree, NGX_BUSY)
      else some (m.setValue (A (kpath key (maskLen mask))) value, tree, NGX_OK) := by
  have hroot : A (kpath key 0) ≠ NULL := by
    show A [] ≠ NULL
    rw [h.root_eq]; exact h.root_ne
  obtain ⟨d, -, hdL, hnd, hw⟩ := insert_walk_spec h key mask fuel 0 (Nat.zero_le _)
    (by have := maskLen_le mask; omega) hroot
  have hr0 : A (kpath key 0) = tree.root := h.root_eq
  rw [hr0] at hw
  unfold ngx_radix32tree_insert
  rcases hw with ⟨rfl, e⟩ | ⟨hlt, hcn, e⟩
  · have e' : ngx_radix32tree_insert_walk fuel m key mask 0x80000000 tree.root tree.root =
        some (0x80000000 >>> maskLen mask, A (kpath key (maskLen mask)),
          A (kpath key (maskLen mask))) := e
    rw [e']
    simp only
    rw [if_pos hnd]
  · exact absurd (h.closed_path key hcn _ (by omega)) hn

/-- `ngx_radix32tree_insert` when the path of the prefix ends at depth `d` above the
prefix and the free list holds the missing nodes: it returns `NGX_OK`, takes all nodes from
the free list and changes nothing else of the tree record. -/
theorem insert_reuse {m : RxHeap} {tree : ngx_radix_tree_t} {A : List Bool → Nat}
    {Lf : List Nat} (h : RxInv m tree A Lf) (key mask value fuel d : Nat) (hfuel : 34 ≤ fuel)
    (hd : d < maskLen mask) (hn : A (kpath key d) ≠ NULL) (hc : A (kpath key (d + 1)) = NULL)
    (G F : List Nat) (hG : FreeChain m tree.free (G ++ F)) (hlen : G.length = maskLen mask - d) :
    ∃ m' free', ngx_radix32tree_insert fuel m tree key mask value =
        some (m', { tree with free := free' }, NGX_OK) ∧ FreeChain m' free' F := by
  have hroot : A (kpath key 0) ≠ NULL := by
    show A [] ≠ NULL
    rw [h.rep.root_eq]; exact h.rep.root_ne
  obtain ⟨d', -, hdL, hnd, hw⟩ := insert_walk_spec h.rep key mask fuel 0 (Nat.zero_le _)
    (by have := maskLen_le mask; omega) hroot
  have hr0 : A (kpath key 0) = tree.root := h.rep.root_eq
  rw [hr0] at hw
  have h1 : d' ≤ d := by
    by_contra hlt
    exact hnd (h.rep.closed_path key hc d' (by omega))
  unfold ngx_radix32tree_insert
  rcases hw with ⟨rfl, e⟩ | ⟨hlt, hcn, e⟩
  · omega
  · have h2 : d ≤ d' := by
      by_contra hlt2
      exact hn (h.rep.closed_path key hcn d (by omega))
    have hdd : d' = d := by omega
    subst hdd
    have e' : ngx_radix32tree_insert_walk fuel m key mask 0x80000000 tree.root tree.root =
        some (0x80000000 >>> d', A (kpath key d'), NULL) := e
    rw [e']
    simp only
    rw [if_neg (by simp)]
    obtain ⟨m', free', node', e2, hF⟩ :=
      insert_grow_free key mask (maskLen mask - d') fuel d' m tree A Lf (by omega)
        (by have := maskLen_le mask; omega) h hnd (fun _ => hcn) G F hG hlen
    rw [e2]
    exact ⟨_, free', rfl, @FreeChain_congr m' _ _ _ (fun _ _ => rfl) hF⟩

theorem lpmLt_congr {S S' : List Bool → Option Nat} (h : ∀ p, S p = S' p) (key n : Nat) :
    lpmLt S key n = lpmLt S' key n := by
  have e : S = S' := funext h
  rw [e]

/-- What `ngx_radix32tree_find` returns depends on the stored values only. -/
theorem find_congr {m m' : RxHeap} {tree tree' : ngx_radix_tree_t} {A A' : List Bool → Nat}
    (h : RxRep m tree.root A) (h' : RxRep m' tree'.root A')
    (hc : ∀ p, content m' A' p = content m A p) (fuel key : Nat) (hfuel : 34 ≤ fuel) :
    ngx_radix32tree_find fuel m' tree' key = ngx_radix32tree_find fuel m tree key := by
  rw [ngx_radix32tree_find_spec h' key fuel hfuel, ngx_radix32tree_find_spec h key fuel hfuel]
  unfold lpm
  rw [lpmLt_congr hc]

/-! ## Delete followed by insert of the same prefix -/

theorem tree_free_eta (tree : ngx_radix_tree_t) : { tree with free := tree.free } = tree := by
  cases tree
  rfl

/-- After a successful `ngx_radix32tree_delete(key, mask)`, an immediate
`ngx_radix32tree_insert(key, mask, v)` returns `NGX_OK`, takes the nodes it needs from the
free list and leaves the tree record and the free list as they were before the delete; the
values stored are those from before the delete, with `v` at the prefix. -/
theorem delete_reinsert {m : RxHeap} {tree : ngx_radix_tree_t} {A : List Bool → Nat}
    {Lf : List Nat} (h : RxInv m tree A Lf) (key mask v fuel : Nat) (hfuel : 34 ≤ fuel)
    (r1 : RxHeap × ngx_radix_tree_t × Int)
    (hdel : ngx_radix32tree_delete fuel m tree key mask = RxRes.done r1)
    (hok : r1.2.2 = NGX_OK) (F0 : List Nat) (hF0 : FreeChain m tree.free F0) :
    A (kpath key (maskLen mask)) ≠ NULL ∧
    ∃ m2 A2, ngx_radix32tree_insert fuel r1.1 r1.2.1 key mask v = some (m2, tree, NGX_OK) ∧
      FreeChain m2 tree.free F0 ∧ RxRep m2 tree.root A2 ∧
      ∀ p, content m2 A2 p =
        if p = kpath key (maskLen mask) then
          (if v ≠ NGX_RADIX_NO_VALUE then some v else none)
        else content m A p := by
  obtain ⟨d1, d2, d3⟩ := ngx_radix32tree_delete_spec h key mask fuel hfuel
  by_cases hn : A (kpath key (maskLen mask)) = NULL
  · rw [d1 hn] at hdel
    simp only [RxRes.done.injEq] at hdel
    rw [← hdel] at hok
    exact absurd hok (show ¬ (NGX_ERROR = NGX_OK) by decide)
  refine ⟨hn, ?_⟩
  by_cases hch : A (true :: kpath key (maskLen mask)) ≠ NULL ∨
      A (false :: kpath key (maskLen mask)) ≠ NULL
  · by_cases hv : m.value (A (kpath key (maskLen mask))) ≠ NGX_RADIX_NO_VALUE
    · rw [(d2 hn hch).1 hv] at hdel
      simp only [RxRes.done.injEq] at hdel
      subst hdel
      simp only
      have hI1 := h.setValue (A (kpath key (maskLen mask))) NGX_RADIX_NO_VALUE
      have hI2 := hI1.setValue (A (kpath key (maskLen mask))) v
      refine ⟨(m.setValue (A (kpath key (maskLen mask))) NGX_RADIX_NO_VALUE).setValue
        (A (kpath key (maskLen mask))) v, A, ?_,
        @FreeChain_congr m _ _ _ (fun _ _ => rfl) hF0, hI2.rep, fun p => ?_⟩
      · rw [insert_existing hI1.rep key mask v fuel hfuel hn, if_neg]
        simp
      · unfold content
        simp only [RxHeap.rx_setValue_value]
        by_cases hp : p = kpath key (maskLen mask)
        · subst hp
          rw [if_pos rfl]
          simp [hn]
        · rw [if_neg hp]
          by_cases hAp : A p = NULL
          · simp [hAp]
          · have hne : A p ≠ A (kpath key (maskLen mask)) := fun e => hp (h.rep.inj _ _ hAp e)
            simp [Function.update_noteq hne]
    · rw [(d2 hn hch).2 (not_not.1 hv)] at hdel
      simp only [RxRes.done.injEq] at hdel
      rw [← hdel] at hok
      exact absurd hok (show ¬ (NGX_ERROR = NGX_OK) by decide)
  · simp only [not_or, not_not] at hch
    by_cases hz : maskLen mask = 0
    · rw [(d3 hch.1 hch.2).1 hz] at hdel
      exact absurd hdel (by simp)
    · obtain ⟨n, m1, free1, A1, e, hI1, hval, hP⟩ :=
        delete_leaf_exact h key mask fuel hfuel hz hn hch.1 hch.2
      rw [e] at hdel
      simp only [RxRes.done.injEq] at hdel
      subst hdel
      simp only
      have hle := hP.le
      have hpos := hP.pos
      rw [kpath_length] at hle
      -- the free list after the delete
      obtain ⟨F1, hF1, hL1⟩ := hI1.fresh
      obtain ⟨F0', hF0', hL0⟩ := h.fresh
      have e0 : F0' = F0 := FreeChain_unique hF0' hF0
      subst e0
      have hF1e : F1 = prunedNodes A (kpath key (maskLen mask)) n ++ F0' := by
        have hL1' : (prunedNodes A (kpath key (maskLen mask)) n ++ F0') ++
            (slab tree.start tree.size ++ pageNodes tree.pool.pages) =
            F1 ++ (slab tree.start tree.size ++ pageNodes tree.pool.pages) := by
          rw [← hL1, hL0, List.append_assoc]
        exact (List.append_cancel_right hL1').symm
      subst hF1e
      -- the kept ancestor and the first missing node
      have hdn : ∀ i, i ≤ maskLen mask →
          (kpath key (maskLen mask)).drop i = kpath key (maskLen mask - i) :=
        fun i _ => kpath_drop key _ i
      have hnotgone : ∀ p, A1 p ≠ NULL → A1 p = A p := by
        intro p hp
        apply hP.kept
        intro i hi e1
        rw [e1, hP.gone i hi] at hp
        exact hp rfl
      have hkeep : A1 (kpath key (maskLen mask - n)) ≠ NULL := by
        have hk : A1 (kpath key (maskLen mask - n)) = A (kpath key (maskLen mask - n)) := by
          apply hP.kept
          intro i hi e1
          have := congrArg List.length e1
          rw [hdn i (by omega), kpath_length, kpath_length] at this
          omega
        rw [hk]
        intro e1
        exact hn (h.rep.closed_path key e1 _ (by omega))
      have hmiss : A1 (kpath key (maskLen mask - n + 1)) = NULL := by
        have := hP.gone (n - 1) (by omega)
        rw [hdn _ (by omega)] at this
        have e1 : maskLen mask - (n - 1) = maskLen mask - n + 1 := by omega
        rw [e1] at this
        exact this
      obtain ⟨m2, free2, e2, hF2⟩ := insert_reuse hI1 key mask v fuel (maskLen mask - n) hfuel
        (by omega) hkeep hmiss _ F0' hF1 (by rw [prunedNodes_length]; omega)
      have hfe : tree.free = free2 := FreeChain_head hF0 hF2
      subst hfe
      simp only at e2
      rw [tree_free_eta] at e2
      obtain ⟨m2', t2, rc, A2, L2, e3, hI2, hr2, hsub, hnew, hcase⟩ :=
        ngx_radix32tree_insert_spec hI1 key mask v fuel hfuel
      rw [e2] at e3
      simp only [Option.some.injEq, Prod.mk.injEq] at e3
      obtain ⟨rfl, rfl, rfl⟩ := e3
      refine ⟨m2, A2, e2, hF2, hI2.rep, fun p => ?_⟩
      rcases hcase with ⟨e4, -⟩ | ⟨-, -, c2, c3, c4, -⟩ | ⟨e4, -⟩
      · exact absurd e4 (by decide)
      · have hnone : ∀ p, p ≠ kpath key (maskLen mask) → A1 p = NULL → content m A p = none := by
          intro p hp hA1
          unfold content
          rw [if_neg]
          rintro ⟨a1, a2⟩
          have hex : ∃ i, i < n ∧ p = (kpath key (maskLen mask)).drop i := by
            by_contra hcon
            simp only [not_exists, not_and] at hcon
            exact a1 ((hP.kept p hcon).symm.trans hA1)
          obtain ⟨i, hi, rfl⟩ := hex
          have hi0 : i ≠ 0 := fun e0 => hp (by rw [e0]; rfl)
          exact a2 (hP.chain i (by omega) hi).1
        by_cases hp : p = kpath key (maskLen mask)
        · subst hp
          rw [if_pos rfl]
          unfold content
          simp [c2, c3]
        · rw [if_neg hp]
          by_cases hA2 : A2 p ≠ NULL
          · have hv2 := c4 p hp hA2
            by_cases hA1 : A1 p ≠ NULL
            · rw [if_pos hA1, hval, hnotgone p hA1] at hv2
              have e5 : A2 p = A p := (hsub p hA1).trans (hnotgone p hA1)
              unfold content
              rw [e5] at hv2 ⊢
              rw [hv2]
            · rw [if_neg hA1] at hv2
              rw [hnone p hp (not_not.1 hA1)]
              unfold content
              simp [hv2]
          · have hA1 : A1 p = NULL := by
              by_contra hc
              exact hA2 (by rw [hsub p hc]; exact hc)
            rw [hnone p hp hA1]
            unfold content
            simp [not_not.1 hA2]
      · exact absurd e4 (by decide)

theorem rxChainDel_eq :
    ngx_radix32tree_delete 34 rxChain.1 rxChain.2.1 0 0xc0000000 = RxRes.done rxChainDel :=
  done_getD_of_isDone _ _ (by decide)

/-- C14: on a trie in which the node of the prefix `(key, mask)` holds the value `v`, when
`ngx_radix32tree_delete(key, mask)` returns `NGX_OK`, the following
`ngx_radix32tree_insert(key, mask, v)` returns `NGX_OK`, and after it
`ngx_radix32tree_find` returns for every key what it returned before the delete. -/
theorem ngx_radix32tree_delete_insert_find (m : RxHeap) (tree : ngx_radix_tree_t)
    (A : List Bool → Nat) (L : List Nat) (key mask v fuel node : Nat)
    (r1 : RxHeap × ngx_radix_tree_t × Int) (h : RxInv m tree A L) (hfuel : 34 ≤ fuel)
    (hw : ngx_radix32tree_delete_walk fuel m key mask 0x80000000 tree.root = some node)
    (hv : m.value node = v)
    (hdel : ngx_radix32tree_delete fuel m tree key mask = RxRes.done r1)
    (hok : r1.2.2 = NGX_OK) :
    ∃ r2, ngx_radix32tree_insert fuel r1.1 r1.2.1 key mask v = some r2 ∧ r2.2.2 = NGX_OK ∧
      ∀ k, ngx_radix32tree_find fuel r2.1 r2.2.1 k = ngx_radix32tree_find fuel m tree k := by
  obtain ⟨F0, hF0, -⟩ := h.fresh
  obtain ⟨hn, m2, A2, e, -, hR, hc⟩ := delete_reinsert h key mask v fuel hfuel r1 hdel hok F0 hF0
  have hw' := delete_node_eq h.rep key mask fuel hfuel
  rw [hw] at hw'
  simp only [Option.some.injEq] at hw'
  subst hw'
  refine ⟨_, e, rfl, fun k => ?_⟩
  refine find_congr h.rep hR (fun p => ?_) fuel k hfuel
  rw [hc p]
  by_cases hp : p = kpath key (maskLen mask)
  · subst hp
    rw [if_pos rfl]
    unfold content
    simp [hn, hv]
  · rw [if_neg hp]

theorem ngx_radix32tree_delete_insert_find_witness :
    ∃ r2, ngx_radix32tree_insert 34 rxChainDel.1 rxChainDel.2.1 0 0xc0000000 7 = some r2 ∧
      r2.2.2 = NGX_OK ∧
      ∀ k, ngx_radix32tree_find 34 r2.1 r2.2.1 k =
        ngx_radix32tree_find 34 rxChain.1 rxChain.2.1 k := by
  obtain ⟨A, L, h⟩ := rxChain_inv
  exact ngx_radix32tree_delete_insert_find rxChain.1 rxChain.2.1 A L 0 0xc0000000 7 34 4160
    rxChainDel h (by decide) (by decide) (by decide) rxChainDel_eq (by decide)

/-- C15: on a trie whose free list is `F0`, when `ngx_radix32tree_delete(key, mask)`
returns `NGX_OK`, the immediately following `ngx_radix32tree_insert(key, mask, v)` returns
`NGX_OK` and leaves the tree record exactly as it was before the delete (`start`, `size`,
the pool and the head of the free list), with the free list again `F0`: every node the
insert needed came from the nodes that the delete had freed. -/
theorem ngx_radix32tree_delete_insert_reuse (m : RxHeap) (tree : ngx_radix_tree_t)
    (A : List Bool → Nat) (L : List Nat) (key mask v fuel : Nat) (F0 : List Nat)
    (r1 : RxHeap × ngx_radix_tree_t × Int) (h : RxInv m tree A L) (hfuel : 34 ≤ fuel)
    (hF0 : FreeChain m tree.free F0)
    (hdel : ngx_radix32tree_delete fuel m tree key mask = RxRes.done r1)
    (hok : r1.2.2 = NGX_OK) :
    ∃ m2, ngx_radix32tree_insert fuel r1.1 r1.2.1 key mask v = some (m2, tree, NGX_OK) ∧
      FreeChain m2 tree.free F0 := by
  obtain ⟨-, m2, A2, e, hF, -⟩ := delete_reinsert h key mask v fuel hfuel r1 hdel hok F0 hF0
  exact ⟨m2, e, hF⟩

theorem ngx_radix32tree_delete_insert_reuse_witness :
    rxChainDel.2.1.free ≠ NULL ∧
    ∃ m2, ngx_radix32tree_insert 34 rxChainDel.1 rxChainDel.2.1 0 0xc0000000 9 =
        some (m2, rxChain.2.1, NGX_OK) ∧
      FreeChain m2 rxChain.2.1.free [] := by
  obtain ⟨A, L, h⟩ := rxChain_inv
  exact ⟨by decide, ngx_radix32tree_delete_insert_reuse rxChain.1 rxChain.2.1 A L 0 0xc0000000
    9 34 [] rxChainDel h (by decide) (show rxChain.2.1.free = NULL by decide) rxChainDel_eq
    (by decide)⟩

theorem create_eq_levels (fuel : Nat) (m : RxHeap) (pool : ngx_pool_t) (pre : Int) :
    ngx_radix_tree_create fuel m pool pre =
      match ngx_radix_tree_create fuel m pool 0 with
      | none => none
      | some r0 =>
        if pre = 0 then some r0
        else ngx_radix_tree_create_levels (preallocDepth pre) fuel r0.1 r0.2 0 0x80000000 := by
  unfold ngx_radix_tree_create preallocDepth
  simp only
  split
  · rfl
  · split
    · rfl
    · simp

theorem create_level_inv : ∀ (n fuel : Nat) (m : RxHeap) (tree : ngx_radix_tree_t)
    (key mask inc : Nat) (A : List Bool → Nat) (L : List Nat) (r : RxHeap × ngx_radix_tree_t),
    RxInv m tree A L → (∀ p, A p ≠ NULL → m.value (A p) = NGX_RADIX_NO_VALUE) → 34 ≤ fuel →
    ngx_radix_tree_create_level n fuel m tree key mask inc = some r →
    ∃ A' L', RxInv r.1 r.2 A' L' ∧ ∀ p, A' p ≠ NULL → r.1.value (A' p) = NGX_RADIX_NO_VALUE := by
  intro n
  induction n with
  | zero =>
    intro fuel m tree key mask inc A L r _ _ _ e
    simp [ngx_radix_tree_create_level] at e
  | succ n ih =>
    intro fuel m tree key mask inc A L r h hv hfuel e
    rw [ngx_radix_tree_create_level] at e
    obtain ⟨m1, t1, rc, A1, L1, e1, hI1, -, hsub, -, hcase⟩ :=
      ngx_radix32tree_insert_spec h key mask NGX_RADIX_NO_VALUE fuel hfuel
    rw [e1] at e
    simp only at e
    by_cases hrc : rc ≠ NGX_OK
    · rw [if_pos hrc] at e
      exact absurd e (by simp)
    · rw [if_neg hrc] at e
      have hrc' : rc = NGX_OK := not_not.1 hrc
      have hv1 : ∀ p, A1 p ≠ NULL → m1.value (A1 p) = NGX_RADIX_NO_VALUE := by
        rcases hcase with ⟨e4, -⟩ | ⟨-, -, c2, c3, c4, -⟩ | ⟨e4, -⟩
        · rw [hrc'] at e4; exact absurd e4 (by decide)
        · intro p hp
          by_cases hpt : p = kpath key (maskLen mask)
          · rw [hpt, c3]
          · rw [c4 p hpt hp]
            split
            · rename_i hA
              exact hv p hA
            · rfl
        · rw [hrc'] at e4; exact absurd e4 (by decide)
      by_cases hk : (key + inc) % 2 ^ 32 ≠ 0
      · rw [if_pos hk] at e
        exact ih fuel m1 t1 _ mask inc A1 L1 r hI1 hv1 hfuel e
      · rw [if_neg hk] at e
        simp only [Option.some.injEq] at e
        subst e
        exact ⟨A1, L1, hI1, hv1⟩

theorem create_levels_inv : ∀ (p fuel : Nat) (m : RxHeap) (tree : ngx_radix_tree_t)
    (mask inc : Nat) (A : List Bool → Nat) (L : List Nat) (r : RxHeap × ngx_radix_tree_t),
    RxInv m tree A L → (∀ q, A q ≠ NULL → m.value (A q) = NGX_RADIX_NO_VALUE) → 34 ≤ fuel →
    ngx_radix_tree_create_levels p fuel m tree mask inc = some r →
    ∃ A' L', RxInv r.1 r.2 A' L' ∧ ∀ q, A' q ≠ NULL → r.1.value (A' q) = NGX_RADIX_NO_VALUE := by
  intro p
  induction p with
  | zero =>
    intro fuel m tree mask inc A L r h hv _ e
    simp only [ngx_radix_tree_create_levels, Option.some.injEq] at e
    subst e
    exact ⟨A, L, h, hv⟩
  | succ p ih =>
    intro fuel m tree mask inc A L r h hv hfuel e
    rw [ngx_radix_tree_create_levels] at e
    cases h1 : ngx_radix_tree_create_level fuel fuel m tree 0 (mask >>> 1 ||| 0x80000000) inc with
    | none => rw [h1] at e; exact absurd e (by simp)
    | some r1 =>
      rw [h1] at e
      obtain ⟨A1, L1, hI1, hv1⟩ := create_level_inv fuel fuel m tree 0 _ inc A L r1 h hv hfuel h1
      exact ih fuel r1.1 r1.2 _ _ A1 L1 r hI1 hv1 hfuel e

/-- `ngx_radix_tree_create(pool, preallocate)`, when it does not return `NULL`, returns a
trie in which no node holds a value. -/
theorem create_inv (fuel : Nat) (m : RxHeap) (pool : ngx_pool_t) (pre : Int)
    (hfuel : 34 ≤ fuel) (hok : PoolOK pool) (r : RxHeap × ngx_radix_tree_t)
    (hc : ngx_radix_tree_create fuel m pool pre = some r) :
    ∃ A L, RxInv r.1 r.2 A L ∧ ∀ q, A q ≠ NULL → r.1.value (A q) = NGX_RADIX_NO_VALUE := by
  rw [create_eq_levels] at hc
  cases h0 : ngx_radix_tree_create fuel m pool 0 with
  | none => rw [h0] at hc; exact absurd hc (by simp)
  | some r0 =>
    rw [h0] at hc
    simp only at hc
    obtain ⟨L, hI, hv⟩ := ngx_radix_tree_create_spec fuel m pool hok r0 h0
    have hv0 : ∀ q, rootOnly r0.2.root q ≠ NULL →
        r0.1.value (rootOnly r0.2.root q) = NGX_RADIX_NO_VALUE := by
      intro q hq
      by_cases e : q = []
      · subst e
        simpa [rootOnly] using hv
      · simp [rootOnly, e] at hq
    by_cases hp : pre = 0
    · rw [if_pos hp] at hc
      simp only [Option.some.injEq] at hc
      subst hc
      exact ⟨_, L, hI, hv0⟩
    · rw [if_neg hp] at hc
      exact create_levels_inv _ fuel r0.1 r0.2 _ _ _ L r hI hv0 hfuel hc

theorem create_cont (fuel : Nat) (m : RxHeap) (pool : ngx_pool_t) (pre : Int)
    (hfuel : 34 ≤ fuel) (hok : PoolOK pool) (r : RxHeap × ngx_radix_tree_t)
    (hc : ngx_radix_tree_create fuel m pool pre = some r) : RxCont r.1 r.2 (fun _ => none) := by
  obtain ⟨A, L, hI, hv⟩ := create_inv fuel m pool pre hfuel hok r hc
  refine ⟨A, L, hI, fun p => ?_⟩
  unfold content
  rw [if_neg]
  rintro ⟨a1, a2⟩
  exact a2 (hv p a1)

theorem insert_cont {m : RxHeap} {t : ngx_radix_tree_t} {S : List Bool → Option Nat}
    (h : RxCont m t S) (key mask value fuel : Nat) (hfuel : 34 ≤ fuel) :
    ∃ m' t' rc, ngx_radix32tree_insert fuel m t key mask value = some (m', t', rc) ∧
      (rc ≠ NGX_ERROR → RxCont m' t'
        (if (S (kpath key (maskLen mask))).isNone = true ∧ value ≠ NGX_RADIX_NO_VALUE then
          Function.update S (kpath key (maskLen mask)) (some value)
         else S)) := by
  obtain ⟨A, L, hI, hS⟩ := h
  obtain ⟨m', t', rc, A', L', e, hI', -, hsub, hnew, hcase⟩ :=
    ngx_radix32tree_insert_spec hI key mask value fuel hfuel
  refine ⟨m', t', rc, e, fun hrc => ?_⟩
  rcases hcase with ⟨-, hm, ht, -, -, c1, c2⟩ | ⟨rfl, c1, c2, c3, c4, c5⟩ | ⟨rfl, -⟩
  · have hc : content m A (kpath key (maskLen mask)) =
        some (m.value (A (kpath key (maskLen mask)))) := by
      unfold content
      rw [if_pos ⟨c1, c2⟩]
    rw [if_neg, hm, ht]
    · exact ⟨A, L, hI, hS⟩
    · rw [← hS, hc]
      simp
  · refine ⟨A', L', hI', fun p => ?_⟩
    have hSt : S (kpath key (maskLen mask)) = none := by rw [← hS, c1]
    have hother : ∀ p, p ≠ kpath key (maskLen mask) → content m' A' p = S p := by
      intro p hp
      rw [← hS]
      unfold content
      by_cases hA' : A' p ≠ NULL
      · rw [c4 p hp hA']
        by_cases hA : A p ≠ NULL
        · rw [if_pos hA, hsub p hA]
        · rw [if_neg hA]
          simp [not_not.1 hA]
      · have hA : A p = NULL := by
          by_contra hc
          exact hA' (by rw [hsub p hc]; exact hc)
        simp [hA, not_not.1 hA']
    by_cases hv : value ≠ NGX_RADIX_NO_VALUE
    · rw [if_pos ⟨by rw [hSt]; rfl, hv⟩]
      by_cases hp : p = kpath key (maskLen mask)
      · subst hp
        rw [Function.update_same]
        unfold content
        rw [if_pos ⟨c2, by rw [c3]; exact hv⟩, c3]
      · rw [Function.update_noteq hp]
        exact hother p hp
    · rw [if_neg (fun hc => hv hc.2)]
      by_cases hp : p = kpath key (maskLen mask)
      · subst hp
        rw [hSt]
        unfold content
        rw [if_neg]
        rintro ⟨-, a2⟩
        rw [c3] at a2
        exact hv a2
      · exact hother p hp
  · exact absurd rfl hrc

theorem delete_cont {m : RxHeap} {t : ngx_radix_tree_t} {S : List Bool → Option Nat}
    (h : RxCont m t S) (key mask fuel : Nat) (hfuel : 34 ≤ fuel) :
    ngx_radix32tree_delete fuel m t key mask = RxRes.nullDeref ∨
    ∃ m' t' rc, ngx_radix32tree_delete fuel m t key mask = RxRes.done (m', t', rc) ∧
      RxCont m' t' (Function.update S (kpath key (maskLen mask)) none) := by
  obtain ⟨A, L, hI, hS⟩ := h
  obtain ⟨d1, d2, d3⟩ := ngx_radix32tree_delete_spec hI key mask fuel hfuel
  have hsame : content m A (kpath key (maskLen mask)) = none →
      ∀ p, content m A p = Function.update S (kpath key (maskLen mask)) none p := by
    intro h0 p
    by_cases hp : p = kpath key (maskLen mask)
    · subst hp
      rw [Function.update_same, h0]
    · rw [Function.update_noteq hp, hS]
  by_cases hn : A (kpath key (maskLen mask)) = NULL
  · refine Or.inr ⟨m, t, NGX_ERROR, d1 hn, A, L, hI, hsame ?_⟩
    unfold content
    rw [if_neg (fun hc => hc.1 hn)]
  · by_cases hch : A (true :: kpath key (maskLen mask)) ≠ NULL ∨
        A (false :: kpath key (maskLen mask)) ≠ NULL
    · by_cases hv : m.value (A (kpath key (maskLen mask))) ≠ NGX_RADIX_NO_VALUE
      · refine Or.inr ⟨_, t, NGX_OK, (d2 hn hch).1 hv, A, L, hI.setValue _ _, fun p => ?_⟩
        unfold content
        simp only [RxHeap.rx_setValue_value]
        by_cases hp : p = kpath key (maskLen mask)
        · subst hp
          rw [Function.update_same, Function.update_same, if_neg (fun hc => hc.2 rfl)]
        · rw [Function.update_noteq hp, ← hS]
          by_cases hAp : A p = NULL
          · unfold content
            simp [hAp]
          · have hne : A p ≠ A (kpath key (maskLen mask)) := fun e => hp (hI.rep.inj _ _ hAp e)
            unfold content
            rw [Function.update_noteq hne]
      · refine Or.inr ⟨m, t, NGX_ERROR, (d2 hn hch).2 (not_not.1 hv), A, L, hI, hsame ?_⟩
        unfold content
        rw [if_neg (fun hc => hc.2 (not_not.1 hv))]
    · simp only [not_or, not_not] at hch
      by_cases hz : maskLen mask = 0
      · exact Or.inl ((d3 hch.1 hch.2).1 hz)
      · obtain ⟨m', t', A', R, e, hI', -, hval, hP⟩ := (d3 hch.1 hch.2).2 hn hz
        refine Or.inr ⟨m', t', NGX_OK, e, A', R ++ L, hI', fun p => ?_⟩
        by_cases hp : p = kpath key (maskLen mask)
        · subst hp
          rw [Function.update_same]
          unfold content
          rw [if_neg (fun hc => hc.1 hP.gone)]
        · rw [Function.update_noteq hp, ← hS]
          unfold content
          rw [hval]
          by_cases hA' : A' p ≠ NULL
          · rw [hP.sub p hA']
          · have hA'0 := not_not.1 hA'
            rw [if_neg (fun hc => hc.1 hA'0)]
            by_cases hA : A p = NULL
            · rw [if_neg (fun hc => hc.1 hA)]
            · rcases hP.removed p hA hA'0 with e1 | e1
              · exact absurd e1 hp
              · rw [if_neg (fun hc => hc.2 e1)]

/-- A run on a trie with table `S` in which no insert fails leaves a trie with the table
`rxTableOf ops S`. -/
theorem run_cont (fuel : Nat) (hfuel : 34 ≤ fuel) (ops : List RxOp) :
    ∀ (m : RxHeap) (t : ngx_radix_tree_t) (S : List Bool → Option Nat), RxCont m t S →
      ∀ m' t' rcs, rxRun fuel ops m t = RxRes.done (m', t', rcs) → rxNoFail ops rcs →
        RxCont m' t' (rxTableOf ops S) := by
  induction ops with
  | nil =>
    intro m t S h m' t' rcs e _
    simp only [rxRun, RxRes.done.injEq, Prod.mk.injEq] at e
    obtain ⟨rfl, rfl, rfl⟩ := e
    exact h
  | cons op ops ih =>
    intro m t S h m' t' rcs e2 hnf
    cases op with
    | ins key mask value =>
      obtain ⟨m1, t1, rc, e, hg⟩ := insert_cont h key mask value fuel hfuel
      simp only [rxRun, e] at e2
      cases hr : rxRun fuel ops m1 t1 with
      | done r =>
        obtain ⟨m2, t2, rcs2⟩ := r
        rw [hr] at e2
        simp only [RxRes.done.injEq, Prod.mk.injEq] at e2
        obtain ⟨rfl, rfl, rfl⟩ := e2
        simp only [rxNoFail] at hnf
        exact ih m1 t1 _ (hg hnf.1) _ _ _ hr hnf.2
      | nullDeref => rw [hr] at e2; simp at e2
      | outOfFuel => rw [hr] at e2; simp at e2
    | del key mask =>
      rcases delete_cont h key mask fuel hfuel with e | ⟨m1, t1, rc, e, hg⟩
      · simp [rxRun, e] at e2
      · simp only [rxRun, e] at e2
        cases hr : rxRun fuel ops m1 t1 with
        | done r =>
          obtain ⟨m2, t2, rcs2⟩ := r
          rw [hr] at e2
          simp only [RxRes.done.injEq, Prod.mk.injEq] at e2
          obtain ⟨rfl, rfl, rfl⟩ := e2
          simp only [rxNoFail] at hnf
          exact ih m1 t1 _ hg _ _ _ hr hnf
        | nullDeref => rw [hr] at e2; simp at e2
        | outOfFuel => rw [hr] at e2; simp at e2

theorem find_cont {m : RxHeap} {t : ngx_radix_tree_t} {S : List Bool → Option Nat}
    (h : RxCont m t S) (fuel key : Nat) (hfuel : 34 ≤ fuel) :
    ngx_radix32tree_find fuel m t key = some (lpm S key) := by
  obtain ⟨A, L, hI, hS⟩ := h
  rw [ngx_radix32tree_find_spec hI.rep key fuel hfuel]
  unfold lpm
  rw [lpmLt_congr hS]

theorem lpmLt_none (key : Nat) : ∀ n, lpmLt (fun _ => none) key n = NGX_RADIX_NO_VALUE := by
  intro n
  induction n with
  | zero => rfl
  | succ n ih => simp only [lpmLt, ih]

/-! ## Claims on preallocation and on the root -/

theorem rxPre_eq : ngx_radix_tree_create 34 rxM0 rxPool 1 = some rxPre :=
  some_getD_of_isSome _ _ (by decide)

/-- C16: take a trie from `ngx_radix_tree_create(pool, preallocate)` (any `preallocate`,
in particular every depth `p ≥ 1`) and one from `ngx_radix_tree_create(pool', 0)`.  On the
first, `ngx_radix32tree_find` returns `NGX_RADIX_NO_VALUE` for every key.  No run of
inserts and deletes on either lacks fuel, and when the same sequence of calls has been run
on both to the end, with no insert returning `NGX_ERROR`, `ngx_radix32tree_find` returns
the same value on both for every key. -/
theorem ngx_radix_prealloc_find (fuel : Nat) (m0 m0' : RxHeap) (pool pool' : ngx_pool_t)
    (pre : Int) (ops : List RxOp) (r r' : RxHeap × ngx_radix_tree_t) (hfuel : 34 ≤ fuel)
    (hok : PoolOK pool) (hok' : PoolOK pool')
    (hc : ngx_radix_tree_create fuel m0 pool pre = some r)
    (hc' : ngx_radix_tree_create fuel m0' pool' 0 = some r') :
    (∀ key, ngx_radix32tree_find fuel r.1 r.2 key = some NGX_RADIX_NO_VALUE) ∧
    rxRun fuel ops r.1 r.2 ≠ RxRes.outOfFuel ∧ rxRun fuel ops r'.1 r'.2 ≠ RxRes.outOfFuel ∧
    ∀ m t rcs m' t' rcs', rxRun fuel ops r.1 r.2 = RxRes.done (m, t, rcs) →
      rxRun fuel ops r'.1 r'.2 = RxRes.done (m', t', rcs') → rxNoFail ops rcs →
      rxNoFail ops rcs' →
      ∀ key, ngx_radix32tree_find fuel m t key = ngx_radix32tree_find fuel m' t' key := by
  have hg := create_cont fuel m0 pool pre hfuel hok r hc
  have hg' := create_cont fuel m0' pool' 0 hfuel hok' r' hc'
  refine ⟨fun key => ?_, ?_, ?_, ?_⟩
  · rw [find_cont hg fuel key hfuel]
    unfold lpm
    rw [lpmLt_none]
  · obtain ⟨A, L, hI, -⟩ := hg
    exact run_total fuel hfuel ops _ _ A L hI
  · obtain ⟨A, L, hI, -⟩ := hg'
    exact run_total fuel hfuel ops _ _ A L hI
  · intro m t rcs m' t' rcs' e e' hnf hnf' key
    rw [find_cont (run_cont fuel hfuel ops _ _ _ hg _ _ _ e hnf) fuel key hfuel,
      find_cont (run_cont fuel hfuel ops _ _ _ hg' _ _ _ e' hnf') fuel key hfuel]

theorem ngx_radix_prealloc_find_witness :
    (∀ key, ngx_radix32tree_find 34 rxPre.1 rxPre.2 key = some NGX_RADIX_NO_VALUE) ∧
    rxRun 34 rxScenario rxPre.1 rxPre.2 ≠ RxRes.outOfFuel ∧
    rxRun 34 rxScenario rxInit.1 rxInit.2 ≠ RxRes.outOfFuel ∧
    ∀ m t rcs m' t' rcs', rxRun 34 rxScenario rxPre.1 rxPre.2 = RxRes.done (m, t, rcs) →
      rxRun 34 rxScenario rxInit.1 rxInit.2 = RxRes.done (m', t', rcs') →
      rxNoFail rxScenario rcs → rxNoFail rxScenario rcs' →
      ∀ key, ngx_radix32tree_find 34 m t key = ngx_radix32tree_find 34 m' t' key :=
  ngx_radix_prealloc_find 34 rxM0 rxM0 rxPool rxPool 1 rxScenario rxPre rxInit (by decide)
    rxPool_ok rxPool_ok rxPre_eq rxInit_eq

/-- `ngx_radix32tree_delete` with a mask whose top bit is set, on a trie: it returns, and
the root stays the root of a trie. -/
theorem delete_top {m : RxHeap} {t : ngx_radix_tree_t} {A : List Bool → Nat} {L : List Nat}
    (h : RxInv m t A L) (key mask fuel : Nat) (hfuel : 34 ≤ fuel) (hz : maskLen mask ≠ 0) :
    ∃ m' t' rc A' L', ngx_radix32tree_delete fuel m t key mask = RxRes.done (m', t', rc) ∧
      RxInv m' t' A' L' ∧ t'.root = t.root := by
  obtain ⟨d1, d2, d3⟩ := ngx_radix32tree_delete_spec h key mask fuel hfuel
  by_cases hn : A (kpath key (maskLen mask)) = NULL
  · exact ⟨m, t, NGX_ERROR, A, L, d1 hn, h, rfl⟩
  · by_cases hch : A (true :: kpath key (maskLen mask)) ≠ NULL ∨
        A (false :: kpath key (maskLen mask)) ≠ NULL
    · by_cases hv : m.value (A (kpath key (maskLen mask))) ≠ NGX_RADIX_NO_VALUE
      · exact ⟨_, t, NGX_OK, A, L, (d2 hn hch).1 hv, h.setValue _ _, rfl⟩
      · exact ⟨m, t, NGX_ERROR, A, L, (d2 hn hch).2 (not_not.1 hv), h, rfl⟩
    · simp only [not_or, not_not] at hch
      obtain ⟨m', t', A', R, e, hI, hr, -⟩ := (d3 hch.1 hch.2).2 hn hz
      exact ⟨m', t', NGX_OK, A', R ++ L, e, hI, hr⟩

/-- C23: on every trie reached from `ngx_radix_tree_create` by a run of inserts and
deletes, `ngx_radix32tree_delete(key, mask)` with the top bit of `mask` set returns (it
reads through no null parent); afterwards the tree record has the same root, which is still
the root of the trie in memory, has no parent, and is not on the free list. -/
theorem ngx_radix32tree_delete_keeps_root (fuel : Nat) (m0 : RxHeap) (pool : ngx_pool_t)
    (pre : Int) (ops : List RxOp) (r : RxHeap × ngx_radix_tree_t) (m : RxHeap)
    (t : ngx_radix_tree_t) (rcs : List Int) (key mask : Nat) (hfuel : 34 ≤ fuel)
    (hok : PoolOK pool) (hc : ngx_radix_tree_create fuel m0 pool pre = some r)
    (hrun : rxRun fuel ops r.1 r.2 = RxRes.done (m, t, rcs))
    (hmask : mask &&& 0x80000000 ≠ 0) :
    ∃ m' t' rc, ngx_radix32tree_delete fuel m t key mask = RxRes.done (m', t', rc) ∧
      t'.root = t.root ∧ t'.root ≠ NULL ∧ m'.parent t'.root = NULL ∧
      (∃ A' L', RxInv m' t' A' L') ∧ ∀ F, FreeChain m' t'.free F → t'.root ∉ F := by
  obtain ⟨A0, L0, hI0, -⟩ := create_inv fuel m0 pool pre hfuel hok r hc
  obtain ⟨A, L, hI⟩ := run_inv fuel hfuel ops _ _ A0 L0 hI0 _ _ _ hrun
  obtain ⟨m', t', rc, A', L', e, hI', hr⟩ :=
    delete_top hI key mask fuel hfuel (maskLen_ne_zero mask hmask)
  refine ⟨m', t', rc, e, hr, hI'.rep.root_ne, hI'.rep.root_parent, ⟨A', L', hI'⟩, ?_⟩
  intro F hF hmem
  obtain ⟨F', hF', hL'⟩ := hI'.fresh
  have e1 : F' = F := FreeChain_unique hF' hF
  subst e1
  exact (hI'.sep t'.root (by rw [hL']; simp [hmem])).2 [] hI'.rep.root_eq

theorem ngx_radix32tree_delete_keeps_root_witness :
    ∃ m' t' rc, ngx_radix32tree_delete 34 rxFull.1 rxFull.2 0 0xffffffff =
        RxRes.done (m', t', rc) ∧
      t'.root = rxFull.2.root ∧ t'.root ≠ NULL ∧ m'.parent t'.root = NULL ∧
      (∃ A' L', RxInv m' t' A' L') ∧ ∀ F, FreeChain m' t'.free F → t'.root ∉ F :=
  ngx_radix32tree_delete_keeps_root 34 rxM0 rxPool 0 rxFill rxInit rxFull.1 rxFull.2
    [NGX_OK, NGX_OK, NGX_OK, NGX_OK] 0 0xffffffff (by decide) rxPool_ok rxInit_eq rxFull_run
    (by decide)

section RbFactsx
open RbTree

/-! ## Keys and the sentinel under `ngx_rbtree_insert` and `ngx_rbtree_delete` -/

theorem left_rotate_key (m : RbHeap) (root s x : Nat) :
    (ngx_rbtree_left_rotate m root s x).1.key = m.key := by
  unfold ngx_rbtree_left_rotate
  simp only
  split <;> split <;> (try split) <;> rfl

theorem right_rotate_key (m : RbHeap) (root s x : Nat) :
    (ngx_rbtree_right_rotate m root s x).1.key = m.key := by
  unfold ngx_rbtree_right_rotate
  simp only
  split <;> split <;> (try split) <;> rfl

theorem delete_fixup_key : ∀ (fuel : Nat) (m : RbHeap) (root s temp : Nat)
    (r : RbHeap × Nat × Nat), ngx_rbtree_delete_fixup fuel m root s temp = some r →
    r.1.key = m.key := by
  intro fuel
  induction fuel with
  | zero => intro m root s temp r h; simp [ngx_rbtree_delete_fixup] at h
  | succ fuel ih =>
    intro m root s temp r h
    rw [ngx_rbtree_delete_fixup] at h
    simp only at h
    repeat (any_goals (split at h))
    all_goals first
      | (simp only [Option.some.injEq] at h; rw [← h])
      | (rw [ih _ _ _ _ _ h]
         simp [ngx_rbt_red, ngx_rbt_black, ngx_rbt_copy_color, left_rotate_key,
           right_rotate_key, setColor])

theorem transplantM_key (m : RbHeap) (subst temp v : Nat) :
    (transplantM m subst temp v).key = m.key := by
  unfold transplantM
  split <;> rfl

theorem substM_key (m : RbHeap) (root s node subst : Nat) :
    (substM m root s node subst).1.key = m.key := by
  unfold substM
  simp only
  have h6 : (ngx_rbt_copy_color (setParent (setRight (setLeft m subst (m.left node)) subst
    ((setLeft m subst (m.left node)).right node)) subst
    ((setRight (setLeft m subst (m.left node)) subst
      ((setLeft m subst (m.left node)).right node)).parent node)) subst node).key = m.key := rfl
  generalize ngx_rbt_copy_color (setParent (setRight (setLeft m subst (m.left node)) subst
    ((setLeft m subst (m.left node)).right node)) subst
    ((setRight (setLeft m subst (m.left node)) subst
      ((setLeft m subst (m.left node)).right node)).parent node)) subst node = m6 at h6 ⊢
  have h7 : (if node = root then (m6, subst)
      else if node = m6.left (m6.parent node) then (setLeft m6 (m6.parent node) subst, root)
      else (setRight m6 (m6.parent node) subst, root)).1.key = m.key := by
    split
    · exact h6
    · split <;> exact h6
  generalize (if node = root then (m6, subst)
      else if node = m6.left (m6.parent node) then (setLeft m6 (m6.parent node) subst, root)
      else (setRight m6 (m6.parent node) subst, root)) = r1 at h7 ⊢
  have h8 : (if r1.1.left subst ≠ s then setParent r1.1 (r1.1.left subst) subst
      else r1.1).key = m.key := by
    split <;> exact h7
  generalize (if r1.1.left subst ≠ s then setParent r1.1 (r1.1.left subst) subst
      else r1.1) = m8 at h8 ⊢
  split <;> exact h8

theorem delete_unlink_key (m : RbHeap) (root s node subst temp : Nat) :
    (ngx_rbtree_delete_unlink m root s node subst temp).1.key = m.key := by
  rw [unlink_eq]
  split
  · exact transplantM_key _ _ _ _
  · rw [substM_key, transplantM_key]

/-- `ngx_rbtree_delete` writes one key: that of the node handed to it, which becomes 0. -/
theorem delete_key (fuel : Nat) (m : RbHeap) (tree : ngx_rbtree_t) (node : Nat)
    (r : RbHeap × ngx_rbtree_t) (h : ngx_rbtree_delete fuel m tree node = some r) :
    r.1.key = Function.update m.key node 0 := by
  unfold ngx_rbtree_delete at h
  simp only at h
  cases hsel : ngx_rbtree_delete_select fuel m tree.sentinel node with
  | none => rw [hsel] at h; simp at h
  | some ts =>
    obtain ⟨temp, subst⟩ := ts
    rw [hsel] at h
    simp only at h
    split at h
    · simp only [Option.some.injEq] at h
      rw [← h]
      simp [ngx_rbtree_delete_debug, ngx_rbt_black, setColor, setKey, setParent, setRight, setLeft]
    · split at h
      · simp only [Option.some.injEq] at h
        rw [← h]
        simp [ngx_rbtree_delete_debug, setKey, setParent, setRight, setLeft, delete_unlink_key]
      · cases hf : ngx_rbtree_delete_fixup fuel
            (ngx_rbtree_delete_debug
              (ngx_rbtree_delete_unlink m tree.root tree.sentinel node subst temp).1 node)
            (ngx_rbtree_delete_unlink m tree.root tree.sentinel node subst temp).2
            tree.sentinel temp with
        | none => rw [hf] at h; simp at h
        | some r1 =>
          rw [hf] at h
          simp only [Option.some.injEq] at h
          rw [← h]
          have := delete_fixup_key _ _ _ _ _ _ hf
          simp [ngx_rbt_black, setColor, this, ngx_rbtree_delete_debug, setKey, setParent,
            setRight, setLeft, delete_unlink_key]

/-- C20, counterexample: in the three-node tree the node at address 2 holds key 5; after
`ngx_rbtree_delete(tree, node)` for that node its key field holds 0. -/
theorem ngx_rbtree_delete_key_counterexample :
    ngx_rbtree_delete 3 w3Heap wTree 2 = some w3Del ∧ w3Heap.key 2 = 5 ∧ w3Del.1.key 2 = 0 ∧
    w3Del.1.key 2 ≠ w3Heap.key 2 :=
  ⟨some_getD_of_isSome _ _ (by decide), by decide, by decide, by decide⟩

/-- C20, amended: on a stored red-black tree with a black sentinel, `ngx_rbtree_insert`
(strategy `ngx_rbtree_insert_value`) of a node `n` outside the tree returns and leaves the
key field of every node as it was; `ngx_rbtree_delete` of a node `x` of the tree returns
and leaves the key field of every node other than `x` as it was, and sets the key of `x`
itself to 0. -/
theorem ngx_rbtree_keys_kept (m : RbHeap) (tree : ngx_rbtree_t) (t : RbTree) (n x fuel : Nat)
    (h : TreeInv m tree.sentinel tree.root t) (hins : tree.insert = ngx_rbtree_insert_value)
    (hs : m.color tree.sentinel = Color.black) (hrb : RBInv t) (hn : n ∉ t.ids)
    (hns : n ≠ tree.sentinel) (hx : x ∈ t.ids) (hfuel : t.height + 1 ≤ fuel) :
    (∃ m' tree', ngx_rbtree_insert fuel m tree n = some (m', tree') ∧ m'.key = m.key) ∧
    ∃ m' tree', ngx_rbtree_delete fuel m tree x = some (m', tree') ∧
      (∀ q, q ≠ x → m'.key q = m.key q) ∧ m'.key x = 0 := by
  constructor
  · obtain ⟨m', root', e, -, hk, -⟩ := ngx_rbtree_insert_spec h hins hrb.1 hs hn hns fuel hfuel
    exact ⟨m', _, e, hk⟩
  · obtain ⟨fs, c, l, k, r, rfl⟩ := exists_plug_of_mem hx
    obtain ⟨m', root', e, -, hk, -⟩ := ngx_rbtree_delete_spec h hs hrb.2.2 fuel hfuel
    refine ⟨m', _, e, hk, ?_⟩
    have := delete_key fuel m tree x _ e
    simp only at this
    rw [this, Function.update_same]

theorem ngx_rbtree_keys_kept_witness :
    (∃ m' tree', ngx_rbtree_insert 3 w3Heap wTree 7 = some (m', tree') ∧
      m'.key = w3Heap.key) ∧
    ∃ m' tree', ngx_rbtree_delete 3 w3Heap wTree 2 = some (m', tree') ∧
      (∀ q, q ≠ 2 → m'.key q = w3Heap.key q) ∧ m'.key 2 = 0 :=
  ngx_rbtree_keys_kept w3Heap wTree w3 7 2 3 w3_inv rfl rfl w3_rb (by decide) (by decide)
    (by decide) (by decide)

/-- C29: on a stored tree that satisfies the red-black invariants, with a black sentinel,
`ngx_rbtree_insert` (strategy `ngx_rbtree_insert_value`) of a node outside the tree and
`ngx_rbtree_delete` of a node of the tree both return, and after either the sentinel is
still black. -/
theorem ngx_rbtree_sentinel_black (m : RbHeap) (tree : ngx_rbtree_t) (t : RbTree)
    (n x fuel : Nat) (h : TreeInv m tree.sentinel tree.root t)
    (hins : tree.insert = ngx_rbtree_insert_value)
    (hs : m.color tree.sentinel = Color.black) (hrb : RBInv t) (hn : n ∉ t.ids)
    (hns : n ≠ tree.sentinel) (hx : x ∈ t.ids) (hfuel : t.height + 1 ≤ fuel) :
    (∃ m' tree', ngx_rbtree_insert fuel m tree n = some (m', tree') ∧
      tree'.sentinel = tree.sentinel ∧ m'.color tree'.sentinel = Color.black) ∧
    ∃ m' tree', ngx_rbtree_delete fuel m tree x = some (m', tree') ∧
      tree'.sentinel = tree.sentinel ∧ m'.color tree'.sentinel = Color.black := by
  constructor
  · obtain ⟨m', root', e, -, -, hc⟩ := ngx_rbtree_insert_spec h hins hrb.1 hs hn hns fuel hfuel
    exact ⟨m', _, e, rfl, hc⟩
  · obtain ⟨fs, c, l, k, r, rfl⟩ := exists_plug_of_mem hx
    obtain ⟨m', root', e, -, -, hc⟩ := ngx_rbtree_delete_spec h hs hrb.2.2 fuel hfuel
    exact ⟨m', _, e, rfl, hc⟩

theorem ngx_rbtree_sentinel_black_witness :
    (∃ m' tree', ngx_rbtree_insert 3 w3Heap wTree 7 = some (m', tree') ∧
      tree'.sentinel = wTree.sentinel ∧ m'.color tree'.sentinel = Color.black) ∧
    ∃ m' tree', ngx_rbtree_delete 3 w3Heap wTree 2 = some (m', tree') ∧
      tree'.sentinel = wTree.sentinel ∧ m'.color tree'.sentinel = Color.black :=
  ngx_rbtree_sentinel_black w3Heap wTree w3 7 2 3 w3_inv rfl rfl w3_rb (by decide) (by decide)
    (by decide) (by decide)

end RbFactsx

theorem mod_wrap (x N : Nat) (h1 : N ≤ x) (h2 : x < 2 * N) : x % N = x - N := by
  rw [Nat.mod_eq_sub_mod h1, Nat.mod_eq_of_lt (by omega)]

theorem two_pow_half (w : Nat) (hw : 1 ≤ w) : 2 ^ w = 2 * 2 ^ (w - 1) := by
  obtain ⟨v, rfl⟩ : ∃ v, w = v + 1 := ⟨w - 1, by omega⟩
  rw [Nat.add_sub_cancel, Nat.pow_succ, Nat.mul_comm]

/-- The timer test on two keys below `2 ^ w`: true exactly when the difference modulo
`2 ^ w` is at least `2 ^ (w - 1)`. -/
theorem timerLess_iff (w a b : Nat) (hw : 1 ≤ w) (ha : a < 2 ^ w) (hb : b < 2 ^ w) :
    timerLess w a b = true ↔ 2 ^ (w - 1) ≤ (a + 2 ^ w - b) % 2 ^ w := by
  unfold timerLess keyToInt keySub
  rw [Nat.mod_eq_of_lt ha, Nat.mod_eq_of_lt hb, Nat.mod_mod]
  have hlt : (a + 2 ^ w - b) % 2 ^ w < 2 ^ w := Nat.mod_lt _ (Nat.two_pow_pos _)
  generalize (a + 2 ^ w - b) % 2 ^ w = x at hlt ⊢
  simp only [decide_eq_true_eq]
  have hN := two_pow_half w hw
  constructor
  · intro h
    by_contra hc
    rw [if_pos (by omega)] at h
    omega
  · intro h
    rw [if_neg (by omega)]
    have : ((2 ^ w : Nat) : Int) = (2 : Int) ^ w := by push_cast; rfl
    rw [← this]
    omega

/-- C17: for keys of `w` bits (`w ≥ 1`), at an existing node `temp` with key `b` and no
children, `ngx_rbtree_insert_timer_value` links the new node (key `a`) as the left child
exactly when `(a - b) mod 2^w ≥ 2^(w-1)` and as the right child otherwise, while
`ngx_rbtree_insert_value` links it left exactly when `a < b`; the two make the same choice
if and only if `a < b` and `b - a ≤ 2^(w-1)`, or `a ≥ b` and `a - b < 2^(w-1)`; for
`a = 0`, `b = 2^w - 1` and `w ≥ 2` the timer strategy goes right and the plain one left. -/
theorem ngx_rbtree_insert_timer_choice (w fuel : Nat) (m : RbHeap) (temp node s : Nat)
    (hw : 1 ≤ w) (ha : m.key node < 2 ^ w) (hb : m.key temp < 2 ^ w)
    (hl : m.left temp = s) (hr : m.right temp = s) (hnt : node ≠ temp) (hns : node ≠ s) :
    ∃ mt mv, ngx_rbtree_insert_timer_value w (fuel + 1) m temp node s = some mt ∧
      ngx_rbtree_insert_value (fuel + 1) m temp node s = some mv ∧
      (mt.left temp = node ↔ 2 ^ (w - 1) ≤ (m.key node + 2 ^ w - m.key temp) % 2 ^ w) ∧
      (mt.right temp = node ↔ (m.key node + 2 ^ w - m.key temp) % 2 ^ w < 2 ^ (w - 1)) ∧
      (mv.left temp = node ↔ m.key node < m.key temp) ∧
      (mv.right temp = node ↔ m.key temp ≤ m.key node) ∧
      ((mt.left temp = node ↔ mv.left temp = node) ↔
        ((m.key node < m.key temp ∧ m.key temp - m.key node ≤ 2 ^ (w - 1)) ∨
          (m.key temp ≤ m.key node ∧ m.key node - m.key temp < 2 ^ (w - 1)))) ∧
      (2 ≤ w → m.key node = 0 → m.key temp = 2 ^ w - 1 →
        mt.right temp = node ∧ mv.left temp = node) := by
  have hN := two_pow_half w hw
  have hT := timerLess_iff w (m.key node) (m.key temp) hw ha hb
  have hsn : s ≠ node := Ne.symm hns
  have htn : temp ≠ node := Ne.symm hnt
  have et : ∃ mt, ngx_rbtree_insert_timer_value w (fuel + 1) m temp node s = some mt ∧
      (mt.left temp = node ↔ timerLess w (m.key node) (m.key temp) = true) ∧
      (mt.right temp = node ↔ timerLess w (m.key node) (m.key temp) = false) := by
    have e : ngx_rbtree_insert_timer_value w (fuel + 1) m temp node s =
        some (ngx_rbt_red (setRight (setLeft (setParent
          (if timerLess w (m.key node) (m.key temp) = true then setLeft m temp node
           else setRight m temp node) node temp) node s) node s) node) := by
      rw [ngx_rbtree_insert_timer_value]
      simp only
      rw [if_pos]
      split <;> assumption
    refine ⟨_, e, ?_, ?_⟩
    · cases hg : timerLess w (m.key node) (m.key temp) <;>
        simp [hl, hr, ngx_rbt_red, setColor, setLeft, setRight, setParent,
          Function.update_apply, htn, hsn]
    · cases hg : timerLess w (m.key node) (m.key temp) <;>
        simp [hl, hr, ngx_rbt_red, setColor, setLeft, setRight, setParent,
          Function.update_apply, htn, hsn]
  have ev : ∃ mv, ngx_rbtree_insert_value (fuel + 1) m temp node s = some mv ∧
      (mv.left temp = node ↔ m.key node < m.key temp) ∧
      (mv.right temp = node ↔ m.key temp ≤ m.key node) := by
    have e : ngx_rbtree_insert_value (fuel + 1) m temp node s =
        some (ngx_rbt_red (setRight (setLeft (setParent
          (if decide (m.key node < m.key temp) = true then setLeft m temp node
           else setRight m temp node) node temp) node s) node s) node) := by
      rw [ngx_rbtree_insert_value]
      simp only
      rw [if_pos]
      split <;> assumption
    refine ⟨_, e, ?_, ?_⟩
    · by_cases hg : m.key node < m.key temp <;>
        simp [hl, hr, hg, ngx_rbt_red, setColor, setLeft, setRight, setParent,
          Function.update_apply, htn, hsn]
    · by_cases hg : m.key node < m.key temp
      · simp [hl, hr, hg, ngx_rbt_red, setColor, setLeft, setRight, setParent,
          Function.update_apply, htn, hsn]
      · simp [hl, hr, hg, ngx_rbt_red, setColor, setLeft, setRight, setParent,
          Function.update_apply, htn, hsn]
        omega
  obtain ⟨mt, e1, t1, t2⟩ := et
  obtain ⟨mv, e2, v1, v2⟩ := ev
  have hx : (m.key node + 2 ^ w - m.key temp) % 2 ^ w =
      if m.key temp ≤ m.key node then m.key node - m.key temp
      else m.key node + 2 ^ w - m.key temp := by
    split
    · rw [mod_wrap _ _ (by omega) (by omega)]
      omega
    · rw [Nat.mod_eq_of_lt (by omega)]
  refine ⟨mt, mv, e1, e2, t1.trans hT, ?_, v1, v2, ?_, ?_⟩
  · rw [t2]
    cases hg : timerLess w (m.key node) (m.key temp) with
    | true =>
      have := hT.1 hg
      simp only [false_iff, reduceCtorEq]
      omega
    | false =>
      have : ¬ 2 ^ (w - 1) ≤ (m.key node + 2 ^ w - m.key temp) % 2 ^ w := fun hc => by
        have := hT.2 hc
        rw [hg] at this
        exact absurd this (by decide)
      simp only [true_iff]
      omega
  · rw [t1.trans hT, v1, hx]
    split <;> constructor <;> intro h <;> omega
  · intro h2 a0 b0
    rw [t2, v1]
    constructor
    · have : ¬ 2 ^ (w - 1) ≤ (m.key node + 2 ^ w - m.key temp) % 2 ^ w := by
        rw [hx, if_neg (by omega), a0, b0]
        have h4 : 2 ≤ 2 ^ (w - 1) := by
          obtain ⟨v, rfl⟩ : ∃ v, w = v + 2 := ⟨w - 2, by omega⟩
          have : 0 < 2 ^ v := Nat.two_pow_pos _
          have e3 : v + 2 - 1 = v + 1 := by omega
          rw [e3, Nat.pow_succ]
          omega
        omega
      cases hg : timerLess w (m.key node) (m.key temp) with
      | true => exact absurd (hT.1 hg) this
      | false => rfl
    · have : 0 < 2 ^ (w - 1) := Nat.two_pow_pos _
      omega

theorem ngx_rbtree_insert_timer_choice_witness :
    ∃ mt mv, ngx_rbtree_insert_timer_value 4 (0 + 1) wTimer 2 3 1 = some mt ∧
      ngx_rbtree_insert_value (0 + 1) wTimer 2 3 1 = some mv ∧
      (mt.left 2 = 3 ↔ 2 ^ (4 - 1) ≤ (wTimer.key 3 + 2 ^ 4 - wTimer.key 2) % 2 ^ 4) ∧
      (mt.right 2 = 3 ↔ (wTimer.key 3 + 2 ^ 4 - wTimer.key 2) % 2 ^ 4 < 2 ^ (4 - 1)) ∧
      (mv.left 2 = 3 ↔ wTimer.key 3 < wTimer.key 2) ∧
      (mv.right 2 = 3 ↔ wTimer.key 2 ≤ wTimer.key 3) ∧
      ((mt.left 2 = 3 ↔ mv.left 2 = 3) ↔
        ((wTimer.key 3 < wTimer.key 2 ∧ wTimer.key 2 - wTimer.key 3 ≤ 2 ^ (4 - 1)) ∨
          (wTimer.key 2 ≤ wTimer.key 3 ∧ wTimer.key 3 - wTimer.key 2 < 2 ^ (4 - 1)))) ∧
      (2 ≤ 4 → wTimer.key 3 = 0 → wTimer.key 2 = 2 ^ 4 - 1 →
        mt.right 2 = 3 ∧ mv.left 2 = 3) :=
  ngx_rbtree_insert_timer_choice 4 0 wTimer 2 3 1 (by decide) (by decide) (by decide) rfl rfl
    (by decide) (by decide)

section RbFactsxx
open RbTree

theorem plug_insPathT (w k : Nat) (t : RbTree) (fs : List RbFrame) :
    plug (insPathT w k t fs) nil = plug fs t := by
  induction t generalizing fs with
  | nil => rfl
  | node c l x kx r ihl ihr =>
    unfold insPathT
    split
    · rw [ihl]; rfl
    · rw [ihr]; rfl

theorem insert_timer_value_spec {s root n : Nat} (w : Nat) (hns : n ≠ s) (t : RbTree) :
    ∀ (fs : List RbFrame) (m : RbHeap), TreeInv m s root (plug fs t) → t ≠ nil →
      n ∉ (plug fs t).ids → ∀ fuel, t.height ≤ fuel →
      ∃ m', ngx_rbtree_insert_timer_value w fuel m (t.ptr s) n s = some m' ∧
        TreeInv m' s root
          (plug (insPathT w (m.key n) t fs) (node Color.red nil n (m.key n) nil)) ∧
        m'.key = m.key ∧ AgreeAt m m' s := by
  induction t with
  | nil => intro fs m _ ht; exact absurd rfl ht
  | node c l x kx r ihl ihr =>
    intro fs m h _ hn fuel hfuel
    obtain ⟨hxs, hcx, hkx, hlx, hrx, hpx, hxroot⟩ := h.look
    cases fuel with
    | zero => simp [RbTree.height] at hfuel
    | succ fuel =>
      simp only [RbTree.height, Nat.add_le_add_iff_right] at hfuel
      by_cases hk : timerLess w (m.key n) kx = true
      · cases l with
        | nil =>
          have hl := @link_spec m s root (RbFrame.L c x kx r) fs n h hn hns
          have ha := @link_agree m s x n hxs hns (setLeft m x n) (Or.inl rfl)
          refine ⟨_, ?_, ?_, ha.2, ha.1⟩
          · simp [ngx_rbtree_insert_timer_value, hkx, hk, hlx]
          · simpa [insPathT, hk] using hl
        | node cl ll lx lk lr =>
          have hl := ihl (RbFrame.L c x kx r :: fs) m h (by simp) hn fuel
            (le_trans (le_max_left _ _) hfuel)
          obtain ⟨m', e, hT, hkey, hag⟩ := hl
          have hlxs : lx ≠ s := (@TreeInv.look m s root (RbFrame.L c x kx r :: fs) _ _ _ _ _ h).1
          refine ⟨m', ?_, ?_, hkey, hag⟩
          · simp only [ptr_node] at e hlx
            simp [ngx_rbtree_insert_timer_value, hkx, hk, hlx, hlxs, e]
          · simpa [insPathT, hk] using hT
      · cases r with
        | nil =>
          have hl := @link_spec m s root (RbFrame.R c l x kx) fs n h hn hns
          have ha := @link_agree m s x n hxs hns (setRight m x n) (Or.inr rfl)
          refine ⟨_, ?_, ?_, ha.2, ha.1⟩
          · simp [ngx_rbtree_insert_timer_value, hkx, hk, hrx]
          · simpa [insPathT, hk] using hl
        | node cr rl rx rk rr =>
          have hl := ihr (RbFrame.R c l x kx :: fs) m h (by simp) hn fuel
            (le_trans (le_max_right _ _) hfuel)
          obtain ⟨m', e, hT, hkey, hag⟩ := hl
          have hrxs : rx ≠ s := (@TreeInv.look m s root (RbFrame.R c l x kx :: fs) _ _ _ _ _ h).1
          refine ⟨m', ?_, ?_, hkey, hag⟩
          · simp only [ptr_node] at e hrx
            simp [ngx_rbtree_insert_timer_value, hkx, hk, hrx, hrxs, e]
          · simpa [insPathT, hk] using hT

theorem insPathT_length (w k : Nat) (t : RbTree) (fs : List RbFrame) :
    (insPathT w k t fs).length ≤ t.height + fs.length := by
  induction t generalizing fs with
  | nil => simp [insPathT, RbTree.height]
  | node c l x kx r ihl ihr =>
    unfold insPathT
    split
    · have := ihl (RbFrame.L c x kx r :: fs)
      simp only [List.length_cons, RbTree.height] at this ⊢
      have := le_max_left l.height r.height
      omega
    · have := ihr (RbFrame.R c l x kx :: fs)
      simp only [List.length_cons, RbTree.height] at this ⊢
      have := le_max_right l.height r.height
      omega

theorem insInvT_init (w k n : Nat) (t : RbTree) (h : RBInv t) :
    InsInv (insPathT w k t []) (node Color.red nil n k nil) := by
  obtain ⟨h1, h2, h3⟩ := h
  have e := plug_insPathT w k t []
  simp only [plug_nil] at e
  rw [← e] at h1 h2 h3
  rw [rootColor_plug] at h1
  rw [NoRedRed_plug] at h2
  rw [Balanced_plug] at h3
  exact ⟨rfl, by simp, by simp, by simpa using h3.1, by simpa using h2.1, fun _ => by simpa using h1⟩

theorem insTreeT_rb (w : Nat) (t : RbTree) (n k : Nat) (h : RBInv t) :
    RBInv (insTreeT w t n k) := by
  cases t with
  | nil => simp [insTreeT, RBInv]
  | node c l x kx r =>
    have := insFix_rb _ _ (insInvT_init w k n _ h)
    exact ⟨by simp [insTreeT], this.2, by simpa [insTreeT] using this.1⟩

theorem insTreeT_ids (w : Nat) (t : RbTree) (n k : Nat) :
    (insTreeT w t n k).ids = ctxL (insPathT w k t []) ++ n :: ctxR (insPathT w k t []) := by
  cases t with
  | nil => simp [insTreeT, insPathT, ctxL, ctxR]
  | node c l x kx r => simp [insTreeT, insFix_ids, ids_plug]

theorem insTreeT_keys (w : Nat) (t : RbTree) (n k : Nat) :
    (insTreeT w t n k).keys = ctxLK (insPathT w k t []) ++ k :: ctxRK (insPathT w k t []) := by
  cases t with
  | nil => simp [insTreeT, insPathT, ctxLK, ctxRK]
  | node c l x kx r => simp [insTreeT, insFix_keys, keys_plug]

theorem ids_insPathT (w k : Nat) (t : RbTree) :
    t.ids = ctxL (insPathT w k t []) ++ ctxR (insPathT w k t []) := by
  have := congrArg RbTree.ids (plug_insPathT w k t [])
  rw [ids_plug] at this
  simpa using this.symm

theorem keys_insPathT (w k : Nat) (t : RbTree) :
    t.keys = ctxLK (insPathT w k t []) ++ ctxRK (insPathT w k t []) := by
  have := congrArg RbTree.keys (plug_insPathT w k t [])
  rw [keys_plug] at this
  simpa using this.symm

/-- `ngx_rbtree_insert` with `ngx_rbtree_insert_timer_value`, on a stored tree whose root is
black, returns and leaves the tree `insTreeT` in memory; keys are not written and the
sentinel stays black. -/
theorem ngx_rbtree_insert_timer_spec {m : RbHeap} {tree : ngx_rbtree_t} {t : RbTree} {n : Nat}
    (w : Nat) (h : TreeInv m tree.sentinel tree.root t)
    (hins : tree.insert = ngx_rbtree_insert_timer_value w)
    (hroot : t.rootColor = Color.black) (hs : m.color tree.sentinel = Color.black)
    (hn : n ∉ t.ids) (hns : n ≠ tree.sentinel) (fuel : Nat) (hfuel : t.height + 1 ≤ fuel) :
    ∃ m' root', ngx_rbtree_insert fuel m tree n = some (m', { tree with root := root' }) ∧
      TreeInv m' tree.sentinel root' (insTreeT w t n (m.key n)) ∧ m'.key = m.key ∧
      m'.color tree.sentinel = Color.black := by
  obtain ⟨root, s, ins⟩ := tree
  simp only at h hins hs hns ⊢
  subst hins
  cases t with
  | nil =>
    have e : root = s := by simpa using h.root_eq
    subst e
    refine ⟨ngx_rbt_black (setRight (setLeft (setParent m n NULL) n root) n root) n, n,
      by simp [ngx_rbtree_insert], ⟨?_, rfl, by simp [insTreeT]⟩, rfl, ?_⟩
    · simp [insTreeT, ngx_rbt_black, hns]
    · simp [ngx_rbt_black, Function.update_apply, Ne.symm hns, hs]
  | node c l x kx r =>
    have e : root = x := by simpa using h.root_eq
    subst e
    have hxs : root ≠ s := (@TreeInv.look m s root [] _ _ _ _ _ h).1
    obtain ⟨m1, e1, hT1, hk1, ha1⟩ := insert_timer_value_spec w hns (node c l root kx r) [] m h
      (by simp) hn fuel (by simp only [RbTree.height] at hfuel ⊢; omega)
    have hlen := insPathT_length w (m.key n) (node c l root kx r) []
    simp only [List.length_nil, Nat.add_zero] at hlen
    have htop : insPathT w (m.key n) (node c l root kx r) [] ≠ [] →
        topColor (insPathT w (m.key n) (node c l root kx r) []) Color.black = Color.black := by
      intro _
      have := rootColor_plug (insPathT w (m.key n) (node c l root kx r) []) nil
      rw [plug_insPathT] at this
      simpa [hroot] using this.symm
    obtain ⟨m2, root2, e2, hT2, hk2, hs2⟩ := insert_fixup_spec _ _ rfl _ _ _ _ _ m1 root hT1 htop
      (by rw [ha1.2.2.2.2]; exact hs) fuel (by omega)
    refine ⟨ngx_rbt_black m2 root2, root2, ?_, ?_, ?_, ?_⟩
    · simp only [ptr_node] at e1
      simp [ngx_rbtree_insert, hxs, e1, e2]
    · simpa [insTreeT] using setBlack_spec hT2
    · simp [ngx_rbt_black, hk2, hk1]
    · simp [ngx_rbt_black, Function.update_apply, hs2]

/-! ## Order of the timer tree -/

theorem keySub_eq (w a b : Nat) (ha : a < 2 ^ w) (hb : b < 2 ^ w) :
    keySub w a b = if b ≤ a then a - b else a + 2 ^ w - b := by
  unfold keySub
  rw [Nat.mod_eq_of_lt ha, Nat.mod_eq_of_lt hb]
  split
  · rw [mod_wrap _ _ (by omega) (by omega)]
    omega
  · rw [Nat.mod_eq_of_lt (by omega)]

theorem timerOff_eq (w base k : Nat) (hk : k < 2 ^ w) :
    timerOff w base k =
      if base % 2 ^ w ≤ k then k - base % 2 ^ w else k + 2 ^ w - base % 2 ^ w := by
  have hb : base % 2 ^ w < 2 ^ w := Nat.mod_lt _ (Nat.two_pow_pos _)
  have := keySub_eq w k (base % 2 ^ w) hk hb
  unfold timerOff
  unfold keySub at this ⊢
  rw [Nat.mod_mod] at this
  exact this

/-- A key `(base + d) mod 2 ^ w` with `d < 2 ^ (w - 1)` has offset `d`. -/
theorem timerKey_of (w base k d : Nat) (hw : 1 ≤ w) (hd : d < 2 ^ (w - 1))
    (hk : k = (base + d) % 2 ^ w) : TimerKey w base k ∧ timerOff w base k = d := by
  have hN := two_pow_half w hw
  have hb : base % 2 ^ w < 2 ^ w := Nat.mod_lt _ (Nat.two_pow_pos _)
  have hk' : k = (base % 2 ^ w + d) % 2 ^ w := by
    rw [hk, Nat.add_mod, Nat.mod_eq_of_lt (by omega : d < 2 ^ w)]
  have hklt : k < 2 ^ w := by rw [hk]; exact Nat.mod_lt _ (Nat.two_pow_pos _)
  have hoff : timerOff w base k = d := by
    rw [timerOff_eq w base k hklt]
    by_cases h1 : base % 2 ^ w + d < 2 ^ w
    · rw [Nat.mod_eq_of_lt h1] at hk'
      rw [if_pos (by omega)]
      omega
    · rw [mod_wrap _ _ (by omega) (by omega)] at hk'
      rw [if_neg (by omega)]
      omega
  exact ⟨⟨hklt, by rw [hoff]; exact hd⟩, hoff⟩

/-- On keys whose offsets from `base` are below `2 ^ (w - 1)`, the timer test is the
comparison of the offsets. -/
theorem timerLess_off (w base a b : Nat) (hw : 1 ≤ w) (ha : TimerKey w base a)
    (hb : TimerKey w base b) :
    timerLess w a b = true ↔ timerOff w base a < timerOff w base b := by
  have hN := two_pow_half w hw
  obtain ⟨ha1, ha2⟩ := ha
  obtain ⟨hb1, hb2⟩ := hb
  have hbase : base % 2 ^ w < 2 ^ w := Nat.mod_lt _ (Nat.two_pow_pos _)
  rw [timerLess_iff w a b hw ha1 hb1]
  rw [timerOff_eq w base a ha1] at ha2 ⊢
  rw [timerOff_eq w base b hb1] at hb2 ⊢
  have hx : (a + 2 ^ w - b) % 2 ^ w = if b ≤ a then a - b else a + 2 ^ w - b := by
    split
    · rw [mod_wrap _ _ (by omega) (by omega)]
      omega
    · rw [Nat.mod_eq_of_lt (by omega)]
  rw [hx]
  generalize base % 2 ^ w = c at *
  split at ha2 <;> split at hb2 <;> split <;> constructor <;> intro h <;> omega

theorem pathOKT_insPathT (w base k : Nat) (hw : 1 ≤ w) (hk : TimerKey w base k) (t : RbTree)
    (ht : ∀ x ∈ t.keys, TimerKey w base x) (fs : List RbFrame)
    (h : PathOKT (timerOff w base) k fs) :
    PathOKT (timerOff w base) k (insPathT w k t fs) := by
  induction t generalizing fs with
  | nil => exact h
  | node c l x kx r ihl ihr =>
    have hkx : TimerKey w base kx := ht kx (by simp)
    have hiff := timerLess_off w base k kx hw hk hkx
    unfold insPathT
    split
    · rename_i hc
      exact ihl (fun y hy => ht y (by simp [hy])) _ ⟨hiff.1 hc, h⟩
    · rename_i hc
      refine ihr (fun y hy => ht y (by simp [hy])) _ ⟨?_, h⟩
      by_contra hlt
      exact hc (hiff.2 (by omega))

theorem ctxLK_leT (f : Nat → Nat) (k : Nat) (fs : List RbFrame) (h : PathOKT f k fs)
    (hs : ((ctxLK fs ++ ctxRK fs).map f).Pairwise (· ≤ ·)) : ∀ a ∈ ctxLK fs, f a ≤ f k := by
  induction fs with
  | nil => simp [ctxLK]
  | cons fr fs ih =>
    cases fr with
    | L c x kx r =>
      simp only [ctxLK, ctxRK] at hs ⊢
      refine ih h.2 ?_
      refine hs.sublist (List.Sublist.map f ?_)
      exact List.Sublist.append_left (List.sublist_append_right _ _) _
    | R c l x kx =>
      simp only [ctxLK, ctxRK] at hs ⊢
      intro a ha
      have hkx : f kx ≤ f k := h.1
      have h1 : ((ctxLK fs ++ (l.keys ++ [kx])).map f).Pairwise (· ≤ ·) :=
        hs.sublist (List.Sublist.map f (List.sublist_append_left _ _))
      rw [← List.append_assoc] at h1 ha
      rcases List.mem_append.1 ha with ha' | ha'
      · rw [List.map_append] at h1
        have := (List.pairwise_append.1 h1).2.2 (f a) (List.mem_map_of_mem f ha') (f kx)
          (by simp)
        omega
      · have : a = kx := by simpa using ha'
        rw [this]
        exact hkx

theorem ctxRK_gtT (f : Nat → Nat) (k : Nat) (fs : List RbFrame) (h : PathOKT f k fs)
    (hs : ((ctxLK fs ++ ctxRK fs).map f).Pairwise (· ≤ ·)) : ∀ b ∈ ctxRK fs, f k < f b := by
  induction fs with
  | nil => simp [ctxRK]
  | cons fr fs ih =>
    cases fr with
    | R c l x kx =>
      simp only [ctxLK, ctxRK] at hs ⊢
      refine ih h.2 ?_
      refine hs.sublist (List.Sublist.map f ?_)
      exact List.Sublist.append_right (List.sublist_append_left _ _) _
    | L c x kx r =>
      simp only [ctxLK, ctxRK] at hs ⊢
      intro b hb
      have hkx : f k < f kx := h.1
      have h1 : (((kx :: r.keys) ++ ctxRK fs).map f).Pairwise (· ≤ ·) :=
        hs.sublist (List.Sublist.map f (List.sublist_append_right _ _))
      rw [List.cons_append] at h1 hb
      rcases List.mem_cons.1 hb with hb' | hb'
      · rw [hb']; exact hkx
      · rw [List.map_cons] at h1
        have := (List.pairwise_cons.1 h1).1 (f b) (List.mem_map_of_mem f hb')
        omega

/-- Inserting with the timer strategy into a tree whose in-order offsets are sorted leaves
them sorted. -/
theorem insTreeT_sorted (w base : Nat) (hw : 1 ≤ w) (t : RbTree) (n k : Nat)
    (hk : TimerKey w base k) (ht : ∀ x ∈ t.keys, TimerKey w base x)
    (h : (t.keys.map (timerOff w base)).Pairwise (· ≤ ·)) :
    ((insTreeT w t n k).keys.map (timerOff w base)).Pairwise (· ≤ ·) := by
  rw [insTreeT_keys]
  rw [keys_insPathT w k t] at h
  have hp := pathOKT_insPathT w base k hw hk t ht [] trivial
  have h1 := ctxLK_leT _ k _ hp h
  have h2 := ctxRK_gtT _ k _ hp h
  rw [List.map_append, List.pairwise_append] at h ⊢
  refine ⟨h.1, ?_, ?_⟩
  · rw [List.map_cons, List.pairwise_cons]
    refine ⟨fun b hb => ?_, h.2.1⟩
    obtain ⟨b', hb', rfl⟩ := List.mem_map.1 hb
    exact le_of_lt (h2 b' hb')
  · intro a ha b hb
    rw [List.map_cons] at hb
    rcases List.mem_cons.1 hb with rfl | hb'
    · obtain ⟨a', ha', rfl⟩ := List.mem_map.1 ha
      exact h1 a' ha'
    · exact h.2.2 a ha b hb'

theorem insTreeT_ids_perm (w : Nat) (t : RbTree) (n k : Nat) :
    (insTreeT w t n k).ids.Perm (n :: t.ids) := by
  rw [insTreeT_ids, ids_insPathT w k t]
  exact List.perm_middle

theorem insTreeT_keys_perm (w : Nat) (t : RbTree) (n k : Nat) :
    (insTreeT w t n k).keys.Perm (k :: t.keys) := by
  rw [insTreeT_keys, keys_insPathT w k t]
  exact List.perm_middle

theorem timerKey_inv (w base k : Nat) (hw : 1 ≤ w) (h : TimerKey w base k) :
    k = (base + timerOff w base k) % 2 ^ w := by
  obtain ⟨h1, h2⟩ := h
  have hN := two_pow_half w hw
  have hb : base % 2 ^ w < 2 ^ w := Nat.mod_lt _ (Nat.two_pow_pos _)
  rw [timerOff_eq w base k h1] at h2 ⊢
  rw [Nat.add_mod]
  generalize base % 2 ^ w = c at *
  split at h2
  · rw [if_pos (by assumption), Nat.mod_eq_of_lt (by omega : k - c < 2 ^ w),
      Nat.mod_eq_of_lt (by omega)]
    omega
  · rw [if_neg (by assumption), Nat.mod_eq_of_lt (by omega : k + 2 ^ w - c < 2 ^ w),
      mod_wrap _ _ (by omega) (by omega)]
    omega

/-- A timer tree built by insertions and deletions is stored in memory, satisfies the
red-black invariants, holds keys with offsets below `2 ^ (w - 1)`, and its in-order offsets
are non-decreasing. -/
theorem BuiltT.timer_inv {w base s : Nat} {m : RbHeap} {tree : ngx_rbtree_t} {ns : List Nat}
    (hw : 1 ≤ w) (hb : BuiltT w base s m tree ns) :
    tree.sentinel = s ∧ tree.insert = ngx_rbtree_insert_timer_value w ∧
    m.color s = Color.black ∧
    ∃ t, TreeInv m s tree.root t ∧ RBInv t ∧
      (t.keys.map (timerOff w base)).Pairwise (· ≤ ·) ∧ t.ids.Perm ns ∧
      ∀ k ∈ t.keys, TimerKey w base k := by
  induction hb with
  | init m =>
    refine ⟨rfl, rfl, by simp [ngx_rbtree_init, ngx_rbt_black], nil, ⟨trivial, rfl, by simp⟩,
      by simp [RBInv], by simp, by simp, by simp⟩
  | @insert m tree ns m1 n fuel m' tree' _ hn hns hag hkey hfuel e ih =>
    obtain ⟨h1, h2, h3, t, hT, hrb, hso, hp, hk⟩ := ih
    subst h1
    obtain ⟨d, hd, hkd⟩ := hkey
    have hkn := (timerKey_of w base (m1.key n) d hw hd hkd).1
    have hnt : n ∉ t.ids := fun hc => hn (hp.mem_iff.1 hc)
    have hT1 : TreeInv m1 tree.sentinel tree.root t :=
      ⟨RepT_congr (fun y hy => hag y (fun e => hnt (e ▸ hy))) hT.rep, hT.root_eq, hT.nodup⟩
    have hs1 : m1.color tree.sentinel = Color.black := by
      rw [(hag tree.sentinel (Ne.symm hns)).2.2.2.2]; exact h3
    obtain ⟨m2, root2, e2, hT2, -, hs2⟩ := ngx_rbtree_insert_timer_spec w hT1 h2 hrb.1 hs1 hnt hns
      fuel (by have := t.height_le_length; have := hp.length_eq; omega)
    rw [e] at e2
    simp only [Option.some.injEq, Prod.mk.injEq] at e2
    obtain ⟨rfl, rfl⟩ := e2
    refine ⟨rfl, h2, hs2, _, hT2, insTreeT_rb w _ _ _ hrb, insTreeT_sorted w base hw _ _ _ hkn hk hso,
      (insTreeT_ids_perm w _ _ _).trans (List.Perm.cons _ hp), fun k hk' => ?_⟩
    have := (insTreeT_keys_perm w t n (m1.key n)).mem_iff.1 hk'
    rcases List.mem_cons.1 this with rfl | h5
    · exact hkn
    · exact hk k h5
  | @delete m tree ns n fuel m' tree' _ hn hfuel e ih =>
    obtain ⟨h1, h2, h3, t, hT, hrb, hso, hp, hk⟩ := ih
    subst h1
    have hnt : n ∈ t.ids := hp.mem_iff.2 hn
    obtain ⟨fs, c, l, k, r, rfl⟩ := exists_plug_of_mem hnt
    obtain ⟨m2, root2, e2, hT2, -, hs2⟩ := ngx_rbtree_delete_spec hT h3 hrb.2.2 fuel
      (by have := (plug fs (node c l n k r)).height_le_length; have := hp.length_eq; omega)
    rw [e] at e2
    simp only [Option.some.injEq, Prod.mk.injEq] at e2
    obtain ⟨rfl, rfl⟩ := e2
    have hsub : (delAt fs c l k r).keys.Sublist (plug fs (node c l n k r)).keys := by
      rw [keys_plug, delAt_keys]
      simp only [keys_node, List.append_assoc]
      exact List.Sublist.append_left (List.Sublist.append_left
        (List.Sublist.append_right (List.sublist_cons_self _ _) _) _) _
    refine ⟨rfl, h2, hs2, _, hT2, delAt_rb _ _ _ n _ _ hrb, hso.sublist (hsub.map _), ?_,
      fun k' hk' => hk k' (hsub.subset hk')⟩
    have hnd := hT.nodup
    rw [ids_plug] at hnd hp
    rw [delAt_ids]
    have hB : [ctxL fs, l.ids, [n], r.ids, ctxR fs].flatten.Nodup := by simpa using hnd
    have h4 : n ∉ ctxL fs ++ l.ids := by
      simp only [List.mem_append, not_or]
      exact ⟨fun hc => blocks_ne hB 2 0 (by decide) (by simp) hc rfl,
        fun hc => blocks_ne hB 2 1 (by decide) (by simp) hc rfl⟩
    have h5 := hp.erase n
    have h6 : (ctxL fs ++ (node c l n k r).ids ++ ctxR fs).erase n =
        ctxL fs ++ (l.ids ++ r.ids) ++ ctxR fs := by
      have : ctxL fs ++ (node c l n k r).ids ++ ctxR fs =
          (ctxL fs ++ l.ids) ++ n :: (r.ids ++ ctxR fs) := by simp
      rw [this, List.erase_append_right _ h4]
      simp
    rw [h6] at h5
    exact h5

/-- C18: for keys of `w ≥ 1` bits and any `base`, on a tree built from `ngx_rbtree_init`
with the strategy `ngx_rbtree_insert_timer_value` by calls of `ngx_rbtree_insert` and
`ngx_rbtree_delete`, where every inserted key is `(base + d) mod 2^w` with `d < 2^(w-1)`:
the in-order walk (from `ngx_rbtree_min` along `ngx_rbtree_next`) returns the nodes of the
tree in non-decreasing order of their offsets `d`, and `ngx_rbtree_min` returns a node of
the smallest offset. -/
theorem ngx_rbtree_timer_order (w base s : Nat) (m : RbHeap) (tree : ngx_rbtree_t)
    (ns : List Nat) (fuel : Nat) (hw : 1 ≤ w) (hb : BuiltT w base s m tree ns)
    (hfuel : ns.length + 1 ≤ fuel) :
    (∀ x ∈ ns, timerOff w base (m.key x) < 2 ^ (w - 1) ∧
      m.key x = (base + timerOff w base (m.key x)) % 2 ^ w) ∧
    (∃ ids, inorderWalk fuel m tree = some ids ∧ ids.Perm ns ∧
      (ids.map (fun x => timerOff w base (m.key x))).Pairwise (· ≤ ·)) ∧
    (ns ≠ [] → ∃ p, ngx_rbtree_min fuel m tree.root tree.sentinel = some p ∧ p ∈ ns ∧
      ∀ q ∈ ns, timerOff w base (m.key p) ≤ timerOff w base (m.key q)) := by
  obtain ⟨h1, -, -, t, hT, -, hso, hp, hk⟩ := hb.timer_inv hw
  subst h1
  have hkeys := hT.rep.keys_eq
  have hkx : ∀ x ∈ ns, TimerKey w base (m.key x) := by
    intro x hx
    apply hk
    rw [hkeys]
    exact List.mem_map_of_mem _ (hp.mem_iff.2 hx)
  have hso' : (t.ids.map (fun x => timerOff w base (m.key x))).Pairwise (· ≤ ·) := by
    rw [hkeys, List.map_map] at hso
    exact hso
  refine ⟨fun x hx => ⟨(hkx x hx).2, timerKey_inv w base _ hw (hkx x hx)⟩,
    ⟨t.ids, inorderWalk_spec hT fuel (by have := hp.length_eq; omega), hp, hso'⟩, fun hne => ?_⟩
  have htn : t ≠ nil := by
    rintro rfl
    exact hne (List.Perm.nil_eq (by simpa using hp)).symm
  obtain ⟨c2, y, ky, r2, hmin⟩ := minNode_shape t htn
  have hm := ngx_rbtree_min_spec t [] m hT htn fuel
    (by have := t.height_le_length; have := hp.length_eq; omega)
  rw [← hT.root_eq, hmin] at hm
  have hsplit := (ids_min_split hmin).1
  have hyt : y ∈ t.ids := by
    rw [hsplit]
    simp
  refine ⟨y, hm, hp.mem_iff.1 hyt, fun q hq => ?_⟩
  have hq' := hp.mem_iff.2 hq
  rw [hsplit] at hso' hq'
  rw [List.map_cons, List.pairwise_cons] at hso'
  rcases List.mem_cons.1 hq' with rfl | hq''
  · exact le_refl _
  · exact hso'.1 _ (List.mem_map_of_mem _ hq'')

theorem wT2_built : BuiltT 4 14 1 wT2.1 wT2.2 [3, 2] :=
  BuiltT.insert wT1.1 3 2 wT2.1 wT2.2
    (BuiltT.insert wT0.1 2 1 wT1.1 wT1.2 (BuiltT.init wTimer) (by simp) (by decide)
      (fun _ _ => ⟨rfl, rfl, rfl, rfl, rfl⟩) ⟨1, by decide, by decide⟩ (by decide) rfl)
    (by simp) (by decide) (fun _ _ => ⟨rfl, rfl, rfl, rfl, rfl⟩) ⟨2, by decide, by decide⟩
    (by decide) rfl

theorem ngx_rbtree_timer_order_witness :
    (∀ x ∈ [3, 2], timerOff 4 14 (wT2.1.key x) < 2 ^ (4 - 1) ∧
      wT2.1.key x = (14 + timerOff 4 14 (wT2.1.key x)) % 2 ^ 4) ∧
    (∃ ids, inorderWalk 3 wT2.1 wT2.2 = some ids ∧ ids.Perm [3, 2] ∧
      (ids.map (fun x => timerOff 4 14 (wT2.1.key x))).Pairwise (· ≤ ·)) ∧
    ([3, 2] ≠ [] → ∃ p, ngx_rbtree_min 3 wT2.1 wT2.2.root wT2.2.sentinel = some p ∧
      p ∈ [3, 2] ∧ ∀ q ∈ [3, 2], timerOff 4 14 (wT2.1.key p) ≤ timerOff 4 14 (wT2.1.key q)) :=
  ngx_rbtree_timer_order 4 14 1 wT2.1 wT2.2 [3, 2] 3 (by decide) wT2_built (by decide)

theorem keyToInt_bounds (w x : Nat) (hw : 1 ≤ w) :
    -(2 ^ (w - 1) : Int) ≤ keyToInt w x ∧ keyToInt w x < (2 ^ (w - 1) : Int) := by
  have hN := two_pow_half w hw
  have hlt : x % 2 ^ w < 2 ^ w := Nat.mod_lt _ (Nat.two_pow_pos _)
  have c1 : ((2 ^ w : Nat) : Int) = (2 : Int) ^ w := by push_cast; rfl
  have c2 : ((2 ^ (w - 1) : Nat) : Int) = (2 : Int) ^ (w - 1) := by push_cast; rfl
  unfold keyToInt
  rw [← c1, ← c2]
  generalize x % 2 ^ w = y at hlt ⊢
  split <;> constructor <;> omega

/-- C19: for a millisecond counter of `w ≥ 1` bits and a timer tree stored in memory,
`ngx_event_find_timer` returns; the result is `NGX_TIMER_INFINITE` if and only if the tree
is empty; and when the tree is not empty, with `k` the key of its leftmost (in-order
first) node, the result is `k - ngx_current_msec` read as a signed integer of `w` bits
when that is positive, and 0 otherwise. -/
theorem ngx_event_find_timer_spec (w fuel : Nat) (m : RbHeap) (tree : ngx_rbtree_t)
    (t : RbTree) (now : Nat) (hw : 1 ≤ w) (h : TreeInv m tree.sentinel tree.root t)
    (hfuel : t.height + 1 ≤ fuel) :
    ∃ r, ngx_event_find_timer w fuel m tree tree.sentinel now = some r ∧
      (r = NGX_TIMER_INFINITE w ↔ t = nil) ∧
      ∀ k rest, t.keys = k :: rest →
        (0 < keyToInt w (keySub w k now) → (r : Int) = keyToInt w (keySub w k now)) ∧
        (keyToInt w (keySub w k now) ≤ 0 → r = 0) := by
  have hN := two_pow_half w hw
  have hpos : 0 < 2 ^ (w - 1) := Nat.two_pow_pos _
  unfold ngx_event_find_timer
  by_cases ht : t = nil
  · subst ht
    have e : tree.root = tree.sentinel := by simpa using h.root_eq
    rw [if_pos e]
    exact ⟨_, rfl, ⟨fun _ => rfl, fun _ => rfl⟩, fun k rest hk => by simp at hk⟩
  · have hr : tree.root ≠ tree.sentinel := by
      rw [h.root_eq]
      exact fun e => ht (h.rep.ptr_eq_sentinel.1 e)
    rw [if_neg hr]
    obtain ⟨c2, y, ky, r2, hmin⟩ := minNode_shape t ht
    have hm := ngx_rbtree_min_spec t [] m h ht fuel (by omega)
    rw [← h.root_eq, hmin] at hm
    simp only [ptr_node] at hm
    rw [hm]
    have e0 : t = plug (minFrames t) (node c2 nil y ky r2) := by rw [← hmin, plug_minFrames]
    have hT' := h
    rw [e0] at hT'
    have hky : m.key y = ky := hT'.look.2.2.1
    have hkeys := (ids_min_split hmin).2
    simp only
    rw [hky]
    obtain ⟨b1, b2⟩ := keyToInt_bounds w (keySub w ky now) hw
    have c1 : ((2 ^ w : Nat) : Int) = (2 : Int) ^ w := by push_cast; rfl
    have c2 : ((2 ^ (w - 1) : Nat) : Int) = (2 : Int) ^ (w - 1) := by push_cast; rfl
    rw [← c2] at b1 b2
    have hmod : ∀ z : Int, z < ((2 ^ (w - 1) : Nat) : Int) →
        (if z > 0 then z else 0).toNat % 2 ^ w = (if z > 0 then z else 0).toNat ∧
        (if z > 0 then z else 0).toNat < 2 ^ (w - 1) := by
      intro z hz
      have : (if z > 0 then z else 0).toNat < 2 ^ (w - 1) := by
        split <;> omega
      exact ⟨Nat.mod_eq_of_lt (by omega), this⟩
    refine ⟨_, rfl, ⟨fun e => ?_, fun e => absurd e ht⟩, fun k rest hk => ?_⟩
    · exfalso
      rw [(hmod _ b2).1] at e
      have := (hmod _ b2).2
      unfold NGX_TIMER_INFINITE at e
      omega
    · rw [hkeys] at hk
      simp only [List.cons.injEq] at hk
      obtain ⟨rfl, -⟩ := hk
      rw [(hmod _ b2).1]
      constructor
      · intro hz
        rw [if_pos hz]
        omega
      · intro hz
        rw [if_neg (by omega)]
        rfl

theorem ngx_event_find_timer_spec_witness :
    ∃ r, ngx_event_find_timer 4 3 w3Heap wTree wTree.sentinel 1 = some r ∧
      (r = NGX_TIMER_INFINITE 4 ↔ w3 = nil) ∧
      ∀ k rest, w3.keys = k :: rest →
        (0 < keyToInt 4 (keySub 4 k 1) → (r : Int) = keyToInt 4 (keySub 4 k 1)) ∧
        (keyToInt 4 (keySub 4 k 1) ≤ 0 → r = 0) :=
  ngx_event_find_timer_spec 4 3 w3Heap wTree w3 1 (by decide) w3_inv (by decide)

end RbFactsxx

theorem scan_false (type index : Nat) (ms : List ngx_module_t)
    (h : index ∉ ctxOf type ms) : ngx_module_ctx_index_scan type index ms = false := by
  induction ms with
  | nil => rfl
  | cons md ms ih =>
    unfold ngx_module_ctx_index_scan
    unfold ctxOf at h ih
    by_cases ht : md.type = type
    · rw [if_neg (not_not.2 ht)]
      simp only [List.filter_cons, ht, decide_True, if_true, List.map_cons, List.mem_cons,
        not_or] at h
      rw [if_neg (fun e => h.1 e.symm)]
      exact ih h.2
    · rw [if_pos ht]
      simp only [List.filter_cons, ht, decide_False] at h
      exact ih h

theorem ctxOf_append (type : Nat) (a b : List ngx_module_t) :
    ctxOf type (a ++ b) = ctxOf type a ++ ctxOf type b := by
  simp [ctxOf]

theorem otherOf_append (type : Nat) (a b : List ngx_module_t) :
    otherOf type (a ++ b) = otherOf type a ++ otherOf type b := by
  simp [otherOf]

theorem countType_eq (type : Nat) (ms : List ngx_module_t) :
    countType type ms = (ctxOf type ms).length := by
  simp [countType, ctxOf]

/-- The first loop of `ngx_count_modules` without an old cycle, when the modules seen hold
the indices `0 .. j - 1` and those to come hold none: the modules of the type get the
indices in order. -/
theorem count_loop_spec (fuel type : Nat) (hfuel : 1 ≤ fuel) :
    ∀ (todo seen : List ngx_module_t),
      ctxOf type seen = List.range (countType type seen) →
      (∀ x ∈ ctxOf type todo, x = NGX_MODULE_UNSET_INDEX) →
      countType type seen + countType type todo < 2 ^ 63 →
      ∃ ms, ngx_count_modules_loop fuel none type seen todo (countType type seen)
          (countType type seen - 1) =
          some (ms, countType type (seen ++ todo), countType type (seen ++ todo) - 1) ∧
        ctxOf type ms = List.range (countType type (seen ++ todo)) ∧
        otherOf type ms = otherOf type (seen ++ todo) ∧ ms.length = (seen ++ todo).length := by
  intro todo
  induction todo with
  | nil =>
    intro seen h1 _ _
    refine ⟨seen, ?_, ?_, ?_, ?_⟩ <;> simp [ngx_count_modules_loop, h1]
  | cons md todo ih =>
    intro seen h1 h2 h3
    rw [ngx_count_modules_loop]
    by_cases ht : md.type = type
    · rw [if_neg (not_not.2 ht)]
      have hu : md.ctx_index = NGX_MODULE_UNSET_INDEX := by
        apply h2
        simp [ctxOf, ht]
      rw [if_neg (not_not.2 hu)]
      have hc : countType type (md :: todo) = countType type todo + 1 := by
        simp [countType, ht]
      rw [hc] at h3
      have hscan : ngx_module_ctx_index_scan type (countType type seen) (seen ++ md :: todo) =
          false := by
        apply scan_false
        rw [ctxOf_append, List.mem_append, h1, List.mem_range]
        rintro (hlt | hm)
        · omega
        · have := h2 _ hm
          unfold NGX_MODULE_UNSET_INDEX at this
          omega
      have hidx : ngx_module_ctx_index fuel (seen ++ md :: todo) none type (countType type seen) =
          some (countType type seen) := by
        obtain ⟨f, rfl⟩ : ∃ f, fuel = f + 1 := ⟨fuel - 1, by omega⟩
        rw [ngx_module_ctx_index, hscan]
        simp
      rw [hidx]
      simp only
      have hc1 : countType type (seen ++ [{ md with ctx_index := countType type seen }]) =
          countType type seen + 1 := by
        simp [countType, ht]
      have hx := ih (seen ++ [{ md with ctx_index := countType type seen }])
        (by
          rw [hc1, ctxOf_append, h1, List.range_succ]
          simp [ctxOf, ht])
        (fun x hx => h2 x (by
          unfold ctxOf at hx ⊢
          simp only [List.filter_cons, ht, decide_True, if_true, List.map_cons, List.mem_cons]
          exact Or.inr hx))
        (by rw [hc1]; omega)
      rw [hc1] at hx
      obtain ⟨ms, e, a1, a2, a3⟩ := hx
      have e1 : (countType type seen + 1) % 2 ^ 64 = countType type seen + 1 :=
        Nat.mod_eq_of_lt (by omega)
      have e2 : (if countType type seen > countType type seen - 1 then countType type seen
          else countType type seen - 1) = countType type seen + 1 - 1 := by
        split <;> omega
      rw [e1, e2]
      have hcc : countType type (seen ++ [{ md with ctx_index := countType type seen }] ++ todo) =
          countType type (seen ++ md :: todo) := by
        simp [countType, ht]
      rw [hcc] at e a1
      refine ⟨ms, e, a1, ?_, ?_⟩
      · rw [a2]
        simp [otherOf, ht]
      · rw [a3]
        simp
    · rw [if_pos ht]
      have hc1 : countType type (seen ++ [md]) = countType type seen := by
        simp [countType, ht]
      have hx := ih (seen ++ [md])
        (by
          rw [hc1, ctxOf_append, h1]
          simp [ctxOf, ht])
        (fun x hx => h2 x (by
          unfold ctxOf at hx ⊢
          simp only [List.filter_cons, ht, decide_False]
          exact hx))
        (by
          rw [hc1]
          have : countType type (md :: todo) = countType type todo := by
            simp [countType, ht]
          omega)
      rw [hc1] at hx
      obtain ⟨ms, e, a1, a2, a3⟩ := hx
      have hcc : seen ++ [md] ++ todo = seen ++ md :: todo := by simp
      rw [hcc] at e a1 a2 a3
      exact ⟨ms, e, a1, a2, a3⟩

/-- C27, counterexample: `ngx_count_modules` returns 1 for a cycle without modules (there
are 0 modules of the type); 6 for a cycle whose only module of the type has `ctx_index` 5
already (1 module); and 10 for a cycle with one module of the type when a module of the
old cycle holds `ctx_index` 9. -/
theorem ngx_count_modules_counterexample :
    (ngx_count_modules 1 ⟨[], none, 0⟩ 7).map Prod.fst = some 1 ∧ countType 7 [] = 0 ∧
    (ngx_count_modules 1 ⟨[⟨7, 5⟩], none, 0⟩ 7).map Prod.fst = some 6 ∧
    countType 7 [⟨7, 5⟩] = 1 ∧
    (ngx_count_modules 1 ⟨[⟨7, NGX_MODULE_UNSET_INDEX⟩], some [⟨7, 9⟩], 0⟩ 7).map Prod.fst =
      some 10 ∧
    countType 7 [⟨7, NGX_MODULE_UNSET_INDEX⟩] = 1 := by
  refine ⟨by decide, by decide, by decide, by decide, by decide, by decide⟩

/-- C27, amended: for every cycle without an old cycle in which no module of the given
type has a `ctx_index` yet, `ngx_count_modules(cycle, type)` returns the number of modules
of the given type in `cycle->modules` when there is at least one, and 1 when there is
none; the modules of the type get the indices 0, 1, 2, … in order, the other modules are
untouched and `modules_used` is set. -/
theorem ngx_count_modules_fresh (fuel : Nat) (cycle : ngx_cycle_t) (type : Nat)
    (hfuel : 1 ≤ fuel) (hold : cycle.old_cycle = none)
    (hunset : ∀ md ∈ cycle.modules, md.type = type → md.ctx_index = NGX_MODULE_UNSET_INDEX)
    (hn : countType type cycle.modules < 2 ^ 63) :
    ∃ c', ngx_count_modules fuel cycle type =
        some ((if countType type cycle.modules = 0 then 1
          else (countType type cycle.modules : Int)), c') ∧
      c'.modules_used = 1 ∧
      ctxOf type c'.modules = List.range (countType type cycle.modules) ∧
      otherOf type c'.modules = otherOf type cycle.modules ∧
      c'.modules.length = cycle.modules.length := by
  obtain ⟨ms, e, a1, a2, a3⟩ := count_loop_spec fuel type hfuel cycle.modules []
    (by simp [ctxOf, countType])
    (by
      intro x hx
      unfold ctxOf at hx
      obtain ⟨md, hmd, rfl⟩ := List.mem_map.1 hx
      have := List.mem_filter.1 hmd
      exact hunset md this.1 (by simpa using this.2))
    (by simpa [countType] using hn)
  have e0 : countType type ([] : List ngx_module_t) = 0 := rfl
  rw [e0] at e
  simp only [List.nil_append, Nat.zero_sub] at e a1 a2 a3
  unfold ngx_count_modules
  rw [hold, e]
  simp only
  refine ⟨⟨ms, none, 1⟩, ?_, rfl, a1, a2, a3⟩
  congr 2
  generalize countType type cycle.modules = n at hn
  unfold keyToInt
  have h1 : (n - 1 + 1) % 2 ^ 64 % 2 ^ 64 = n - 1 + 1 := by
    rw [Nat.mod_mod]
    exact Nat.mod_eq_of_lt (by omega)
  rw [h1, if_pos (by norm_num; omega)]
  split
  · rename_i h0
    rw [h0]
    rfl
  · congr 1
    omega

theorem ngx_count_modules_fresh_witness :
    ∃ c', ngx_count_modules 1
        ⟨[⟨7, NGX_MODULE_UNSET_INDEX⟩, ⟨3, 4⟩, ⟨7, NGX_MODULE_UNSET_INDEX⟩], none, 0⟩ 7 =
        some ((if countType 7 (ngx_cycle_t.mk
            [⟨7, NGX_MODULE_UNSET_INDEX⟩, ⟨3, 4⟩, ⟨7, NGX_MODULE_UNSET_INDEX⟩] none 0).modules = 0
          then 1
          else (countType 7 (ngx_cycle_t.mk
            [⟨7, NGX_MODULE_UNSET_INDEX⟩, ⟨3, 4⟩, ⟨7, NGX_MODULE_UNSET_INDEX⟩] none 0).modules
              : Int)), c') ∧
      c'.modules_used = 1 ∧
      ctxOf 7 c'.modules = List.range (countType 7 (ngx_cycle_t.mk
        [⟨7, NGX_MODULE_UNSET_INDEX⟩, ⟨3, 4⟩, ⟨7, NGX_MODULE_UNSET_INDEX⟩] none 0).modules) ∧
      otherOf 7 c'.modules = otherOf 7 (ngx_cycle_t.mk
        [⟨7, NGX_MODULE_UNSET_INDEX⟩, ⟨3, 4⟩, ⟨7, NGX_MODULE_UNSET_INDEX⟩] none 0).modules ∧
      c'.modules.length = (ngx_cycle_t.mk
        [⟨7, NGX_MODULE_UNSET_INDEX⟩, ⟨3, 4⟩, ⟨7, NGX_MODULE_UNSET_INDEX⟩] none 0).modules.length :=
  ngx_count_modules_fresh 1
    ⟨[⟨7, NGX_MODULE_UNSET_INDEX⟩, ⟨3, 4⟩, ⟨7, NGX_MODULE_UNSET_INDEX⟩], none, 0⟩ 7 (by decide)
    rfl (by decide) (by decide)

/-- C26: for an array with `nelts ≤ nalloc` whose doubled capacity and doubled block size
fit in 64 bits, a successful `ngx_array_push` returns the address of the slot at index old
`nelts` of the array it leaves, increases `nelts` by one, keeps `size`, and the elements
`0 .. old nelts - 1` hold the bytes they held before.  When the array was not full
nothing else changes.  When it was full and its block ends at `pool->d.last` with room for
one more element before `pool->d.end`, `nalloc` grows by one in place and `d.last` moves up
by `size`, without a call of `ngx_palloc`.  Otherwise `ngx_palloc` is called for twice the
block size, the old block is copied to the new one, `elts` points to it and `nalloc`
doubles. -/
theorem ngx_array_push_spec (mem : Nat → Nat) (a : ngx_array_t) (p : ngx_pool_s)
    (r : Nat × (Nat → Nat) × ngx_array_t × ngx_pool_s) (hle : a.nelts ≤ a.nalloc)
    (hcap : 2 * a.nalloc < 2 ^ 64) (hblock : 2 * (a.size * a.nalloc) < 2 ^ 64)
    (hr : ngx_array_push mem a p = some r) :
    r.1 = r.2.2.1.elts + a.size * a.nelts ∧ r.2.2.1.nelts = a.nelts + 1 ∧
    r.2.2.1.size = a.size ∧
    (∀ i, i < a.nelts → ∀ j, j < a.size →
      r.2.1 (r.2.2.1.elts + a.size * i + j) = mem (a.elts + a.size * i + j)) ∧
    (a.nelts < a.nalloc →
      r.2.1 = mem ∧ r.2.2.1.elts = a.elts ∧ r.2.2.1.nalloc = a.nalloc ∧ r.2.2.2 = p) ∧
    (a.nelts = a.nalloc →
      a.elts + a.size * a.nalloc = p.d.last ∧ p.d.last + a.size ≤ p.d.end_ →
      r.2.1 = mem ∧ r.2.2.1.elts = a.elts ∧ r.2.2.1.nalloc = a.nalloc + 1 ∧
      r.2.2.2.d.last = p.d.last + a.size ∧ r.2.2.2.d.end_ = p.d.end_ ∧
      r.2.2.2.requested = p.requested ∧ r.2.2.2.pallocs = p.pallocs) ∧
    (a.nelts = a.nalloc →
      ¬ (a.elts + a.size * a.nalloc = p.d.last ∧ p.d.last + a.size ≤ p.d.end_) →
      r.2.2.1.nalloc = 2 * a.nalloc ∧
      r.2.2.2.requested = 2 * (a.size * a.nalloc) :: p.requested ∧
      r.2.2.2.d = p.d ∧ p.pallocs = r.2.2.1.elts :: r.2.2.2.pallocs ∧
      r.2.2.1.elts ≠ NULL ∧
      (∀ j, j < a.size * a.nalloc → r.2.1 (r.2.2.1.elts + j) = mem (a.elts + j)) ∧
      ∀ x, ¬ (r.2.2.1.elts ≤ x ∧ x < r.2.2.1.elts + a.size * a.nalloc) → r.2.1 x = mem x) := by
  have hs : (a.size * a.nalloc) % 2 ^ 64 = a.size * a.nalloc := Nat.mod_eq_of_lt (by omega)
  have hs2 : (2 * (a.size * a.nalloc)) % 2 ^ 64 = 2 * (a.size * a.nalloc) :=
    Nat.mod_eq_of_lt hblock
  have hn1 : (a.nelts + 1) % 2 ^ 64 = a.nelts + 1 := Nat.mod_eq_of_lt (by omega)
  have hmul : a.size * a.nelts ≤ a.size * a.nalloc := Nat.mul_le_mul_left _ hle
  have hsn : (a.size * a.nelts) % 2 ^ 64 = a.size * a.nelts := Nat.mod_eq_of_lt (by omega)
  unfold ngx_array_push at hr
  simp only [hs, hs2] at hr
  by_cases hfull : a.nelts = a.nalloc
  · rw [if_pos hfull] at hr
    by_cases hin : a.elts + a.size * a.nalloc = p.d.last ∧ p.d.last + a.size ≤ p.d.end_
    · rw [if_pos hin] at hr
      simp only [Option.some.injEq] at hr
      subst hr
      simp only [hsn, hn1]
      have hc1 : (a.nalloc + 1) % 2 ^ 64 = a.nalloc + 1 := Nat.mod_eq_of_lt (by omega)
      simp only [hc1]
      refine ⟨?_, ?_, ?_, ?_, fun h => absurd hfull (by omega), fun _ _ => ?_,
        fun _ h => absurd hin h⟩
      all_goals first | trivial | (intros; rfl) | simp
    · rw [if_neg hin] at hr
      cases hp : p.pallocs with
      | nil =>
        simp [ngx_palloc_size, hp] at hr
      | cons q qs =>
        simp only [ngx_palloc_size, hp] at hr
        by_cases hq : q = NULL
        · rw [if_pos hq] at hr
          exact absurd hr (by simp)
        · rw [if_neg hq] at hr
          simp only [Option.some.injEq] at hr
          subst hr
          simp only [hsn, hn1]
          have hcopy : ∀ j, j < a.size * a.nalloc →
              ngx_memcpy mem q a.elts (a.size * a.nalloc) (q + j) = mem (a.elts + j) := by
            intro j hj
            unfold ngx_memcpy
            rw [if_pos ⟨by omega, by omega⟩]
            congr 2
            omega
          have hc2 : (a.nalloc * 2) % 2 ^ 64 = 2 * a.nalloc := by
            rw [Nat.mul_comm]; exact Nat.mod_eq_of_lt hcap
          simp only [hc2]
          refine ⟨?_, ?_, ?_, fun i hi j hj => ?_, fun h => absurd hfull (by omega),
            fun _ h => absurd h hin, fun _ _ => ?_⟩
          · trivial
          · trivial
          · trivial
          · have hij : a.size * i + j < a.size * a.nalloc := by
              have h1 : a.size * (i + 1) ≤ a.size * a.nalloc :=
                Nat.mul_le_mul_left _ (by omega)
              rw [Nat.mul_succ] at h1
              omega
            have := hcopy (a.size * i + j) hij
            rw [← Nat.add_assoc, ← Nat.add_assoc] at this
            exact this
          · refine ⟨?_, ?_, ?_, ?_, hq, hcopy, fun x hx => ?_⟩
            · trivial
            · trivial
            · trivial
            · trivial
            · unfold ngx_memcpy
              rw [if_neg hx]
  · rw [if_neg hfull] at hr
    simp only [Option.some.injEq] at hr
    subst hr
    simp only [hsn, hn1]
    refine ⟨?_, ?_, ?_, ?_, fun _ => ?_, fun h => absurd h hfull, fun h => absurd h hfull⟩
    all_goals first | trivial | (intros; rfl) | simp

theorem ngx_array_push_spec_witness :
    ∃ r, ngx_array_push arrMem arrFull arrPool = some r ∧ r.1 = 208 ∧
      r.2.2.1.nelts = 3 ∧ r.2.2.1.nalloc = 4 ∧ r.2.2.1.elts = 200 ∧
      r.2.2.2.requested = [16] ∧ r.2.1 205 = arrMem 105 :=
  have h := ngx_array_push_spec arrMem arrFull arrPool
    (208, ngx_memcpy arrMem 200 100 8, ⟨200, 3, 4, 4⟩, ⟨⟨50, 60⟩, [], [16]⟩)
    (by decide) (by decide) (by decide) rfl
  ⟨_, rfl, h.1, h.2.1, (h.2.2.2.2.2.2 rfl (by decide)).1, rfl,
    (h.2.2.2.2.2.2 rfl (by decide)).2.1, h.2.2.2.1 1 (by decide) 1 (by decide)⟩

theorem qLast_append (p x : Nat) (A B : List Nat) : qLast p (A ++ x :: B) = qLast x B := by
  induction A generalizing p with
  | nil => rfl
  | cons a A ih => exact ih a

theorem qLast_mem (p : Nat) (A : List Nat) : qLast p A ∈ p :: A := by
  induction A generalizing p with
  | nil => simp [qLast]
  | cons a A ih =>
    have := ih a
    simp only [qLast]
    exact List.mem_cons_of_mem _ this

theorem qLast_mem_of_ne (p : Nat) (A : List Nat) (h : A ≠ []) : qLast p A ∈ A := by
  cases A with
  | nil => exact absurd rfl h
  | cons a A => exact qLast_mem a A

theorem qLast_eq_headD (p : Nat) (A : List Nat) : qLast p A = A.reverse.headD p := by
  induction A generalizing p with
  | nil => rfl
  | cons a A ih =>
    rw [qLast, ih a, List.reverse_cons]
    cases h : A.reverse with
    | nil => rfl
    | cons b B => rfl

theorem qLast_getD (p : Nat) (A : List Nat) : qLast p A = (p :: A).getD A.length 0 := by
  induction A generalizing p with
  | nil => rfl
  | cons a A ih =>
    rw [qLast, ih a]
    rfl

theorem links_head {m : QHeap} {p q : Nat} {l : List Nat} (h : Links m p l q) :
    m.next p = l.headD q := by
  cases l with
  | nil => exact h.1
  | cons x xs => exact h.1

theorem links_last {m : QHeap} {p q : Nat} {l : List Nat} (h : Links m p l q) :
    m.prev q = qLast p l := by
  induction l generalizing p with
  | nil => exact h.2
  | cons x xs ih => exact ih h.2.2

theorem links_init {m : QHeap} {p q : Nat} {A B : List Nat} (h : Links m p (A ++ B) q) :
    Links m p A (B.headD q) := by
  induction A generalizing p with
  | nil =>
    cases B with
    | nil => exact h
    | cons b B => exact ⟨h.1, h.2.1⟩
  | cons a A ih => exact ⟨h.1, h.2.1, ih h.2.2⟩

theorem links_tail {m : QHeap} {p q : Nat} {A B : List Nat} (h : Links m p (A ++ B) q) :
    Links m (qLast p A) B q := by
  induction A generalizing p with
  | nil => exact h
  | cons a A ih => exact ih h.2.2

theorem links_join {m : QHeap} {p q x : Nat} {A B : List Nat} (hA : Links m p A x)
    (hB : Links m x B q) : Links m p (A ++ x :: B) q := by
  induction A generalizing p with
  | nil => exact ⟨hA.1, hA.2, hB⟩
  | cons a A ih => exact ⟨hA.1, hA.2.1, ih hA.2.2⟩

theorem links_frame {m m' : QHeap} {p q : Nat} {l : List Nat} (h : Links m p l q)
    (hn : ∀ a ∈ p :: l, m'.next a = m.next a) (hp : ∀ a ∈ l ++ [q], m'.prev a = m.prev a) :
    Links m' p l q := by
  induction l generalizing p with
  | nil =>
    refine ⟨?_, ?_⟩
    · rw [hn p (by simp)]; exact h.1
    · rw [hp q (by simp)]; exact h.2
  | cons x xs ih =>
    refine ⟨?_, ?_, ih h.2.2 (fun a ha => hn a (List.mem_cons_of_mem _ ha))
      (fun a ha => hp a (by simp at ha ⊢; tauto))⟩
    · rw [hn p (by simp)]; exact h.1
    · rw [hp x (by simp)]; exact h.2.1

/-- Relinking the end of a chain to `q`. -/
theorem links_set_end {m m' : QHeap} {p x q : Nat} {A : List Nat} (h : Links m p A x)
    (hnd : (p :: A).Nodup) (hq : q ∉ A)
    (hn : ∀ a ∈ p :: A, a ≠ qLast p A → m'.next a = m.next a)
    (hn' : m'.next (qLast p A) = q) (hp : ∀ a ∈ A, m'.prev a = m.prev a)
    (hp' : m'.prev q = qLast p A) : Links m' p A q := by
  induction A generalizing p with
  | nil => exact ⟨hn', hp'⟩
  | cons a A ih =>
    have hpa : p ≠ qLast a A := by
      intro e
      have := qLast_mem a A
      rw [← e] at this
      exact (List.nodup_cons.1 hnd).1 this
    refine ⟨?_, ?_, ih h.2.2 (List.nodup_cons.1 hnd).2 (fun e => hq (List.mem_cons_of_mem _ e))
      (fun b hb hne => hn b (List.mem_cons_of_mem _ hb) hne) hn'
      (fun b hb => hp b (List.mem_cons_of_mem _ hb)) hp'⟩
    · rw [hn p (by simp) hpa]; exact h.1
    · rw [hp a (by simp)]; exact h.2.1

/-- Relinking the start of a chain to `p`. -/
theorem links_set_head {m m' : QHeap} {p x q : Nat} {B : List Nat} (h : Links m x B q)
    (hnd : (B ++ [q]).Nodup) (hn' : m'.next p = B.headD q) (hp' : m'.prev (B.headD q) = p)
    (hn : ∀ a ∈ B, m'.next a = m.next a)
    (hp : ∀ a ∈ B ++ [q], a ≠ B.headD q → m'.prev a = m.prev a) : Links m' p B q := by
  cases B with
  | nil => exact ⟨hn', hp'⟩
  | cons b B =>
    refine ⟨hn', hp', links_frame h.2.2 hn (fun a ha => hp a (List.mem_cons_of_mem _ ha) ?_)⟩
    intro e
    simp only [List.headD_cons] at e
    rw [e] at ha
    exact (List.nodup_cons.1 hnd).1 ha

theorem links_next_getD {m : QHeap} {p q : Nat} {l : List Nat} (h : Links m p l q) (i : Nat)
    (hi : i < l.length) : m.next ((p :: l).getD i 0) = l.getD i 0 := by
  induction l generalizing p i with
  | nil => exact absurd hi (by simp)
  | cons x xs ih =>
    cases i with
    | zero => exact h.1
    | succ i => exact ih h.2.2 i (by simpa using hi)

theorem getD_mem_of_lt (l : List Nat) (i : Nat) (hi : i < l.length) : l.getD i 0 ∈ l := by
  induction l generalizing i with
  | nil => exact absurd hi (by simp)
  | cons x xs ih =>
    cases i with
    | zero => simp
    | succ i => exact List.mem_cons_of_mem _ (ih i (by simpa using hi))

theorem getD_inj_of_nodup (l : List Nat) (hnd : l.Nodup) (i j : Nat) (hi : i < l.length)
    (hj : j < l.length) (e : l.getD i 0 = l.getD j 0) : i = j := by
  induction l generalizing i j with
  | nil => exact absurd hi (by simp)
  | cons x xs ih =>
    have hx := (List.nodup_cons.1 hnd).1
    cases i with
    | zero =>
      cases j with
      | zero => rfl
      | succ j =>
        exfalso
        apply hx
        have := getD_mem_of_lt xs j (by simpa using hj)
        simp only [List.getD_cons_zero, List.getD_cons_succ] at e
        rw [e]; exact this
    | succ i =>
      cases j with
      | zero =>
        exfalso
        apply hx
        have := getD_mem_of_lt xs i (by simpa using hi)
        simp only [List.getD_cons_zero, List.getD_cons_succ] at e
        rw [← e]; exact this
      | succ j =>
        simp only [List.getD_cons_succ] at e
        rw [ih (List.nodup_cons.1 hnd).2 i j (by simpa using hi) (by simpa using hj) e]

theorem ngx_queue_middle_loop_spec (m : QHeap) (queue : Nat) (l : List Nat)
    (h : QRep m queue l) (fuel k : Nat) (hk : 2 * k + 1 < l.length)
    (hfuel : l.length ≤ fuel + 2 * k + 1) :
    ngx_queue_middle_loop fuel m queue (l.getD k 0) (l.getD (2 * k) 0) =
      some (l.getD (l.length / 2) 0) := by
  have hnd : l.Nodup := (List.nodup_cons.1 h.2).2
  have hlast : m.prev queue = l.getD (l.length - 1) 0 := by
    rw [links_last h.1, qLast_getD]
    obtain ⟨n, hn⟩ : ∃ n, l.length = n + 1 := ⟨l.length - 1, by omega⟩
    rw [hn]; rfl
  have hnext : ∀ i, i + 1 < l.length → m.next (l.getD i 0) = l.getD (i + 1) 0 := by
    intro i hi
    have := links_next_getD h.1 (i + 1) hi
    simpa using this
  induction fuel generalizing k with
  | zero => omega
  | succ fuel ih =>
    rw [ngx_queue_middle_loop]
    simp only
    rw [hnext k (by omega), hnext (2 * k) (by omega), hlast]
    by_cases h1 : l.getD (2 * k + 1) 0 = l.getD (l.length - 1) 0
    · rw [if_pos h1]
      have := getD_inj_of_nodup l hnd _ _ (by omega) (by omega) h1
      have e : l.length / 2 = k + 1 := by omega
      rw [e]
    · rw [if_neg h1]
      have h2 : 2 * k + 1 ≠ l.length - 1 := fun e => h1 (by rw [e])
      rw [hnext (2 * k + 1) (by omega)]
      by_cases h3 : l.getD (2 * k + 1 + 1) 0 = l.getD (l.length - 1) 0
      · rw [if_pos h3]
        have := getD_inj_of_nodup l hnd _ _ (by omega) (by omega) h3
        have e : l.length / 2 = k + 1 := by omega
        rw [e]
      · rw [if_neg h3]
        have h4 : 2 * k + 1 + 1 ≠ l.length - 1 := fun e => h3 (by rw [e])
        have := ih (k + 1) (by omega) (by omega)
        rw [show 2 * (k + 1) = 2 * k + 1 + 1 by ring] at this
        exact this

/-- C25: for a queue that holds the `n ≥ 1` elements `l` (the sentinel apart),
`ngx_queue_middle` returns, given fuel `n`, the element at the 0-based position `n / 2`
of `l`. -/
theorem ngx_queue_middle_spec (m : QHeap) (queue : Nat) (l : List Nat) (fuel : Nat)
    (h : QRep m queue l) (hn : 1 ≤ l.length) (hfuel : l.length ≤ fuel) :
    ngx_queue_middle fuel m queue = l[l.length / 2]? := by
  have hnd : l.Nodup := (List.nodup_cons.1 h.2).2
  have hres : l[l.length / 2]? = some (l.getD (l.length / 2) 0) := by
    rw [List.getD_eq_getElem?_getD, List.getElem?_eq_getElem (by omega)]
    rfl
  have hlast : m.prev queue = l.getD (l.length - 1) 0 := by
    rw [links_last h.1, qLast_getD]
    obtain ⟨n, hn⟩ : ∃ n, l.length = n + 1 := ⟨l.length - 1, by omega⟩
    rw [hn]; rfl
  have hhead : m.next queue = l.getD 0 0 := by
    have := links_next_getD h.1 0 (by omega)
    simpa using this
  rw [hres, ngx_queue_middle]
  rw [hhead, hlast]
  by_cases h1 : l.getD 0 0 = l.getD (l.length - 1) 0
  · rw [if_pos h1]
    have := getD_inj_of_nodup l hnd _ _ (by omega) (by omega) h1
    have e : l.length / 2 = 0 := by omega
    rw [e]
  · rw [if_neg h1]
    have h2 : 0 ≠ l.length - 1 := fun e => h1 (by rw [← e])
    exact ngx_queue_middle_loop_spec m queue l h fuel 0 (by omega) (by omega)

theorem ngx_queue_middle_spec_witness :
    QRep qFour 1 [2, 3, 4, 5] ∧ ngx_queue_middle 4 qFour 1 = some 4 :=
  have h : QRep qFour 1 [2, 3, 4, 5] := ⟨by decide, by decide⟩
  ⟨h, ngx_queue_middle_spec qFour 1 [2, 3, 4, 5] 4 h (by decide) (by decide)⟩

theorem qInsertRev_eq (cmp : Nat → Nat → Int) (x : Nat) (T : List Nat) :
    qInsertRev cmp x T = T.takeWhile (fun t => !decide (cmp t x ≤ 0)) ++
      x :: T.dropWhile (fun t => !decide (cmp t x ≤ 0)) := by
  induction T with
  | nil => rfl
  | cons t T ih =>
    by_cases h : cmp t x ≤ 0
    · simp [qInsertRev, h, List.takeWhile, List.dropWhile]
    · simp [qInsertRev, h, List.takeWhile, List.dropWhile, ih]

theorem qInsertRev_perm (cmp : Nat → Nat → Int) (x : Nat) (T : List Nat) :
    (qInsertRev cmp x T).Perm (x :: T) := by
  induction T with
  | nil => exact List.Perm.refl _
  | cons t T ih =>
    by_cases h : cmp t x ≤ 0
    · simp [qInsertRev, h]
    · simp only [qInsertRev, h, if_false]
      exact (List.Perm.cons t ih).trans (List.Perm.swap x t T)

theorem qInsertRev_sublist (cmp : Nat → Nat → Int) (x : Nat) (T : List Nat) :
    T.Sublist (qInsertRev cmp x T) := by
  induction T with
  | nil => exact List.nil_sublist _
  | cons t T ih =>
    by_cases h : cmp t x ≤ 0
    · simp only [qInsertRev, h, if_true]
      exact List.sublist_cons_self _ _
    · simp only [qInsertRev, h, if_false]
      exact List.Sublist.cons₂ t ih

theorem qInsertRev_chain (cmp : Nat → Nat → Int) (htot : ∀ a b, cmp a b ≤ 0 ∨ cmp b a ≤ 0)
    (x : Nat) (T : List Nat) (h : T.Chain' (fun a b => cmp b a ≤ 0)) :
    (qInsertRev cmp x T).Chain' (fun a b => cmp b a ≤ 0) := by
  induction T with
  | nil => simp [qInsertRev]
  | cons t T ih =>
    by_cases hc : cmp t x ≤ 0
    · simp only [qInsertRev, hc, if_true]
      exact List.Chain'.cons hc h
    · simp only [qInsertRev, hc, if_false]
      have hxt : cmp x t ≤ 0 := (htot x t).resolve_right hc
      have ih' := ih h.tail
      cases T with
      | nil =>
        simp only [qInsertRev]
        exact List.Chain'.cons hxt (List.chain'_singleton _)
      | cons u U =>
        have htu : cmp u t ≤ 0 := (List.chain'_cons.1 h).1
        by_cases hu : cmp u x ≤ 0
        · simp only [qInsertRev, hu, if_true] at ih' ⊢
          exact List.Chain'.cons hxt ih'
        · simp only [qInsertRev, hu, if_false] at ih' ⊢
          exact List.Chain'.cons htu ih'

theorem qInsertRev_pair (cmp : Nat → Nat → Int) (x a : Nat) (T : List Nat) (ha : a ∈ T)
    (hax : cmp a x ≤ 0) : [x, a].Sublist (qInsertRev cmp x T) := by
  induction T with
  | nil => exact absurd ha (by simp)
  | cons t T ih =>
    by_cases hc : cmp t x ≤ 0
    · simp only [qInsertRev, hc, if_true]
      exact List.Sublist.cons₂ x (List.singleton_sublist.2 ha)
    · simp only [qInsertRev, hc, if_false]
      rcases List.mem_cons.1 ha with e | h
      · exact absurd (e ▸ hax) hc
      · exact List.Sublist.cons t (ih h)

theorem pair_sublist_concat (a b x : Nat) (P : List Nat) (h : [a, b].Sublist (P ++ [x])) :
    [a, b].Sublist P ∨ (b = x ∧ a ∈ P) := by
  rw [List.sublist_append_iff] at h
  obtain ⟨l1, l2, e, h1, h2⟩ := h
  rcases List.sublist_singleton.1 h2 with e2 | e2
  · left
    subst e2
    rw [List.append_nil] at e
    rw [e]; exact h1
  · right
    subst e2
    cases l1 with
    | nil => simp at e
    | cons c l1 =>
      cases l1 with
      | nil =>
        simp only [List.cons_append, List.nil_append, List.cons.injEq, and_true] at e
        exact ⟨e.2, by rw [e.1]; exact List.singleton_sublist.1 h1⟩
      | cons d l1 => simp at e

/-- What the fold of insertions keeps, for the part `P` of the list handled so far. -/
theorem qSort_fold (cmp : Nat → Nat → Int) (htot : ∀ a b, cmp a b ≤ 0 ∨ cmp b a ≤ 0)
    (R P T : List Nat) (hperm : T.Perm P) (hch : T.Chain' (fun a b => cmp b a ≤ 0))
    (hst : ∀ a b, cmp a b ≤ 0 → [a, b].Sublist P → [b, a].Sublist T) :
    (R.foldl (fun T x => qInsertRev cmp x T) T).Perm (P ++ R) ∧
    (R.foldl (fun T x => qInsertRev cmp x T) T).Chain' (fun a b => cmp b a ≤ 0) ∧
    ∀ a b, cmp a b ≤ 0 → [a, b].Sublist (P ++ R) →
      [b, a].Sublist (R.foldl (fun T x => qInsertRev cmp x T) T) := by
  induction R generalizing P T with
  | nil =>
    simp only [List.foldl_nil, List.append_nil]
    exact ⟨hperm, hch, hst⟩
  | cons x R ih =>
    have := ih (P ++ [x]) (qInsertRev cmp x T)
      ((qInsertRev_perm cmp x T).trans
        ((List.Perm.cons x hperm).trans (List.perm_append_singleton x P).symm))
      (qInsertRev_chain cmp htot x T hch)
      (fun a b hab hs => by
        rcases pair_sublist_concat a b x P hs with h | ⟨e, ha⟩
        · exact (hst a b hab h).trans (qInsertRev_sublist cmp x T)
        · subst e
          exact qInsertRev_pair cmp b a T (hperm.symm.subset ha) hab)
    simpa only [List.foldl_cons, List.append_assoc, List.singleton_append] using this

theorem qSortList_spec (cmp : Nat → Nat → Int) (htot : ∀ a b, cmp a b ≤ 0 ∨ cmp b a ≤ 0)
    (l : List Nat) :
    (qSortList cmp l).Perm l ∧ (qSortList cmp l).Chain' (fun a b => cmp a b ≤ 0) ∧
    ∀ a b, cmp a b ≤ 0 → [a, b].Sublist l → [a, b].Sublist (qSortList cmp l) := by
  have h := qSort_fold cmp htot l [] [] (List.Perm.refl _) List.chain'_nil
    (fun a b _ hs => absurd hs (by simp))
  simp only [List.nil_append] at h
  refine ⟨(List.reverse_perm _).trans h.1, ?_, fun a b hab hs => ?_⟩
  · unfold qSortList
    rw [List.chain'_reverse]
    exact h.2.1
  · have := h.2.2 a b hab hs
    unfold qSortList
    rw [← List.reverse_sublist] at this
    simpa using this

theorem links_append {m : QHeap} {p q : Nat} {A B : List Nat} (hA : Links m p A (B.headD q))
    (hB : Links m (qLast p A) B q) : Links m p (A ++ B) q := by
  induction A generalizing p with
  | nil => exact hB
  | cons a A ih => exact ⟨hA.1, hA.2.1, ih hA.2.2 hB⟩

theorem headD_mem_concat (B : List Nat) (q : Nat) : B.headD q ∈ B ++ [q] := by
  cases B with
  | nil => simp
  | cons b B => simp

/-- The parts of a queue without repetition around one of its elements. -/
theorem nodup_parts {queue x : Nat} {A B : List Nat} (h : (queue :: (A ++ x :: B)).Nodup) :
    (queue :: A).Nodup ∧ (B ++ [queue]).Nodup ∧ x ∉ queue :: A ∧ x ∉ B ++ [queue] ∧
    (∀ a ∈ queue :: A, a ∉ B) ∧ ∀ a ∈ A, a ∉ B ++ [queue] := by
  have h1 := List.nodup_cons.1 h
  have h2 := List.nodup_append.1 h1.2
  have h3 := List.nodup_cons.1 h2.2.1
  have hq : queue ∉ A ∧ queue ≠ x ∧ queue ∉ B := by
    have := h1.1
    simp only [List.mem_append, List.mem_cons, not_or] at this
    exact ⟨this.1, this.2.1, this.2.2⟩
  have hd : ∀ a ∈ A, a ≠ x ∧ a ∉ B := by
    intro a ha
    have := h2.2.2 ha
    simp only [List.mem_cons] at this
    exact ⟨fun e => this (Or.inl e), fun e => this (Or.inr e)⟩
  refine ⟨List.nodup_cons.2 ⟨hq.1, h2.1⟩, ?_, ?_, ?_, ?_, ?_⟩
  · rw [List.nodup_append]
    refine ⟨h3.2, List.nodup_singleton _, ?_⟩
    intro a ha hb
    rw [List.mem_singleton] at hb
    exact hq.2.2 (hb ▸ ha)
  · intro hx
    rcases List.mem_cons.1 hx with e | e
    · exact hq.2.1 e.symm
    · exact (hd x e).1 rfl
  · intro hx
    rcases List.mem_append.1 hx with e | e
    · exact h3.1 e
    · exact hq.2.1 (List.mem_singleton.1 e).symm
  · intro a ha
    rcases List.mem_cons.1 ha with e | e
    · rw [e]; exact hq.2.2
    · exact (hd a e).2
  · intro a ha hb
    rcases List.mem_append.1 hb with e | e
    · exact (hd a ha).2 e
    · exact hq.1 ((List.mem_singleton.1 e) ▸ ha)

theorem ngx_queue_remove_links (dbg : Bool) {m : QHeap} {queue x : Nat} {A B : List Nat}
    (h : Links m queue (A ++ x :: B) queue) (hnd : (queue :: (A ++ x :: B)).Nodup) :
    Links (ngx_queue_remove dbg m x) queue (A ++ B) queue := by
  obtain ⟨ndA, ndB, hxA, hxB, hAB, hBA⟩ := nodup_parts hnd
  have hA : Links m queue A x := links_init h
  have hT := links_tail h
  have hB : Links m x B queue := hT.2.2
  have e1 : m.prev x = qLast queue A := hT.2.1
  have e2 : m.next x = B.headD queue := links_head hB
  have hp := qLast_mem queue A
  have hn := headD_mem_concat B queue
  have hpx : qLast queue A ≠ x := fun e => hxA (e ▸ hp)
  have hnx : B.headD queue ≠ x := fun e => hxB (e ▸ hn)
  have enext : ∀ a, a ≠ x →
      (ngx_queue_remove dbg m x).next a = if a = qLast queue A then B.headD queue
        else m.next a := by
    intro a ha
    cases dbg <;>
      simp [ngx_queue_remove, Function.update_apply, e1, e2, ha, hnx.symm, hpx.symm]
  have eprev : ∀ a, a ≠ x →
      (ngx_queue_remove dbg m x).prev a = if a = B.headD queue then qLast queue A
        else m.prev a := by
    intro a ha
    cases dbg <;>
      simp [ngx_queue_remove, Function.update_apply, e1, e2, ha, hnx.symm, hpx.symm]
  refine links_append (links_set_end hA ndA ?_ ?_ ?_ ?_ ?_) (links_set_head hB ndB ?_ ?_ ?_ ?_)
  · intro hm
    exact hBA _ hm hn
  · intro a ha hne
    rw [enext a (fun e => hxA (e ▸ ha)), if_neg hne]
  · rw [enext _ hpx, if_pos rfl]
  · intro a ha
    rw [eprev a (fun e => hxA (e ▸ List.mem_cons_of_mem _ ha)), if_neg]
    intro e
    exact hBA a ha (e ▸ hn)
  · rw [eprev _ hnx, if_pos rfl]
  · rw [enext _ hpx, if_pos rfl]
  · rw [eprev _ hnx, if_pos rfl]
  · intro a ha
    rw [enext a (fun e => hxB (e ▸ List.mem_append_left _ ha)), if_neg]
    intro e
    exact hAB _ hp (e ▸ ha)
  · intro a ha hne
    rw [eprev a (fun e => hxB (e ▸ ha)), if_neg hne]

theorem ngx_queue_insert_after_links {m : QHeap} {queue x : Nat} {A B : List Nat}
    (h : Links m queue (A ++ B) queue) (hnd : (queue :: (A ++ x :: B)).Nodup) :
    Links (ngx_queue_insert_after m (qLast queue A) x) queue (A ++ x :: B) queue := by
  obtain ⟨ndA, ndB, hxA, hxB, hAB, hBA⟩ := nodup_parts hnd
  have hA : Links m queue A (B.headD queue) := links_init h
  have hB : Links m (qLast queue A) B queue := links_tail h
  have e2 : m.next (qLast queue A) = B.headD queue := links_head hB
  have hp := qLast_mem queue A
  have hn := headD_mem_concat B queue
  have hpx : qLast queue A ≠ x := fun e => hxA (e ▸ hp)
  have hnx : B.headD queue ≠ x := fun e => hxB (e ▸ hn)
  have enext : ∀ a, (ngx_queue_insert_after m (qLast queue A) x).next a =
      if a = qLast queue A then x else if a = x then B.headD queue else m.next a := by
    intro a
    simp [ngx_queue_insert_after, ngx_queue_insert_head, Function.update_apply, e2]
  have eprev : ∀ a, (ngx_queue_insert_after m (qLast queue A) x).prev a =
      if a = x then qLast queue A else if a = B.headD queue then x else m.prev a := by
    intro a
    simp [ngx_queue_insert_after, ngx_queue_insert_head, Function.update_apply, e2]
  refine links_join (links_set_end hA ndA (fun e => hxA (List.mem_cons_of_mem _ e)) ?_ ?_ ?_ ?_)
    (links_set_head hB ndB ?_ ?_ ?_ ?_)
  · intro a ha hne
    rw [enext a, if_neg hne, if_neg (show ¬ a = x from fun e => hxA (e ▸ ha))]
  · rw [enext, if_pos rfl]
  · intro a ha
    rw [eprev a, if_neg (show ¬ a = x from fun e => hxA (e ▸ List.mem_cons_of_mem _ ha)),
      if_neg]
    intro e
    exact hBA a ha (e ▸ hn)
  · rw [eprev, if_pos rfl]
  · rw [enext, if_neg hpx.symm, if_pos rfl]
  · rw [eprev, if_neg hnx, if_pos rfl]
  · intro a ha
    have hap : ¬ a = qLast queue A := fun e => hAB _ hp (e ▸ ha)
    rw [enext a, if_neg hap,
      if_neg (show ¬ a = x from fun e => hxB (e ▸ List.mem_append_left _ ha))]
  · intro a ha hne
    rw [eprev a, if_neg (show ¬ a = x from fun e => hxB (e ▸ ha)), if_neg hne]

theorem ngx_queue_sort_scan_spec (m : QHeap) (cmp : Nat → Nat → Int) (queue x : Nat)
    (T : List Nat) (hne : T ≠ []) (hq : queue ∉ T)
    (hT : ∀ U V t, T = U ++ t :: V → m.prev t = V.headD queue) (fuel : Nat)
    (hfuel : T.length ≤ fuel) :
    ngx_queue_sort_scan fuel m cmp queue x (T.headD queue) =
      some ((T.dropWhile (fun t => !decide (cmp t x ≤ 0))).headD queue) := by
  induction T generalizing fuel with
  | nil => exact absurd rfl hne
  | cons t T ih =>
    cases fuel with
    | zero => simp at hfuel
    | succ fuel =>
      rw [ngx_queue_sort_scan]
      simp only [List.headD_cons]
      by_cases hc : cmp t x ≤ 0
      · rw [if_pos hc]
        simp [List.dropWhile, hc]
      · rw [if_neg hc]
        have e := hT [] T t rfl
        simp only [e]
        have hd : (t :: T).dropWhile (fun t => !decide (cmp t x ≤ 0)) =
            T.dropWhile (fun t => !decide (cmp t x ≤ 0)) := by
          simp [List.dropWhile, hc]
        rw [hd]
        cases T with
        | nil => simp
        | cons u U =>
          have hu : u ≠ queue := fun e => hq (by simp [e])
          simp only [List.headD_cons, ne_eq, hu, not_false_eq_true, if_true]
          have := ih (by simp) (fun h => hq (List.mem_cons_of_mem _ h))
            (fun U' V t' e' => hT (t :: U') V t' (by rw [e']; rfl)) fuel
            (by simpa using hfuel)
          simpa using this

theorem links_prev_rev {m : QHeap} {queue : Nat} {S R : List Nat}
    (h : Links m queue (S ++ R) queue) (U V : List Nat) (t : Nat)
    (e : S.reverse = U ++ t :: V) : m.prev t = V.headD queue := by
  have eS : S = V.reverse ++ t :: U.reverse := by
    have := congrArg List.reverse e
    simpa using this
  rw [eS, List.append_assoc] at h
  have := links_last (links_init h)
  simp only [List.cons_append, List.headD_cons] at this
  rw [this, qLast_eq_headD, List.reverse_reverse]

theorem ngx_queue_sort_loop_spec (dbg : Bool) (cmp : Nat → Nat → Int) (queue n : Nat)
    (R : List Nat) (m : QHeap) (S : List Nat) (fuel : Nat) (hS : S ≠ [])
    (h : Links m queue (S ++ R) queue) (hnd : (queue :: (S ++ R)).Nodup)
    (hfuel : R.length + 1 ≤ fuel) (hn : S.length + R.length ≤ n) :
    ∃ m', ngx_queue_sort_loop fuel n dbg m cmp queue (R.headD queue) = some m' ∧
      Links m' queue (R.foldl (fun T x => qInsertRev cmp x T) S.reverse).reverse queue := by
  induction R generalizing m S fuel with
  | nil =>
    cases fuel with
    | zero => simp at hfuel
    | succ fuel =>
      refine ⟨m, ?_, ?_⟩
      · rw [ngx_queue_sort_loop]
        simp
      · simpa using h
  | cons x R ih =>
    cases fuel with
    | zero => simp at hfuel
    | succ fuel =>
      have hparts := nodup_parts hnd
      have hxq : x ≠ queue := fun e => hparts.2.2.1 (by simp [e])
      have hT := links_tail h
      have e1 : m.prev x = qLast queue S := hT.2.1
      have e2 : m.next x = R.headD queue := links_head hT.2.2
      have h1 := ngx_queue_remove_links dbg h hnd
      have hndSR : (queue :: (S ++ R)).Nodup := by
        have hsub : (queue :: (S ++ R)).Sublist (queue :: (S ++ x :: R)) :=
          List.Sublist.cons₂ _ (List.Sublist.append_left (List.sublist_cons_self _ _) _)
        exact hnd.sublist hsub
      have hqS : queue ∉ S.reverse := by
        intro e
        exact (List.nodup_cons.1 hparts.1).1 (List.mem_reverse.1 e)
      have hscan := ngx_queue_sort_scan_spec (ngx_queue_remove dbg m x) cmp queue x S.reverse
        (by simpa using hS) hqS (fun U V t e => links_prev_rev h1 U V t e) n
        (by simp; omega)
      rw [← qLast_eq_headD] at hscan
      have hsplit : S = (S.reverse.dropWhile (fun t => !decide (cmp t x ≤ 0))).reverse ++
          (S.reverse.takeWhile (fun t => !decide (cmp t x ≤ 0))).reverse := by
        rw [← List.reverse_append, List.takeWhile_append_dropWhile, List.reverse_reverse]
      generalize hS1 : (S.reverse.dropWhile (fun t => !decide (cmp t x ≤ 0))).reverse = S1
        at hsplit
      generalize hS2 : (S.reverse.takeWhile (fun t => !decide (cmp t x ≤ 0))).reverse = S2
        at hsplit
      have hprev : (S.reverse.dropWhile (fun t => !decide (cmp t x ≤ 0))).headD queue =
          qLast queue S1 := by
        rw [qLast_eq_headD, ← hS1, List.reverse_reverse]
      rw [hprev] at hscan
      have h1' : Links (ngx_queue_remove dbg m x) queue (S1 ++ (S2 ++ R)) queue := by
        rw [← List.append_assoc, ← hsplit]; exact h1
      have hnd' : (queue :: (S1 ++ x :: (S2 ++ R))).Nodup := by
        refine hnd.perm ?_
        refine List.Perm.cons _ ?_
        rw [hsplit, List.append_assoc]
        refine List.Perm.append_left _ ?_
        exact List.perm_middle
      have h2 := @ngx_queue_insert_after_links _ queue x S1 (S2 ++ R) h1' hnd'
      have hins : (S1 ++ x :: S2).reverse = qInsertRev cmp x S.reverse := by
        rw [qInsertRev_eq, ← hS1, ← hS2]
        simp
      obtain ⟨m', hm', hl'⟩ := ih (ngx_queue_insert_after (ngx_queue_remove dbg m x)
        (qLast queue S1) x) (S1 ++ x :: S2) fuel (by simp)
        (by simpa using h2) (by simpa using hnd') (by simpa using hfuel)
        (by
          have : S.length = S1.length + S2.length := by
            rw [hsplit, List.length_append]
          simp only [List.length_append, List.length_cons] at hn ⊢
          omega)
      refine ⟨m', ?_, ?_⟩
      · rw [ngx_queue_sort_loop]
        simp only [List.headD_cons, ne_eq, hxq, not_false_eq_true, if_true, e1, e2, hscan]
        exact hm'
      · rw [List.foldl_cons, ← hins]
        exact hl'

theorem ngx_queue_sort_rep (dbg : Bool) (cmp : Nat → Nat → Int) (m : QHeap) (queue : Nat)
    (l : List Nat) (fuel : Nat) (h : QRep m queue l) (hfuel : l.length + 1 ≤ fuel) :
    ∃ m', ngx_queue_sort dbg fuel m cmp queue = some m' ∧
      Links m' queue (qSortList cmp l) queue := by
  have hlast := links_last h.1
  have hhead := links_head h.1
  unfold ngx_queue_sort
  simp only [hlast, hhead]
  cases l with
  | nil =>
    refine ⟨m, by simp [qLast], ?_⟩
    simpa [qSortList] using h.1
  | cons e0 R =>
    cases R with
    | nil =>
      refine ⟨m, by simp [qLast], ?_⟩
      simpa [qSortList, qInsertRev] using h.1
    | cons e1 R =>
      have hne : ¬ (e0 = qLast queue (e0 :: e1 :: R)) := by
        intro e
        have hm := qLast_mem e1 R
        simp only [qLast] at e
        rw [← e] at hm
        have := (List.nodup_cons.1 (List.nodup_cons.1 h.2).2).1
        exact this hm
      simp only [List.headD_cons, if_neg hne]
      have e2 : m.next e0 = (e1 :: R).headD queue := links_head h.1.2.2
      rw [e2]
      have := ngx_queue_sort_loop_spec dbg cmp queue fuel (e1 :: R) m [e0] fuel (by simp)
        (by simpa using h.1) (by simpa using h.2)
        (by simp only [List.length_cons] at hfuel ⊢; omega)
        (by simp only [List.length_cons, List.length_nil] at hfuel ⊢; omega)
      simpa [qSortList, qInsertRev] using this

/-- C24: for a queue that holds the elements `l` and a comparator that is total
(`cmp(a, b) <= 0` or `cmp(b, a) <= 0` for all `a`, `b`; transitivity is not needed),
`ngx_queue_sort` ends, given fuel `n + 1`, with a queue that holds a permutation `l'` of
`l` in which `cmp(a, b) <= 0` for every `a` followed directly by `b`, and in which every
`a` that stood before a `b` with `cmp(a, b) <= 0` in `l` (elements that compare equal among
them) still stands before it.  This holds with and without `NGX_DEBUG`. -/
theorem ngx_queue_sort_stable (dbg : Bool) (cmp : Nat → Nat → Int) (m : QHeap) (queue : Nat)
    (l : List Nat) (fuel : Nat) (h : QRep m queue l)
    (htot : ∀ a b, cmp a b ≤ 0 ∨ cmp b a ≤ 0) (hfuel : l.length + 1 ≤ fuel) :
    ∃ m' l', ngx_queue_sort dbg fuel m cmp queue = some m' ∧ QRep m' queue l' ∧
      l'.Perm l ∧ l'.Chain' (fun a b => cmp a b ≤ 0) ∧
      ∀ a b, cmp a b ≤ 0 → [a, b].Sublist l → [a, b].Sublist l' := by
  obtain ⟨m', hm', hl'⟩ := ngx_queue_sort_rep dbg cmp m queue l fuel h hfuel
  obtain ⟨hp, hc, hs⟩ := qSortList_spec cmp htot l
  refine ⟨m', qSortList cmp l, hm', ⟨hl', ?_⟩, hp, hc, hs⟩
  exact h.2.perm (List.Perm.cons _ hp.symm)

theorem ngx_queue_sort_stable_witness :
    QRep qThree 1 [4, 2, 3] ∧
    ∃ m' l', ngx_queue_sort false 4 qThree qCmp 1 = some m' ∧ QRep m' 1 l' ∧
      l'.Perm [4, 2, 3] ∧ l'.Chain' (fun a b => qCmp a b ≤ 0) ∧
      ∀ a b, qCmp a b ≤ 0 → [a, b].Sublist [4, 2, 3] → [a, b].Sublist l' :=
  have h : QRep qThree 1 [4, 2, 3] := ⟨by decide, by decide⟩
  ⟨h, ngx_queue_sort_stable false qCmp qThree 1 [4, 2, 3] 4 h
    (fun a b => by unfold qCmp; omega) (by decide)⟩

theorem pos_shift : ∀ d, d < 32 →
    0x80 >>> (d % 8) = 2 ^ (7 - d % 8) ∧ 0x80000000 >>> d = 2 ^ (31 - d) := by
  decide

theorem pos_step : ∀ d, d < 32 →
    (((0x80 >>> (d % 8)) >>> 1 = 0 →
      d / 8 + 1 ≠ 16 ∧ d / 8 + 1 = (d + 1) / 8 ∧ 0x80 = 0x80 >>> ((d + 1) % 8)) ∧
    ((0x80 >>> (d % 8)) >>> 1 ≠ 0 →
      d / 8 = (d + 1) / 8 ∧ (0x80 >>> (d % 8)) >>> 1 = 0x80 >>> ((d + 1) % 8))) := by
  decide

theorem byte_testBit (k : Nat → Nat) (hk : IsBytes k) (d : Nat) (hd : d < 32) :
    (k (d / 8)).testBit (7 - d % 8) = (word32 k).testBit (31 - d) := by
  have h0 := hk 0 (by omega)
  have h1 := hk 1 (by omega)
  have h2 := hk 2 (by omega)
  have h3 := hk 3 (by omega)
  rw [Nat.testBit_to_div_mod, Nat.testBit_to_div_mod, decide_eq_decide]
  unfold word32 ipv4
  interval_cases d <;> norm_num <;> omega

theorem byte_key (k : Nat → Nat) (hk : IsBytes k) (d : Nat) (hd : d < 32) :
    k (d / 8) &&& (0x80 >>> (d % 8)) ≠ 0 ↔ word32 k &&& (0x80000000 >>> d) ≠ 0 := by
  rw [(pos_shift d hd).1, (pos_shift d hd).2, and_two_pow_ne_zero, and_two_pow_ne_zero,
    byte_testBit k hk d hd]

theorem byte_mask (k : Nat → Nat) (hk : IsBytes k) (d : Nat) (hd : d < 32) :
    (0x80 >>> (d % 8)) &&& k (d / 8) ≠ 0 ↔ (0x80000000 >>> d) &&& word32 k ≠ 0 := by
  rw [Nat.land_comm, Nat.land_comm (0x80000000 >>> d)]
  exact byte_key k hk d hd

theorem insert128_walk_unfold (m : RxHeap) (key mask : Nat → Nat) (fuel d node next : Nat)
    (hd : d < 32) :
    ngx_radix128tree_insert_walk (fuel + 1) m key mask (d / 8) (0x80 >>> (d % 8)) node next =
      if (0x80 >>> (d % 8)) &&& mask (d / 8) ≠ 0 then
        if (if key (d / 8) &&& (0x80 >>> (d % 8)) ≠ 0 then m.right node else m.left node)
            = NULL then
          some (d / 8, 0x80 >>> (d % 8), node,
            if key (d / 8) &&& (0x80 >>> (d % 8)) ≠ 0 then m.right node else m.left node)
        else
          ngx_radix128tree_insert_walk fuel m key mask ((d + 1) / 8) (0x80 >>> ((d + 1) % 8))
            (if key (d / 8) &&& (0x80 >>> (d % 8)) ≠ 0 then m.right node else m.left node)
            (if key (d / 8) &&& (0x80 >>> (d % 8)) ≠ 0 then m.right node else m.left node)
      else some (d / 8, 0x80 >>> (d % 8), node, next) := by
  rw [ngx_radix128tree_insert_walk]
  simp only
  obtain ⟨h1, h2⟩ := pos_step d hd
  by_cases hb : (0x80 >>> (d % 8)) >>> 1 = 0
  · obtain ⟨a1, a2, a3⟩ := h1 hb
    rw [if_pos hb, if_neg a1, a2, ← a3]
  · obtain ⟨a1, a2⟩ := h2 hb
    rw [if_neg hb, a2, ← a1]

theorem insert128_walk_eq (m : RxHeap) (key mask : Nat → Nat) (hk : IsBytes key)
    (hm : IsBytes mask) (hm4 : mask 4 = 0) : ∀ (fuel d node next : Nat), d ≤ 32 →
    (ngx_radix128tree_insert_walk fuel m key mask (d / 8) (0x80 >>> (d % 8)) node next = none ∧
      ngx_radix32tree_insert_walk fuel m (word32 key) (word32 mask) (0x80000000 >>> d) node
        next = none) ∨
    ∃ d' node' next', d' ≤ 32 ∧
      ngx_radix128tree_insert_walk fuel m key mask (d / 8) (0x80 >>> (d % 8)) node next =
        some (d' / 8, 0x80 >>> (d' % 8), node', next') ∧
      ngx_radix32tree_insert_walk fuel m (word32 key) (word32 mask) (0x80000000 >>> d) node
        next = some (0x80000000 >>> d', node', next') := by
  intro fuel
  induction fuel with
  | zero =>
    intro d node next _
    exact Or.inl ⟨rfl, rfl⟩
  | succ fuel ih =>
    intro d node next hd
    rcases Nat.lt_or_ge d 32 with hlt | hge
    · rw [insert128_walk_unfold m key mask fuel d node next hlt, ngx_radix32tree_insert_walk]
      simp only
      have hnext : (if key (d / 8) &&& (0x80 >>> (d % 8)) ≠ 0 then m.right node
          else m.left node) =
          (if word32 key &&& (0x80000000 >>> d) ≠ 0 then m.right node else m.left node) :=
        if_congr (byte_key key hk d hlt) rfl rfl
      rw [hnext]
      by_cases hc : (0x80 >>> (d % 8)) &&& mask (d / 8) ≠ 0
      · rw [if_pos hc, if_pos ((byte_mask mask hm d hlt).1 hc)]
        by_cases hn : (if word32 key &&& (0x80000000 >>> d) ≠ 0 then m.right node
            else m.left node) = NULL
        · rw [if_pos hn, if_pos hn]
          exact Or.inr ⟨d, _, _, hd, rfl, rfl⟩
        · rw [if_neg hn, if_neg hn, shift_bit]
          exact ih (d + 1) _ _ hlt
      · rw [if_neg hc, if_neg (fun h => hc ((byte_mask mask hm d hlt).2 h))]
        exact Or.inr ⟨d, _, _, hd, rfl, rfl⟩
    · have e : d = 32 := Nat.le_antisymm hd hge
      subst e
      refine Or.inr ⟨32, node, next, hd, ?_, ?_⟩
      · rw [ngx_radix128tree_insert_walk]
        simp [hm4]
      · rw [ngx_radix32tree_insert_walk]
        simp

theorem insert128_grow_unfold (m : RxHeap) (tree : ngx_radix_tree_t) (key mask : Nat → Nat)
    (fuel d node : Nat) (hd : d < 32) :
    ngx_radix128tree_insert_grow (fuel + 1) m tree key mask (d / 8) (0x80 >>> (d % 8)) node =
      if (0x80 >>> (d % 8)) &&& mask (d / 8) ≠ 0 then
        if (ngx_radix_alloc m tree).1 = NULL then some (m, (ngx_radix_alloc m tree).2, none)
        else
          ngx_radix128tree_insert_grow fuel
            (if key (d / 8) &&& (0x80 >>> (d % 8)) ≠ 0 then
              ((((m.setRight (ngx_radix_alloc m tree).1 NULL).setLeft
                (ngx_radix_alloc m tree).1 NULL).setParent (ngx_radix_alloc m tree).1
                  node).setValue (ngx_radix_alloc m tree).1 NGX_RADIX_NO_VALUE).setRight node
                    (ngx_radix_alloc m tree).1
             else
              ((((m.setRight (ngx_radix_alloc m tree).1 NULL).setLeft
                (ngx_radix_alloc m tree).1 NULL).setParent (ngx_radix_alloc m tree).1
                  node).setValue (ngx_radix_alloc m tree).1 NGX_RADIX_NO_VALUE).setLeft node
                    (ngx_radix_alloc m tree).1)
            (ngx_radix_alloc m tree).2 key mask ((d + 1) / 8) (0x80 >>> ((d + 1) % 8))
            (ngx_radix_alloc m tree).1
      else some (m, tree, some node) := by
  rw [ngx_radix128tree_insert_grow]
  simp only
  obtain ⟨h1, h2⟩ := pos_step d hd
  by_cases hb : (0x80 >>> (d % 8)) >>> 1 = 0
  · obtain ⟨a1, a2, a3⟩ := h1 hb
    rw [if_pos hb, if_neg a1, a2, ← a3]
  · obtain ⟨a1, a2⟩ := h2 hb
    rw [if_neg hb, a2, ← a1]

theorem insert128_grow_eq (key mask : Nat → Nat) (hk : IsBytes key) (hm : IsBytes mask)
    (hm4 : mask 4 = 0) : ∀ (fuel d : Nat) (m : RxHeap) (tree : ngx_radix_tree_t) (node : Nat),
    d ≤ 32 →
    ngx_radix128tree_insert_grow fuel m tree key mask (d / 8) (0x80 >>> (d % 8)) node =
      ngx_radix32tree_insert_grow fuel m tree (word32 key) (word32 mask) (0x80000000 >>> d)
        node := by
  intro fuel
  induction fuel with
  | zero =>
    intro d m tree node _
    rfl
  | succ fuel ih =>
    intro d m tree node hd
    rcases Nat.lt_or_ge d 32 with hlt | hge
    · rw [insert128_grow_unfold m tree key mask fuel d node hlt, ngx_radix32tree_insert_grow]
      simp only
      by_cases hc : (0x80 >>> (d % 8)) &&& mask (d / 8) ≠ 0
      · rw [if_pos hc, if_pos ((byte_mask mask hm d hlt).1 hc)]
        by_cases hn : (ngx_radix_alloc m tree).1 = NULL
        · rw [if_pos hn, if_pos hn]
        · rw [if_neg hn, if_neg hn, shift_bit, ih (d + 1) _ _ _ hlt]
          by_cases hkb : key (d / 8) &&& (0x80 >>> (d % 8)) ≠ 0
          · rw [if_pos hkb, if_pos ((byte_key key hk d hlt).1 hkb)]
          · rw [if_neg hkb, if_neg (fun h => hkb ((byte_key key hk d hlt).2 h))]
      · rw [if_neg hc, if_neg (fun h => hc ((byte_mask mask hm d hlt).2 h))]
    · have e : d = 32 := Nat.le_antisymm hd hge
      subst e
      rw [ngx_radix128tree_insert_grow, ngx_radix32tree_insert_grow]
      simp [hm4]

/-- `ngx_radix128tree_insert` with a mask whose byte 4 is zero is `ngx_radix32tree_insert`
on the words of the bytes 0..3, on every memory. -/
theorem insert128_eq (fuel : Nat) (m : RxHeap) (tree : ngx_radix_tree_t) (key mask : Nat → Nat)
    (value : Nat) (hk : IsBytes key) (hm : IsBytes mask) (hm4 : mask 4 = 0) :
    ngx_radix128tree_insert fuel m tree key mask value =
      ngx_radix32tree_insert fuel m tree (word32 key) (word32 mask) value := by
  unfold ngx_radix128tree_insert ngx_radix32tree_insert
  have hw := insert128_walk_eq m key mask hk hm hm4 fuel 0 tree.root tree.root (by omega)
  have e0 : (0x80000000 : Nat) >>> 0 = 0x80000000 := rfl
  have e1 : (0x80 : Nat) >>> (0 % 8) = 0x80 := rfl
  have e2 : 0 / 8 = 0 := rfl
  rw [e0, e1, e2] at hw
  rcases hw with ⟨h1, h2⟩ | ⟨d', node', next', hd', h1, h2⟩
  · rw [h1, h2]
  · rw [h1, h2]
    simp only
    rw [insert128_grow_eq key mask hk hm hm4 fuel d' m tree node' hd']
    try rfl

theorem delete128_walk_eq (m : RxHeap) (key mask : Nat → Nat) (hk : IsBytes key)
    (hm : IsBytes mask) (hm4 : mask 4 = 0) : ∀ (fuel d node : Nat), d ≤ 32 →
    ngx_radix128tree_delete_walk fuel m key mask (d / 8) (0x80 >>> (d % 8)) node =
      ngx_radix32tree_delete_walk fuel m (word32 key) (word32 mask) (0x80000000 >>> d)
        node := by
  intro fuel
  induction fuel with
  | zero =>
    intro d node _
    rfl
  | succ fuel ih =>
    intro d node hd
    rcases Nat.lt_or_ge d 32 with hlt | hge
    · rw [ngx_radix128tree_delete_walk, ngx_radix32tree_delete_walk]
      simp only
      have hnext : (if key (d / 8) &&& (0x80 >>> (d % 8)) ≠ 0 then m.right node
          else m.left node) =
          (if word32 key &&& (0x80000000 >>> d) ≠ 0 then m.right node else m.left node) :=
        if_congr (byte_key key hk d hlt) rfl rfl
      rw [hnext]
      obtain ⟨h1, h2⟩ := pos_step d hlt
      by_cases hc : node ≠ NULL ∧ (0x80 >>> (d % 8)) &&& mask (d / 8) ≠ 0
      · have hc' : node ≠ NULL ∧ (0x80000000 >>> d) &&& word32 mask ≠ 0 :=
          ⟨hc.1, (byte_mask mask hm d hlt).1 hc.2⟩
        rw [if_pos hc, if_pos hc', shift_bit, ← ih (d + 1) _ hlt]
        by_cases hb : (0x80 >>> (d % 8)) >>> 1 = 0
        · obtain ⟨a1, a2, a3⟩ := h1 hb
          rw [if_pos hb, if_neg a1, a2, ← a3]
        · obtain ⟨a1, a2⟩ := h2 hb
          rw [if_neg hb, a2, ← a1]
      · have hc' : ¬ (node ≠ NULL ∧ (0x80000000 >>> d) &&& word32 mask ≠ 0) :=
          fun h => hc ⟨h.1, (byte_mask mask hm d hlt).2 h.2⟩
        rw [if_neg hc, if_neg hc']
    · have e : d = 32 := Nat.le_antisymm hd hge
      subst e
      rw [ngx_radix128tree_delete_walk, ngx_radix32tree_delete_walk]
      simp [hm4]

theorem delete128_prune_eq : ∀ (fuel : Nat) (m : RxHeap) (tree : ngx_radix_tree_t) (node : Nat),
    ngx_radix128tree_delete_prune fuel m tree node =
      ngx_radix32tree_delete_prune fuel m tree node := by
  intro fuel
  induction fuel with
  | zero =>
    intro m tree node
    rfl
  | succ fuel ih =>
    intro m tree node
    rw [ngx_radix128tree_delete_prune, ngx_radix32tree_delete_prune]
    simp only [ih]

/-- `ngx_radix128tree_delete` with a mask whose byte 4 is zero is `ngx_radix32tree_delete`
on the words of the bytes 0..3, on every memory. -/
theorem delete128_eq (fuel : Nat) (m : RxHeap) (tree : ngx_radix_tree_t) (key mask : Nat → Nat)
    (hk : IsBytes key) (hm : IsBytes mask) (hm4 : mask 4 = 0) :
    ngx_radix128tree_delete fuel m tree key mask =
      ngx_radix32tree_delete fuel m tree (word32 key) (word32 mask) := by
  unfold ngx_radix128tree_delete ngx_radix32tree_delete
  have hw := delete128_walk_eq m key mask hk hm hm4 fuel 0 tree.root (by omega)
  have e0 : (0x80000000 : Nat) >>> 0 = 0x80000000 := rfl
  have e1 : (0x80 : Nat) >>> (0 % 8) = 0x80 := rfl
  have e2 : 0 / 8 = 0 := rfl
  rw [e0, e1, e2] at hw
  rw [hw]
  simp only [delete128_prune_eq]
  try rfl

theorem rxRun128_eq (fuel : Nat) (ops : List RxOp128) (hops : ∀ op ∈ ops, op.Short) :
    ∀ (m : RxHeap) (t : ngx_radix_tree_t),
      rxRun128 fuel ops m t = rxRun fuel (ops.map RxOp128.word) m t := by
  induction ops with
  | nil =>
    intro m t
    rfl
  | cons op ops ih =>
    intro m t
    have hop := hops op (List.mem_cons_self _ _)
    have ih' := ih (fun o ho => hops o (List.mem_cons_of_mem _ ho))
    cases op with
    | ins key mask value =>
      obtain ⟨hk, hm, hz⟩ := hop
      simp only [rxRun128, List.map_cons, RxOp128.word, rxRun,
        insert128_eq fuel m t key mask value hk hm (hz 4 (by omega) (by omega)), ih']
      try rfl
    | del key mask =>
      obtain ⟨hk, hm, hz⟩ := hop
      simp only [rxRun128, List.map_cons, RxOp128.word, rxRun,
        delete128_eq fuel m t key mask hk hm (hz 4 (by omega) (by omega)), ih']
      try rfl

theorem find128_null (fuel : Nat) (m : RxHeap) (key : Nat → Nat) (i bit value : Nat) :
    ngx_radix128tree_find_loop fuel m key i bit value NULL =
      if fuel = 0 then none else some value := by
  cases fuel with
  | zero => rfl
  | succ fuel =>
    rw [ngx_radix128tree_find_loop]
    simp

theorem find32_null (fuel : Nat) (m : RxHeap) (key bit value : Nat) :
    ngx_radix32tree_find_loop fuel m key bit value NULL =
      if fuel = 0 then none else some value := by
  cases fuel with
  | zero => rfl
  | succ fuel =>
    rw [ngx_radix32tree_find_loop]
    simp

theorem find128_loop_eq {m : RxHeap} {root : Nat} {A : List Bool → Nat} (h : RxRep m root A)
    (key : Nat → Nat) (hk : IsBytes key) : ∀ (fuel d : Nat) (p : List Bool) (value : Nat),
    d ≤ 32 → p.length = d →
    ngx_radix128tree_find_loop fuel m key (d / 8) (0x80 >>> (d % 8)) value (A p) =
      ngx_radix32tree_find_loop fuel m (word32 key) (0x80000000 >>> d) value (A p) := by
  intro fuel
  induction fuel with
  | zero =>
    intro d p value _ _
    rfl
  | succ fuel ih =>
    intro d p value hd hp
    by_cases hn : A p = NULL
    · rw [hn, find128_null, find32_null]
    · have hR := h.right_eq p hn
      have hL := h.left_eq p hn
      have hdeep : ∀ b, p.length = 32 → A (b :: p) = NULL := by
        intro b h32
        by_contra hc
        have := h.depth (b :: p) hc
        simp only [List.length_cons] at this
        omega
      rw [ngx_radix128tree_find_loop, ngx_radix32tree_find_loop]
      simp only
      rw [if_pos hn, if_pos hn, hR, hL]
      rcases Nat.lt_or_ge d 32 with hlt | hge
      · have hnext : (if key (d / 8) &&& (0x80 >>> (d % 8)) ≠ 0 then A (true :: p)
            else A (false :: p)) =
            A ((decide (word32 key &&& (0x80000000 >>> d) ≠ 0)) :: p) := by
          by_cases hkb : key (d / 8) &&& (0x80 >>> (d % 8)) ≠ 0
          · rw [if_pos hkb, decide_eq_true ((byte_key key hk d hlt).1 hkb)]
          · rw [if_neg hkb,
              decide_eq_false (fun h => hkb ((byte_key key hk d hlt).2 h))]
        have hnext' : (if word32 key &&& (0x80000000 >>> d) ≠ 0 then A (true :: p)
            else A (false :: p)) =
            A ((decide (word32 key &&& (0x80000000 >>> d) ≠ 0)) :: p) := by
          by_cases hkb : word32 key &&& (0x80000000 >>> d) ≠ 0
          · rw [if_pos hkb, decide_eq_true hkb]
          · rw [if_neg hkb, decide_eq_false hkb]
        rw [hnext, hnext', shift_bit,
          ← ih (d + 1) _ _ hlt (by simp only [List.length_cons]; omega)]
        obtain ⟨h1, h2⟩ := pos_step d hlt
        by_cases hb : (0x80 >>> (d % 8)) >>> 1 = 0
        · obtain ⟨a1, a2, a3⟩ := h1 hb
          rw [if_pos hb, a2, ← a3]
        · obtain ⟨a1, a2⟩ := h2 hb
          rw [if_neg hb, a2, ← a1]
      · have e : d = 32 := Nat.le_antisymm hd hge
        subst e
        rw [hdeep true hp, hdeep false hp]
        simp only [ite_self, find128_null, find32_null]

/-- `ngx_radix128tree_find` on a trie (no node deeper than 32) is `ngx_radix32tree_find` on
the word of the bytes 0..3 of the key. -/
theorem find128_eq {m : RxHeap} {tree : ngx_radix_tree_t} {A : List Bool → Nat}
    (h : RxRep m tree.root A) (key : Nat → Nat) (hk : IsBytes key) (fuel : Nat) :
    ngx_radix128tree_find fuel m tree key = ngx_radix32tree_find fuel m tree (word32 key) := by
  have := find128_loop_eq h key hk fuel 0 [] NGX_RADIX_NO_VALUE (by omega) rfl
  rw [h.root_eq] at this
  exact this

set_option maxRecDepth 100000 in
theorem rxAfter128_eq : rxRun128 34 rxOps128 rxInit.1 rxInit.2 = RxRes.done rxAfter128 :=
  done_getD_of_isDone _ _ (by decide!)

theorem rxOps128_short : ∀ op ∈ rxOps128, op.Short := by
  intro op hop
  simp only [rxOps128, List.mem_cons, List.mem_singleton, List.not_mem_nil, or_false] at hop
  rcases hop with rfl | rfl | rfl <;>
    exact ⟨by unfold IsBytes; decide, by unfold IsBytes; decide, by decide⟩

/-- C30: for every sequence of `ngx_radix128tree_insert` / `ngx_radix128tree_delete` calls
whose keys and masks are byte strings with the mask bytes 4..15 zero, the run from any
memory and tree record gives the same outcome (return codes, memory, tree record; also the
same null dereference or lack of fuel) as the run of `ngx_radix32tree_insert` /
`ngx_radix32tree_delete` on the big-endian words of the bytes 0..3; and on the trie that
such a run leaves, `ngx_radix128tree_find` on a 16-byte key returns a value, the one
`ngx_radix32tree_find` returns on the word of the key's first four bytes. -/
theorem ngx_radix128tree_mirror (fuel : Nat) (ops : List RxOp128)
    (hops : ∀ op ∈ ops, op.Short) :
    (∀ (m : RxHeap) (t : ngx_radix_tree_t),
      rxRun128 fuel ops m t = rxRun fuel (ops.map RxOp128.word) m t) ∧
    ∀ (m : RxHeap) (t : ngx_radix_tree_t) (A : List Bool → Nat) (L : List Nat)
      (r : RxHeap × ngx_radix_tree_t × List Int) (key : Nat → Nat),
      RxInv m t A L → 34 ≤ fuel → IsBytes key →
      rxRun128 fuel ops m t = RxRes.done r →
      ∃ v, ngx_radix128tree_find fuel r.1 r.2.1 key = some v ∧
        ngx_radix32tree_find fuel r.1 r.2.1 (word32 key) = some v := by
  have h1 := rxRun128_eq fuel ops hops
  refine ⟨h1, ?_⟩
  intro m t A L r key hI hfuel hk hrun
  rw [h1] at hrun
  obtain ⟨A', L', hI'⟩ := run_inv fuel hfuel _ m t A L hI r.1 r.2.1 r.2.2 hrun
  have hf := ngx_radix32tree_find_spec hI'.rep (word32 key) fuel hfuel
  exact ⟨_, (find128_eq hI'.rep key hk fuel).trans hf, hf⟩

theorem ngx_radix128tree_mirror_witness :
    rxRun128 34 rxOps128 rxInit.1 rxInit.2 =
      rxRun 34 (rxOps128.map RxOp128.word) rxInit.1 rxInit.2 ∧
    ∃ v, ngx_radix128tree_find 34 rxAfter128.1 rxAfter128.2.1 (bytesOf [10, 1, 2, 3, 9]) =
        some v ∧
      ngx_radix32tree_find 34 rxAfter128.1 rxAfter128.2.1 (word32 (bytesOf [10, 1, 2, 3, 9])) =
        some v := by
  obtain ⟨A, L, hI⟩ := rxInit_inv
  have h := ngx_radix128tree_mirror 34 rxOps128 rxOps128_short
  exact ⟨h.1 rxInit.1 rxInit.2,
    h.2 rxInit.1 rxInit.2 A L rxAfter128
      (bytesOf [10, 1, 2, 3, 9]) hI (by decide) (by unfold IsBytes; decide) rxAfter128_eq⟩

theorem alloc_pages (m : RxHeap) (tree : ngx_radix_tree_t) :
    ∀ y ∈ (ngx_radix_alloc m tree).2.pool.pages, y ∈ tree.pool.pages := by
  intro y hy
  unfold ngx_radix_alloc ngx_pmemalign at hy
  cases hp : tree.pool.pages with
  | nil =>
    rw [hp] at hy
    simp only at hy
    repeat (any_goals (split at hy))
    all_goals simp_all
  | cons p ps =>
    rw [hp] at hy
    simp only at hy
    repeat (any_goals (split at hy))
    all_goals simp_all

theorem alloc_ok {m : RxHeap} {tree : ngx_radix_tree_t} {x : Nat} {L' : List Nat}
    (h : RxFresh m tree (x :: L')) (hne : x ≠ NULL) (hno : NoNullPages tree.pool) :
    (ngx_radix_alloc m tree).1 = x ∧ RxFresh m (ngx_radix_alloc m tree).2 L' ∧
    (ngx_radix_alloc m tree).2.root = tree.root ∧
    NoNullPages (ngx_radix_alloc m tree).2.pool := by
  have hpages : NoNullPages (ngx_radix_alloc m tree).2.pool :=
    fun y hy => hno y (alloc_pages m tree y hy)
  obtain ⟨hroot, hal⟩ := alloc_spec h
  rcases hal with ⟨h0, -, -⟩ | ⟨L'', hL, hfr⟩
  · exfalso
    obtain ⟨F, hF, hL⟩ := h
    by_cases hf : tree.free ≠ NULL
    · unfold ngx_radix_alloc at h0
      rw [if_pos hf] at h0
      exact hf h0
    · have hf' : tree.free = NULL := not_not.1 hf
      have hFn := RxFresh_nil_free hF hf'
      subst hFn
      rw [List.nil_append] at hL
      by_cases hs : tree.size < ngx_radix_node_size
      · rw [slab_nil _ _ hs, List.nil_append] at hL
        cases hp : tree.pool.pages with
        | nil =>
          rw [hp] at hL
          simp [pageNodes] at hL
        | cons p ps =>
          have hp0 : p ≠ NULL := hno p (by rw [hp]; simp)
          unfold ngx_radix_alloc ngx_pmemalign at h0
          rw [if_neg hf, if_pos hs, hp] at h0
          simp only [if_neg hp0] at h0
          exact hp0 h0
      · unfold ngx_radix_alloc at h0
        rw [if_neg hf, if_neg hs] at h0
        rw [slab_cons _ _ (by omega)] at hL
        simp only [List.cons_append, List.cons.injEq] at hL
        exact hne (hL.1.trans h0)
  · simp only [List.cons.injEq] at hL
    obtain ⟨e1, e2⟩ := hL
    subst e2
    exact ⟨e1.symm, hfr, hroot, hpages⟩

/-- `ngx_radix32tree_insert` of a prefix whose node is missing and whose parent node is
there, when the allocator has a node `x` to give: `x` becomes the node of the prefix. -/
theorem insert_leaf {m : RxHeap} {tree : ngx_radix_tree_t} {A : List Bool → Nat} {x : Nat}
    {L' : List Nat} (h : RxInv m tree A (x :: L')) (hno : NoNullPages tree.pool)
    (key mask value fuel : Nat) (hfuel : 34 ≤ fuel) (hk : 1 ≤ maskLen mask)
    (hpar : A (kpath key (maskLen mask - 1)) ≠ NULL)
    (hmiss : A (kpath key (maskLen mask)) = NULL) :
    ∃ m' tree', ngx_radix32tree_insert fuel m tree key mask value = some (m', tree', NGX_OK) ∧
      RxInv m' tree' (Function.update A (kpath key (maskLen mask)) x) L' ∧
      NoNullPages tree'.pool ∧ m'.value = Function.update m.value x value := by
  have hroot : A (kpath key 0) ≠ NULL := by
    show A [] ≠ NULL
    rw [h.rep.root_eq]; exact h.rep.root_ne
  have hr0 : A (kpath key 0) = tree.root := h.rep.root_eq
  obtain ⟨d, -, hdL, hnd, hw⟩ := insert_walk_spec h.rep key mask fuel 0 (Nat.zero_le _)
    (by have := maskLen_le mask; omega) hroot
  rw [hr0] at hw
  have hx0 : x ≠ NULL := (h.sep x (by simp)).1
  rcases hw with ⟨rfl, -⟩ | ⟨hlt, hcn, e⟩
  · exact absurd hmiss hnd
  · have hd : d = maskLen mask - 1 := by
      by_contra hne
      exact hpar (h.rep.closed_path key hcn _ (by omega))
    have hd1 : d + 1 = maskLen mask := by omega
    obtain ⟨a1, a2, a3, a4⟩ := alloc_ok h.fresh hx0 hno
    obtain ⟨fuel, rfl⟩ : ∃ f, fuel = f + 2 := ⟨fuel - 2, by omega⟩
    have hlen : (kpath key d).length < 32 := by
      rw [kpath_length]
      have := maskLen_le mask
      omega
    have hc' : A (kbit key d :: kpath key d) = NULL := by
      have : kpath key (d + 1) = kbit key d :: kpath key d := rfl
      rw [← this]; exact hcn
    have h1 := inv_add_child h a3 a2 (kpath key d) (kbit key d) hnd hc' hlen
    have hkp : kbit key d :: kpath key d = kpath key (maskLen mask) := by
      rw [← hd1]; rfl
    rw [hkp] at h1
    refine ⟨(linkChild m (A (kpath key d)) x (kbit key d)).setValue x value,
      (ngx_radix_alloc m tree).2, ?_, h1.setValue _ _, a4, ?_⟩
    · have e' : ngx_radix32tree_insert_walk (fuel + 2) m key mask 0x80000000 tree.root
          tree.root = some (0x80000000 >>> d, A (kpath key d), NULL) := e
      unfold ngx_radix32tree_insert
      rw [e']
      simp only
      rw [if_neg (by simp)]
      rw [ngx_radix32tree_insert_grow, if_pos (maskLen_true mask d hlt)]
      simp only
      rw [a1, if_neg hx0, linkChild_eq, shift_bit, ngx_radix32tree_insert_grow, hd1,
        if_neg (maskLen_false mask)]
    · simp only [RxHeap.rx_setValue_value, linkChild_value, Function.update_idem]

theorem maskLen_levelMask : ∀ k, k ≤ 32 → maskLen (levelMask k) = k := by
  decide

theorem levelInc_eq : ∀ k, k < 32 → 0x80000000 >>> k = 2 ^ (32 - (k + 1)) := by
  decide

theorem kbit_testBit (key d : Nat) (hd : d < 32) : kbit key d = key.testBit (31 - d) := by
  unfold kbit
  rw [(pos_shift d hd).2]
  by_cases h : key.testBit (31 - d) = true
  · rw [h]
    exact decide_eq_true ((and_two_pow_ne_zero key (31 - d)).2 h)
  · have h' : key.testBit (31 - d) = false := by simpa using h
    rw [h']
    exact decide_eq_false (fun hc => h ((and_two_pow_ne_zero key (31 - d)).1 hc))

theorem pathIdx_kpath (key : Nat) (hkey : key < 2 ^ 32) : ∀ d, d ≤ 32 →
    pathIdx (kpath key d) = key / 2 ^ (32 - d) := by
  intro d
  induction d with
  | zero =>
    intro _
    rw [Nat.div_eq_of_lt hkey]
    rfl
  | succ d ih =>
    intro hd
    have ih' := ih (by omega)
    show 2 * pathIdx (kpath key d) + (if kbit key d = true then 1 else 0) = _
    rw [ih', kbit_testBit key d (by omega), Nat.testBit_to_div_mod]
    have e1 : 32 - d = (31 - d) + 1 := by omega
    have e2 : 32 - (d + 1) = 31 - d := by omega
    rw [e1, e2, Nat.pow_succ, ← Nat.div_div_eq_div_mul]
    generalize key / 2 ^ (31 - d) = y
    by_cases hy : y % 2 = 1
    · simp only [hy, decide_True, if_true]
      omega
    · simp only [hy, decide_False]
      simp only [Bool.false_eq_true, if_false]
      omega

theorem pathIdx_lt : ∀ q : List Bool, pathIdx q < 2 ^ q.length := by
  intro q
  induction q with
  | nil => simp [pathIdx]
  | cons b q ih =>
    simp only [pathIdx, List.length_cons, Nat.pow_succ]
    split <;> omega

theorem pathIdx_inj : ∀ q1 q2 : List Bool, q1.length = q2.length → pathIdx q1 = pathIdx q2 →
    q1 = q2 := by
  intro q1
  induction q1 with
  | nil =>
    intro q2 hl _
    cases q2 with
    | nil => rfl
    | cons b q => simp at hl
  | cons b q ih =>
    intro q2 hl hi
    cases q2 with
    | nil => simp at hl
    | cons b2 q2 =>
      simp only [List.length_cons, Nat.add_right_cancel_iff] at hl
      simp only [pathIdx] at hi
      have hq : pathIdx q = pathIdx q2 := by
        cases b <;> cases b2 <;> simp at hi <;> omega
      have hb : b = b2 := by
        cases b <;> cases b2 <;> simp at hi ⊢ <;> omega
      rw [ih q2 hl hq, hb]

/-- The keys of level `k`: the `j`-th key `j * 2 ^ (32 - k)` has the path of index `j`, and
the counter wraps to 0 after the last key, not before. -/
theorem level_key (k j : Nat) (hk : k ≤ 32) (hj : j < 2 ^ k) :
    j * 2 ^ (32 - k) < 2 ^ 32 ∧ pathIdx (kpath (j * 2 ^ (32 - k)) k) = j ∧
    (j + 1 = 2 ^ k → (j * 2 ^ (32 - k) + 2 ^ (32 - k)) % 2 ^ 32 = 0) ∧
    (j + 1 < 2 ^ k → (j * 2 ^ (32 - k) + 2 ^ (32 - k)) % 2 ^ 32 = (j + 1) * 2 ^ (32 - k) ∧
      (j + 1) * 2 ^ (32 - k) ≠ 0) := by
  have hc : 0 < 2 ^ (32 - k) := Nat.two_pow_pos _
  have hprod : 2 ^ k * 2 ^ (32 - k) = 2 ^ 32 := by
    rw [← Nat.pow_add]
    congr 1
    omega
  have hlt : j * 2 ^ (32 - k) < 2 ^ 32 := by
    rw [← hprod]
    exact (Nat.mul_lt_mul_right hc).2 hj
  refine ⟨hlt, ?_, ?_, ?_⟩
  · rw [pathIdx_kpath _ hlt k hk, Nat.mul_div_cancel _ hc]
  · intro e
    rw [← Nat.succ_mul, Nat.succ_eq_add_one, e, hprod, Nat.mod_self]
  · intro h1
    have h2 : (j + 1) * 2 ^ (32 - k) < 2 ^ 32 := by
      rw [← hprod]
      exact (Nat.mul_lt_mul_right hc).2 h1
    rw [← Nat.succ_mul, Nat.succ_eq_add_one, Nat.mod_eq_of_lt h2]
    exact ⟨rfl, Nat.mul_ne_zero (by omega) (by omega)⟩

theorem shape_step {A : List Bool → Nat} {k j x : Nat} {t : List Bool}
    (hshape : ∀ q, A q ≠ NULL ↔ (q.length < k ∨ (q.length = k ∧ pathIdx q < j)))
    (ht : t.length = k) (hi : pathIdx t = j) (hx : x ≠ NULL) :
    ∀ q, Function.update A t x q ≠ NULL ↔
      (q.length < k ∨ (q.length = k ∧ pathIdx q < j + 1)) := by
  intro q
  by_cases hq : q = t
  · subst hq
    rw [Function.update_same]
    constructor
    · intro _
      exact Or.inr ⟨ht, by omega⟩
    · intro _
      exact hx
  · rw [Function.update_noteq hq, hshape q]
    constructor
    · rintro (h | ⟨h1, h2⟩)
      · exact Or.inl h
      · exact Or.inr ⟨h1, by omega⟩
    · rintro (h | ⟨h1, h2⟩)
      · exact Or.inl h
      · refine Or.inr ⟨h1, ?_⟩
        have hne : pathIdx q ≠ j := by
          intro e
          exact hq (pathIdx_inj q t (by omega) (by omega))
        omega

theorem shape_full {A : List Bool → Nat} {k : Nat}
    (hshape : ∀ q, A q ≠ NULL ↔ (q.length < k ∨ (q.length = k ∧ pathIdx q < 2 ^ k))) :
    ∀ q, A q ≠ NULL ↔ q.length ≤ k := by
  intro q
  rw [hshape q]
  constructor
  · rintro (h | ⟨h1, -⟩) <;> omega
  · intro h
    rcases Nat.lt_or_ge q.length k with h1 | h1
    · exact Or.inl h1
    · have e : q.length = k := by omega
      refine Or.inr ⟨e, ?_⟩
      rw [← e]
      exact pathIdx_lt q

/-- One level of the preallocation, from its `j`-th key on, on a trie that is complete
above level `k` and holds the first `j` nodes of level `k`: the loop needs exactly
`2 ^ k - j` rounds and completes the level. -/
theorem create_level_complete (k fuel mask : Nat) (hk1 : 1 ≤ k) (hk : k ≤ 32)
    (hmask : maskLen mask = k) (hfuel : 34 ≤ fuel) :
    ∀ (n j : Nat) (m : RxHeap) (tree : ngx_radix_tree_t) (A : List Bool → Nat) (L : List Nat),
    j < 2 ^ k → RxInv m tree A L → NoNullPages tree.pool →
    (∀ q, A q ≠ NULL ↔ (q.length < k ∨ (q.length = k ∧ pathIdx q < j))) →
    (∀ q, A q ≠ NULL → m.value (A q) = NGX_RADIX_NO_VALUE) → 2 ^ k - j ≤ L.length →
    (n < 2 ^ k - j →
      ngx_radix_tree_create_level n fuel m tree (j * 2 ^ (32 - k)) mask (2 ^ (32 - k)) = none) ∧
    (2 ^ k - j ≤ n →
      ∃ r A' L', ngx_radix_tree_create_level n fuel m tree (j * 2 ^ (32 - k)) mask
          (2 ^ (32 - k)) = some r ∧
        RxInv r.1 r.2 A' L' ∧ NoNullPages r.2.pool ∧ (∀ q, A' q ≠ NULL ↔ q.length ≤ k) ∧
        (∀ q, A' q ≠ NULL → r.1.value (A' q) = NGX_RADIX_NO_VALUE) ∧
        L'.length + (2 ^ k - j) = L.length) := by
  intro n
  induction n with
  | zero =>
    intro j m tree A L hj _ _ _ _ _
    exact ⟨fun _ => rfl, fun h => by omega⟩
  | succ n ih =>
    intro j m tree A L hj h hno hshape hval hroom
    obtain ⟨hkey, hidx, hwrap, hnext⟩ := level_key k j hk hj
    cases L with
    | nil => simp only [List.length_nil] at hroom; omega
    | cons x L' =>
      have hx0 : x ≠ NULL := (h.sep x (by simp)).1
      have hpar : A (kpath (j * 2 ^ (32 - k)) (maskLen mask - 1)) ≠ NULL := by
        rw [hshape]
        left
        rw [kpath_length, hmask]
        omega
      have hmiss : A (kpath (j * 2 ^ (32 - k)) (maskLen mask)) = NULL := by
        by_contra hc
        rw [hmask] at hc
        rcases (hshape _).1 hc with h1 | ⟨-, h2⟩
        · rw [kpath_length] at h1
          omega
        · rw [hidx] at h2
          omega
      obtain ⟨m', tree', e, hI', hno', hv'⟩ := insert_leaf h hno (j * 2 ^ (32 - k)) mask
        NGX_RADIX_NO_VALUE fuel hfuel (by omega) hpar hmiss
      rw [hmask] at hI'
      have hshape' := shape_step hshape (kpath_length (j * 2 ^ (32 - k)) k) hidx hx0
      have hval' : ∀ q, Function.update A (kpath (j * 2 ^ (32 - k)) k) x q ≠ NULL →
          m'.value (Function.update A (kpath (j * 2 ^ (32 - k)) k) x q) =
            NGX_RADIX_NO_VALUE := by
        intro q hq
        rw [hv']
        by_cases hqt : q = kpath (j * 2 ^ (32 - k)) k
        · rw [hqt, Function.update_same, Function.update_same]
        · rw [Function.update_noteq hqt] at hq ⊢
          rw [Function.update_apply]
          split
          · rfl
          · exact hval q hq
      rw [ngx_radix_tree_create_level, e]
      simp only
      rw [if_neg (show ¬ (NGX_OK ≠ NGX_OK) from fun hc => hc rfl)]
      simp only [List.length_cons] at hroom ⊢
      rcases Nat.lt_or_ge (j + 1) (2 ^ k) with hlt | hge
      · obtain ⟨e1, e2⟩ := hnext hlt
        rw [e1, if_pos e2]
        have harith : ∀ a : Nat, a + (2 ^ k - (j + 1)) = L'.length →
            a + (2 ^ k - j) = L'.length + 1 := by
          intro a ha
          omega
        have hn1 : n + 1 < 2 ^ k - j → n < 2 ^ k - (j + 1) := by omega
        have hn2 : 2 ^ k - j ≤ n + 1 → 2 ^ k - (j + 1) ≤ n := by omega
        have hroom' : 2 ^ k - (j + 1) ≤ L'.length := by omega
        have hih := ih (j + 1) m' tree' _ L' hlt hI' hno' hshape' hval' hroom'
        refine ⟨fun hn => hih.1 (hn1 hn), fun hn => ?_⟩
        obtain ⟨r, A', L'', a1, a2, a3, a4, a5, a6⟩ := hih.2 (hn2 hn)
        exact ⟨r, A', L'', a1, a2, a3, a4, a5, harith _ a6⟩
      · have hj1 : j + 1 = 2 ^ k := by omega
        rw [hwrap hj1, if_neg (by simp)]
        refine ⟨fun hn => by omega, fun _ => ?_⟩
        rw [hj1] at hshape'
        exact ⟨(m', tree'), _, L', rfl, hI', hno', shape_full hshape', hval', by omega⟩

theorem mem_pathsOfLen : ∀ (n : Nat) (q : List Bool), q ∈ pathsOfLen n ↔ q.length = n := by
  intro n
  induction n with
  | zero =>
    intro q
    simp [pathsOfLen]
  | succ n ih =>
    intro q
    simp only [pathsOfLen, List.mem_append, List.mem_map]
    constructor
    · rintro (⟨a, ha, rfl⟩ | ⟨a, ha, rfl⟩) <;> simp [(ih a).1 ha]
    · intro h
      cases q with
      | nil => simp at h
      | cons b q =>
        simp only [List.length_cons, Nat.add_right_cancel_iff] at h
        cases b
        · exact Or.inl ⟨q, (ih q).2 h, rfl⟩
        · exact Or.inr ⟨q, (ih q).2 h, rfl⟩

theorem length_pathsOfLen : ∀ n, (pathsOfLen n).length = 2 ^ n := by
  intro n
  induction n with
  | zero => rfl
  | succ n ih =>
    simp only [pathsOfLen, List.length_append, List.length_map, ih, Nat.pow_succ]
    omega

theorem nodup_pathsOfLen : ∀ n, (pathsOfLen n).Nodup := by
  intro n
  induction n with
  | zero => simp [pathsOfLen]
  | succ n ih =>
    simp only [pathsOfLen]
    rw [List.nodup_append]
    refine ⟨ih.map (fun a b e => (List.cons.inj e).2), ih.map (fun a b e => (List.cons.inj e).2),
      ?_⟩
    intro q h1 h2
    rw [List.mem_map] at h1 h2
    obtain ⟨a, -, rfl⟩ := h1
    obtain ⟨b, -, e⟩ := h2
    simp at e

theorem mem_pathsUpTo : ∀ (p : Nat) (q : List Bool), q ∈ pathsUpTo p ↔ q.length ≤ p := by
  intro p
  induction p with
  | zero =>
    intro q
    rw [pathsUpTo, mem_pathsOfLen]
    omega
  | succ p ih =>
    intro q
    rw [pathsUpTo, List.mem_append, ih, mem_pathsOfLen]
    omega

theorem length_pathsUpTo : ∀ p, (pathsUpTo p).length = 2 ^ (p + 1) - 1 := by
  intro p
  induction p with
  | zero => rfl
  | succ p ih =>
    rw [pathsUpTo, List.length_append, ih, length_pathsOfLen]
    have h1 : 2 ^ (p + 1 + 1) = 2 * 2 ^ (p + 1) := by rw [Nat.pow_succ]; omega
    have h2 : 0 < 2 ^ (p + 1) := Nat.two_pow_pos _
    omega

theorem nodup_pathsUpTo : ∀ p, (pathsUpTo p).Nodup := by
  intro p
  induction p with
  | zero => exact nodup_pathsOfLen 0
  | succ p ih =>
    rw [pathsUpTo, List.nodup_append]
    refine ⟨ih, nodup_pathsOfLen _, ?_⟩
    intro q h1 h2
    rw [mem_pathsUpTo] at h1
    rw [mem_pathsOfLen] at h2
    omega

theorem pageNodes_length (ps : List Nat) (h : ∀ y ∈ ps, y ≠ NULL) :
    (pageNodes ps).length = ngx_pagesize / ngx_radix_node_size * ps.length := by
  induction ps with
  | nil => simp [pageNodes]
  | cons p ps ih =>
    rw [pageNodes_cons, if_neg (h p (by simp)), List.length_append,
      ih (fun y hy => h y (List.mem_cons_of_mem _ hy))]
    simp only [slab, List.length_map, List.length_range, List.length_cons]
    rw [Nat.mul_succ]
    omega

/-- All levels of the preallocation after the first `k`: each level `i` takes `2 ^ i`
nodes and the trie ends complete down to level `k + p`. -/
theorem create_levels_complete (fuel : Nat) (hfuel : 34 ≤ fuel) :
    ∀ (p k : Nat) (m : RxHeap) (tree : ngx_radix_tree_t) (A : List Bool → Nat) (L : List Nat),
    k + p ≤ 32 → (1 ≤ p → 2 ^ (k + p) ≤ fuel) → RxInv m tree A L → NoNullPages tree.pool →
    (∀ q, A q ≠ NULL ↔ q.length ≤ k) →
    (∀ q, A q ≠ NULL → m.value (A q) = NGX_RADIX_NO_VALUE) →
    2 ^ (k + p + 1) - 2 ^ (k + 1) ≤ L.length →
    ∃ r A' L', ngx_radix_tree_create_levels p fuel m tree (levelMask k) (0x80000000 >>> k) =
        some r ∧
      RxInv r.1 r.2 A' L' ∧ NoNullPages r.2.pool ∧ (∀ q, A' q ≠ NULL ↔ q.length ≤ k + p) ∧
      (∀ q, A' q ≠ NULL → r.1.value (A' q) = NGX_RADIX_NO_VALUE) ∧
      L'.length + (2 ^ (k + p + 1) - 2 ^ (k + 1)) = L.length := by
  intro p
  induction p with
  | zero =>
    intro k m tree A L _ _ h hno hshape hval _
    exact ⟨(m, tree), A, L, rfl, h, hno, hshape, hval, by simp⟩
  | succ p ih =>
    intro k m tree A L hk hf2 h hno hshape hval hroom
    have hP : 2 ^ (k + 1 + 1) = 2 * 2 ^ (k + 1) := by rw [Nat.pow_succ]; omega
    have hQ : 2 ^ (k + 1 + 1) ≤ 2 ^ (k + (p + 1) + 1) :=
      Nat.pow_le_pow_right (by omega) (by omega)
    have hR : 2 ^ (k + 1) ≤ 2 ^ (k + (p + 1)) := Nat.pow_le_pow_right (by omega) (by omega)
    have hpos : 0 < 2 ^ (k + 1) := Nat.two_pow_pos _
    have hf3 := hf2 (by omega)
    have hshape0 : ∀ q, A q ≠ NULL ↔
        (q.length < k + 1 ∨ (q.length = k + 1 ∧ pathIdx q < 0)) := by
      intro q
      rw [hshape q]
      omega
    have hlev := (create_level_complete (k + 1) fuel (levelMask (k + 1)) (by omega) (by omega)
      (maskLen_levelMask (k + 1) (by omega)) hfuel fuel 0 m tree A L hpos h hno hshape0 hval
      (by omega)).2 (by omega)
    obtain ⟨r1, A1, L1, e1, hI1, hno1, hshape1, hval1, hlen1⟩ := hlev
    obtain ⟨m1, t1⟩ := r1
    rw [Nat.zero_mul, ← levelInc_eq k (by omega)] at e1
    have e1' : ngx_radix_tree_create_level fuel fuel m tree 0
        (levelMask k >>> 1 ||| 0x80000000) (0x80000000 >>> k) = some (m1, t1) := e1
    have e3 : k + 1 + p = k + (p + 1) := by omega
    obtain ⟨r, A', L', e2, hI2, hno2, hshape2, hval2, hlen2⟩ :=
      ih (k + 1) m1 t1 A1 L1 (by omega) (fun _ => by rw [e3]; exact hf3) hI1 hno1 hshape1 hval1
        (by rw [e3]; omega)
    rw [e3] at hshape2 hlen2
    refine ⟨r, A', L', ?_, hI2, hno2, hshape2, hval2, by omega⟩
    rw [ngx_radix_tree_create_levels, e1', shift_bit]
    exact e2

theorem slab_length (start size : Nat) :
    (slab start size).length = size / ngx_radix_node_size := by
  unfold slab
  rw [List.length_map, List.length_range]

theorem create_root_eq (fuel : Nat) (m : RxHeap) (a pg : Nat) (as ps : List Nat)
    (ha : a ≠ NULL) (hpg0 : pg ≠ NULL) :
    ngx_radix_tree_create fuel m ⟨a :: as, pg :: ps⟩ 0 =
      some (((((m.setRight pg NULL).setLeft pg NULL).setParent pg NULL).setValue pg
        NGX_RADIX_NO_VALUE),
        ⟨pg, ⟨as, ps⟩, NULL, pg + ngx_radix_node_size,
          ngx_pagesize - ngx_radix_node_size⟩) := by
  have e : ngx_radix_alloc m ⟨NULL, ⟨as, pg :: ps⟩, NULL, NULL, 0⟩ =
      (pg, ⟨NULL, ⟨as, ps⟩, NULL, pg + ngx_radix_node_size,
        ngx_pagesize - ngx_radix_node_size⟩) := by
    unfold ngx_radix_alloc
    rw [if_neg (fun h => h rfl)]
    have hs : (0 : Nat) < ngx_radix_node_size := by decide
    simp only
    rw [if_pos hs]
    show (if pg = NULL then _ else _) = _
    rw [if_neg hpg0]
    rfl
  unfold ngx_radix_tree_create
  show (if a = NULL then none else _) = _
  rw [if_neg ha]
  simp only [ngx_palloc]
  rw [e]
  simp only
  rw [if_neg hpg0]
  exact if_pos trivial

/-- `ngx_radix_tree_create(pool, 0)` on a pool that can give the tree record and a page:
the trie holds a valueless root and all other slots of the pool's pages are left. -/
theorem create_root (fuel : Nat) (m : RxHeap) (pool : ngx_pool_t) (hok : PoolOK pool)
    (hpal : (ngx_palloc pool).1 ≠ NULL) (hno : NoNullPages pool) (hpg : pool.pages ≠ []) :
    ∃ r L, ngx_radix_tree_create fuel m pool 0 = some r ∧
      RxInv r.1 r.2 (rootOnly r.2.root) L ∧ NoNullPages r.2.pool ∧
      r.1.value r.2.root = NGX_RADIX_NO_VALUE ∧
      L.length + 1 = ngx_pagesize / ngx_radix_node_size * pool.pages.length := by
  obtain ⟨pallocs, pages⟩ := pool
  cases pages with
  | nil => exact absurd rfl hpg
  | cons pg ps =>
    have hpg0 : pg ≠ NULL := hno pg (List.mem_cons_self _ _)
    have hps : ∀ y ∈ ps, y ≠ NULL := fun y hy => hno y (List.mem_cons_of_mem _ hy)
    cases pallocs with
    | nil => exact absurd rfl hpal
    | cons a as =>
      have ha : a ≠ NULL := hpal
      have hc := create_root_eq fuel m a pg as ps ha hpg0
      obtain ⟨L, hI, hv⟩ := ngx_radix_tree_create_spec fuel m _ hok _ hc
      refine ⟨_, L, hc, hI, hps, hv, ?_⟩
      obtain ⟨F, hF, hL⟩ := hI.fresh
      have hFn := RxFresh_nil_free hF rfl
      subst hFn
      have h1 : (ngx_pagesize - ngx_radix_node_size) / ngx_radix_node_size = 127 := by decide
      have h2 : ngx_pagesize / ngx_radix_node_size = 128 := by decide
      have hlen : L.length = 127 + 128 * ps.length := by
        rw [hL, List.nil_append, List.length_append, slab_length, pageNodes_length ps hps]
        show (ngx_pagesize - ngx_radix_node_size) / ngx_radix_node_size +
          ngx_pagesize / ngx_radix_node_size * ps.length = _
        rw [h1, h2]
      rw [hlen, h2, List.length_cons]
      omega

theorem preallocDepth_nat (k : Nat) : preallocDepth (k : Int) = k := by
  unfold preallocDepth
  rw [if_neg (by omega)]
  simp

/-- `ngx_radix_tree_create(pool, k)` on a pool with enough pages gives the complete trie of
depth `k`. -/
theorem create_complete (fuel : Nat) (m : RxHeap) (pool : ngx_pool_t) (k : Nat) (hk : k ≤ 32)
    (hfuel : 34 ≤ fuel) (hfuel2 : 1 ≤ k → 2 ^ k ≤ fuel) (hok : PoolOK pool)
    (hpal : (ngx_palloc pool).1 ≠ NULL) (hno : NoNullPages pool)
    (hroom : 2 ^ (k + 1) - 1 ≤ ngx_pagesize / ngx_radix_node_size * pool.pages.length) :
    ∃ r A L, ngx_radix_tree_create fuel m pool (k : Int) = some r ∧ RxInv r.1 r.2 A L ∧
      NoNullPages r.2.pool ∧ (∀ q, A q ≠ NULL ↔ q.length ≤ k) ∧
      (∀ q, A q ≠ NULL → r.1.value (A q) = NGX_RADIX_NO_VALUE) ∧
      L.length + (2 ^ (k + 1) - 1) =
        ngx_pagesize / ngx_radix_node_size * pool.pages.length := by
  have hpos : 2 ≤ 2 ^ (k + 1) := by
    have := Nat.pow_le_pow_right (show 0 < 2 by omega) (show 1 ≤ k + 1 by omega)
    simpa using this
  have hpg : pool.pages ≠ [] := by
    intro e
    rw [e] at hroom
    simp only [List.length_nil, Nat.mul_zero] at hroom
    omega
  obtain ⟨r0, L0, e0, hI0, hno0, hv0, hlen0⟩ := create_root fuel m pool hok hpal hno hpg
  have hshape0 : ∀ q, rootOnly r0.2.root q ≠ NULL ↔ q.length ≤ 0 := by
    intro q
    cases q with
    | nil =>
      simp only [rootOnly, if_true, List.length_nil, Nat.le_refl, iff_true]
      exact hI0.rep.root_ne
    | cons b q => simp [rootOnly]
  have hval0 : ∀ q, rootOnly r0.2.root q ≠ NULL →
      r0.1.value (rootOnly r0.2.root q) = NGX_RADIX_NO_VALUE := by
    intro q hq
    have hq0 := (hshape0 q).1 hq
    have : q = [] := List.length_eq_zero.1 (by omega)
    subst this
    simpa [rootOnly] using hv0
  rw [create_eq_levels, e0]
  simp only
  by_cases hk0 : k = 0
  · subst hk0
    rw [if_pos (by simp)]
    exact ⟨r0, _, L0, rfl, hI0, hno0, hshape0, hval0, hlen0⟩
  · rw [if_neg (by omega), preallocDepth_nat]
    have h := create_levels_complete fuel hfuel k 0 r0.1 r0.2 _ L0 (by omega)
      (fun _ => by rw [Nat.zero_add]; exact hfuel2 (by omega)) hI0 hno0 hshape0 hval0
      (by simp only [Nat.zero_add] at *; omega)
    obtain ⟨r, A', L', e, hI, hno', hshape, hval, hlen⟩ := h
    simp only [Nat.zero_add] at hshape hlen
    refine ⟨r, A', L', e, hI, hno', hshape, hval, ?_⟩
    have h2 : 2 ^ (0 + 1) = 2 := rfl
    rw [h2] at hlen
    omega

/-- C28: for every preallocation depth `p` with `1 <= p <= 32`, on a pool that gives the
tree record and whose pages (none of them `NULL`) hold at least `2^(p+1) - 1` node slots,
`ngx_radix_tree_create(pool, p)` returns, given fuel `max 34 (2^p)`, a trie that is the
complete binary tree of depth `p`: it has a node at a path exactly when the path is no
longer than `p`, these are `2^(p+1) - 1` distinct nodes, and each holds
`NGX_RADIX_NO_VALUE`.  For each level `k <= p`, the `do ... while (key)` loop of the level,
run on the trie that `ngx_radix_tree_create(pool, k - 1)` returns, ends within `n` rounds
exactly when `2^k <= n`: the key counter is back at 0 after `2^k` steps and not before. -/
theorem ngx_radix_tree_create_complete (fuel : Nat) (m : RxHeap) (pool : ngx_pool_t) (p : Nat)
    (hp1 : 1 ≤ p) (hp : p ≤ 32) (hfuel : 34 ≤ fuel) (hfuel2 : 2 ^ p ≤ fuel) (hok : PoolOK pool)
    (hpal : (ngx_palloc pool).1 ≠ NULL) (hno : NoNullPages pool)
    (hroom : 2 ^ (p + 1) - 1 ≤ ngx_pagesize / ngx_radix_node_size * pool.pages.length) :
    ∃ r A L, ngx_radix_tree_create fuel m pool (p : Int) = some r ∧ RxInv r.1 r.2 A L ∧
      (∀ q, A q ≠ NULL ↔ q.length ≤ p) ∧
      ((pathsUpTo p).map A).Nodup ∧ ((pathsUpTo p).map A).length = 2 ^ (p + 1) - 1 ∧
      (∀ x, (x ≠ NULL ∧ ∃ q, A q = x) ↔ x ∈ (pathsUpTo p).map A) ∧
      (∀ q, A q ≠ NULL → r.1.value (A q) = NGX_RADIX_NO_VALUE) ∧
      ∀ k, 1 ≤ k → k ≤ p →
        ∃ r0, ngx_radix_tree_create fuel m pool ((k - 1 : Nat) : Int) = some r0 ∧
          ∀ n, ngx_radix_tree_create_level n fuel r0.1 r0.2 0 (levelMask k)
            (0x80000000 >>> (k - 1)) = none ↔ n < 2 ^ k := by
  obtain ⟨r, A, L, e, hI, -, hshape, hval, -⟩ := create_complete fuel m pool p hp hfuel
    (fun _ => hfuel2) hok hpal hno hroom
  refine ⟨r, A, L, e, hI, hshape, ?_, ?_, ?_, hval, ?_⟩
  · refine (nodup_pathsUpTo p).map_on ?_
    intro a ha b _ hab
    exact hI.rep.inj a b ((hshape a).2 ((mem_pathsUpTo p a).1 ha)) hab
  · rw [List.length_map, length_pathsUpTo]
  · intro x
    rw [List.mem_map]
    constructor
    · rintro ⟨hx, q, rfl⟩
      exact ⟨q, (mem_pathsUpTo p q).2 ((hshape q).1 hx), rfl⟩
    · rintro ⟨q, hq, rfl⟩
      exact ⟨(hshape q).2 ((mem_pathsUpTo p q).1 hq), q, rfl⟩
  · intro k hk1 hkp
    have hpow : 2 ^ k ≤ 2 ^ p := Nat.pow_le_pow_right (by omega) hkp
    have hpow1 : 2 ^ (k - 1) ≤ 2 ^ p := Nat.pow_le_pow_right (by omega) (by omega)
    have hpow2 : 2 ^ (k + 1) ≤ 2 ^ (p + 1) := Nat.pow_le_pow_right (by omega) (by omega)
    have hk2 : 2 ^ (k + 1) = 2 * 2 ^ k := by rw [Nat.pow_succ]; omega
    have hk3 : 2 ^ k = 2 * 2 ^ (k - 1) := by
      obtain ⟨j, rfl⟩ : ∃ j, k = j + 1 := ⟨k - 1, by omega⟩
      rw [Nat.pow_succ, Nat.add_sub_cancel]
      omega
    have hk4 : k - 1 + 1 = k := by omega
    have hposk : 0 < 2 ^ k := Nat.two_pow_pos _
    obtain ⟨r0, A0, L0, e0, hI0, hno0, hshape0, hval0, hlen0⟩ := create_complete fuel m pool
      (k - 1) (by omega) hfuel (fun _ => by omega) hok hpal hno (by rw [hk4]; omega)
    rw [hk4] at hlen0
    refine ⟨r0, e0, fun n => ?_⟩
    have hshape1 : ∀ q, A0 q ≠ NULL ↔ (q.length < k ∨ (q.length = k ∧ pathIdx q < 0)) := by
      intro q
      rw [hshape0 q]
      omega
    have hlev := create_level_complete k fuel (levelMask k) hk1 (by omega)
      (maskLen_levelMask k (by omega)) hfuel n 0 r0.1 r0.2 A0 L0 hposk hI0 hno0 hshape1 hval0
      (by omega)
    have hinc : 0x80000000 >>> (k - 1) = 2 ^ (32 - k) := by
      rw [levelInc_eq (k - 1) (by omega), hk4]
    rw [Nat.zero_mul, ← hinc] at hlev
    constructor
    · intro hnone
      by_contra hc
      obtain ⟨r1, -, -, e1, -⟩ := hlev.2 (by omega)
      rw [hnone] at e1
      exact absurd e1 (by simp)
    · intro hn
      exact hlev.1 (by omega)

theorem rxPool_pages : NoNullPages rxPool := by
  intro y hy
  simp only [rxPool, List.mem_singleton] at hy
  subst hy
  decide

theorem ngx_radix_tree_create_complete_witness :
    ∃ r A L, ngx_radix_tree_create 34 rxM0 rxPool ((2 : Nat) : Int) = some r ∧
      RxInv r.1 r.2 A L ∧ (∀ q, A q ≠ NULL ↔ q.length ≤ 2) ∧
      ((pathsUpTo 2).map A).Nodup ∧ ((pathsUpTo 2).map A).length = 2 ^ (2 + 1) - 1 ∧
      (∀ x, (x ≠ NULL ∧ ∃ q, A q = x) ↔ x ∈ (pathsUpTo 2).map A) ∧
      (∀ q, A q ≠ NULL → r.1.value (A q) = NGX_RADIX_NO_VALUE) ∧
      ∀ k, 1 ≤ k → k ≤ 2 →
        ∃ r0, ngx_radix_tree_create 34 rxM0 rxPool ((k - 1 : Nat) : Int) = some r0 ∧
          ∀ n, ngx_radix_tree_create_level n 34 r0.1 r0.2 0 (levelMask k)
            (0x80000000 >>> (k - 1)) = none ↔ n < 2 ^ k :=
  ngx_radix_tree_create_complete 34 rxM0 rxPool 2 (by decide) (by decide) (by decide)
    (by decide) rxPool_ok (by decide) rxPool_pages (by decide)

theorem maskLen_top : ∀ k, k ≤ 32 → maskLen (2 ^ 32 - 2 ^ (32 - k)) = k := by
  decide

theorem top_bits : ∀ k, k ≤ 32 → ∀ d, d < 32 →
    ((0x80000000 >>> d) &&& (2 ^ 32 - 2 ^ (32 - k)) ≠ 0 ↔ d < k) := by
  decide

theorem maskLen_leadMask (mask : Nat) : maskLen (leadMask mask) = maskLen mask :=
  maskLen_top (maskLen mask) (maskLen_le mask)

theorem insert_walk_mask (m : RxHeap) (key m1 m2 : Nat) (hm : maskLen m1 = maskLen m2) :
    ∀ (fuel d node next : Nat), d ≤ maskLen m1 →
    ngx_radix32tree_insert_walk fuel m key m1 (0x80000000 >>> d) node next =
      ngx_radix32tree_insert_walk fuel m key m2 (0x80000000 >>> d) node next := by
  intro fuel
  induction fuel with
  | zero => intro d node next _; rfl
  | succ fuel ih =>
    intro d node next hd
    rw [ngx_radix32tree_insert_walk, ngx_radix32tree_insert_walk]
    rcases Nat.lt_or_ge d (maskLen m1) with hlt | hge
    · rw [if_pos (maskLen_true m1 d hlt), if_pos (maskLen_true m2 d (hm ▸ hlt))]
      simp only [shift_bit]
      rw [ih (d + 1) _ _ hlt]
    · have e : d = maskLen m1 := Nat.le_antisymm hd hge
      have h1 := maskLen_false m1
      have h2 := maskLen_false m2
      rw [← e] at h1
      rw [← hm, ← e] at h2
      rw [if_neg h1, if_neg h2]

theorem insert_grow_mask (key m1 m2 : Nat) (hm : maskLen m1 = maskLen m2) :
    ∀ (fuel d : Nat) (m : RxHeap) (tree : ngx_radix_tree_t) (node : Nat), d ≤ maskLen m1 →
    ngx_radix32tree_insert_grow fuel m tree key m1 (0x80000000 >>> d) node =
      ngx_radix32tree_insert_grow fuel m tree key m2 (0x80000000 >>> d) node := by
  intro fuel
  induction fuel with
  | zero => intro d m tree node _; rfl
  | succ fuel ih =>
    intro d m tree node hd
    rw [ngx_radix32tree_insert_grow, ngx_radix32tree_insert_grow]
    rcases Nat.lt_or_ge d (maskLen m1) with hlt | hge
    · rw [if_pos (maskLen_true m1 d hlt), if_pos (maskLen_true m2 d (hm ▸ hlt))]
      simp only [shift_bit]
      rw [ih (d + 1) _ _ _ hlt]
    · have e : d = maskLen m1 := Nat.le_antisymm hd hge
      have h1 := maskLen_false m1
      have h2 := maskLen_false m2
      rw [← e] at h1
      rw [← hm, ← e] at h2
      rw [if_neg h1, if_neg h2]

theorem insert_walk_depth (m : RxHeap) (key mask : Nat) :
    ∀ (fuel d node next : Nat) (r : Nat × Nat × Nat), d ≤ maskLen mask →
    ngx_radix32tree_insert_walk fuel m key mask (0x80000000 >>> d) node next = some r →
    ∃ d', d' ≤ maskLen mask ∧ r.1 = 0x80000000 >>> d' := by
  intro fuel
  induction fuel with
  | zero => intro d node next r _ e; simp [ngx_radix32tree_insert_walk] at e
  | succ fuel ih =>
    intro d node next r hd e
    rw [ngx_radix32tree_insert_walk] at e
    by_cases hc : (0x80000000 >>> d) &&& mask ≠ 0
    · rw [if_pos hc] at e
      simp only at e
      generalize (if key &&& (0x80000000 >>> d) ≠ 0 then m.right node else m.left node) = n1
        at e
      by_cases hn : n1 = NULL
      · rw [if_pos hn] at e
        simp only [Option.some.injEq] at e
        subst e
        exact ⟨d, hd, rfl⟩
      · rw [if_neg hn, shift_bit] at e
        have hlt : d < maskLen mask := by
          by_contra hge
          have e2 : d = maskLen mask := by omega
          rw [e2] at hc
          exact maskLen_false mask hc
        exact ih (d + 1) _ _ r hlt e
    · rw [if_neg hc] at e
      simp only [Option.some.injEq] at e
      subst e
      exact ⟨d, hd, rfl⟩

theorem insert_mask (fuel : Nat) (m : RxHeap) (tree : ngx_radix_tree_t)
    (key m1 m2 value : Nat) (hm : maskLen m1 = maskLen m2) :
    ngx_radix32tree_insert fuel m tree key m1 value =
      ngx_radix32tree_insert fuel m tree key m2 value := by
  unfold ngx_radix32tree_insert
  have hw := insert_walk_mask m key m1 m2 hm fuel 0 tree.root tree.root (Nat.zero_le _)
  have e0 : (0x80000000 : Nat) >>> 0 = 0x80000000 := rfl
  rw [e0] at hw
  rw [← hw]
  cases hr : ngx_radix32tree_insert_walk fuel m key m1 0x80000000 tree.root tree.root with
  | none => rfl
  | some r =>
    obtain ⟨bit, node, next⟩ := r
    have hr' : ngx_radix32tree_insert_walk fuel m key m1 (0x80000000 >>> 0) tree.root
        tree.root = some (bit, node, next) := hr
    obtain ⟨d', hd', e⟩ := insert_walk_depth m key m1 fuel 0 tree.root tree.root _
      (Nat.zero_le _) hr'
    simp only at e
    subst e
    simp only
    rw [insert_grow_mask key m1 m2 hm fuel d' m tree node hd']

theorem delete_walk_mask (m : RxHeap) (key m1 m2 : Nat) (hm : maskLen m1 = maskLen m2) :
    ∀ (fuel d node : Nat), d ≤ maskLen m1 →
    ngx_radix32tree_delete_walk fuel m key m1 (0x80000000 >>> d) node =
      ngx_radix32tree_delete_walk fuel m key m2 (0x80000000 >>> d) node := by
  intro fuel
  induction fuel with
  | zero => intro d node _; rfl
  | succ fuel ih =>
    intro d node hd
    rw [ngx_radix32tree_delete_walk, ngx_radix32tree_delete_walk]
    rcases Nat.lt_or_ge d (maskLen m1) with hlt | hge
    · by_cases hn : node ≠ NULL
      · have c1 : node ≠ NULL ∧ (0x80000000 >>> d) &&& m1 ≠ 0 := ⟨hn, maskLen_true m1 d hlt⟩
        have c2 : node ≠ NULL ∧ (0x80000000 >>> d) &&& m2 ≠ 0 :=
          ⟨hn, maskLen_true m2 d (hm ▸ hlt)⟩
        rw [if_pos c1, if_pos c2, shift_bit, ih (d + 1) _ hlt]
      · have c1 : ¬ (node ≠ NULL ∧ (0x80000000 >>> d) &&& m1 ≠ 0) := fun h => hn h.1
        have c2 : ¬ (node ≠ NULL ∧ (0x80000000 >>> d) &&& m2 ≠ 0) := fun h => hn h.1
        rw [if_neg c1, if_neg c2]
    · have e : d = maskLen m1 := Nat.le_antisymm hd hge
      have h1 := maskLen_false m1
      have h2 := maskLen_false m2
      rw [← e] at h1
      rw [← hm, ← e] at h2
      have c1 : ¬ (node ≠ NULL ∧ (0x80000000 >>> d) &&& m1 ≠ 0) := fun h => h1 h.2
      have c2 : ¬ (node ≠ NULL ∧ (0x80000000 >>> d) &&& m2 ≠ 0) := fun h => h2 h.2
      rw [if_neg c1, if_neg c2]

theorem delete_mask (fuel : Nat) (m : RxHeap) (tree : ngx_radix_tree_t)
    (key m1 m2 : Nat) (hm : maskLen m1 = maskLen m2) :
    ngx_radix32tree_delete fuel m tree key m1 = ngx_radix32tree_delete fuel m tree key m2 := by
  unfold ngx_radix32tree_delete
  have hw := delete_walk_mask m key m1 m2 hm fuel 0 tree.root (Nat.zero_le _)
  have e0 : (0x80000000 : Nat) >>> 0 = 0x80000000 := rfl
  rw [e0] at hw
  rw [hw]

/-- C38: for every memory, tree record, key, value and mask, `ngx_radix32tree_insert` and
`ngx_radix32tree_delete` give with `mask` the outcome (return code, memory, tree record)
that they give with `leadMask mask`, the mask whose one bits are the leading run of one
bits of `mask`: bit `d` from the top is set in it exactly when the bits `0 .. d` from the
top are all set in `mask`.  A mask whose top bit is 0 is taken as the mask 0, which
addresses the root. -/
theorem ngx_radix32tree_mask_leading (fuel : Nat) (m : RxHeap) (tree : ngx_radix_tree_t)
    (key mask value : Nat) :
    ngx_radix32tree_insert fuel m tree key mask value =
      ngx_radix32tree_insert fuel m tree key (leadMask mask) value ∧
    ngx_radix32tree_delete fuel m tree key mask =
      ngx_radix32tree_delete fuel m tree key (leadMask mask) ∧
    (∀ d, d < 32 → ((0x80000000 >>> d) &&& leadMask mask ≠ 0 ↔
      ∀ j, j ≤ d → (0x80000000 >>> j) &&& mask ≠ 0)) ∧
    (mask &&& 0x80000000 = 0 → leadMask mask = 0 ∧ kpath key (maskLen mask) = []) := by
  refine ⟨insert_mask fuel m tree key mask _ value (maskLen_leadMask mask).symm,
    delete_mask fuel m tree key mask _ (maskLen_leadMask mask).symm, ?_, ?_⟩
  · intro d hd
    unfold leadMask
    rw [top_bits (maskLen mask) (maskLen_le mask) d hd]
    constructor
    · intro h j hj
      exact maskLen_true mask j (by omega)
    · intro h
      by_contra hc
      have hle : maskLen mask ≤ d := by omega
      exact maskLen_false mask (h (maskLen mask) hle)
  · intro h
    have h0 := maskLen_eq_zero mask h
    unfold leadMask
    rw [h0]
    exact ⟨rfl, rfl⟩

/-- C33: when `ngx_radix32tree_insert` on a trie returns `NGX_ERROR`, then for every key
`ngx_radix32tree_find` returns on the trie left behind the value that it returned before
the call. -/
theorem ngx_radix32tree_insert_error_find (m : RxHeap) (t : ngx_radix_tree_t)
    (A : List Bool → Nat) (L : List Nat) (key mask value fuel : Nat)
    (r : RxHeap × ngx_radix_tree_t × Int) (h : RxInv m t A L) (hfuel : 34 ≤ fuel)
    (h1 : ngx_radix32tree_insert fuel m t key mask value = some r)
    (herr : r.2.2 = NGX_ERROR) :
    ∀ k, ∃ v, ngx_radix32tree_find fuel m t k = some v ∧
      ngx_radix32tree_find fuel r.1 r.2.1 k = some v := by
  obtain ⟨m1, t1, rc, A1, L1, e, hI, hr, hsub, hnew, hcase⟩ :=
    ngx_radix32tree_insert_spec h key mask value fuel hfuel
  rw [h1] at e
  simp only [Option.some.injEq] at e
  subst e
  simp only at herr
  rcases hcase with ⟨e1, -⟩ | ⟨e1, -⟩ | ⟨-, -, c2, c3⟩
  · rw [herr] at e1; exact absurd e1 (by decide)
  · rw [herr] at e1; exact absurd e1 (by decide)
  · intro k
    have hc : ∀ p, content m1 A1 p = content m A p := by
      intro p
      unfold content
      by_cases hp : A p ≠ NULL
      · rw [hsub p hp, c2 p hp]
      · have hp0 : A p = NULL := not_not.1 hp
        by_cases hp1 : A1 p ≠ NULL
        · rw [if_neg (fun hh => hh.2 (c3 p hp0 hp1)), if_neg (fun hh => hp hh.1)]
        · rw [if_neg (fun hh => hp1 hh.1), if_neg (fun hh => hp hh.1)]
    exact ⟨_, ngx_radix32tree_find_spec h.rep k fuel hfuel,
      (find_congr h.rep hI.rep hc fuel k hfuel).trans
        (ngx_radix32tree_find_spec h.rep k fuel hfuel)⟩

theorem ngx_radix32tree_insert_error_find_witness :
    rxFail.2.2 = NGX_ERROR ∧
    ∀ k, ∃ v, ngx_radix32tree_find 34 rxFull.1 rxFull.2 k = some v ∧
      ngx_radix32tree_find 34 rxFail.1 rxFail.2.1 k = some v := by
  obtain ⟨A, L, h⟩ := rxFull_inv
  exact ⟨rxFail_rc, ngx_radix32tree_insert_error_find rxFull.1 rxFull.2 A L 0x20000000
    0xf0000000 5 34 rxFail h (by decide) rxFail_eq rxFail_rc⟩

/-- C31: in a trie obtained from `ngx_radix_tree_create` by a run of
`ngx_radix32tree_insert` and `ngx_radix32tree_delete` calls, every node lies at a path of
length at most 32 from the root, a node at depth 32 has no children, and for every key
`ngx_radix32tree_find` returns with fuel 34: it tests its loop condition at most 34 times,
so that it visits at most 33 nodes; more fuel gives the same value. -/
theorem ngx_radix32tree_find_terminates (fuel : Nat) (m0 : RxHeap) (pool : ngx_pool_t)
    (pre : Int) (ops : List RxOp) (r : RxHeap × ngx_radix_tree_t)
    (s : RxHeap × ngx_radix_tree_t × List Int) (hfuel : 34 ≤ fuel) (hok : PoolOK pool)
    (hc : ngx_radix_tree_create fuel m0 pool pre = some r)
    (hrun : rxRun fuel ops r.1 r.2 = RxRes.done s) :
    ∃ A L, RxInv s.1 s.2.1 A L ∧ (∀ q, A q ≠ NULL → q.length ≤ 32) ∧
      (∀ q, A q ≠ NULL → q.length = 32 →
        s.1.left (A q) = NULL ∧ s.1.right (A q) = NULL) ∧
      ∀ key, ∃ v, ngx_radix32tree_find 34 s.1 s.2.1 key = some v ∧
        ∀ f, 34 ≤ f → ngx_radix32tree_find f s.1 s.2.1 key = some v := by
  obtain ⟨A0, L0, hI0, -⟩ := create_inv fuel m0 pool pre hfuel hok r hc
  obtain ⟨A, L, hI⟩ := run_inv fuel hfuel ops _ _ A0 L0 hI0 s.1 s.2.1 s.2.2 hrun
  refine ⟨A, L, hI, hI.rep.depth, ?_, ?_⟩
  · intro q hq hlen
    rw [hI.rep.left_eq q hq, hI.rep.right_eq q hq]
    constructor
    · by_contra hcn
      have := hI.rep.depth _ hcn
      simp only [List.length_cons] at this
      omega
    · by_contra hcn
      have := hI.rep.depth _ hcn
      simp only [List.length_cons] at this
      omega
  · intro key
    exact ⟨_, ngx_radix32tree_find_spec hI.rep key 34 (Nat.le_refl _),
      fun f hf => ngx_radix32tree_find_spec hI.rep key f hf⟩

set_option maxRecDepth 100000 in
theorem ngx_radix32tree_find_terminates_witness :
    ∃ A L, RxInv rxFull.1 rxFull.2 A L ∧ (∀ q, A q ≠ NULL → q.length ≤ 32) ∧
      (∀ q, A q ≠ NULL → q.length = 32 →
        rxFull.1.left (A q) = NULL ∧ rxFull.1.right (A q) = NULL) ∧
      ∀ key, ∃ v, ngx_radix32tree_find 34 rxFull.1 rxFull.2 key = some v ∧
        ∀ f, 34 ≤ f → ngx_radix32tree_find f rxFull.1 rxFull.2 key = some v :=
  ngx_radix32tree_find_terminates 34 rxM0 rxPool 0 rxFill rxInit
    (rxFull.1, rxFull.2, [NGX_OK, NGX_OK, NGX_OK, NGX_OK]) (by decide) rxPool_ok rxInit_eq
    rxFull_run

/-- C32: in a trie obtained from `ngx_radix_tree_create(pool, 0)` by a run of
`ngx_radix32tree_insert` calls with values other than `NGX_RADIX_NO_VALUE`, none of which
returned `NGX_ERROR`, and of `ngx_radix32tree_delete` calls, every node other than the
root that has neither a left nor a right child holds a value. -/
theorem ngx_radix32tree_no_valueless_leaf (fuel : Nat) (m0 : RxHeap) (pool : ngx_pool_t)
    (ops : List RxOp) (r : RxHeap × ngx_radix_tree_t)
    (s : RxHeap × ngx_radix_tree_t × List Int) (hfuel : 34 ≤ fuel) (hok : PoolOK pool)
    (hv : rxValuesOK ops) (hc : ngx_radix_tree_create fuel m0 pool 0 = some r)
    (hrun : rxRun fuel ops r.1 r.2 = RxRes.done s) (hnf : rxNoFail ops s.2.2) :
    ∃ A L, RxInv s.1 s.2.1 A L ∧
      ∀ b q, A (b :: q) ≠ NULL → s.1.left (A (b :: q)) = NULL →
        s.1.right (A (b :: q)) = NULL → s.1.value (A (b :: q)) ≠ NGX_RADIX_NO_VALUE := by
  have hg := create_good fuel m0 pool hok r hc
  obtain ⟨A, L, hI, hleaf, -⟩ := run_good fuel hfuel ops _ _ _ hg hv s.1 s.2.1 s.2.2 hrun hnf
  refine ⟨A, L, hI, fun b q hn hl hr => ?_⟩
  rw [hI.rep.left_eq _ hn] at hl
  rw [hI.rep.right_eq _ hn] at hr
  exact hleaf b q hn hl hr

theorem done_getD_codes {α β γ : Type} (r : RxRes (α × β × γ)) (d : α × β × γ) (c : γ)
    (h : r.isDone = true) (hc : (r.getD d).2.2 = c) :
    r = RxRes.done ((r.getD d).1, (r.getD d).2.1, c) := by
  cases r with
  | done a =>
    subst hc
    rfl
  | nullDeref => simp [RxRes.isDone] at h
  | outOfFuel => simp [RxRes.isDone] at h

set_option maxRecDepth 100000 in
theorem rxPruned_run : rxRun 34 rxPruneOps rxInit.1 rxInit.2 =
    RxRes.done (rxPruned.1, rxPruned.2.1, [NGX_OK, NGX_OK, NGX_OK]) := by
  unfold rxPruned
  exact done_getD_codes (rxRun 34 rxPruneOps rxInit.1 rxInit.2) (rxM0, rxInit.2, [])
    [NGX_OK, NGX_OK, NGX_OK] (by decide!) (by decide!)

set_option maxRecDepth 100000 in
theorem ngx_radix32tree_no_valueless_leaf_witness :
    ∃ A L, RxInv rxPruned.1 rxPruned.2.1 A L ∧
      ∀ b q, A (b :: q) ≠ NULL → rxPruned.1.left (A (b :: q)) = NULL →
        rxPruned.1.right (A (b :: q)) = NULL →
        rxPruned.1.value (A (b :: q)) ≠ NGX_RADIX_NO_VALUE :=
  ngx_radix32tree_no_valueless_leaf 34 rxM0 rxPool rxPruneOps rxInit
    (rxPruned.1, rxPruned.2.1, [NGX_OK, NGX_OK, NGX_OK]) (by decide) rxPool_ok
    ⟨by decide, by decide, trivial⟩ rxInit_eq rxPruned_run ⟨by decide, by decide, trivial⟩

/-- C40, the defect evaluated: `ngx_array_init` with `n = 0` gives an array with
`nelts = nalloc = 0`; once its block is no longer at the end of the used part of the
pool's data block,
`ngx_array_push` asks for a new block of `2 * 0` bytes, leaves `nalloc = 0 * 2 = 0` and
returns a slot with `nelts = 1`, so that `nelts > nalloc`; `ngx_array_push_n(a, 1)` on the
same array gives `nalloc = 2`. -/
theorem ngx_array_push_zero_capacity :
    (ngx_array_init arrPoolBusy 0 4).map (fun r => (r.1.elts, r.1.nelts, r.1.size, r.1.nalloc))
      = some (50, 0, 4, 0) ∧
    (ngx_array_init arrPoolBusy 0 4).map (fun r => r.2.pallocs) = some [200] ∧
    (ngx_array_push arrMem arrZero arrPoolBusy1).map
      (fun r => (r.1, r.2.2.1.nelts, r.2.2.1.nalloc, r.2.2.2.requested)) =
        some (200, 1, 0, [0, 0]) ∧
    (ngx_array_push_n arrMem arrZero arrPoolBusy1 1).map
      (fun r => (r.1, r.2.2.1.nelts, r.2.2.1.nalloc, r.2.2.2.requested)) =
        some (200, 1, 2, [8, 0]) := by
  decide

/-- Away from the defect the bound is kept: a successful `ngx_array_push` on an array with
`nelts ≤ nalloc` and `1 ≤ nalloc`, and a successful `ngx_array_push_n` on an array with
`nelts ≤ nalloc`, leave `nelts ≤ nalloc` (sizes below `2 ^ 63`). -/
theorem ngx_array_push_bound (mem : Nat → Nat) (a : ngx_array_t) (p : ngx_pool_s) (n : Nat)
    (r : Nat × (Nat → Nat) × ngx_array_t × ngx_pool_s) (hle : a.nelts ≤ a.nalloc)
    (hcap : 2 * a.nalloc < 2 ^ 64) (hn : 2 * n < 2 ^ 64) :
    (1 ≤ a.nalloc → ngx_array_push mem a p = some r → r.2.2.1.nelts ≤ r.2.2.1.nalloc) ∧
    (ngx_array_push_n mem a p n = some r → r.2.2.1.nelts ≤ r.2.2.1.nalloc) := by
  have h1 : (a.nelts + 1) % 2 ^ 64 = a.nelts + 1 := Nat.mod_eq_of_lt (by omega)
  have h2 : (a.nalloc + 1) % 2 ^ 64 = a.nalloc + 1 := Nat.mod_eq_of_lt (by omega)
  have h3 : (a.nalloc * 2) % 2 ^ 64 = a.nalloc * 2 := Nat.mod_eq_of_lt (by omega)
  have h4 : (a.nelts + n) % 2 ^ 64 = a.nelts + n := Nat.mod_eq_of_lt (by omega)
  have h5 : (a.nalloc + n) % 2 ^ 64 = a.nalloc + n := Nat.mod_eq_of_lt (by omega)
  constructor
  · intro h0 hr
    unfold ngx_array_push at hr
    simp only [h1, h2, h3] at hr
    by_cases hfull : a.nelts = a.nalloc
    · rw [if_pos hfull] at hr
      by_cases hin : a.elts + a.size * a.nalloc % 2 ^ 64 = p.d.last ∧
          p.d.last + a.size ≤ p.d.end_
      · rw [if_pos hin] at hr
        simp only [Option.some.injEq] at hr
        subst hr
        simp only [h1]
        omega
      · rw [if_neg hin] at hr
        by_cases hq : (ngx_palloc_size p (2 * (a.size * a.nalloc % 2 ^ 64) % 2 ^ 64)).1 = NULL
        · rw [if_pos hq] at hr
          exact absurd hr (by simp)
        · rw [if_neg hq] at hr
          simp only [Option.some.injEq] at hr
          subst hr
          simp only [h1]
          omega
    · rw [if_neg hfull] at hr
      simp only [Option.some.injEq] at hr
      subst hr
      simp only [h1]
      omega
  · intro hr
    unfold ngx_array_push_n at hr
    simp only [h4, h5] at hr
    by_cases hfull : a.nelts + n > a.nalloc
    · rw [if_pos hfull] at hr
      by_cases hin : a.elts + a.size * a.nalloc % 2 ^ 64 = p.d.last ∧
          p.d.last + n * a.size % 2 ^ 64 ≤ p.d.end_
      · rw [if_pos hin] at hr
        simp only [Option.some.injEq] at hr
        subst hr
        simp only [h4]
        omega
      · rw [if_neg hin] at hr
        have hna : (2 * (if n ≥ a.nalloc then n else a.nalloc)) % 2 ^ 64 =
            2 * (if n ≥ a.nalloc then n else a.nalloc) := by
          apply Nat.mod_eq_of_lt
          split <;> omega
        rw [hna] at hr
        by_cases hq : (ngx_palloc_size p
            (2 * (if n ≥ a.nalloc then n else a.nalloc) * a.size % 2 ^ 64)).1 = NULL
        · rw [if_pos hq] at hr
          exact absurd hr (by simp)
        · rw [if_neg hq] at hr
          simp only [Option.some.injEq] at hr
          subst hr
          simp only [h4]
          split <;> omega
    · rw [if_neg hfull] at hr
      simp only [Option.some.injEq] at hr
      subst hr
      simp only [h4]
      omega

theorem find_reads_value : ∀ (fuel : Nat) (m : RxHeap) (key : Nat → Nat)
    (i bit value node : Nat),
    (ngx_radix128tree_find_reads fuel m key i bit value node).map Prod.fst =
      ngx_radix128tree_find_loop fuel m key i bit value node := by
  intro fuel
  induction fuel with
  | zero => intro m key i bit value node; rfl
  | succ fuel ih =>
    intro m key i bit value node
    rw [ngx_radix128tree_find_reads, ngx_radix128tree_find_loop]
    by_cases hn : node ≠ NULL
    · rw [if_pos hn, if_pos hn]
      simp only
      by_cases hb : bit >>> 1 = 0
      · rw [if_pos hb, if_pos hb, ← ih]
        cases ngx_radix128tree_find_reads fuel m key (i + 1) 0x80
          (if m.value node ≠ NGX_RADIX_NO_VALUE then m.value node else value)
          (if key i &&& bit ≠ 0 then m.right node else m.left node) with
        | none => rfl
        | some r => rfl
      · rw [if_neg hb, if_neg hb, ← ih]
        cases ngx_radix128tree_find_reads fuel m key i (bit >>> 1)
          (if m.value node ≠ NGX_RADIX_NO_VALUE then m.value node else value)
          (if key i &&& bit ≠ 0 then m.right node else m.left node) with
        | none => rfl
        | some r => rfl
    · rw [if_neg hn, if_neg hn]
      rfl

set_option maxRecDepth 1000000 in
/-- C39, the defect evaluated: after `ngx_radix128tree_insert` of a key with the full
128-bit mask (return code `NGX_OK`) on a fresh trie, `ngx_radix128tree_find` on that key
reaches the node at depth 128 with `i = 16` and evaluates `key[16]` there; it returns the
value 7 after 129 reads, the last of them at index 16. -/
theorem ngx_radix128tree_find_reads_past_key :
    rxHost128.2.2 = NGX_OK ∧
    (ngx_radix128tree_find_reads 200 rxHost128.1 (bytesOf [1]) 0 0x80 NGX_RADIX_NO_VALUE
      rxHost128.2.1.root).map (fun r => (r.1, r.2.length, r.2.getLast?)) =
        some (7, 129, some 16) := by
  decide!

section RbFactsxxx
open RbTree

/-! ## Position of an inserted node among equal keys; parent links -/

theorem RbTree.keys_length_eq (t : RbTree) : t.keys.length = t.ids.length := by
  induction t with
  | nil => rfl
  | node c l x k r ihl ihr => simp [RbTree.keys, RbTree.ids, ihl, ihr]

theorem ctxLK_length (fs : List RbFrame) : (ctxLK fs).length = (ctxL fs).length := by
  induction fs with
  | nil => rfl
  | cons f fs ih =>
    cases f with
    | L c x k r => simpa [ctxLK, ctxL] using ih
    | R c l x k => simp [ctxLK, ctxL, ih, RbTree.keys_length_eq]

/-- C36: when memory holds a tree with black root and black sentinel whose in-order keys
are non-decreasing, `ngx_rbtree_insert` with `ngx_rbtree_insert_value` of a node that is not
in the tree returns, and the in-order sequence of nodes afterwards is the previous one with
the new node put in after every node whose key is less than or equal to its key and before
every node whose key is greater: the old nodes keep their order and their keys, and a node
inserted later stands behind the nodes of equal key that are already there. -/
theorem ngx_rbtree_insert_stable (m : RbHeap) (tree : ngx_rbtree_t) (t : RbTree)
    (node fuel : Nat) (h : TreeInv m tree.sentinel tree.root t)
    (hins : tree.insert = ngx_rbtree_insert_value)
    (hs : m.color tree.sentinel = Color.black) (hroot : t.rootColor = Color.black)
    (hso : t.keys.Pairwise (· ≤ ·))
    (hn : node ∉ t.ids) (hns : node ≠ tree.sentinel) (hfuel : t.height + 1 ≤ fuel) :
    ∃ m' tree' t' a b, ngx_rbtree_insert fuel m tree node = some (m', tree') ∧
      TreeInv m' tree.sentinel tree'.root t' ∧ m'.key = m.key ∧
      t.ids = a ++ b ∧ t'.ids = a ++ node :: b ∧
      (∀ x ∈ a, m.key x ≤ m.key node) ∧ (∀ y ∈ b, m.key node < m.key y) ∧
      t'.keys.Pairwise (· ≤ ·) := by
  obtain ⟨m', root', e, hT, hk, -⟩ := ngx_rbtree_insert_spec h hins hroot hs hn hns fuel hfuel
  have hids := ids_insPath (m.key node) t
  have hkeys := keys_insPath (m.key node) t
  have hp := pathOK_insPath (m.key node) t [] trivial
  have hso' := hso
  rw [hkeys] at hso'
  have h1 := ctxLK_le (m.key node) _ hp hso'
  have h2 := ctxRK_gt (m.key node) _ hp hso'
  have hmap : t.keys = t.ids.map m.key := h.rep.keys_eq
  rw [hkeys, hids, List.map_append] at hmap
  have hsplit := List.append_inj hmap (by rw [ctxLK_length, List.length_map])
  refine ⟨m', _, _, ctxL (insPath (m.key node) t []), ctxR (insPath (m.key node) t []), e, hT,
    hk, hids, insTree_ids _ _ _, ?_, ?_, insTree_sorted _ _ _ hso⟩
  · intro x hx
    apply h1
    rw [hsplit.1]
    exact List.mem_map_of_mem _ hx
  · intro y hy
    apply h2
    rw [hsplit.2]
    exact List.mem_map_of_mem _ hy

theorem wDup_inv : TreeInv wDupHeap wTree.sentinel wTree.root w3 := by
  refine ⟨?_, rfl, by decide⟩
  simp [w3, wDupHeap, wTree]

theorem ngx_rbtree_insert_stable_witness :
    ∃ m' tree' t' a b, ngx_rbtree_insert 3 wDupHeap wTree 6 = some (m', tree') ∧
      TreeInv m' wTree.sentinel tree'.root t' ∧ m'.key = wDupHeap.key ∧
      w3.ids = a ++ b ∧ t'.ids = a ++ 6 :: b ∧
      (∀ x ∈ a, wDupHeap.key x ≤ wDupHeap.key 6) ∧
      (∀ y ∈ b, wDupHeap.key 6 < wDupHeap.key y) ∧
      t'.keys.Pairwise (· ≤ ·) :=
  ngx_rbtree_insert_stable wDupHeap wTree w3 6 3 wDup_inv rfl rfl rfl (by decide) (by decide)
    (by decide) (by decide)

theorem RepT.link_parent {m : RbHeap} {s : Nat} {t : RbTree} {par : Option Nat}
    (h : RepT m s t par) : ∀ p ∈ t.ids, ∀ x, x ≠ s → (m.left p = x ∨ m.right p = x) →
      x ∈ t.ids ∧ m.parent x = p := by
  induction t generalizing par with
  | nil => intro p hp; simp at hp
  | node c l y k r ihl ihr =>
    simp only [RepT_node] at h
    obtain ⟨-, -, -, -, hl, hr, hRl, hRr⟩ := h
    have hroot : ∀ (u : RbTree), RepT m s u (some y) → ∀ x, x ≠ s → u.ptr s = x →
        x ∈ u.ids ∧ m.parent x = y := by
      intro u hu x hx e
      cases u with
      | nil => exact absurd e.symm hx
      | node cu lu z ku ru =>
        simp only [ptr_node] at e
        subst e
        simp only [RepT_node] at hu
        exact ⟨by simp, hu.2.2.2.1⟩
    intro p hp x hx hlink
    simp only [ids_node, List.mem_append, List.mem_cons] at hp ⊢
    rcases hp with hp | rfl | hp
    · obtain ⟨a1, a2⟩ := ihl hRl p hp x hx hlink
      exact ⟨Or.inl a1, a2⟩
    · rcases hlink with e | e
      · rw [hl] at e
        obtain ⟨a1, a2⟩ := hroot l hRl x hx e
        exact ⟨Or.inl a1, a2⟩
      · rw [hr] at e
        obtain ⟨a1, a2⟩ := hroot r hRr x hx e
        exact ⟨Or.inr (Or.inr a1), a2⟩
    · obtain ⟨a1, a2⟩ := ihr hRr p hp x hx hlink
      exact ⟨Or.inr (Or.inr a1), a2⟩

theorem RepT.has_link {m : RbHeap} {s : Nat} {t : RbTree} {par : Option Nat}
    (h : RepT m s t par) : ∀ x ∈ t.ids, x = t.ptr s ∨
      ∃ p ∈ t.ids, m.left p = x ∨ m.right p = x := by
  induction t generalizing par with
  | nil => intro x hx; simp at hx
  | node c l y k r ihl ihr =>
    simp only [RepT_node] at h
    obtain ⟨-, -, -, -, hl, hr, hRl, hRr⟩ := h
    intro x hx
    simp only [ids_node, List.mem_append, List.mem_cons] at hx
    rcases hx with hx | rfl | hx
    · right
      rcases ihl hRl x hx with e | ⟨p, hp, hlink⟩
      · exact ⟨y, by simp, Or.inl (by rw [hl, e])⟩
      · exact ⟨p, by simp [hp], hlink⟩
    · left
      rfl
    · right
      rcases ihr hRr x hx with e | ⟨p, hp, hlink⟩
      · exact ⟨y, by simp, Or.inr (by rw [hr, e])⟩
      · exact ⟨p, by simp [hp], hlink⟩

/-- C37: in a tree reached from `ngx_rbtree_init` by calls of `ngx_rbtree_insert` and
`ngx_rbtree_delete`, every node `x` other than the root is the left or right child of a
node `p` of the tree, its `parent` field is `p`, and `p` is the only node of the tree with
a link to `x`. -/
theorem ngx_rbtree_parent_links (s : Nat) (m : RbHeap) (tree : ngx_rbtree_t) (ns : List Nat)
    (x : Nat) (hb : Built s m tree ns) (hx : x ∈ ns) (hroot : x ≠ tree.root) :
    ∃ p ∈ ns, (m.left p = x ∨ m.right p = x) ∧ m.parent x = p ∧
      ∀ q ∈ ns, (m.left q = x ∨ m.right q = x) → q = p := by
  obtain ⟨h1, -, -, t, hT, -, -, hp⟩ := hb.inv
  subst h1
  have hxt : x ∈ t.ids := hp.mem_iff.2 hx
  have hxs : x ≠ tree.sentinel := fun e => hT.rep.sentinel_not_mem (e ▸ hxt)
  rcases hT.rep.has_link x hxt with e | ⟨p, hpt, hlink⟩
  · exact absurd (e.trans hT.root_eq.symm) hroot
  · have hpar := (hT.rep.link_parent p hpt x hxs hlink).2
    refine ⟨p, hp.mem_iff.1 hpt, hlink, hpar, fun q hq hl => ?_⟩
    have := (hT.rep.link_parent q (hp.mem_iff.2 hq) x hxs hl).2
    rw [← this, hpar]

theorem wBuilt2_built : Built 1 wBuilt2.1 wBuilt2.2 [3, 2] :=
  Built.insert wBuilt.1 3 2 wBuilt2.1 wBuilt2.2 wBuilt_built (by simp)
    (by decide) (fun _ _ => ⟨rfl, rfl, rfl, rfl, rfl⟩) (by decide)
    (some_getD_of_isSome (ngx_rbtree_insert 2 wBuilt.1 wBuilt.2 3) (wHeap, wEmpty) (by decide))

theorem ngx_rbtree_parent_links_witness :
    ∃ p ∈ [3, 2], (wBuilt2.1.left p = 3 ∨ wBuilt2.1.right p = 3) ∧ wBuilt2.1.parent 3 = p ∧
      ∀ q ∈ [3, 2], (wBuilt2.1.left q = 3 ∨ wBuilt2.1.right q = 3) → q = p :=
  ngx_rbtree_parent_links 1 wBuilt2.1 wBuilt2.2 [3, 2] 3 wBuilt2_built (by simp) (by decide)

theorem no_timers_left_loop_spec {m : RbHeap} {tree : ngx_rbtree_t} {t : RbTree}
    (h : TreeInv m tree.sentinel tree.root t) (cancelable : Nat → Bool) (fuel : Nat)
    (hfuel : t.ids.length + 1 ≤ fuel) (b : List Nat) :
    ∀ (a : List Nat) (x steps : Nat), t.ids = a ++ x :: b → b.length + 1 ≤ steps →
      ngx_event_no_timers_left_loop fuel m tree cancelable steps x =
        some (if (x :: b).all cancelable = true then NGX_OK else NGX_AGAIN) := by
  induction b with
  | nil =>
    intro a x steps hsplit hsteps
    obtain ⟨steps, rfl⟩ : ∃ f, steps = f + 1 := ⟨steps - 1, by omega⟩
    rw [ngx_event_no_timers_left_loop, next_of_split h hsplit fuel hfuel]
    cases hc : cancelable x <;> simp [hc]
  | cons y b ih =>
    intro a x steps hsplit hsteps
    obtain ⟨steps, rfl⟩ : ∃ f, steps = f + 1 := ⟨steps - 1, by omega⟩
    simp only [List.length_cons] at hsteps
    have h2 := ih (a ++ [x]) y steps (by rw [hsplit]; simp) (by omega)
    rw [ngx_event_no_timers_left_loop, next_of_split h hsplit fuel hfuel]
    cases hc : cancelable x
    · simp [hc]
    · simp only [List.head?_cons, h2]
      simp [hc]

/-- C35: on a stored timer tree, `ngx_event_no_timers_left` returns; it returns `NGX_OK`
exactly when every node of the tree belongs to an event marked cancelable (so for the
empty tree), and `NGX_AGAIN` exactly when some node of the tree belongs to an event that
is not marked cancelable. -/
theorem ngx_event_no_timers_left_spec (fuel : Nat) (m : RbHeap) (tree : ngx_rbtree_t)
    (t : RbTree) (cancelable : Nat → Bool) (h : TreeInv m tree.sentinel tree.root t)
    (hfuel : t.ids.length + 1 ≤ fuel) :
    (ngx_event_no_timers_left fuel m tree cancelable = some NGX_OK ∨
      ngx_event_no_timers_left fuel m tree cancelable = some NGX_AGAIN) ∧
    (ngx_event_no_timers_left fuel m tree cancelable = some NGX_OK ↔
      ∀ x ∈ t.ids, cancelable x = true) ∧
    (ngx_event_no_timers_left fuel m tree cancelable = some NGX_AGAIN ↔
      ∃ x ∈ t.ids, cancelable x = false) := by
  have hres : ngx_event_no_timers_left fuel m tree cancelable =
      some (if t.ids.all cancelable = true then NGX_OK else NGX_AGAIN) := by
    unfold ngx_event_no_timers_left
    by_cases ht : t = nil
    · subst ht
      have := h.root_eq
      simp only [ptr_nil] at this
      simp [this]
    · have hr : tree.root ≠ tree.sentinel := by
        rw [h.root_eq]
        exact fun e => ht (h.rep.ptr_eq_sentinel.1 e)
      simp only
      rw [if_neg hr]
      obtain ⟨c2, y, ky, r2, hmin⟩ := minNode_shape t ht
      have hm := ngx_rbtree_min_spec t [] m h ht fuel (by have := t.height_le_length; omega)
      rw [← h.root_eq, hmin] at hm
      simp only [ptr_node] at hm
      rw [hm]
      have e := (ids_min_split hmin).1
      simp only
      rw [e]
      exact no_timers_left_loop_spec h cancelable fuel hfuel _ [] y fuel (by rw [e]; rfl)
        (by rw [e] at hfuel; simp only [List.length_cons] at hfuel; omega)
  rw [hres]
  by_cases hall : t.ids.all cancelable = true
  · rw [if_pos hall]
    have hall' : ∀ x ∈ t.ids, cancelable x = true := List.all_eq_true.1 hall
    refine ⟨Or.inl rfl, ⟨fun _ => hall', fun _ => rfl⟩, ⟨fun e => ?_, fun ⟨x, hx, hc⟩ => ?_⟩⟩
    · exact absurd (Option.some.inj e) (by decide)
    · rw [hall' x hx] at hc
      exact absurd hc (by decide)
  · rw [if_neg hall]
    have hex : ∃ x ∈ t.ids, cancelable x = false := by
      by_contra hc
      apply hall
      rw [List.all_eq_true]
      intro x hx
      by_contra hx2
      exact hc ⟨x, hx, by simpa using hx2⟩
    refine ⟨Or.inr rfl, ⟨fun e => ?_, fun hc => ?_⟩, ⟨fun _ => hex, fun _ => rfl⟩⟩
    · exact absurd (Option.some.inj e) (by decide)
    · exact absurd (List.all_eq_true.2 hc) hall

theorem ngx_event_no_timers_left_spec_witness :
    (ngx_event_no_timers_left 4 w3Heap wTree (fun x => decide (x ≠ 4)) = some NGX_OK ∨
      ngx_event_no_timers_left 4 w3Heap wTree (fun x => decide (x ≠ 4)) = some NGX_AGAIN) ∧
    (ngx_event_no_timers_left 4 w3Heap wTree (fun x => decide (x ≠ 4)) = some NGX_OK ↔
      ∀ x ∈ w3.ids, (fun x => decide (x ≠ 4)) x = true) ∧
    (ngx_event_no_timers_left 4 w3Heap wTree (fun x => decide (x ≠ 4)) = some NGX_AGAIN ↔
      ∃ x ∈ w3.ids, (fun x => decide (x ≠ 4)) x = false) :=
  ngx_event_no_timers_left_spec 4 w3Heap wTree w3 (fun x => decide (x ≠ 4)) w3_inv (by decide)

/-! ## `ngx_event_expire_timers` removes the expired timers -/

theorem expire_debug_inv {m1 : RbHeap} {s root y : Nat} {t : RbTree} (dbg : Bool)
    (h : TreeInv m1 s root t) (hy : y ∉ t.ids) :
    TreeInv (if dbg = true then setParent (setRight (setLeft m1 y NULL) y NULL) y NULL else m1)
      s root t := by
  cases dbg with
  | false => exact h
  | true =>
    rw [if_pos rfl]
    refine ⟨RepT_congr (fun q hq => ?_) h.rep, h.root_eq, h.nodup⟩
    have hqy : q ≠ y := fun e => hy (e ▸ hq)
    simp [AgreeAt, setParent, setRight, setLeft, Function.update_noteq hqy]

theorem expire_debug_key (m1 : RbHeap) (y : Nat) (dbg : Bool) :
    (if dbg = true then setParent (setRight (setLeft m1 y NULL) y NULL) y NULL else m1).key =
      m1.key ∧
    (if dbg = true then setParent (setRight (setLeft m1 y NULL) y NULL) y NULL else m1).color =
      m1.color := by
  cases dbg <;> exact ⟨rfl, rfl⟩

/-- The loop of `ngx_event_expire_timers` on a stored balanced tree whose in-order walk is
non-decreasing in the signed difference to the current time: it returns, the handlers of the
nodes of difference `≤ 0` have run in order, and the nodes of positive difference remain. -/
theorem expire_loop_spec {σ : Type} (w : Nat) (dbg : Bool)
    (handler : Nat → ngx_event_state σ → ngx_event_state σ) (now s : Nat) :
    ∀ (n : Nat) (t : RbTree) (m : RbHeap) (tree : ngx_rbtree_t) (ev : ngx_event_state σ)
      (fuel steps : Nat),
      t.ids.length = n → tree.sentinel = s → TreeInv m s tree.root t →
      m.color s = Color.black → RBInv t →
      (t.ids.map (timerDiff w m now)).Pairwise (· ≤ ·) → n + 1 ≤ fuel → n + 1 ≤ steps →
      ∃ m' tree' t',
        ngx_event_expire_timers_loop w dbg handler fuel now s steps m tree ev =
          some (m', tree',
            (t.ids.filter (fun x => decide (timerDiff w m now x ≤ 0))).foldl
              (ngx_event_expire_one handler) ev) ∧
        tree'.sentinel = s ∧ TreeInv m' s tree'.root t' ∧ RBInv t' ∧
        m'.color s = Color.black ∧
        t'.ids = t.ids.filter (fun x => decide (0 < timerDiff w m now x)) ∧
        ∀ x ∈ t'.ids, m'.key x = m.key x := by
  intro n
  induction n with
  | zero =>
    intro t m tree ev fuel steps hn hs h hsb hrb hso hfuel hsteps
    have ht : t = nil := by
      cases t with
      | nil => rfl
      | node c l x k r => simp [RbTree.ids] at hn
    subst ht
    obtain ⟨steps, rfl⟩ : ∃ k, steps = k + 1 := ⟨steps - 1, by omega⟩
    have hr : tree.root = s := by simpa using h.root_eq
    refine ⟨m, tree, nil, ?_, hs, h, hrb, hsb, rfl, fun x hx => by simp [RbTree.ids] at hx⟩
    simp only [ngx_event_expire_timers_loop]
    rw [if_pos hr]
    rfl
  | succ n ih =>
    intro t m tree ev fuel steps hn hs h hsb hrb hso hfuel hsteps
    have ht : t ≠ nil := by
      rintro rfl
      simp [RbTree.ids] at hn
    obtain ⟨steps, rfl⟩ : ∃ k, steps = k + 1 := ⟨steps - 1, by omega⟩
    have hr : tree.root ≠ s := by
      rw [h.root_eq]
      exact fun e => ht (h.rep.ptr_eq_sentinel.1 e)
    obtain ⟨c2, y, ky, r2, hmin⟩ := minNode_shape t ht
    have hm := ngx_rbtree_min_spec t [] m h ht fuel (by have := t.height_le_length; omega)
    rw [← h.root_eq, hmin] at hm
    have hm' : ngx_rbtree_min fuel m tree.root s = some y := hm
    have hsplit := (ids_min_split hmin).1
    have hnd := h.nodup
    have hso' := hso
    rw [hsplit] at hnd hso' hn
    rw [List.map_cons, List.pairwise_cons] at hso'
    rw [List.nodup_cons] at hnd
    simp only [ngx_event_expire_timers_loop]
    rw [if_neg hr, hm']
    by_cases hpos : keyToInt w (keySub w (m.key y) now) > 0
    · simp only []
      rw [if_pos hpos]
      have hall : ∀ x ∈ t.ids, 0 < timerDiff w m now x := by
        intro x hx
        rw [hsplit] at hx
        rcases List.mem_cons.1 hx with rfl | hx'
        · exact hpos
        · have := hso'.1 _ (List.mem_map_of_mem _ hx')
          have h0 : 0 < timerDiff w m now y := hpos
          omega
      have e1 : t.ids.filter (fun x => decide (timerDiff w m now x ≤ 0)) = [] := by
        rw [List.filter_eq_nil_iff]
        intro x hx
        have := hall x hx
        simp only [decide_eq_true_eq]
        omega
      have e2 : t.ids.filter (fun x => decide (0 < timerDiff w m now x)) = t.ids := by
        rw [List.filter_eq_self]
        intro x hx
        simpa using hall x hx
      rw [e1, e2]
      exact ⟨m, tree, t, rfl, hs, h, hrb, hsb, rfl, fun _ _ => rfl⟩
    · simp only []
      rw [if_neg hpos]
      have e : t = plug (minFrames t) (node c2 nil y ky r2) := by rw [← hmin, plug_minFrames]
      have h' : TreeInv m tree.sentinel tree.root (plug (minFrames t) (node c2 nil y ky r2)) := by
        rw [← e, hs]
        exact h
      have hrb' : RBInv (plug (minFrames t) (node c2 nil y ky r2)) := by
        rw [← e]
        exact hrb
      obtain ⟨m1, root1, e1, hT1, hk1, hs1⟩ := ngx_rbtree_delete_spec h' (by rw [hs]; exact hsb)
        hrb'.2.2 fuel (by rw [← e]; have := t.height_le_length; rw [hsplit] at this;
                          simp only [List.length_cons] at this hn; omega)
      rw [e1]
      simp only []
      have hids : (delAt (minFrames t) c2 nil ky r2).ids = (plug (minFrames t) r2).ids := by
        rw [delAt_ids, ids_plug]
        simp [RbTree.ids]
      have hy1 : y ∉ (delAt (minFrames t) c2 nil ky r2).ids := by
        rw [hids]
        exact hnd.1
      rw [hs] at hT1 hs1
      have hT2 := expire_debug_inv dbg hT1 hy1
      obtain ⟨hkey2, hcol2⟩ := expire_debug_key m1 y dbg
      have hdiff : ∀ x ∈ (plug (minFrames t) r2).ids,
          timerDiff w (if dbg = true then
            setParent (setRight (setLeft m1 y NULL) y NULL) y NULL else m1) now x =
            timerDiff w m now x := by
        intro x hx
        unfold timerDiff
        rw [hkey2, hk1 x (fun e => hnd.1 (e ▸ hx))]
      have hso2 : ((delAt (minFrames t) c2 nil ky r2).ids.map
          (timerDiff w (if dbg = true then
            setParent (setRight (setLeft m1 y NULL) y NULL) y NULL else m1) now)).Pairwise
            (· ≤ ·) := by
        rw [hids, List.map_congr_left hdiff]
        exact hso'.2
      obtain ⟨m', tree', t', e3, hs3, hT3, hrb3, hsb3, hids3, hk3⟩ :=
        ih (delAt (minFrames t) c2 nil ky r2) _ { tree with root := root1 }
          (ngx_event_expire_one handler ev y) fuel steps
          (by rw [hids]; simpa using hn) hs hT2 (by rw [hcol2]; exact hs1)
          (delAt_rb _ _ _ y _ _ hrb') hso2 (by omega) (by omega)
      have hf1 : (plug (minFrames t) r2).ids.filter (fun x => decide (timerDiff w
          (if dbg = true then setParent (setRight (setLeft m1 y NULL) y NULL) y NULL else m1)
          now x ≤ 0)) =
          (plug (minFrames t) r2).ids.filter (fun x => decide (timerDiff w m now x ≤ 0)) :=
        List.filter_congr (fun x hx => by rw [hdiff x hx])
      have hf2 : (plug (minFrames t) r2).ids.filter (fun x => decide (0 < timerDiff w
          (if dbg = true then setParent (setRight (setLeft m1 y NULL) y NULL) y NULL else m1)
          now x)) =
          (plug (minFrames t) r2).ids.filter (fun x => decide (0 < timerDiff w m now x)) :=
        List.filter_congr (fun x hx => by rw [hdiff x hx])
      rw [hids] at e3 hids3
      rw [hf1] at e3
      rw [hf2] at hids3
      have hny : ¬ (0 < timerDiff w m now y) := hpos
      refine ⟨m', tree', t', ?_, hs3, hT3, hrb3, hsb3, ?_, ?_⟩
      · rw [e3, hsplit, List.filter_cons_of_pos (by simpa using hny), List.foldl_cons]
      · rw [hids3, hsplit, List.filter_cons_of_neg (by simpa using hny)]
      · intro x hx
        have hx' : x ∈ (plug (minFrames t) r2).ids := by
          rw [hids3] at hx
          exact (List.mem_filter.1 hx).1
        rw [hk3 x hx, hkey2, hk1 x (fun e => hnd.1 (e ▸ hx'))]

/-- For a key and a current time in one window of `2 ^ (w - 1)` values from `base`, the
signed difference of `ngx_event_expire_timers` is the difference of the two offsets. -/
theorem keyToInt_keySub_off (w base k now : Nat) (hw : 1 ≤ w) (hk : TimerKey w base k)
    (hn : TimerKey w base now) :
    keyToInt w (keySub w k now) = (timerOff w base k : Int) - (timerOff w base now : Int) := by
  have hN := two_pow_half w hw
  obtain ⟨hk1, hk2⟩ := hk
  obtain ⟨hn1, hn2⟩ := hn
  have hbase : base % 2 ^ w < 2 ^ w := Nat.mod_lt _ (Nat.two_pow_pos _)
  rw [timerOff_eq w base k hk1] at hk2 ⊢
  rw [timerOff_eq w base now hn1] at hn2 ⊢
  have hx := keySub_eq w k now hk1 hn1
  have hlt : keySub w k now < 2 ^ w := by
    unfold keySub
    exact Nat.mod_lt _ (Nat.two_pow_pos _)
  unfold keyToInt
  rw [Nat.mod_eq_of_lt hlt]
  have c1 : ((2 ^ w : Nat) : Int) = (2 : Int) ^ w := by push_cast; rfl
  have c2 : ((2 ^ (w - 1) : Nat) : Int) = (2 : Int) ^ (w - 1) := by push_cast; rfl
  rw [← c1]
  generalize keySub w k now = x at hx hlt ⊢
  generalize base % 2 ^ w = c at *
  generalize 2 ^ (w - 1) = H at *
  generalize 2 ^ w = N at *
  subst hN
  split at hx <;> split at hk2 <;> split at hn2 <;> split <;> subst hx <;> omega

/-- The flags after the handlers of the nodes of `l` have run, for handlers that leave the
flags alone. -/
theorem expire_fold_flags {σ : Type} (handler : Nat → ngx_event_state σ → ngx_event_state σ)
    (hh : ∀ x e, (handler x e).timer_set = e.timer_set ∧ (handler x e).timedout = e.timedout)
    (l : List Nat) :
    ∀ (ev : ngx_event_state σ) (x : Nat),
      ((l.foldl (ngx_event_expire_one handler) ev).timer_set x =
        if x ∈ l then 0 else ev.timer_set x) ∧
      ((l.foldl (ngx_event_expire_one handler) ev).timedout x =
        if x ∈ l then 1 else ev.timedout x) := by
  induction l with
  | nil => intro ev x; simp
  | cons y l ih =>
    intro ev x
    rw [List.foldl_cons]
    obtain ⟨h1, h2⟩ := ih (ngx_event_expire_one handler ev y) x
    rw [h1, h2]
    unfold ngx_event_expire_one
    simp only []
    rw [(hh _ _).1, (hh _ _).2]
    by_cases hxl : x ∈ l
    · simp [hxl]
    · by_cases hxy : x = y
      · subst hxy
        simp [hxl]
      · simp [hxl, hxy, Function.update_noteq hxy]

/-- C34 (amended): for a millisecond counter of `w ≥ 1` bits, handlers that work on the
event state only (not on the timer tree), a timer tree built from `ngx_rbtree_init` by
calls of `ngx_rbtree_insert` and `ngx_rbtree_delete`, and all timer keys and the current
time in one window (each equal to `(base + d) mod 2^w` with `d < 2^(w-1)` for one `base`):
`ngx_event_expire_timers` returns; the in-order walk of the tree afterwards lists exactly
the nodes present before whose key minus the current time is positive as a signed integer,
with their keys unchanged; the event state is the result of running, for each node whose
signed difference was `≤ 0`, once and in in-order, `timer_set = 0; timedout = 1;` and the
handler of its event; and when the handlers leave the flags alone, afterwards the events of
the removed nodes have `timer_set = 0` and `timedout = 1` and the flags of all other events
are unchanged. -/
theorem ngx_event_expire_timers_spec {σ : Type} (w base s : Nat) (dbg : Bool)
    (handler : Nat → ngx_event_state σ → ngx_event_state σ) (m : RbHeap) (tree : ngx_rbtree_t)
    (ns : List Nat) (ev : ngx_event_state σ) (now fuel steps : Nat) (hw : 1 ≤ w)
    (hb : BuiltT w base s m tree ns) (hnow : ∃ d, d < 2 ^ (w - 1) ∧ now = (base + d) % 2 ^ w)
    (hfuel : ns.length + 1 ≤ fuel) (hsteps : ns.length + 1 ≤ steps) :
    ∃ ids m' tree' ev', inorderWalk fuel m tree = some ids ∧ ids.Perm ns ∧
      ngx_event_expire_timers w dbg handler fuel now steps m tree ev = some (m', tree', ev') ∧
      inorderWalk fuel m' tree' =
        some (ids.filter (fun x => decide (0 < timerDiff w m now x))) ∧
      (∀ x ∈ ids, 0 < timerDiff w m now x → m'.key x = m.key x) ∧
      ev' = (ids.filter (fun x => decide (timerDiff w m now x ≤ 0))).foldl
        (ngx_event_expire_one handler) ev ∧
      (ids.filter (fun x => decide (timerDiff w m now x ≤ 0))).Nodup ∧
      ((∀ x e, (handler x e).timer_set = e.timer_set ∧ (handler x e).timedout = e.timedout) →
        ∀ x, (x ∈ ns ∧ timerDiff w m now x ≤ 0 → ev'.timer_set x = 0 ∧ ev'.timedout x = 1) ∧
          (¬ (x ∈ ns ∧ timerDiff w m now x ≤ 0) →
            ev'.timer_set x = ev.timer_set x ∧ ev'.timedout x = ev.timedout x)) := by
  obtain ⟨h1, -, h3, t, hT, hrb, hso, hp, hk⟩ := hb.timer_inv hw
  subst h1
  obtain ⟨d, hd, hnd⟩ := hnow
  have hnk : TimerKey w base now := (timerKey_of w base now d hw hd hnd).1
  have hkeys := hT.rep.keys_eq
  have hlen := hp.length_eq
  have hkx : ∀ x ∈ t.ids, TimerKey w base (m.key x) := by
    intro x hx
    apply hk
    rw [hkeys]
    exact List.mem_map_of_mem _ hx
  have hso1 : t.ids.Pairwise (fun a b => timerOff w base (m.key a) ≤ timerOff w base (m.key b)) := by
    rw [hkeys, List.map_map, List.pairwise_map] at hso
    exact hso
  have hso2 : (t.ids.map (timerDiff w m now)).Pairwise (· ≤ ·) := by
    rw [List.pairwise_map]
    refine List.Pairwise.imp_of_mem (fun {a b} ha hb' hab => ?_) hso1
    unfold timerDiff
    rw [keyToInt_keySub_off w base _ now hw (hkx a ha) hnk,
      keyToInt_keySub_off w base _ now hw (hkx b hb') hnk]
    omega
  obtain ⟨m', tree', t', e1, hs1, hT1, -, -, hids1, hk1⟩ :=
    expire_loop_spec w dbg handler now tree.sentinel t.ids.length t m tree ev fuel steps rfl rfl
      hT h3 hrb hso2 (by omega) (by omega)
  have hle : t'.ids.length ≤ t.ids.length := by
    rw [hids1]
    exact List.length_filter_le _ _
  rw [← hs1] at hT1
  refine ⟨t.ids, m', tree', _, inorderWalk_spec hT fuel (by omega), hp, e1, ?_, ?_, rfl,
    hT.nodup.filter _, fun hh x => ?_⟩
  · rw [← hids1]
    exact inorderWalk_spec hT1 fuel (by omega)
  · intro x hx hpos
    apply hk1
    rw [hids1]
    exact List.mem_filter.2 ⟨hx, by simpa using hpos⟩
  · obtain ⟨f1, f2⟩ := expire_fold_flags handler hh
      (t.ids.filter (fun x => decide (timerDiff w m now x ≤ 0))) ev x
    have hmem : x ∈ t.ids.filter (fun x => decide (timerDiff w m now x ≤ 0)) ↔
        x ∈ ns ∧ timerDiff w m now x ≤ 0 := by
      rw [List.mem_filter, hp.mem_iff]
      simp
    constructor
    · intro hx
      rw [f1, f2, if_pos (hmem.2 hx), if_pos (hmem.2 hx)]
      exact ⟨rfl, rfl⟩
    · intro hx
      rw [f1, f2, if_neg (fun hc => hx (hmem.1 hc)), if_neg (fun hc => hx (hmem.1 hc))]
      exact ⟨rfl, rfl⟩

/-- C34 fails as stated: keys of 4 bits, current time 8, timers with keys 2 and 14 inserted
in this order with `ngx_rbtree_insert_timer_value`.  Both keys are within 6 of the current
time, less than `2^(4-1)`.  The in-order walk is node 3 (key 14) then node 2 (key 2);
`ngx_event_expire_timers` returns with both nodes still in the tree, although key 2 minus
the current time is -6 as a signed integer, and the event of node 2 keeps `timer_set = 1`
and `timedout = 0`. -/
theorem ngx_event_expire_timers_counterexample :
    (ngx_rbtree_insert 1 wFar0.1 wFar0.2 2).isSome = true ∧
    (ngx_rbtree_insert 2 wFar1.1 wFar1.2 3).isSome = true ∧
    wFar2.1.key 2 = 2 ∧ wFar2.1.key 3 = 14 ∧ 8 - 2 < 2 ^ (4 - 1) ∧ 14 - 8 < 2 ^ (4 - 1) ∧
    inorderWalk 3 wFar2.1 wFar2.2 = some [3, 2] ∧
    timerDiff 4 wFar2.1 8 2 = -6 ∧ timerDiff 4 wFar2.1 8 3 = 6 ∧
    (ngx_event_expire_timers 4 false (fun _ e => e) 3 8 3 wFar2.1 wFar2.2 evStart).map
      (fun r => (inorderWalk 3 r.1 r.2.1, r.2.2.timer_set 2, r.2.2.timedout 2)) =
        some (some [3, 2], 1, 0) := by
  decide

theorem ngx_event_expire_timers_spec_witness :
    ∃ ids m' tree' ev', inorderWalk 3 wT2.1 wT2.2 = some ids ∧ ids.Perm [3, 2] ∧
      ngx_event_expire_timers 4 false (fun _ e => e) 3 15 3 wT2.1 wT2.2 evStart =
        some (m', tree', ev') ∧
      inorderWalk 3 m' tree' =
        some (ids.filter (fun x => decide (0 < timerDiff 4 wT2.1 15 x))) ∧
      (∀ x ∈ ids, 0 < timerDiff 4 wT2.1 15 x → m'.key x = wT2.1.key x) ∧
      ev' = (ids.filter (fun x => decide (timerDiff 4 wT2.1 15 x ≤ 0))).foldl
        (ngx_event_expire_one (fun _ e => e)) evStart ∧
      (ids.filter (fun x => decide (timerDiff 4 wT2.1 15 x ≤ 0))).Nodup ∧
      ((∀ x e, ((fun (_ : Nat) (e : ngx_event_state Unit) => e) x e).timer_set = e.timer_set ∧
          ((fun (_ : Nat) (e : ngx_event_state Unit) => e) x e).timedout = e.timedout) →
        ∀ x, (x ∈ [3, 2] ∧ timerDiff 4 wT2.1 15 x ≤ 0 →
            ev'.timer_set x = 0 ∧ ev'.timedout x = 1) ∧
          (¬ (x ∈ [3, 2] ∧ timerDiff 4 wT2.1 15 x ≤ 0) →
            ev'.timer_set x = evStart.timer_set x ∧ ev'.timedout x = evStart.timedout x)) :=
  ngx_event_expire_timers_spec 4 14 1 false (fun _ e => e) wT2.1 wT2.2 [3, 2] evStart 15 3 3
    (by decide) wT2_built ⟨1, by decide, by decide⟩ (by decide) (by decide)

theorem wMin1_built : Built 1 wMin1.1 wMin1.2 [2] :=
  Built.insert wMin0.1 2 6 wMin1.1 wMin1.2 (Built.init seqHeap) (by simp) (by decide)
    (fun _ _ => ⟨rfl, rfl, rfl, rfl, rfl⟩) (by decide)
    (some_getD_of_isSome (ngx_rbtree_insert 6 wMin0.1 wMin0.2 2) wMin0 (by decide))

theorem wMin2_built : Built 1 wMin2.1 wMin2.2 [3, 2] :=
  Built.insert wMin1.1 3 6 wMin2.1 wMin2.2 wMin1_built (by simp) (by decide)
    (fun _ _ => ⟨rfl, rfl, rfl, rfl, rfl⟩) (by decide)
    (some_getD_of_isSome (ngx_rbtree_insert 6 wMin1.1 wMin1.2 3) wMin1 (by decide))

theorem wMin3_built : Built 1 wMin3.1 wMin3.2 [4, 3, 2] :=
  Built.insert wMin2.1 4 6 wMin3.1 wMin3.2 wMin2_built (by simp) (by decide)
    (fun _ _ => ⟨rfl, rfl, rfl, rfl, rfl⟩) (by decide)
    (some_getD_of_isSome (ngx_rbtree_insert 6 wMin2.1 wMin2.2 4) wMin2 (by decide))

theorem wMin4_built : Built 1 wMin4.1 wMin4.2 [5, 4, 3, 2] :=
  Built.insert wMin3.1 5 6 wMin4.1 wMin4.2 wMin3_built (by simp) (by decide)
    (fun _ _ => ⟨rfl, rfl, rfl, rfl, rfl⟩) (by decide)
    (some_getD_of_isSome (ngx_rbtree_insert 6 wMin3.1 wMin3.2 5) wMin3 (by decide))

theorem wMin5_built : Built 1 wMin5.1 wMin5.2 [6, 5, 4, 3, 2] :=
  Built.insert wMin4.1 6 6 wMin5.1 wMin5.2 wMin4_built (by simp) (by decide)
    (fun _ _ => ⟨rfl, rfl, rfl, rfl, rfl⟩) (by decide)
    (some_getD_of_isSome (ngx_rbtree_insert 6 wMin4.1 wMin4.2 6) wMin4 (by decide))

theorem wMin6_built : Built 1 wMin6.1 wMin6.2 [6, 5, 4, 2] :=
  Built.delete 3 6 wMin6.1 wMin6.2 wMin5_built (by simp) (by decide)
    (some_getD_of_isSome (ngx_rbtree_delete 6 wMin5.1 wMin5.2 3) wMin5 (by decide))

theorem ngx_rbtree_min_least_witness :
    (wMin6.2.root = 2 ∧ wMin6.1.left 2 = 6 ∧ wMin6.1.left 6 = 5 ∧ wMin6.1.left 5 = 1 ∧
      [2, 4, 5, 6].map wMin6.1.key = [50, 70, 20, 40]) ∧
    ngx_rbtree_min 4 wMin6.1 wMin6.2.root wMin6.2.sentinel = some 5 ∧
    ∃ p, ngx_rbtree_min 4 wMin6.1 wMin6.2.root wMin6.2.sentinel = some p ∧ p ∈ [6, 5, 4, 2] ∧
      ∀ q ∈ [6, 5, 4, 2], wMin6.1.key p ≤ wMin6.1.key q :=
  ⟨by decide, by decide,
    ngx_rbtree_min_least 1 wMin6.1 wMin6.2 [6, 5, 4, 2] 4 wMin6_built (by simp) (by decide)⟩

end RbFactsxxx

/-- On a trie without valueless leaves, an insert that does not return `NGX_ERROR` returns
`NGX_OK` when the prefix is not in the table and `NGX_BUSY` when it is. -/
theorem insert_code {m : RxHeap} {t : ngx_radix_tree_t} {S : List Bool → Option Nat}
    (h : RxGood m t S) (key mask value fuel : Nat) (hfuel : 34 ≤ fuel)
    (r : RxHeap × ngx_radix_tree_t × Int)
    (e : ngx_radix32tree_insert fuel m t key mask value = some r) (hrc : r.2.2 ≠ NGX_ERROR) :
    (r.2.2 = NGX_OK ∧ S (kpath key (maskLen mask)) = none) ∨
    (r.2.2 = NGX_BUSY ∧ S (kpath key (maskLen mask)) ≠ none) := by
  obtain ⟨A, L, hI, -, hS⟩ := h
  obtain ⟨m', t', rc, A', L', e', -, -, -, -, hcase⟩ :=
    ngx_radix32tree_insert_spec hI key mask value fuel hfuel
  rw [e] at e'
  simp only [Option.some.injEq] at e'
  subst e'
  simp only at hrc ⊢
  rcases hcase with ⟨rfl, -, -, -, -, c1, c2⟩ | ⟨rfl, c1, -⟩ | ⟨rfl, -⟩
  · refine Or.inr ⟨rfl, ?_⟩
    rw [← hS]
    unfold content
    rw [if_pos ⟨c1, c2⟩]
    exact fun hc => Option.noConfusion hc
  · exact Or.inl ⟨rfl, by rw [← hS]; exact c1⟩
  · exact absurd rfl hrc

/-- On a trie without valueless leaves, a delete that returns gives `NGX_OK` when the prefix
is in the table and `NGX_ERROR` when it is not. -/
theorem delete_code {m : RxHeap} {t : ngx_radix_tree_t} {S : List Bool → Option Nat}
    (h : RxGood m t S) (key mask fuel : Nat) (hfuel : 34 ≤ fuel)
    (r : RxHeap × ngx_radix_tree_t × Int)
    (e : ngx_radix32tree_delete fuel m t key mask = RxRes.done r) :
    (r.2.2 = NGX_OK ∧ S (kpath key (maskLen mask)) ≠ none) ∨
    (r.2.2 = NGX_ERROR ∧ S (kpath key (maskLen mask)) = none) := by
  obtain ⟨A, L, hI, hlv, hS⟩ := h
  obtain ⟨d1, d2, d3⟩ := ngx_radix32tree_delete_spec hI key mask fuel hfuel
  rw [← hS]
  unfold content
  by_cases hn : A (kpath key (maskLen mask)) = NULL
  · rw [d1 hn] at e
    simp only [RxRes.done.injEq] at e
    subst e
    exact Or.inr ⟨rfl, by rw [if_neg (fun hc => hc.1 hn)]⟩
  · by_cases hch : A (true :: kpath key (maskLen mask)) ≠ NULL ∨
        A (false :: kpath key (maskLen mask)) ≠ NULL
    · by_cases hv : m.value (A (kpath key (maskLen mask))) ≠ NGX_RADIX_NO_VALUE
      · rw [(d2 hn hch).1 hv] at e
        simp only [RxRes.done.injEq] at e
        subst e
        refine Or.inl ⟨rfl, ?_⟩
        rw [if_pos ⟨hn, hv⟩]
        exact fun hc => Option.noConfusion hc
      · rw [(d2 hn hch).2 (not_not.1 hv)] at e
        simp only [RxRes.done.injEq] at e
        subst e
        exact Or.inr ⟨rfl, by rw [if_neg (fun hc => hv hc.2)]⟩
    · simp only [not_or, not_not] at hch
      obtain ⟨d4, d5⟩ := d3 hch.1 hch.2
      by_cases hz : maskLen mask = 0
      · rw [d4 hz] at e
        exact RxRes.noConfusion e
      · obtain ⟨m', t', A', R, e', -⟩ := d5 hn hz
        rw [e'] at e
        simp only [RxRes.done.injEq] at e
        subst e
        refine Or.inl ⟨rfl, ?_⟩
        obtain ⟨n, hn'⟩ : ∃ n, maskLen mask = n + 1 := ⟨maskLen mask - 1, by omega⟩
        rw [hn'] at hn hch ⊢
        have hval := hlv (kbit key n) (kpath key n) hn hch.2 hch.1
        rw [if_pos ⟨hn, hval⟩]
        exact fun hc => Option.noConfusion hc

/-- Along a run without failed inserts the return codes are those of the specification and
the table rebuilt from the return codes is the specification's table. -/
theorem run_codes (fuel : Nat) (hfuel : 34 ≤ fuel) (ops : List RxOp) :
    ∀ (m : RxHeap) (t : ngx_radix_tree_t) (S : List Bool → Option Nat), RxGood m t S →
      rxValuesOK ops →
      ∀ m' t' rcs, rxRun fuel ops m t = RxRes.done (m', t', rcs) → rxNoFail ops rcs →
        rcs = lpmSpecCodes ops S ∧ rxTable ops rcs S = lpmSpecTable ops S := by
  induction ops with
  | nil =>
    intro m t S h _ m' t' rcs e _
    simp only [rxRun, RxRes.done.injEq, Prod.mk.injEq] at e
    obtain ⟨rfl, rfl, rfl⟩ := e
    exact ⟨rfl, rfl⟩
  | cons op ops ih =>
    intro m t S h hv m' t' rcs e2 hnf
    cases op with
    | ins key mask value =>
      obtain ⟨hv1, hv2⟩ := hv
      obtain ⟨m1, t1, rc, e, hg⟩ := insert_good h key mask value fuel hfuel hv1
      simp only [rxRun, e] at e2
      cases hr : rxRun fuel ops m1 t1 with
      | done r =>
        obtain ⟨m2, t2, rcs2⟩ := r
        rw [hr] at e2
        simp only [RxRes.done.injEq, Prod.mk.injEq] at e2
        obtain ⟨rfl, rfl, rfl⟩ := e2
        obtain ⟨i1, i2⟩ := ih m1 t1 _ (hg hnf.1) hv2 _ _ _ hr hnf.2
        rcases insert_code h key mask value fuel hfuel _ e hnf.1 with ⟨c1, c2⟩ | ⟨c1, c2⟩
        · simp only at c1
          subst c1
          rw [if_pos rfl] at i1 i2
          simp only [lpmSpecCodes, lpmSpecTable, rxTable, c2]
          rw [if_pos trivial]
          exact ⟨by rw [← i1], i2⟩
        · simp only at c1
          subst c1
          rw [if_neg (by decide)] at i1 i2
          obtain ⟨v, hv'⟩ := Option.ne_none_iff_exists'.1 c2
          simp only [lpmSpecCodes, lpmSpecTable, rxTable, hv']
          rw [if_neg (by decide)]
          exact ⟨by rw [← i1], i2⟩
      | nullDeref => rw [hr] at e2; simp at e2
      | outOfFuel => rw [hr] at e2; simp at e2
    | del key mask =>
      rcases delete_good h key mask fuel hfuel with e | ⟨m1, t1, rc, e, hg⟩
      · simp [rxRun, e] at e2
      · simp only [rxRun, e] at e2
        cases hr : rxRun fuel ops m1 t1 with
        | done r =>
          obtain ⟨m2, t2, rcs2⟩ := r
          rw [hr] at e2
          simp only [RxRes.done.injEq, Prod.mk.injEq] at e2
          obtain ⟨rfl, rfl, rfl⟩ := e2
          obtain ⟨i1, i2⟩ := ih m1 t1 _ hg hv _ _ _ hr hnf
          rcases delete_code h key mask fuel hfuel _ e with ⟨c1, c2⟩ | ⟨c1, c2⟩
          · simp only at c1
            subst c1
            rw [if_pos rfl] at i1 i2
            obtain ⟨v, hv'⟩ := Option.ne_none_iff_exists'.1 c2
            simp only [lpmSpecCodes, lpmSpecTable, rxTable, hv']
            rw [if_pos trivial]
            exact ⟨by rw [← i1], i2⟩
          · simp only at c1
            subst c1
            rw [if_neg (by decide)] at i1 i2
            have hup : Function.update S (kpath key (maskLen mask)) none = S := by
              rw [← c2]
              exact Function.update_eq_self _ _
            simp only [lpmSpecCodes, lpmSpecTable, rxTable, c2]
            rw [if_neg (by decide), hup]
            exact ⟨by rw [← i1], i2⟩
        | nullDeref => rw [hr] at e2; simp at e2
        | outOfFuel => rw [hr] at e2; simp at e2

/-- C8: for a trie obtained from `ngx_radix_tree_create(pool, 0)` by a sequence of
`ngx_radix32tree_insert` calls (values other than `NGX_RADIX_NO_VALUE`, none returning
`NGX_ERROR`) and `ngx_radix32tree_delete` calls: no call of the run lacks fuel; when the run
returns, its return codes are those of the specification (an insert of a prefix that is
not live returns `NGX_OK` and makes it live, an insert of a live prefix returns `NGX_BUSY`,
a delete returns `NGX_OK` for a live prefix and `NGX_ERROR` otherwise), and for every key
`ngx_radix32tree_find` returns the value of the longest live prefix that matches the key,
and `NGX_RADIX_NO_VALUE` when there is none. -/
theorem ngx_radix32tree_find_lpm (fuel : Nat) (m0 : RxHeap) (pool : ngx_pool_t)
    (ops : List RxOp) (r : RxHeap × ngx_radix_tree_t) (hfuel : 34 ≤ fuel)
    (hok : PoolOK pool) (hv : rxValuesOK ops)
    (hc : ngx_radix_tree_create fuel m0 pool 0 = some r) :
    rxRun fuel ops r.1 r.2 ≠ RxRes.outOfFuel ∧
    ∀ s, rxRun fuel ops r.1 r.2 = RxRes.done s → rxNoFail ops s.2.2 →
      s.2.2 = lpmSpecCodes ops (fun _ => none) ∧
      ∀ key, ngx_radix32tree_find fuel s.1 s.2.1 key =
        some (lpm (lpmSpecTable ops (fun _ => none)) key) := by
  have hg := create_good fuel m0 pool hok r hc
  constructor
  · obtain ⟨A, L, hI, -, -⟩ := hg
    exact run_total fuel hfuel ops _ _ A L hI
  · intro s e hnf
    obtain ⟨c1, c2⟩ := run_codes fuel hfuel ops _ _ _ hg hv s.1 s.2.1 s.2.2 e hnf
    refine ⟨c1, fun key => ?_⟩
    obtain ⟨A, L, hI, -, hS⟩ := run_good fuel hfuel ops _ _ _ hg hv s.1 s.2.1 s.2.2 e hnf
    rw [ngx_radix32tree_find_spec hI.rep key fuel hfuel]
    have : content s.1 A = rxTable ops s.2.2 (fun _ => none) := funext hS
    rw [this, c2]

set_option maxRecDepth 100000 in
theorem rxLpm_run : rxRun 34 rxScenario rxInit.1 rxInit.2 = RxRes.done rxLpm := by
  unfold rxLpm
  exact done_getD_of_isDone _ _ (by decide!)

set_option maxRecDepth 100000 in
theorem rxLpm_codes : rxLpm.2.2 = [NGX_OK, NGX_OK] := by
  decide!

set_option maxRecDepth 100000 in
theorem rxLpm_finds :
    ngx_radix32tree_find 34 rxLpm.1 rxLpm.2.1 (ipv4 192 168 1 5) = some 11 ∧
    ngx_radix32tree_find 34 rxLpm.1 rxLpm.2.1 (ipv4 192 168 1 200) = some 22 ∧
    ngx_radix32tree_find 34 rxLpm.1 rxLpm.2.1 (ipv4 192 168 2 5) =
      some NGX_RADIX_NO_VALUE := by
  decide!

set_option maxRecDepth 100000 in
theorem ngx_radix32tree_find_lpm_witness :
    rxRun 34 rxScenario rxInit.1 rxInit.2 = RxRes.done rxLpm ∧
    rxLpm.2.2 = [NGX_OK, NGX_OK] ∧
    ngx_radix32tree_find 34 rxLpm.1 rxLpm.2.1 (ipv4 192 168 1 5) = some 11 ∧
    ngx_radix32tree_find 34 rxLpm.1 rxLpm.2.1 (ipv4 192 168 1 200) = some 22 ∧
    ngx_radix32tree_find 34 rxLpm.1 rxLpm.2.1 (ipv4 192 168 2 5) = some NGX_RADIX_NO_VALUE ∧
    lpm (lpmSpecTable rxScenario (fun _ => none)) (ipv4 192 168 1 5) = 11 ∧
    lpm (lpmSpecTable rxScenario (fun _ => none)) (ipv4 192 168 1 200) = 22 ∧
    rxLpm.2.2 = lpmSpecCodes rxScenario (fun _ => none) ∧
    ∀ key, ngx_radix32tree_find 34 rxLpm.1 rxLpm.2.1 key =
      some (lpm (lpmSpecTable rxScenario (fun _ => none)) key) :=
  ⟨rxLpm_run, rxLpm_codes, rxLpm_finds.1, rxLpm_finds.2.1, rxLpm_finds.2.2, by decide!,
    by decide!,
    (ngx_radix32tree_find_lpm 34 rxM0 rxPool rxScenario rxInit (by decide) rxPool_ok
      ⟨by decide, by decide, trivial⟩ rxInit_eq).2 rxLpm rxLpm_run
      (by rw [rxLpm_codes]; exact ⟨by decide, by decide, trivial⟩)⟩
